import Mathlib

/-! The library garr: striped adders, lock-free queue, sliding-window counter, circuit
breaker.

A shallow embedding of the Go sources of `line/garr` and theorems about it.

Conventions of the embedding.

* An `int64` is an `Int`; every arithmetic operation of the source that can
  overflow is followed by `wrap64`, the two's-complement wrap-around.
* A Go `int` used as a probe/index is a `Nat` below `2^64` holding its bit
  pattern, so that `&`, `^`, `<<` and `>>` are the bitwise operations of `Nat`.
* Heap objects reached through pointers are explicit state; a pointer is the
  index of the object, `none` is the nil pointer.
* The operations are those executed by one goroutine at a time: a
  compare-and-swap succeeds exactly when the location holds the expected value.
* An unbounded `for` loop takes a `fuel` argument and answers `none` when the
  fuel runs out; `none` is also the answer of an execution that would panic.
-/

namespace Garr

/-! ## Machine integers -/

/-- Two's-complement wrap-around of an integer to the `int64` range. -/
def wrap64 (x : Int) : Int := (x + 2 ^ 63) % 2 ^ 64 - 2 ^ 63

/-- The value is representable as an `int64`. -/
def IsInt64 (x : Int) : Prop := -(2 ^ 63) ≤ x ∧ x < 2 ^ 63

instance (x : Int) : Decidable (IsInt64 x) := by
  unfold IsInt64; infer_instance

/-- Sum of `int64` values accumulated left to right with `+=`, starting from `acc`. -/
def sumWrap (acc : Int) : List Int → Int
  | [] => acc
  | v :: vs => sumWrap (wrap64 (acc + v)) vs

/-- Arithmetic right shift of the bit pattern of a signed 64-bit integer. -/
def sar64 (x k : Nat) : Nat :=
  if x < 2 ^ 63 then x >>> k else (x >>> k) ||| (2 ^ 64 - 2 ^ (64 - k))

/-- The xorshift rehash of `striped64.accumulate`:
`index ^= index << 13; index ^= index >> 17; index ^= index << 5`. -/
def xorshift (index : Nat) : Nat :=
  let i1 := index ^^^ ((index <<< 13) % 2 ^ 64)
  let i2 := i1 ^^^ sar64 i1 17
  i2 ^^^ ((i2 <<< 5) % 2 ^ 64)

/-! ## Runtime environment of package `adder` -/

/-- Modelled from the spec: the helper `getRandomInt` is not under `src/`; it draws the
"pseudo-random integer" of the per-caller probe. The successive results of its calls, and
the result of `runtime.NumCPU()`, are parameters of the embedding. -/
structure Runtime where
  numCPU : Nat
  rand : Nat → Nat
  randPos : Nat

/-- One call of `getRandomInt`: the next value of the random source, as the
bit pattern of a Go `int`. -/
def getRandomInt (rt : Runtime) : Nat × Runtime :=
  (rt.rand rt.randPos % 2 ^ 64, { rt with randPos := rt.randPos + 1 })

/-- The function `normalizeMaxCell` of `striped64.go`. -/
def normalizeMaxCell (v : Int) : Int :=
  if v > 2 ^ 11 then 2 ^ 11
  else if v < 64 then 64
  else v

/-- The package variable `maxCells`, set by `init` to
`normalizeMaxCell(runtime.NumCPU() << 2)`. -/
def maxCells (rt : Runtime) : Int := normalizeMaxCell ((rt.numCPU : Int) * 4)

/-! ## striped64 and JDKAdder -/

/-- A `cells` slice: `arr` identifies the backing array (the address `&as[0]`),
`slots` is the backing array up to the capacity and `len` the slice length.
A slot is `none` while its `atomic.Value` is empty, else the value of its cell. -/
structure Cells where
  arr : Nat
  len : Nat
  slots : List (Option Int)
deriving DecidableEq, Repr

/-- The struct `striped64`. The field `nextArr` is the allocator: the identity
that the next `make(cells, ...)` receives. -/
structure Striped64 where
  cells : Option Cells
  cellsBusy : Int
  base : Int
  nextArr : Nat
deriving DecidableEq, Repr

/-- Outcome of `atomic.CompareAndSwap` on a location holding `cur`. -/
def cas {α : Type} [DecidableEq α] (cur old new : α) : α × Bool :=
  if cur = old then (new, true) else (cur, false)

/-- The method `casBase`. -/
def Striped64.casBase (s : Striped64) (old new : Int) : Striped64 × Bool :=
  let r := cas s.base old new
  ({ s with base := r.1 }, r.2)

/-- The method `casCellsBusy`. -/
def Striped64.casCellsBusy (s : Striped64) : Striped64 × Bool :=
  let r := cas s.cellsBusy 0 1
  ({ s with cellsBusy := r.1 }, r.2)

/-- Store of a cell value in slot `j` of the current table. -/
def Cells.setSlot (c : Cells) (j : Nat) (v : Int) : Cells :=
  { c with slots := c.slots.set j (some v) }

/-- Application of the optional `longBinaryOperator`: `v + x` when `fn == nil`. -/
def applyFn (fn : Option (Int → Int → Int)) (v x : Int) : Int :=
  match fn with
  | none => wrap64 (v + x)
  | some f => f v x

/-- The loop of `striped64.accumulate`. Each clause is one iteration; the local
variables that survive an iteration are `index`, `wasUncontended` and `collide`. -/
def accumulateLoop (mx : Int) (x : Int) (fn : Option (Int → Int → Int)) :
    Nat → Striped64 → Nat → Bool → Bool → Option Striped64
  | 0, _, _, _, _ => none
  | fuel + 1, s, index, wasUncontended, collide =>
    match s.cells with
    | some as =>
      if as.len = 0 then
        -- n < 0: goto checkCells, where `_as == nil` fails; next iteration
        accumulateLoop mx x fn fuel s index wasUncontended collide
      else
        let n := as.len - 1
        match as.slots[index &&& n]? with
        | none => none
        | some none =>
          -- a == nil
          if s.cellsBusy = 0 then
            -- optimistically create the cell, then try to lock
            let l := s.casCellsBusy
            if s.cellsBusy = 0 ∧ l.2 = true then
              match l.1.cells with
              | none => none
              | some rs =>
                if 0 < rs.len then
                  let j := index &&& (rs.len - 1)
                  match rs.slots[j]? with
                  | none => none
                  | some none =>
                    some { l.1 with cells := some (rs.setSlot j x), cellsBusy := 0 }
                  | some (some _) =>
                    accumulateLoop mx x fn fuel { l.1 with cellsBusy := 0 } index
                      wasUncontended collide
                else
                  accumulateLoop mx x fn fuel { l.1 with cellsBusy := 0 } index
                    wasUncontended collide
            else
              accumulateLoop mx x fn fuel s (xorshift index) wasUncontended false
          else
            accumulateLoop mx x fn fuel s (xorshift index) wasUncontended false
        | some (some v) =>
          if wasUncontended = false then
            accumulateLoop mx x fn fuel s (xorshift index) true collide
          else
            let index := index &&& n
            let newV := applyFn fn v x
            let c := cas v v newV
            if c.2 = true then
              some { s with cells := some (as.setSlot index c.1) }
            else if (n : Int) ≥ mx ∨ s.cells.map Cells.arr ≠ some as.arr then
              accumulateLoop mx x fn fuel s (xorshift index) wasUncontended false
            else if collide = false then
              accumulateLoop mx x fn fuel s (xorshift index) wasUncontended true
            else
              let l := s.casCellsBusy
              if s.cellsBusy = 0 ∧ l.2 = true then
                match l.1.cells with
                | none => none
                | some rs =>
                  if as.arr = rs.arr then
                    let cap := as.slots.length
                    if as.len < cap then
                      accumulateLoop mx x fn fuel
                        { l.1 with cells := some { rs with len := cap }, cellsBusy := 0 }
                        index wasUncontended false
                    else
                      let grown : Cells :=
                        { arr := l.1.nextArr, len := cap * 2,
                          slots := as.slots.take as.len ++
                            List.replicate (cap * 4 - as.len) none }
                      accumulateLoop mx x fn fuel
                        { l.1 with cells := some grown, cellsBusy := 0,
                                   nextArr := l.1.nextArr + 1 }
                        index wasUncontended false
                  else
                    accumulateLoop mx x fn fuel { l.1 with cellsBusy := 0 } index
                      wasUncontended false
              else
                accumulateLoop mx x fn fuel s (xorshift index) wasUncontended collide
    | none =>
      -- checkCells with `_as == nil`
      let l := s.casCellsBusy
      if s.cellsBusy = 0 ∧ s.cells = none ∧ l.2 = true then
        if l.1.cells = none then
          let rs : Cells :=
            { arr := l.1.nextArr, len := 2,
              slots := (List.replicate 4 (none : Option Int)).set (index &&& 1) (some x) }
          some { l.1 with cells := some rs, cellsBusy := 0, nextArr := l.1.nextArr + 1 }
        else
          accumulateLoop mx x fn fuel { l.1 with cellsBusy := 0 } index wasUncontended collide
      else
        let v := s.base
        let b := s.casBase v (applyFn fn v x)
        if b.2 = true then some b.1
        else accumulateLoop mx x fn fuel b.1 index wasUncontended collide

/-- The method `striped64.accumulate`. -/
def Striped64.accumulate (fuel : Nat) (s : Striped64) (rt : Runtime) (index : Nat) (x : Int)
    (fn : Option (Int → Int → Int)) (wasUncontended : Bool) : Option (Striped64 × Runtime) :=
  let p : (Nat × Bool) × Runtime :=
    if index = 0 then (((getRandomInt rt).1, true), (getRandomInt rt).2)
    else ((index, wasUncontended), rt)
  (accumulateLoop (maxCells rt) x fn fuel s p.1.1 p.1.2 false).map fun s1 => (s1, p.2)

/-- The struct `JDKAdder`, which embeds `striped64`. -/
abbrev JDKAdder := Striped64

/-- The constructor `NewJDKAdder`: the zero value of the struct. -/
def NewJDKAdder : JDKAdder := { cells := none, cellsBusy := 0, base := 0, nextArr := 0 }

/-- The method `JDKAdder.Add`. -/
def JDKAdder.Add (fuel : Nat) (u : JDKAdder) (rt : Runtime) (x : Int) :
    Option (JDKAdder × Runtime) :=
  match u.cells with
  | some as =>
    -- `_as != nil`: the flag named `uncontended` is set and the cells are probed
    if as.len = 0 then
      Striped64.accumulate fuel u (getRandomInt rt).2 (getRandomInt rt).1 x none true
    else
      let m := as.len - 1
      let probe := (getRandomInt rt).1 &&& m
      let rt1 := (getRandomInt rt).2
      match as.slots[probe]? with
      | none => none
      | some none => Striped64.accumulate fuel u rt1 probe x none true
      | some (some v) =>
        let c := cas v v (wrap64 (v + x))
        if c.2 = true then some ({ u with cells := some (as.setSlot probe c.1) }, rt1)
        else Striped64.accumulate fuel u rt1 probe x none false
  | none =>
    let b := u.casBase u.base (wrap64 (u.base + x))
    if b.2 = false then
      Striped64.accumulate fuel b.1 (getRandomInt rt).2 (getRandomInt rt).1 x none true
    else some (b.1, rt)

/-- The method `JDKAdder.Inc`. -/
def JDKAdder.Inc (fuel : Nat) (u : JDKAdder) (rt : Runtime) : Option (JDKAdder × Runtime) :=
  JDKAdder.Add fuel u rt 1

/-- The method `JDKAdder.Dec`. -/
def JDKAdder.Dec (fuel : Nat) (u : JDKAdder) (rt : Runtime) : Option (JDKAdder × Runtime) :=
  JDKAdder.Add fuel u rt (-1)

/-- The values of the installed cells among the first `len` slots, in order. -/
def Cells.vals (c : Cells) : List Int :=
  (c.slots.take c.len).filterMap id

/-- The method `JDKAdder.Sum`: `base` plus every installed cell, added with `+=`. -/
def JDKAdder.Sum (u : JDKAdder) : Int :=
  match u.cells with
  | none => u.base
  | some as => sumWrap u.base as.vals

/-- The method `JDKAdder.Store`. -/
def JDKAdder.Store (u : JDKAdder) (v : Int) : JDKAdder :=
  match u.cells with
  | none => { u with base := v }
  | some as =>
    { u with base := v,
             cells := some { arr := u.nextArr, len := as.len,
                             slots := List.replicate as.len (some 0) },
             nextArr := u.nextArr + 1 }

/-- The method `JDKAdder.Reset`. -/
def JDKAdder.Reset (u : JDKAdder) : JDKAdder := JDKAdder.Store u 0

/-- The method `JDKAdder.SumAndReset`. -/
def JDKAdder.SumAndReset (u : JDKAdder) : Int × JDKAdder :=
  (JDKAdder.Sum u, JDKAdder.Reset u)

/-! ## RandomCellAdder, AtomicAdder, MutexAdder and the LongAdder interface -/

/-- The constant `randomCellSize`. -/
def randomCellSize : Nat := 2 ^ 7

/-- The constant `randomCellSizeMinus`. -/
def randomCellSizeMinus : Nat := randomCellSize - 1

/-- The struct `RandomCellAdder`. -/
structure RandomCellAdder where
  cells : List Int
deriving DecidableEq, Repr

/-- The constructor `NewRandomCellAdder`. -/
def NewRandomCellAdder : RandomCellAdder := { cells := List.replicate randomCellSize 0 }

/-- The method `RandomCellAdder.Add`. -/
def RandomCellAdder.Add (r : RandomCellAdder) (rt : Runtime) (x : Int) :
    Option (RandomCellAdder × Runtime) :=
  let i := (getRandomInt rt).1 &&& randomCellSizeMinus
  match r.cells[i]? with
  | none => none
  | some v => some ({ cells := r.cells.set i (wrap64 (v + x)) }, (getRandomInt rt).2)

/-- The method `RandomCellAdder.Sum`. -/
def RandomCellAdder.Sum (r : RandomCellAdder) : Int := sumWrap 0 r.cells

/-- The struct `AtomicAdder`. -/
structure AtomicAdder where
  value : Int
deriving DecidableEq, Repr

/-- The constructor `NewAtomicAdder`. -/
def NewAtomicAdder : AtomicAdder := { value := 0 }

/-- The method `AtomicAdder.Add`. -/
def AtomicAdder.Add (a : AtomicAdder) (x : Int) : AtomicAdder := { value := wrap64 (a.value + x) }

/-- The method `AtomicAdder.Sum`. -/
def AtomicAdder.Sum (a : AtomicAdder) : Int := a.value

/-- The struct `MutexAdder` (the lock is free between two calls of one goroutine). -/
structure MutexAdder where
  value : Int
deriving DecidableEq, Repr

/-- The constructor `NewMutexAdder`. -/
def NewMutexAdder : MutexAdder := { value := 0 }

/-- The method `MutexAdder.Add`. -/
def MutexAdder.Add (m : MutexAdder) (x : Int) : MutexAdder := { value := wrap64 (m.value + x) }

/-- The method `MutexAdder.Sum`. -/
def MutexAdder.Sum (m : MutexAdder) : Int := m.value

/-- The constants of type `Type` of package `adder` (a byte, numbered by `iota`). -/
def JDKAdderType : Nat := 0

/-- See `JDKAdderType`. -/
def RandomCellAdderType : Nat := 1

/-- See `JDKAdderType`. -/
def AtomicAdderType : Nat := 2

/-- See `JDKAdderType`. -/
def MutexAdderType : Nat := 3

/-- A value of the interface `LongAdder`: one of its four implementations. -/
inductive LongAdder where
  | jdk (u : JDKAdder)
  | randomCell (r : RandomCellAdder)
  | atomic (a : AtomicAdder)
  | mutex (m : MutexAdder)
deriving DecidableEq, Repr

/-- The function `NewLongAdder`. -/
def NewLongAdder (t : Nat) : LongAdder :=
  if t = MutexAdderType then .mutex NewMutexAdder
  else if t = AtomicAdderType then .atomic NewAtomicAdder
  else if t = RandomCellAdderType then .randomCell NewRandomCellAdder
  else .jdk NewJDKAdder

/-- Dynamic dispatch of `Add`. -/
def LongAdder.Add (fuel : Nat) (a : LongAdder) (rt : Runtime) (x : Int) :
    Option (LongAdder × Runtime) :=
  match a with
  | .jdk u => (JDKAdder.Add fuel u rt x).map fun p => (.jdk p.1, p.2)
  | .randomCell r => (RandomCellAdder.Add r rt x).map fun p => (.randomCell p.1, p.2)
  | .atomic a => some (.atomic (a.Add x), rt)
  | .mutex m => some (.mutex (m.Add x), rt)

/-- Dynamic dispatch of `Inc`: every implementation calls its `Add(1)`. -/
def LongAdder.Inc (fuel : Nat) (a : LongAdder) (rt : Runtime) : Option (LongAdder × Runtime) :=
  LongAdder.Add fuel a rt 1

/-- Dynamic dispatch of `Dec`: every implementation calls its `Add(-1)`. -/
def LongAdder.Dec (fuel : Nat) (a : LongAdder) (rt : Runtime) : Option (LongAdder × Runtime) :=
  LongAdder.Add fuel a rt (-1)

/-- Dynamic dispatch of `Sum`. -/
def LongAdder.Sum (a : LongAdder) : Int :=
  match a with
  | .jdk u => JDKAdder.Sum u
  | .randomCell r => r.Sum
  | .atomic a => a.Sum
  | .mutex m => m.Sum

/-- An updating call made on a `LongAdder`. -/
inductive AdderCall where
  | add (x : Int)
  | inc
  | dec
deriving DecidableEq, Repr

/-- The amount a call contributes to the sum. -/
def AdderCall.delta : AdderCall → Int
  | .add x => x
  | .inc => 1
  | .dec => -1

/-- One call executed on an adder. -/
def LongAdder.call (fuel : Nat) (a : LongAdder) (rt : Runtime) : AdderCall →
    Option (LongAdder × Runtime)
  | .add x => LongAdder.Add fuel a rt x
  | .inc => LongAdder.Inc fuel a rt
  | .dec => LongAdder.Dec fuel a rt

/-- A sequence of calls executed in order by one goroutine. -/
def LongAdder.run (fuel : Nat) : LongAdder → Runtime → List AdderCall →
    Option (LongAdder × Runtime)
  | a, rt, [] => some (a, rt)
  | a, rt, c :: cs =>
    match LongAdder.call fuel a rt c with
    | none => none
    | some p => LongAdder.run fuel p.1 p.2 cs

/-- The relation between an adder used by one goroutine and the exact sum `S` of the
amounts added to it. -/
def LongAdder.Tracks (a : LongAdder) (S : Int) : Prop :=
  match a with
  | .jdk u => u.cells = none ∧ u.base = wrap64 S
  | .randomCell r => r.cells.length = randomCellSize ∧ wrap64 r.cells.sum = wrap64 S
  | .atomic a => a.value = wrap64 S
  | .mutex m => m.value = wrap64 S

/-! ## Package `queue`: JDKLinkedQueue -/

/-- The struct `linkedListNode`. `_v` is the value (an `interface{}`, `none` for nil),
`_i` tells whether the item pointer is non-nil (the pointer is private to the node, so a
compare-and-swap on it only depends on whether it is nil) and `_n` is the next pointer. -/
structure LinkedListNode (α : Type) where
  _v : Option α
  _i : Bool
  _n : Option Nat
deriving DecidableEq, Repr

/-- The struct `JDKLinkedQueue`, with the heap of the nodes allocated so far:
the pointer to a node is its position in `nodes`. -/
structure JDKLinkedQueue (α : Type) where
  nodes : List (LinkedListNode α)
  h : Nat
  t : Nat
deriving DecidableEq, Repr

namespace JDKLinkedQueue

variable {α : Type}

/-- The constructor `NewJDKLinkedQueue`: head and tail point to one empty node. -/
def new : JDKLinkedQueue α := { nodes := [⟨none, false, none⟩], h := 0, t := 0 }

/-- The method `linkedListNode.setNext` on node `p` (also the effect of a successful
`casNext`). -/
def setNext (q : JDKLinkedQueue α) (p : Nat) (nx : Option Nat) : JDKLinkedQueue α :=
  { q with nodes := q.nodes.modify (fun nd => { nd with _n := nx }) p }

/-- The method `linkedListNode.setItemNil` on node `p` (also the effect of a successful
`casItemNil`). -/
def setItemNil (q : JDKLinkedQueue α) (p : Nat) : JDKLinkedQueue α :=
  { q with nodes := q.nodes.modify (fun nd => { nd with _i := false }) p }

/-- The method `casTail`. -/
def casTail (q : JDKLinkedQueue α) (old new : Nat) : JDKLinkedQueue α × Bool :=
  let r := cas q.t old new
  ({ q with t := r.1 }, r.2)

/-- The method `casHead`. -/
def casHead (q : JDKLinkedQueue α) (old new : Nat) : JDKLinkedQueue α × Bool :=
  let r := cas q.h old new
  ({ q with h := r.1 }, r.2)

/-- The method `updateHead`. -/
def updateHead (q : JDKLinkedQueue α) (h p : Nat) : JDKLinkedQueue α :=
  if h ≠ p ∧ (q.casHead h p).2 = true then (q.casHead h p).1.setNext h (some h) else q

/-- The loop of `Offer`; `newNode` is the node allocated for the value. -/
def offerLoop (newNode : Nat) : Nat → JDKLinkedQueue α → Nat → Nat → Option (JDKLinkedQueue α)
  | 0, _, _, _ => none
  | fuel + 1, q, t, p =>
    match q.nodes[p]? with
    | none => none
    | some _p =>
      match _p._n with
      | none =>
        -- p is last node
        let c := cas _p._n none (some newNode)
        if c.2 = true then
          let q1 := q.setNext p c.1
          if p ≠ t then some (q1.casTail t newNode).1 else some q1
        else offerLoop newNode fuel q t p
      | some nx =>
        if p = nx then
          -- fallen off list
          if t ≠ q.t then offerLoop newNode fuel q q.t q.t
          else offerLoop newNode fuel q q.t q.h
        else if p ≠ t then
          if t ≠ q.t then offerLoop newNode fuel q q.t q.t
          else offerLoop newNode fuel q q.t nx
        else offerLoop newNode fuel q t nx

/-- The method `Offer`. -/
def Offer (fuel : Nat) (q : JDKLinkedQueue α) (v : Option α) : Option (JDKLinkedQueue α) :=
  match v with
  | none => some q
  | some a =>
    let newNode := q.nodes.length
    let q1 : JDKLinkedQueue α := { q with nodes := q.nodes ++ [⟨some a, true, none⟩] }
    offerLoop newNode fuel q1 q1.t q1.t

/-- The loops of `Poll`: `h` is the head read by the outer loop and `p` the node
inspected by the inner loop; `goto loop` restarts from the current head. -/
def pollLoop : Nat → JDKLinkedQueue α → Nat → Nat → Option (Option α × JDKLinkedQueue α)
  | 0, _, _, _ => none
  | fuel + 1, q, h, p =>
    match q.nodes[p]? with
    | none => none
    | some _p =>
      if _p._i = true ∧ (cas _p._i true false).2 = true then
        let q1 := q.setItemNil p
        if p ≠ h then
          match _p._n with
          | some nx => some (_p._v, q1.updateHead h nx)
          | none => some (_p._v, q1.updateHead h p)
        else some (_p._v, q1)
      else
        match _p._n with
        | none => some (none, q.updateHead h p)
        | some nx =>
          if p = nx then pollLoop fuel q q.h q.h
          else pollLoop fuel q h nx

/-- The method `Poll`. -/
def Poll (fuel : Nat) (q : JDKLinkedQueue α) : Option (Option α × JDKLinkedQueue α) :=
  pollLoop fuel q q.h q.h

/-- The loops of `Peek`. -/
def peekLoop : Nat → JDKLinkedQueue α → Nat → Nat → Option (Option α × JDKLinkedQueue α)
  | 0, _, _, _ => none
  | fuel + 1, q, h, p =>
    match q.nodes[p]? with
    | none => none
    | some _p =>
      if _p._i = true then some (_p._v, q.updateHead h p)
      else
        match _p._n with
        | none => some (none, q.updateHead h p)
        | some nx =>
          if p = nx then peekLoop fuel q q.h q.h
          else peekLoop fuel q h nx

/-- The method `Peek`. -/
def Peek (fuel : Nat) (q : JDKLinkedQueue α) : Option (Option α × JDKLinkedQueue α) :=
  peekLoop fuel q q.h q.h

/-- The loops of `first`: the first live node, or nil. -/
def firstLoop : Nat → JDKLinkedQueue α → Nat → Nat → Option (Option Nat × JDKLinkedQueue α)
  | 0, _, _, _ => none
  | fuel + 1, q, h, p =>
    match q.nodes[p]? with
    | none => none
    | some _p =>
      if _p._i = true then some (some p, q.updateHead h p)
      else
        match _p._n with
        | none => some (none, q.updateHead h p)
        | some nx =>
          if p = nx then firstLoop fuel q q.h q.h
          else firstLoop fuel q h nx

/-- The method `first`. -/
def first (fuel : Nat) (q : JDKLinkedQueue α) : Option (Option Nat × JDKLinkedQueue α) :=
  firstLoop fuel q q.h q.h

/-- The method `IsEmpty`. -/
def IsEmpty (fuel : Nat) (q : JDKLinkedQueue α) : Option (Bool × JDKLinkedQueue α) :=
  (first fuel q).map fun r => (r.1.isNone, r.2)

/-- The constant `math.MaxInt32`. -/
def maxInt32 : Int := 2 ^ 31 - 1

/-- The loops of `Size`: `p` is the node inspected and `count` the running count;
`goto loop` starts again from `first()` with a zero count. -/
def sizeLoop : Nat → JDKLinkedQueue α → Option Nat → Int → Option (Int × JDKLinkedQueue α)
  | 0, _, _, _ => none
  | fuel + 1, q, p, count =>
    match p with
    | none => some (count, q)
    | some i =>
      match q.nodes[i]? with
      | none => none
      | some _p =>
        let count1 := if _p._i = true then count + 1 else count
        if _p._i = true ∧ count1 = maxInt32 then some (count1, q)
        else if _p._n = some i then
          match first fuel q with
          | none => none
          | some r => sizeLoop fuel r.2 r.1 0
        else sizeLoop fuel q _p._n count1

/-- The method `Size`. -/
def Size (fuel : Nat) (q : JDKLinkedQueue α) : Option (Int × JDKLinkedQueue α) :=
  match first fuel q with
  | none => none
  | some r => sizeLoop fuel r.2 r.1 0

/-- The method `succ`: the successor of node `node`, or the head when the node is
linked to itself. -/
def succ (q : JDKLinkedQueue α) (node : Nat) : Option (Option Nat) :=
  match q.nodes[node]? with
  | none => none
  | some nd => if nd._n = some node then some (some q.h) else some nd._n

end JDKLinkedQueue

/-- The struct `jdkLinkedQueueIter` without its pointer to the queue, which the
operations receive as an argument. `nextItem` tells whether the item pointer is non-nil. -/
structure JdkLinkedQueueIter (α : Type) where
  nextNode : Option Nat
  nextItem : Bool
  nextVal : Option α
  lastRet : Option Nat
deriving DecidableEq, Repr

namespace JdkLinkedQueueIter

variable {α : Type}

/-- The loops of `newJdkLinkedQueueIter`. -/
def newLoop : Nat → JDKLinkedQueue α → Nat → Nat →
    Option (JdkLinkedQueueIter α × JDKLinkedQueue α)
  | 0, _, _, _ => none
  | fuel + 1, q, h, p =>
    match q.nodes[p]? with
    | none => none
    | some _p =>
      if _p._i = true then
        some ({ nextNode := some p, nextItem := true, nextVal := _p._v, lastRet := none },
              q.updateHead h p)
      else
        match _p._n with
        | none =>
          some ({ nextNode := none, nextItem := false, nextVal := none, lastRet := none },
                q.updateHead h p)
        | some nx =>
          if p = nx then newLoop fuel q q.h q.h
          else newLoop fuel q h nx

/-- The constructor `newJdkLinkedQueueIter` (the method `Iterator` of the queue). -/
def new (fuel : Nat) (q : JDKLinkedQueue α) : Option (JdkLinkedQueueIter α × JDKLinkedQueue α) :=
  newLoop fuel q q.h q.h

/-- The method `HasNext`. -/
def HasNext (it : JdkLinkedQueueIter α) : Bool := it.nextItem

/-- The loop of `Next`: `pred` is the node returned by this call, `p` the node
inspected, `item` and `val` the locals last assigned. -/
def nextLoop (pred : Nat) : Nat → JDKLinkedQueue α → JdkLinkedQueueIter α → Option Nat →
    Bool → Option α → Option (Option α × JdkLinkedQueueIter α × JDKLinkedQueue α)
  | 0, _, _, _, _, _ => none
  | fuel + 1, q, it, p, item, val =>
    match p with
    | none =>
      some (it.nextVal, { it with nextNode := none, nextItem := item, nextVal := val }, q)
    | some pi =>
      match q.nodes[pi]? with
      | none => none
      | some _p =>
        if _p._i = true then
          some (it.nextVal, { it with nextNode := some pi, nextItem := _p._i, nextVal := _p._v }, q)
        else
          -- unlink deleted nodes
          match q.succ pi, q.nodes[pred]? with
          | some (some nx), some _pred =>
            let c := cas _pred._n (some pi) (some nx)
            let q1 := if c.2 = true then q.setNext pred c.1 else q
            nextLoop pred fuel q1 it (some nx) _p._i _p._v
          | some none, _ => nextLoop pred fuel q it none _p._i _p._v
          | _, _ => none

/-- The method `Next`. -/
def Next (fuel : Nat) (q : JDKLinkedQueue α) (it : JdkLinkedQueueIter α) :
    Option (Option α × JdkLinkedQueueIter α × JDKLinkedQueue α) :=
  match it.nextNode with
  | none => some (none, it, q)
  | some pred =>
    match q.succ pred with
    | none => none
    | some p => nextLoop pred fuel q { it with lastRet := some pred } p false none

/-- The method `Remove`. -/
def Remove (q : JDKLinkedQueue α) (it : JdkLinkedQueueIter α) :
    JdkLinkedQueueIter α × JDKLinkedQueue α :=
  match it.lastRet with
  | none => (it, q)
  | some l => ({ it with lastRet := none }, q.setItemNil l)

end JdkLinkedQueueIter

/-! ### Invariant and abstraction of the queue -/

namespace JDKLinkedQueue

variable {α : Type}

/-- The node `i` holds an item (it is not logically deleted). -/
def live (nodes : List (LinkedListNode α)) (i : Nat) : Bool :=
  match nodes[i]? with
  | some nd => nd._i
  | none => false

/-- The value of node `i`. -/
def valOf (nodes : List (LinkedListNode α)) (i : Nat) : Option α :=
  match nodes[i]? with
  | some nd => nd._v
  | none => none

/-- The next pointer of node `i`. -/
def nextOf (nodes : List (LinkedListNode α)) (i : Nat) : Option Nat :=
  match nodes[i]? with
  | some nd => nd._n
  | none => none

/-- The heap invariant between two operations: head and tail are allocated; the last
allocated node is the only one without successor; every other node is linked either to a
later node or, when it lies before the head, possibly to itself; a live node has a value. -/
structure WF (q : JDKLinkedQueue α) : Prop where
  h_lt : q.h < q.nodes.length
  t_lt : q.t < q.nodes.length
  last : ∀ i, i + 1 = q.nodes.length → nextOf q.nodes i = none
  link : ∀ i, i + 1 < q.nodes.length →
    (nextOf q.nodes i = some i ∧ i < q.h) ∨ (∃ j, nextOf q.nodes i = some j ∧ i < j ∧ j < q.nodes.length)
  vals : ∀ i, live q.nodes i = true → (valOf q.nodes i).isSome = true

/-- The list `c` is the chain of nodes from `p` to the last node, along forward links. -/
inductive Chain (nodes : List (LinkedListNode α)) : Nat → List Nat → Prop where
  | last (p : Nat) : p < nodes.length → nextOf nodes p = none → Chain nodes p [p]
  | cons (p j : Nat) (c : List Nat) : p < nodes.length → nextOf nodes p = some j → p < j →
      Chain nodes j c → Chain nodes p (p :: c)

/-- The values of the live nodes of a chain, in order. -/
def liveVals (nodes : List (LinkedListNode α)) (c : List Nat) : List α :=
  c.filterMap fun i => if live nodes i = true then valOf nodes i else none

/-- The queue reached by `Offer(a)`: the new node is appended to the heap and linked
after the last node; the tail moves to it unless the last node was the tail. -/
def offered (q : JDKLinkedQueue α) (a : α) : JDKLinkedQueue α :=
  { nodes := (q.nodes ++ [({ _v := some a, _i := true, _n := none } : LinkedListNode α)]).modify
      (fun nd => { nd with _n := some q.nodes.length }) (q.nodes.length - 1),
    h := q.h,
    t := if q.nodes.length - 1 ≠ q.t then q.nodes.length else q.t }

/-- The queue `q` represents the FIFO list `l`: the heap is well formed and the live
values along the chain from the head are the elements of `l`, oldest first. -/
def Abs (q : JDKLinkedQueue α) (l : List α) : Prop :=
  WF q ∧ ∃ c, Chain q.nodes q.h c ∧ liveVals q.nodes c = l

end JDKLinkedQueue

/-! ### Traces of queue calls and the FIFO list they are compared with -/

/-- A call of the `Queue` interface (the iterator apart). -/
inductive QueueCall (α : Type) where
  | offer (v : Option α)
  | poll
  | peek
  | size
  | isEmpty
deriving DecidableEq, Repr

/-- What a call of the `Queue` interface returns. -/
inductive QueueResult (α : Type) where
  | done
  | value (v : Option α)
  | count (n : Int)
  | flag (b : Bool)
deriving DecidableEq, Repr

namespace JDKLinkedQueue

variable {α : Type}

/-- One call executed on the queue. -/
def call (fuel : Nat) (q : JDKLinkedQueue α) :
    QueueCall α → Option (QueueResult α × JDKLinkedQueue α)
  | .offer v => (Offer fuel q v).map fun q1 => (.done, q1)
  | .poll => (Poll fuel q).map fun r => (.value r.1, r.2)
  | .peek => (Peek fuel q).map fun r => (.value r.1, r.2)
  | .size => (Size fuel q).map fun r => (.count r.1, r.2)
  | .isEmpty => (IsEmpty fuel q).map fun r => (.flag r.1, r.2)

/-- A trace of calls executed in order by one goroutine: the list of the results. -/
def run (fuel : Nat) : JDKLinkedQueue α → List (QueueCall α) → Option (List (QueueResult α))
  | _, [] => some []
  | q, c :: cs =>
    match call fuel q c with
    | none => none
    | some r =>
      match run fuel r.2 cs with
      | none => none
      | some rs => some (r.1 :: rs)

end JDKLinkedQueue

/-- The plain FIFO list of the specification: `Offer(nil)` changes nothing, `Poll` removes
and returns the oldest value, `Peek` returns it, `Size` is the number of values and
`IsEmpty` holds when that number is 0. -/
def fifoCall {α : Type} (l : List α) : QueueCall α → QueueResult α × List α
  | .offer none => (.done, l)
  | .offer (some a) => (.done, l ++ [a])
  | .poll => (.value l.head?, l.tail)
  | .peek => (.value l.head?, l)
  | .size => (.count l.length, l)
  | .isEmpty => (.flag (decide (l.length = 0)), l)

/-- The results of a trace on the FIFO list of the specification. -/
def fifoRun {α : Type} : List α → List (QueueCall α) → List (QueueResult α)
  | _, [] => []
  | l, c :: cs => (fifoCall l c).1 :: fifoRun (fifoCall l c).2 cs

/-- The FIFO list whose `Size` is an `int32` saturating at `math.MaxInt32`. -/
def fifoSatCall {α : Type} (l : List α) : QueueCall α → QueueResult α × List α
  | .size => (.count (min (l.length : Int) JDKLinkedQueue.maxInt32), l)
  | c => fifoCall l c

/-- The results of a trace on the FIFO list with saturating `Size`. -/
def fifoSatRun {α : Type} : List α → List (QueueCall α) → List (QueueResult α)
  | _, [] => []
  | l, c :: cs => (fifoSatCall l c).1 :: fifoSatRun (fifoSatCall l c).2 cs

/-! ### A pass of the iterator that removes the values satisfying a predicate -/

namespace JdkLinkedQueueIter

variable {α : Type}

/-- The loop `for iter.HasNext() { v := iter.Next(); if P(v) { iter.Remove() } }`;
`seen` collects the results of `Next`. -/
def removeLoop (P : α → Bool) (fuel : Nat) : Nat → JDKLinkedQueue α → JdkLinkedQueueIter α →
    List (Option α) → Option (List (Option α) × JDKLinkedQueue α)
  | 0, _, _, _ => none
  | n + 1, q, it, seen =>
    if it.HasNext = true then
      match it.Next fuel q with
      | none => none
      | some r =>
        match r.1 with
        | some a =>
          if P a = true then
            removeLoop P fuel n (r.2.1.Remove r.2.2).2 (r.2.1.Remove r.2.2).1 (seen ++ [r.1])
          else removeLoop P fuel n r.2.2 r.2.1 (seen ++ [r.1])
        | none => removeLoop P fuel n r.2.2 r.2.1 (seen ++ [r.1])
    else some (seen, q)

/-- A pass over the queue with a fresh iterator, removing the values that satisfy `P`:
the results of `Next` in order, and the queue afterwards. -/
def removePass (P : α → Bool) (fuel : Nat) (q : JDKLinkedQueue α) :
    Option (List (Option α) × JDKLinkedQueue α) :=
  match JdkLinkedQueueIter.new fuel q with
  | none => none
  | some r => removeLoop P fuel fuel r.2 r.1 []

/-- The iterator `it` stands in the queue `q` between the values `kept`, which it has
passed and which are still in the queue, and the values `rest`, which it has yet to return:
the chain from the head splits into `pre` and `post` holding these values, and the
iterator has cached the first node of `post`, which is live, or nil when `rest` is empty. -/
def IterAt (q : JDKLinkedQueue α) (it : JdkLinkedQueueIter α) (kept rest : List α) : Prop :=
  JDKLinkedQueue.WF q ∧ ∃ pre post, JDKLinkedQueue.Chain q.nodes q.h (pre ++ post) ∧
    JDKLinkedQueue.liveVals q.nodes pre = kept ∧ JDKLinkedQueue.liveVals q.nodes post = rest ∧
    match it.nextNode with
    | some p => (∃ post', post = p :: post') ∧ JDKLinkedQueue.live q.nodes p = true ∧
        it.nextVal = JDKLinkedQueue.valOf q.nodes p ∧ it.nextItem = true
    | none => it.nextItem = false ∧ rest = []

end JdkLinkedQueueIter

namespace JDKLinkedQueue

variable {α : Type}

/-- The values offered one after the other. -/
def offerAll (fuel : Nat) : JDKLinkedQueue α → List α → Option (JDKLinkedQueue α)
  | q, [] => some q
  | q, a :: as =>
    match Offer fuel q (some a) with
    | none => none
    | some q1 => offerAll fuel q1 as

end JDKLinkedQueue

/-! ## Package `cbreaker`: event counts and the sliding-window counter -/

/-- Modelled from the spec: the interface `Ticker` is not under `src/`; it is "an abstract
Ticker returning monotonic nanoseconds" through `Tick() int64`. The successive results of
its calls are a parameter of the embedding; nothing is assumed about them. -/
structure Ticker where
  ticks : Nat → Int
  pos : Nat

/-- One call of `Tick()`: the next value of the time source, an `int64`. -/
def Ticker.Tick (tk : Ticker) : Int × Ticker :=
  (wrap64 (tk.ticks tk.pos), { tk with pos := tk.pos + 1 })

/-- The struct `EventCount`. -/
structure EventCount where
  success : Int
  failure : Int
deriving DecidableEq, Repr

/-- The constructor `NewEventCount`. -/
def NewEventCount (success failure : Int) : EventCount := { success := success, failure := failure }

/-- The variable `EventCountZero`. -/
def EventCountZero : EventCount := NewEventCount 0 0

/-- The method `EventCount.Total`. -/
def EventCount.Total (e : EventCount) : Int := wrap64 (e.success + e.failure)

/-- The struct `bucket`. -/
structure Bucket where
  timestamp : Int
  s : LongAdder
  f : LongAdder
deriving DecidableEq, Repr

/-- The function `newBucket`. -/
def newBucket (timestamp : Int) : Bucket :=
  { timestamp := timestamp, s := NewLongAdder JDKAdderType, f := NewLongAdder JDKAdderType }

/-- The method `bucket.add`. -/
def Bucket.add (fuel : Nat) (b : Bucket) (rt : Runtime) (succ : Bool) : Option (Bucket × Runtime) :=
  if succ = true then (LongAdder.Add fuel b.s rt 1).map fun r => ({ b with s := r.1 }, r.2)
  else (LongAdder.Add fuel b.f rt 1).map fun r => ({ b with f := r.1 }, r.2)

/-- The method `bucket.success`. -/
def Bucket.success (b : Bucket) : Int := b.s.Sum

/-- The method `bucket.failure`. -/
def Bucket.failure (b : Bucket) : Int := b.f.Sum

/-- The struct `SlidingWindowCounter`. The buckets are held by value: a bucket is written
only while it is the current one, or before it is offered to the reservoir. -/
structure SlidingWindowCounter where
  cur : Bucket
  slidingWindowNanos : Int
  updateIntervalNanos : Int
  snapshot : EventCount
  reservoir : JDKLinkedQueue Bucket
deriving DecidableEq, Repr

/-- The constructor `NewSlidingWindowCounter` for a non-nil ticker. -/
def NewSlidingWindowCounter (tk : Ticker) (slidingWindowNanos updateIntervalNanos : Int) :
    SlidingWindowCounter × Ticker :=
  ({ cur := newBucket tk.Tick.1,
     slidingWindowNanos := slidingWindowNanos,
     updateIntervalNanos := updateIntervalNanos,
     snapshot := EventCountZero,
     reservoir := JDKLinkedQueue.new }, tk.Tick.2)

namespace SlidingWindowCounter

/-- The method `Count`. -/
def Count (s : SlidingWindowCounter) : EventCount := s.snapshot

/-- The loop of `trimAndSum`; `success` and `failure` are the running sums. -/
def trimLoop (oldLimit : Int) (fuel : Nat) : Nat → JDKLinkedQueue Bucket →
    JdkLinkedQueueIter Bucket → Int → Int → Option (Int × Int × JDKLinkedQueue Bucket)
  | 0, _, _, _, _ => none
  | n + 1, q, it, success, failure =>
    if it.HasNext = true then
      match it.Next fuel q with
      | none => none
      | some r =>
        match r.1 with
        | some bck =>
          if bck.timestamp < oldLimit then
            -- removes old bucket
            trimLoop oldLimit fuel n (r.2.1.Remove r.2.2).2 (r.2.1.Remove r.2.2).1 success failure
          else
            trimLoop oldLimit fuel n r.2.2 r.2.1 (wrap64 (success + bck.success))
              (wrap64 (failure + bck.failure))
        | none => trimLoop oldLimit fuel n r.2.2 r.2.1 success failure
    else some (success, failure, q)

/-- The method `trimAndSum`: the new count and the reservoir afterwards. -/
def trimAndSum (fuel : Nat) (s : SlidingWindowCounter) (t : Int) :
    Option (EventCount × JDKLinkedQueue Bucket) :=
  match JdkLinkedQueueIter.new fuel s.reservoir with
  | none => none
  | some r =>
    (trimLoop (wrap64 (t - s.slidingWindowNanos)) fuel fuel r.2 r.1 0 0).map fun x =>
      (NewEventCount x.1 x.2.1, x.2.2)

/-- The method `onEvent`: the returned pointer (`none` for nil), the counter, the random
source and the ticker afterwards. -/
def onEvent (fuel : Nat) (s : SlidingWindowCounter) (rt : Runtime) (tk : Ticker) (succ : Bool) :
    Option (Option EventCount × SlidingWindowCounter × Runtime × Ticker) :=
  let tickerNanos := tk.Tick.1
  let currentBucket := s.cur
  if tickerNanos < currentBucket.timestamp then
    -- instant bucket, put to the reservoir not to lose the event
    match (newBucket tickerNanos).add fuel rt succ with
    | none => none
    | some b =>
      match s.reservoir.Offer fuel (some b.1) with
      | none => none
      | some r => some (none, { s with reservoir := r }, b.2, tk.Tick.2)
  else if tickerNanos < wrap64 (currentBucket.timestamp + s.updateIntervalNanos) then
    -- events are still being accumulated in current bucket
    match currentBucket.add fuel rt succ with
    | none => none
    | some b => some (none, { s with cur := b.1 }, b.2, tk.Tick.2)
  else
    match (newBucket tickerNanos).add fuel rt succ with
    | none => none
    | some nextBucket =>
      let c := cas s.cur currentBucket nextBucket.1
      if c.2 = true then
        -- puts old one to the reservoir, then updates count
        match s.reservoir.Offer fuel (some currentBucket) with
        | none => none
        | some r =>
          match trimAndSum fuel { s with cur := c.1, reservoir := r } tickerNanos with
          | none => none
          | some e =>
            some (some e.1, { s with cur := c.1, reservoir := e.2, snapshot := e.1 },
              nextBucket.2, tk.Tick.2)
      else
        match s.reservoir.Offer fuel (some nextBucket.1) with
        | none => none
        | some r => some (none, { s with reservoir := r }, nextBucket.2, tk.Tick.2)

/-- The method `OnSuccess`. -/
def OnSuccess (fuel : Nat) (s : SlidingWindowCounter) (rt : Runtime) (tk : Ticker) :
    Option (Option EventCount × SlidingWindowCounter × Runtime × Ticker) :=
  onEvent fuel s rt tk true

/-- The method `OnFailure`. -/
def OnFailure (fuel : Nat) (s : SlidingWindowCounter) (rt : Runtime) (tk : Ticker) :
    Option (Option EventCount × SlidingWindowCounter × Runtime × Ticker) :=
  onEvent fuel s rt tk false

/-- The events `evs` (`true` for `OnSuccess`, `false` for `OnFailure`) reported in order by
one goroutine: the returned pointers and the state afterwards. -/
def runEvents (fuel : Nat) : SlidingWindowCounter → Runtime → Ticker → List Bool →
    Option (List (Option EventCount) × SlidingWindowCounter × Runtime × Ticker)
  | s, rt, tk, [] => some ([], s, rt, tk)
  | s, rt, tk, ev :: evs =>
    match onEvent fuel s rt tk ev with
    | none => none
    | some r =>
      match runEvents fuel r.2.1 r.2.2.1 r.2.2.2 evs with
      | none => none
      | some rs => some (r.1 :: rs.1, rs.2)

/-- The invariant of a counter between two events of one goroutine: the reservoir is a
well-formed queue, the adders of the current bucket have not left their base field and its
timestamp is a tick. -/
def Inv (s : SlidingWindowCounter) : Prop :=
  (∃ l, JDKLinkedQueue.Abs s.reservoir l) ∧ (∃ S, s.cur.s.Tracks S) ∧ (∃ F, s.cur.f.Tracks F) ∧
    IsInt64 s.cur.timestamp

end SlidingWindowCounter

/-! ## Floating point -/

/-- A `float64`: NaN, an infinity, or the finite value `m * 2^e`. The sign of zero is not
represented. -/
inductive F64 where
  | nan
  | inf (neg : Bool)
  | fin (m : Int) (e : Int)
deriving DecidableEq, Repr

namespace F64

/-- The mantissas of two finite values brought to their smaller exponent. -/
def align (m1 e1 m2 e2 : Int) : Int × Int :=
  (m1 * 2 ^ (e1 - min e1 e2).toNat, m2 * 2 ^ (e2 - min e1 e2).toNat)

/-- The comparison `a < b` of two `float64`; false when either is NaN. -/
def lt : F64 → F64 → Bool
  | nan, _ => false
  | _, nan => false
  | inf n1, inf n2 => n1 && !n2
  | inf n1, fin _ _ => n1
  | fin _ _, inf n2 => !n2
  | fin m1 e1, fin m2 e2 => decide ((align m1 e1 m2 e2).1 < (align m1 e1 m2 e2).2)

/-- The comparison `a <= b` of two `float64`; false when either is NaN. -/
def le : F64 → F64 → Bool
  | nan, _ => false
  | _, nan => false
  | inf n1, inf n2 => n1 || !n2
  | inf n1, fin _ _ => n1
  | fin _ _, inf n2 => !n2
  | fin m1 e1, fin m2 e2 => decide ((align m1 e1 m2 e2).1 ≤ (align m1 e1 m2 e2).2)

/-- Whether `a / d >= 2^k`, for `d > 0`. -/
def geTwoPow (a d : Nat) (k : Int) : Bool :=
  if 0 ≤ k then decide (d * 2 ^ k.toNat ≤ a) else decide (d ≤ a * 2 ^ (-k).toNat)

/-- The number of binary digits of `n`, computed with fuel. -/
def bitLenAux : Nat → Nat → Nat
  | 0, _ => 0
  | f + 1, n => if n = 0 then 0 else bitLenAux f (n / 2) + 1

/-- The number of binary digits of `n`. -/
def bitLen (n : Nat) : Nat := bitLenAux n n

/-- The exponent of the leading bit of `a / d`, for `a, d > 0`. -/
def ilog2 (a d : Nat) : Int :=
  let k : Int := (bitLen a : Int) - (bitLen d : Int)
  if geTwoPow a d k then k else k - 1

/-- The `float64` nearest to the rational `num / den` (`den > 0`), ties to even, with
gradual underflow below `2^-1022` and overflow to infinity from `2^1024`. -/
def round (num : Int) (den : Nat) : F64 :=
  if num = 0 then fin 0 0
  else
    let a := num.natAbs
    let u : Int := max (ilog2 a den - 52) (-1074)
    let n := if 0 ≤ u then a else a * 2 ^ (-u).toNat
    let d := if 0 ≤ u then den * 2 ^ u.toNat else den
    let q := n / d
    let r := n % d
    let m := if d < 2 * r ∨ (2 * r = d ∧ q % 2 = 1) then q + 1 else q
    if 971 < u ∨ (u = 971 ∧ 2 ^ 53 ≤ m) then inf (decide (num < 0))
    else fin (if num < 0 then -(m : Int) else m) u

/-- The conversion `float64(x)` of an `int64`. -/
def ofInt64 (x : Int) : F64 := round x 1

/-- The division `a / b` of two `float64`. -/
def div : F64 → F64 → F64
  | nan, _ => nan
  | _, nan => nan
  | inf _, inf _ => nan
  | inf n, fin m _ => inf (n != decide (m < 0))
  | fin _ _, inf _ => fin 0 0
  | fin m1 e1, fin m2 e2 =>
    if m2 = 0 then (if m1 = 0 then nan else inf (decide (m1 < 0)))
    else
      let s : Int := if m2 < 0 then -1 else 1
      if e2 ≤ e1 then round (s * m1 * 2 ^ (e1 - e2).toNat) m2.natAbs
      else round (s * m1) (m2.natAbs * 2 ^ (e2 - e1).toNat)

end F64

/-! ## Package `cbreaker`: configuration and the non-blocking circuit breaker -/

/-- The method `EventCount.FailureRate`. -/
def EventCount.FailureRate (e : EventCount) : F64 :=
  if e.Total = 0 then F64.fin (-1) 0
  else F64.div (F64.ofInt64 e.failure) (F64.ofInt64 e.Total)

/-- The method `EventCount.SuccessRate`. -/
def EventCount.SuccessRate (e : EventCount) : F64 :=
  if e.Total = 0 then F64.fin (-1) 0
  else F64.div (F64.ofInt64 e.success) (F64.ofInt64 e.Total)

/-- The type `CircuitState`; only its three declared constants are ever built. -/
inductive CircuitState where
  | Closed
  | Open
  | HalfOpen
deriving DecidableEq, Repr

/-- A call received by a listener: the listener is named by its position in the
configuration. -/
inductive Notification where
  | stateChanged (listener : Nat) (state : CircuitState)
  | eventCountUpdated (listener : Nat) (count : EventCount)
  | requestRejected (listener : Nat)
deriving DecidableEq, Repr

/-- The struct `CircuitBreakerConfig`. The name, which only feeds the log line, is left
out; an entry of `listeners` tells whether the listener at that position is non-nil. -/
structure CircuitBreakerConfig where
  failureRateThreshold : F64
  minimumRequestThreshold : Int
  trialRequestInterval : Int
  circuitOpenWindow : Int
  counterSlidingWindow : Int
  counterUpdateInterval : Int
  listeners : List Bool
deriving DecidableEq, Repr

/-- The errors built by `Validate` and by the constructor, one per `fmt.Errorf`. -/
inductive ConfigError where
  | failureRateThreshold
  | trialRequestInterval
  | circuitOpenWindow
  | counterSlidingWindow
  | counterUpdateInterval
  | counterSlidingWindowNotAboveInterval
  | tickerAndConfigRequired
deriving DecidableEq, Repr

/-- The method `CircuitBreakerConfig.Validate`; `none` is the nil error. -/
def CircuitBreakerConfig.Validate (c : CircuitBreakerConfig) : Option ConfigError :=
  if F64.le c.failureRateThreshold (F64.fin 0 0) = true ∨
      F64.lt (F64.fin 1 0) c.failureRateThreshold = true then
    some .failureRateThreshold
  else if c.trialRequestInterval ≤ 0 then some .trialRequestInterval
  else if c.circuitOpenWindow ≤ 0 then some .circuitOpenWindow
  else if c.counterSlidingWindow ≤ 0 then some .counterSlidingWindow
  else if c.counterUpdateInterval ≤ 0 then some .counterUpdateInterval
  else if c.counterSlidingWindow ≤ c.counterUpdateInterval then
    some .counterSlidingWindowNotAboveInterval
  else none

/-- A value of the interface `EventCounter`: a sliding-window counter or the no-op
counter `noOpCounter`. -/
inductive EventCounter where
  | sliding (c : SlidingWindowCounter)
  | noOp
deriving DecidableEq, Repr

namespace EventCounter

/-- Dynamic dispatch of `Count`. -/
def Count : EventCounter → EventCount
  | .sliding c => c.Count
  | .noOp => EventCountZero

/-- Dynamic dispatch of `OnSuccess`. -/
def OnSuccess (fuel : Nat) (e : EventCounter) (rt : Runtime) (tk : Ticker) :
    Option (Option EventCount × EventCounter × Runtime × Ticker) :=
  match e with
  | .sliding c => (c.OnSuccess fuel rt tk).map fun r => (r.1, .sliding r.2.1, r.2.2)
  | .noOp => some (none, .noOp, rt, tk)

/-- Dynamic dispatch of `OnFailure`. -/
def OnFailure (fuel : Nat) (e : EventCounter) (rt : Runtime) (tk : Ticker) :
    Option (Option EventCount × EventCounter × Runtime × Ticker) :=
  match e with
  | .sliding c => (c.OnFailure fuel rt tk).map fun r => (r.1, .sliding r.2.1, r.2.2)
  | .noOp => some (none, .noOp, rt, tk)

end EventCounter

/-- The struct `nonBlockingCircuitBreakerState`. The breaker holds a pointer to it and
swaps it by compare-and-swap: `addr` is the identity of the record. The ticker is the one
of the breaker. -/
structure NonBlockingCircuitBreakerState where
  addr : Nat
  cs : CircuitState
  counter : EventCounter
  timeout : Int
  timedOutTimeNanos : Int
deriving DecidableEq, Repr

namespace NonBlockingCircuitBreakerState

/-- The method `checkTimeout`; the ticker is read only when `timedOutTimeNanos > 0`. -/
def checkTimeout (ns : NonBlockingCircuitBreakerState) (tk : Ticker) : Bool × Ticker :=
  if ns.timedOutTimeNanos > 0 then (decide (ns.timeout ≤ tk.Tick.1), tk.Tick.2)
  else (false, tk)

/-- The method `isOpen`. -/
def isOpen (ns : NonBlockingCircuitBreakerState) : Bool := decide (ns.cs = .Open)

/-- The method `isHalfOpen`. -/
def isHalfOpen (ns : NonBlockingCircuitBreakerState) : Bool := decide (ns.cs = .HalfOpen)

/-- The method `isClosed`. -/
def isClosed (ns : NonBlockingCircuitBreakerState) : Bool := decide (ns.cs = .Closed)

end NonBlockingCircuitBreakerState

/-- The struct `NonBlockingCircuitBreaker` (without its name and its ticker, which the
operations receive as an argument). `nextAddr` is the identity that the next state record
receives and `log` the calls received by the listeners so far, oldest first. The
process-wide logger is left out. -/
structure NonBlockingCircuitBreaker where
  config : CircuitBreakerConfig
  s : NonBlockingCircuitBreakerState
  nextAddr : Nat
  log : List Notification
deriving DecidableEq, Repr

namespace NonBlockingCircuitBreaker

/-- The non-nil listeners with their positions. -/
def liveListeners (nb : NonBlockingCircuitBreaker) : List Nat :=
  (List.range nb.config.listeners.length).filter fun i => nb.config.listeners.getD i false

/-- The function `newNonBlockingCircuitBreakerState`; it reads the ticker once. -/
def newState (nb : NonBlockingCircuitBreaker) (tk : Ticker) (cs : CircuitState)
    (timedOutTimeNanos : Int) (counter : EventCounter) :
    NonBlockingCircuitBreakerState × NonBlockingCircuitBreaker × Ticker :=
  ({ addr := nb.nextAddr, cs := cs, counter := counter,
     timeout := wrap64 (tk.Tick.1 + timedOutTimeNanos),
     timedOutTimeNanos := timedOutTimeNanos },
   { nb with nextAddr := nb.nextAddr + 1 }, tk.Tick.2)

/-- The method `newOpenState`. -/
def newOpenState (nb : NonBlockingCircuitBreaker) (tk : Ticker) :
    NonBlockingCircuitBreakerState × NonBlockingCircuitBreaker × Ticker :=
  nb.newState tk .Open nb.config.circuitOpenWindow .noOp

/-- The method `newHalfOpenState`. -/
def newHalfOpenState (nb : NonBlockingCircuitBreaker) (tk : Ticker) :
    NonBlockingCircuitBreakerState × NonBlockingCircuitBreaker × Ticker :=
  nb.newState tk .HalfOpen nb.config.trialRequestInterval .noOp

/-- The method `newClosedState`: the counter reads the ticker, then the state does. -/
def newClosedState (nb : NonBlockingCircuitBreaker) (tk : Ticker) :
    NonBlockingCircuitBreakerState × NonBlockingCircuitBreaker × Ticker :=
  let sw := NewSlidingWindowCounter tk nb.config.counterSlidingWindow
    nb.config.counterUpdateInterval
  nb.newState sw.2 .Closed 0 (.sliding sw.1)

/-- The method `casState`: the pointers are compared. -/
def casState (nb : NonBlockingCircuitBreaker) (old new : NonBlockingCircuitBreakerState) :
    NonBlockingCircuitBreaker × Bool :=
  if nb.s.addr = old.addr then ({ nb with s := new }, true) else (nb, false)

/-- The method `notifyStateChanged`: each non-nil listener receives `OnStateChanged` and
`OnEventCountUpdated(EventCountZero)`; the errors they return only reach the logger. -/
def notifyStateChanged (nb : NonBlockingCircuitBreaker) (circuitState : CircuitState) :
    NonBlockingCircuitBreaker :=
  { nb with log := nb.log ++ nb.liveListeners.flatMap fun i =>
      [.stateChanged i circuitState, .eventCountUpdated i EventCountZero] }

/-- The method `notifyCountUpdated`. -/
def notifyCountUpdated (nb : NonBlockingCircuitBreaker) (count : EventCount) :
    NonBlockingCircuitBreaker :=
  { nb with log := nb.log ++ nb.liveListeners.map fun i => .eventCountUpdated i count }

/-- The method `notifyRequestRejected`. -/
def notifyRequestRejected (nb : NonBlockingCircuitBreaker) : NonBlockingCircuitBreaker :=
  { nb with log := nb.log ++ nb.liveListeners.map fun i => .requestRejected i }

/-- The method `checkIfExceedingFailureThreshold`. -/
def checkIfExceedingFailureThreshold (nb : NonBlockingCircuitBreaker) (count : EventCount) :
    Bool :=
  decide (0 < count.Total) && decide (nb.config.minimumRequestThreshold ≤ count.Total) &&
    F64.lt nb.config.failureRateThreshold count.FailureRate

/-- The method `OnSuccess`. In Closed state the counter of the current state record is
updated in place. -/
def OnSuccess (fuel : Nat) (nb : NonBlockingCircuitBreaker) (rt : Runtime) (tk : Ticker) :
    Option (NonBlockingCircuitBreaker × Runtime × Ticker) :=
  let currentState := nb.s
  if currentState.isClosed = true then
    match currentState.counter.OnSuccess fuel rt tk with
    | none => none
    | some r =>
      let nb1 := { nb with s := { currentState with counter := r.2.1 } }
      match r.1 with
      | some updatedCount => some (nb1.notifyCountUpdated updatedCount, r.2.2)
      | none => some (nb1, r.2.2)
  else if currentState.isHalfOpen = true then
    let n := nb.newClosedState tk
    let c := n.2.1.casState currentState n.1
    if c.2 = true then some (c.1.notifyStateChanged .Closed, rt, n.2.2)
    else some (c.1, rt, n.2.2)
  else some (nb, rt, tk)

/-- The method `OnFailure`. In Closed state the counter of the current state record is
updated in place. -/
def OnFailure (fuel : Nat) (nb : NonBlockingCircuitBreaker) (rt : Runtime) (tk : Ticker) :
    Option (NonBlockingCircuitBreaker × Runtime × Ticker) :=
  let currentState := nb.s
  if currentState.isClosed = true then
    match currentState.counter.OnFailure fuel rt tk with
    | none => none
    | some r =>
      let cur1 := { currentState with counter := r.2.1 }
      let nb1 := { nb with s := cur1 }
      match r.1 with
      | some updatedCount =>
        if nb1.checkIfExceedingFailureThreshold updatedCount = true then
          let n := nb1.newOpenState r.2.2.2
          let c := n.2.1.casState cur1 n.1
          if c.2 = true then some (c.1.notifyStateChanged .Open, r.2.2.1, n.2.2)
          else some (c.1.notifyCountUpdated updatedCount, r.2.2.1, n.2.2)
        else some (nb1.notifyCountUpdated updatedCount, r.2.2)
      | none => some (nb1, r.2.2)
  else if currentState.isHalfOpen = true then
    let n := nb.newOpenState tk
    let c := n.2.1.casState currentState n.1
    if c.2 = true then some (c.1.notifyStateChanged .Open, rt, n.2.2)
    else some (c.1, rt, n.2.2)
  else some (nb, rt, tk)

/-- The method `CanRequest`. -/
def CanRequest (nb : NonBlockingCircuitBreaker) (tk : Ticker) :
    Bool × NonBlockingCircuitBreaker × Ticker :=
  let currentState := nb.s
  if currentState.isClosed = true then (true, nb, tk)
  else if currentState.isHalfOpen = true ∨ currentState.isOpen = true then
    let ck := currentState.checkTimeout tk
    if ck.1 = true then
      let n := nb.newHalfOpenState ck.2
      let c := n.2.1.casState currentState n.1
      if c.2 = true then (true, c.1.notifyStateChanged .HalfOpen, n.2.2)
      else (false, c.1.notifyRequestRejected, n.2.2)
    else (false, nb.notifyRequestRejected, ck.2)
  else (true, nb, tk)

end NonBlockingCircuitBreaker

/-- The constructor `NewNonBlockingCircuitBreaker`: the breaker (`none` for nil), the error
(`none` for nil) and the ticker afterwards. -/
def NewNonBlockingCircuitBreaker (ticker : Option Ticker) (config : Option CircuitBreakerConfig) :
    Option (NonBlockingCircuitBreaker × Ticker) × Option ConfigError :=
  match ticker, config with
  | some tk, some cfg =>
    match cfg.Validate with
    | some err => (none, some err)
    | none =>
      let nb0 : NonBlockingCircuitBreaker :=
        { config := cfg,
          s := { addr := 0, cs := .Closed, counter := .noOp, timeout := 0, timedOutTimeNanos := 0 },
          nextAddr := 0, log := [] }
      let n := nb0.newClosedState tk
      (some (({ n.2.1 with s := n.1 } : NonBlockingCircuitBreaker).notifyStateChanged .Closed,
        n.2.2), none)
  | _, _ => (none, some .tickerAndConfigRequired)

namespace NonBlockingCircuitBreaker

/-- The breaker is in the Open state that `newOpenState` builds at tick `t0`. -/
def IsOpenAt (nb : NonBlockingCircuitBreaker) (t0 : Int) : Prop :=
  nb.s.cs = .Open ∧ nb.s.timedOutTimeNanos = nb.config.circuitOpenWindow ∧
    nb.s.timeout = wrap64 (t0 + nb.config.circuitOpenWindow)

/-- The breaker is in the HalfOpen state that `newHalfOpenState` builds at tick `t1`. -/
def IsHalfOpenAt (nb : NonBlockingCircuitBreaker) (t1 : Int) : Prop :=
  nb.s.cs = .HalfOpen ∧ nb.s.timedOutTimeNanos = nb.config.trialRequestInterval ∧
    nb.s.timeout = wrap64 (t1 + nb.config.trialRequestInterval)

/-- `n` successive calls of `CanRequest` by one goroutine, nothing else happening in
between: for each call the tick at which it is observed (the value its first reading of
the ticker returns) and its result; the breaker and the ticker afterwards. -/
def canRequestRun : Nat → NonBlockingCircuitBreaker → Ticker →
    List (Int × Bool) × NonBlockingCircuitBreaker × Ticker
  | 0, nb, tk => ([], nb, tk)
  | n + 1, nb, tk =>
    ((tk.Tick.1, (nb.CanRequest tk).1) ::
        (canRequestRun n (nb.CanRequest tk).2.1 (nb.CanRequest tk).2.2).1,
      (canRequestRun n (nb.CanRequest tk).2.1 (nb.CanRequest tk).2.2).2)

end NonBlockingCircuitBreaker

/-! ### Concrete environments used by the examples -/

/-- A runtime with 8 CPUs whose random source always returns 0. -/
def exampleRuntime : Runtime := { numCPU := 8, rand := fun _ => 0, randPos := 0 }

/-- The ticker whose successive calls return the values of `l`, then 0. -/
def tickerOf (l : List Int) : Ticker := { ticks := fun n => l.getD n 0, pos := 0 }

/-- A valid configuration: threshold 0.5, minimum 1 request, trial interval and open
window of 5 ticks, sliding window of 10 ticks updated every tick, one listener. -/
def exampleConfig : CircuitBreakerConfig :=
  { failureRateThreshold := F64.round 1 2, minimumRequestThreshold := 1,
    trialRequestInterval := 5, circuitOpenWindow := 5, counterSlidingWindow := 10,
    counterUpdateInterval := 1, listeners := [true] }

/-- A breaker built with `exampleConfig` on the ticker `tk`, on which two failures are then
reported. -/
def afterTwoFailures (tk : Ticker) : Option (NonBlockingCircuitBreaker × Runtime × Ticker) :=
  match (NewNonBlockingCircuitBreaker (some tk) (some exampleConfig)).1 with
  | none => none
  | some r =>
    match r.1.OnFailure 10 exampleRuntime r.2 with
    | none => none
    | some r1 => r1.1.OnFailure 10 r1.2.1 r1.2.2

/-- A monotonic ticker that counts from `2^63 - 4` up to `2^63 - 1` and stays there. -/
def lateTicker : Ticker := { ticks := fun n => 2 ^ 63 - 4 + (min n 3 : Nat), pos := 0 }

/-- A monotonic ticker that counts from 0 up to 1000 and stays there. -/
def countingTicker : Ticker := { ticks := fun n => ((min n 1000 : Nat) : Int), pos := 0 }

/-- A breaker built with `exampleConfig` on the ticker `tk`, on which a failure and then a
success are reported. -/
def afterFailureThenSuccess (tk : Ticker) :
    Option (NonBlockingCircuitBreaker × Runtime × Ticker) :=
  match (NewNonBlockingCircuitBreaker (some tk) (some exampleConfig)).1 with
  | none => none
  | some r =>
    match r.1.OnFailure 10 exampleRuntime r.2 with
    | none => none
    | some r1 => r1.1.OnSuccess 10 r1.2.1 r1.2.2

/-- The configuration of the circuit-trip scenario: threshold 0.3, at least 19 requests,
sliding window of 1000 ticks updated every 100 ticks. -/
def tripConfig : CircuitBreakerConfig :=
  { failureRateThreshold := F64.round 3 10, minimumRequestThreshold := 19,
    trialRequestInterval := 10, circuitOpenWindow := 20, counterSlidingWindow := 1000,
    counterUpdateInterval := 100, listeners := [] }

/-- The events `evs` (`true` for `OnSuccess`, `false` for `OnFailure`) reported in order to
a breaker by one goroutine. -/
def NonBlockingCircuitBreaker.runEvents (fuel : Nat) :
    NonBlockingCircuitBreaker → Runtime → Ticker → List Bool →
    Option (NonBlockingCircuitBreaker × Runtime × Ticker)
  | nb, rt, tk, [] => some (nb, rt, tk)
  | nb, rt, tk, ev :: evs =>
    match (if ev = true then nb.OnSuccess fuel rt tk else nb.OnFailure fuel rt tk) with
    | none => none
    | some r => NonBlockingCircuitBreaker.runEvents fuel r.1 r.2.1 r.2.2 evs

/-- The ticker of the circuit-trip scenario: tick 0 twice, tick 1 twenty times, then
tick 100. -/
def tripTicker : Ticker :=
  { ticks := fun n => if n < 2 then 0 else if n < 22 then 1 else 100, pos := 0 }

/-- The circuit-trip scenario: a breaker built with `tripConfig` at tick 0, then 7
successes and 13 failures at tick 1, within one update interval. -/
def tripScenario : Option (NonBlockingCircuitBreaker × Runtime × Ticker) :=
  match (NewNonBlockingCircuitBreaker (some tripTicker) (some tripConfig)).1 with
  | none => none
  | some r =>
    r.1.runEvents 10 exampleRuntime r.2 (List.replicate 7 true ++ List.replicate 13 false)

/-- The counter that `tripScenario` leaves in the breaker: 7 successes and 13 failures in
the current bucket, nothing published yet. -/
def tripCounter : SlidingWindowCounter :=
  { cur := { timestamp := 0, s := .jdk { NewJDKAdder with base := 7 },
             f := .jdk { NewJDKAdder with base := 13 } },
    slidingWindowNanos := 1000, updateIntervalNanos := 100, snapshot := EventCountZero,
    reservoir := JDKLinkedQueue.new }

/-- The breaker that `tripScenario` leaves. -/
def tripBreaker : NonBlockingCircuitBreaker :=
  { config := tripConfig,
    s := { addr := 0, cs := .Closed, counter := .sliding tripCounter, timeout := 0,
           timedOutTimeNanos := 0 },
    nextAddr := 1, log := [] }

/-! ### `Execute` -/

/-- An `error` as `Execute` returns it: the package variable `ErrFailFast` or any other
error value, named by its message. -/
inductive ExecError where
  | ErrFailFast
  | other (msg : String)
deriving DecidableEq, Repr

/-- The method `Execute`. The delegated function (`none` for nil) is a closure over a
state of type `σ` that the breaker has no part in; it returns a result (`none` for nil)
and an error (`none` for nil). The context argument is only handed to the function. -/
def NonBlockingCircuitBreaker.Execute {σ α : Type} (nb : NonBlockingCircuitBreaker)
    (tk : Ticker) (delegatedFn : Option (σ → (Option α × Option ExecError) × σ)) (w : σ) :
    (Option α × Option ExecError) × NonBlockingCircuitBreaker × Ticker × σ :=
  match delegatedFn with
  | none => ((none, none), nb, tk, w)
  | some f =>
    let cr := nb.CanRequest tk
    if cr.1 = true then ((f w).1, cr.2.1, cr.2.2, (f w).2)
    else ((none, some .ErrFailFast), cr.2.1, cr.2.2, w)

/-- A breaker built with `exampleConfig` on the ticker `tk`, on which one failure is then
reported. -/
def afterOneFailure (tk : Ticker) : Option (NonBlockingCircuitBreaker × Runtime × Ticker) :=
  match (NewNonBlockingCircuitBreaker (some tk) (some exampleConfig)).1 with
  | none => none
  | some r => r.1.OnFailure 10 exampleRuntime r.2

/-- A delegated function that counts its calls and always fails. -/
def failingFn : Nat → (Option Nat × Option ExecError) × Nat :=
  fun calls => ((none, some (.other "remote failure")), calls + 1)

/-! ## Package `retry`: the backoff interface and the attempt limit -/

/-- A value of the interface `Backoff`: its method `NextDelayMillis`, which may draw from
a random source whose state has type `ρ`. -/
structure Backoff (ρ : Type) where
  NextDelayMillis : Int → ρ → Int × ρ

/-- The struct `AttemptLimitingBackoff`. -/
structure AttemptLimitingBackoff (ρ : Type) where
  delegate : Backoff ρ
  limit : Int

/-- The errors of `NewAttemptLimitingBackoff`. -/
inductive AttemptLimitError where
  | delegateNil
  | maxAttempts (limit : Int)
deriving DecidableEq, Repr

/-- The constructor `NewAttemptLimitingBackoff` (`none` for nil). -/
def NewAttemptLimitingBackoff {ρ : Type} (delegate : Option (Backoff ρ)) (limit : Int) :
    Option (AttemptLimitingBackoff ρ) × Option AttemptLimitError :=
  match delegate with
  | none => (none, some .delegateNil)
  | some d =>
    if limit ≤ 0 then (none, some (.maxAttempts limit))
    else (some { delegate := d, limit := limit }, none)

/-- The method `AttemptLimitingBackoff.NextDelayMillis`. -/
def AttemptLimitingBackoff.NextDelayMillis {ρ : Type} (f : AttemptLimitingBackoff ρ)
    (numAttemptsSoFar : Int) (r : ρ) : Int × ρ :=
  if numAttemptsSoFar ≥ f.limit then (-1, r)
  else f.delegate.NextDelayMillis numAttemptsSoFar r

/-- An `AttemptLimitingBackoff` as a value of the interface `Backoff`. -/
def AttemptLimitingBackoff.toBackoff {ρ : Type} (f : AttemptLimitingBackoff ρ) : Backoff ρ :=
  { NextDelayMillis := f.NextDelayMillis }

/-! ## Package `httpclient` -/

/-- The type `EndpointAction`. -/
inductive EndpointAction where
  | None
  | NextEndpoint
  | Retrying
deriving DecidableEq, Repr

/-- The struct `url.Userinfo`. -/
structure Userinfo where
  username : String
  password : String
  passwordSet : Bool
deriving DecidableEq, Repr

/-- The struct `url.URL`; `User` is `none` for a nil pointer. -/
structure URL where
  Scheme : String
  Opaque : String
  User : Option Userinfo
  Host : String
  Path : String
  RawPath : String
  OmitHost : Bool
  ForceQuery : Bool
  RawQuery : String
  Fragment : String
  RawFragment : String
deriving DecidableEq, Repr

/-- The struct `EndpointMetadata`. -/
structure EndpointMetadata where
  Weight : Nat
deriving DecidableEq, Repr

/-- The struct `Endpoint`: the embedded `url.URL`, the network, the state of its circuit
breaker (of type `β`) and the metadata. -/
structure Endpoint (β : Type) where
  URL : URL
  network : String
  breaker : β
  Metadata : EndpointMetadata

/-- The type `Endpoints`, a slice of pointers: `none` is a nil pointer. An endpoint is
identified with its position in the slice. -/
abbrev Endpoints (β : Type) := List (Option (Endpoint β))

/-- The methods of the interface `cb.CircuitBreaker` that the client calls, for breakers
whose state has type `β`. -/
structure CircuitBreaker (β : Type) where
  CanRequest : β → Bool × β
  OnSuccess : β → β
  OnFailure : β → β

/-- The method `Endpoint.canRequest`. -/
def Endpoint.canRequest {β : Type} (cb : CircuitBreaker β) (e : Endpoint β) :
    Bool × Endpoint β :=
  ((cb.CanRequest e.breaker).1, { e with breaker := (cb.CanRequest e.breaker).2 })

/-- The method `Endpoint.onConnectFailure`. -/
def Endpoint.onConnectFailure {β : Type} (cb : CircuitBreaker β) (e : Endpoint β) :
    Endpoint β :=
  { e with breaker := cb.OnFailure e.breaker }

/-- The method `Endpoint.onConnectSuccess`. -/
def Endpoint.onConnectSuccess {β : Type} (cb : CircuitBreaker β) (e : Endpoint β) :
    Endpoint β :=
  { e with breaker := cb.OnSuccess e.breaker }

end Garr

namespace Garr

/-- The part of an `http.Response` that the client reads. -/
structure HttpResponse where
  StatusCode : Int
  Header : List (String × List String)
  Body : String
deriving DecidableEq, Repr

/-- What `errors.Is` tells about an error of the transport. -/
inductive TransportErrorKind where
  | deadlineExceeded
  | canceled
  | other
deriving DecidableEq, Repr

/-- An error returned by `(*http.Client).Do`. -/
structure TransportError where
  kind : TransportErrorKind
  msg : String
deriving DecidableEq, Repr

/-- The two results of `(*http.Client).Do`. -/
inductive TransportResult where
  | response (r : HttpResponse)
  | error (e : TransportError)
deriving DecidableEq, Repr

/-- The value `expect` of a request, as `decode` sees it: an `io.Writer`, given by the
error of `io.Copy` from a body and, when it is also an `io.Closer`, the error of `Close`
(`none` for nil), or any other value. What is written into it is not modelled. -/
inductive Expect where
  | writer (copy : String → Option String) (close : Option (Option String))
  | other

/-- A `Transformer`: `Transform` returns a response or an error. -/
abbrev Transformer := HttpResponse → Except String HttpResponse

/-- A `Decoder`: the error it returns on a body (`none` for nil). -/
abbrev Decoder := String → Option String

/-- The part of an `http.Request` that the client touches: the URL it points to and the
field `Host`. -/
structure HttpRequest where
  URL : URL
  Host : String
deriving DecidableEq, Repr

/-- The struct `Request`. The hooks are functions of their arguments. -/
structure Request where
  r : HttpRequest
  transforms : List Transformer
  decoder : Option Decoder
  onRespHeader : Option (Int → List (String × List String) → EndpointAction)
  onRequestCtxCanceledOrTimeout : Option (Unit → EndpointAction)
  expect : Option Expect

/-- The type `errorCategory`. -/
inductive errorCategory where
  | errNone
  | errConnection
  | errDecoding
  | errTransform
  | errRequestCtxCanceledOrTimeout
deriving DecidableEq, Repr

/-- The `error` values that the client stores in a response: the two package variables,
an `errorWrap` (its message is built from the host and the cause), the error of an
exhausted retry (host, request URL, attempts so far) and the error that reports the
errors accumulated over the endpoints. -/
inductive ClientError where
  | ErrNoEndpoints
  | ErrEndpointsUnavailable
  | errorWrap (category : errorCategory) (host : String) (cause : String)
  | retried (host : String) (url : URL) (attempts : Int)
  | retryingOnAll (lastErr : List ClientError)

/-- The function `connectionError`. -/
def connectionError (url : URL) (err : TransportError) : ClientError :=
  .errorWrap .errConnection url.Host err.msg

/-- The function `decodingError`. -/
def decodingError (url : URL) (err : String) : ClientError :=
  .errorWrap .errDecoding url.Host err

/-- The function `transformError`. -/
def transformError (url : URL) (err : String) : ClientError :=
  .errorWrap .errTransform url.Host err

/-- The function `requestCtxCanceledOrTimeout`. -/
def requestCtxCanceledOrTimeout (url : URL) (err : TransportError) : ClientError :=
  .errorWrap .errRequestCtxCanceledOrTimeout url.Host err.msg

/-- The struct `Response`; `req` tells whether the pointer to the request is set. -/
structure Response where
  req : Bool
  _resp : Option HttpResponse
  data : Option Expect
  err : Option ClientError

/-- The zero `Response`. -/
def Response.zero : Response := { req := false, _resp := none, data := none, err := none }

/-- The method `Response.reset`. -/
def Response.reset (_r : Response) : Response := Response.zero

/-- The method `Response.Error`. -/
def Response.Error (r : Response) : Option ClientError := r.err

/-- The method `Response.StatusCode`. -/
def Response.StatusCode (r : Response) : Int :=
  match r._resp with
  | some x => x.StatusCode
  | none => -1

/-- The method `Response.errorCategory`. -/
def Response.errorCategory (r : Response) : errorCategory :=
  match r.err with
  | some (.errorWrap category _ _) => category
  | _ => .errNone

/-- The function `injectTarget`; `pathJoin` is `path.Join`. The saved URL and the request
afterwards. -/
def injectTarget {β : Type} (pathJoin : String → String → String) (endpoint : Endpoint β)
    (req : Request) : URL × Request :=
  let u := req.r.URL
  ({ Scheme := u.Scheme, Opaque := u.Opaque, User := u.User, Host := u.Host, Path := u.Path,
     RawPath := "", OmitHost := false, ForceQuery := false, RawQuery := "", Fragment := "",
     RawFragment := "" },
   { req with r := { req.r with URL := { u with
       Scheme := endpoint.URL.Scheme, Opaque := endpoint.URL.Opaque, User := endpoint.URL.User,
       Host := endpoint.URL.Host, Path := pathJoin endpoint.URL.Path u.Path } } })

/-- The function `revert`. -/
def revert (req : Request) (originalURL : URL) : Request :=
  { req with r := { req.r with URL := { req.r.URL with
      Scheme := originalURL.Scheme, Opaque := originalURL.Opaque, User := originalURL.User,
      Host := originalURL.Host, Path := originalURL.Path } } }

/-- The function `decode`. -/
def decode (req : Request) (resp : HttpResponse) : Option String :=
  match req.expect with
  | none => none
  | some (.writer copy close) =>
    match copy resp.Body with
    | none =>
      match close with
      | some e => e
      | none => none
    | some e => some e
  | some .other =>
    match req.decoder with
    | some d => d resp.Body
    | none => none

/-- The struct `RoundRobinLB`; `index` and `n` are `uint32`. -/
structure RoundRobinLB (β : Type) where
  endpoints : Endpoints β
  index : Nat
  n : Nat

namespace RoundRobinLB

variable {β : Type}

/-- The method `Initialize`. -/
def Initialize (p : RoundRobinLB β) (endpoints : Endpoints β) : RoundRobinLB β :=
  { p with endpoints := endpoints, n := endpoints.length % 2 ^ 32 }

/-- The method `Endpoints`. -/
def Endpoints (p : RoundRobinLB β) : Garr.Endpoints β := p.endpoints

/-- The method `Pick`: `atomic.AddUint32` wraps around at `2^32`. -/
def Pick (p : RoundRobinLB β) : Int × RoundRobinLB β :=
  if p.n > 0 then
    ((((p.index + 1) % 2 ^ 32 % p.n : Nat) : Int), { p with index := (p.index + 1) % 2 ^ 32 })
  else (0, p)

/-- The results of `k` successive calls of `Pick`. -/
def picks : Nat → RoundRobinLB β → List Int
  | 0, _ => []
  | k + 1, p => p.Pick.1 :: picks k p.Pick.2

end RoundRobinLB

/-- The method `RoundRobinLBBuilder.Build`; `r` is the value that `fastrand.Uint32()`
returns. -/
def RoundRobinLBBuilder.Build {β : Type} (r : Nat) : RoundRobinLB β :=
  { endpoints := [], index := r % 2 ^ 32, n := 0 }

/-- A value of the interface `LB`: a `RoundRobinLB`, or any other implementation, given by
its endpoints and the value that its next call of `Pick` returns. -/
inductive LB (β : Type) where
  | roundRobin (p : RoundRobinLB β)
  | other (endpoints : Endpoints β) (pick : Int)

namespace LB

variable {β : Type}

/-- Dynamic dispatch of `Endpoints`. -/
def Endpoints : LB β → Garr.Endpoints β
  | .roundRobin p => p.Endpoints
  | .other endpoints _ => endpoints

/-- Dynamic dispatch of `Pick`. -/
def Pick : LB β → Int × LB β
  | .roundRobin p => (p.Pick.1, .roundRobin p.Pick.2)
  | .other endpoints pick => (pick, .other endpoints pick)

/-- The balancer whose endpoints, shared with the caller through pointers, have become
`endpoints`. -/
def withEndpoints : LB β → Garr.Endpoints β → LB β
  | .roundRobin p, endpoints => .roundRobin { p with endpoints := endpoints }
  | .other _ pick, endpoints => .other endpoints pick

end LB

/-- What a run of the client does to the outside, in order, with two marks added by the
model: `attempt ind` when `instrument` is entered for the endpoint at position `ind`, and
`action a` when it returns `a`. `transport url` is a call of `(*http.Client).Do` on a
request with that URL, `backoff k d` a call of `NextDelayMillis(k)` that returns `d`, and
`sleep d` a call of `time.Sleep` for `d` milliseconds. -/
inductive Event where
  | attempt (ind : Nat)
  | action (a : EndpointAction)
  | transport (url : URL)
  | backoff (numAttemptsSoFar : Int) (delay : Int)
  | sleep (millis : Int)
deriving DecidableEq, Repr

/-- The struct `Client`, as far as `Do` uses it. `transport k url` is what the `k`-th
call of `(*http.Client).Do` returns on a request with that URL and `calls` the number of
calls made so far; `rand` is the state of the random source of the backoff and `trace`
what the client has done so far, oldest first. -/
structure Client (β ρ : Type) where
  transport : Nat → URL → TransportResult
  calls : Nat
  lb : Option (LB β)
  backoff : Backoff ρ
  rand : ρ
  trace : List Event

/-- How a run ends: it returns, it panics, or the fuel of the model runs out. -/
inductive Outcome where
  | returned
  | panicked
  | outOfFuel
deriving DecidableEq, Repr

/-- The objects that a run of `Do` works on: the client, the endpoints of the balancer
(whose breakers the run updates through their pointers), the request and the response. -/
structure DoState (β ρ : Type) where
  client : Client β ρ
  endpoints : Endpoints β
  req : Request
  resp : Response

namespace Client

variable {β ρ : Type}

/-- The state with one more event in the trace. -/
def emit (st : DoState β ρ) (e : Event) : DoState β ρ :=
  { st with client := { st.client with trace := st.client.trace ++ [e] } }

/-- The loop over `req.transforms` in `exec`: the transformed response or the first
error. -/
def transformAll : List Transformer → HttpResponse → Except String HttpResponse
  | [], r => .ok r
  | t :: ts, r =>
    match t r with
    | .ok r1 => transformAll ts r1
    | .error e => .error e

/-- The method `exec` for the endpoint at position `ind`, a non-nil pointer to `endpoint`.
Draining and closing the body has no effect on the state. -/
def exec (cb : CircuitBreaker β) (st : DoState β ρ) (ind : Nat) (endpoint : Endpoint β) :
    EndpointAction × DoState β ρ :=
  let st1 : DoState β ρ :=
    { (emit st (.transport st.req.r.URL)) with
      client := { (emit st (.transport st.req.r.URL)).client with calls := st.client.calls + 1 },
      resp := { st.resp with req := true } }
  match st.client.transport st.client.calls st.req.r.URL with
  | .response _resp =>
    let st2 : DoState β ρ :=
      { st1 with endpoints := st1.endpoints.set ind (some (endpoint.onConnectSuccess cb)) }
    let action : EndpointAction :=
      match st.req.onRespHeader with
      | some f => f _resp.StatusCode _resp.Header
      | none => .None
    if action ≠ .None then (action, st2)
    else
      match transformAll st.req.transforms _resp with
      | .error e =>
        (action, { st2 with resp := { st2.resp with err := some (transformError st.req.r.URL e) } })
      | .ok r =>
        match decode st.req r with
        | none =>
          (action, { st2 with resp := { st2.resp with _resp := some r, data := st.req.expect } })
        | some e =>
          (action, { st2 with resp :=
            { st2.resp with _resp := some r, err := some (decodingError st.req.r.URL e) } })
  | .error err =>
    if err.kind = .deadlineExceeded ∨ err.kind = .canceled then
      (match st.req.onRequestCtxCanceledOrTimeout with
        | none => .None
        | some f => f (),
       { st1 with resp :=
         { st1.resp with err := some (requestCtxCanceledOrTimeout st.req.r.URL err) } })
    else
      (.NextEndpoint,
       { st1 with
         endpoints := st1.endpoints.set ind (some (endpoint.onConnectFailure cb)),
         resp := { st1.resp with err := some (connectionError st.req.r.URL err) } })

/-- The state of `instrument` after the breaker of `endpoints[ind]`, a non-nil pointer to
`endpoint`, has been asked. -/
def asked (cb : CircuitBreaker β) (st : DoState β ρ) (ind : Nat) (endpoint : Endpoint β) :
    DoState β ρ :=
  { (emit st (.attempt ind)) with
    endpoints := st.endpoints.set ind (some (endpoint.canRequest cb).2) }

/-- The state of `instrument` after the target has been injected into the request. -/
def injected (pathJoin : String → String → String) (cb : CircuitBreaker β) (st : DoState β ρ)
    (ind : Nat) (endpoint : Endpoint β) : DoState β ρ :=
  { (asked cb st ind endpoint) with
    req := (injectTarget pathJoin (endpoint.canRequest cb).2 st.req).2 }

/-- The state with the request reverted to the saved URL. -/
def reverted (st : DoState β ρ) (originalURL : URL) : DoState β ρ :=
  { st with req := revert st.req originalURL }

/-- The method `instrument` for `endpoints[ind]`; `none` when the index is out of range
or the pointer is nil, which panics. -/
def instrument (pathJoin : String → String → String) (cb : CircuitBreaker β)
    (st : DoState β ρ) (ind : Nat) : Option (EndpointAction × DoState β ρ) :=
  match st.endpoints[ind]? with
  | some (some endpoint) =>
    if (endpoint.canRequest cb).1 = true then
      let originalURL := (injectTarget pathJoin (endpoint.canRequest cb).2 st.req).1
      let ex := exec cb (injected pathJoin cb st ind endpoint) ind (endpoint.canRequest cb).2
      some (ex.1, emit (reverted ex.2 originalURL) (.action ex.1))
    else some (.NextEndpoint, emit (asked cb st ind endpoint) (.action .NextEndpoint))
  | _ => none

end Client

namespace Client

variable {β ρ : Type}

/-- The local variables `ind`, `lastErr` (the errors that the `multierror` holds, none for
nil) and `retryCount` of `judge`. -/
structure JudgeVars where
  ind : Nat
  lastErr : List ClientError
  retryCount : Int

/-- The state after the backoff has been consulted for the attempt number `k`. -/
def consult (st : DoState β ρ) (k : Int) : DoState β ρ :=
  emit { st with client :=
      { st.client with rand := (st.client.backoff.NextDelayMillis k st.client.rand).2 } }
    (.backoff k (st.client.backoff.NextDelayMillis k st.client.rand).1)

/-- The state after sleeping for `d` milliseconds, when `d > 0`, and resetting the
response. -/
def waitAndReset (st : DoState β ρ) (d : Int) : DoState β ρ :=
  { (if d > 0 then emit st (.sleep d) else st) with resp := st.resp.reset }

/-- The state in which `judge` returns when the backoff refuses a retry for the attempt
number `k` and the response holds no error: the error of the exhausted retry names the
host of the endpoint. -/
def retriedState (st : DoState β ρ) (k : Int) (host : String) : DoState β ρ :=
  { (consult st k) with resp := { st.resp with err := some (.retried host st.req.r.URL k) } }

/-- The error that `judge` builds when the traversal is back at the picked endpoint. -/
def finalError (lastErr : List ClientError) : ClientError :=
  if lastErr.isEmpty = true then .ErrEndpointsUnavailable else .retryingOnAll lastErr

/-- The state in which `judge` returns when the traversal is back at the picked
endpoint. -/
def failedState (st : DoState β ρ) (lastErr : List ClientError) : DoState β ρ :=
  { st with resp := { st.resp with err := some (finalError lastErr) } }

/-- The value of `lastErr` after `multierror.Append(lastErr, resp.err)`, which happens
when `resp.err` is not nil. -/
def recordErr (lastErr : List ClientError) (err : Option ClientError) : List ClientError :=
  match err with
  | some e => lastErr ++ [e]
  | none => lastErr

/-- The position after `ind` in a slice of length `n`. -/
def nextInd (n ind : Nat) : Nat := if ind + 1 = n then 0 else ind + 1

/-- The state with the response reset. -/
def resetResp (st : DoState β ρ) : DoState β ρ := { st with resp := st.resp.reset }

/-- One pass through the `switch` of `judge` from the label `loop`: either the method
returns (or panics), or it jumps back to `loop` with a new value of `need` and new local
variables. The length `n` of `endpoints` is that of `st.endpoints`. -/
def judgeStep (pathJoin : String → String → String) (cb : CircuitBreaker β)
    (pickedEndpoint : Nat) (need : EndpointAction) (v : JudgeVars) (st : DoState β ρ) :
    (Outcome × DoState β ρ) ⊕ (EndpointAction × JudgeVars × DoState β ρ) :=
  match need with
  | .None => .inl (.returned, st)
  | .Retrying =>
    let retryCount := wrap64 (v.retryCount + 1)
    let nextDelayMillis := (st.client.backoff.NextDelayMillis retryCount st.client.rand).1
    if nextDelayMillis ≥ 0 then
      match instrument pathJoin cb (waitAndReset (consult st retryCount) nextDelayMillis) v.ind with
      | none => .inl (.panicked, waitAndReset (consult st retryCount) nextDelayMillis)
      | some r => .inr (r.1, { v with retryCount := retryCount }, r.2)
    else if st.resp.err.isNone = true then
      match st.endpoints[v.ind]? with
      | some (some e) => .inl (.returned, retriedState st retryCount e.URL.Host)
      | _ => .inl (.panicked, consult st retryCount)
    else .inl (.returned, consult st retryCount)
  | .NextEndpoint =>
    let ind := nextInd st.endpoints.length v.ind
    if ind ≠ pickedEndpoint then
      match instrument pathJoin cb (resetResp st) ind with
      | none => .inl (.panicked, resetResp st)
      | some r =>
        .inr (r.1, { ind := ind, lastErr := recordErr v.lastErr st.resp.err, retryCount := 0 },
          r.2)
    else .inl (.returned, failedState st v.lastErr)

/-- The passes through the label `loop` of `judge`, as many as the fuel allows. -/
def judgeLoop (pathJoin : String → String → String) (cb : CircuitBreaker β)
    (pickedEndpoint : Nat) :
    Nat → EndpointAction → JudgeVars → DoState β ρ → Outcome × DoState β ρ
  | 0, _, _, st => (.outOfFuel, st)
  | fuel + 1, need, v, st =>
    match judgeStep pathJoin cb pickedEndpoint need v st with
    | .inl r => r
    | .inr r => judgeLoop pathJoin cb pickedEndpoint fuel r.1 r.2.1 r.2.2

/-- The method `judge`. -/
def judge (pathJoin : String → String → String) (cb : CircuitBreaker β) (fuel : Nat)
    (need : EndpointAction) (pickedEndpoint : Nat) (st : DoState β ρ) :
    Outcome × DoState β ρ :=
  judgeLoop pathJoin cb pickedEndpoint fuel need
    { ind := pickedEndpoint, lastErr := [], retryCount := 0 } st

/-- The endpoints of the run written back to the balancer, which shares them. -/
def writeBack (st : DoState β ρ) : DoState β ρ :=
  { st with client := { st.client with lb := st.client.lb.map fun l => l.withEndpoints st.endpoints } }

/-- The state in which `Do` returns `ErrNoEndpoints`. -/
def noEndpoints (c : Client β ρ) (endpoints : Endpoints β) (req : Request) : DoState β ρ :=
  { client := c, endpoints := endpoints, req := req,
    resp := { Response.zero with err := some .ErrNoEndpoints } }

/-- The state of `Do` after the balancer `lb` has picked an endpoint. -/
def startState (c : Client β ρ) (lb : LB β) (req : Request) : DoState β ρ :=
  { client := { c with lb := some lb.Pick.2 }, endpoints := lb.Endpoints, req := req,
    resp := Response.zero }

/-- The method `Do` for a non-nil request: how the run ends and the client, the endpoints,
the request and the response `resp` afterwards. -/
def Do (pathJoin : String → String → String) (cb : CircuitBreaker β) (fuel : Nat)
    (c : Client β ρ) (req : Request) : Outcome × DoState β ρ :=
  match c.lb with
  | none => (.returned, noEndpoints c [] req)
  | some lb =>
    if lb.Endpoints.length = 0 then (.returned, noEndpoints c lb.Endpoints req)
    else if lb.Pick.1 < 0 then (.panicked, startState c lb req)
    else
      match instrument pathJoin cb (startState c lb req) lb.Pick.1.toNat with
      | none => (.panicked, startState c lb req)
      | some r =>
        if r.1 ≠ .None ∧ lb.Endpoints.length > 1 then
          ((judge pathJoin cb fuel r.1 lb.Pick.1.toNat r.2).1,
            writeBack (judge pathJoin cb fuel r.1 lb.Pick.1.toNat r.2).2)
        else (.returned, writeBack r.2)

end Client

/-- The positions of the attempts of a trace, in order. -/
def attemptsOf : List Event → List Nat
  | [] => []
  | .attempt ind :: t => ind :: attemptsOf t
  | _ :: t => attemptsOf t

/-- The URLs of the transport calls of a trace, in order. -/
def transportsOf : List Event → List URL
  | [] => []
  | .transport url :: t => url :: transportsOf t
  | _ :: t => transportsOf t

/-! ### Concrete clients used by the examples -/

/-- A `NonBlockingCircuitBreaker` with its runtime and its ticker as a value of the
interface `cb.CircuitBreaker`; an event that runs out of fuel leaves the breaker as it
is. -/
def nonBlockingBreaker (fuel : Nat) :
    CircuitBreaker (NonBlockingCircuitBreaker × Runtime × Ticker) :=
  { CanRequest := fun s => ((s.1.CanRequest s.2.2).1, (s.1.CanRequest s.2.2).2.1, s.2.1,
      (s.1.CanRequest s.2.2).2.2),
    OnSuccess := fun s => (s.1.OnSuccess fuel s.2.1 s.2.2).getD s,
    OnFailure := fun s => (s.1.OnFailure fuel s.2.1 s.2.2).getD s }

/-- A breaker that is open or not once and for all and counts the successes and the
failures reported to it. -/
def countingBreaker : CircuitBreaker (Bool × Nat × Nat) :=
  { CanRequest := fun s => (!s.1, s),
    OnSuccess := fun s => (s.1, s.2.1 + 1, s.2.2),
    OnFailure := fun s => (s.1, s.2.1, s.2.2 + 1) }

/-- A stand-in for `path.Join` that concatenates. -/
def concatPath (a b : String) : String := a ++ b

/-- The URL with the given scheme, host and path. -/
def urlOf (scheme host path : String) : URL :=
  { Scheme := scheme, Opaque := "", User := none, Host := host, Path := path, RawPath := "",
    OmitHost := false, ForceQuery := false, RawQuery := "", Fragment := "", RawFragment := "" }

/-- The endpoint `https://<host>` with the breaker state `b`. -/
def endpointOf {β : Type} (host : String) (b : β) : Endpoint β :=
  { URL := urlOf "https" host "", network := "tcp", breaker := b, Metadata := { Weight := 0 } }

/-- A request for `/json` without hooks. -/
def plainRequest : Request :=
  { r := { URL := urlOf "" "" "/json", Host := "" }, transforms := [], decoder := none,
    onRespHeader := none, onRequestCtxCanceledOrTimeout := none, expect := none }

/-- The backoff that waits 50 milliseconds and gives up from attempt `limit` on. -/
def limitedBackoff (limit : Int) : Backoff Unit :=
  AttemptLimitingBackoff.toBackoff
    { delegate := { NextDelayMillis := fun _ r => (50, r) }, limit := limit }

/-- A client over the endpoints `eps`, of which the balancer picks `pick`, with the
transport `transport` and the backoff `limitedBackoff 3`. -/
def clientOf {β : Type} (eps : Endpoints β) (pick : Int)
    (transport : Nat → URL → TransportResult) : Client β Unit :=
  { transport := transport, calls := 0, lb := some (.other eps pick),
    backoff := limitedBackoff 3, rand := (), trace := [] }

/-- A breaker Open since tick 2 with deadline 7, on a ticker that stays at tick 3. -/
def openBreaker : NonBlockingCircuitBreaker × Runtime × Ticker :=
  ({ config := exampleConfig,
     s := { addr := 1, cs := .Open, counter := .noOp, timeout := 7, timedOutTimeNanos := 5 },
     nextAddr := 2, log := [] }, exampleRuntime, { ticks := fun _ => 3, pos := 0 })

/-! ### The retry and failover policy, read off a trace -/

/-- What the policy remembers while a trace is read: the position of the last attempt,
the action it returned (`none` while it runs) and whether the backoff has not been
consulted since that endpoint was reached. -/
structure Follow where
  ind : Nat
  act : Option EndpointAction
  fresh : Bool
deriving DecidableEq, Repr

/-- One event read under the policy for `n` endpoints; `none` when the event breaks it.
An attempt that follows `Retrying` targets the same position, one that follows
`NextEndpoint` targets the next position modulo `n`, nothing is attempted after `None`,
and the first consultation of the backoff on an endpoint has attempt number 1. -/
def followStep (n : Nat) : Option Follow → Event → Option (Option Follow)
  | none, .attempt i => some (some { ind := i, act := none, fresh := true })
  | some f, .attempt i =>
    match f.act with
    | some .Retrying =>
      if i = f.ind then some (some { ind := i, act := none, fresh := f.fresh }) else none
    | some .NextEndpoint =>
      if i = (f.ind + 1) % n then some (some { ind := i, act := none, fresh := true }) else none
    | _ => none
  | some f, .action a => some (some { f with act := some a })
  | none, .action _ => none
  | some f, .backoff k _ =>
    if f.fresh = true ∧ k ≠ 1 then none else some (some { f with fresh := false })
  | none, .backoff _ _ => none
  | s, .transport _ => some s
  | s, .sleep _ => some s

/-- The events of a trace read in order under the policy. -/
def followRun (n : Nat) : Option Follow → List Event → Option (Option Follow)
  | s, [] => some s
  | s, e :: t =>
    match followStep n s e with
    | none => none
    | some s1 => followRun n s1 t

/-- The trace follows the retry and failover policy for `n` endpoints. -/
def followsPolicy (n : Nat) (trace : List Event) : Bool := (followRun n none trace).isSome

/-- Whatever the transport returns, the hooks of the request answer `Retrying`: a response
is answered by the response-header hook, an error is a cancellation or an expired deadline
and is answered by the hook for it. -/
def AsksRetrying (transport : Nat → URL → TransportResult) (req : Request) : Prop :=
  ∀ k u,
    match transport k u with
    | .response r => ∃ f, req.onRespHeader = some f ∧ f r.StatusCode r.Header = .Retrying
    | .error e => (e.kind = .deadlineExceeded ∨ e.kind = .canceled) ∧
        ∃ f, req.onRequestCtxCanceledOrTimeout = some f ∧ f () = .Retrying

/-- The breaker states in `I` allow every request and stay in `I` under the three
methods. -/
def AlwaysAllows {β : Type} (cb : CircuitBreaker β) (I : β → Prop) : Prop :=
  ∀ b, I b → (cb.CanRequest b).1 = true ∧ I (cb.CanRequest b).2 ∧ I (cb.OnSuccess b) ∧
    I (cb.OnFailure b)

/-- A transport that always answers 502. -/
def badGatewayTransport : Nat → URL → TransportResult :=
  fun _ _ => .response { StatusCode := 502, Header := [], Body := "" }

/-- A transport whose calls all fail because the deadline of the request has expired. -/
def deadlineTransport : Nat → URL → TransportResult :=
  fun _ _ => .error { kind := .deadlineExceeded, msg := "context deadline exceeded" }

/-- A transport whose calls all fail to connect. -/
def refusingTransport : Nat → URL → TransportResult :=
  fun _ u => .error { kind := .other, msg := "connection refused by " ++ u.Host }

/-- The function `OnStatus5xx`, with the status codes of `net/http`. -/
def OnStatus5xx (statusCode : Int) (_header : List (String × List String)) : EndpointAction :=
  if statusCode = 502 then .Retrying
  else if statusCode = 500 ∨ statusCode = 503 then .NextEndpoint
  else .None

/-- The parts of the state that one attempt leaves alone. -/
structure Client.Frame {β ρ : Type} (st st' : DoState β ρ) : Prop where
  req : st'.req = st.req
  length : st'.endpoints.length = st.endpoints.length
  transport : st'.client.transport = st.client.transport
  backoff : st'.client.backoff = st.client.backoff
  rand : st'.client.rand = st.client.rand
  lb : st'.client.lb = st.client.lb

/-- The parts of the state that `judge` leaves alone. -/
structure Client.Kept {β ρ : Type} (st st' : DoState β ρ) : Prop where
  req : st'.req = st.req
  length : st'.endpoints.length = st.endpoints.length
  transport : st'.client.transport = st.client.transport
  backoff : st'.client.backoff = st.client.backoff
  lb : st'.client.lb = st.client.lb

/-- The error that `exec` leaves in the response when the `k`-th transport call, on a
request with the URL `url`, is answered with `Retrying` under `AsksRetrying`: none after a
response, the error of the cancelled or timed-out request after an error. -/
def ctxErrorAt (transport : Nat → URL → TransportResult) (url : URL) (k : Nat) :
    Option ClientError :=
  match transport k url with
  | .response _ => none
  | .error e => some (requestCtxCanceledOrTimeout url e)

/-- A request for `/json` on which a 5xx status is answered by `OnStatus5xx` and a
cancellation or an expired deadline by `Retrying`. -/
def retryingRequest : Request :=
  { plainRequest with
    onRespHeader := some OnStatus5xx,
    onRequestCtxCanceledOrTimeout := some fun _ => .Retrying }

/-- Two endpoints whose counting breakers are closed. -/
def twoEndpoints : Endpoints (Bool × Nat × Nat) :=
  [some (endpointOf "a.example" (false, 0, 0)), some (endpointOf "b.example" (false, 0, 0))]

end Garr

namespace Garr

/-! ## Package `httpclient`: equality and copies of endpoints -/

/-- The method `EndpointMetadata.Equal` (`none` for a nil `other`). -/
def EndpointMetadata.Equal (e : EndpointMetadata) (other : Option EndpointMetadata) : Bool :=
  match other with
  | none => false
  | some o => e.Weight == o.Weight

/-- The method `Endpoint.equalUser`. `Username()` and `Password()` read the fields of the
`url.Userinfo`. -/
def Endpoint.equalUser {β : Type} (e other : Endpoint β) : Bool :=
  match e.URL.User with
  | none => other.URL.User.isNone
  | some u =>
    match other.URL.User with
    | none => false
    | some o =>
      if u.username == o.username then u.passwordSet == o.passwordSet && u.password == o.password
      else false

/-- The method `Endpoint.Equal` on two pointers (`none` is nil). The conjunction stops at
`other != nil`; with a non-nil `other`, reading `e.URL.Host` through a nil receiver panics
(result `none`). -/
def Endpoint.Equal {β : Type} (e other : Option (Endpoint β)) : Option Bool :=
  match other with
  | none => some false
  | some o =>
    match e with
    | none => none
    | some e =>
      some (e.URL.Host == o.URL.Host && e.URL.Scheme == o.URL.Scheme &&
        e.URL.Opaque == o.URL.Opaque && e.equalUser o && e.Metadata.Equal (some o.Metadata))

/-- The loop of `Endpoints.Equal` over two slices of the same length: it returns at the
first pair that is not equal. -/
def Endpoints.equalLoop {β : Type} : Endpoints β → Endpoints β → Option Bool
  | a :: as, b :: bs =>
    match Endpoint.Equal a b with
    | none => none
    | some false => some false
    | some true => Endpoints.equalLoop as bs
  | _, _ => some true

/-- The method `Endpoints.Equal` (`none` when it panics). -/
def Endpoints.Equal {β : Type} (e other : Endpoints β) : Option Bool :=
  if e.length = other.length then Endpoints.equalLoop e other else some false

/-- The builtin `copy(dst, src)`: the first `min(len(dst), len(src))` elements of `dst` are
replaced by those of `src`. -/
def copySlice {α : Type} (dst src : List α) : List α :=
  src.take dst.length ++ dst.drop src.length

/-- The method `Endpoints.Clone`: a new slice that holds the same pointers. -/
def Endpoints.Clone {β : Type} (e : Endpoints β) : Endpoints β :=
  copySlice (List.replicate e.length none) e

/-- The fields of an endpoint that `injectTarget` splices into a request, and its metadata:
what the deep equality of two endpoints compares in the specification. -/
def Endpoint.sameTarget {β : Type} (e o : Endpoint β) : Prop :=
  e.URL.Scheme = o.URL.Scheme ∧ e.URL.Opaque = o.URL.Opaque ∧ e.URL.User = o.URL.User ∧
    e.URL.Host = o.URL.Host ∧ e.URL.Path = o.URL.Path ∧ e.Metadata = o.Metadata

/-- The fields that `Endpoint.Equal` reads. -/
def Endpoint.sameCompared {β : Type} (e o : Endpoint β) : Prop :=
  e.URL.Scheme = o.URL.Scheme ∧ e.URL.Opaque = o.URL.Opaque ∧ e.URL.User = o.URL.User ∧
    e.URL.Host = o.URL.Host ∧ e.Metadata = o.Metadata

/-- The endpoint `https://<host><path>` without a breaker. -/
def endpointAt (host path : String) : Endpoint Unit :=
  { URL := urlOf "https" host path, network := "tcp", breaker := (),
    Metadata := { Weight := 0 } }

/-! ## Floating point: products, sums and conversions -/

namespace F64

/-- The `float64` nearest to `m * 2^e`. -/
def scaled (m e : Int) : F64 :=
  if 0 ≤ e then round (m * 2 ^ e.toNat) 1 else round m (2 ^ (-e).toNat)

/-- The product `a * b` of two `float64`. -/
def mul : F64 → F64 → F64
  | nan, _ => nan
  | _, nan => nan
  | inf n1, inf n2 => inf (n1 != n2)
  | inf n, fin m _ => if m = 0 then nan else inf (n != decide (m < 0))
  | fin m _, inf n => if m = 0 then nan else inf (n != decide (m < 0))
  | fin m1 e1, fin m2 e2 => scaled (m1 * m2) (e1 + e2)

/-- The sum `a + b` of two `float64`. -/
def add : F64 → F64 → F64
  | nan, _ => nan
  | _, nan => nan
  | inf n1, inf n2 => if n1 = n2 then inf n1 else nan
  | inf n, fin _ _ => inf n
  | fin _ _, inf n => inf n
  | fin m1 e1, fin m2 e2 =>
    scaled ((align m1 e1 m2 e2).1 + (align m1 e1 m2 e2).2) (min e1 e2)

/-- The integer part, toward zero, of the finite value `m * 2^e`. -/
def trunc (m e : Int) : Int :=
  if 0 ≤ e then m * 2 ^ e.toNat else Int.tdiv m (2 ^ (-e).toNat)

/-- The rational value of a finite `float64`; 0 for NaN and the infinities. -/
def toRat : F64 → ℚ
  | fin m e => (m : ℚ) * (2 : ℚ) ^ e
  | _ => 0

/-- Whether the `float64` is finite. -/
def isFinite : F64 → Bool
  | fin _ _ => true
  | _ => false

/-- The constant `math.MaxInt64` as a `float64`: `2^63 - 1` is not a `float64`, the
constant is rounded to `2^63`. -/
def maxInt64 : F64 := fin 1 63

/-- The integer nearest to `n / d`, ties to even: the mantissa that `round` computes. -/
def rne (n d : Nat) : Nat :=
  if d < 2 * (n % d) ∨ (2 * (n % d) = d ∧ n / d % 2 = 1) then n / d + 1 else n / d

/-- The exponent of the last place at which `round` rounds `a / den`. -/
def ulpExp (a den : Nat) : Int := max (ilog2 a den - 52) (-1074)

/-- The mantissa that `round` computes for `a / den`. -/
def mant (a den : Nat) : Nat :=
  if 0 ≤ ulpExp a den then rne a (den * 2 ^ (ulpExp a den).toNat)
  else rne (a * 2 ^ (-ulpExp a den).toNat) den

/-- The value is one that a `float64` can hold: NaN, an infinity, or `k * 2^e` with
`|k| < 2^53` and `e >= -1074`, below `2^1024` in absolute value. -/
def Representable : F64 → Prop
  | fin m e =>
    ∃ (k e' : Int), |k| < 2 ^ 53 ∧ -1074 ≤ e' ∧ (m : ℚ) * (2 : ℚ) ^ e = (k : ℚ) * (2 : ℚ) ^ e' ∧
      |(k : ℚ) * (2 : ℚ) ^ e'| < (2 : ℚ) ^ (1024 : Int)
  | _ => True

/-- The order of the extended reals on `float64` values that are not NaN and not the
negative infinity: `x` is at most `y`. -/
def leVal (x y : F64) : Prop :=
  match x, y with
  | fin m1 e1, fin m2 e2 => (m1 : ℚ) * (2 : ℚ) ^ e1 ≤ (m2 : ℚ) * (2 : ℚ) ^ e2
  | fin _ _, inf false => True
  | inf false, inf false => True
  | _, _ => False

end F64

/-- The constant `math.MaxInt64`. -/
def mathMaxInt64 : Int := 2 ^ 63 - 1

/-- What package `retry` takes from outside the repository for its `float64` arithmetic:
the function `math.Pow` of the standard library, and the result of converting to `int64` a
`float64` that `int64` cannot represent, which the language leaves to the implementation. -/
structure FloatRuntime where
  Pow : F64 → F64 → F64
  outOfRange : F64 → Int

/-- The conversion `int64(x)` of a `float64`: the integer part when it is an `int64`. -/
def FloatRuntime.toInt64 (fr : FloatRuntime) : F64 → Int
  | .fin m e =>
    if IsInt64 (F64.trunc m e) then F64.trunc m e else wrap64 (fr.outOfRange (.fin m e))
  | x => wrap64 (fr.outOfRange x)

/-! ## Package `retry`: the random source -/

/-- The generator `fastrand.Uint32` of the library `valyala/fastrand`, which is not under
`src/`: the successive results of its calls are a parameter of the embedding. -/
structure FastRand where
  draws : Nat → Nat
  pos : Nat

/-- One call of `fastrand.Uint32()`. -/
def FastRand.Uint32 (r : FastRand) : Nat × FastRand :=
  (r.draws r.pos % 2 ^ 32, { r with pos := r.pos + 1 })

/-- The constant `limit64`. -/
def limit64 : Nat := 2 ^ 63 - 1

/-- The function `randomInt64`: the bits of two draws, the first one shifted by 32 in an
`int64` and masked with `limit64`. -/
def randomInt64 (r : FastRand) : Int × FastRand :=
  (((((r.Uint32.1 <<< 32) % 2 ^ 64) &&& limit64) ||| r.Uint32.2.Uint32.1 : Nat),
    r.Uint32.2.Uint32.2)

/-- The loop of `nextRandomInt64IncludingZero` for a bound that is not a power of two:
`result = u % bound`, and another draw while `u < result - mask`. -/
def rejectionLoop (bound mask : Int) : Nat → Int → FastRand → Option (Int × FastRand)
  | 0, _, _ => none
  | fuel + 1, u, r =>
    if u < wrap64 (Int.tmod u bound - mask) then
      rejectionLoop bound mask fuel ((randomInt64 r).1 >>> (1 : Nat)) (randomInt64 r).2
    else some (Int.tmod u bound, r)

/-- The function `nextRandomInt64IncludingZero`. -/
def nextRandomInt64IncludingZero (fuel : Nat) (bound : Int) (r : FastRand) :
    Option (Int × FastRand) :=
  if bound ≤ 0 then some (bound, r)
  else if Int.land bound (wrap64 (bound - 1)) = 0 then
    some (Int.land (randomInt64 r).1 (wrap64 (bound - 1)), (randomInt64 r).2)
  else
    rejectionLoop bound (wrap64 (bound - 1)) fuel ((randomInt64 r).1 >>> (1 : Nat)) (randomInt64 r).2

/-- The function `nextRandomInt64`. -/
def nextRandomInt64 (fuel : Nat) (bound : Int) (r : FastRand) : Option (Int × FastRand) :=
  if bound ≤ 0 then some (bound, r)
  else
    (nextRandomInt64IncludingZero fuel (wrap64 (bound - 1)) r).map fun p =>
      (wrap64 (p.1 + 1), p.2)

/-! ## Package `retry`: the backoffs -/

/-- The struct `FixedBackoff`. -/
structure FixedBackoff where
  delayMillis : Int
deriving DecidableEq, Repr

/-- The error of `NewFixedBackoff`. -/
inductive FixedError where
  | delayMillis (v : Int)
deriving DecidableEq, Repr

/-- The constructor `NewFixedBackoff`. -/
def NewFixedBackoff (delayMillis : Int) : Option FixedBackoff × Option FixedError :=
  if delayMillis ≥ 0 then (some { delayMillis := delayMillis }, none)
  else (none, some (.delayMillis delayMillis))

/-- The method `FixedBackoff.NextDelayMillis`. -/
def FixedBackoff.NextDelayMillis (f : FixedBackoff) (_numAttemptsSoFar : Int) : Int :=
  f.delayMillis

/-- A `FixedBackoff` as a value of the interface `Backoff`. -/
def FixedBackoff.toBackoff {ρ : Type} (f : FixedBackoff) : Backoff ρ :=
  { NextDelayMillis := fun n r => (f.NextDelayMillis n, r) }

/-- The variable `NoDelayBackoff`. -/
def NoDelayBackoff : FixedBackoff := { delayMillis := 0 }

/-- The variable `NoRetry`. -/
def NoRetry : FixedBackoff := { delayMillis := -1 }

/-- The struct `ExponentialBackoff`. -/
structure ExponentialBackoff where
  initialDelayMillis : Int
  maxDelayMillis : Int
  multiplier : F64
deriving DecidableEq, Repr

/-- The errors of `NewExponentialBackoff`. -/
inductive ExponentialError where
  | multiplier (m : F64)
  | initialDelayMillis (v : Int)
  | maxDelayMillis (max initial : Int)
deriving DecidableEq, Repr

/-- The constructor `NewExponentialBackoff`. -/
def NewExponentialBackoff (initialDelayMillis maxDelayMillis : Int) (multiplier : F64) :
    Option ExponentialBackoff × Option ExponentialError :=
  if F64.le multiplier (.fin 1 0) = true then (none, some (.multiplier multiplier))
  else if initialDelayMillis < 0 then (none, some (.initialDelayMillis initialDelayMillis))
  else if initialDelayMillis > maxDelayMillis then
    (none, some (.maxDelayMillis maxDelayMillis initialDelayMillis))
  else
    (some { initialDelayMillis := initialDelayMillis, maxDelayMillis := maxDelayMillis,
            multiplier := multiplier }, none)

/-- The function `saturatedMultiply`. -/
def saturatedMultiply (fr : FloatRuntime) (left : Int) (right : F64) : Int :=
  if F64.lt (F64.mul (F64.ofInt64 left) right) F64.maxInt64 = true then
    fr.toInt64 (F64.mul (F64.ofInt64 left) right)
  else mathMaxInt64

/-- The method `ExponentialBackoff.NextDelayMillis`. -/
def ExponentialBackoff.NextDelayMillis (fr : FloatRuntime) (f : ExponentialBackoff)
    (numAttemptsSoFar : Int) : Int :=
  if numAttemptsSoFar = 1 then f.initialDelayMillis
  else if saturatedMultiply fr f.initialDelayMillis
      (fr.Pow f.multiplier (F64.ofInt64 (wrap64 (numAttemptsSoFar - 1)))) > f.maxDelayMillis then
    f.maxDelayMillis
  else
    saturatedMultiply fr f.initialDelayMillis
      (fr.Pow f.multiplier (F64.ofInt64 (wrap64 (numAttemptsSoFar - 1))))

/-- The struct `RandomBackoff`. -/
structure RandomBackoff where
  minDelayMillis : Int
  maxDelayMillis : Int
  bound : Int
deriving DecidableEq, Repr

/-- The errors of `NewRandomBackoff`. -/
inductive RandomError where
  | minDelayMillis (v : Int)
  | maxDelayMillis (max min : Int)
deriving DecidableEq, Repr

/-- The constructor `NewRandomBackoff`. -/
def NewRandomBackoff (minDelayMillis maxDelayMillis : Int) :
    Option RandomBackoff × Option RandomError :=
  if minDelayMillis < 0 then (none, some (.minDelayMillis minDelayMillis))
  else if minDelayMillis > maxDelayMillis then
    (none, some (.maxDelayMillis maxDelayMillis minDelayMillis))
  else
    (some { minDelayMillis := minDelayMillis, maxDelayMillis := maxDelayMillis,
            bound := wrap64 (maxDelayMillis - minDelayMillis) }, none)

/-- The method `RandomBackoff.NextDelayMillis`. -/
def RandomBackoff.NextDelayMillis (fuel : Nat) (f : RandomBackoff) (_numAttemptsSoFar : Int)
    (r : FastRand) : Option (Int × FastRand) :=
  if f.minDelayMillis ≠ f.maxDelayMillis then
    (nextRandomInt64 fuel f.bound r).map fun p => (wrap64 (p.1 + f.minDelayMillis), p.2)
  else some (f.minDelayMillis, r)

/-- The struct `JitterAddingBackoff`, over a delegate that may draw from the random
source. -/
structure JitterAddingBackoff where
  minJitterRate : F64
  maxJitterRate : F64
  delegate : Backoff FastRand

/-- The errors of `NewJitterAddingBackoff`. -/
inductive JitterError where
  | delegateNil
  | minJitterRate (v : F64)
  | maxJitterRate (v : F64)
  | order (max min : F64)
deriving DecidableEq, Repr

/-- The constructor `NewJitterAddingBackoff` (`none` for a nil delegate). -/
def NewJitterAddingBackoff (delegate : Option (Backoff FastRand))
    (minJitterRate maxJitterRate : F64) : Option JitterAddingBackoff × Option JitterError :=
  match delegate with
  | none => (none, some .delegateNil)
  | some d =>
    if ¬ (F64.le (.fin (-1) 0) minJitterRate = true ∧ F64.le minJitterRate (.fin 1 0) = true) then
      (none, some (.minJitterRate minJitterRate))
    else if ¬ (F64.le (.fin (-1) 0) maxJitterRate = true ∧
        F64.le maxJitterRate (.fin 1 0) = true) then
      (none, some (.maxJitterRate maxJitterRate))
    else if F64.lt maxJitterRate minJitterRate = true then
      (none, some (.order maxJitterRate minJitterRate))
    else
      (some { minJitterRate := minJitterRate, maxJitterRate := maxJitterRate, delegate := d },
        none)

/-- The bound `int64(float64(tmp) * (1 + rate))` of `JitterAddingBackoff.NextDelayMillis`. -/
def jitterBound (fr : FloatRuntime) (tmp : Int) (rate : F64) : Int :=
  fr.toInt64 (F64.mul (F64.ofInt64 tmp) (F64.add (.fin 1 0) rate))

/-- The method `JitterAddingBackoff.NextDelayMillis`. -/
def JitterAddingBackoff.NextDelayMillis (fr : FloatRuntime) (fuel : Nat)
    (f : JitterAddingBackoff) (numAttemptsSoFar : Int) (r : FastRand) :
    Option (Int × FastRand) :=
  if (f.delegate.NextDelayMillis numAttemptsSoFar r).1 ≤ 0 then
    some (f.delegate.NextDelayMillis numAttemptsSoFar r)
  else
    (nextRandomInt64IncludingZero fuel
      (wrap64 (wrap64 (jitterBound fr (f.delegate.NextDelayMillis numAttemptsSoFar r).1
          f.maxJitterRate -
        jitterBound fr (f.delegate.NextDelayMillis numAttemptsSoFar r).1 f.minJitterRate) + 1))
      (f.delegate.NextDelayMillis numAttemptsSoFar r).2).map fun p =>
        (if wrap64 (jitterBound fr (f.delegate.NextDelayMillis numAttemptsSoFar r).1
              f.minJitterRate + p.1) < 0 then 0
          else wrap64 (jitterBound fr (f.delegate.NextDelayMillis numAttemptsSoFar r).1
              f.minJitterRate + p.1), p.2)

/-! ## Package `retry`: the specification strings -/

/-- The constant `DefaultDelayMillis`. -/
def DefaultDelayMillis : Int := 200

/-- The constant `DefaultInitialDelayMillis`. -/
def DefaultInitialDelayMillis : Int := 200

/-- The constant `DefaultMinDelayMillis`. -/
def DefaultMinDelayMillis : Int := 0

/-- The constant `DefaultMaxDelayMillis`. -/
def DefaultMaxDelayMillis : Int := 10000

/-- The constant `DefaultMultiplier`. -/
def DefaultMultiplier : F64 := .fin 2 0

/-- The functions `strconv.ParseInt(s, 10, 64)` and `strconv.ParseFloat(s, 64)` of the
standard library, parameters of the embedding; `none` stands for their error. -/
structure Strconv where
  ParseInt : String → Option Int
  ParseFloat : String → Option F64

/-- A base backoff, as `parseFromSpec` returns it in the interface `Backoff`. -/
inductive BaseBackoff where
  | exponential (b : ExponentialBackoff)
  | fixed (b : FixedBackoff)
  | random (b : RandomBackoff)
deriving DecidableEq, Repr

/-- The errors that `parseFromSpec` returns: `ErrInvalidSpecFormat`, the error of a
`strconv` function on the given text, or the error of a constructor. -/
inductive SpecError where
  | ErrInvalidSpecFormat
  | numError (text : String)
  | exponential (e : ExponentialError)
  | fixed (e : FixedError)
  | random (e : RandomError)
deriving DecidableEq, Repr

/-- The function `strings.Index(s, sep)` for a separator of one character: the position of
its first occurrence, or -1. The separators of this package are ASCII characters, so that
positions counted in characters and in bytes cut the string at the same places. -/
def stringsIndex (sep : Char) : List Char → Int
  | [] => -1
  | c :: cs =>
    if c = sep then 0
    else if stringsIndex sep cs < 0 then -1 else stringsIndex sep cs + 1

/-- The function `strings.Split(s, sep)` for a separator of one character. -/
def stringsSplit (sep : Char) : List Char → List (List Char)
  | [] => [[]]
  | c :: cs =>
    if c = sep then [] :: stringsSplit sep cs
    else
      match stringsSplit sep cs with
      | [] => [[c]]
      | f :: fs => (c :: f) :: fs

/-- A blank field keeps the default, another one is parsed. -/
def parseField {α : Type} (parse : String → Option α) (text : String) (dflt : α) :
    Option α × Option SpecError :=
  if text ≠ "" then
    match parse text with
    | none => (none, some (.numError text))
    | some v => (some v, none)
  else (some dflt, none)

/-- The function `parseFixedBackoff`. -/
def parseFixedBackoff (sc : Strconv) (values : String) : Option BaseBackoff × Option SpecError :=
  match parseField sc.ParseInt values DefaultDelayMillis with
  | (some delayMillis, _) =>
    ((NewFixedBackoff delayMillis).1.map .fixed, (NewFixedBackoff delayMillis).2.map .fixed)
  | (none, err) => (none, err)

/-- The function `parseRandomBackoff`. -/
def parseRandomBackoff (sc : Strconv) (values : String) :
    Option BaseBackoff × Option SpecError :=
  match (stringsSplit ':' values.data).map String.mk with
  | [s0, s1] =>
    match parseField sc.ParseInt s0 DefaultMinDelayMillis with
    | (some minDelayMillis, _) =>
      match parseField sc.ParseInt s1 DefaultMaxDelayMillis with
      | (some maxDelayMillis, _) =>
        ((NewRandomBackoff minDelayMillis maxDelayMillis).1.map .random,
          (NewRandomBackoff minDelayMillis maxDelayMillis).2.map .random)
      | (none, err) => (none, err)
    | (none, err) => (none, err)
  | _ => (none, some .ErrInvalidSpecFormat)

/-- The function `parseExponentialBackoff`. -/
def parseExponentialBackoff (sc : Strconv) (values : String) :
    Option BaseBackoff × Option SpecError :=
  match (stringsSplit ':' values.data).map String.mk with
  | [s0, s1, s2] =>
    match parseField sc.ParseInt s0 DefaultInitialDelayMillis with
    | (some initialDelayMillis, _) =>
      match parseField sc.ParseInt s1 DefaultMaxDelayMillis with
      | (some maxDelayMillis, _) =>
        match parseField sc.ParseFloat s2 DefaultMultiplier with
        | (some multiplier, _) =>
          ((NewExponentialBackoff initialDelayMillis maxDelayMillis multiplier).1.map
              .exponential,
            (NewExponentialBackoff initialDelayMillis maxDelayMillis multiplier).2.map
              .exponential)
        | (none, err) => (none, err)
      | (none, err) => (none, err)
    | (none, err) => (none, err)
  | _ => (none, some .ErrInvalidSpecFormat)

/-- The function `parseFromSpec`. The result `none` of the first component stands for a
nil `Backoff`, and also for the interface value that holds the nil pointer of a
constructor that returned an error. -/
def parseFromSpec (sc : Strconv) (spec : String) : Option BaseBackoff × Option SpecError :=
  if stringsIndex '=' spec.data < 0 then (none, some .ErrInvalidSpecFormat)
  else
    let key := String.mk (spec.data.take (stringsIndex '=' spec.data).toNat)
    let values := String.mk (spec.data.drop ((stringsIndex '=' spec.data).toNat + 1))
    if key = "exponential" then parseExponentialBackoff sc values
    else if key = "fixed" then parseFixedBackoff sc values
    else if key = "random" then parseRandomBackoff sc values
    else (none, some .ErrInvalidSpecFormat)

/-- A decimal numeral without sign, read digit by digit. -/
def decimalValue : List Char → Option Nat
  | [] => none
  | cs => cs.foldl (fun acc c =>
      match acc with
      | none => none
      | some n => if c.isDigit then some (n * 10 + (c.toNat - 48)) else none) (some 0)

/-- An instance of the `strconv` functions for the examples: numerals made of decimal
digits and in the range of `int64` are read as integers, and as the `float64` of that
integer; everything else is an error. -/
def digitsStrconv : Strconv :=
  { ParseInt := fun s =>
      match decimalValue s.data with
      | some n => if (n : Int) < 2 ^ 63 then some n else none
      | none => none,
    ParseFloat := fun s =>
      match decimalValue s.data with
      | some n => if (n : Int) < 2 ^ 63 then some (F64.ofInt64 n) else none
      | none => none }

/-- The non-negative integer that a `float64` holds, if it holds one. -/
def F64.toNat? : F64 → Option Nat
  | .fin n k =>
    if n < 0 then none
    else if 0 ≤ k then some (n.toNat * 2 ^ k.toNat)
    else if n.toNat % 2 ^ (-k).toNat = 0 then some (n.toNat / 2 ^ (-k).toNat)
    else none
  | _ => none

/-- An instance of `math.Pow` for the examples: for a finite base and an exponent that is
a non-negative integer, the `float64` nearest to the power; NaN for the other arguments,
which the examples do not use. Wherever the examples call it, the power itself is a
`float64`. -/
def examplePow (x y : F64) : F64 :=
  match x, F64.toNat? y with
  | .fin m e, some j => F64.scaled (m ^ j) (e * j)
  | _, _ => .nan

/-- The runtime of the examples: `examplePow`, and `math.MinInt64` for a conversion out of
range (what the conversion instruction of amd64 returns). -/
def exampleFloatRuntime : FloatRuntime :=
  { Pow := examplePow, outOfRange := fun _ => -(2 ^ 63) }

/-- A random source whose draws are the elements of the list, then 0. -/
def fastRandOf (l : List Nat) : FastRand := { draws := fun n => l.getD n 0, pos := 0 }

/-- A jitter between -100% and +100% over a fixed delay of `2^62 - 1024` milliseconds,
whose double `2^63 - 2048` is an `int64`. -/
def wideJitter : JitterAddingBackoff :=
  { minJitterRate := .fin (-1) 0, maxJitterRate := .fin 1 0,
    delegate := (FixedBackoff.mk (2 ^ 62 - 1024)).toBackoff }

/-- A jitter between -50% and 0% over a fixed delay of 1 millisecond. -/
def halfJitter : JitterAddingBackoff :=
  { minJitterRate := .fin (-1) (-1), maxJitterRate := .fin 0 0,
    delegate := (FixedBackoff.mk 1).toBackoff }

/-- The powers that `math.Pow` returns for the base `x` and the integer exponents `y1` and
`y2` are in order, or the second one is NaN. -/
def powStep (fr : FloatRuntime) (x : F64) (y1 y2 : Int) : Prop :=
  F64.le (fr.Pow x (F64.ofInt64 y1)) (fr.Pow x (F64.ofInt64 y2)) = true ∨
    fr.Pow x (F64.ofInt64 y2) = .nan

/-- The backoff of the specification's example: 200 milliseconds, at most 10000, tripled at
each attempt. -/
def tripleBackoff : ExponentialBackoff :=
  { initialDelayMillis := 200, maxDelayMillis := 10000, multiplier := .fin 3 0 }

/-- A backoff whose initial delay `2^53 + 1` is not a `float64`. -/
def oddBackoff : ExponentialBackoff :=
  { initialDelayMillis := 2 ^ 53 + 1, maxDelayMillis := 2 ^ 62, multiplier := .fin 2 0 }

end Garr

namespace Garr

/-- The `float64` is `+Inf` or a finite value from `c` on. -/
def F64.atLeast (c : ℚ) : F64 → Prop
  | .inf false => True
  | .fin m e => c ≤ (m : ℚ) * (2 : ℚ) ^ e
  | _ => False

/-- The result of `math.Pow(x, 1)` is at least `x`, or NaN (for a NaN `x`). The documented
special case `Pow(x, 1) = x for any x` gives this. -/
def powOne (fr : FloatRuntime) (x : F64) : Prop :=
  F64.le x (fr.Pow x (F64.ofInt64 1)) = true ∨ fr.Pow x (F64.ofInt64 1) = .nan

end Garr

namespace Garr

/-! ## JDKAdder shared by several goroutines

The sequential embedding above runs one call at a time. Here a call of `JDKAdder.Add`
is cut at every access to the shared memory: one step of a goroutine is one atomic
operation (`Load`, `Store`, `CompareAndSwap` of `sync/atomic`) followed by the local
computation up to the next one. A scheduler picks the goroutine of each step, so that
every interleaving of the atomic operations is a run. The values that `getRandomInt`
returns during a step are inputs of the step. -/

/-- A value of type `cells`: the backing array (the address `&as[0]`) and the length.
The capacity is the length of the backing array. -/
structure Slice where
  arr : Nat
  len : Nat
deriving DecidableEq, Repr

/-- The memory shared by the goroutines: the fields of the `striped64`, the backing
arrays of `atomic.Value` slots (a slot holds nil or a `*cell`, the index of the cell), and
the `val` field of every cell. -/
structure Mem where
  base : Int
  cellsBusy : Int
  cells : Option Slice
  arrays : List (List (Option Nat))
  vals : List Int
deriving DecidableEq, Repr

/-- The memory of `NewJDKAdder()`. -/
def Mem.new : Mem := { base := 0, cellsBusy := 0, cells := none, arrays := [], vals := [] }

/-- The backing array `A`. -/
def Mem.row (m : Mem) (A : Nat) : List (Option Nat) := m.arrays.getD A []

/-- The expression `as[j].Load()`: `none` when the index is out of range (a panic). -/
def Mem.loadSlot (m : Mem) (as : Slice) (j : Nat) : Option (Option Nat) :=
  if j < as.len then (m.row as.arr)[j]? else none

/-- The statement `rs[j].Store(c)`. -/
def Mem.storeSlot (m : Mem) (rs : Slice) (j c : Nat) : Mem :=
  { m with arrays := m.arrays.set rs.arr ((m.row rs.arr).set j (some c)) }

/-- The expression `&cell\x7bval: x\x7d`: the memory with the new cell, and its address. -/
def Mem.newCell (m : Mem) (x : Int) : Mem × Nat :=
  ({ m with vals := m.vals ++ [x] }, m.vals.length)

/-- A backing array made by `make` enters the memory when it is stored in
`striped64.cells`: the memory with the array, and its address. -/
def Mem.newArray (m : Mem) (row : List (Option Nat)) : Mem × Nat :=
  ({ m with arrays := m.arrays ++ [row] }, m.arrays.length)

/-- The point of the code at which a goroutine stands: the atomic operation it executes
next. -/
inductive Pc
  /-- Between two calls of `Add`; the next step calls `Add` and executes
  `u.cells.Load()`. -/
  | idle
  /-- The expression `atomic.LoadInt64(&u.base)` of `Add`. -/
  | addLoadBase
  /-- The expression `u.casBase(b, b+x)` of `Add`. -/
  | addCasBase
  /-- The expression `as[probe].Load()` of `Add`. -/
  | addLoadSlot
  /-- The expression `atomic.LoadInt64(&a.val)` of `Add`. -/
  | addLoadVal
  /-- The expression `a.cas(v, v+x)` of `Add`. -/
  | addCasCell
  /-- The head of the loop of `accumulate`: `s.cells.Load()`. -/
  | loopLoadCells
  /-- The expression `as[index&n].Load()`. -/
  | loopLoadSlot
  /-- The first `atomic.LoadInt32(&s.cellsBusy) == 0` of the branch `a == nil`. -/
  | attachBusy1
  /-- The second `atomic.LoadInt32(&s.cellsBusy) == 0` of the branch `a == nil`. -/
  | attachBusy2
  /-- The call `s.casCellsBusy()` of the branch `a == nil`. -/
  | attachLock
  /-- The statement `rs = s.cells.Load().(cells)` under the lock. -/
  | attachCells
  /-- The expression `rs[j].Load() == nil`. -/
  | attachSlot
  /-- The statement `rs[j].Store(r)`. -/
  | attachStore
  /-- The statement `atomic.StoreInt32(&s.cellsBusy, 0)` before `break`. -/
  | attachUnlockBreak
  /-- The statement `atomic.StoreInt32(&s.cellsBusy, 0)` before `continue`. -/
  | attachUnlock
  /-- The expression `atomic.LoadInt64(&a.val)` of `accumulate`. -/
  | cellLoadVal
  /-- The expression `a.cas(v, newV)` of `accumulate`. -/
  | cellCas
  /-- The expression `s.cells.Load()` of the test for a stale table. -/
  | staleCells
  /-- The expression `atomic.LoadInt32(&s.cellsBusy) == 0` before the growth. -/
  | growBusy
  /-- The call `s.casCellsBusy()` before the growth. -/
  | growLock
  /-- The statement `rs = s.cells.Load().(cells)` of the growth. -/
  | growCells
  /-- The statement `s.cells.Store(rs[:n])`. -/
  | growExtend
  /-- One element of `copy(rs, as)`. -/
  | growCopy
  /-- The statement `s.cells.Store(rs)` after the copy. -/
  | growStore
  /-- The statement `atomic.StoreInt32(&s.cellsBusy, 0)` that ends the growth. -/
  | growUnlock
  /-- The expression `atomic.LoadInt32(&s.cellsBusy) == 0` after `checkCells`. -/
  | initBusy
  /-- The expression `s.cells.Load() == nil` after `checkCells`. -/
  | initCells
  /-- The call `s.casCellsBusy()` after `checkCells`. -/
  | initLock
  /-- The expression `s.cells.Load() == nil` under the lock. -/
  | initRecheck
  /-- The statements that make the first table, ending with `s.cells.Store(rs)`. -/
  | initStore
  /-- The statement `atomic.StoreInt32(&s.cellsBusy, 0)` before `break`. -/
  | initUnlockBreak
  /-- The statement `atomic.StoreInt32(&s.cellsBusy, 0)` when the table exists. -/
  | initUnlock
  /-- The expression `atomic.LoadInt64(&s.base)` of `accumulate`. -/
  | baseLoad
  /-- The call `s.casBase(v, newV)` of `accumulate`. -/
  | baseCas
  /-- The goroutine has panicked. -/
  | panicked
deriving DecidableEq, Repr

/-- The local variables of `Add` and `accumulate`. The field `b` is the variable `b` of
`Add`, `fresh` the array that `make(cells, n<<1, n<<2)` returns, and `i` the position
of `copy(rs, as)`; `n` is the variable `n` after `n = cap(as)`. -/
structure Locals where
  x : Int
  b : Int
  probe : Nat
  index : Nat
  wasUncontended : Bool
  collide : Bool
  v : Int
  as : Slice
  a : Nat
  r : Nat
  rs : Slice
  j : Nat
  n : Nat
  i : Nat
  fresh : List (Option Nat)
deriving DecidableEq, Repr

/-- The local variables after `rs = s.cells.Load().(cells)`, `n = cap(as)` and
`rs = make(cells, n<<1, n<<2)`, before `copy(rs, as)`. -/
def Locals.startCopy (l : Locals) (rs : Slice) (cap : Nat) : Locals :=
  { l with rs := rs, n := cap, i := 0, fresh := List.replicate (cap * 4) none }

/-- Local variables before the first call. -/
def Locals.zero : Locals :=
  { x := 0, b := 0, probe := 0, index := 0, wasUncontended := false, collide := false, v := 0,
    as := ⟨0, 0⟩, a := 0, r := 0, rs := ⟨0, 0⟩, j := 0, n := 0, i := 0, fresh := [] }

/-- A goroutine that calls `Add(arg)` in a loop: `calls` counts the calls not yet
started. -/
structure Goroutine where
  arg : Int
  calls : Nat
  pc : Pc
  loc : Locals
deriving DecidableEq, Repr

/-- A goroutine about to make `calls` calls of `Add(arg)`. -/
def Goroutine.new (arg : Int) (calls : Nat) : Goroutine :=
  { arg := arg, calls := calls, pc := .idle, loc := Locals.zero }

/-- The goroutine at another point of the code. -/
def Goroutine.goto (g : Goroutine) (pc : Pc) : Goroutine := { g with pc := pc }

/-- The goroutine at another point of the code, with local variables assigned. -/
def Goroutine.assign (g : Goroutine) (f : Locals → Locals) (pc : Pc) : Goroutine :=
  { g with pc := pc, loc := f g.loc }

/-- The call `accumulate(index, x, nil, wasUncontended)` up to the head of its loop:
`if index == 0 \x7bindex = getRandomInt(); wasUncontended = true\x7d; collide := false`. -/
def Goroutine.accumulate (g : Goroutine) (index : Nat) (wasUncontended : Bool) (rnd : Nat) :
    Goroutine :=
  if index = 0 then
    g.assign (fun l => { l with index := rnd % 2 ^ 64, wasUncontended := true, collide := false })
      .loopLoadCells
  else
    g.assign
      (fun l => { l with index := index, wasUncontended := wasUncontended, collide := false })
      .loopLoadCells

/-- The end of an iteration of the loop of `accumulate`: the xorshift of `index`, then
`continue`. -/
def Goroutine.rehash (g : Goroutine) : Goroutine :=
  g.assign (fun l => { l with index := xorshift l.index }) .loopLoadCells

/-- The statement `collide = false` followed by the end of the iteration. -/
def Goroutine.uncollide (g : Goroutine) : Goroutine :=
  g.assign (fun l => { l with collide := false, index := xorshift l.index }) .loopLoadCells

/-- One step of a goroutine on the shared memory: the atomic operation at its point of
the code and the local computation that follows. `mx` is the variable `maxCells`; `r1`
and `r2` are the results of the calls of `getRandomInt` during the step, if any. -/
def Goroutine.step (mx : Int) (m : Mem) (g : Goroutine) (r1 r2 : Nat) : Mem × Goroutine :=
  match g.pc with
  | .idle =>
    match g.calls with
    | 0 => (m, g)
    | k + 1 =>
      -- `Add(arg)`: `_as, uncontended := u.cells.Load(), false`
      match m.cells with
      | none => (m, { g with calls := k, pc := .addLoadBase, loc := { g.loc with x := g.arg } })
      | some as =>
        if as.len = 0 then
          (m, Goroutine.accumulate { g with calls := k, loc := { g.loc with x := g.arg } }
            (r1 % 2 ^ 64) true r2)
        else
          (m, { g with calls := k, pc := .addLoadSlot,
                       loc := { g.loc with x := g.arg, as := as,
                                           probe := (r1 % 2 ^ 64) &&& (as.len - 1) } })
  | .addLoadBase => (m, g.assign (fun l => { l with b := m.base }) .addCasBase)
  | .addCasBase =>
    if m.base = g.loc.b then ({ m with base := wrap64 (g.loc.b + g.loc.x) }, g.goto .idle)
    else (m, g.accumulate (r1 % 2 ^ 64) true r2)
  | .addLoadSlot =>
    match m.loadSlot g.loc.as g.loc.probe with
    | none => (m, g.goto .panicked)
    | some none => (m, g.accumulate g.loc.probe true r1)
    | some (some a) => (m, g.assign (fun l => { l with a := a }) .addLoadVal)
  | .addLoadVal =>
    match m.vals[g.loc.a]? with
    | none => (m, g.goto .panicked)
    | some v => (m, g.assign (fun l => { l with v := v }) .addCasCell)
  | .addCasCell =>
    match m.vals[g.loc.a]? with
    | none => (m, g.goto .panicked)
    | some cur =>
      if cur = g.loc.v then
        ({ m with vals := m.vals.set g.loc.a (wrap64 (g.loc.v + g.loc.x)) }, g.goto .idle)
      else (m, g.accumulate g.loc.probe false r1)
  | .loopLoadCells =>
    match m.cells with
    | none => (m, g.goto .initBusy)
    | some as =>
      -- `n < 0`: `goto checkCells`, where `_as == nil` fails, and the loop goes on
      if as.len = 0 then (m, g)
      else (m, g.assign (fun l => { l with as := as }) .loopLoadSlot)
  | .loopLoadSlot =>
    match m.loadSlot g.loc.as (g.loc.index &&& (g.loc.as.len - 1)) with
    | none => (m, g.goto .panicked)
    | some none => (m, g.goto .attachBusy1)
    | some (some a) =>
      if g.loc.wasUncontended = false then
        (m, g.assign (fun l => { l with a := a, wasUncontended := true,
                                        index := xorshift l.index }) .loopLoadCells)
      else
        (m, g.assign (fun l => { l with a := a, index := l.index &&& (l.as.len - 1) })
          .cellLoadVal)
  | .attachBusy1 =>
    if m.cellsBusy = 0 then
      ((m.newCell g.loc.x).1, g.assign (fun l => { l with r := (m.newCell g.loc.x).2 })
        .attachBusy2)
    else (m, g.uncollide)
  | .attachBusy2 =>
    if m.cellsBusy = 0 then (m, g.goto .attachLock) else (m, g.uncollide)
  | .attachLock =>
    if m.cellsBusy = 0 then ({ m with cellsBusy := 1 }, g.goto .attachCells)
    else (m, g.uncollide)
  | .attachCells =>
    match m.cells with
    | none => (m, g.goto .panicked)
    | some rs =>
      if 0 < rs.len then
        (m, g.assign (fun l => { l with rs := rs, j := l.index &&& (rs.len - 1) }) .attachSlot)
      else (m, g.assign (fun l => { l with rs := rs }) .attachUnlock)
  | .attachSlot =>
    match m.loadSlot g.loc.rs g.loc.j with
    | none => (m, g.goto .panicked)
    | some none => (m, g.goto .attachStore)
    | some (some _) => (m, g.goto .attachUnlock)
  | .attachStore => (m.storeSlot g.loc.rs g.loc.j g.loc.r, g.goto .attachUnlockBreak)
  | .attachUnlockBreak => ({ m with cellsBusy := 0 }, g.goto .idle)
  | .attachUnlock => ({ m with cellsBusy := 0 }, g.goto .loopLoadCells)
  | .cellLoadVal =>
    match m.vals[g.loc.a]? with
    | none => (m, g.goto .panicked)
    | some v => (m, g.assign (fun l => { l with v := v }) .cellCas)
  | .cellCas =>
    match m.vals[g.loc.a]? with
    | none => (m, g.goto .panicked)
    | some cur =>
      if cur = g.loc.v then
        ({ m with vals := m.vals.set g.loc.a (wrap64 (g.loc.v + g.loc.x)) }, g.goto .idle)
      else if (g.loc.as.len : Int) - 1 ≥ mx then (m, g.uncollide)
      else (m, g.goto .staleCells)
  | .staleCells =>
    match m.cells with
    | none => (m, g.goto .panicked)
    | some cur =>
      if cur.len = 0 then (m, g.goto .panicked)
      else if g.loc.as.arr ≠ cur.arr then (m, g.uncollide)
      else if g.loc.collide = false then
        (m, g.assign (fun l => { l with collide := true, index := xorshift l.index })
          .loopLoadCells)
      else (m, g.goto .growBusy)
  | .growBusy =>
    if m.cellsBusy = 0 then (m, g.goto .growLock) else (m, g.rehash)
  | .growLock =>
    if m.cellsBusy = 0 then ({ m with cellsBusy := 1 }, g.goto .growCells)
    else (m, g.rehash)
  | .growCells =>
    match m.cells with
    | none => (m, g.goto .panicked)
    | some rs =>
      if rs.len = 0 then (m, g.goto .panicked)
      else if g.loc.as.arr = rs.arr then
        -- `n = cap(as)`
        if g.loc.as.len < (m.row g.loc.as.arr).length then
          (m, g.assign (fun l => { l with rs := rs, n := (m.row l.as.arr).length }) .growExtend)
        else
          -- `rs = make(cells, n<<1, n<<2)`, then `copy(rs, as)`
          (m, g.assign (fun l => Locals.startCopy l rs (m.row l.as.arr).length) .growCopy)
      else (m, g.assign (fun l => { l with rs := rs }) .growUnlock)
  | .growExtend =>
    ({ m with cells := some { arr := g.loc.rs.arr, len := g.loc.n } }, g.goto .growUnlock)
  | .growCopy =>
    match m.loadSlot g.loc.as g.loc.i with
    | none => (m, g.goto .panicked)
    | some c =>
      (m, g.assign (fun l => { l with fresh := l.fresh.set l.i c, i := l.i + 1 })
        (if g.loc.i + 1 < g.loc.as.len then .growCopy else .growStore))
  | .growStore =>
    ({ (m.newArray g.loc.fresh).1 with
        cells := some { arr := (m.newArray g.loc.fresh).2, len := g.loc.n * 2 } },
      g.goto .growUnlock)
  | .growUnlock =>
    ({ m with cellsBusy := 0 }, g.assign (fun l => { l with collide := false }) .loopLoadCells)
  | .initBusy =>
    if m.cellsBusy = 0 then (m, g.goto .initCells) else (m, g.goto .baseLoad)
  | .initCells =>
    if m.cells = none then (m, g.goto .initLock) else (m, g.goto .baseLoad)
  | .initLock =>
    if m.cellsBusy = 0 then ({ m with cellsBusy := 1 }, g.goto .initRecheck)
    else (m, g.goto .baseLoad)
  | .initRecheck =>
    if m.cells = none then (m, g.goto .initStore) else (m, g.goto .initUnlock)
  | .initStore =>
    -- `rs = make(cells, 2, 4); rs[index&1].Store(&cell\x7bval: x\x7d); s.cells.Store(rs)`
    ({ ((m.newCell g.loc.x).1.newArray
          ((List.replicate 4 none).set (g.loc.index &&& 1) (some (m.newCell g.loc.x).2))).1 with
        cells := some { arr := m.arrays.length, len := 2 } },
      g.goto .initUnlockBreak)
  | .initUnlockBreak => ({ m with cellsBusy := 0 }, g.goto .idle)
  | .initUnlock => ({ m with cellsBusy := 0 }, g.goto .loopLoadCells)
  | .baseLoad => (m, g.assign (fun l => { l with v := m.base }) .baseCas)
  | .baseCas =>
    if m.base = g.loc.v then ({ m with base := wrap64 (g.loc.v + g.loc.x) }, g.goto .idle)
    else (m, g.goto .loopLoadCells)
  | .panicked => (m, g)

/-- One `JDKAdder` and the goroutines that use it. -/
structure World where
  mem : Mem
  gs : List Goroutine
deriving DecidableEq, Repr

/-- A new `JDKAdder` and one goroutine for each element of `counts`, about to call `Inc`
that many times. -/
def World.init (counts : List Nat) : World :=
  { mem := Mem.new, gs := counts.map (Goroutine.new 1) }

/-- One step of the goroutine `t`; no step when there is no such goroutine. -/
def World.step (mx : Int) (w : World) (t r1 r2 : Nat) : World :=
  match w.gs[t]? with
  | none => w
  | some g => { mem := (g.step mx w.mem r1 r2).1, gs := w.gs.set t (g.step mx w.mem r1 r2).2 }

/-- A run: the scheduler's choices `(t, r1, r2)`, one for each step. -/
def World.run (mx : Int) (w : World) (sched : List (Nat × Nat × Nat)) : World :=
  sched.foldl (fun w c => w.step mx c.1 c.2.1 c.2.2) w

/-- Every goroutine has returned from its last call. -/
def World.finished (w : World) : Bool :=
  w.gs.all fun g => decide (g.pc = .idle) && decide (g.calls = 0)

/-- The method `JDKAdder.Sum`, called when no goroutine is inside `Add`. A cell that
is not in memory counts 0. -/
def Mem.Sum (m : Mem) : Int :=
  match m.cells with
  | none => m.base
  | some as =>
    sumWrap m.base ((((m.row as.arr).take as.len).reduceOption).map fun c => m.vals.getD c 0)

/-- The schedule that lets one goroutine after the other make all its calls alone: three
steps for each call. -/
def soloSchedule (counts : List Nat) : List (Nat × Nat × Nat) :=
  (counts.enum.map fun p => List.replicate (3 * p.2) (p.1, 0, 0)).flatten

/-! ### Invariant of the runs -/

/-- The slot `j` of the backing array `A`; nil when there is no such slot. -/
def Mem.slotAt (m : Mem) (A j : Nat) : Option Nat := (m.row A).getD j none

/-- The cell is held by a slot of a backing array. -/
def Mem.installed (m : Mem) (c : Nat) : Prop := ∃ A j, m.slotAt A j = some c

/-- The cells of the current table's backing array. -/
def Mem.table (m : Mem) : List Nat :=
  match m.cells with
  | none => []
  | some as => (m.row as.arr).reduceOption

/-- The exact sum of `base` and of the cells of the table. -/
def Mem.total (m : Mem) : Int := m.base + (m.table.map fun c => m.vals.getD c 0).sum

/-- Consistency of the shared memory: `base` is an `int64`; the slots hold cells that
exist; without a table there is no backing array; the table has at least two slots, its
cells are distinct, and every cell held by any backing array is held by the table at the
same position. -/
structure Mem.OK (m : Mem) : Prop where
  base : IsInt64 m.base
  valid : ∀ A j c, m.slotAt A j = some c → c < m.vals.length
  empty : m.cells = none → m.arrays = []
  arr : ∀ as, m.cells = some as → as.arr < m.arrays.length
  len : ∀ as, m.cells = some as → 2 ≤ as.len ∧ as.len ≤ (m.row as.arr).length
  nodup : m.table.Nodup
  kept : ∀ as, m.cells = some as → ∀ A j c, m.slotAt A j = some c →
    m.slotAt as.arr j = some c ∧ j < as.len

/-- The goroutine holds the lock `cellsBusy`. -/
def Pc.locked : Pc → Bool
  | .attachCells | .attachSlot | .attachStore | .attachUnlockBreak | .attachUnlock
  | .growCells | .growExtend | .growCopy | .growStore | .growUnlock
  | .initRecheck | .initStore | .initUnlockBreak | .initUnlock => true
  | _ => false

/-- The goroutine owns a cell `r` that it has created and not yet stored. -/
def Pc.hasR : Pc → Bool
  | .attachBusy2 | .attachLock | .attachCells | .attachSlot | .attachStore => true
  | _ => false

/-- The goroutine is inside a call of `Add` whose argument is not yet added. -/
def Pc.pending : Pc → Bool
  | .idle | .attachUnlockBreak | .initUnlockBreak | .panicked => false
  | _ => true

/-- The lock held by the goroutine, as a number. -/
def Goroutine.holds (g : Goroutine) : Int := if g.pc.locked then 1 else 0

/-- What the goroutine has still to add: the calls not started, and the call under way. -/
def Goroutine.owes (g : Goroutine) : Int :=
  g.arg * g.calls + if g.pc.pending then g.loc.x else 0

/-- The variable `as` is a slice of a backing array in memory, not empty. -/
def Goroutine.asOK (m : Mem) (g : Goroutine) : Prop :=
  g.loc.as.arr < m.arrays.length ∧ 0 < g.loc.as.len ∧ g.loc.as.len ≤ (m.row g.loc.as.arr).length

/-- The cell `r` exists, holds `x` and is in no slot. -/
def Goroutine.rOK (m : Mem) (g : Goroutine) : Prop :=
  g.loc.r < m.vals.length ∧ m.vals[g.loc.r]? = some g.loc.x ∧ ¬ m.installed g.loc.r

/-- The variables of the growth: `rs` is the table, on the array of `as`, and `n` the
capacity. -/
def Goroutine.growOK (m : Mem) (g : Goroutine) : Prop :=
  m.cells = some g.loc.rs ∧ g.loc.as.arr = g.loc.rs.arr ∧ g.loc.n = (m.row g.loc.as.arr).length

/-- The copy under way: `as` is the whole array, and `fresh` holds its first `i`
slots. -/
def Goroutine.copyOK (m : Mem) (g : Goroutine) : Prop :=
  g.loc.as.len = g.loc.n ∧
    g.loc.fresh = (m.row g.loc.as.arr).take g.loc.i ++ List.replicate (g.loc.n * 4 - g.loc.i) none

/-- What the local variables of a goroutine satisfy at each point of the code. No
goroutine is ever at the point `panicked`. -/
def Goroutine.OK (m : Mem) (g : Goroutine) : Prop :=
  match g.pc with
  | .addLoadSlot => g.asOK m ∧ g.loc.probe < g.loc.as.len
  | .addLoadVal | .addCasCell => m.installed g.loc.a
  | .loopLoadSlot | .attachBusy1 | .staleCells | .growBusy | .growLock | .growCells => g.asOK m
  | .attachBusy2 | .attachLock | .attachCells => g.asOK m ∧ g.rOK m
  | .attachSlot => g.rOK m ∧ m.cells = some g.loc.rs ∧ g.loc.j < g.loc.rs.len
  | .attachStore =>
    g.rOK m ∧ m.cells = some g.loc.rs ∧ g.loc.j < g.loc.rs.len ∧
      m.slotAt g.loc.rs.arr g.loc.j = none
  | .cellLoadVal | .cellCas => g.asOK m ∧ m.installed g.loc.a
  | .growExtend => g.asOK m ∧ g.growOK m
  | .growCopy => g.asOK m ∧ g.growOK m ∧ g.copyOK m ∧ g.loc.i < g.loc.as.len
  | .growStore => g.asOK m ∧ g.growOK m ∧ g.copyOK m ∧ g.loc.i = g.loc.as.len
  | .initStore => m.cells = none
  | .panicked => False
  | _ => True

/-- The invariant of the runs whose calls add up to `total`: the memory is consistent,
every goroutine is, `cellsBusy` counts the goroutines that hold the lock and is at most
1, the cells owned by two goroutines differ, and the sum of `base`, of the cells of the
table and of what the goroutines have still to add is `total` modulo `2^64`. -/
structure World.Inv (total : Int) (w : World) : Prop where
  mem : w.mem.OK
  gs : ∀ (t : Nat) (g : Goroutine), w.gs[t]? = some g → g.OK w.mem
  lock : w.mem.cellsBusy = (w.gs.map Goroutine.holds).sum
  busy : w.mem.cellsBusy ≤ 1
  owned : ∀ (t u : Nat) (g h : Goroutine), w.gs[t]? = some g → w.gs[u]? = some h → t ≠ u → g.pc.hasR = true →
    h.pc.hasR = true → g.loc.r ≠ h.loc.r
  sum : w.mem.total + (w.gs.map Goroutine.owes).sum ≡ total [ZMOD 2 ^ 64]

/-- The memory `m'` comes after `m`: a slot that holds a cell keeps it, the backing
arrays stay in place with their capacity, the cells stay in place, and a cell that is in
no slot keeps its value. -/
structure Mem.Grows (m m' : Mem) : Prop where
  slots : ∀ A j c, m.slotAt A j = some c → m'.slotAt A j = some c
  arrays : m.arrays.length ≤ m'.arrays.length
  rows : ∀ A, A < m.arrays.length → (m'.row A).length = (m.row A).length
  vals : m.vals.length ≤ m'.vals.length
  free : ∀ c, c < m.vals.length → ¬ m.installed c → m'.vals[c]? = m.vals[c]?

/-- What one step of a goroutine `g` from the memory `m` to `g'` and `m'` keeps: the
consistency of the memory and of the goroutine, the balance of the lock and of the sum;
a goroutine without the lock leaves the table and the backing arrays alone; a cell that
enters a slot is a new one or the cell `r` of the goroutine. -/
structure Goroutine.StepOK (m : Mem) (g : Goroutine) (m' : Mem) (g' : Goroutine) : Prop where
  mem : m'.OK
  ok : g'.OK m'
  lock : m'.cellsBusy - g'.holds = m.cellsBusy - g.holds
  sum : m'.total + g'.owes ≡ m.total + g.owes [ZMOD 2 ^ 64]
  grows : m.Grows m'
  same : g.pc.locked = false → m'.arrays = m.arrays ∧ m'.cells = m.cells
  inst : ∀ c, m'.installed c →
    m.installed c ∨ c = m.vals.length ∨ (g.pc.hasR = true ∧ c = g.loc.r)
  owned : g'.pc.hasR = true →
    g'.loc.r = m.vals.length ∨ (g.pc.hasR = true ∧ g'.loc.r = g.loc.r)

/-- A run of three goroutines that call `Inc` twice each and contend: a `casBase` fails,
the table is made, a second cell is attached and a cell is updated by `cas`. At the end
`base` is 3 and the two cells hold 1 and 2. -/
def contendedSchedule : List (Nat × Nat × Nat) :=
  [(2, 3, 4), (1, 5, 1), (0, 3, 0), (1, 5, 7), (2, 2, 2), (1, 4, 2), (2, 5, 4), (2, 1, 5),
   (0, 0, 2), (2, 4, 7), (0, 7, 4), (2, 7, 7), (2, 4, 4), (1, 2, 7), (2, 6, 7), (0, 5, 0),
   (2, 6, 3), (1, 3, 2), (0, 1, 4), (0, 0, 2), (1, 6, 4), (2, 4, 7), (1, 2, 2), (2, 5, 3),
   (1, 2, 5), (0, 0, 2), (1, 5, 0), (0, 1, 2), (2, 2, 5), (1, 1, 6), (1, 5, 6), (1, 5, 4),
   (0, 2, 3), (2, 3, 4), (0, 3, 4), (2, 3, 5), (1, 1, 5), (2, 6, 1), (1, 5, 3), (1, 3, 0)]

end Garr

namespace Garr

/-! ## striped64 under an adversarial oracle

One goroutine runs `JDKAdder.Add` while every outcome of a compare-and-swap and every
value observed in `cellsBusy` is chosen from outside: the oracle answers `true` when the
compare-and-swap succeeds (it then writes the new value) and when `cellsBusy` is observed
to be 0. -/

/-- The oracle: its successive answers and the number of answers given so far. -/
structure Oracle where
  answers : Nat → Bool
  pos : Nat

/-- The next answer of the oracle. -/
def Oracle.next (o : Oracle) : Bool × Oracle := (o.answers o.pos, { o with pos := o.pos + 1 })

/-- The oracle that gives the answers of `l`, then `true`. -/
def oracleOf (l : List Bool) : Oracle := { answers := fun n => l.getD n true, pos := 0 }

/-- The loop of `striped64.accumulate` with `fn == nil`, where the oracle chooses the
outcome of every `cas`, `casBase` and `casCellsBusy` and the value observed by every
`atomic.LoadInt32(&s.cellsBusy)`. Each clause is one iteration. -/
def accumulateOracle (mx : Int) (x : Int) :
    Nat → Striped64 → Oracle → Nat → Bool → Bool → Option (Striped64 × Oracle)
  | 0, _, _, _, _, _ => none
  | fuel + 1, s, o, index, wasUncontended, collide =>
    match s.cells with
    | some as =>
      if as.len = 0 then
        -- n < 0: goto checkCells, where `_as == nil` fails; next iteration
        accumulateOracle mx x fuel s o index wasUncontended collide
      else
        let n := as.len - 1
        match as.slots[index &&& n]? with
        | none => none
        | some none =>
          -- a == nil: `atomic.LoadInt32(&s.cellsBusy) == 0`
          if o.next.1 = true then
            -- the second load of `cellsBusy`
            if o.next.2.next.1 = true then
              -- `s.casCellsBusy()`
              if o.next.2.next.2.next.1 = true then
                let o3 := o.next.2.next.2.next.2
                if 0 < as.len then
                  let j := index &&& (as.len - 1)
                  match as.slots[j]? with
                  | none => none
                  | some none => some ({ s with cells := some (as.setSlot j x), cellsBusy := 0 }, o3)
                  | some (some _) =>
                    accumulateOracle mx x fuel { s with cellsBusy := 0 } o3 index wasUncontended
                      collide
                else
                  accumulateOracle mx x fuel { s with cellsBusy := 0 } o3 index wasUncontended
                    collide
              else
                accumulateOracle mx x fuel s o.next.2.next.2.next.2 (xorshift index)
                  wasUncontended false
            else
              accumulateOracle mx x fuel s o.next.2.next.2 (xorshift index) wasUncontended false
          else
            accumulateOracle mx x fuel s o.next.2 (xorshift index) wasUncontended false
        | some (some v) =>
          if wasUncontended = false then
            accumulateOracle mx x fuel s o (xorshift index) true collide
          else
            let index := index &&& n
            -- `a.cas(v, newV)`
            if o.next.1 = true then
              some ({ s with cells := some (as.setSlot index (wrap64 (v + x))) }, o.next.2)
            else if (n : Int) ≥ mx then
              accumulateOracle mx x fuel s o.next.2 (xorshift index) wasUncontended false
            else if collide = false then
              accumulateOracle mx x fuel s o.next.2 (xorshift index) wasUncontended true
            else if o.next.2.next.1 = true then
              -- `cellsBusy` observed to be 0; `s.casCellsBusy()`
              if o.next.2.next.2.next.1 = true then
                let o3 := o.next.2.next.2.next.2
                let cap := as.slots.length
                if as.len < cap then
                  accumulateOracle mx x fuel
                    { s with cells := some { as with len := cap }, cellsBusy := 0 } o3 index
                    wasUncontended false
                else
                  let grown : Cells :=
                    { arr := s.nextArr, len := cap * 2,
                      slots := as.slots.take as.len ++ List.replicate (cap * 4 - as.len) none }
                  accumulateOracle mx x fuel
                    { s with cells := some grown, cellsBusy := 0, nextArr := s.nextArr + 1 } o3
                    index wasUncontended false
              else
                accumulateOracle mx x fuel s o.next.2.next.2.next.2 (xorshift index)
                  wasUncontended collide
            else
              accumulateOracle mx x fuel s o.next.2.next.2 (xorshift index) wasUncontended
                collide
    | none =>
      -- checkCells with `_as == nil`: the load of `cellsBusy`, then `s.casCellsBusy()`
      if o.next.1 = true ∧ o.next.2.next.1 = true then
        let rs : Cells :=
          { arr := s.nextArr, len := 2,
            slots := (List.replicate 4 (none : Option Int)).set (index &&& 1) (some x) }
        some ({ s with cells := some rs, cellsBusy := 0, nextArr := s.nextArr + 1 },
          o.next.2.next.2)
      else
        -- fall back on using base: `s.casBase(v, newV)`
        let o1 := if o.next.1 = true then o.next.2.next.2 else o.next.2
        if o1.next.1 = true then some ({ s with base := wrap64 (s.base + x) }, o1.next.2)
        else accumulateOracle mx x fuel s o1.next.2 index wasUncontended collide

/-- The method `striped64.accumulate` with `fn == nil` under the oracle. -/
def Striped64.accumulateOracle (fuel : Nat) (s : Striped64) (rt : Runtime) (o : Oracle)
    (index : Nat) (x : Int) (wasUncontended : Bool) : Option (Striped64 × Runtime × Oracle) :=
  let p : (Nat × Bool) × Runtime :=
    if index = 0 then (((getRandomInt rt).1, true), (getRandomInt rt).2)
    else ((index, wasUncontended), rt)
  (Garr.accumulateOracle (maxCells rt) x fuel s o p.1.1 p.1.2 false).map fun r =>
    (r.1, p.2, r.2)

/-- The method `JDKAdder.Add` under the oracle. -/
def JDKAdder.AddOracle (fuel : Nat) (u : JDKAdder) (rt : Runtime) (o : Oracle) (x : Int) :
    Option (JDKAdder × Runtime × Oracle) :=
  match u.cells with
  | some as =>
    if as.len = 0 then
      Striped64.accumulateOracle fuel u (getRandomInt rt).2 o (getRandomInt rt).1 x true
    else
      let probe := (getRandomInt rt).1 &&& (as.len - 1)
      let rt1 := (getRandomInt rt).2
      match as.slots[probe]? with
      | none => none
      | some none => Striped64.accumulateOracle fuel u rt1 o probe x true
      | some (some v) =>
        -- `a.cas(v, v+x)`
        if o.next.1 = true then
          some ({ u with cells := some (as.setSlot probe (wrap64 (v + x))) }, rt1, o.next.2)
        else Striped64.accumulateOracle fuel u rt1 o.next.2 probe x false
  | none =>
    -- `u.casBase(b, b+x)`
    if o.next.1 = true then some ({ u with base := wrap64 (u.base + x) }, rt, o.next.2)
    else Striped64.accumulateOracle fuel u (getRandomInt rt).2 o.next.2 (getRandomInt rt).1 x true

/-- Consistency of a `striped64` between two updates: `base` and the cells are `int64`,
the table, when there is one, is not empty, lies within its backing array, and the slots
of the backing array beyond the table are nil. -/
def Striped64.OK (s : Striped64) : Prop :=
  IsInt64 s.base ∧
    ∀ as, s.cells = some as → 0 < as.len ∧ as.len ≤ as.slots.length ∧
      (∀ j, as.len ≤ j → as.slots.getD j none = none) ∧
      ∀ j v, as.slots.getD j none = some v → IsInt64 v

/-- The state `s1` is the state `s` after the table has been made longer any number of
times: `base` and `cellsBusy` are the same, no table appears, and every slot holds what
it held (a slot beyond the backing array counts as nil). -/
def Striped64.Grown (s s1 : Striped64) : Prop :=
  s1.base = s.base ∧ s1.cellsBusy = s.cellsBusy ∧ (s.cells = none → s1.cells = none) ∧
    ∀ as, s.cells = some as → ∃ as1, s1.cells = some as1 ∧ as.len ≤ as1.len ∧
      ∀ j, as1.slots.getD j none = as.slots.getD j none

/-- The state `s1` is the state `s` after `x` has been added once: to `base`; or as the
cell of a new table of length 2; or to the table, of which one slot within the table is
changed, from nil to a cell that holds `x` or from a cell that holds `v` to one that holds
`v + x`, and no other slot. -/
def Striped64.Acted (x : Int) (s s1 : Striped64) : Prop :=
  (s1.base = wrap64 (s.base + x) ∧ s1.cells = s.cells) ∨
    (s1.base = s.base ∧ s.cells = none ∧ ∃ as1 j, s1.cells = some as1 ∧ as1.len = 2 ∧ j < 2 ∧
      as1.slots = (List.replicate 4 none).set j (some x)) ∨
    (s1.base = s.base ∧ ∃ as as1 j, s.cells = some as ∧ s1.cells = some as1 ∧
      as1.len = as.len ∧ j < as.len ∧
      (∀ i, i ≠ j → as1.slots.getD i none = as.slots.getD i none) ∧
      ((as.slots.getD j none = none ∧ as1.slots.getD j none = some x) ∨
        ∃ v, as.slots.getD j none = some v ∧ as1.slots.getD j none = some (wrap64 (v + x))))

/-- The exact sum of `base` and of the cells of the table. -/
def Striped64.total (s : Striped64) : Int := s.base + (s.cells.map fun as => as.vals.sum).getD 0

/-- A `JDKAdder` whose table of length 2, in a backing array of 4, holds two cells. -/
def contendedAdder : JDKAdder :=
  { cells := some { arr := 0, len := 2, slots := [some 5, some 3, none, none] }, cellsBusy := 0,
    base := 1, nextArr := 1 }

/-- A machine with 4 CPUs whose random source gives 1, 2, 3, ... -/
def countingRuntime : Runtime := { numCPU := 4, rand := fun n => n + 1, randPos := 0 }

/-! ## A run of two goroutines in which the table grows

The goroutine 0 calls `Inc` twice and the goroutine 1 calls `Inc` 15 times; the
goroutine 0 has one more call to make afterwards. Whenever the
goroutine 0 has loaded the value of a cell, the goroutine 1 increments the same cell
before the goroutine 0 executes its compare-and-swap, which therefore fails; whenever the
goroutine 0 is about to read a slot that is nil, the goroutine 1 installs a cell there
first. -/

/-- The start of the run: 80 steps, after which the table has length 8 in a backing
array of capacity 16. -/
def growthTo8 : List (Nat × Nat × Nat) :=
  List.replicate 2 (0, 2, 2) ++ List.replicate 3 (1, 0, 0) ++ List.replicate 11 (0, 7, 7) ++
  List.replicate 4 (1, 1, 1) ++ List.replicate 6 (0, 7, 7) ++ List.replicate 4 (1, 1, 1) ++
  List.replicate 5 (0, 7, 7) ++ List.replicate 4 (1, 1, 1) ++ List.replicate 10 (0, 7, 7) ++
  List.replicate 4 (1, 1, 1) ++ List.replicate 5 (0, 7, 7) ++ List.replicate 4 (1, 1, 1) ++
  List.replicate 14 (0, 7, 7) ++ List.replicate 4 (1, 1, 1)

/-- The next 77 steps, after which the table has length 64 in a backing array of
capacity 64. -/
def growthFrom8 : List (Nat × Nat × Nat) :=
  List.replicate 5 (0, 7, 7) ++
  List.replicate 4 (1, 1, 1) ++ List.replicate 10 (0, 7, 7) ++ List.replicate 4 (1, 1, 1) ++
  List.replicate 5 (0, 7, 7) ++ List.replicate 4 (1, 1, 1) ++ List.replicate 26 (0, 7, 7) ++
  List.replicate 4 (1, 1, 1) ++ List.replicate 5 (0, 7, 7) ++ List.replicate 4 (1, 1, 1) ++
  List.replicate 6 (0, 7, 7)

/-- The first part of the run: 157 steps, after which the table has length 64 in a
backing array of capacity 64. -/
def growthTo64 : List (Nat × Nat × Nat) := growthTo8 ++ growthFrom8

/-- The second part of the run: 103 steps, in which two more compare-and-swaps of the
goroutine 0 fail, on the cells of the slots 1 and 33. -/
def growthTo128 : List (Nat × Nat × Nat) :=
  List.replicate 4 (0, 7, 7) ++ List.replicate 4 (1, 1, 1) ++ List.replicate 3 (0, 7, 7) ++
  List.replicate 11 (1, 33, 33) ++ List.replicate 2 (0, 7, 7) ++ List.replicate 4 (1, 33, 33) ++
  List.replicate 75 (0, 7, 7)

/-- The world after `growthTo8`: the goroutine 0 is about to execute a compare-and-swap
on the cell of the slot 1, which the goroutine 1 has just incremented. -/
def worldAt8 : World :=
  ⟨⟨1, 0, some ⟨1, 8⟩,
    [[none, some 0, none, none],
     [none, some 0] ++ List.replicate 14 none],
    [7]⟩,
   [⟨1, 1, .cellCas,
      ⟨1, 0, 1, 1, true, false, 6, ⟨1, 8⟩, 0, 0, ⟨0, 4⟩, 0, 4, 4,
        [none, some 0] ++ List.replicate 14 none⟩⟩,
    ⟨1, 8, .idle,
      ⟨1, 0, 1, 0, false, false, 6, ⟨1, 8⟩, 0, 0, ⟨0, 0⟩, 0, 0, 0, []⟩⟩]⟩

/-- The world after `growthTo64`: the goroutine 0 has just stored the table of length 64
and still holds the lock. -/
def worldAt64 : World :=
  ⟨⟨1, 1, some ⟨2, 64⟩,
    [[none, some 0, none, none],
     [none, some 0] ++ List.replicate 14 none,
     [none, some 0] ++ List.replicate 62 none],
    [12]⟩,
   [⟨1, 1, .growUnlock,
      ⟨1, 0, 1, 1, true, true, 11, ⟨2, 32⟩, 0, 0, ⟨2, 32⟩, 0, 64, 16,
        [none, some 0] ++ List.replicate 62 none⟩⟩,
    ⟨1, 3, .idle,
      ⟨1, 0, 1, 0, false, false, 11, ⟨2, 32⟩, 0, 0, ⟨0, 0⟩, 0, 0, 0, []⟩⟩]⟩

/-- The world after `growthTo64 ++ growthTo128`: no goroutine is inside `Add`, and the
table has length 128 in a backing array of capacity 256. -/
def worldAt128 : World :=
  ⟨⟨1, 0, some ⟨3, 128⟩,
    [[none, some 0, none, none],
     [none, some 0] ++ List.replicate 14 none,
     [none, some 0] ++ List.replicate 31 none ++ [some 1] ++ List.replicate 30 none,
     [none, some 0] ++ List.replicate 31 none ++ [some 1] ++ List.replicate 222 none],
    [13, 3]⟩,
   [⟨1, 1, .idle,
      ⟨1, 0, 1, 33, true, false, 2, ⟨3, 128⟩, 1, 0, ⟨2, 64⟩, 0, 64, 64,
        [none, some 0] ++ List.replicate 31 none ++ [some 1] ++ List.replicate 222 none⟩⟩,
    ⟨1, 0, .idle,
      ⟨1, 0, 33, 33, true, false, 1, ⟨2, 64⟩, 1, 1, ⟨2, 64⟩, 33, 0, 0, []⟩⟩]⟩

/-! ## Add, Store and Reset on a shared JDKAdder

A call of `JDKAdder.Store` is cut at its accesses to the shared memory like a call of
`Add`: `atomic.StoreInt64(&u.base, v)`, `u.cells.Load()` and `u.cells.Store(cls)` are three
steps, and steps of goroutines inside `Add` can come between them. The slice `cls` made by
`make(cells, len(_as.(cells)))` and the cells stored in its slots are local until the
slice is published. -/

/-- The length of the table; 0 when there is none. -/
def Mem.tableLen (m : Mem) : Nat := (m.cells.map Slice.len).getD 0

/-- No goroutine is inside a call of `Add`. -/
def World.quiet (w : World) : Bool := w.gs.all fun g => decide (g.pc = .idle)

/-- A new `JDKAdder` and one goroutine for each element `(x, k)` of `calls`, about to call
`Add(x)` `k` times. -/
def World.start (calls : List (Int × Nat)) : World :=
  { mem := Mem.new, gs := calls.map fun p => Goroutine.new p.1 p.2 }

/-- The point of the code at which a goroutine that calls `Store` and `Reset` stands. -/
inductive StorePc
  /-- Between two calls; the next step calls `Store(v)` and executes
  `atomic.StoreInt64(&u.base, v)`. -/
  | idle
  /-- The expression `u.cells.Load()` of `Store`. -/
  | load
  /-- The statement `u.cells.Store(cls)` of `Store`. -/
  | publish
deriving DecidableEq, Repr

/-- A goroutine that calls `Store` and `Reset`: the point of the code at which it stands and
the value of `len(_as.(cells))`, the length of the slice `cls`. -/
structure Storer where
  pc : StorePc
  len : Nat
deriving DecidableEq, Repr

/-- A goroutine about to call `Store` or `Reset`. -/
def Storer.new : Storer := { pc := .idle, len := 0 }

/-- The statement `u.cells.Store(cls)` of `Store`, where `cls` is a slice of length and
capacity `L` with a new cell that holds 0 in every slot: the backing array and the cells
enter the memory. -/
def Mem.publish (m : Mem) (L : Nat) : Mem :=
  { m with cells := some { arr := m.arrays.length, len := L },
           arrays := m.arrays ++ [(List.range L).map fun i => some (m.vals.length + i)],
           vals := m.vals ++ List.replicate L 0 }

/-- One step of a goroutine into or inside `Store(v)`: the atomic operation at its point of
the code and the local computation that follows. The argument `v` is read by the step that
calls `Store`. -/
def Storer.step (m : Mem) (s : Storer) (v : Int) : Mem × Storer :=
  match s.pc with
  | .idle => ({ m with base := v }, { s with pc := .load })
  | .load =>
    match m.cells with
    | none => (m, { s with pc := .idle })
    | some as =>
      -- `cls := make(cells, len(_as.(cells)))`, then `cls[i].Store(&cell\x7b\x7d)` for each `i`
      (m, { pc := .publish, len := as.len })
  | .publish => (m.publish s.len, { s with pc := .idle })

/-- One `JDKAdder` with the goroutines that call `Add` and the goroutines that call `Store`
and `Reset`. -/
structure Scene where
  world : World
  storers : List Storer
deriving DecidableEq, Repr

/-- A new `JDKAdder`, one goroutine for each element `(x, k)` of `calls`, about to call
`Add(x)` `k` times, and `n` goroutines about to call `Store` and `Reset`. -/
def Scene.start (calls : List (Int × Nat)) (n : Nat) : Scene :=
  { world := World.start calls, storers := List.replicate n Storer.new }

/-- One operation of a run on a shared `JDKAdder`: a step of the goroutine `t` into or
inside a call of `Add`; a step of the goroutine `s` into or inside a call of `Store`, which
it calls as `Store(v)` when it stands between two calls; or the same for `Reset()`, which
is `Store(0)`. -/
inductive Op
  | add (t r1 r2 : Nat)
  | store (s : Nat) (v : Int)
  | reset (s : Nat)
deriving DecidableEq, Repr

/-- One step of the goroutine `s` into or inside `Store(v)`; no step when there is no such
goroutine. -/
def Scene.storeStep (sc : Scene) (s : Nat) (v : Int) : Scene :=
  match sc.storers[s]? with
  | none => sc
  | some st =>
    { world := { sc.world with mem := (st.step sc.world.mem v).1 },
      storers := sc.storers.set s (st.step sc.world.mem v).2 }

/-- One operation on the shared `JDKAdder`. -/
def Scene.apply (mx : Int) (sc : Scene) : Op → Scene
  | .add t r1 r2 => { sc with world := sc.world.step mx t r1 r2 }
  | .store s v => sc.storeStep s v
  | .reset s => sc.storeStep s 0

/-- A run of operations, in any interleaving. -/
def Scene.runOps (mx : Int) (sc : Scene) (ops : List Op) : Scene := ops.foldl (Scene.apply mx) sc

/-- No goroutine is inside a call of `Store` or `Reset`. -/
def Scene.storeFree (sc : Scene) : Bool := sc.storers.all fun s => decide (s.pc = .idle)

/-- The operation keeps `Store` and `Reset` apart from the updates, as their documentation
asks ("only effective if there are no concurrent updates"): a step of `Add` is taken
while no goroutine is inside `Store` or `Reset`, and a step of `Store` or `Reset` while no
goroutine is inside `Add`. -/
def Scene.calm (sc : Scene) : Op → Bool
  | .add _ _ _ => sc.storeFree
  | _ => sc.world.quiet

/-- Every operation of the run keeps `Store` and `Reset` apart from the updates: no call of
`Store` or `Reset` overlaps a call of `Add`. -/
def Scene.calmRun (mx : Int) : Scene → List Op → Bool
  | _, [] => true
  | sc, op :: ops => sc.calm op && Scene.calmRun mx (sc.apply mx op) ops

/-- The shape of the memory: the capacity of every backing array is a power of two and at
least 2; the table lies within its backing array, and its length is a power of two and
at least 2. -/
def Mem.Shape (m : Mem) : Prop :=
  (∀ A, A < m.arrays.length → ∃ k, 1 ≤ k ∧ (m.row A).length = 2 ^ k) ∧
    ∀ as, m.cells = some as → as.arr < m.arrays.length ∧ as.len ≤ (m.row as.arr).length ∧
      ∃ k, 1 ≤ k ∧ as.len = 2 ^ k

/-- The memory `m1` has the backing arrays of `m`, with their capacities, and possibly
more. -/
def Mem.RowsKept (m m1 : Mem) : Prop :=
  m.arrays.length ≤ m1.arrays.length ∧
    ∀ A, A < m.arrays.length → (m1.row A).length = (m.row A).length

/-- What the local variables of a growth under way satisfy in every run: `n` is the
capacity of a backing array in memory, and the array made by `make(cells, n<<1, n<<2)` has
the length `4 * n`. -/
def Goroutine.Sized (m : Mem) (g : Goroutine) : Prop :=
  match g.pc with
  | .growExtend => g.loc.rs.arr < m.arrays.length ∧ g.loc.n = (m.row g.loc.rs.arr).length
  | .growCopy | .growStore =>
    g.loc.as.arr < m.arrays.length ∧ g.loc.n = (m.row g.loc.as.arr).length ∧
      g.loc.fresh.length = g.loc.n * 4
  | _ => True

/-- The length that a goroutine inside `Store` is about to publish is a power of two and
at least 2. -/
def Storer.Sized (s : Storer) : Prop := s.pc = .publish → ∃ k, 1 ≤ k ∧ s.len = 2 ^ k

/-- The invariant of all runs, with `Store` and `Reset` at any moment. -/
structure Scene.Sized (sc : Scene) : Prop where
  mem : sc.world.mem.Shape
  gs : ∀ (t : Nat) (g : Goroutine), sc.world.gs[t]? = some g → g.Sized sc.world.mem
  storers : ∀ (s : Nat) (st : Storer), sc.storers[s]? = some st → st.Sized

/-- What the local variables of a goroutine that holds the lock satisfy while no call of
`Store` overlaps: `rs` is the table and `n` the capacity of its backing array; before the
first table is made there is no table. -/
def Goroutine.Held (m : Mem) (g : Goroutine) : Prop :=
  match g.pc with
  | .growExtend | .growCopy | .growStore =>
    m.cells = some g.loc.rs ∧ g.loc.n = (m.row g.loc.rs.arr).length
  | .initStore => m.cells = none
  | _ => True

/-- The invariant of the runs in which no call of `Store` or `Reset` overlaps a call of
`Add`: at most one goroutine holds the lock, and then `cellsBusy` is 1; the goroutine that
holds the lock knows the table; while a goroutine is inside `Store` no goroutine is inside
`Add`, and the length it is about to publish is the length of the table. -/
structure Scene.Calm (sc : Scene) : Prop where
  lock : (sc.world.gs.map Goroutine.holds).sum ≤ sc.world.mem.cellsBusy
  busy : sc.world.mem.cellsBusy ≤ 1
  gs : ∀ (t : Nat) (g : Goroutine), sc.world.gs[t]? = some g → g.Held sc.world.mem
  quiet : ∀ (s : Nat) (st : Storer), sc.storers[s]? = some st → st.pc ≠ .idle →
    sc.world.quiet = true
  len : ∀ (s : Nat) (st : Storer), sc.storers[s]? = some st → st.pc = .publish →
    ∃ as, sc.world.mem.cells = some as ∧ as.len = st.len

/-- A run in which a call of `Store(5)` overlaps a growth: after the first 44 steps of
`growthTo8` the table has length 2 and the goroutine 0 holds the lock, about to make the
table longer; the goroutine that calls `Store(5)` stores `base` and loads the table; the
goroutine 0 stores the table of length 4; `Store` publishes its table of length 2. -/
def shrinkRun : List Op :=
  (growthTo8.take 44).map (fun c => Op.add c.1 c.2.1 c.2.2) ++
    [Op.store 0 5, Op.store 0 5, Op.add 0 7 7, Op.store 0 5]

/-- The run `growthTo64 ++ growthTo128`, followed by a call of `Store(5)`, a call of `Inc`
by the goroutine 0 and a call of `Reset`, none of which overlaps another call. -/
def storeRun : List Op :=
  (growthTo64 ++ growthTo128).map (fun c => Op.add c.1 c.2.1 c.2.2) ++
    [Op.store 0 5, Op.store 0 5, Op.store 0 5, Op.add 0 3 3, Op.add 0 3 3, Op.add 0 3 3,
      Op.add 0 3 3, Op.reset 0, Op.reset 0, Op.reset 0]

/-! ## The sliding-window counter: what one event does to the buckets -/

/-- The bucket `b1` is the bucket `b` after one event has been added to it: same timestamp,
the matching adder sums to one more (an `int64`), the other adder is untouched. -/
def Bucket.Added (b b1 : Bucket) (succ : Bool) : Prop :=
  b1.timestamp = b.timestamp ∧
    (if succ = true then b1.success = wrap64 (b.success + 1) ∧ b1.f = b.f
     else b1.failure = wrap64 (b.failure + 1) ∧ b1.s = b.s)

/-- The buckets of `l` that `trimAndSum` keeps: those that are not older than `oldLimit`. -/
def keptBuckets (oldLimit : Int) (l : List Bucket) : List Bucket :=
  l.filter fun b => !decide (b.timestamp < oldLimit)

/-- The counts of the buckets of `l`, added up in `int64` as `trimAndSum` does. -/
def countOf (l : List Bucket) : EventCount :=
  NewEventCount (sumWrap 0 (l.map Bucket.success)) (sumWrap 0 (l.map Bucket.failure))

/-- A bucket whose two adders have not left their base field and hold `S` and `F`. -/
def Bucket.ofCounts (t S F : Int) : Bucket :=
  { timestamp := t, s := .jdk { NewJDKAdder with base := S },
    f := .jdk { NewJDKAdder with base := F } }

/-- The counter accounts for at most `N` events: the reservoir holds the buckets of `g`,
each with the exact numbers of successes and failures that were added to it, of which its
adders show the `int64` values; the adders of the current bucket have received `S` and `F`
events; and all these numbers together are at most `N`. -/
def SlidingWindowCounter.Counts (s : SlidingWindowCounter) (N : Nat) : Prop :=
  ∃ (g : List (Bucket × Nat × Nat)) (S F : Nat),
    JDKLinkedQueue.Abs s.reservoir (g.map Prod.fst) ∧
    (∀ x ∈ g, x.1.success = wrap64 x.2.1 ∧ x.1.failure = wrap64 x.2.2) ∧
    s.cur.s.Tracks S ∧ s.cur.f.Tracks F ∧ IsInt64 s.cur.timestamp ∧
    (g.map fun x => x.2.1 + x.2.2).sum + S + F ≤ N

/-! ### A breaker whose failure rate threshold is 1 -/

/-- A valid configuration with the failure rate threshold 1: at least 1 request, sliding
window of 10 ticks updated every 5 ticks, no listener. -/
def thresholdOneConfig : CircuitBreakerConfig :=
  { failureRateThreshold := F64.fin 1 0, minimumRequestThreshold := 1,
    trialRequestInterval := 5, circuitOpenWindow := 5, counterSlidingWindow := 10,
    counterUpdateInterval := 5, listeners := [] }

/-- A monotonic ticker that stays at tick 0 for its first `2^64 + 3` calls and at tick 5
afterwards. -/
def longTicker : Ticker := { ticks := fun n => if n < 2 ^ 64 + 3 then 0 else 5, pos := 0 }

/-- The breaker built with `thresholdOneConfig` at tick 0 once the adders of its current
bucket hold `S` and `F`, nothing being published yet. -/
def sameBucketBreaker (S F : Int) : NonBlockingCircuitBreaker :=
  { config := thresholdOneConfig,
    s := { addr := 0, cs := .Closed,
           counter := .sliding
             { cur := Bucket.ofCounts 0 S F, slidingWindowNanos := 10, updateIntervalNanos := 5,
               snapshot := EventCountZero, reservoir := JDKLinkedQueue.new },
           timeout := 0, timedOutTimeNanos := 0 },
    nextAddr := 1, log := [] }

/-! ## The http client: one transport attempt -/

/-- The state of a run of `Do` on one endpoint `https://a` with a counting breaker, at the
first attempt of a request without hooks, for a given transport. -/
def attemptState (transport : Nat → URL → TransportResult) : DoState (Bool × Nat × Nat) Unit :=
  Client.startState (clientOf [some (endpointOf "a" (false, 0, 0))] 0 transport)
    (.other [some (endpointOf "a" (false, 0, 0))] 0) plainRequest

/-! ## The http client: the attempts of a run of `Do` -/

/-- The positions attempted by a failover traversal of `n` endpoints: the `j`-th endpoint
reached after the picked one is at position `(picked + j) % n`, and `blocks` gives the
number of attempts made on each endpoint reached, from the `j`-th on. -/
def blockAttempts (n picked : Nat) : Nat → List Nat → List Nat
  | _, [] => []
  | j, a :: as => List.replicate a ((picked + j) % n) ++ blockAttempts n picked (j + 1) as

/-- No pointer of the slice of endpoints is nil. -/
def Client.NonNil {β ρ : Type} (st : DoState β ρ) : Prop :=
  ∀ i, i < st.endpoints.length → ∃ e, st.endpoints[i]? = some (some e)

end Garr

namespace Garr

/-! ## Arithmetic of `wrap64` -/

theorem wrap64_of_isInt64 {v : Int} (h : IsInt64 v) : wrap64 v = v := by
  unfold IsInt64 at h
  unfold wrap64
  omega

theorem wrap64_isInt64 (x : Int) : IsInt64 (wrap64 x) := by
  unfold IsInt64 wrap64
  omega

theorem wrap64_add_left (a b : Int) : wrap64 (wrap64 a + b) = wrap64 (a + b) := by
  unfold wrap64
  omega

theorem wrap64_add_right (a b : Int) : wrap64 (a + wrap64 b) = wrap64 (a + b) := by
  unfold wrap64
  omega

theorem wrap64_idem (a : Int) : wrap64 (wrap64 a) = wrap64 a := by
  unfold wrap64
  omega

theorem wrap64_zero : wrap64 0 = 0 := by
  unfold wrap64
  omega

theorem wrap64_sumWrap (acc : Int) (l : List Int) :
    wrap64 (sumWrap acc l) = wrap64 (acc + l.sum) := by
  induction l generalizing acc with
  | nil => simp [sumWrap]
  | cons v vs ih =>
    rw [sumWrap, ih, wrap64_add_left, List.sum_cons, add_assoc]

theorem sumWrap_isInt64 {acc : Int} (h : IsInt64 acc) (l : List Int) :
    IsInt64 (sumWrap acc l) := by
  induction l generalizing acc with
  | nil => simpa [sumWrap] using h
  | cons v vs ih => exact ih (wrap64_isInt64 _)

theorem sumWrap_eq {acc : Int} (h : IsInt64 acc) (l : List Int) :
    sumWrap acc l = wrap64 (acc + l.sum) := by
  rw [← wrap64_sumWrap, wrap64_of_isInt64 (sumWrap_isInt64 h l)]

end Garr

namespace Garr

/-! ## Single-goroutine behaviour of the four `LongAdder` implementations -/

theorem sum_set_int (l : List Int) (i : Nat) (v w : Int) (h : l[i]? = some v) :
    (l.set i w).sum = l.sum - v + w := by
  induction l generalizing i with
  | nil => simp at h
  | cons a as ih =>
    cases i with
    | zero =>
      simp at h
      subst h
      simp
      ring
    | succ j =>
      simp at h
      simp [ih j h]
      ring

theorem tracks_new (t : Nat) : (NewLongAdder t).Tracks 0 := by
  unfold NewLongAdder
  split_ifs <;>
    simp [LongAdder.Tracks, NewMutexAdder, NewAtomicAdder, NewRandomCellAdder, NewJDKAdder,
      wrap64_zero]

theorem tracks_sum {a : LongAdder} {S : Int} (h : a.Tracks S) : a.Sum = wrap64 S := by
  cases a with
  | jdk u =>
    obtain ⟨hc, hb⟩ := h
    simp [LongAdder.Sum, JDKAdder.Sum, hc, hb]
  | randomCell r =>
    obtain ⟨_, hs⟩ := h
    have h0 : IsInt64 0 := by decide
    simp [LongAdder.Sum, RandomCellAdder.Sum, sumWrap_eq h0, hs]
  | atomic a => simpa [LongAdder.Sum, AtomicAdder.Sum] using h
  | mutex m => simpa [LongAdder.Sum, MutexAdder.Sum] using h

theorem tracks_add (fuel : Nat) {a : LongAdder} {S : Int} (rt : Runtime) (x : Int)
    (h : a.Tracks S) :
    ∃ a' rt', LongAdder.Add fuel a rt x = some (a', rt') ∧ a'.Tracks (S + x) := by
  cases a with
  | jdk u =>
    obtain ⟨hc, hb⟩ := h
    refine ⟨.jdk { u with base := wrap64 (u.base + x) }, rt, ?_, ?_⟩
    · simp [LongAdder.Add, JDKAdder.Add, hc, Striped64.casBase, cas]
    · simp [LongAdder.Tracks, hc, hb, wrap64_add_left]
  | randomCell r =>
    obtain ⟨hl, hs⟩ := h
    have hi : (getRandomInt rt).1 &&& randomCellSizeMinus < r.cells.length := by
      rw [hl]
      have := @Nat.and_le_right (getRandomInt rt).1 randomCellSizeMinus
      have h2 : randomCellSizeMinus < randomCellSize := by decide
      omega
    generalize hgi : (getRandomInt rt).1 &&& randomCellSizeMinus = i at hi
    obtain ⟨v, hv⟩ : ∃ v, r.cells[i]? = some v := ⟨_, List.getElem?_eq_getElem hi⟩
    refine ⟨.randomCell ⟨r.cells.set i (wrap64 (v + x))⟩, (getRandomInt rt).2, ?_, ?_⟩
    · simp [LongAdder.Add, RandomCellAdder.Add, hgi, hv]
    · refine ⟨by simpa using hl, ?_⟩
      show wrap64 (List.sum (r.cells.set _ _)) = _
      rw [sum_set_int _ _ _ _ hv, wrap64_add_right]
      have e : r.cells.sum - v + (v + x) = r.cells.sum + x := by ring
      rw [e, ← wrap64_add_left, hs, wrap64_add_left]
  | atomic a =>
    refine ⟨.atomic (a.Add x), rt, rfl, ?_⟩
    have h' : a.value = wrap64 S := h
    simp [LongAdder.Tracks, AtomicAdder.Add, h', wrap64_add_left]
  | mutex m =>
    refine ⟨.mutex (m.Add x), rt, rfl, ?_⟩
    have h' : m.value = wrap64 S := h
    simp [LongAdder.Tracks, MutexAdder.Add, h', wrap64_add_left]

theorem tracks_run (fuel : Nat) (calls : List AdderCall) :
    ∀ (a : LongAdder) (S : Int) (rt : Runtime), a.Tracks S →
      ∃ a' rt', LongAdder.run fuel a rt calls = some (a', rt') ∧
        a'.Tracks (S + (calls.map AdderCall.delta).sum) := by
  induction calls with
  | nil => intro a S rt h; exact ⟨a, rt, rfl, by simpa using h⟩
  | cons c cs ih =>
    intro a S rt h
    obtain ⟨a1, rt1, h1, ht1⟩ : ∃ a' rt', LongAdder.call fuel a rt c = some (a', rt') ∧
        a'.Tracks (S + c.delta) := by
      cases c with
      | add x => exact tracks_add fuel rt x h
      | inc => exact tracks_add fuel rt 1 h
      | dec => exact tracks_add fuel rt (-1) h
    obtain ⟨a2, rt2, h2, ht2⟩ := ih a1 (S + c.delta) rt1 ht1
    refine ⟨a2, rt2, ?_, ?_⟩
    · simp [LongAdder.run, h1, h2]
    · simpa [add_assoc] using ht2

/-- C1: every finite sequence of `Add`, `Inc` and `Dec` calls made by one goroutine on a
fresh adder of any `LongAdder` type runs to completion, and `Sum()` then returns the sum
of the added amounts in 64-bit wrap-around arithmetic (`Inc` counts 1, `Dec` counts -1). -/
theorem longAdder_sum_after_adds (t fuel : Nat) (rt : Runtime) (calls : List AdderCall) :
    ∃ a rt', LongAdder.run fuel (NewLongAdder t) rt calls = some (a, rt') ∧
      a.Sum = wrap64 (calls.map AdderCall.delta).sum := by
  obtain ⟨a, rt', hr, ht⟩ := tracks_run fuel calls (NewLongAdder t) 0 rt (tracks_new t)
  exact ⟨a, rt', hr, by simpa using tracks_sum ht⟩

end Garr

namespace Garr

theorem sumWrap_replicate_zero {v : Int} (hv : IsInt64 v) (n : Nat) :
    sumWrap v (List.replicate n 0) = v := by
  induction n with
  | zero => rfl
  | succ k ih =>
    rw [List.replicate_succ, sumWrap, add_zero, wrap64_of_isInt64 hv, ih]

theorem vals_fresh (a n : Nat) :
    Cells.vals { arr := a, len := n, slots := List.replicate n (some 0) } = List.replicate n 0 := by
  simp [Cells.vals]

/-- C2: in every state of a `JDKAdder`, with the cell table absent or populated, `Sum()`
returns `v` right after `Store(v)` for every int64 `v`; `Reset()` is `Store(0)`, and `Sum()`
returns 0 right after `Reset()`. -/
theorem jdkAdder_sum_after_store (u : JDKAdder) (v : Int) (hv : IsInt64 v) :
    JDKAdder.Sum (JDKAdder.Store u v) = v ∧ JDKAdder.Reset u = JDKAdder.Store u 0 ∧
      JDKAdder.Sum (JDKAdder.Reset u) = 0 := by
  have key : ∀ w : Int, IsInt64 w → JDKAdder.Sum (JDKAdder.Store u w) = w := by
    intro w hw
    cases hc : u.cells with
    | none => simp [JDKAdder.Store, JDKAdder.Sum, hc]
    | some as =>
      simp only [JDKAdder.Store, JDKAdder.Sum, hc, vals_fresh]
      exact sumWrap_replicate_zero hw _
  exact ⟨key v hv, rfl, key 0 (by decide)⟩

/-- Witness of C2: a table with two installed cells, then `Store(12341)`. -/
theorem jdkAdder_sum_after_store_witness :
    IsInt64 12341 ∧
    JDKAdder.Sum (JDKAdder.Store
      { cells := some { arr := 0, len := 2, slots := [some 5, some 7, none, none] },
        cellsBusy := 0, base := 3, nextArr := 1 } 12341) = 12341 :=
  ⟨by decide, (jdkAdder_sum_after_store _ 12341 (by decide)).1⟩

end Garr

namespace Garr

namespace JDKLinkedQueue

variable {α : Type}

/-! ## Heap accessors under the elementary updates -/

theorem nextOf_modify_next (nodes : List (LinkedListNode α)) (p i : Nat) (nx : Option Nat) :
    nextOf (nodes.modify (fun nd => { nd with _n := nx }) p) i =
      if p = i ∧ i < nodes.length then nx else nextOf nodes i := by
  unfold nextOf
  rw [List.getElem?_modify]
  by_cases hi : i < nodes.length
  · rw [List.getElem?_eq_getElem hi]
    by_cases hp : p = i <;> simp [hp, hi]
  · rw [List.getElem?_eq_none (by omega)]
    simp [hi]

theorem live_modify_next (nodes : List (LinkedListNode α)) (p i : Nat) (nx : Option Nat) :
    live (nodes.modify (fun nd => { nd with _n := nx }) p) i = live nodes i := by
  unfold live
  rw [List.getElem?_modify]
  cases h : nodes[i]? with
  | none => simp
  | some nd => by_cases hp : p = i <;> simp [hp]

theorem valOf_modify_next (nodes : List (LinkedListNode α)) (p i : Nat) (nx : Option Nat) :
    valOf (nodes.modify (fun nd => { nd with _n := nx }) p) i = valOf nodes i := by
  unfold valOf
  rw [List.getElem?_modify]
  cases h : nodes[i]? with
  | none => simp
  | some nd => by_cases hp : p = i <;> simp [hp]

theorem nextOf_modify_item (nodes : List (LinkedListNode α)) (p i : Nat) :
    nextOf (nodes.modify (fun nd => { nd with _i := false }) p) i = nextOf nodes i := by
  unfold nextOf
  rw [List.getElem?_modify]
  cases h : nodes[i]? with
  | none => simp
  | some nd => by_cases hp : p = i <;> simp [hp]

theorem valOf_modify_item (nodes : List (LinkedListNode α)) (p i : Nat) :
    valOf (nodes.modify (fun nd => { nd with _i := false }) p) i = valOf nodes i := by
  unfold valOf
  rw [List.getElem?_modify]
  cases h : nodes[i]? with
  | none => simp
  | some nd => by_cases hp : p = i <;> simp [hp]

theorem live_modify_item (nodes : List (LinkedListNode α)) (p i : Nat) :
    live (nodes.modify (fun nd => { nd with _i := false }) p) i =
      if p = i then false else live nodes i := by
  unfold live
  rw [List.getElem?_modify]
  cases h : nodes[i]? with
  | none => simp
  | some nd => by_cases hp : p = i <;> simp [hp]

theorem getElem?_of_lt {nodes : List (LinkedListNode α)} {i : Nat} (h : i < nodes.length) :
    ∃ nd, nodes[i]? = some nd ∧ nd._n = nextOf nodes i ∧ nd._i = live nodes i ∧
      nd._v = valOf nodes i := by
  refine ⟨nodes[i], List.getElem?_eq_getElem h, ?_, ?_, ?_⟩ <;>
    simp [nextOf, live, valOf, List.getElem?_eq_getElem h]

/-! ## Chains -/

theorem Chain.head_eq {nodes : List (LinkedListNode α)} {p : Nat} {c : List Nat}
    (hc : Chain nodes p c) : ∃ c', c = p :: c' := by
  cases hc with
  | last => exact ⟨[], rfl⟩
  | cons _ j c' => exact ⟨c', rfl⟩

theorem Chain.start_lt {nodes : List (LinkedListNode α)} {p : Nat} {c : List Nat}
    (hc : Chain nodes p c) : p < nodes.length := by
  cases hc with
  | last _ h _ => exact h
  | cons _ _ _ h _ _ _ => exact h

theorem Chain.bounds {nodes : List (LinkedListNode α)} {p : Nat} {c : List Nat}
    (hc : Chain nodes p c) : ∀ i ∈ c, p ≤ i ∧ i < nodes.length := by
  induction hc with
  | last p h _ =>
    intro i hi
    simp at hi
    subst hi
    exact ⟨le_refl _, h⟩
  | cons p j c h _ hlt _ ih =>
    intro i hi
    rcases List.mem_cons.1 hi with rfl | hi
    · exact ⟨le_refl _, h⟩
    · have := ih i hi
      exact ⟨by omega, this.2⟩

theorem Chain.tail_gt {nodes : List (LinkedListNode α)} {p : Nat} {c : List Nat}
    (hc : Chain nodes p (p :: c)) : ∀ i ∈ c, p < i := by
  cases hc with
  | last => simp
  | cons _ j _ _ _ hlt hj =>
    intro i hi
    have := hj.bounds i hi
    omega

theorem Chain.frame {nodes nodes' : List (LinkedListNode α)} {p : Nat} {c : List Nat}
    (hc : Chain nodes p c) (hlen : nodes'.length = nodes.length)
    (hn : ∀ i, p ≤ i → nextOf nodes' i = nextOf nodes i) : Chain nodes' p c := by
  induction hc with
  | last p h hnone =>
    exact Chain.last p (by omega) (by rw [hn p (le_refl _)]; exact hnone)
  | cons p j c h hnext hlt _ ih =>
    refine Chain.cons p j c (by omega) (by rw [hn p (le_refl _)]; exact hnext) hlt ?_
    exact ih fun i hi => hn i (by omega)

theorem Chain.tail_inv {nodes : List (LinkedListNode α)} {p a : Nat} {l : List Nat}
    (hc : Chain nodes p (a :: l)) (hl : l ≠ []) :
    ∃ j, nextOf nodes p = some j ∧ p < j ∧ Chain nodes j l := by
  generalize hx : a :: l = x at hc
  cases hc with
  | last =>
    simp at hx
    exact absurd hx.2 hl
  | cons _ j c _ hnext hlt hj =>
    simp at hx
    obtain ⟨-, rfl⟩ := hx
    exact ⟨j, hnext, hlt, hj⟩

theorem Chain.suffix {nodes : List (LinkedListNode α)} :
    ∀ (pre : List Nat) {p m : Nat} {post : List Nat},
      Chain nodes p (pre ++ m :: post) → Chain nodes m (m :: post) := by
  intro pre
  induction pre with
  | nil =>
    intro p m post hc
    obtain ⟨c', hc'⟩ := hc.head_eq
    simp at hc'
    rw [hc'.1]
    simpa [hc'.1] using hc
  | cons d ds ih =>
    intro p m post hc
    obtain ⟨j, -, -, hj⟩ := Chain.tail_inv hc (by simp)
    exact ih hj

theorem Chain.cons_inv {nodes : List (LinkedListNode α)} {p e : Nat} {c : List Nat}
    (hc : Chain nodes p (p :: e :: c)) :
    nextOf nodes p = some e ∧ p < e ∧ Chain nodes e (e :: c) := by
  cases hc with
  | cons _ j _ _ hnext hlt hj =>
    obtain ⟨c', hc'⟩ := hj.head_eq
    simp at hc'
    obtain ⟨rfl, -⟩ := hc'
    exact ⟨hnext, hlt, hj⟩

theorem Chain.single_inv {nodes : List (LinkedListNode α)} {p : Nat}
    (hc : Chain nodes p [p]) : nextOf nodes p = none := by
  cases hc with
  | last _ _ h => exact h
  | cons _ j _ _ _ _ hj => exact absurd hj.head_eq (by simp)

theorem Chain.not_mem_of_lt {nodes : List (LinkedListNode α)} {p i : Nat} {c : List Nat}
    (hc : Chain nodes p c) (h : i < p) : i ∉ c := by
  intro hi
  have := hc.bounds i hi
  omega

/-- In a chain split around `m`, the node `m` occurs neither before nor after itself. -/
theorem Chain.split_nodup {nodes : List (LinkedListNode α)} :
    ∀ (pre : List Nat) {p m : Nat} {post : List Nat},
      Chain nodes p (pre ++ m :: post) → (∀ d ∈ pre, d < m) ∧ (∀ e ∈ post, m < e) := by
  intro pre
  induction pre with
  | nil =>
    intro p m post hc
    refine ⟨by simp, ?_⟩
    have hm := Chain.suffix [] hc
    exact hm.tail_gt
  | cons d ds ih =>
    intro p m post hc
    obtain ⟨c', hc'⟩ := hc.head_eq
    simp at hc'
    obtain ⟨rfl, -⟩ := hc'
    have hgt := hc.tail_gt
    obtain ⟨j, -, -, hj⟩ := Chain.tail_inv hc (by simp)
    obtain ⟨h1, h2⟩ := ih hj
    refine ⟨?_, h2⟩
    intro x hx
    rcases List.mem_cons.1 hx with rfl | hx
    · exact hgt m (by simp)
    · exact h1 x hx

/-! ## Live values of a chain -/

theorem liveVals_nil (nodes : List (LinkedListNode α)) : liveVals nodes [] = [] := rfl

theorem liveVals_append (nodes : List (LinkedListNode α)) (c d : List Nat) :
    liveVals nodes (c ++ d) = liveVals nodes c ++ liveVals nodes d := by
  simp [liveVals, List.filterMap_append]

theorem liveVals_congr {nodes nodes' : List (LinkedListNode α)} {c : List Nat}
    (h : ∀ i ∈ c, live nodes' i = live nodes i ∧ valOf nodes' i = valOf nodes i) :
    liveVals nodes' c = liveVals nodes c := by
  induction c with
  | nil => rfl
  | cons a c ih =>
    have ha := h a (by simp)
    have := ih fun i hi => h i (List.mem_cons_of_mem _ hi)
    simp only [liveVals, List.filterMap_cons] at this ⊢
    rw [ha.1, ha.2, this]

theorem liveVals_dead {nodes : List (LinkedListNode α)} {c : List Nat}
    (h : ∀ i ∈ c, live nodes i = false) : liveVals nodes c = [] := by
  induction c with
  | nil => rfl
  | cons a c ih =>
    have ha := h a (by simp)
    have := ih fun i hi => h i (List.mem_cons_of_mem _ hi)
    simp only [liveVals, List.filterMap_cons] at this ⊢
    simp [ha, this]

theorem liveVals_cons_live {nodes : List (LinkedListNode α)} {m : Nat} {v : α} (c : List Nat)
    (hl : live nodes m = true) (hv : valOf nodes m = some v) :
    liveVals nodes (m :: c) = v :: liveVals nodes c := by
  simp [liveVals, List.filterMap_cons, hl, hv]

theorem liveVals_cons_dead {nodes : List (LinkedListNode α)} {m : Nat} (c : List Nat)
    (hl : live nodes m = false) :
    liveVals nodes (m :: c) = liveVals nodes c := by
  simp [liveVals, List.filterMap_cons, hl]

/-- Every nonempty list of nodes splits into a dead prefix followed by a node that is live
or last. -/
theorem dead_front_split (nodes : List (LinkedListNode α)) :
    ∀ (c : List Nat), c ≠ [] → ∃ dead m post, c = dead ++ m :: post ∧
      (∀ d ∈ dead, live nodes d = false) ∧ (live nodes m = true ∨ (live nodes m = false ∧ post = [])) := by
  intro c
  induction c with
  | nil => intro h; exact absurd rfl h
  | cons a c ih =>
    intro _
    by_cases ha : live nodes a = true
    · exact ⟨[], a, c, rfl, by simp, Or.inl ha⟩
    · have ha' : live nodes a = false := by simpa using ha
      by_cases hc : c = []
      · subst hc
        exact ⟨[], a, [], rfl, by simp, Or.inr ⟨ha', rfl⟩⟩
      · obtain ⟨dead, m, post, hsplit, hdead, hm⟩ := ih hc
        refine ⟨a :: dead, m, post, by simp [hsplit], ?_, hm⟩
        intro d hd
        rcases List.mem_cons.1 hd with rfl | hd
        · exact ha'
        · exact hdead d hd

/-! ## Elementary updates preserve the invariant -/

theorem setItemNil_wf {q : JDKLinkedQueue α} (hwf : WF q) (p : Nat) : WF (q.setItemNil p) := by
  refine ⟨?_, ?_, ?_, ?_, ?_⟩
  · simpa [setItemNil] using hwf.h_lt
  · simpa [setItemNil] using hwf.t_lt
  · intro i hi
    simp only [setItemNil, List.length_modify] at hi ⊢
    rw [nextOf_modify_item]
    exact hwf.last i hi
  · intro i hi
    simp only [setItemNil, List.length_modify] at hi ⊢
    rw [nextOf_modify_item]
    exact hwf.link i hi
  · intro i hi
    simp only [setItemNil] at hi ⊢
    rw [live_modify_item] at hi
    rw [valOf_modify_item]
    by_cases hp : p = i
    · simp [hp] at hi
    · simp only [hp, if_false] at hi
      exact hwf.vals i hi

theorem setItemNil_chain {q : JDKLinkedQueue α} {p s : Nat} {c : List Nat}
    (hc : Chain q.nodes s c) : Chain (q.setItemNil p).nodes s c :=
  hc.frame (by simp [setItemNil]) fun i _ => by simp [setItemNil, nextOf_modify_item]

/-- Advancing the head to a node `m` of the chain keeps the invariant; the chain from the
new head is the part of the old chain from `m` on. -/
theorem updateHead_spec {q : JDKLinkedQueue α} (hwf : WF q) (pre : List Nat) {m : Nat}
    {post : List Nat} (hc : Chain q.nodes q.h (pre ++ m :: post)) :
    WF (q.updateHead q.h m) ∧ (q.updateHead q.h m).h = m ∧ (q.updateHead q.h m).t = q.t ∧
      (q.updateHead q.h m).nodes.length = q.nodes.length ∧
      Chain (q.updateHead q.h m).nodes m (m :: post) ∧
      (∀ i, live (q.updateHead q.h m).nodes i = live q.nodes i) ∧
      (∀ i, valOf (q.updateHead q.h m).nodes i = valOf q.nodes i) := by
  have hm := Chain.suffix pre hc
  by_cases hpre : pre = []
  · subst hpre
    obtain ⟨c', hc'⟩ := hc.head_eq
    simp at hc'
    have hhm : q.h = m := hc'.1.symm
    have hq : q.updateHead q.h m = q := by simp [updateHead, hhm]
    rw [hq]
    exact ⟨hwf, hhm, rfl, rfl, hm, fun _ => rfl, fun _ => rfl⟩
  · have hlt : q.h < m := by
      obtain ⟨d, ds, rfl⟩ := List.exists_cons_of_ne_nil hpre
      obtain ⟨c', hc'⟩ := hc.head_eq
      simp at hc'
      have := (Chain.split_nodup (d :: ds) hc).1 d (by simp)
      omega
    have hmN : m < q.nodes.length := hm.start_lt
    have hq : q.updateHead q.h m =
        { nodes := q.nodes.modify (fun nd => { nd with _n := some q.h }) q.h, h := m, t := q.t } := by
      have hne : q.h ≠ m := by omega
      simp [updateHead, casHead, cas, setNext, hne]
    rw [hq]
    refine ⟨⟨?_, ?_, ?_, ?_, ?_⟩, rfl, rfl, by simp, ?_, ?_, ?_⟩
    · simpa using hmN
    · simpa using hwf.t_lt
    · intro i hi
      simp only [List.length_modify] at hi ⊢
      rw [nextOf_modify_next]
      have : ¬ (q.h = i ∧ i < q.nodes.length) := by omega
      simp only [this, if_false]
      exact hwf.last i hi
    · intro i hi
      simp only [List.length_modify] at hi ⊢
      rw [nextOf_modify_next]
      by_cases hi2 : q.h = i
      · left
        subst hi2
        have : q.h < q.nodes.length := hwf.h_lt
        simp only [this, and_self, if_true, true_and]
        exact hlt
      · have : ¬ (q.h = i ∧ i < q.nodes.length) := fun h => hi2 h.1
        simp only [this, if_false]
        rcases hwf.link i hi with ⟨h1, h2⟩ | h3
        · left; exact ⟨h1, by omega⟩
        · right; exact h3
    · intro i hi
      rw [live_modify_next] at hi
      rw [valOf_modify_next]
      exact hwf.vals i hi
    · refine hm.frame (by simp) ?_
      intro i hi
      rw [nextOf_modify_next]
      have : ¬ (q.h = i ∧ i < q.nodes.length) := by omega
      simp only [this, if_false]
    · intro i; exact live_modify_next _ _ _ _
    · intro i; exact valOf_modify_next _ _ _ _

/-! ## The scanning loops skip the dead nodes in front of the chain -/

theorem pollLoop_skip (q : JDKLinkedQueue α) (h fuel : Nat) :
    ∀ (dead : List Nat) (p m : Nat) (post : List Nat), Chain q.nodes p (dead ++ m :: post) →
      (∀ d ∈ dead, live q.nodes d = false) →
      pollLoop (fuel + dead.length) q h p = pollLoop fuel q h m := by
  intro dead
  induction dead with
  | nil =>
    intro p m post hc _
    obtain ⟨c', hc'⟩ := hc.head_eq
    simp at hc'
    simp [hc'.1]
  | cons d ds ih =>
    intro p m post hc hdead
    obtain ⟨c', hc'⟩ := hc.head_eq
    simp at hc'
    obtain ⟨rfl, -⟩ := hc'
    obtain ⟨j, hnext, hlt, hj⟩ := Chain.tail_inv hc (by simp)
    obtain ⟨nd, hnd, hn, hi, -⟩ := getElem?_of_lt hc.start_lt
    have hd : live q.nodes d = false := hdead d (by simp)
    have hne : d ≠ j := by omega
    rw [List.length_cons, ← Nat.add_assoc, pollLoop]
    simp only [hnd, hi, hd, hn, hnext, hne]
    simp
    exact ih j m post hj fun x hx => hdead x (List.mem_cons_of_mem _ hx)

theorem peekLoop_skip (q : JDKLinkedQueue α) (h fuel : Nat) :
    ∀ (dead : List Nat) (p m : Nat) (post : List Nat), Chain q.nodes p (dead ++ m :: post) →
      (∀ d ∈ dead, live q.nodes d = false) →
      peekLoop (fuel + dead.length) q h p = peekLoop fuel q h m := by
  intro dead
  induction dead with
  | nil =>
    intro p m post hc _
    obtain ⟨c', hc'⟩ := hc.head_eq
    simp at hc'
    simp [hc'.1]
  | cons d ds ih =>
    intro p m post hc hdead
    obtain ⟨c', hc'⟩ := hc.head_eq
    simp at hc'
    obtain ⟨rfl, -⟩ := hc'
    obtain ⟨j, hnext, hlt, hj⟩ := Chain.tail_inv hc (by simp)
    obtain ⟨nd, hnd, hn, hi, -⟩ := getElem?_of_lt hc.start_lt
    have hd : live q.nodes d = false := hdead d (by simp)
    have hne : d ≠ j := by omega
    rw [List.length_cons, ← Nat.add_assoc, peekLoop]
    simp only [hnd, hi, hd, hn, hnext, hne]
    simp
    exact ih j m post hj fun x hx => hdead x (List.mem_cons_of_mem _ hx)

theorem firstLoop_skip (q : JDKLinkedQueue α) (h fuel : Nat) :
    ∀ (dead : List Nat) (p m : Nat) (post : List Nat), Chain q.nodes p (dead ++ m :: post) →
      (∀ d ∈ dead, live q.nodes d = false) →
      firstLoop (fuel + dead.length) q h p = firstLoop fuel q h m := by
  intro dead
  induction dead with
  | nil =>
    intro p m post hc _
    obtain ⟨c', hc'⟩ := hc.head_eq
    simp at hc'
    simp [hc'.1]
  | cons d ds ih =>
    intro p m post hc hdead
    obtain ⟨c', hc'⟩ := hc.head_eq
    simp at hc'
    obtain ⟨rfl, -⟩ := hc'
    obtain ⟨j, hnext, hlt, hj⟩ := Chain.tail_inv hc (by simp)
    obtain ⟨nd, hnd, hn, hi, -⟩ := getElem?_of_lt hc.start_lt
    have hd : live q.nodes d = false := hdead d (by simp)
    have hne : d ≠ j := by omega
    rw [List.length_cons, ← Nat.add_assoc, firstLoop]
    simp only [hnd, hi, hd, hn, hnext, hne]
    simp
    exact ih j m post hj fun x hx => hdead x (List.mem_cons_of_mem _ hx)

end JDKLinkedQueue

end Garr

namespace Garr

namespace JDKLinkedQueue

variable {α : Type}

theorem Chain.length_le {nodes : List (LinkedListNode α)} {p : Nat} {c : List Nat}
    (hc : Chain nodes p c) : c.length + p ≤ nodes.length := by
  induction hc with
  | last p h _ => simp; omega
  | cons p j c h _ hlt _ ih => simp; omega

theorem liveVals_setItemNil_of_not_mem {q : JDKLinkedQueue α} {p : Nat} {c : List Nat}
    (h : p ∉ c) : liveVals (q.setItemNil p).nodes c = liveVals q.nodes c := by
  apply liveVals_congr
  intro i hi
  have hne : p ≠ i := fun e => h (e ▸ hi)
  simp [setItemNil, live_modify_item, valOf_modify_item, hne]

theorem live_setItemNil_self (q : JDKLinkedQueue α) (p : Nat) :
    live (q.setItemNil p).nodes p = false := by
  simp [setItemNil, live_modify_item]

theorem not_mem_of_forall_lt {m : Nat} {l : List Nat} (h : ∀ e ∈ l, m < e) : m ∉ l :=
  fun hm => absurd (h m hm) (lt_irrefl _)

theorem not_mem_of_forall_gt {m : Nat} {l : List Nat} (h : ∀ e ∈ l, e < m) : m ∉ l :=
  fun hm => absurd (h m hm) (lt_irrefl _)

/-- `Poll` on a queue representing `l` returns the oldest value (nil when there is none)
and leaves a queue representing the rest. -/
theorem poll_abs {q : JDKLinkedQueue α} {l : List α} (habs : Abs q l) {fuel : Nat}
    (hf : q.nodes.length < fuel) :
    ∃ q', Poll fuel q = some (l.head?, q') ∧ Abs q' l.tail ∧
      q'.nodes.length = q.nodes.length := by
  obtain ⟨hwf, c, hc, hl⟩ := habs
  have hcne : c ≠ [] := by
    obtain ⟨c', rfl⟩ := hc.head_eq
    simp
  obtain ⟨dead, m, post, rfl, hdead, hm⟩ := dead_front_split q.nodes c hcne
  have hlen := hc.length_le
  simp only [List.length_append, List.length_cons] at hlen
  obtain ⟨k, rfl⟩ : ∃ k, fuel = (k + 1) + dead.length := ⟨fuel - dead.length - 1, by omega⟩
  have hmc := Chain.suffix dead hc
  obtain ⟨nd, hnd, hn, hi, hv⟩ := getElem?_of_lt hmc.start_lt
  obtain ⟨hpre, hpost⟩ := Chain.split_nodup dead hc
  have hl1 : l = liveVals q.nodes (m :: post) := by
    rw [← hl, liveVals_append, liveVals_dead hdead, List.nil_append]
  rw [Poll, pollLoop_skip q q.h (k + 1) dead q.h m post hc hdead, pollLoop]
  simp only [hnd]
  rcases hm with hlive | ⟨hdeadm, rfl⟩
  · -- the node `m` is live: it is polled
    obtain ⟨a, ha⟩ := Option.isSome_iff_exists.1 (hwf.vals m hlive)
    have hl2 : l = a :: liveVals q.nodes post := by
      rw [hl1, liveVals_cons_live post hlive ha]
    have hwf1 := setItemNil_wf hwf m
    have hc1 : Chain (q.setItemNil m).nodes (q.setItemNil m).h (dead ++ m :: post) :=
      setItemNil_chain hc
    have hpostv : liveVals (q.setItemNil m).nodes post = liveVals q.nodes post :=
      liveVals_setItemNil_of_not_mem (not_mem_of_forall_lt hpost)
    simp only [hi, hlive, cas, hv, ha, hn]
    by_cases hmh : m = q.h
    · refine ⟨q.setItemNil m, by simp [hmh, hl2], ?_, by simp [setItemNil]⟩
      have hd0 : dead = [] := by
        by_contra hne
        obtain ⟨d, ds, rfl⟩ := List.exists_cons_of_ne_nil hne
        obtain ⟨c', hc'⟩ := hc.head_eq
        simp at hc'
        have := hpre d (by simp)
        omega
      subst hd0
      refine ⟨hwf1, m :: post, by simpa using hc1, ?_⟩
      rw [liveVals_cons_dead post (live_setItemNil_self q m), hpostv, hl2]
      rfl
    · cases post with
      | nil =>
        have hnn : nextOf q.nodes m = none := hmc.single_inv
        have key := updateHead_spec hwf1 dead hc1
        rw [show (q.setItemNil m).h = q.h from rfl] at key
        obtain ⟨h1, h2, h3, h4, h5, h6, h7⟩ := key
        refine ⟨(q.setItemNil m).updateHead q.h m, by simp [hmh, hl2, hnn], ?_, ?_⟩
        · refine ⟨h1, [m], by rw [h2]; exact h5, ?_⟩
          rw [hl2]
          simp only [liveVals_nil, List.tail_cons]
          apply liveVals_dead
          intro i hi
          simp at hi
          subst hi
          rw [h6, live_setItemNil_self]
        · rw [h4]; simp [setItemNil]
      | cons e rest =>
        obtain ⟨hne, hlt, -⟩ := hmc.cons_inv
        have hc2 : Chain (q.setItemNil m).nodes (q.setItemNil m).h ((dead ++ [m]) ++ e :: rest) := by
          simpa using hc1
        have key := updateHead_spec hwf1 (dead ++ [m]) hc2
        rw [show (q.setItemNil m).h = q.h from rfl] at key
        obtain ⟨h1, h2, h3, h4, h5, h6, h7⟩ := key
        refine ⟨(q.setItemNil m).updateHead q.h e, by simp [hmh, hl2, hne], ?_, ?_⟩
        · refine ⟨h1, e :: rest, by rw [h2]; exact h5, ?_⟩
          rw [hl2, List.tail_cons, ← hpostv]
          exact liveVals_congr fun i _ => ⟨h6 i, h7 i⟩
        · rw [h4]; simp [setItemNil]
  · -- every node of the chain is dead
    have hnn : nextOf q.nodes m = none := hmc.single_inv
    obtain ⟨h1, h2, h3, h4, h5, h6, h7⟩ := updateHead_spec hwf dead hc
    have hl0 : l = [] := by
      rw [hl1]
      exact liveVals_dead (by simpa using hdeadm)
    refine ⟨q.updateHead q.h m, by simp [hi, hdeadm, hn, hnn, hl0], ?_, h4⟩
    refine ⟨h1, [m], by rw [h2]; exact h5, ?_⟩
    rw [hl0]
    apply liveVals_dead
    intro i hi
    simp at hi
    subst hi
    rw [h6]
    exact hdeadm

/-- `Peek` on a queue representing `l` returns the oldest value (nil when there is none)
and leaves a queue representing `l`. -/
theorem peek_abs {q : JDKLinkedQueue α} {l : List α} (habs : Abs q l) {fuel : Nat}
    (hf : q.nodes.length < fuel) :
    ∃ q', Peek fuel q = some (l.head?, q') ∧ Abs q' l ∧
      q'.nodes.length = q.nodes.length := by
  obtain ⟨hwf, c, hc, hl⟩ := habs
  have hcne : c ≠ [] := by
    obtain ⟨c', rfl⟩ := hc.head_eq
    simp
  obtain ⟨dead, m, post, rfl, hdead, hm⟩ := dead_front_split q.nodes c hcne
  have hlen := hc.length_le
  simp only [List.length_append, List.length_cons] at hlen
  obtain ⟨k, rfl⟩ : ∃ k, fuel = (k + 1) + dead.length := ⟨fuel - dead.length - 1, by omega⟩
  have hmc := Chain.suffix dead hc
  obtain ⟨nd, hnd, hn, hi, hv⟩ := getElem?_of_lt hmc.start_lt
  have hl1 : l = liveVals q.nodes (m :: post) := by
    rw [← hl, liveVals_append, liveVals_dead hdead, List.nil_append]
  obtain ⟨h1, h2, h3, h4, h5, h6, h7⟩ := updateHead_spec hwf dead hc
  have habs' : Abs (q.updateHead q.h m) l := by
    refine ⟨h1, m :: post, by rw [h2]; exact h5, ?_⟩
    rw [hl1]
    exact liveVals_congr fun i _ => ⟨h6 i, h7 i⟩
  rw [Peek, peekLoop_skip q q.h (k + 1) dead q.h m post hc hdead, peekLoop]
  simp only [hnd]
  rcases hm with hlive | ⟨hdeadm, rfl⟩
  · obtain ⟨a, ha⟩ := Option.isSome_iff_exists.1 (hwf.vals m hlive)
    have hl2 : l = a :: liveVals q.nodes post := by
      rw [hl1, liveVals_cons_live post hlive ha]
    exact ⟨q.updateHead q.h m, by simp [hi, hlive, hv, ha, hl2], habs', h4⟩
  · have hnn : nextOf q.nodes m = none := hmc.single_inv
    have hl0 : l = [] := by
      rw [hl1]
      exact liveVals_dead (by simpa using hdeadm)
    exact ⟨q.updateHead q.h m, by simp [hi, hdeadm, hn, hnn, hl0], habs', h4⟩

/-- The method `first` on a queue representing `l` returns the first live node, which
becomes the head, or nil when `l` is empty. -/
theorem first_spec {q : JDKLinkedQueue α} {l : List α} (habs : Abs q l) {fuel : Nat}
    (hf : q.nodes.length < fuel) :
    ∃ r q', first fuel q = some (r, q') ∧ WF q' ∧ q'.nodes.length = q.nodes.length ∧
      ((r = none ∧ l = [] ∧ Abs q' l) ∨
       (∃ m c, r = some m ∧ l ≠ [] ∧ q'.h = m ∧ Chain q'.nodes m c ∧
          liveVals q'.nodes c = l)) := by
  obtain ⟨hwf, c, hc, hl⟩ := habs
  have hcne : c ≠ [] := by
    obtain ⟨c', rfl⟩ := hc.head_eq
    simp
  obtain ⟨dead, m, post, rfl, hdead, hm⟩ := dead_front_split q.nodes c hcne
  have hlen := hc.length_le
  simp only [List.length_append, List.length_cons] at hlen
  obtain ⟨k, rfl⟩ : ∃ k, fuel = (k + 1) + dead.length := ⟨fuel - dead.length - 1, by omega⟩
  have hmc := Chain.suffix dead hc
  obtain ⟨nd, hnd, hn, hi, hv⟩ := getElem?_of_lt hmc.start_lt
  have hl1 : l = liveVals q.nodes (m :: post) := by
    rw [← hl, liveVals_append, liveVals_dead hdead, List.nil_append]
  obtain ⟨h1, h2, h3, h4, h5, h6, h7⟩ := updateHead_spec hwf dead hc
  have hlv : liveVals (q.updateHead q.h m).nodes (m :: post) = l := by
    rw [hl1]
    exact liveVals_congr fun i _ => ⟨h6 i, h7 i⟩
  rw [first, firstLoop_skip q q.h (k + 1) dead q.h m post hc hdead, firstLoop]
  simp only [hnd]
  rcases hm with hlive | ⟨hdeadm, rfl⟩
  · obtain ⟨a, ha⟩ := Option.isSome_iff_exists.1 (hwf.vals m hlive)
    have hl2 : l = a :: liveVals q.nodes post := by
      rw [hl1, liveVals_cons_live post hlive ha]
    refine ⟨some m, q.updateHead q.h m, by simp [hi, hlive], h1, h4, Or.inr ?_⟩
    exact ⟨m, m :: post, rfl, by simp [hl2], h2, h5, hlv⟩
  · have hnn : nextOf q.nodes m = none := hmc.single_inv
    have hl0 : l = [] := by
      rw [hl1]
      exact liveVals_dead (by simpa using hdeadm)
    refine ⟨none, q.updateHead q.h m, by simp [hi, hdeadm, hn, hnn], h1, h4, Or.inl ?_⟩
    exact ⟨rfl, hl0, h1, [m], by rw [h2]; exact h5, hlv⟩

/-- `IsEmpty` on a queue representing `l` tells whether `l` is empty. -/
theorem isEmpty_abs {q : JDKLinkedQueue α} {l : List α} (habs : Abs q l) {fuel : Nat}
    (hf : q.nodes.length < fuel) :
    ∃ q', IsEmpty fuel q = some (l.isEmpty, q') ∧ Abs q' l ∧
      q'.nodes.length = q.nodes.length := by
  obtain ⟨r, q', hfirst, hwf', hlen, hcase⟩ := first_spec habs hf
  rcases hcase with ⟨rfl, rfl, habs'⟩ | ⟨m, c, rfl, hne, hh, hc, hlv⟩
  · exact ⟨q', by simp [IsEmpty, hfirst], habs', hlen⟩
  · refine ⟨q', ?_, ⟨hwf', c, by rw [hh]; exact hc, hlv⟩, hlen⟩
    cases l with
    | nil => exact absurd rfl hne
    | cons a l => simp [IsEmpty, hfirst]

/-- The number of live values of a chain, one more when a live node is put in front. -/
theorem liveVals_length_cons {q : JDKLinkedQueue α} (hwf : WF q) (p : Nat) (c : List Nat) :
    ((liveVals q.nodes (p :: c)).length : Int) =
      (if live q.nodes p = true then 1 else 0) + (liveVals q.nodes c).length := by
  by_cases hl : live q.nodes p = true
  · obtain ⟨a, ha⟩ := Option.isSome_iff_exists.1 (hwf.vals p hl)
    rw [liveVals_cons_live c hl ha]
    simp [hl]
    ring
  · have hl' : live q.nodes p = false := by simpa using hl
    rw [liveVals_cons_dead c hl']
    simp [hl']

theorem sizeLoop_none (q : JDKLinkedQueue α) (fuel : Nat) (count : Int) :
    sizeLoop (fuel + 1) q none count = some (count, q) := by
  simp [sizeLoop]

/-- The counting loop of `Size` along a chain: the count saturates at `math.MaxInt32`. -/
theorem sizeLoop_spec {q : JDKLinkedQueue α} (hwf : WF q) {p : Nat} {c : List Nat}
    (hc : Chain q.nodes p c) :
    ∀ (fuel : Nat) (count : Int), c.length < fuel → count < maxInt32 →
      sizeLoop fuel q (some p) count =
        some (min (count + (liveVals q.nodes c).length) maxInt32, q) := by
  induction hc with
  | last p hp hnone =>
    intro fuel count hf hcount
    obtain ⟨k, rfl⟩ : ∃ k, fuel = k + 1 + 1 := ⟨fuel - 2, by simp at hf; omega⟩
    obtain ⟨nd, hnd, hn, hi, -⟩ := getElem?_of_lt hp
    rw [sizeLoop]
    simp only [hnd, hn, hnone, hi]
    rw [liveVals_length_cons hwf, liveVals_nil]
    by_cases hl : live q.nodes p = true
    · by_cases hmx : count + 1 = maxInt32
      · simp [hl, hmx]
      · simp only [hl, hmx, and_false, if_false, if_true]
        rw [sizeLoop_none]
        simp
        omega
    · have hl' : live q.nodes p = false := by simpa using hl
      simp only [hl', Bool.false_eq_true, if_false, false_and]
      rw [sizeLoop_none]
      simp
      omega
  | cons p j c hp hnext hlt hj ih =>
    intro fuel count hf hcount
    obtain ⟨k, rfl⟩ : ∃ k, fuel = k + 1 := ⟨fuel - 1, by simp at hf; omega⟩
    obtain ⟨nd, hnd, hn, hi, -⟩ := getElem?_of_lt hp
    have hne : j ≠ p := by omega
    simp only [List.length_cons] at hf
    rw [sizeLoop]
    simp only [hnd, hn, hnext, hi]
    rw [liveVals_length_cons hwf]
    by_cases hl : live q.nodes p = true
    · by_cases hmx : count + 1 = maxInt32
      · simp [hl, hmx]
        omega
      · simp only [hl, hmx, and_false, if_false, if_true, Option.some.injEq, hne]
        rw [ih k (count + 1) (by omega) (by omega)]
        congr 2
        ring_nf
    · have hl' : live q.nodes p = false := by simpa using hl
      simp only [hl', Bool.false_eq_true, if_false, false_and, Option.some.injEq, hne]
      rw [ih k count (by omega) hcount]
      simp

/-- `Size` on a queue representing `l` returns the length of `l`, saturated at
`math.MaxInt32`. -/
theorem size_abs {q : JDKLinkedQueue α} {l : List α} (habs : Abs q l) {fuel : Nat}
    (hf : q.nodes.length + 1 < fuel) :
    ∃ q', Size fuel q = some (min (l.length : Int) maxInt32, q') ∧ Abs q' l ∧
      q'.nodes.length = q.nodes.length := by
  obtain ⟨r, q', hfirst, hwf', hlen, hcase⟩ := first_spec habs (by omega : q.nodes.length < fuel)
  obtain ⟨k, rfl⟩ : ∃ k, fuel = k + 1 := ⟨fuel - 1, by omega⟩
  have hmax : (0 : Int) < maxInt32 := by decide
  rcases hcase with ⟨rfl, rfl, habs'⟩ | ⟨m, c, rfl, hne, hh, hc, hlv⟩
  · refine ⟨q', ?_, habs', hlen⟩
    simp only [Size, hfirst, sizeLoop_none]
    simp
    omega
  · refine ⟨q', ?_, ⟨hwf', c, by rw [hh]; exact hc, hlv⟩, hlen⟩
    have hcl := hc.length_le
    simp only [Size, hfirst]
    rw [sizeLoop_spec hwf' hc (k + 1) 0 (by omega) hmax, hlv]
    simp

/-! ## Offer -/

theorem nextOf_append (nodes : List (LinkedListNode α)) (x : LinkedListNode α) (i : Nat) :
    nextOf (nodes ++ [x]) i =
      if i < nodes.length then nextOf nodes i else if i = nodes.length then x._n else none := by
  unfold nextOf
  by_cases h1 : i < nodes.length
  · simp [List.getElem?_append_left h1, h1]
  · by_cases h2 : i = nodes.length
    · subst h2
      simp
    · have : (nodes ++ [x]).length ≤ i := by simp; omega
      rw [List.getElem?_eq_none this, List.getElem?_eq_none (by omega)]
      simp [h1, h2]

theorem live_append (nodes : List (LinkedListNode α)) (x : LinkedListNode α) (i : Nat) :
    live (nodes ++ [x]) i =
      if i < nodes.length then live nodes i else if i = nodes.length then x._i else false := by
  unfold live
  by_cases h1 : i < nodes.length
  · simp [List.getElem?_append_left h1, h1]
  · by_cases h2 : i = nodes.length
    · subst h2
      simp
    · have : (nodes ++ [x]).length ≤ i := by simp; omega
      rw [List.getElem?_eq_none this, List.getElem?_eq_none (by omega)]
      simp [h1, h2]

theorem valOf_append (nodes : List (LinkedListNode α)) (x : LinkedListNode α) (i : Nat) :
    valOf (nodes ++ [x]) i =
      if i < nodes.length then valOf nodes i else if i = nodes.length then x._v else none := by
  unfold valOf
  by_cases h1 : i < nodes.length
  · simp [List.getElem?_append_left h1, h1]
  · by_cases h2 : i = nodes.length
    · subst h2
      simp
    · have : (nodes ++ [x]).length ≤ i := by simp; omega
      rw [List.getElem?_eq_none this, List.getElem?_eq_none (by omega)]
      simp [h1, h2]

/-- The loop of `Offer` reaches the last node from every allocated node. -/
theorem offerLoop_spec {q : JDKLinkedQueue α} (hwf : WF q) (a : α) :
    ∀ (fuel p : Nat), p < q.nodes.length →
      (if q.h ≤ p then q.nodes.length - 1 - p else 2 * q.nodes.length - 1 - p) < fuel →
      offerLoop q.nodes.length fuel { q with nodes := q.nodes ++ [⟨some a, true, none⟩] } q.t p =
        some (offered q a) := by
  intro fuel
  induction fuel with
  | zero => intro p _ hf; omega
  | succ k ih =>
    intro p hp hf
    have hp1 : p < (q.nodes ++ [(⟨some a, true, none⟩ : LinkedListNode α)]).length := by
      simp; omega
    obtain ⟨nd, hnd, hn, -, -⟩ := getElem?_of_lt hp1
    rw [nextOf_append] at hn
    simp only [hp, if_true] at hn
    rw [offerLoop]
    simp only [hnd]
    by_cases hlast : p + 1 = q.nodes.length
    · have hnone := hwf.last p hlast
      rw [hnone] at hn
      have hp' : p = q.nodes.length - 1 := by omega
      simp only [hn, cas, if_true, setNext, casTail]
      by_cases hpt : p = q.t
      · simp [offered, ← hp', hpt]
      · simp [offered, ← hp', hpt]
    · have hh := hwf.h_lt
      rcases hwf.link p (by omega) with ⟨hself, hlt⟩ | ⟨j, hj, hpj, hjN⟩
      · rw [hself] at hn
        simp only [hn, ne_eq, not_true_eq_false, if_false, if_true]
        apply ih q.h hh
        simp only [le_refl, if_true]
        have : ¬ q.h ≤ p := by omega
        simp only [this, if_false] at hf
        omega
      · rw [hj] at hn
        have hne : p ≠ j := by omega
        have hfj : (if q.h ≤ j then q.nodes.length - 1 - j else 2 * q.nodes.length - 1 - j) < k := by
          by_cases h1 : q.h ≤ p
          · have h2 : q.h ≤ j := by omega
            simp only [h1, if_true] at hf
            simp only [h2, if_true]
            omega
          · simp only [h1, if_false] at hf
            by_cases h2 : q.h ≤ j
            · simp only [h2, if_true]
              omega
            · simp only [h2, if_false]
              omega
        simp only [hn, hne, ne_eq, not_true_eq_false, if_false]
        by_cases hpt : p = q.t
        · simp only [hpt, not_true_eq_false, if_false]
          exact ih j hjN hfj
        · simp only [hpt, not_false_eq_true, if_true]
          exact ih j hjN hfj

theorem offered_length (q : JDKLinkedQueue α) (a : α) :
    (offered q a).nodes.length = q.nodes.length + 1 := by
  simp [offered]

theorem nextOf_offered {q : JDKLinkedQueue α} (hpos : 0 < q.nodes.length) (a : α) (i : Nat) :
    nextOf (offered q a).nodes i =
      if i + 1 = q.nodes.length then some q.nodes.length
      else if i < q.nodes.length then nextOf q.nodes i else none := by
  simp only [offered]
  rw [nextOf_modify_next, nextOf_append]
  by_cases h1 : i + 1 = q.nodes.length
  · have : q.nodes.length - 1 = i ∧ i < (q.nodes ++ [(⟨some a, true, none⟩ : LinkedListNode α)]).length := by
      simp; omega
    rw [if_pos this, if_pos h1]
  · have : ¬ (q.nodes.length - 1 = i ∧ i < (q.nodes ++ [(⟨some a, true, none⟩ : LinkedListNode α)]).length) := by
      simp; omega
    simp only [this, if_false, h1]
    by_cases h2 : i < q.nodes.length
    · simp [h2]
    · by_cases h3 : i = q.nodes.length <;> simp [h2, h3]

theorem live_offered (q : JDKLinkedQueue α) (a : α) (i : Nat) :
    live (offered q a).nodes i =
      if i < q.nodes.length then live q.nodes i else decide (i = q.nodes.length) := by
  simp only [offered]
  rw [live_modify_next, live_append]
  by_cases h2 : i < q.nodes.length
  · simp [h2]
  · by_cases h3 : i = q.nodes.length <;> simp [h2, h3]

theorem valOf_offered (q : JDKLinkedQueue α) (a : α) (i : Nat) :
    valOf (offered q a).nodes i =
      if i < q.nodes.length then valOf q.nodes i
      else if i = q.nodes.length then some a else none := by
  simp only [offered]
  rw [valOf_modify_next, valOf_append]

theorem offered_wf {q : JDKLinkedQueue α} (hwf : WF q) (a : α) : WF (offered q a) := by
  have hh := hwf.h_lt
  have ht := hwf.t_lt
  have hpos : 0 < q.nodes.length := by omega
  refine ⟨?_, ?_, ?_, ?_, ?_⟩
  · rw [offered_length]
    show q.h < _
    omega
  · rw [offered_length]
    show (if q.nodes.length - 1 ≠ q.t then q.nodes.length else q.t) < _
    split_ifs <;> omega
  · intro i hi
    rw [offered_length] at hi
    rw [nextOf_offered hpos]
    have h1 : ¬ i + 1 = q.nodes.length := by omega
    have h2 : ¬ i < q.nodes.length := by omega
    simp [h1, h2]
  · intro i hi
    rw [offered_length] at hi ⊢
    rw [nextOf_offered hpos]
    by_cases h1 : i + 1 = q.nodes.length
    · right
      exact ⟨q.nodes.length, by simp [h1], by omega, by omega⟩
    · have h2 : i < q.nodes.length := by omega
      simp only [h1, h2, if_false, if_true]
      rcases hwf.link i (by omega) with h3 | ⟨j, hj, hij, hjN⟩
      · left; exact h3
      · right; exact ⟨j, hj, hij, by omega⟩
  · intro i hi
    rw [live_offered] at hi
    rw [valOf_offered]
    by_cases h2 : i < q.nodes.length
    · simp only [h2, if_true] at hi ⊢
      exact hwf.vals i hi
    · simp only [h2, if_false, decide_eq_true_eq] at hi
      simp [h2, hi]

theorem offered_chain {q : JDKLinkedQueue α} (hwf : WF q) (a : α) {p : Nat} {c : List Nat}
    (hc : Chain q.nodes p c) : Chain (offered q a).nodes p (c ++ [q.nodes.length]) := by
  have hpos : 0 < q.nodes.length := by have := hwf.h_lt; omega
  induction hc with
  | last p hp hnone =>
    have hlast : p + 1 = q.nodes.length := by
      by_contra hne
      rcases hwf.link p (by omega) with ⟨h3, -⟩ | ⟨j, hj, -, -⟩
      · rw [hnone] at h3; simp at h3
      · rw [hnone] at hj; simp at hj
    refine Chain.cons p q.nodes.length [q.nodes.length] ?_ ?_ (by omega) ?_
    · rw [offered_length]; omega
    · rw [nextOf_offered hpos]; simp [hlast]
    · refine Chain.last _ (by rw [offered_length]; omega) ?_
      rw [nextOf_offered hpos]
      have h1 : ¬ q.nodes.length + 1 = q.nodes.length := by omega
      simp [h1]
  | cons p j c hp hnext hlt _ ih =>
    have hlast : ¬ p + 1 = q.nodes.length := by
      intro h
      rw [hwf.last p h] at hnext
      simp at hnext
    refine Chain.cons p j (c ++ [q.nodes.length]) ?_ ?_ hlt ih
    · rw [offered_length]; omega
    · rw [nextOf_offered hpos]; simp [hlast, hp, hnext]

/-- `Offer(a)` on a queue representing `l` leaves a queue representing `l` followed by `a`. -/
theorem offer_abs {q : JDKLinkedQueue α} {l : List α} (habs : Abs q l) (a : α) {fuel : Nat}
    (hf : 2 * q.nodes.length ≤ fuel) :
    ∃ q', Offer fuel q (some a) = some q' ∧ Abs q' (l ++ [a]) ∧
      q'.nodes.length = q.nodes.length + 1 := by
  obtain ⟨hwf, c, hc, hl⟩ := habs
  have hh := hwf.h_lt
  have ht := hwf.t_lt
  refine ⟨offered q a, ?_, ⟨offered_wf hwf a, c ++ [q.nodes.length], offered_chain hwf a hc, ?_⟩,
    offered_length q a⟩
  · simp only [Offer]
    apply offerLoop_spec hwf a fuel q.t ht
    split_ifs <;> omega
  · rw [liveVals_append, ← hl]
    congr 1
    · apply liveVals_congr
      intro i hi
      have := (hc.bounds i hi).2
      simp [live_offered, valOf_offered, this]
    · have hlv : live (offered q a).nodes q.nodes.length = true := by simp [live_offered]
      have hvv : valOf (offered q a).nodes q.nodes.length = some a := by simp [valOf_offered]
      rw [liveVals_cons_live [] hlv hvv, liveVals_nil]

theorem new_abs : Abs (JDKLinkedQueue.new : JDKLinkedQueue α) [] := by
  refine ⟨⟨by simp [JDKLinkedQueue.new], by simp [JDKLinkedQueue.new], ?_, ?_, ?_⟩, [0], ?_, ?_⟩
  · intro i hi
    simp [JDKLinkedQueue.new] at hi
    subst hi
    simp [JDKLinkedQueue.new, nextOf]
  · intro i hi
    simp [JDKLinkedQueue.new] at hi
  · intro i hi
    simp only [JDKLinkedQueue.new, live] at hi
    cases i with
    | zero => simp at hi
    | succ k => simp at hi
  · exact Chain.last 0 (by simp [JDKLinkedQueue.new]) (by simp [JDKLinkedQueue.new, nextOf])
  · simp [liveVals, live, JDKLinkedQueue.new]

end JDKLinkedQueue

end Garr

namespace Garr

namespace JDKLinkedQueue

variable {α : Type}

/-- One call on a queue representing `l` returns what the saturating FIFO list returns and
leaves a queue representing the list it leaves; the heap grows by at most one node. -/
theorem call_abs {q : JDKLinkedQueue α} {l : List α} (habs : Abs q l) (c : QueueCall α)
    {fuel : Nat} (hf : 2 * q.nodes.length + 2 ≤ fuel) :
    ∃ q', call fuel q c = some ((fifoSatCall l c).1, q') ∧ Abs q' (fifoSatCall l c).2 ∧
      q'.nodes.length ≤ q.nodes.length + 1 := by
  cases c with
  | offer v =>
    cases v with
    | none => exact ⟨q, by simp [call, Offer, fifoSatCall, fifoCall], habs, by omega⟩
    | some a =>
      obtain ⟨q', h1, h2, h3⟩ := offer_abs habs a (by omega : 2 * q.nodes.length ≤ fuel)
      exact ⟨q', by simp [call, h1, fifoSatCall, fifoCall], h2, by omega⟩
  | poll =>
    obtain ⟨q', h1, h2, h3⟩ := poll_abs habs (by omega : q.nodes.length < fuel)
    exact ⟨q', by simp [call, h1, fifoSatCall, fifoCall], h2, by omega⟩
  | peek =>
    obtain ⟨q', h1, h2, h3⟩ := peek_abs habs (by omega : q.nodes.length < fuel)
    exact ⟨q', by simp [call, h1, fifoSatCall, fifoCall], h2, by omega⟩
  | size =>
    obtain ⟨q', h1, h2, h3⟩ := size_abs habs (by omega : q.nodes.length + 1 < fuel)
    exact ⟨q', by simp [call, h1, fifoSatCall], h2, by omega⟩
  | isEmpty =>
    obtain ⟨q', h1, h2, h3⟩ := isEmpty_abs habs (by omega : q.nodes.length < fuel)
    refine ⟨q', ?_, h2, by omega⟩
    cases l <;> simp [call, h1, fifoSatCall, fifoCall]

/-- A trace on a queue representing `l` returns what the saturating FIFO list returns. -/
theorem run_abs (fuel : Nat) (trace : List (QueueCall α)) :
    ∀ (q : JDKLinkedQueue α) (l : List α), Abs q l →
      2 * (q.nodes.length + trace.length) + 2 ≤ fuel →
      run fuel q trace = some (fifoSatRun l trace) := by
  induction trace with
  | nil => intro q l _ _; rfl
  | cons c cs ih =>
    intro q l habs hf
    simp only [List.length_cons] at hf
    obtain ⟨q', h1, h2, h3⟩ := call_abs habs c (by omega : 2 * q.nodes.length + 2 ≤ fuel)
    have h4 := ih q' _ h2 (by omega)
    simp [run, h1, h4, fifoSatRun]

/-- A trace from the empty queue returns what the saturating FIFO list returns. -/
theorem run_new (fuel : Nat) (trace : List (QueueCall α)) (hf : 2 * trace.length + 4 ≤ fuel) :
    run fuel (JDKLinkedQueue.new : JDKLinkedQueue α) trace = some (fifoSatRun [] trace) :=
  run_abs fuel trace _ [] new_abs (by simp [JDKLinkedQueue.new]; omega)

end JDKLinkedQueue

theorem fifoRun_offers {α : Type} (a : α) (tl : List (QueueCall α)) :
    ∀ (n : Nat) (l : List α),
      fifoRun l (List.replicate n (.offer (some a)) ++ tl) =
        List.replicate n .done ++ fifoRun (l ++ List.replicate n a) tl := by
  intro n
  induction n with
  | zero => intro l; simp
  | succ k ih =>
    intro l
    rw [List.replicate_succ, List.cons_append, fifoRun, List.replicate_succ, List.cons_append]
    congr 1
    simp only [fifoCall]
    rw [ih]
    simp [List.replicate_succ]

theorem fifoSatRun_offers {α : Type} (a : α) (tl : List (QueueCall α)) :
    ∀ (n : Nat) (l : List α),
      fifoSatRun l (List.replicate n (.offer (some a)) ++ tl) =
        List.replicate n .done ++ fifoSatRun (l ++ List.replicate n a) tl := by
  intro n
  induction n with
  | zero => intro l; simp
  | succ k ih =>
    intro l
    rw [List.replicate_succ, List.cons_append, fifoSatRun, List.replicate_succ, List.cons_append]
    congr 1
    simp only [fifoSatCall, fifoCall]
    rw [ih]
    simp [List.replicate_succ]

/-- C3 (as amended): on every single-goroutine trace of `Offer`, `Poll`, `Peek`, `Size` and
`IsEmpty` from the empty queue, run with enough fuel, `JDKLinkedQueue` returns the results
of a plain FIFO list whose `Size` is the number of remaining values saturated at
`math.MaxInt32`. -/
theorem jdkLinkedQueue_refines_saturating_fifo {α : Type} (fuel : Nat)
    (trace : List (QueueCall α)) (hf : 2 * trace.length + 4 ≤ fuel) :
    JDKLinkedQueue.run fuel (JDKLinkedQueue.new : JDKLinkedQueue α) trace =
      some (fifoSatRun [] trace) :=
  JDKLinkedQueue.run_new fuel trace hf

/-- Witness of C3 (as amended): a trace of ten calls. -/
theorem jdkLinkedQueue_refines_saturating_fifo_witness :
    2 * [QueueCall.offer (some 7), .offer none, .offer (some 9), .peek, .size, .poll,
        .isEmpty, .poll, .poll, .isEmpty].length + 4 ≤ 24 ∧
    JDKLinkedQueue.run 24 (JDKLinkedQueue.new : JDKLinkedQueue Nat)
        [.offer (some 7), .offer none, .offer (some 9), .peek, .size, .poll,
          .isEmpty, .poll, .poll, .isEmpty] =
      some [.done, .done, .done, .value (some 7), .count 2, .value (some 7), .flag false,
        .value (some 9), .value none, .flag true] :=
  ⟨by decide, jdkLinkedQueue_refines_saturating_fifo 24 _ (by decide)⟩

/-- After `n` offers with `n` above `math.MaxInt32`, the result of `Size` differs from the
one of the plain FIFO list. -/
theorem run_offers_size_ne (n fuel : Nat) (hf : 2 * (n + 1) + 4 ≤ fuel)
    (hn : JDKLinkedQueue.maxInt32 < (n : Int)) :
    JDKLinkedQueue.run fuel (JDKLinkedQueue.new : JDKLinkedQueue Nat)
        (List.replicate n (.offer (some 0)) ++ [.size]) ≠
      some (fifoRun [] (List.replicate n (.offer (some 0)) ++ [.size])) := by
  rw [JDKLinkedQueue.run_new fuel _ (by simpa using hf), fifoSatRun_offers, fifoRun_offers]
  intro h
  have h2 := List.append_cancel_left (Option.some.inj h)
  simp only [fifoSatRun, fifoRun, fifoSatCall, fifoCall, List.nil_append, List.length_replicate,
    List.cons.injEq, QueueResult.count.injEq, and_true] at h2
  omega

/-- Counterexample to C3 as stated: after `2^31` offers, `Size` returns `2^31 - 1`, not the
number `2^31` of remaining values that the plain FIFO list gives. -/
theorem jdkLinkedQueue_size_saturates :
    JDKLinkedQueue.run (2 ^ 33) (JDKLinkedQueue.new : JDKLinkedQueue Nat)
        (List.replicate (2 ^ 31) (.offer (some 0)) ++ [.size]) ≠
      some (fifoRun [] (List.replicate (2 ^ 31) (.offer (some 0)) ++ [.size])) :=
  run_offers_size_ne (2 ^ 31) (2 ^ 33) (by norm_num) (by norm_num [JDKLinkedQueue.maxInt32])

end Garr

namespace Garr

namespace JDKLinkedQueue

variable {α : Type}

/-! ## The iterator -/

theorem setNext_forward_wf {q : JDKLinkedQueue α} (hwf : WF q) {p j : Nat}
    (hp : p + 1 < q.nodes.length) (hpj : p < j) (hj : j < q.nodes.length) :
    WF (q.setNext p (some j)) := by
  refine ⟨?_, ?_, ?_, ?_, ?_⟩
  · simpa [setNext] using hwf.h_lt
  · simpa [setNext] using hwf.t_lt
  · intro i hi
    simp only [setNext, List.length_modify] at hi ⊢
    rw [nextOf_modify_next]
    have : ¬ (p = i ∧ i < q.nodes.length) := by omega
    simp only [this, if_false]
    exact hwf.last i hi
  · intro i hi
    simp only [setNext, List.length_modify] at hi ⊢
    rw [nextOf_modify_next]
    by_cases hpi : p = i
    · subst hpi
      right
      exact ⟨j, by simp; omega, hpj, hj⟩
    · have : ¬ (p = i ∧ i < q.nodes.length) := fun h => hpi h.1
      simp only [this, if_false]
      exact hwf.link i hi
  · intro i hi
    simp only [setNext] at hi ⊢
    rw [live_modify_next] at hi
    rw [valOf_modify_next]
    exact hwf.vals i hi

theorem Chain.replace_suffix {nodes nodes' : List (LinkedListNode α)}
    (hlen : nodes'.length = nodes.length) {p : Nat} {post post' : List Nat}
    (hn : ∀ i, i ≠ p → nextOf nodes' i = nextOf nodes i)
    (hp : Chain nodes' p (p :: post')) :
    ∀ (pre : List Nat) {h : Nat}, Chain nodes h (pre ++ p :: post) →
      Chain nodes' h (pre ++ p :: post') := by
  intro pre
  induction pre with
  | nil =>
    intro h hc
    obtain ⟨c', hc'⟩ := hc.head_eq
    simp at hc'
    rw [← hc'.1]
    exact hp
  | cons d ds ih =>
    intro h hc
    obtain ⟨c', hc'⟩ := hc.head_eq
    simp at hc'
    obtain ⟨rfl, -⟩ := hc'
    have hlt := (Chain.split_nodup (d :: ds) hc).1 d (by simp)
    obtain ⟨j, hnext, hdj, hj⟩ := Chain.tail_inv hc (by simp)
    refine Chain.cons d j (ds ++ p :: post') (by rw [hlen]; exact hc.start_lt) ?_ hdj (ih hj)
    rw [hn d (by omega)]
    exact hnext

end JDKLinkedQueue

namespace JdkLinkedQueueIter

open JDKLinkedQueue

variable {α : Type}

theorem newLoop_skip (q : JDKLinkedQueue α) (h fuel : Nat) :
    ∀ (dead : List Nat) (p m : Nat) (post : List Nat), Chain q.nodes p (dead ++ m :: post) →
      (∀ d ∈ dead, live q.nodes d = false) →
      newLoop (fuel + dead.length) q h p = newLoop fuel q h m := by
  intro dead
  induction dead with
  | nil =>
    intro p m post hc _
    obtain ⟨c', hc'⟩ := hc.head_eq
    simp at hc'
    simp [hc'.1]
  | cons d ds ih =>
    intro p m post hc hdead
    obtain ⟨c', hc'⟩ := hc.head_eq
    simp at hc'
    obtain ⟨rfl, -⟩ := hc'
    obtain ⟨j, hnext, hlt, hj⟩ := Chain.tail_inv hc (by simp)
    obtain ⟨nd, hnd, hn, hi, -⟩ := getElem?_of_lt hc.start_lt
    have hd : live q.nodes d = false := hdead d (by simp)
    have hne : d ≠ j := by omega
    rw [List.length_cons, ← Nat.add_assoc, newLoop]
    simp only [hnd, hi, hd, hn, hnext, hne]
    simp
    exact ih j m post hj fun x hx => hdead x (List.mem_cons_of_mem _ hx)

/-- A fresh iterator on a queue representing `l` stands before all of `l`. -/
theorem new_spec {q : JDKLinkedQueue α} {l : List α} (habs : Abs q l) {fuel : Nat}
    (hf : q.nodes.length < fuel) :
    ∃ it q', JdkLinkedQueueIter.new fuel q = some (it, q') ∧ IterAt q' it [] l ∧
      q'.nodes.length = q.nodes.length := by
  obtain ⟨hwf, c, hc, hl⟩ := habs
  have hcne : c ≠ [] := by
    obtain ⟨c', rfl⟩ := hc.head_eq
    simp
  obtain ⟨dead, m, post, rfl, hdead, hm⟩ := dead_front_split q.nodes c hcne
  have hlen := hc.length_le
  simp only [List.length_append, List.length_cons] at hlen
  obtain ⟨k, rfl⟩ : ∃ k, fuel = (k + 1) + dead.length := ⟨fuel - dead.length - 1, by omega⟩
  have hmc := Chain.suffix dead hc
  obtain ⟨nd, hnd, hn, hi, hv⟩ := getElem?_of_lt hmc.start_lt
  have hl1 : l = liveVals q.nodes (m :: post) := by
    rw [← hl, liveVals_append, liveVals_dead hdead, List.nil_append]
  obtain ⟨h1, h2, h3, h4, h5, h6, h7⟩ := updateHead_spec hwf dead hc
  have hlv : liveVals (q.updateHead q.h m).nodes (m :: post) = l := by
    rw [hl1]
    exact liveVals_congr fun i _ => ⟨h6 i, h7 i⟩
  rw [JdkLinkedQueueIter.new, newLoop_skip q q.h (k + 1) dead q.h m post hc hdead, newLoop]
  simp only [hnd]
  rcases hm with hlive | ⟨hdeadm, rfl⟩
  · refine ⟨{ nextNode := some m, nextItem := true, nextVal := nd._v, lastRet := none },
      q.updateHead q.h m, by simp [hi, hlive], ⟨h1, [], m :: post, ?_, rfl, hlv, ?_⟩, h4⟩
    · rw [h2]; exact h5
    · exact ⟨⟨post, rfl⟩, by rw [h6]; exact hlive, by rw [h7]; exact hv, rfl⟩
  · have hnn : nextOf q.nodes m = none := hmc.single_inv
    have hl0 : l = [] := by
      rw [hl1]
      exact liveVals_dead (by simpa using hdeadm)
    refine ⟨{ nextNode := none, nextItem := false, nextVal := none, lastRet := none },
      q.updateHead q.h m, by simp [hi, hdeadm, hn, hnn], ⟨h1, [], [m], ?_, rfl, hlv, ?_⟩, h4⟩
    · rw [h2]; exact h5
    · exact ⟨rfl, hl0⟩

theorem nextLoop_none (pred fuel : Nat) (q : JDKLinkedQueue α) (it : JdkLinkedQueueIter α)
    (item : Bool) (val : Option α) :
    nextLoop pred (fuel + 1) q it none item val =
      some (it.nextVal, { it with nextNode := none, nextItem := item, nextVal := val }, q) := by
  simp [nextLoop]

/-- The loop of `Next` from the node `p` it returns: it stops at the first live node after
`p`, or at the end of the chain, and unlinks the dead nodes that it crosses and that have a
successor. Liveness and values of all nodes and the links of the other nodes are kept. -/
theorem nextLoop_spec (p : Nat) (it : JdkLinkedQueueIter α) :
    ∀ (rem : List Nat) (q : JDKLinkedQueue α) (fuel : Nat) (val : Option α),
      WF q → Chain q.nodes p (p :: rem) → rem.length < fuel →
      ∃ q' rem' it',
        nextLoop p fuel q it rem.head? false val = some (it.nextVal, it', q') ∧
        WF q' ∧ q'.h = q.h ∧ q'.nodes.length = q.nodes.length ∧
        (∀ i, live q'.nodes i = live q.nodes i) ∧ (∀ i, valOf q'.nodes i = valOf q.nodes i) ∧
        (∀ i, i ≠ p → nextOf q'.nodes i = nextOf q.nodes i) ∧
        Chain q'.nodes p (p :: rem') ∧ liveVals q.nodes rem' = liveVals q.nodes rem ∧
        it'.lastRet = it.lastRet ∧
        (match it'.nextNode with
          | some m => (∃ post', rem' = m :: post') ∧ live q.nodes m = true ∧
              it'.nextVal = valOf q.nodes m ∧ it'.nextItem = true
          | none => it'.nextItem = false ∧ liveVals q.nodes rem' = []) := by
  intro rem
  induction rem with
  | nil =>
    intro q fuel val hwf hc hf
    obtain ⟨k, rfl⟩ : ∃ k, fuel = k + 1 := ⟨fuel - 1, by simp at hf; omega⟩
    exact ⟨q, [], _, nextLoop_none p k q it false val, hwf, rfl, rfl, fun _ => rfl, fun _ => rfl,
      fun _ _ => rfl, hc, rfl, rfl, rfl, rfl⟩
  | cons e r ih =>
    intro q fuel val hwf hc hf
    obtain ⟨k, rfl⟩ : ∃ k, fuel = k + 1 := ⟨fuel - 1, by simp at hf; omega⟩
    simp only [List.length_cons] at hf
    obtain ⟨hpe, hlt, hce⟩ := hc.cons_inv
    obtain ⟨nd, hnd, hn, hi, hv⟩ := getElem?_of_lt hce.start_lt
    obtain ⟨ndp, hndp, hnp, -, -⟩ := getElem?_of_lt hc.start_lt
    rw [List.head?_cons, nextLoop]
    simp only [hnd]
    by_cases hlive : live q.nodes e = true
    · refine ⟨q, e :: r, { it with nextNode := some e, nextItem := nd._i, nextVal := nd._v },
        by simp [hi, hlive], hwf, rfl, rfl, fun _ => rfl, fun _ => rfl, fun _ _ => rfl, hc, rfl,
        rfl, ?_⟩
      exact ⟨⟨r, rfl⟩, hlive, hv, by rw [hi]; exact hlive⟩
    · have hdead : live q.nodes e = false := by simpa using hlive
      simp only [hi, hdead, Bool.false_eq_true, if_false, JDKLinkedQueue.succ, hnd, hn, hndp]
      cases r with
      | nil =>
        have hnn : nextOf q.nodes e = none := hce.single_inv
        obtain ⟨k', rfl⟩ : ∃ k', k = k' + 1 := ⟨k - 1, by simp at hf; omega⟩
        simp only [hnn]
        refine ⟨q, [e], { it with nextNode := none, nextItem := false, nextVal := nd._v },
          by simp [nextLoop_none], hwf, rfl, rfl, fun _ => rfl, fun _ => rfl, fun _ _ => rfl, hc,
          rfl, rfl, rfl, ?_⟩
        exact liveVals_dead (by simpa using hdead)
      | cons e2 r2 =>
        obtain ⟨hee2, hlt2, hce2⟩ := hce.cons_inv
        have hne : ¬ (some e2 = some e) := by simp; omega
        have he2N := hce2.start_lt
        have hwf1 : WF (q.setNext p (some e2)) :=
          setNext_forward_wf hwf (by have := hce.start_lt; omega) (by omega) he2N
        have hc1 : Chain (q.setNext p (some e2)).nodes p (p :: e2 :: r2) := by
          refine Chain.cons p e2 _ (by simpa [setNext] using hc.start_lt) ?_ (by omega) ?_
          · have := hc.start_lt
            simp [setNext, nextOf_modify_next, this]
          · refine hce2.frame (by simp [setNext]) ?_
            intro i hi2
            have : ¬ (p = i ∧ i < q.nodes.length) := by omega
            simp [setNext, nextOf_modify_next, this]
        obtain ⟨q', rem', it', h1, h2, h3, h4, h5, h6, h7, h8, h9, h10, h11⟩ :=
          ih (q.setNext p (some e2)) k nd._v hwf1 hc1 (by simp only [List.length_cons] at hf ⊢; omega)
        have hl1 : ∀ i, live (q.setNext p (some e2)).nodes i = live q.nodes i :=
          fun i => live_modify_next _ _ _ _
        have hv1 : ∀ i, valOf (q.setNext p (some e2)).nodes i = valOf q.nodes i :=
          fun i => valOf_modify_next _ _ _ _
        have hlv : ∀ x, liveVals (q.setNext p (some e2)).nodes x = liveVals q.nodes x :=
          fun x => liveVals_congr fun i _ => ⟨hl1 i, hv1 i⟩
        refine ⟨q', rem', it', ?_, h2, ?_, ?_, ?_, ?_, ?_, h8, ?_, h10, ?_⟩
        · simp only [hee2, hne, if_false, hnp, hpe, cas, if_true]
          simpa using h1
        · rw [h3]; rfl
        · rw [h4]; simp [setNext]
        · intro i; rw [h5, hl1]
        · intro i; rw [h6, hv1]
        · intro i hi2
          rw [h7 i hi2]
          have : ¬ (p = i ∧ i < q.nodes.length) := fun h => hi2 h.1.symm
          simp [setNext, nextOf_modify_next, this]
        · rw [← hlv, h9, hlv, liveVals_cons_dead (e2 :: r2) hdead]
        · cases hnn : it'.nextNode with
          | none =>
            rw [hnn] at h11
            simp only at h11 ⊢
            exact ⟨h11.1, by rw [← hlv]; exact h11.2⟩
          | some m =>
            rw [hnn] at h11
            simp only at h11 ⊢
            exact ⟨h11.1, by rw [← hl1]; exact h11.2.1, by rw [← hv1]; exact h11.2.2.1, h11.2.2.2⟩

theorem chain_next_head {nodes : List (LinkedListNode α)} {p : Nat} {rem : List Nat}
    (hc : Chain nodes p (p :: rem)) : nextOf nodes p = rem.head? ∧ nextOf nodes p ≠ some p := by
  cases rem with
  | nil =>
    have := hc.single_inv
    simp [this]
  | cons e r =>
    obtain ⟨h1, h2, -⟩ := hc.cons_inv
    rw [h1]
    simp
    omega

/-- `Next` on an iterator that has yet to return `v :: rest` returns `v` and leaves an
iterator that has yet to return `rest`; a `Remove` called right after takes `v` out of the
queue. -/
theorem next_spec {q : JDKLinkedQueue α} {it : JdkLinkedQueueIter α} {kept rest : List α}
    {v : α} (h : IterAt q it kept (v :: rest)) {fuel : Nat} (hf : q.nodes.length < fuel) :
    ∃ it' q', it.Next fuel q = some (some v, it', q') ∧ q'.nodes.length = q.nodes.length ∧
      IterAt q' it' (kept ++ [v]) rest ∧
      IterAt (it'.Remove q').2 (it'.Remove q').1 kept rest ∧
      (it'.Remove q').2.nodes.length = q.nodes.length := by
  obtain ⟨hwf, pre, post, hc, hk, hr, hmatch⟩ := h
  cases hnn : it.nextNode with
  | none =>
    rw [hnn] at hmatch
    exact absurd hmatch.2 (by simp)
  | some p =>
    rw [hnn] at hmatch
    obtain ⟨⟨post', rfl⟩, hlive, hval, hitem⟩ := hmatch
    obtain ⟨a, ha⟩ := Option.isSome_iff_exists.1 (hwf.vals p hlive)
    rw [liveVals_cons_live post' hlive ha] at hr
    obtain ⟨rfl, hr'⟩ := List.cons.inj hr
    have hcp := Chain.suffix pre hc
    obtain ⟨hnx, hnself⟩ := chain_next_head hcp
    obtain ⟨ndp, hndp, hnp, -, -⟩ := getElem?_of_lt hcp.start_lt
    have hlen := hc.length_le
    simp only [List.length_append, List.length_cons] at hlen
    obtain ⟨q', rem', it', h1, h2, h3, h4, h5, h6, h7, h8, h9, h10, h11⟩ :=
      nextLoop_spec p { it with lastRet := some p } post' q fuel none hwf hcp (by omega)
    obtain ⟨hprelt, -⟩ := Chain.split_nodup pre hc
    have hremgt := h8.tail_gt
    have hchain : Chain q'.nodes q'.h (pre ++ p :: rem') := by
      rw [h3]
      exact Chain.replace_suffix h4 h7 h8 pre hc
    have hlvq : ∀ x, liveVals q'.nodes x = liveVals q.nodes x :=
      fun x => liveVals_congr fun i _ => ⟨h5 i, h6 i⟩
    have hlp : live q'.nodes p = true := by rw [h5]; exact hlive
    have hvp : valOf q'.nodes p = some a := by rw [h6]; exact ha
    refine ⟨it', q', ?_, h4, ⟨h2, pre ++ [p], rem', by simpa using hchain, ?_, ?_, ?_⟩,
      ⟨?_, pre ++ [p], rem', ?_, ?_, ?_, ?_⟩, ?_⟩
    · have hnself' : ¬ (post'.head? = some p) := by rw [← hnx]; exact hnself
      simp only [hnn] at h1
      simp only [Next, hnn, JDKLinkedQueue.succ, hndp, hnp, hnx, hnself', if_false]
      rw [h1]
      simp [hval, ha]
    · rw [liveVals_append, hlvq, hk, liveVals_cons_live [] hlp hvp, liveVals_nil]
    · rw [hlvq, h9, hr']
    · cases hn2 : it'.nextNode with
      | none =>
        rw [hn2] at h11
        simp only at h11 ⊢
        exact ⟨h11.1, by rw [← hr', ← h9]; exact h11.2⟩
      | some m =>
        rw [hn2] at h11
        simp only at h11 ⊢
        exact ⟨h11.1, by rw [h5]; exact h11.2.1, by rw [h6]; exact h11.2.2.1, h11.2.2.2⟩
    all_goals
      have hlast : it'.lastRet = some p := h10
      simp only [Remove, hlast]
    · exact setItemNil_wf h2 p
    · simpa using setItemNil_chain (p := p) hchain
    · rw [liveVals_append, liveVals_setItemNil_of_not_mem (not_mem_of_forall_gt hprelt), hlvq, hk,
        liveVals_cons_dead [] (live_setItemNil_self q' p), liveVals_nil, List.append_nil]
    · rw [liveVals_setItemNil_of_not_mem (not_mem_of_forall_lt hremgt), hlvq, h9, hr']
    · cases hn2 : it'.nextNode with
      | none =>
        rw [hn2] at h11
        simp only at h11 ⊢
        exact ⟨h11.1, by rw [← hr', ← h9]; exact h11.2⟩
      | some m =>
        rw [hn2] at h11
        simp only at h11 ⊢
        obtain ⟨⟨post'', rfl⟩, hm1, hm2, hm3⟩ := h11
        have hpm : p ≠ m := by
          have := hremgt m (by simp)
          omega
        refine ⟨⟨post'', rfl⟩, ?_, ?_, hm3⟩
        · simp only [setItemNil, live_modify_item, hpm, if_false]
          rw [h5]; exact hm1
        · simp only [setItemNil, valOf_modify_item]
          rw [h6]; exact hm2
    · simp [setItemNil, h4]

theorem iterAt_abs {q : JDKLinkedQueue α} {it : JdkLinkedQueueIter α} {kept rest : List α}
    (h : IterAt q it kept rest) : Abs q (kept ++ rest) := by
  obtain ⟨hwf, pre, post, hc, hk, hr, -⟩ := h
  exact ⟨hwf, pre ++ post, hc, by rw [liveVals_append, hk, hr]⟩

theorem iterAt_hasNext {q : JDKLinkedQueue α} {it : JdkLinkedQueueIter α} {kept rest : List α}
    (h : IterAt q it kept rest) : it.HasNext = !rest.isEmpty := by
  obtain ⟨hwf, pre, post, hc, hk, hr, hmatch⟩ := h
  cases hnn : it.nextNode with
  | none =>
    rw [hnn] at hmatch
    simp [HasNext, hmatch.1, hmatch.2]
  | some p =>
    rw [hnn] at hmatch
    obtain ⟨⟨post', rfl⟩, hlive, hval, hitem⟩ := hmatch
    obtain ⟨a, ha⟩ := Option.isSome_iff_exists.1 (hwf.vals p hlive)
    rw [liveVals_cons_live post' hlive ha] at hr
    simp [HasNext, hitem, ← hr]

/-- The removing loop from an iterator that has yet to return `rest`: it returns `rest` in
order and leaves in the queue the values kept so far and those of `rest` that do not
satisfy `P`. -/
theorem removeLoop_spec (P : α → Bool) (fuel : Nat) :
    ∀ (rest : List α) (n : Nat) (q : JDKLinkedQueue α) (it : JdkLinkedQueueIter α)
      (kept : List α) (seen : List (Option α)),
      IterAt q it kept rest → rest.length < n → q.nodes.length < fuel →
      ∃ q', removeLoop P fuel n q it seen = some (seen ++ rest.map some, q') ∧
        Abs q' (kept ++ rest.filter fun a => !P a) ∧ q'.nodes.length = q.nodes.length := by
  intro rest
  induction rest with
  | nil =>
    intro n q it kept seen h hn hf
    obtain ⟨k, rfl⟩ : ∃ k, n = k + 1 := ⟨n - 1, by simp at hn; omega⟩
    have hhas := iterAt_hasNext h
    refine ⟨q, ?_, by simpa using iterAt_abs h, rfl⟩
    rw [removeLoop]
    simp [hhas]
  | cons v rest ih =>
    intro n q it kept seen h hn hf
    obtain ⟨k, rfl⟩ : ∃ k, n = k + 1 := ⟨n - 1, by simp at hn; omega⟩
    simp only [List.length_cons] at hn
    have hhas := iterAt_hasNext h
    obtain ⟨it', q', hnext, hlen, hkeep, hrem, hlen2⟩ := next_spec h hf
    rw [removeLoop]
    simp only [hhas, hnext, List.isEmpty_cons, Bool.not_false, if_true]
    by_cases hP : P v = true
    · obtain ⟨q'', h1, h2, h3⟩ := ih k _ _ kept (seen ++ [some v]) hrem (by omega)
        (by rw [hlen2]; exact hf)
      refine ⟨q'', ?_, ?_, by rw [h3, hlen2]⟩
      · simp only [hP, if_true]
        rw [h1]
        simp
      · simpa [List.filter_cons, hP] using h2
    · obtain ⟨q'', h1, h2, h3⟩ := ih k q' it' (kept ++ [v]) (seen ++ [some v]) hkeep (by omega)
        (by rw [hlen]; exact hf)
      refine ⟨q'', ?_, ?_, by rw [h3, hlen]⟩
      · simp only [hP, if_false]
        rw [h1]
        simp
      · simpa [List.filter_cons, hP] using h2

theorem liveVals_length_le (nodes : List (LinkedListNode α)) (c : List Nat) :
    (liveVals nodes c).length ≤ c.length := by
  unfold liveVals
  exact List.length_filterMap_le _ _

/-- A removing pass on a queue representing `l` returns the values of `l` in order and
leaves a queue representing the values of `l` that do not satisfy `P`. -/
theorem removePass_abs (P : α → Bool) {q : JDKLinkedQueue α} {l : List α} (habs : Abs q l)
    {fuel : Nat} (hf : q.nodes.length < fuel) :
    ∃ q', removePass P fuel q = some (l.map some, q') ∧
      Abs q' (l.filter fun a => !P a) ∧ q'.nodes.length = q.nodes.length := by
  have hl : l.length < fuel := by
    obtain ⟨-, c, hc, hlv⟩ := habs
    have h1 := liveVals_length_le q.nodes c
    have h2 := hc.length_le
    rw [hlv] at h1
    omega
  obtain ⟨it, q1, hnew, hat, hlen⟩ := new_spec habs hf
  obtain ⟨q', h1, h2, h3⟩ := removeLoop_spec P fuel l fuel q1 it [] [] hat hl
    (by rw [hlen]; exact hf)
  refine ⟨q', ?_, by simpa using h2, by rw [h3, hlen]⟩
  simp only [removePass, hnew]
  rw [h1]
  simp

end JdkLinkedQueueIter

namespace JDKLinkedQueue

variable {α : Type}

theorem offerAll_abs (fuel : Nat) (vs : List α) :
    ∀ (q : JDKLinkedQueue α) (l : List α), Abs q l → 2 * (q.nodes.length + vs.length) ≤ fuel →
      ∃ q', offerAll fuel q vs = some q' ∧ Abs q' (l ++ vs) ∧
        q'.nodes.length = q.nodes.length + vs.length := by
  induction vs with
  | nil => intro q l habs _; exact ⟨q, rfl, by simpa using habs, rfl⟩
  | cons a as ih =>
    intro q l habs hf
    simp only [List.length_cons] at hf
    obtain ⟨q1, h1, h2, h3⟩ := offer_abs habs a (by omega : 2 * q.nodes.length ≤ fuel)
    obtain ⟨q', h4, h5, h6⟩ := ih q1 _ h2 (by rw [h3]; omega)
    refine ⟨q', by simp [offerAll, h1, h4], by simpa using h5, ?_⟩
    rw [h6, h3]
    simp
    omega

end JDKLinkedQueue

open JDKLinkedQueue JdkLinkedQueueIter in
/-- Offer the values `vs` to a fresh queue, remove those satisfying `P` in one pass of an
iterator, take the size, and traverse again: the first pass returns `vs`, `Size` returns
the number of values not satisfying `P`, saturated at `math.MaxInt32`, and a later pass,
before or after `Size`, returns exactly these values. -/
theorem offer_remove_size_pass {α : Type} (vs : List α) (P : α → Bool) (fuel : Nat)
    (hf : 2 * vs.length + 4 ≤ fuel) :
    ∃ q0 q1 q2 q3 q4, offerAll fuel (JDKLinkedQueue.new : JDKLinkedQueue α) vs = some q0 ∧
      removePass P fuel q0 = some (vs.map some, q1) ∧
      Size fuel q1 = some (min ((vs.filter fun a => !P a).length : Int) maxInt32, q2) ∧
      removePass (fun _ => false) fuel q2 = some ((vs.filter fun a => !P a).map some, q3) ∧
      removePass (fun _ => false) fuel q1 = some ((vs.filter fun a => !P a).map some, q4) := by
  obtain ⟨q0, h0, a0, l0⟩ := offerAll_abs fuel vs JDKLinkedQueue.new [] new_abs
    (by simp [JDKLinkedQueue.new]; omega)
  simp only [List.nil_append] at a0
  have l0' : q0.nodes.length = vs.length + 1 := by rw [l0]; simp [JDKLinkedQueue.new]; omega
  obtain ⟨q1, h1, a1, l1⟩ := removePass_abs P a0 (by omega : q0.nodes.length < fuel)
  obtain ⟨q2, h2, a2, l2⟩ := size_abs a1 (by omega : q1.nodes.length + 1 < fuel)
  obtain ⟨q3, h3, -, -⟩ := removePass_abs (fun _ => false) a2 (by omega : q2.nodes.length < fuel)
  obtain ⟨q4, h4, -, -⟩ := removePass_abs (fun _ => false) a1 (by omega : q1.nodes.length < fuel)
  exact ⟨q0, q1, q2, q3, q4, h0, h1, h2, h3, h4⟩

end Garr

namespace Garr

open JDKLinkedQueue JdkLinkedQueueIter

/-- C4 (as amended): for every list `vs` of non-nil values offered in order to a fresh
queue and every predicate `P`, with enough fuel, the pass of an iterator that calls
`Remove` after each returned value satisfying `P` returns all of `vs` in insertion order;
afterwards `Size()` is the number of values not satisfying `P`, saturated at
`math.MaxInt32`, and a fresh iterator, before or after `Size()`, returns exactly the values
not satisfying `P`, in insertion order. -/
theorem iterator_remove_pass {α : Type} (vs : List α) (P : α → Bool) (fuel : Nat)
    (hf : 2 * vs.length + 4 ≤ fuel) :
    ∃ q0 q1 q2 q3 q4, offerAll fuel (JDKLinkedQueue.new : JDKLinkedQueue α) vs = some q0 ∧
      removePass P fuel q0 = some (vs.map some, q1) ∧
      Size fuel q1 = some (min ((vs.filter fun a => !P a).length : Int) maxInt32, q2) ∧
      removePass (fun _ => false) fuel q2 = some ((vs.filter fun a => !P a).map some, q3) ∧
      removePass (fun _ => false) fuel q1 = some ((vs.filter fun a => !P a).map some, q4) :=
  offer_remove_size_pass vs P fuel hf

/-- Witness of C4 (as amended): the values 0..99 and `P = (< 50)`; `Size()` is 50 and the
second pass sees 50..99. -/
theorem iterator_remove_pass_witness :
    2 * (List.range 100).length + 4 ≤ 204 ∧
    ∃ q0 q1 q2 q3 q4, offerAll 204 (JDKLinkedQueue.new : JDKLinkedQueue Nat) (List.range 100) =
        some q0 ∧
      removePass (fun v => decide (v < 50)) 204 q0 = some ((List.range 100).map some, q1) ∧
      Size 204 q1 = some (50, q2) ∧
      removePass (fun _ => false) 204 q2 = some ((List.range' 50 50).map some, q3) ∧
      removePass (fun _ => false) 204 q1 = some ((List.range' 50 50).map some, q4) := by
  have e : ((List.range 100).filter fun a => !decide (a < 50)) = List.range' 50 50 := by decide
  have h := iterator_remove_pass (List.range 100) (fun v => decide (v < 50)) 204 (by decide)
  rw [e] at h
  exact ⟨by decide, h⟩

/-- With more than `math.MaxInt32` values kept by the pass, `Size()` is not their number. -/
theorem pass_size_ne (n fuel : Nat) (hf : 2 * n + 4 ≤ fuel) (hn : maxInt32 < (n : Int)) :
    ¬ ∃ q0 q1 q2, offerAll fuel (JDKLinkedQueue.new : JDKLinkedQueue Nat) (List.replicate n 0) =
        some q0 ∧
      removePass (fun _ => false) fuel q0 = some ((List.replicate n 0).map some, q1) ∧
      Size fuel q1 =
        some ((((List.replicate n 0).filter fun a => !(fun _ => false) a).length : Int), q2) := by
  rintro ⟨q0, q1, q2, h0, h1, h2⟩
  obtain ⟨p0, p1, p2, -, -, g0, g1, g2, -, -⟩ :=
    offer_remove_size_pass (List.replicate n 0) (fun _ => false) fuel (by simpa using hf)
  rw [g0] at h0
  obtain rfl := Option.some.inj h0
  rw [g1] at h1
  obtain rfl := (Prod.mk.inj (Option.some.inj h1)).2
  rw [g2] at h2
  have h3 := (Prod.mk.inj (Option.some.inj h2)).1
  simp only [Bool.not_false, List.filter_true, List.length_replicate] at h3
  omega

/-- Counterexample to C4 as stated: with `2^31` values, none of them removed, `Size()`
after the pass is not the number `2^31` of values not satisfying `P`. -/
theorem iterator_pass_size_saturates :
    ¬ ∃ q0 q1 q2, offerAll (2 ^ 33) (JDKLinkedQueue.new : JDKLinkedQueue Nat)
        (List.replicate (2 ^ 31) 0) = some q0 ∧
      removePass (fun _ => false) (2 ^ 33) q0 = some ((List.replicate (2 ^ 31) 0).map some, q1) ∧
      Size (2 ^ 33) q1 =
        some ((((List.replicate (2 ^ 31) 0).filter fun a => !(fun _ => false) a).length : Int),
          q2) :=
  pass_size_ne (2 ^ 31) (2 ^ 33) (by norm_num) (by norm_num [maxInt32])

end Garr

namespace Garr

namespace SlidingWindowCounter

open JDKLinkedQueue JdkLinkedQueueIter

/-! ## The sliding-window counter used by one goroutine -/

/-- The loop of `trimAndSum` from an iterator that has yet to return `rest`: the buckets
older than `oldLimit` are removed and the counts of the others are added up. -/
theorem trimLoop_spec (oldLimit : Int) (fuel : Nat) :
    ∀ (rest : List Bucket) (n : Nat) (q : JDKLinkedQueue Bucket) (it : JdkLinkedQueueIter Bucket)
      (kept : List Bucket) (success failure : Int),
      IterAt q it kept rest → rest.length < n → q.nodes.length < fuel →
      ∃ q', trimLoop oldLimit fuel n q it success failure =
          some (sumWrap success ((rest.filter fun b => !decide (b.timestamp < oldLimit)).map
                  Bucket.success),
                sumWrap failure ((rest.filter fun b => !decide (b.timestamp < oldLimit)).map
                  Bucket.failure), q') ∧
        Abs q' (kept ++ rest.filter fun b => !decide (b.timestamp < oldLimit)) ∧
        q'.nodes.length = q.nodes.length := by
  intro rest
  induction rest with
  | nil =>
    intro n q it kept success failure h hn hf
    obtain ⟨k, rfl⟩ : ∃ k, n = k + 1 := ⟨n - 1, by simp at hn; omega⟩
    have hhas := iterAt_hasNext h
    refine ⟨q, ?_, by simpa using iterAt_abs h, rfl⟩
    rw [trimLoop]
    simp [hhas, sumWrap]
  | cons v rest ih =>
    intro n q it kept success failure h hn hf
    obtain ⟨k, rfl⟩ : ∃ k, n = k + 1 := ⟨n - 1, by simp at hn; omega⟩
    simp only [List.length_cons] at hn
    have hhas := iterAt_hasNext h
    obtain ⟨it', q', hnext, hlen, hkeep, hrem, hlen2⟩ := next_spec h hf
    rw [trimLoop]
    simp only [hhas, hnext, List.isEmpty_cons, Bool.not_false, if_true]
    by_cases hP : v.timestamp < oldLimit
    · obtain ⟨q'', h1, h2, h3⟩ := ih k _ _ kept success failure hrem (by omega)
        (by rw [hlen2]; exact hf)
      refine ⟨q'', ?_, ?_, by rw [h3, hlen2]⟩
      · simp only [hP, if_true]
        rw [h1]
        simp [List.filter_cons, hP]
      · simpa [List.filter_cons, hP] using h2
    · obtain ⟨q'', h1, h2, h3⟩ := ih k q' it' (kept ++ [v]) (wrap64 (success + v.success))
        (wrap64 (failure + v.failure)) hkeep (by omega) (by rw [hlen]; exact hf)
      refine ⟨q'', ?_, ?_, by rw [h3, hlen]⟩
      · simp only [hP, if_false]
        rw [h1]
        simp [List.filter_cons, hP, sumWrap]
      · simpa [List.filter_cons, hP] using h2

/-- `trimAndSum(t)` on a reservoir representing `l` returns the counts of the buckets not
older than `t - window` and leaves a reservoir representing these buckets. -/
theorem trimAndSum_spec {s : SlidingWindowCounter} {l : List Bucket}
    (habs : Abs s.reservoir l) (t : Int) {fuel : Nat} (hf : s.reservoir.nodes.length < fuel) :
    ∃ q', trimAndSum fuel s t =
        some (NewEventCount
          (sumWrap 0 ((l.filter fun b =>
            !decide (b.timestamp < wrap64 (t - s.slidingWindowNanos))).map Bucket.success))
          (sumWrap 0 ((l.filter fun b =>
            !decide (b.timestamp < wrap64 (t - s.slidingWindowNanos))).map Bucket.failure)),
          q') ∧
      Abs q' (l.filter fun b => !decide (b.timestamp < wrap64 (t - s.slidingWindowNanos))) ∧
      q'.nodes.length = s.reservoir.nodes.length := by
  have hl : l.length < fuel := by
    obtain ⟨-, c, hc, hlv⟩ := habs
    have h1 := liveVals_length_le s.reservoir.nodes c
    have h2 := hc.length_le
    rw [hlv] at h1
    omega
  obtain ⟨it, q1, hnew, hat, hlen⟩ := new_spec habs hf
  obtain ⟨q', h1, h2, h3⟩ := trimLoop_spec (wrap64 (t - s.slidingWindowNanos)) fuel l fuel q1 it
    [] 0 0 hat hl (by rw [hlen]; exact hf)
  refine ⟨q', ?_, by simpa using h2, by rw [h3, hlen]⟩
  simp only [trimAndSum, hnew]
  rw [h1]
  rfl

theorem bucket_add_spec (fuel : Nat) {b : Bucket} (rt : Runtime) (succ : Bool)
    (hs : ∃ S, b.s.Tracks S) (hf : ∃ F, b.f.Tracks F) :
    ∃ b' rt', b.add fuel rt succ = some (b', rt') ∧ b'.timestamp = b.timestamp ∧
      (∃ S, b'.s.Tracks S) ∧ (∃ F, b'.f.Tracks F) := by
  obtain ⟨S, hS⟩ := hs
  obtain ⟨F, hF⟩ := hf
  cases succ with
  | true =>
    obtain ⟨a', rt', h1, h2⟩ := tracks_add fuel rt 1 hS
    exact ⟨{ b with s := a' }, rt', by simp [Bucket.add, h1], rfl, ⟨_, h2⟩, ⟨_, hF⟩⟩
  | false =>
    obtain ⟨a', rt', h1, h2⟩ := tracks_add fuel rt 1 hF
    exact ⟨{ b with f := a' }, rt', by simp [Bucket.add, h1], rfl, ⟨_, hS⟩, ⟨_, h2⟩⟩

theorem newBucket_tracks (t : Int) :
    (∃ S, (newBucket t).s.Tracks S) ∧ (∃ F, (newBucket t).f.Tracks F) :=
  ⟨⟨0, tracks_new JDKAdderType⟩, ⟨0, tracks_new JDKAdderType⟩⟩

/-- One event on a counter used by one goroutine: the call returns; it returns a count
exactly when the tick is neither before the current bucket nor before the end of its
update interval (computed in `int64`); `Count()` afterwards is the returned count, or is
unchanged when nil is returned. -/
theorem onEvent_spec {s : SlidingWindowCounter} (hinv : Inv s) (rt : Runtime) (tk : Ticker)
    (succ : Bool) {fuel : Nat} (hf : 2 * s.reservoir.nodes.length + 4 ≤ fuel) :
    ∃ r s' rt', onEvent fuel s rt tk succ = some (r, s', rt', tk.Tick.2) ∧ Inv s' ∧
      s'.reservoir.nodes.length ≤ s.reservoir.nodes.length + 1 ∧
      s'.slidingWindowNanos = s.slidingWindowNanos ∧
      s'.updateIntervalNanos = s.updateIntervalNanos ∧
      (r.isSome = true ↔ (s.cur.timestamp ≤ tk.Tick.1 ∧
        wrap64 (s.cur.timestamp + s.updateIntervalNanos) ≤ tk.Tick.1)) ∧
      (r = none → s'.Count = s.Count) ∧ (∀ c, r = some c → s'.Count = c) := by
  obtain ⟨⟨l, habs⟩, hS, hF, hts⟩ := hinv
  by_cases h1 : tk.Tick.1 < s.cur.timestamp
  · obtain ⟨b, rt', hadd, -, -, -⟩ :=
      bucket_add_spec fuel rt succ (newBucket_tracks tk.Tick.1).1 (newBucket_tracks tk.Tick.1).2
    obtain ⟨q', ho, ha, hl⟩ := offer_abs habs b (by omega : 2 * s.reservoir.nodes.length ≤ fuel)
    refine ⟨none, { s with reservoir := q' }, rt', ?_, ⟨⟨_, ha⟩, hS, hF, hts⟩, by simp [hl], rfl, rfl,
      ?_, fun _ => rfl, by simp⟩
    · simp [onEvent, h1, hadd, ho]
    · simp
      intro h
      omega
  · by_cases h2 : tk.Tick.1 < wrap64 (s.cur.timestamp + s.updateIntervalNanos)
    · obtain ⟨b, rt', hadd, hbt, hbS, hbF⟩ := bucket_add_spec fuel rt succ hS hF
      refine ⟨none, { s with cur := b }, rt', ?_, ⟨⟨_, habs⟩, hbS, hbF, by rw [hbt]; exact hts⟩,
        by simp, rfl, rfl,
        ?_, fun _ => rfl, by simp⟩
      · simp [onEvent, h1, h2, hadd]
      · simp
        intro _
        omega
    · obtain ⟨b, rt', hadd, hbt, hbS, hbF⟩ :=
        bucket_add_spec fuel rt succ (newBucket_tracks tk.Tick.1).1 (newBucket_tracks tk.Tick.1).2
      have hbi : IsInt64 b.timestamp := by rw [hbt]; exact wrap64_isInt64 _
      obtain ⟨q1, ho, ha, hl⟩ := offer_abs habs s.cur
        (by omega : 2 * s.reservoir.nodes.length ≤ fuel)
      obtain ⟨e, q2, l2, ht, ha2, hl2⟩ : ∃ e q2 l2,
          trimAndSum fuel { s with cur := b, reservoir := q1 } tk.Tick.1 = some (e, q2) ∧
          Abs q2 l2 ∧ q2.nodes.length = q1.nodes.length := by
        obtain ⟨q2, ht, ha2, hl2⟩ := trimAndSum_spec (s := { s with cur := b, reservoir := q1 })
          ha tk.Tick.1 (by show q1.nodes.length < fuel; omega)
        exact ⟨_, q2, _, ht, ha2, hl2⟩
      refine ⟨some e, { s with cur := b, reservoir := q2, snapshot := e }, rt', ?_,
        ⟨⟨_, ha2⟩, hbS, hbF, hbi⟩, ?_, rfl, rfl, ?_, by simp, ?_⟩
      · simp only [onEvent, h1, h2, if_false, hadd, cas, if_true, ho]
        rw [ht]
      · show q2.nodes.length ≤ _
        rw [hl2]
        show q1.nodes.length ≤ _
        omega
      · simp
        omega
      · intro c hc
        cases hc
        rfl

theorem new_inv (tk : Ticker) (window ui : Int) :
    Inv (NewSlidingWindowCounter tk window ui).1 :=
  ⟨⟨[], new_abs⟩, (newBucket_tracks _).1, (newBucket_tracks _).2, wrap64_isInt64 _⟩

/-- A sequence of events on a counter used by one goroutine runs to completion, keeps the
invariant, and leaves `Count()` unchanged as long as every event returns nil. -/
theorem runEvents_spec (fuel : Nat) (evs : List Bool) :
    ∀ (s : SlidingWindowCounter) (rt : Runtime) (tk : Ticker), Inv s →
      2 * (s.reservoir.nodes.length + evs.length) + 4 ≤ fuel →
      ∃ rs s' rt' tk', runEvents fuel s rt tk evs = some (rs, s', rt', tk') ∧ Inv s' ∧
        s'.reservoir.nodes.length ≤ s.reservoir.nodes.length + evs.length ∧
        s'.slidingWindowNanos = s.slidingWindowNanos ∧
        s'.updateIntervalNanos = s.updateIntervalNanos ∧
        ((∀ r ∈ rs, r = none) → s'.Count = s.Count) := by
  induction evs with
  | nil =>
    intro s rt tk hinv _
    exact ⟨[], s, rt, tk, rfl, hinv, by simp, rfl, rfl, fun _ => rfl⟩
  | cons ev evs ih =>
    intro s rt tk hinv hf
    simp only [List.length_cons] at hf
    obtain ⟨r, s1, rt1, h1, hinv1, hl1, hw1, hu1, -, hn1, -⟩ :=
      onEvent_spec hinv rt tk ev (by omega : 2 * s.reservoir.nodes.length + 4 ≤ fuel)
    obtain ⟨rs, s2, rt2, tk2, h2, hinv2, hl2, hw2, hu2, hn2⟩ :=
      ih s1 rt1 tk.Tick.2 hinv1 (by omega)
    refine ⟨r :: rs, s2, rt2, tk2, by simp [runEvents, h1, h2], hinv2, ?_, by rw [hw2, hw1],
      by rw [hu2, hu1], ?_⟩
    · simp only [List.length_cons]
      omega
    · intro hall
      rw [hn2 fun x hx => hall x (List.mem_cons_of_mem _ hx), hn1 (hall r (by simp))]

end SlidingWindowCounter

/-- C5 (as amended): on a `SlidingWindowCounter` built by `NewSlidingWindowCounter` and used
by one goroutine, with enough fuel, every `OnSuccess`/`OnFailure` event returns; the event
observed at tick `now` returns a non-nil count exactly when `now >= current.timestamp` and
`now >= current.timestamp + updateInterval`, the sum being taken in `int64`; when
`updateInterval >= 0` and the sum does not overflow, that is exactly when
`now >= current.timestamp + updateInterval`. When nil is returned `Count()` is unchanged,
when a count `c` is returned `Count()` is `c` afterwards, and `Count()` is `EventCountZero`
as long as no event has returned a count. -/
theorem slidingWindowCounter_event (tk : Ticker) (window ui : Int) (rt : Runtime)
    (evs : List Bool) (succ : Bool) (fuel : Nat) (hf : 2 * evs.length + 6 ≤ fuel) :
    ∃ rs s rt1 tk1,
      SlidingWindowCounter.runEvents fuel (NewSlidingWindowCounter tk window ui).1 rt
        (NewSlidingWindowCounter tk window ui).2 evs = some (rs, s, rt1, tk1) ∧
      ((∀ r ∈ rs, r = none) → s.Count = EventCountZero) ∧
      ∃ r s' rt2, SlidingWindowCounter.onEvent fuel s rt1 tk1 succ = some (r, s', rt2, tk1.Tick.2) ∧
        (r.isSome = true ↔ (s.cur.timestamp ≤ tk1.Tick.1 ∧
          wrap64 (s.cur.timestamp + ui) ≤ tk1.Tick.1)) ∧
        (0 ≤ ui → s.cur.timestamp + ui < 2 ^ 63 →
          (r.isSome = true ↔ s.cur.timestamp + ui ≤ tk1.Tick.1)) ∧
        (r = none → s'.Count = s.Count) ∧ (∀ c, r = some c → s'.Count = c) := by
  obtain ⟨rs, s, rt1, tk1, h1, hinv, hl, -, hu, hn⟩ :=
    SlidingWindowCounter.runEvents_spec fuel evs _ rt _ (SlidingWindowCounter.new_inv tk window ui)
      (by simp [NewSlidingWindowCounter, JDKLinkedQueue.new]; omega)
  have hl' : s.reservoir.nodes.length ≤ 1 + evs.length := by
    simpa [NewSlidingWindowCounter, JDKLinkedQueue.new] using hl
  have hu' : s.updateIntervalNanos = ui := by rw [hu]; rfl
  obtain ⟨r, s', rt2, h2, -, -, -, -, hiff, hnone, hsome⟩ :=
    SlidingWindowCounter.onEvent_spec hinv rt1 tk1 succ
      (by omega : 2 * s.reservoir.nodes.length + 4 ≤ fuel)
  rw [hu'] at hiff
  refine ⟨rs, s, rt1, tk1, h1, fun hall => by rw [hn hall]; rfl, r, s', rt2, h2, hiff, ?_,
    hnone, hsome⟩
  intro h0 hov
  have hts := hinv.2.2.2
  have hw : wrap64 (s.cur.timestamp + ui) = s.cur.timestamp + ui :=
    wrap64_of_isInt64 ⟨by have := hts.1; omega, hov⟩
  rw [hiff, hw]
  constructor
  · exact fun h => h.2
  · exact fun h => ⟨by omega, h⟩

/-- Witness of C5 (as amended): a counter created at tick 10 with window 100 and update
interval 5, two events at ticks 11 and 12, then an event. -/
theorem slidingWindowCounter_event_witness :
    2 * [true, false].length + 6 ≤ 10 ∧
    ∃ rs s rt1 tk1,
      SlidingWindowCounter.runEvents 10 (NewSlidingWindowCounter (tickerOf [10, 11, 12, 15]) 100 5).1
        exampleRuntime (NewSlidingWindowCounter (tickerOf [10, 11, 12, 15]) 100 5).2 [true, false] =
          some (rs, s, rt1, tk1) ∧
      ((∀ r ∈ rs, r = none) → s.Count = EventCountZero) ∧
      ∃ r s' rt2, SlidingWindowCounter.onEvent 10 s rt1 tk1 false = some (r, s', rt2, tk1.Tick.2) ∧
        (r.isSome = true ↔ (s.cur.timestamp ≤ tk1.Tick.1 ∧
          wrap64 (s.cur.timestamp + 5) ≤ tk1.Tick.1)) ∧
        (0 ≤ (5 : Int) → s.cur.timestamp + 5 < 2 ^ 63 →
          (r.isSome = true ↔ s.cur.timestamp + 5 ≤ tk1.Tick.1)) ∧
        (r = none → s'.Count = s.Count) ∧ (∀ c, r = some c → s'.Count = c) :=
  ⟨by decide,
    slidingWindowCounter_event (tickerOf [10, 11, 12, 15]) 100 5 exampleRuntime [true, false] false
      10 (by decide)⟩

/-- Counterexample to C5 as stated: a counter created at tick 10 with update interval -5;
the event observed at tick 7 returns nil although `7 >= 10 + (-5)`. -/
theorem slidingWindowCounter_nil_past_interval :
    ∃ r s' rt' tk',
      SlidingWindowCounter.OnSuccess 10 (NewSlidingWindowCounter (tickerOf [10, 7]) 100 (-5)).1
        exampleRuntime (NewSlidingWindowCounter (tickerOf [10, 7]) 100 (-5)).2 =
          some (r, s', rt', tk') ∧
      ¬ (r.isSome = true ↔
        (NewSlidingWindowCounter (tickerOf [10, 7]) 100 (-5)).1.cur.timestamp +
          (NewSlidingWindowCounter (tickerOf [10, 7]) 100 (-5)).1.updateIntervalNanos ≤
        (NewSlidingWindowCounter (tickerOf [10, 7]) 100 (-5)).2.Tick.1) :=
  ⟨none, _, _, _, rfl, by decide⟩

end Garr

namespace Garr

/-! ## Validation of the configuration -/

theorem F64.align_swap (m1 e1 m2 e2 : Int) :
    F64.align m2 e2 m1 e1 = ((F64.align m1 e1 m2 e2).2, (F64.align m1 e1 m2 e2).1) := by
  simp [F64.align, min_comm]

/-- On values other than NaN, `a <= b` fails exactly when `b < a`. -/
theorem F64.not_le_iff_lt {a b : F64} (ha : a ≠ .nan) (hb : b ≠ .nan) :
    F64.le a b = false ↔ F64.lt b a = true := by
  cases a with
  | nan => exact absurd rfl ha
  | inf n1 =>
    cases b with
    | nan => exact absurd rfl hb
    | inf n2 => cases n1 <;> cases n2 <;> simp [F64.le, F64.lt]
    | fin m e => cases n1 <;> simp [F64.le, F64.lt]
  | fin m1 e1 =>
    cases b with
    | nan => exact absurd rfl hb
    | inf n2 => cases n2 <;> simp [F64.le, F64.lt]
    | fin m2 e2 =>
      simp only [F64.le, F64.lt, F64.align_swap m1 e1 m2 e2]
      simp

/-- `Validate` returns nil exactly when neither comparison of the threshold test holds and
the five duration tests pass. -/
theorem validate_eq_none_iff (c : CircuitBreakerConfig) :
    c.Validate = none ↔
      (F64.le c.failureRateThreshold (F64.fin 0 0) = false ∧
        F64.lt (F64.fin 1 0) c.failureRateThreshold = false) ∧
      0 < c.trialRequestInterval ∧ 0 < c.circuitOpenWindow ∧ 0 < c.counterSlidingWindow ∧
      0 < c.counterUpdateInterval ∧ c.counterUpdateInterval < c.counterSlidingWindow := by
  unfold CircuitBreakerConfig.Validate
  by_cases h0 : F64.le c.failureRateThreshold (F64.fin 0 0) = true ∨
      F64.lt (F64.fin 1 0) c.failureRateThreshold = true
  · rw [if_pos h0]
    rcases h0 with h0 | h0 <;> simp [h0]
  · rw [if_neg h0]
    have h0' : F64.le c.failureRateThreshold (F64.fin 0 0) = false ∧
        F64.lt (F64.fin 1 0) c.failureRateThreshold = false := by
      simpa using h0
    simp only [h0', and_self, true_and]
    split_ifs <;> simp <;> omega

/-- For a threshold other than NaN, `Validate` returns nil exactly when
`0 < failureRateThreshold <= 1`, the four durations are positive and the sliding window is
longer than the update interval. -/
theorem validate_eq_none_iff_of_ne_nan (c : CircuitBreakerConfig)
    (h : c.failureRateThreshold ≠ .nan) :
    c.Validate = none ↔
      (F64.lt (F64.fin 0 0) c.failureRateThreshold = true ∧
        F64.le c.failureRateThreshold (F64.fin 1 0) = true) ∧
      0 < c.trialRequestInterval ∧ 0 < c.circuitOpenWindow ∧ 0 < c.counterSlidingWindow ∧
      0 < c.counterUpdateInterval ∧ c.counterUpdateInterval < c.counterSlidingWindow := by
  rw [validate_eq_none_iff, F64.not_le_iff_lt h (by simp)]
  have h2 : F64.lt (F64.fin 1 0) c.failureRateThreshold = false ↔
      F64.le c.failureRateThreshold (F64.fin 1 0) = true := by
    have := F64.not_le_iff_lt h (show F64.fin 1 0 ≠ .nan by simp)
    cases h1 : F64.le c.failureRateThreshold (F64.fin 1 0) <;>
      cases h3 : F64.lt (F64.fin 1 0) c.failureRateThreshold <;> simp_all
  rw [h2]

/-- `NewNonBlockingCircuitBreaker` returns an error and no breaker whenever the ticker or
the configuration is nil or `Validate` fails. -/
theorem newBreaker_error (ticker : Option Ticker) (config : Option CircuitBreakerConfig)
    (h : ticker = none ∨ config = none ∨ ∃ c, config = some c ∧ c.Validate ≠ none) :
    (NewNonBlockingCircuitBreaker ticker config).1 = none ∧
      (NewNonBlockingCircuitBreaker ticker config).2 ≠ none := by
  cases ticker with
  | none => simp [NewNonBlockingCircuitBreaker]
  | some tk =>
    cases config with
    | none => simp [NewNonBlockingCircuitBreaker]
    | some c =>
      rcases h with h | h | ⟨c', hc, hv⟩
      · simp at h
      · simp at h
      · obtain rfl := Option.some.inj hc
        cases hval : c.Validate with
        | none => exact absurd hval hv
        | some err => simp [NewNonBlockingCircuitBreaker, hval]

/-- C6, at the failing input: with `failureRateThreshold = NaN` and valid durations,
`Validate` returns nil although `0 < failureRateThreshold` does not hold, and
`NewNonBlockingCircuitBreaker` builds a breaker without error. -/
theorem validate_accepts_nan :
    (CircuitBreakerConfig.Validate
      { failureRateThreshold := .nan, minimumRequestThreshold := 10, trialRequestInterval := 1,
        circuitOpenWindow := 1, counterSlidingWindow := 2, counterUpdateInterval := 1,
        listeners := [] } = none) ∧
    F64.lt (F64.fin 0 0) F64.nan = false ∧
    (NewNonBlockingCircuitBreaker (some (tickerOf []))
      (some { failureRateThreshold := .nan, minimumRequestThreshold := 10,
              trialRequestInterval := 1, circuitOpenWindow := 1, counterSlidingWindow := 2,
              counterUpdateInterval := 1, listeners := [] })).2 = none ∧
    (NewNonBlockingCircuitBreaker (some (tickerOf []))
      (some { failureRateThreshold := .nan, minimumRequestThreshold := 10,
              trialRequestInterval := 1, circuitOpenWindow := 1, counterSlidingWindow := 2,
              counterUpdateInterval := 1, listeners := [] })).1.isSome = true := by
  refine ⟨by decide, by decide, by decide, by decide⟩

end Garr

namespace Garr

namespace NonBlockingCircuitBreaker

/-! ## `CanRequest` on a tripped breaker -/

theorem notifyRequestRejected_s (nb : NonBlockingCircuitBreaker) :
    nb.notifyRequestRejected.s = nb.s ∧ nb.notifyRequestRejected.config = nb.config :=
  ⟨rfl, rfl⟩

/-- A tripped breaker whose deadline is after the observed tick refuses the request and
keeps its state record; the call reads the ticker once. -/
theorem canRequest_refuse {nb : NonBlockingCircuitBreaker} (tk : Ticker)
    (hcs : nb.s.cs ≠ .Closed) (hpos : 0 < nb.s.timedOutTimeNanos)
    (hlt : tk.Tick.1 < nb.s.timeout) :
    nb.CanRequest tk = (false, nb.notifyRequestRejected, tk.Tick.2) := by
  have h1 : nb.s.isClosed = false := by simp [NonBlockingCircuitBreakerState.isClosed, hcs]
  have h2 : nb.s.isHalfOpen = true ∨ nb.s.isOpen = true := by
    cases h : nb.s.cs <;>
      simp_all [NonBlockingCircuitBreakerState.isHalfOpen, NonBlockingCircuitBreakerState.isOpen]
  have h3 : ¬ nb.s.timeout ≤ tk.Tick.1 := by omega
  simp [CanRequest, h1, h2, NonBlockingCircuitBreakerState.checkTimeout, hpos, h3]

/-- A tripped breaker whose deadline is not after the observed tick lets the request pass
and moves to the HalfOpen state built at the next reading of the ticker. -/
theorem canRequest_accept {nb : NonBlockingCircuitBreaker} (tk : Ticker)
    (hcs : nb.s.cs ≠ .Closed) (hpos : 0 < nb.s.timedOutTimeNanos)
    (hle : nb.s.timeout ≤ tk.Tick.1) :
    (nb.CanRequest tk).1 = true ∧ (nb.CanRequest tk).2.2 = tk.Tick.2.Tick.2 ∧
      (nb.CanRequest tk).2.1.config = nb.config ∧
      (nb.CanRequest tk).2.1.IsHalfOpenAt tk.Tick.2.Tick.1 := by
  have h1 : nb.s.isClosed = false := by simp [NonBlockingCircuitBreakerState.isClosed, hcs]
  have h2 : nb.s.isHalfOpen = true ∨ nb.s.isOpen = true := by
    cases h : nb.s.cs <;>
      simp_all [NonBlockingCircuitBreakerState.isHalfOpen, NonBlockingCircuitBreakerState.isOpen]
  simp [CanRequest, h1, h2, NonBlockingCircuitBreakerState.checkTimeout, hpos, hle,
    newHalfOpenState, newState, casState, notifyStateChanged, IsHalfOpenAt]

theorem ticker_tick_pos (tk : Ticker) : tk.Tick.2 = { tk with pos := tk.pos + 1 } := rfl

/-- Calls of `CanRequest` observed before the deadline of a tripped breaker are all
refused and leave the state record and the configuration as they are. -/
theorem canRequestRun_refused (n : Nat) :
    ∀ (nb : NonBlockingCircuitBreaker) (tk : Ticker), nb.s.cs ≠ .Closed →
      0 < nb.s.timedOutTimeNanos →
      (∀ i, i < n → wrap64 (tk.ticks (tk.pos + i)) < nb.s.timeout) →
      (∀ x ∈ (canRequestRun n nb tk).1, x.2 = false) ∧ (canRequestRun n nb tk).1.length = n ∧
        (canRequestRun n nb tk).2.1.s = nb.s ∧ (canRequestRun n nb tk).2.1.config = nb.config ∧
        (canRequestRun n nb tk).2.2 = { tk with pos := tk.pos + n } := by
  induction n with
  | zero => intro nb tk _ _ _; simp [canRequestRun]
  | succ k ih =>
    intro nb tk hcs hpos hbefore
    have h0 : tk.Tick.1 < nb.s.timeout := by simpa [Ticker.Tick] using hbefore 0 (by omega)
    have hstep := canRequest_refuse tk hcs hpos h0
    have hrest := ih nb.notifyRequestRejected tk.Tick.2 hcs hpos (by
      intro i hi
      have := hbefore (i + 1) (by omega)
      simpa [Ticker.Tick, Nat.add_assoc, Nat.add_comm 1 i] using this)
    simp only [canRequestRun, hstep]
    obtain ⟨r1, r2, r3, r4, r5⟩ := hrest
    refine ⟨?_, by simp [r2], r3, r4, ?_⟩
    · intro x hx
      rcases List.mem_cons.1 hx with rfl | hx
      · rfl
      · exact r1 x hx
    · rw [r5]
      simp [Ticker.Tick, Nat.add_assoc, Nat.add_comm 1 k]

end NonBlockingCircuitBreaker

open NonBlockingCircuitBreaker
/-- C7 (as amended): for a breaker with a valid configuration that entered Open at tick
`t0`, let `d` be `t0 + circuitOpenWindow` computed in `int64` (it is the integer sum
whenever that sum is below `2^63`). Successive `CanRequest` calls observed at ticks before
`d` all return false and leave the state record, hence the Open state, unchanged; the
first call observed at a tick at or after `d` returns true and moves the breaker to
HalfOpen. -/
theorem canRequest_open_deadline (nb : NonBlockingCircuitBreaker) (t0 : Int) (tk : Ticker)
    (n : Nat) (hv : nb.config.Validate = none) (hopen : nb.IsOpenAt t0)
    (hbefore : ∀ i, i < n →
      wrap64 (tk.ticks (tk.pos + i)) < wrap64 (t0 + nb.config.circuitOpenWindow)) :
    (∀ x ∈ (canRequestRun n nb tk).1, x.2 = false) ∧ (canRequestRun n nb tk).1.length = n ∧
    (canRequestRun n nb tk).2.1.s = nb.s ∧
    (wrap64 (t0 + nb.config.circuitOpenWindow) ≤ (canRequestRun n nb tk).2.2.Tick.1 →
      ((canRequestRun n nb tk).2.1.CanRequest (canRequestRun n nb tk).2.2).1 = true ∧
      ((canRequestRun n nb tk).2.1.CanRequest (canRequestRun n nb tk).2.2).2.1.s.cs =
        .HalfOpen) ∧
    (IsInt64 t0 → t0 + nb.config.circuitOpenWindow < 2 ^ 63 →
      wrap64 (t0 + nb.config.circuitOpenWindow) = t0 + nb.config.circuitOpenWindow) := by
  obtain ⟨hcs, hto, htm⟩ := hopen
  have hcow : 0 < nb.config.circuitOpenWindow := ((validate_eq_none_iff _).1 hv).2.2.1
  have hcs' : nb.s.cs ≠ .Closed := by rw [hcs]; simp
  have hpos : 0 < nb.s.timedOutTimeNanos := by rw [hto]; exact hcow
  obtain ⟨r1, r2, r3, r4, r5⟩ := canRequestRun_refused n nb tk hcs' hpos
    (by rw [htm]; exact hbefore)
  refine ⟨r1, r2, r3, ?_, ?_⟩
  · intro hle
    have hacc := @canRequest_accept (canRequestRun n nb tk).2.1 (canRequestRun n nb tk).2.2
      (by rw [r3]; exact hcs') (by rw [r3]; exact hpos) (by rw [r3, htm]; exact hle)
    exact ⟨hacc.1, hacc.2.2.2.1⟩
  · intro hi hlt
    exact wrap64_of_isInt64 ⟨by have := hi.1; omega, hlt⟩

/-- Witness of C7 (as amended): a breaker Open since tick 2 with an open window of 5; two
calls at ticks 3 and 4 are refused, the call at tick 8 passes. -/
theorem canRequest_open_deadline_witness :
    exampleConfig.Validate = none ∧
    NonBlockingCircuitBreaker.IsOpenAt
      { config := exampleConfig,
        s := { addr := 1, cs := .Open, counter := .noOp, timeout := 7, timedOutTimeNanos := 5 },
        nextAddr := 2, log := [] } 2 ∧
    (NonBlockingCircuitBreaker.canRequestRun 2
      { config := exampleConfig,
        s := { addr := 1, cs := .Open, counter := .noOp, timeout := 7, timedOutTimeNanos := 5 },
        nextAddr := 2, log := [] } (tickerOf [3, 4, 8, 9])).1 = [(3, false), (4, false)] ∧
    (∀ x ∈ (NonBlockingCircuitBreaker.canRequestRun 2
      { config := exampleConfig,
        s := { addr := 1, cs := .Open, counter := .noOp, timeout := 7, timedOutTimeNanos := 5 },
        nextAddr := 2, log := [] } (tickerOf [3, 4, 8, 9])).1, x.2 = false) :=
  ⟨by decide, ⟨rfl, rfl, by decide⟩, by decide,
    (canRequest_open_deadline _ 2 (tickerOf [3, 4, 8, 9]) 2 (by decide) ⟨rfl, rfl, by decide⟩
      (by decide)).1⟩

/-- Counterexample to C7 as stated: a breaker that entered Open at tick `2^63 - 1` with
an open window of 5; the `CanRequest` call observed at tick `2^63 - 1`, which is before
`t0 + circuitOpenWindow`, returns true. -/
theorem canRequest_true_before_open_deadline :
    ∃ nb rt tk, afterTwoFailures lateTicker = some (nb, rt, tk) ∧
      nb.config.Validate = none ∧ nb.IsOpenAt (2 ^ 63 - 1) ∧
      tk.Tick.1 < (2 ^ 63 - 1) + nb.config.circuitOpenWindow ∧
      (nb.CanRequest tk).1 = true :=
  ⟨_, _, _, rfl, by decide, ⟨rfl, rfl, by decide⟩, by decide, by decide⟩

end Garr

namespace Garr

open NonBlockingCircuitBreaker
/-- C9: in HalfOpen state, `OnSuccess` moves the breaker to Closed with a fresh
sliding-window counter, whose `Count()` is the zero `EventCount`, and `OnFailure` moves it
to the Open state built at the current tick: its deadline is that tick plus
`circuitOpenWindow`, computed in `int64`. -/
theorem halfOpen_onSuccess_onFailure (nb : NonBlockingCircuitBreaker) (rt : Runtime)
    (tk : Ticker) (fuel : Nat) (h : nb.s.cs = .HalfOpen) :
    (∃ nb', nb.OnSuccess fuel rt tk = some (nb', rt, tk.Tick.2.Tick.2) ∧
      nb'.config = nb.config ∧ nb'.s.cs = .Closed ∧
      nb'.s.counter = .sliding (NewSlidingWindowCounter tk nb.config.counterSlidingWindow
        nb.config.counterUpdateInterval).1 ∧
      nb'.s.counter.Count = EventCountZero) ∧
    (∃ nb', nb.OnFailure fuel rt tk = some (nb', rt, tk.Tick.2) ∧ nb'.config = nb.config ∧
      nb'.s.cs = .Open ∧ nb'.s.timeout = wrap64 (tk.Tick.1 + nb.config.circuitOpenWindow) ∧
      nb'.IsOpenAt tk.Tick.1) := by
  have h1 : nb.s.isClosed = false := by simp [NonBlockingCircuitBreakerState.isClosed, h]
  have h2 : nb.s.isHalfOpen = true := by simp [NonBlockingCircuitBreakerState.isHalfOpen, h]
  constructor
  · refine ⟨({ (nb.newClosedState tk).2.1 with s := (nb.newClosedState tk).1 } :
      NonBlockingCircuitBreaker).notifyStateChanged .Closed, ?_, ?_, ?_, ?_, ?_⟩
    · simp only [OnSuccess, h1, h2, newClosedState, newState, casState, if_true,
        Bool.false_eq_true, if_false]
      rfl
    · rfl
    · rfl
    · rfl
    · rfl
  · refine ⟨({ (nb.newOpenState tk).2.1 with s := (nb.newOpenState tk).1 } :
      NonBlockingCircuitBreaker).notifyStateChanged .Open, ?_, ?_, ?_, ?_, ?_⟩
    · simp only [OnFailure, h1, h2, newOpenState, newState, casState, if_true,
        Bool.false_eq_true, if_false]
    · rfl
    · rfl
    · rfl
    · exact ⟨rfl, rfl, rfl⟩

/-- Witness of C9: a breaker in HalfOpen state at tick 20. -/
theorem halfOpen_onSuccess_onFailure_witness :
    (({ config := exampleConfig,
        s := { addr := 2, cs := .HalfOpen, counter := .noOp, timeout := 13,
               timedOutTimeNanos := 5 },
        nextAddr := 3, log := [] } : NonBlockingCircuitBreaker).s.cs = .HalfOpen) ∧
    (∃ nb', NonBlockingCircuitBreaker.OnFailure 0
        { config := exampleConfig,
          s := { addr := 2, cs := .HalfOpen, counter := .noOp, timeout := 13,
                 timedOutTimeNanos := 5 },
          nextAddr := 3, log := [] } exampleRuntime (tickerOf [20, 21]) =
          some (nb', exampleRuntime, (tickerOf [20, 21]).Tick.2) ∧
      nb'.config = exampleConfig ∧ nb'.s.cs = .Open ∧ nb'.s.timeout = wrap64 (20 + 5) ∧
      nb'.IsOpenAt 20) :=
  ⟨rfl, (halfOpen_onSuccess_onFailure _ exampleRuntime (tickerOf [20, 21]) 0 rfl).2⟩

namespace NonBlockingCircuitBreaker

/-! ## One trial per interval -/

/-- One `CanRequest` call on a tripped breaker: either it is refused, before the deadline,
and the state record is kept, or it passes, at or after the deadline, and the new state is
the HalfOpen state built at the next reading of the ticker. -/
theorem canRequest_step {nb : NonBlockingCircuitBreaker} (tk : Ticker)
    (hcs : nb.s.cs ≠ .Closed) (hpos : 0 < nb.s.timedOutTimeNanos)
    (htri : 0 < nb.config.trialRequestInterval) :
    (nb.CanRequest tk).2.1.config = nb.config ∧ (nb.CanRequest tk).2.1.s.cs ≠ .Closed ∧
      0 < (nb.CanRequest tk).2.1.s.timedOutTimeNanos ∧
      (nb.CanRequest tk).2.2.ticks = tk.ticks ∧
      (((nb.CanRequest tk).1 = false ∧ (nb.CanRequest tk).2.1.s = nb.s ∧
          tk.Tick.1 < nb.s.timeout) ∨
        ((nb.CanRequest tk).1 = true ∧ nb.s.timeout ≤ tk.Tick.1 ∧
          (nb.CanRequest tk).2.1.s.timeout =
            wrap64 (tk.Tick.2.Tick.1 + nb.config.trialRequestInterval))) := by
  by_cases hlt : tk.Tick.1 < nb.s.timeout
  · rw [canRequest_refuse tk hcs hpos hlt]
    exact ⟨rfl, hcs, hpos, rfl, Or.inl ⟨rfl, rfl, hlt⟩⟩
  · have hle : nb.s.timeout ≤ tk.Tick.1 := by omega
    obtain ⟨h1, h2, h3, h4, h5, h6⟩ := canRequest_accept tk hcs hpos hle
    refine ⟨h3, by rw [h4]; simp, by rw [h5, h3]; exact htri, by rw [h2]; rfl, Or.inr ⟨h1, hle, ?_⟩⟩
    rw [h6, h3]

/-- With a monotonic ticker and trial deadlines that do not overflow, every `CanRequest`
call that passes on a tripped breaker is observed at or after the deadline the breaker had
before the calls. -/
theorem canRequestRun_after_deadline (n : Nat) :
    ∀ (nb : NonBlockingCircuitBreaker) (tk : Ticker), nb.s.cs ≠ .Closed →
      0 < nb.s.timedOutTimeNanos → 0 < nb.config.trialRequestInterval →
      (∀ i j, i ≤ j → tk.ticks i ≤ tk.ticks j) → (∀ i, IsInt64 (tk.ticks i)) →
      (∀ i, tk.ticks i + nb.config.trialRequestInterval < 2 ^ 63) →
      ∀ x ∈ (canRequestRun n nb tk).1, x.2 = true → nb.s.timeout ≤ x.1 := by
  induction n with
  | zero => intro nb tk _ _ _ _ _ _ x hx; simp [canRequestRun] at hx
  | succ k ih =>
    intro nb tk hcs hpos htri hmono hrange hno x hx hxt
    obtain ⟨c1, c2, c3, c4, c5⟩ := canRequest_step tk hcs hpos htri
    have ih' := ih (nb.CanRequest tk).2.1 (nb.CanRequest tk).2.2 c2 c3 (by rw [c1]; exact htri)
      (by rw [c4]; exact hmono) (by rw [c4]; exact hrange) (by rw [c4, c1]; exact hno)
    simp only [canRequestRun] at hx
    rcases List.mem_cons.1 hx with rfl | hx
    · rcases c5 with ⟨hf, -, -⟩ | ⟨-, hle, -⟩
      · simp only at hxt
        rw [hf] at hxt
        exact absurd hxt (by simp)
      · exact hle
    · have hb := ih' x hx hxt
      rcases c5 with ⟨-, hs, -⟩ | ⟨-, hle, hto⟩
      · rw [hs] at hb
        exact hb
      · have e1 : tk.Tick.1 = tk.ticks tk.pos := wrap64_of_isInt64 (hrange _)
        have e2 : tk.Tick.2.Tick.1 = tk.ticks (tk.pos + 1) := wrap64_of_isInt64 (hrange _)
        have e3 := hmono tk.pos (tk.pos + 1) (by omega)
        have e4 := hno (tk.pos + 1)
        have e5 := (hrange (tk.pos + 1)).1
        rw [hto, e2, wrap64_of_isInt64 ⟨by omega, e4⟩] at hb
        omega

/-- With a monotonic ticker and trial deadlines that do not overflow, two `CanRequest`
calls that pass on a tripped breaker are at least `trialRequestInterval` apart. -/
theorem canRequestRun_apart (n : Nat) :
    ∀ (nb : NonBlockingCircuitBreaker) (tk : Ticker), nb.s.cs ≠ .Closed →
      0 < nb.s.timedOutTimeNanos → 0 < nb.config.trialRequestInterval →
      (∀ i j, i ≤ j → tk.ticks i ≤ tk.ticks j) → (∀ i, IsInt64 (tk.ticks i)) →
      (∀ i, tk.ticks i + nb.config.trialRequestInterval < 2 ^ 63) →
      ∀ (i j : Nat) (ti tj : Int), i < j → (canRequestRun n nb tk).1[i]? = some (ti, true) →
        (canRequestRun n nb tk).1[j]? = some (tj, true) →
        ti + nb.config.trialRequestInterval ≤ tj := by
  induction n with
  | zero => intro nb tk _ _ _ _ _ _ i j ti tj _ hi _; simp [canRequestRun] at hi
  | succ k ih =>
    intro nb tk hcs hpos htri hmono hrange hno i j ti tj hij hi hj
    obtain ⟨c1, c2, c3, c4, c5⟩ := canRequest_step tk hcs hpos htri
    have hmono' : ∀ i j, i ≤ j → (nb.CanRequest tk).2.2.ticks i ≤ (nb.CanRequest tk).2.2.ticks j := by
      rw [c4]; exact hmono
    have hrange' : ∀ i, IsInt64 ((nb.CanRequest tk).2.2.ticks i) := by rw [c4]; exact hrange
    have hno' : ∀ i, (nb.CanRequest tk).2.2.ticks i +
        (nb.CanRequest tk).2.1.config.trialRequestInterval < 2 ^ 63 := by
      rw [c4, c1]; exact hno
    have htri' : 0 < (nb.CanRequest tk).2.1.config.trialRequestInterval := by rw [c1]; exact htri
    simp only [canRequestRun] at hi hj
    obtain ⟨j', rfl⟩ : ∃ j', j = j' + 1 := ⟨j - 1, by omega⟩
    rw [List.getElem?_cons_succ] at hj
    cases i with
    | zero =>
      rw [List.getElem?_cons_zero] at hi
      obtain ⟨rfl, hres⟩ := Prod.mk.inj (Option.some.inj hi)
      rcases c5 with ⟨hf, -, -⟩ | ⟨-, hle, hto⟩
      · rw [hf] at hres
        exact absurd hres (by simp)
      · have hb := canRequestRun_after_deadline k _ _ c2 c3 htri' hmono' hrange' hno' (tj, true)
          (List.getElem?_mem hj) rfl
        have e1 : tk.Tick.1 = tk.ticks tk.pos := wrap64_of_isInt64 (hrange _)
        have e2 : tk.Tick.2.Tick.1 = tk.ticks (tk.pos + 1) := wrap64_of_isInt64 (hrange _)
        have e3 := hmono tk.pos (tk.pos + 1) (by omega)
        have e4 := hno (tk.pos + 1)
        have e5 := (hrange (tk.pos + 1)).1
        rw [hto, e2, wrap64_of_isInt64 ⟨by omega, e4⟩] at hb
        simp only at hb
        omega
    | succ i' =>
      rw [List.getElem?_cons_succ] at hi
      have := ih _ _ c2 c3 htri' hmono' hrange' hno' i' j' ti tj (by omega) hi hj
      rw [c1] at this
      exact this

end NonBlockingCircuitBreaker

open NonBlockingCircuitBreaker
/-- C10 (as amended): for a breaker with a valid configuration that entered HalfOpen at
tick `t1`, successive `CanRequest` calls observed at ticks before `t1 +
trialRequestInterval`, computed in `int64`, all return false. Hence, for a tripped breaker,
with a monotonic ticker, no intervening `OnSuccess`/`OnFailure` and ticks `t` for which
`t + trialRequestInterval` does not overflow `int64`, any two `CanRequest` calls that return
true are at least `trialRequestInterval` apart, and the breaker does not become Closed. -/
theorem canRequest_one_trial_per_interval (nb : NonBlockingCircuitBreaker) (tk : Ticker)
    (hv : nb.config.Validate = none)
    (hst : (∃ t0, nb.IsOpenAt t0) ∨ (∃ t1, nb.IsHalfOpenAt t1))
    (hmono : ∀ i j, i ≤ j → tk.ticks i ≤ tk.ticks j) (hrange : ∀ i, IsInt64 (tk.ticks i))
    (hno : ∀ i, tk.ticks i + nb.config.trialRequestInterval < 2 ^ 63) :
    (∀ t1 n, nb.IsHalfOpenAt t1 →
      (∀ i, i < n →
        wrap64 (tk.ticks (tk.pos + i)) < wrap64 (t1 + nb.config.trialRequestInterval)) →
      ∀ x ∈ (canRequestRun n nb tk).1, x.2 = false) ∧
    (∀ (n i j : Nat) (ti tj : Int), i < j → (canRequestRun n nb tk).1[i]? = some (ti, true) →
      (canRequestRun n nb tk).1[j]? = some (tj, true) →
      ti + nb.config.trialRequestInterval ≤ tj) := by
  obtain ⟨-, htri, hcow, -⟩ := (validate_eq_none_iff _).1 hv
  have hcs : nb.s.cs ≠ .Closed := by
    rcases hst with ⟨t0, h, -, -⟩ | ⟨t1, h, -, -⟩ <;> rw [h] <;> simp
  have hpos : 0 < nb.s.timedOutTimeNanos := by
    rcases hst with ⟨t0, -, h, -⟩ | ⟨t1, -, h, -⟩ <;> rw [h] <;> assumption
  refine ⟨?_, fun n => canRequestRun_apart n nb tk hcs hpos htri hmono hrange hno⟩
  intro t1 n hh hbefore
  exact (canRequestRun_refused n nb tk hcs hpos (by rw [hh.2.2]; exact hbefore)).1

/-- Witness of C10 (as amended): a breaker in HalfOpen state with trial deadline 13 and a
ticker counting from 0. -/
theorem canRequest_one_trial_per_interval_witness :
    exampleConfig.Validate = none ∧
    NonBlockingCircuitBreaker.IsHalfOpenAt
      { config := exampleConfig,
        s := { addr := 2, cs := .HalfOpen, counter := .noOp, timeout := 13,
               timedOutTimeNanos := 5 },
        nextAddr := 3, log := [] } 8 ∧
    (∀ (n i j : Nat) (ti tj : Int), i < j →
      (NonBlockingCircuitBreaker.canRequestRun n
        { config := exampleConfig,
          s := { addr := 2, cs := .HalfOpen, counter := .noOp, timeout := 13,
                 timedOutTimeNanos := 5 },
          nextAddr := 3, log := [] } countingTicker).1[i]? = some (ti, true) →
      (NonBlockingCircuitBreaker.canRequestRun n
        { config := exampleConfig,
          s := { addr := 2, cs := .HalfOpen, counter := .noOp, timeout := 13,
                 timedOutTimeNanos := 5 },
          nextAddr := 3, log := [] } countingTicker).1[j]? = some (tj, true) →
      ti + 5 ≤ tj) :=
  ⟨by decide, ⟨rfl, rfl, by decide⟩,
    (canRequest_one_trial_per_interval _ countingTicker (by decide)
      (Or.inr ⟨8, rfl, rfl, by decide⟩)
      (fun i j h => by simp only [countingTicker]; omega)
      (fun i => by simp only [countingTicker, IsInt64]; omega)
      (fun i => by simp only [countingTicker, exampleConfig]; omega)).2⟩

/-- Counterexample to C10 as stated: on a monotonic ticker that has reached `2^63 - 1`, a
breaker Open since that tick lets two successive `CanRequest` calls pass at the same tick,
the second while it is HalfOpen since that tick, although `trialRequestInterval` is 5. -/
theorem canRequest_two_trials_same_tick :
    ∃ nb rt tk, afterTwoFailures lateTicker = some (nb, rt, tk) ∧
      nb.config.Validate = none ∧ nb.IsOpenAt (2 ^ 63 - 1) ∧
      tk.ticks = lateTicker.ticks ∧
      (∀ i j, i ≤ j → lateTicker.ticks i ≤ lateTicker.ticks j) ∧
      (nb.canRequestRun 2 tk).1 = [(2 ^ 63 - 1, true), (2 ^ 63 - 1, true)] ∧
      (nb.CanRequest tk).2.1.IsHalfOpenAt (2 ^ 63 - 1) ∧
      ¬ ((2 ^ 63 - 1 : Int) + nb.config.trialRequestInterval ≤ 2 ^ 63 - 1) :=
  ⟨_, _, _, rfl, by decide, ⟨rfl, rfl, by decide⟩, rfl,
    fun i j h => by simp only [lateTicker]; omega, rfl, ⟨rfl, rfl, rfl⟩, by decide⟩

end Garr

namespace Garr

/-- `OnFailure` of a Closed breaker whose counter publishes nothing leaves it Closed. -/
theorem onFailure_closed_none {nb : NonBlockingCircuitBreaker} {sw sw' : SlidingWindowCounter}
    {rt rt' : Runtime} {tk tk' : Ticker} {fuel : Nat} (hcs : nb.s.cs = .Closed)
    (hctr : nb.s.counter = .sliding sw)
    (hev : sw.OnFailure fuel rt tk = some (none, sw', rt', tk')) :
    nb.OnFailure fuel rt tk =
      some ({ nb with s := { nb.s with counter := .sliding sw' } }, rt', tk') := by
  have h1 : nb.s.isClosed = true := by simp [NonBlockingCircuitBreakerState.isClosed, hcs]
  simp [NonBlockingCircuitBreaker.OnFailure, h1, hctr, EventCounter.OnFailure, hev]

/-- `OnFailure` of a Closed breaker whose counter publishes a count above the thresholds
installs the Open state built at the next tick. -/
theorem onFailure_closed_exceeding {nb : NonBlockingCircuitBreaker}
    {sw sw' : SlidingWindowCounter} {rt rt' : Runtime} {tk tk' : Ticker} {fuel : Nat}
    {c : EventCount} (hcs : nb.s.cs = .Closed) (hctr : nb.s.counter = .sliding sw)
    (hev : sw.OnFailure fuel rt tk = some (some c, sw', rt', tk'))
    (hex : nb.checkIfExceedingFailureThreshold c = true) :
    ∃ nb', nb.OnFailure fuel rt tk = some (nb', rt', tk'.Tick.2) ∧ nb'.config = nb.config ∧
      nb'.IsOpenAt tk'.Tick.1 := by
  have h1 : nb.s.isClosed = true := by simp [NonBlockingCircuitBreakerState.isClosed, hcs]
  have hex' : NonBlockingCircuitBreaker.checkIfExceedingFailureThreshold
      { nb with s := { nb.s with counter := .sliding sw' } } c = true := hex
  refine ⟨({ (NonBlockingCircuitBreaker.newOpenState
      { nb with s := { nb.s with counter := .sliding sw' } } tk').2.1 with
      s := (NonBlockingCircuitBreaker.newOpenState
        { nb with s := { nb.s with counter := .sliding sw' } } tk').1 } :
      NonBlockingCircuitBreaker).notifyStateChanged .Open, ?_, ?_, ?_⟩
  · simp only [NonBlockingCircuitBreaker.OnFailure, h1, hctr, EventCounter.OnFailure, hev,
      Option.map_some', if_true, hex', NonBlockingCircuitBreaker.newOpenState,
      NonBlockingCircuitBreaker.newState, NonBlockingCircuitBreaker.casState]
  · rfl
  · exact ⟨rfl, rfl, rfl⟩

/-- `OnFailure` of a Closed breaker whose counter publishes a count that is not above the
thresholds leaves it Closed. -/
theorem onFailure_closed_within {nb : NonBlockingCircuitBreaker}
    {sw sw' : SlidingWindowCounter} {rt rt' : Runtime} {tk tk' : Ticker} {fuel : Nat}
    {c : EventCount} (hcs : nb.s.cs = .Closed) (hctr : nb.s.counter = .sliding sw)
    (hev : sw.OnFailure fuel rt tk = some (some c, sw', rt', tk'))
    (hex : nb.checkIfExceedingFailureThreshold c = false) :
    ∃ nb', nb.OnFailure fuel rt tk = some (nb', rt', tk') ∧ nb'.config = nb.config ∧
      nb'.s.cs = .Closed := by
  have h1 : nb.s.isClosed = true := by simp [NonBlockingCircuitBreakerState.isClosed, hcs]
  have hex' : NonBlockingCircuitBreaker.checkIfExceedingFailureThreshold
      { nb with s := { nb.s with counter := .sliding sw' } } c = false := hex
  refine ⟨NonBlockingCircuitBreaker.notifyCountUpdated
      { nb with s := { nb.s with counter := .sliding sw' } } c, ?_, ?_, ?_⟩
  · simp only [NonBlockingCircuitBreaker.OnFailure, h1, hctr, EventCounter.OnFailure, hev,
      Option.map_some', if_true, hex', Bool.false_eq_true, if_false]
  · rfl
  · exact hcs

/-- The counter `tripCounter` satisfies the invariant of a counter between two events. -/
theorem tripCounter_inv : tripCounter.Inv :=
  ⟨⟨[], JDKLinkedQueue.new_abs⟩, ⟨7, rfl, by decide⟩, ⟨13, rfl, by decide⟩, by decide⟩

/-- The circuit-trip scenario, 7 successes and 13 failures within one update interval with
threshold 0.3 and at least 19 requests, leaves the breaker `tripBreaker`, Closed with nothing
published; the failure reported at tick 100, one update interval later, publishes the count
(7, 13) and leaves the breaker Open. -/
theorem tripScenario_trips :
    tripScenario = some (tripBreaker, exampleRuntime, { tripTicker with pos := 22 }) ∧
      tripBreaker.s.cs = .Closed ∧ tripBreaker.s.counter.Count = EventCountZero ∧
      (Ticker.Tick { tripTicker with pos := 22 }).1 = 100 ∧
      (tripCounter.OnFailure 10 exampleRuntime { tripTicker with pos := 22 }).map
        (fun r => (r.1, r.2.1.Count)) = some (some (NewEventCount 7 13), NewEventCount 7 13) ∧
      ∃ nb', tripBreaker.OnFailure 10 exampleRuntime { tripTicker with pos := 22 } =
          some (nb', exampleRuntime, { tripTicker with pos := 24 }) ∧
        nb'.IsOpenAt 100 :=
  ⟨rfl, rfl, rfl, rfl, rfl, _, rfl, ⟨rfl, rfl, rfl⟩⟩

/-- C8 (amended): when an `OnFailure` event reported to a Closed breaker publishes a
sliding-window snapshot `c` (the counter returns it and `Count()` is `c` afterwards) with
`0 < total`, `total ≥ minimumRequestThreshold` and `failureRate > failureRateThreshold`,
the breaker is Open after that event, in the Open state built at the next tick; the event
always returns. -/
theorem closed_onFailure_trips (nb : NonBlockingCircuitBreaker) (sw : SlidingWindowCounter)
    (rt : Runtime) (tk : Ticker) (fuel : Nat) (hcs : nb.s.cs = .Closed)
    (hctr : nb.s.counter = .sliding sw) (hinv : sw.Inv)
    (hf : 2 * sw.reservoir.nodes.length + 4 ≤ fuel) :
    ∃ r sw' rt' nb' tk', sw.OnFailure fuel rt tk = some (r, sw', rt', tk.Tick.2) ∧
      nb.OnFailure fuel rt tk = some (nb', rt', tk') ∧ nb'.config = nb.config ∧
      (r = none → nb'.s.cs = .Closed) ∧
      (∀ c, r = some c → sw'.Count = c ∧
        (0 < c.Total → nb.config.minimumRequestThreshold ≤ c.Total →
          F64.lt nb.config.failureRateThreshold c.FailureRate = true →
          tk' = tk.Tick.2.Tick.2 ∧ nb'.s.cs = .Open ∧ nb'.IsOpenAt tk.Tick.2.Tick.1)) := by
  obtain ⟨r, sw', rt', hev, -, -, -, -, -, -, hsome⟩ :=
    SlidingWindowCounter.onEvent_spec hinv rt tk false hf
  have hev' : sw.OnFailure fuel rt tk = some (r, sw', rt', tk.Tick.2) := hev
  cases r with
  | none =>
    refine ⟨none, sw', rt', _, _, hev', onFailure_closed_none hcs hctr hev', rfl,
      fun _ => hcs, fun c hc => by cases hc⟩
  | some c =>
    cases hex : nb.checkIfExceedingFailureThreshold c with
    | true =>
      obtain ⟨nb', hnb, hcfg, hopen⟩ := onFailure_closed_exceeding hcs hctr hev' hex
      refine ⟨some c, sw', rt', nb', _, hev', hnb, hcfg, fun h => (by cases h), fun c1 hc => ?_⟩
      cases hc
      exact ⟨hsome c rfl, fun _ _ _ => ⟨rfl, hopen.1, hopen⟩⟩
    | false =>
      obtain ⟨nb', hnb, hcfg, -⟩ := onFailure_closed_within hcs hctr hev' hex
      refine ⟨some c, sw', rt', nb', _, hev', hnb, hcfg, fun h => (by cases h), fun c1 hc => ?_⟩
      cases hc
      refine ⟨hsome c rfl, fun h0 hmin hrate => ?_⟩
      simp [NonBlockingCircuitBreaker.checkIfExceedingFailureThreshold, h0, hmin, hrate] at hex

/-- Witness of C8: the breaker of the circuit-trip scenario (threshold 0.3, at least 19
requests, 7 successes and 13 failures in the current bucket), on which a failure is
reported at tick 100. -/
theorem closed_onFailure_trips_witness :
    tripBreaker.s.cs = .Closed ∧ tripBreaker.s.counter = .sliding tripCounter ∧
    tripCounter.Inv ∧ 2 * tripCounter.reservoir.nodes.length + 4 ≤ 10 ∧
    ∃ r sw' rt' nb' tk',
      tripCounter.OnFailure 10 exampleRuntime { tripTicker with pos := 22 } =
        some (r, sw', rt', (Ticker.Tick { tripTicker with pos := 22 }).2) ∧
      tripBreaker.OnFailure 10 exampleRuntime { tripTicker with pos := 22 } =
        some (nb', rt', tk') ∧ nb'.config = tripBreaker.config ∧
      (r = none → nb'.s.cs = .Closed) ∧
      (∀ c, r = some c → sw'.Count = c ∧
        (0 < c.Total → tripBreaker.config.minimumRequestThreshold ≤ c.Total →
          F64.lt tripBreaker.config.failureRateThreshold c.FailureRate = true →
          tk' = (Ticker.Tick (Ticker.Tick { tripTicker with pos := 22 }).2).2 ∧
          nb'.s.cs = .Open ∧
          nb'.IsOpenAt (Ticker.Tick (Ticker.Tick { tripTicker with pos := 22 }).2).1)) :=
  ⟨rfl, rfl, tripCounter_inv, by decide,
    closed_onFailure_trips tripBreaker tripCounter exampleRuntime { tripTicker with pos := 22 }
      10 rfl rfl tripCounter_inv (by decide)⟩

/-- Counterexample to C8 as stated: with threshold 0.5 and at least 1 request, a failure at
tick 0 and a success at tick 1 are reported to a breaker built at tick 0. The success
publishes the snapshot (0 successes, 1 failure), whose total 1 reaches the minimum and
whose failure rate 1.0 is above the threshold, while the breaker is Closed. The next
`OnFailure` event, at tick 1, publishes nothing and the breaker is still Closed after it. -/
theorem closed_after_next_onFailure :
    ∃ nb rt tk nb' rt' tk',
      afterFailureThenSuccess (tickerOf [0, 0, 0, 1, 1]) = some (nb, rt, tk) ∧
      nb.s.cs = .Closed ∧ nb.s.counter.Count = NewEventCount 0 1 ∧
      Notification.eventCountUpdated 0 (NewEventCount 0 1) ∈ nb.log ∧
      0 < (NewEventCount 0 1).Total ∧
      nb.config.minimumRequestThreshold ≤ (NewEventCount 0 1).Total ∧
      F64.lt nb.config.failureRateThreshold (NewEventCount 0 1).FailureRate = true ∧
      nb.OnFailure 10 rt tk = some (nb', rt', tk') ∧ nb'.s.cs = .Closed ∧
      nb'.s.counter.Count = NewEventCount 0 1 :=
  ⟨_, _, _, _, _, _, rfl, rfl, rfl, by decide, by decide, by decide, by decide, rfl, rfl, rfl⟩

end Garr

namespace Garr

/-- In Closed state `CanRequest` returns true and touches neither the breaker nor the
ticker. -/
theorem canRequest_closed {nb : NonBlockingCircuitBreaker} (tk : Ticker)
    (hcs : nb.s.cs = .Closed) : nb.CanRequest tk = (true, nb, tk) := by
  have h1 : nb.s.isClosed = true := by simp [NonBlockingCircuitBreakerState.isClosed, hcs]
  simp [NonBlockingCircuitBreaker.CanRequest, h1]

/-- `OnSuccess` of a Closed breaker keeps the state record, up to its counter, whenever it
returns. -/
theorem onSuccess_closed_kind {nb nb' : NonBlockingCircuitBreaker} {rt rt' : Runtime}
    {tk tk' : Ticker} {fuel : Nat} (hcs : nb.s.cs = .Closed)
    (h : nb.OnSuccess fuel rt tk = some (nb', rt', tk')) :
    nb'.s.cs = .Closed ∧ nb'.s.addr = nb.s.addr ∧ nb'.s.timeout = nb.s.timeout ∧
      nb'.config = nb.config := by
  have h1 : nb.s.isClosed = true := by simp [NonBlockingCircuitBreakerState.isClosed, hcs]
  simp only [NonBlockingCircuitBreaker.OnSuccess, h1, if_true] at h
  cases hc : nb.s.counter.OnSuccess fuel rt tk with
  | none => simp [hc] at h
  | some r =>
    simp only [hc] at h
    cases hr : r.1 with
    | none =>
      simp only [hr, Option.some.injEq, Prod.mk.injEq] at h
      obtain ⟨rfl, -⟩ := h
      exact ⟨hcs, rfl, rfl, rfl⟩
    | some c =>
      simp only [hr, Option.some.injEq, Prod.mk.injEq] at h
      obtain ⟨rfl, -⟩ := h
      exact ⟨hcs, rfl, rfl, rfl⟩

/-- `OnSuccess` of a Closed breaker with a sliding-window counter: the counter receives
the event and the listeners receive the count it publishes, if any. -/
theorem onSuccess_closed_spec {nb : NonBlockingCircuitBreaker} {sw sw' : SlidingWindowCounter}
    {rt rt' : Runtime} {tk tk' : Ticker} {fuel : Nat} {r : Option EventCount}
    (hcs : nb.s.cs = .Closed) (hctr : nb.s.counter = .sliding sw)
    (hev : sw.OnSuccess fuel rt tk = some (r, sw', rt', tk')) :
    ∃ nb', nb.OnSuccess fuel rt tk = some (nb', rt', tk') ∧
      nb'.s = { nb.s with counter := .sliding sw' } ∧ nb'.config = nb.config ∧
      (r = none → nb'.log = nb.log) ∧
      (∀ c, r = some c →
        nb'.log = nb.log ++ nb.liveListeners.map fun i => .eventCountUpdated i c) := by
  have h1 : nb.s.isClosed = true := by simp [NonBlockingCircuitBreakerState.isClosed, hcs]
  cases r with
  | none =>
    refine ⟨{ nb with s := { nb.s with counter := .sliding sw' } }, ?_, rfl, rfl,
      fun _ => rfl, fun c hc => by cases hc⟩
    simp [NonBlockingCircuitBreaker.OnSuccess, h1, hctr, EventCounter.OnSuccess, hev]
  | some c =>
    refine ⟨NonBlockingCircuitBreaker.notifyCountUpdated
      { nb with s := { nb.s with counter := .sliding sw' } } c, ?_, rfl, rfl,
      fun h => (by cases h), fun c1 hc => ?_⟩
    · simp [NonBlockingCircuitBreaker.OnSuccess, h1, hctr, EventCounter.OnSuccess, hev]
    · cases hc
      rfl

/-- In Open state `OnSuccess` and `OnFailure` return at once. -/
theorem open_events_noop {nb : NonBlockingCircuitBreaker} (rt : Runtime) (tk : Ticker)
    (fuel : Nat) (h : nb.s.cs = .Open) :
    nb.OnSuccess fuel rt tk = some (nb, rt, tk) ∧ nb.OnFailure fuel rt tk = some (nb, rt, tk) := by
  have h1 : nb.s.isClosed = false := by simp [NonBlockingCircuitBreakerState.isClosed, h]
  have h2 : nb.s.isHalfOpen = false := by simp [NonBlockingCircuitBreakerState.isHalfOpen, h]
  constructor
  · simp [NonBlockingCircuitBreaker.OnSuccess, h1, h2]
  · simp [NonBlockingCircuitBreaker.OnFailure, h1, h2]

/-- In Closed state `Execute` runs a non-nil delegated function, returns what it returns
and touches neither the breaker nor the ticker. -/
theorem execute_closed {σ α : Type} {nb : NonBlockingCircuitBreaker} (tk : Ticker)
    (f : σ → (Option α × Option ExecError) × σ) (w : σ) (hcs : nb.s.cs = .Closed) :
    nb.Execute tk (some f) w = ((f w).1, nb, tk, (f w).2) := by
  simp [NonBlockingCircuitBreaker.Execute, canRequest_closed tk hcs]

/-- `Execute` is `CanRequest` followed, when it allows, by the delegated function: the
breaker and the ticker afterwards are those that `CanRequest` leaves. -/
theorem execute_spec {σ α : Type} (nb : NonBlockingCircuitBreaker) (tk : Ticker)
    (f : σ → (Option α × Option ExecError) × σ) (w : σ) :
    ((nb.CanRequest tk).1 = true →
      nb.Execute tk (some f) w = ((f w).1, (nb.CanRequest tk).2.1, (nb.CanRequest tk).2.2,
        (f w).2)) ∧
    ((nb.CanRequest tk).1 = false →
      nb.Execute tk (some f) w =
        ((none, some .ErrFailFast), (nb.CanRequest tk).2.1, (nb.CanRequest tk).2.2, w)) := by
  constructor
  · intro h
    simp [NonBlockingCircuitBreaker.Execute, h]
  · intro h
    simp [NonBlockingCircuitBreaker.Execute, h]

/-- `OnFailure` of a Closed breaker whose counter publishes a count: when the count is
above the thresholds the listeners receive the state change with the zero count, otherwise
they receive the count. -/
theorem onFailure_closed_log {nb : NonBlockingCircuitBreaker} {sw sw' : SlidingWindowCounter}
    {rt rt' : Runtime} {tk tk' : Ticker} {fuel : Nat} {c : EventCount}
    (hcs : nb.s.cs = .Closed) (hctr : nb.s.counter = .sliding sw)
    (hev : sw.OnFailure fuel rt tk = some (some c, sw', rt', tk')) :
    ∃ nb' tk2, nb.OnFailure fuel rt tk = some (nb', rt', tk2) ∧
      (nb.checkIfExceedingFailureThreshold c = true → nb'.s.cs = .Open ∧
        nb'.log = nb.log ++ nb.liveListeners.flatMap fun i =>
          [.stateChanged i .Open, .eventCountUpdated i EventCountZero]) ∧
      (nb.checkIfExceedingFailureThreshold c = false → nb'.s.cs = .Closed ∧
        nb'.log = nb.log ++ nb.liveListeners.map fun i => .eventCountUpdated i c) := by
  have h1 : nb.s.isClosed = true := by simp [NonBlockingCircuitBreakerState.isClosed, hcs]
  cases hex : nb.checkIfExceedingFailureThreshold c with
  | true =>
    have hex' : NonBlockingCircuitBreaker.checkIfExceedingFailureThreshold
        { nb with s := { nb.s with counter := .sliding sw' } } c = true := hex
    refine ⟨({ (NonBlockingCircuitBreaker.newOpenState
        { nb with s := { nb.s with counter := .sliding sw' } } tk').2.1 with
        s := (NonBlockingCircuitBreaker.newOpenState
          { nb with s := { nb.s with counter := .sliding sw' } } tk').1 } :
        NonBlockingCircuitBreaker).notifyStateChanged .Open, tk'.Tick.2, ?_,
      fun _ => ⟨rfl, rfl⟩, fun h => (by cases h)⟩
    simp only [NonBlockingCircuitBreaker.OnFailure, h1, hctr, EventCounter.OnFailure, hev,
      Option.map_some', if_true, hex', NonBlockingCircuitBreaker.newOpenState,
      NonBlockingCircuitBreaker.newState, NonBlockingCircuitBreaker.casState]
  | false =>
    have hex' : NonBlockingCircuitBreaker.checkIfExceedingFailureThreshold
        { nb with s := { nb.s with counter := .sliding sw' } } c = false := hex
    refine ⟨NonBlockingCircuitBreaker.notifyCountUpdated
        { nb with s := { nb.s with counter := .sliding sw' } } c, tk', ?_,
      fun h => (by cases h), fun _ => ⟨hcs, rfl⟩⟩
    simp only [NonBlockingCircuitBreaker.OnFailure, h1, hctr, EventCounter.OnFailure, hev,
      Option.map_some', if_true, hex', Bool.false_eq_true, if_false]

/-- C11: in Closed state `CanRequest` returns true and leaves the breaker unchanged,
`OnSuccess` returns and leaves the breaker in the same Closed state record whatever the
counter publishes, and `Execute` leaves the breaker unchanged; `OnFailure` can move a
Closed breaker to Open, so that it is the only operation that can move it. -/
theorem closed_only_onFailure_moves (nb : NonBlockingCircuitBreaker) (rt : Runtime)
    (tk : Ticker) (fuel : Nat) (hcs : nb.s.cs = .Closed)
    (hinv : ∀ sw, nb.s.counter = .sliding sw →
      sw.Inv ∧ 2 * sw.reservoir.nodes.length + 4 ≤ fuel) :
    nb.CanRequest tk = (true, nb, tk) ∧
    (∃ nb' rt' tk', nb.OnSuccess fuel rt tk = some (nb', rt', tk') ∧ nb'.s.cs = .Closed ∧
      nb'.s.addr = nb.s.addr ∧ nb'.s.timeout = nb.s.timeout ∧ nb'.config = nb.config) ∧
    (∀ nb' rt' tk' fuel', nb.OnSuccess fuel' rt tk = some (nb', rt', tk') →
      nb'.s.cs = .Closed) ∧
    (∀ (σ α : Type) (f : σ → (Option α × Option ExecError) × σ) (w : σ),
      (nb.Execute tk (some f) w).2.1 = nb) ∧
    (∃ nb0 rt0 tk0 nb1 rt1 tk1, nb0.s.cs = CircuitState.Closed ∧
      NonBlockingCircuitBreaker.OnFailure 10 nb0 rt0 tk0 = some (nb1, rt1, tk1) ∧
      nb1.s.cs = .Open) := by
  refine ⟨canRequest_closed tk hcs, ?_, fun nb' rt' tk' fuel' h => (onSuccess_closed_kind hcs h).1,
    fun σ α f w => by rw [execute_closed tk f w hcs], ?_⟩
  · have key : ∃ r, nb.OnSuccess fuel rt tk = some r := by
      cases hc : nb.s.counter with
      | sliding sw =>
        obtain ⟨hi, hf⟩ := hinv sw hc
        obtain ⟨r, sw', rt', hev, -⟩ := SlidingWindowCounter.onEvent_spec hi rt tk true hf
        obtain ⟨nb', h, -⟩ := onSuccess_closed_spec hcs hc
          (show sw.OnSuccess fuel rt tk = some (r, sw', rt', tk.Tick.2) from hev)
        exact ⟨_, h⟩
      | noOp =>
        have h1 : nb.s.isClosed = true := by
          simp [NonBlockingCircuitBreakerState.isClosed, hcs]
        exact ⟨({ nb with s := { nb.s with counter := .noOp } }, rt, tk),
          by simp [NonBlockingCircuitBreaker.OnSuccess, h1, hc, EventCounter.OnSuccess]⟩
    obtain ⟨⟨nb', rt', tk'⟩, h⟩ := key
    exact ⟨nb', rt', tk', h, onSuccess_closed_kind hcs h⟩
  · obtain ⟨-, -, -, -, -, nb', h, ho⟩ := tripScenario_trips
    exact ⟨tripBreaker, _, _, nb', _, _, rfl, h, ho.1⟩

/-- Witness of C11: the Closed breaker of the circuit-trip scenario. -/
theorem closed_only_onFailure_moves_witness :
    tripBreaker.s.cs = .Closed ∧
    tripBreaker.CanRequest tripTicker = (true, tripBreaker, tripTicker) ∧
    (∃ nb' rt' tk', tripBreaker.OnSuccess 10 exampleRuntime tripTicker = some (nb', rt', tk') ∧
      nb'.s.cs = .Closed ∧ nb'.s.addr = tripBreaker.s.addr ∧
      nb'.s.timeout = tripBreaker.s.timeout ∧ nb'.config = tripBreaker.config) :=
  ⟨rfl,
    (closed_only_onFailure_moves tripBreaker exampleRuntime tripTicker 10 rfl
      (fun sw h => by
        have h' : tripCounter = sw := by
          simpa [tripBreaker] using h
        subst h'
        exact ⟨tripCounter_inv, by decide⟩)).1,
    (closed_only_onFailure_moves tripBreaker exampleRuntime tripTicker 10 rfl
      (fun sw h => by
        have h' : tripCounter = sw := by
          simpa [tripBreaker] using h
        subst h'
        exact ⟨tripCounter_inv, by decide⟩)).2.1⟩

/-- C12: in Open state `OnSuccess` and `OnFailure` return at once: the breaker, with its
state record (kind and deadline) and the calls its listeners have received, and the ticker
are unchanged. -/
theorem open_ignores_events (nb : NonBlockingCircuitBreaker) (rt : Runtime) (tk : Ticker)
    (fuel : Nat) (h : nb.s.cs = .Open) :
    nb.OnSuccess fuel rt tk = some (nb, rt, tk) ∧ nb.OnFailure fuel rt tk = some (nb, rt, tk) ∧
    (∀ nb' rt' tk', nb.OnSuccess fuel rt tk = some (nb', rt', tk') ∨
        nb.OnFailure fuel rt tk = some (nb', rt', tk') →
      nb'.s.cs = .Open ∧ nb'.s.timeout = nb.s.timeout ∧ nb'.log = nb.log) := by
  obtain ⟨h1, h2⟩ := open_events_noop rt tk fuel h
  refine ⟨h1, h2, ?_⟩
  rintro nb' rt' tk' (h' | h')
  · rw [h1] at h'
    simp only [Option.some.injEq, Prod.mk.injEq] at h'
    obtain ⟨rfl, -⟩ := h'
    exact ⟨h, rfl, rfl⟩
  · rw [h2] at h'
    simp only [Option.some.injEq, Prod.mk.injEq] at h'
    obtain ⟨rfl, -⟩ := h'
    exact ⟨h, rfl, rfl⟩

/-- Witness of C12: a breaker Open since tick 2 with deadline 7 and one listener. -/
theorem open_ignores_events_witness :
    (({ config := exampleConfig,
        s := { addr := 1, cs := .Open, counter := .noOp, timeout := 7, timedOutTimeNanos := 5 },
        nextAddr := 2, log := [.stateChanged 0 .Open] } : NonBlockingCircuitBreaker).s.cs
      = .Open) ∧
    NonBlockingCircuitBreaker.OnFailure 0
      { config := exampleConfig,
        s := { addr := 1, cs := .Open, counter := .noOp, timeout := 7, timedOutTimeNanos := 5 },
        nextAddr := 2, log := [.stateChanged 0 .Open] } exampleRuntime (tickerOf [3]) =
      some ({ config := exampleConfig,
              s := { addr := 1, cs := .Open, counter := .noOp, timeout := 7,
                     timedOutTimeNanos := 5 },
              nextAddr := 2, log := [.stateChanged 0 .Open] }, exampleRuntime, tickerOf [3]) :=
  ⟨rfl, (open_ignores_events _ exampleRuntime (tickerOf [3]) 0 rfl).2.1⟩

end Garr

namespace Garr

/-- C13 (amended): when an `OnSuccess` or `OnFailure` event reported to a Closed breaker
publishes a sliding-window snapshot `c`, every non-nil listener receives
`OnEventCountUpdated(c)`, except when the event is an `OnFailure` and `c` is above the
thresholds: then the breaker opens and every non-nil listener receives
`OnStateChanged(Open)` and `OnEventCountUpdated(EventCountZero)`. An event that publishes
nothing notifies nobody. The events always return. -/
theorem closed_event_notifies (nb : NonBlockingCircuitBreaker) (sw : SlidingWindowCounter)
    (rt : Runtime) (tk : Ticker) (fuel : Nat) (hcs : nb.s.cs = .Closed)
    (hctr : nb.s.counter = .sliding sw) (hinv : sw.Inv)
    (hf : 2 * sw.reservoir.nodes.length + 4 ≤ fuel) :
    (∃ r sw' rt' nb', sw.OnSuccess fuel rt tk = some (r, sw', rt', tk.Tick.2) ∧
      nb.OnSuccess fuel rt tk = some (nb', rt', tk.Tick.2) ∧
      (r = none → nb'.log = nb.log) ∧
      (∀ c, r = some c → sw'.Count = c ∧
        nb'.log = nb.log ++ nb.liveListeners.map fun i => .eventCountUpdated i c)) ∧
    (∃ r sw' rt' nb' tk', sw.OnFailure fuel rt tk = some (r, sw', rt', tk.Tick.2) ∧
      nb.OnFailure fuel rt tk = some (nb', rt', tk') ∧
      (r = none → nb'.log = nb.log) ∧
      (∀ c, r = some c → sw'.Count = c ∧
        (nb.checkIfExceedingFailureThreshold c = false →
          nb'.log = nb.log ++ nb.liveListeners.map fun i => .eventCountUpdated i c) ∧
        (nb.checkIfExceedingFailureThreshold c = true → nb'.s.cs = .Open ∧
          nb'.log = nb.log ++ nb.liveListeners.flatMap fun i =>
            [.stateChanged i .Open, .eventCountUpdated i EventCountZero]))) := by
  constructor
  · obtain ⟨r, sw', rt', hev, -, -, -, -, -, -, hsome⟩ :=
      SlidingWindowCounter.onEvent_spec hinv rt tk true hf
    have hev' : sw.OnSuccess fuel rt tk = some (r, sw', rt', tk.Tick.2) := hev
    obtain ⟨nb', h, -, -, hn, hs⟩ := onSuccess_closed_spec hcs hctr hev'
    exact ⟨r, sw', rt', nb', hev', h, hn, fun c hc => ⟨hsome c hc, hs c hc⟩⟩
  · obtain ⟨r, sw', rt', hev, -, -, -, -, -, -, hsome⟩ :=
      SlidingWindowCounter.onEvent_spec hinv rt tk false hf
    have hev' : sw.OnFailure fuel rt tk = some (r, sw', rt', tk.Tick.2) := hev
    cases r with
    | none =>
      exact ⟨none, sw', rt', _, _, hev', onFailure_closed_none hcs hctr hev', fun _ => rfl,
        fun c hc => by cases hc⟩
    | some c =>
      obtain ⟨nb', tk2, h, ht, hfalse⟩ := onFailure_closed_log hcs hctr hev'
      refine ⟨some c, sw', rt', nb', tk2, hev', h, fun h => (by cases h), fun c1 hc => ?_⟩
      cases hc
      exact ⟨hsome c rfl, fun hx => (hfalse hx).2, ht⟩

/-- Witness of C13 (amended): the Closed breaker of the circuit-trip scenario, on which a
success or a failure is reported at tick 100. -/
theorem closed_event_notifies_witness :
    tripBreaker.s.cs = .Closed ∧ tripBreaker.s.counter = .sliding tripCounter ∧
    tripCounter.Inv ∧ 2 * tripCounter.reservoir.nodes.length + 4 ≤ 10 ∧
    ∃ r sw' rt' nb',
      tripCounter.OnSuccess 10 exampleRuntime { tripTicker with pos := 22 } =
        some (r, sw', rt', (Ticker.Tick { tripTicker with pos := 22 }).2) ∧
      tripBreaker.OnSuccess 10 exampleRuntime { tripTicker with pos := 22 } =
        some (nb', rt', (Ticker.Tick { tripTicker with pos := 22 }).2) ∧
      (r = none → nb'.log = tripBreaker.log) ∧
      (∀ c, r = some c → sw'.Count = c ∧
        nb'.log = tripBreaker.log ++
          tripBreaker.liveListeners.map fun i => .eventCountUpdated i c) :=
  ⟨rfl, rfl, tripCounter_inv, by decide,
    (closed_event_notifies tripBreaker tripCounter exampleRuntime { tripTicker with pos := 22 }
      10 rfl rfl tripCounter_inv (by decide)).1⟩

/-- Counterexample to C13 as stated: a breaker with one listener, threshold 0.5 and at
least 1 request is built at tick 0 and receives a failure at tick 0. The `OnFailure` event
at tick 1 publishes the snapshot (0 successes, 1 failure) while the breaker is Closed; the
listener receives `OnStateChanged(Open)` and `OnEventCountUpdated(EventCountZero)` and
never `OnEventCountUpdated` with the published snapshot. -/
theorem tripping_snapshot_not_notified :
    ∃ nb rt tk sw nb' rt' tk',
      afterOneFailure (tickerOf [0, 0, 0, 1, 1]) = some (nb, rt, tk) ∧
      nb.s.cs = .Closed ∧ nb.s.counter = .sliding sw ∧ nb.liveListeners = [0] ∧
      (sw.OnFailure 10 rt tk).map (fun r => (r.1, r.2.1.Count)) =
        some (some (NewEventCount 0 1), NewEventCount 0 1) ∧
      nb.OnFailure 10 rt tk = some (nb', rt', tk') ∧
      nb'.log = nb.log ++
        [.stateChanged 0 .Open, .eventCountUpdated 0 EventCountZero] ∧
      Notification.eventCountUpdated 0 (NewEventCount 0 1) ∉ nb'.log :=
  ⟨_, _, _, _, _, _, _, rfl, rfl, rfl, rfl, rfl, rfl, rfl, by decide⟩

/-- Counterexample to C14 as stated: a delegated function that fails is handed to `Execute` on
a freshly built, Closed breaker. `Execute` runs it once and returns its error, and the
breaker and the ticker are exactly as before: no failure has been reported, whereas
`OnFailure` would have added 1 to the failure adder of the current bucket. -/
theorem execute_reports_nothing :
    ∃ nb tk sw, (NewNonBlockingCircuitBreaker (some (tickerOf [0, 0, 1, 1]))
        (some exampleConfig)).1 = some (nb, tk) ∧
      nb.s.cs = .Closed ∧ nb.s.counter = .sliding sw ∧ sw.cur.f.Sum = 0 ∧
      nb.Execute tk (some failingFn) 0 =
        ((none, some (.other "remote failure")), nb, tk, 1) ∧
      ∃ nb' rt' tk' sw', nb.OnFailure 10 exampleRuntime tk = some (nb', rt', tk') ∧
        nb'.s.counter = .sliding sw' ∧ sw'.cur.f.Sum = 1 :=
  ⟨_, _, _, rfl, rfl, rfl, rfl, rfl, _, _, _, _, rfl, rfl, rfl⟩

end Garr

namespace Garr

/-- Reverting an injection gives the request back. -/
theorem revert_injectTarget {β : Type} (pathJoin : String → String → String)
    (endpoint : Endpoint β) (req : Request) :
    revert (injectTarget pathJoin endpoint req).2 (injectTarget pathJoin endpoint req).1 = req :=
  rfl

namespace Client

variable {β ρ : Type}

theorem frame_refl (st : DoState β ρ) : Frame st st :=
  ⟨rfl, rfl, rfl, rfl, rfl, rfl⟩

theorem frame_trans {a b c : DoState β ρ} (h1 : Frame a b) (h2 : Frame b c) : Frame a c :=
  ⟨h2.req.trans h1.req, h2.length.trans h1.length, h2.transport.trans h1.transport,
    h2.backoff.trans h1.backoff, h2.rand.trans h1.rand, h2.lb.trans h1.lb⟩

/-- The three shapes of the endpoints after `exec`. -/
theorem exec_endpoints (cb : CircuitBreaker β) (st : DoState β ρ) (ind : Nat)
    (endpoint : Endpoint β) :
    (exec cb st ind endpoint).2.endpoints = st.endpoints ∨
    (exec cb st ind endpoint).2.endpoints =
      st.endpoints.set ind (some (endpoint.onConnectSuccess cb)) ∨
    (exec cb st ind endpoint).2.endpoints =
      st.endpoints.set ind (some (endpoint.onConnectFailure cb)) := by
  dsimp only [exec]
  repeat' split
  all_goals first
    | (left; rfl)
    | (right; left; rfl)
    | (right; right; rfl)

/-- What `exec` leaves alone, and what it adds to the trace. -/
theorem exec_frame (cb : CircuitBreaker β) (st : DoState β ρ) (ind : Nat)
    (endpoint : Endpoint β) :
    Frame st (exec cb st ind endpoint).2 ∧
    (exec cb st ind endpoint).2.client.trace = st.client.trace ++ [.transport st.req.r.URL] ∧
    (exec cb st ind endpoint).2.client.calls = st.client.calls + 1 := by
  have hlen : (exec cb st ind endpoint).2.endpoints.length = st.endpoints.length := by
    rcases exec_endpoints cb st ind endpoint with h | h | h <;> rw [h] <;> simp
  refine ⟨⟨?_, hlen, ?_, ?_, ?_, ?_⟩, ?_, ?_⟩ <;>
  · dsimp only [exec]
    repeat' split
    all_goals rfl

/-- The endpoint at another position is not touched by `exec`; the one at `ind` keeps its
URL. -/
theorem exec_endpoints_get (cb : CircuitBreaker β) (st : DoState β ρ) (ind : Nat)
    (endpoint : Endpoint β) (hind : st.endpoints[ind]? = some (some endpoint)) :
    (∀ j, j ≠ ind → (exec cb st ind endpoint).2.endpoints[j]? = st.endpoints[j]?) ∧
    ∃ e, (exec cb st ind endpoint).2.endpoints[ind]? = some (some e) ∧
      e.URL = endpoint.URL ∧
      (e.breaker = endpoint.breaker ∨ e.breaker = cb.OnSuccess endpoint.breaker ∨
        e.breaker = cb.OnFailure endpoint.breaker) := by
  have hlt : ind < st.endpoints.length := by
    by_contra hge
    rw [List.getElem?_eq_none (by omega)] at hind
    cases hind
  rcases exec_endpoints cb st ind endpoint with h | h | h <;> rw [h]
  · exact ⟨fun _ _ => rfl, endpoint, hind, rfl, Or.inl rfl⟩
  · refine ⟨fun j hj => by rw [List.getElem?_set_ne (Ne.symm hj)],
      endpoint.onConnectSuccess cb, ?_, rfl, Or.inr (Or.inl rfl)⟩
    rw [List.getElem?_set_eq hlt]
  · refine ⟨fun j hj => by rw [List.getElem?_set_ne (Ne.symm hj)],
      endpoint.onConnectFailure cb, ?_, rfl, Or.inr (Or.inr rfl)⟩
    rw [List.getElem?_set_eq hlt]

/-- The method `instrument` returns on a non-nil endpoint. -/
theorem instrument_isSome (pathJoin : String → String → String) (cb : CircuitBreaker β)
    {st : DoState β ρ} {ind : Nat} {endpoint : Endpoint β}
    (hind : st.endpoints[ind]? = some (some endpoint)) :
    ∃ r, instrument pathJoin cb st ind = some r := by
  simp only [instrument, hind]
  split_ifs <;> exact ⟨_, rfl⟩

/-- The method `instrument` panics only on a missing or nil endpoint. -/
theorem instrument_none (pathJoin : String → String → String) (cb : CircuitBreaker β)
    {st : DoState β ρ} {ind : Nat} (h : instrument pathJoin cb st ind = none) :
    ¬ ∃ e, st.endpoints[ind]? = some (some e) := by
  rintro ⟨e, he⟩
  obtain ⟨r, hr⟩ := instrument_isSome pathJoin cb he
  rw [hr] at h
  cases h

/-- What one attempt leaves alone and what it adds to the trace: the mark of the attempt,
at most one transport call, which happens exactly when the breaker allows the request,
and the action. -/
theorem instrument_spec (pathJoin : String → String → String) (cb : CircuitBreaker β)
    {st : DoState β ρ} {ind : Nat} {r : EndpointAction × DoState β ρ}
    (h : instrument pathJoin cb st ind = some r) :
    Frame st r.2 ∧
    ∃ e e', st.endpoints[ind]? = some (some e) ∧ r.2.endpoints[ind]? = some (some e') ∧
      e'.URL = e.URL ∧ (∀ j, j ≠ ind → r.2.endpoints[j]? = st.endpoints[j]?) ∧
      (((cb.CanRequest e.breaker).1 = false ∧ r.1 = .NextEndpoint ∧
          r.2.client.trace = st.client.trace ++ [.attempt ind, .action .NextEndpoint] ∧
          r.2.client.calls = st.client.calls ∧ r.2.resp = st.resp ∧
          e'.breaker = (cb.CanRequest e.breaker).2) ∨
        ((cb.CanRequest e.breaker).1 = true ∧
          r.2.client.trace = st.client.trace ++
            [.attempt ind, .transport (injectTarget pathJoin e st.req).2.r.URL, .action r.1] ∧
          r.2.client.calls = st.client.calls + 1 ∧
          (e'.breaker = (cb.CanRequest e.breaker).2 ∨
            e'.breaker = cb.OnSuccess (cb.CanRequest e.breaker).2 ∨
            e'.breaker = cb.OnFailure (cb.CanRequest e.breaker).2))) := by
  have hex : ∃ e, st.endpoints[ind]? = some (some e) := by
    by_contra hne
    simp only [instrument] at h
    split at h
    · exact hne ⟨_, by assumption⟩
    · cases h
  obtain ⟨e, he⟩ := hex
  have hlt : ind < st.endpoints.length := by
    by_contra hge
    rw [List.getElem?_eq_none (by omega)] at he
    cases he
  simp only [instrument, he] at h
  by_cases hc : (cb.CanRequest e.breaker).1 = true
  · have hc' : (e.canRequest cb).1 = true := hc
    rw [if_pos hc'] at h
    cases h
    have hset : (injected pathJoin cb st ind e).endpoints[ind]? =
        some (some (e.canRequest cb).2) := by
      show (List.set st.endpoints ind (some (e.canRequest cb).2))[ind]? = _
      rw [List.getElem?_set_eq hlt]
    obtain ⟨hf, htr, hcalls⟩ := exec_frame cb (injected pathJoin cb st ind e) ind
      (e.canRequest cb).2
    obtain ⟨hoth, e', he', hurl, hbr⟩ := exec_endpoints_get cb (injected pathJoin cb st ind e)
      ind (e.canRequest cb).2 hset
    refine ⟨⟨?_, ?_, hf.transport, hf.backoff, hf.rand, hf.lb⟩, e, e', he, he', hurl, ?_,
      Or.inr ⟨hc, ?_, hcalls, hbr⟩⟩
    · exact (congrArg (fun q => revert q (injectTarget pathJoin (e.canRequest cb).2 st.req).1)
        hf.req).trans (revert_injectTarget pathJoin (e.canRequest cb).2 st.req)
    · have := hf.length
      simpa [injected, asked, emit] using this
    · intro j hj
      have := hoth j hj
      show (exec cb (injected pathJoin cb st ind e) ind (e.canRequest cb).2).2.endpoints[j]? = _
      rw [this]
      show (List.set st.endpoints ind (some (e.canRequest cb).2))[j]? = _
      rw [List.getElem?_set_ne (Ne.symm hj)]
    · show (exec cb (injected pathJoin cb st ind e) ind (e.canRequest cb).2).2.client.trace ++
        [Event.action _] = _
      rw [htr]
      simp [injected, asked, emit, injectTarget, Endpoint.canRequest]
  · have hc' : ¬ (e.canRequest cb).1 = true := hc
    rw [if_neg hc'] at h
    cases h
    refine ⟨⟨rfl, by simp [emit, asked], rfl, rfl, rfl, rfl⟩, e, (e.canRequest cb).2, he, ?_, rfl,
      ?_, Or.inl ⟨by simpa using hc, rfl, by simp [emit, asked], rfl, rfl, rfl⟩⟩
    · show (List.set st.endpoints ind (some (e.canRequest cb).2))[ind]? = _
      rw [List.getElem?_set_eq hlt]
    · intro j hj
      show (List.set st.endpoints ind (some (e.canRequest cb).2))[j]? = _
      rw [List.getElem?_set_ne (Ne.symm hj)]

/-- The method `instrument` when the breaker allows the request: `exec` runs on the
request with the target injected, and the request is given back as it was. -/
theorem instrument_allowed (pathJoin : String → String → String) (cb : CircuitBreaker β)
    {st : DoState β ρ} {ind : Nat} {e : Endpoint β}
    (he : st.endpoints[ind]? = some (some e)) (hc : (cb.CanRequest e.breaker).1 = true) :
    instrument pathJoin cb st ind =
      some ((exec cb (injected pathJoin cb st ind e) ind (e.canRequest cb).2).1,
        emit { (exec cb (injected pathJoin cb st ind e) ind (e.canRequest cb).2).2 with
          req := st.req }
          (.action (exec cb (injected pathJoin cb st ind e) ind (e.canRequest cb).2).1)) := by
  have hc' : (e.canRequest cb).1 = true := hc
  have hreq : revert (exec cb (injected pathJoin cb st ind e) ind (e.canRequest cb).2).2.req
      (injectTarget pathJoin (e.canRequest cb).2 st.req).1 = st.req :=
    (congrArg (fun q => revert q (injectTarget pathJoin (e.canRequest cb).2 st.req).1)
      (exec_frame cb (injected pathJoin cb st ind e) ind (e.canRequest cb).2).1.req).trans
      (revert_injectTarget pathJoin (e.canRequest cb).2 st.req)
  simp only [instrument, he, hc', if_true, reverted, hreq]

/-- The method `instrument` when the breaker refuses the request. -/
theorem instrument_refused (pathJoin : String → String → String) (cb : CircuitBreaker β)
    {st : DoState β ρ} {ind : Nat} {e : Endpoint β}
    (he : st.endpoints[ind]? = some (some e)) (hc : (cb.CanRequest e.breaker).1 = false) :
    instrument pathJoin cb st ind =
      some (.NextEndpoint, emit (asked cb st ind e) (.action .NextEndpoint)) := by
  have hc' : (e.canRequest cb).1 = false := hc
  simp only [instrument, he, hc', Bool.false_eq_true, if_false]

end Client

end Garr

namespace Garr

namespace Client

variable {β ρ : Type}

theorem kept_refl (st : DoState β ρ) : Kept st st := ⟨rfl, rfl, rfl, rfl, rfl⟩

theorem kept_trans {a b c : DoState β ρ} (h1 : Kept a b) (h2 : Kept b c) : Kept a c :=
  ⟨h2.req.trans h1.req, h2.length.trans h1.length, h2.transport.trans h1.transport,
    h2.backoff.trans h1.backoff, h2.lb.trans h1.lb⟩

theorem frame_kept {a b : DoState β ρ} (h : Frame a b) : Kept a b :=
  ⟨h.req, h.length, h.transport, h.backoff, h.lb⟩

theorem kept_consult (st : DoState β ρ) (k : Int) : Kept st (consult st k) :=
  ⟨rfl, rfl, rfl, rfl, rfl⟩

theorem kept_waitAndReset (st : DoState β ρ) (d : Int) : Kept st (waitAndReset st d) := by
  unfold waitAndReset
  split_ifs <;> exact ⟨rfl, rfl, rfl, rfl, rfl⟩

/-- The pass for `None` returns. -/
theorem judgeStep_none (pathJoin : String → String → String) (cb : CircuitBreaker β)
    (picked : Nat) (v : JudgeVars) (st : DoState β ρ) :
    judgeStep pathJoin cb picked .None v st = .inl (.returned, st) := rfl

/-- The pass for `Retrying` when the backoff grants a delay and the endpoint is there. -/
theorem judgeStep_retry_go (pathJoin : String → String → String) (cb : CircuitBreaker β)
    (picked : Nat) (v : JudgeVars) (st : DoState β ρ) {r : EndpointAction × DoState β ρ}
    (hd : 0 ≤ (st.client.backoff.NextDelayMillis (wrap64 (v.retryCount + 1)) st.client.rand).1)
    (hi : instrument pathJoin cb
      (waitAndReset (consult st (wrap64 (v.retryCount + 1)))
        (st.client.backoff.NextDelayMillis (wrap64 (v.retryCount + 1)) st.client.rand).1)
      v.ind = some r) :
    judgeStep pathJoin cb picked .Retrying v st =
      .inr (r.1, { v with retryCount := wrap64 (v.retryCount + 1) }, r.2) := by
  simp only [judgeStep, ge_iff_le, hd, if_true, hi]

/-- The pass for `Retrying` when the backoff grants a delay and the endpoint is missing. -/
theorem judgeStep_retry_panic (pathJoin : String → String → String) (cb : CircuitBreaker β)
    (picked : Nat) (v : JudgeVars) (st : DoState β ρ)
    (hd : 0 ≤ (st.client.backoff.NextDelayMillis (wrap64 (v.retryCount + 1)) st.client.rand).1)
    (hi : instrument pathJoin cb
      (waitAndReset (consult st (wrap64 (v.retryCount + 1)))
        (st.client.backoff.NextDelayMillis (wrap64 (v.retryCount + 1)) st.client.rand).1)
      v.ind = none) :
    judgeStep pathJoin cb picked .Retrying v st =
      .inl (.panicked, waitAndReset (consult st (wrap64 (v.retryCount + 1)))
        (st.client.backoff.NextDelayMillis (wrap64 (v.retryCount + 1)) st.client.rand).1) := by
  simp only [judgeStep, ge_iff_le, hd, if_true, hi]

/-- The pass for `Retrying` when the backoff refuses and the response holds no error. -/
theorem judgeStep_retry_stop (pathJoin : String → String → String) (cb : CircuitBreaker β)
    (picked : Nat) (v : JudgeVars) (st : DoState β ρ) {e : Endpoint β}
    (hd : (st.client.backoff.NextDelayMillis (wrap64 (v.retryCount + 1)) st.client.rand).1 < 0)
    (herr : st.resp.err = none) (he : st.endpoints[v.ind]? = some (some e)) :
    judgeStep pathJoin cb picked .Retrying v st =
      .inl (.returned, retriedState st (wrap64 (v.retryCount + 1)) e.URL.Host) := by
  have hd' : ¬ 0 ≤ (st.client.backoff.NextDelayMillis (wrap64 (v.retryCount + 1))
      st.client.rand).1 := by omega
  simp only [judgeStep, ge_iff_le, hd', if_false, herr, Option.isNone_none, if_true, he]

/-- The pass for `Retrying` when the backoff refuses and the response holds an error. -/
theorem judgeStep_retry_keep (pathJoin : String → String → String) (cb : CircuitBreaker β)
    (picked : Nat) (v : JudgeVars) (st : DoState β ρ) {e : ClientError}
    (hd : (st.client.backoff.NextDelayMillis (wrap64 (v.retryCount + 1)) st.client.rand).1 < 0)
    (herr : st.resp.err = some e) :
    judgeStep pathJoin cb picked .Retrying v st =
      .inl (.returned, consult st (wrap64 (v.retryCount + 1))) := by
  have hd' : ¬ 0 ≤ (st.client.backoff.NextDelayMillis (wrap64 (v.retryCount + 1))
      st.client.rand).1 := by omega
  simp [judgeStep, hd', herr]

/-- The pass for `NextEndpoint` when another endpoint is left and is there. -/
theorem judgeStep_next_go (pathJoin : String → String → String) (cb : CircuitBreaker β)
    (picked : Nat) (v : JudgeVars) (st : DoState β ρ) {r : EndpointAction × DoState β ρ}
    (hne : nextInd st.endpoints.length v.ind ≠ picked)
    (hi : instrument pathJoin cb (resetResp st) (nextInd st.endpoints.length v.ind) = some r) :
    judgeStep pathJoin cb picked .NextEndpoint v st =
      .inr (r.1,
        { ind := nextInd st.endpoints.length v.ind,
          lastErr := recordErr v.lastErr st.resp.err, retryCount := 0 }, r.2) := by
  simp only [judgeStep, ne_eq, hne, not_false_eq_true, if_true, hi]

/-- The pass for `NextEndpoint` when another endpoint is left and is missing. -/
theorem judgeStep_next_panic (pathJoin : String → String → String) (cb : CircuitBreaker β)
    (picked : Nat) (v : JudgeVars) (st : DoState β ρ)
    (hne : nextInd st.endpoints.length v.ind ≠ picked)
    (hi : instrument pathJoin cb (resetResp st) (nextInd st.endpoints.length v.ind) = none) :
    judgeStep pathJoin cb picked .NextEndpoint v st = .inl (.panicked, resetResp st) := by
  simp only [judgeStep, ne_eq, hne, not_false_eq_true, if_true, hi]

/-- The pass for `NextEndpoint` when the traversal is back at the picked endpoint. -/
theorem judgeStep_next_stop (pathJoin : String → String → String) (cb : CircuitBreaker β)
    (picked : Nat) (v : JudgeVars) (st : DoState β ρ)
    (heq : nextInd st.endpoints.length v.ind = picked) :
    judgeStep pathJoin cb picked .NextEndpoint v st =
      .inl (.returned, failedState st v.lastErr) := by
  simp only [judgeStep, ne_eq, heq, not_true_eq_false, if_false]

/-- A pass keeps the request, the number of endpoints, the transport, the backoff and the
balancer. -/
theorem judgeStep_kept (pathJoin : String → String → String) (cb : CircuitBreaker β)
    (picked : Nat) (need : EndpointAction) (v : JudgeVars) (st : DoState β ρ) :
    (∀ r, judgeStep pathJoin cb picked need v st = .inl r → Kept st r.2) ∧
    (∀ r, judgeStep pathJoin cb picked need v st = .inr r → Kept st r.2.2) := by
  cases need with
  | None =>
    refine ⟨fun r h => ?_, fun r h => ?_⟩
    · rw [judgeStep_none] at h
      cases h
      exact kept_refl st
    · rw [judgeStep_none] at h
      cases h
  | Retrying =>
    have hk := kept_trans (kept_consult st (wrap64 (v.retryCount + 1)))
      (kept_waitAndReset (consult st (wrap64 (v.retryCount + 1)))
        (st.client.backoff.NextDelayMillis (wrap64 (v.retryCount + 1)) st.client.rand).1)
    by_cases hd : 0 ≤ (st.client.backoff.NextDelayMillis (wrap64 (v.retryCount + 1))
        st.client.rand).1
    · cases hi : instrument pathJoin cb
        (waitAndReset (consult st (wrap64 (v.retryCount + 1)))
          (st.client.backoff.NextDelayMillis (wrap64 (v.retryCount + 1)) st.client.rand).1)
        v.ind with
      | none =>
        rw [judgeStep_retry_panic pathJoin cb picked v st hd hi]
        refine ⟨fun r h => ?_, fun r h => (by cases h)⟩
        cases h
        exact hk
      | some r0 =>
        rw [judgeStep_retry_go pathJoin cb picked v st hd hi]
        refine ⟨fun r h => (by cases h), fun r h => ?_⟩
        cases h
        exact kept_trans hk (frame_kept (instrument_spec pathJoin cb hi).1)
    · simp only [judgeStep, ge_iff_le, hd, if_false]
      split_ifs
      · split
        · refine ⟨fun r h => ?_, fun r h => (by cases h)⟩
          cases h
          exact ⟨rfl, rfl, rfl, rfl, rfl⟩
        · refine ⟨fun r h => ?_, fun r h => (by cases h)⟩
          cases h
          exact kept_consult _ _
      · refine ⟨fun r h => ?_, fun r h => (by cases h)⟩
        cases h
        exact kept_consult _ _
  | NextEndpoint =>
    by_cases hne : nextInd st.endpoints.length v.ind = picked
    · rw [judgeStep_next_stop pathJoin cb picked v st hne]
      refine ⟨fun r h => ?_, fun r h => (by cases h)⟩
      cases h
      exact ⟨rfl, rfl, rfl, rfl, rfl⟩
    · cases hi : instrument pathJoin cb (resetResp st) (nextInd st.endpoints.length v.ind) with
      | none =>
        rw [judgeStep_next_panic pathJoin cb picked v st hne hi]
        refine ⟨fun r h => ?_, fun r h => (by cases h)⟩
        cases h
        exact ⟨rfl, rfl, rfl, rfl, rfl⟩
      | some r0 =>
        rw [judgeStep_next_go pathJoin cb picked v st hne hi]
        refine ⟨fun r h => (by cases h), fun r h => ?_⟩
        cases h
        exact kept_trans (⟨rfl, rfl, rfl, rfl, rfl⟩ : Kept st (resetResp st))
          (frame_kept (instrument_spec pathJoin cb hi).1)

/-- The loop of `judge` keeps the request, the number of endpoints, the transport, the
backoff and the balancer. -/
theorem judgeLoop_kept (pathJoin : String → String → String) (cb : CircuitBreaker β)
    (picked : Nat) :
    ∀ (fuel : Nat) (need : EndpointAction) (v : JudgeVars) (st : DoState β ρ),
      Kept st (judgeLoop pathJoin cb picked fuel need v st).2 := by
  intro fuel
  induction fuel with
  | zero => intro need v st; exact kept_refl st
  | succ fuel ih =>
    intro need v st
    obtain ⟨hl, hr⟩ := judgeStep_kept pathJoin cb picked need v st
    simp only [judgeLoop]
    cases hs : judgeStep pathJoin cb picked need v st with
    | inl r => exact hl r hs
    | inr r => exact kept_trans (hr r hs) (ih r.1 r.2.1 r.2.2)

/-- The method `Do` when the first attempt returns: `judge` runs when an action is needed
and there are at least two endpoints. -/
theorem do_eq (pathJoin : String → String → String) (cb : CircuitBreaker β) (fuel : Nat)
    {c : Client β ρ} (req : Request) {lb : LB β} {r : EndpointAction × DoState β ρ}
    (hlb : c.lb = some lb) (hne : lb.Endpoints.length ≠ 0) (hp : 0 ≤ lb.Pick.1)
    (hi : instrument pathJoin cb (startState c lb req) lb.Pick.1.toNat = some r) :
    Do pathJoin cb fuel c req =
      if r.1 ≠ .None ∧ lb.Endpoints.length > 1 then
        ((judge pathJoin cb fuel r.1 lb.Pick.1.toNat r.2).1,
          writeBack (judge pathJoin cb fuel r.1 lb.Pick.1.toNat r.2).2)
      else (.returned, writeBack r.2) := by
  have hp' : ¬ lb.Pick.1 < 0 := by omega
  simp only [Do, hlb, hne, if_false, hp', hi]

/-- The request is the same after `Do` as before. -/
theorem do_req (pathJoin : String → String → String) (cb : CircuitBreaker β) (fuel : Nat)
    (c : Client β ρ) (req : Request) : (Do pathJoin cb fuel c req).2.req = req := by
  cases hlb : c.lb with
  | none => simp only [Do, hlb]; rfl
  | some lb =>
    by_cases hne : lb.Endpoints.length = 0
    · simp only [Do, hlb, hne, if_true]; rfl
    · by_cases hp : lb.Pick.1 < 0
      · simp only [Do, hlb, hne, if_false, hp, if_true]; rfl
      · cases hi : instrument pathJoin cb (startState c lb req) lb.Pick.1.toNat with
        | none => simp only [Do, hlb, hne, if_false, hp, hi]; rfl
        | some r =>
          rw [do_eq pathJoin cb fuel req hlb hne (by omega) hi]
          have hf := (instrument_spec pathJoin cb hi).1
          split_ifs
          · exact ((judgeLoop_kept pathJoin cb _ fuel _ _ _).req).trans hf.req
          · exact hf.req

end Client

end Garr

namespace Garr

/-- C19: for every endpoint and request, `revert` after `injectTarget` restores the
scheme, opaque, user, host and path of the request URL, indeed the whole request; hence
the request, and its URL, is after `Client.Do` what it was on entry, however the run
went (returned, panicked, or still running when the fuel of the model ran out). -/
theorem do_restores_url {β ρ : Type} (pathJoin : String → String → String)
    (cb : CircuitBreaker β) (fuel : Nat) (c : Client β ρ) (req : Request)
    (endpoint : Endpoint β) :
    (revert (injectTarget pathJoin endpoint req).2
        (injectTarget pathJoin endpoint req).1).r.URL.Scheme = req.r.URL.Scheme ∧
    (revert (injectTarget pathJoin endpoint req).2
        (injectTarget pathJoin endpoint req).1).r.URL.Opaque = req.r.URL.Opaque ∧
    (revert (injectTarget pathJoin endpoint req).2
        (injectTarget pathJoin endpoint req).1).r.URL.User = req.r.URL.User ∧
    (revert (injectTarget pathJoin endpoint req).2
        (injectTarget pathJoin endpoint req).1).r.URL.Host = req.r.URL.Host ∧
    (revert (injectTarget pathJoin endpoint req).2
        (injectTarget pathJoin endpoint req).1).r.URL.Path = req.r.URL.Path ∧
    revert (injectTarget pathJoin endpoint req).2 (injectTarget pathJoin endpoint req).1 = req ∧
    (Client.Do pathJoin cb fuel c req).2.req.r.URL = req.r.URL ∧
    (Client.Do pathJoin cb fuel c req).2.req = req := by
  refine ⟨rfl, rfl, rfl, rfl, rfl, rfl, ?_, Client.do_req pathJoin cb fuel c req⟩
  rw [Client.do_req pathJoin cb fuel c req]

/-- `Pick` returns a position of the slice when there is an endpoint. -/
theorem RoundRobinLB.pick_lt {β : Type} (p : RoundRobinLB β) (hn : 0 < p.n) :
    0 ≤ p.Pick.1 ∧ p.Pick.1 < p.n := by
  simp only [RoundRobinLB.Pick, hn, gt_iff_lt, if_true]
  constructor
  · exact Int.ofNat_nonneg _
  · exact_mod_cast Nat.mod_lt _ hn

/-- As long as the index does not wrap around, the picks are the successive residues. -/
theorem RoundRobinLB.picks_eq {β : Type} :
    ∀ (k : Nat) (p : RoundRobinLB β), 0 < p.n → p.index + k < 2 ^ 32 →
      RoundRobinLB.picks k p =
        (List.range k).map fun i => (((p.index + 1 + i) % p.n : Nat) : Int) := by
  intro k
  induction k with
  | zero => intro p _ _; rfl
  | succ k ih =>
    intro p hn hk
    have h1 : (p.index + 1) % 2 ^ 32 = p.index + 1 := Nat.mod_eq_of_lt (by omega)
    have hp1 : p.Pick.1 = (((p.index + 1) % p.n : Nat) : Int) := by
      simp only [RoundRobinLB.Pick, hn, gt_iff_lt, if_true, h1]
    have hp2 : p.Pick.2 = { p with index := p.index + 1 } := by
      simp only [RoundRobinLB.Pick, hn, gt_iff_lt, if_true, h1]
    rw [RoundRobinLB.picks, hp1, hp2, ih { p with index := p.index + 1 } hn
      (by show p.index + 1 + k < 2 ^ 32; omega), List.range_succ_eq_map, List.map_cons,
      List.map_map]
    congr 1
    apply List.map_congr_left
    intro i _
    show (((p.index + 1 + 1 + i) % p.n : Nat) : Int) = (((p.index + 1 + (i + 1)) % p.n : Nat) : Int)
    rw [show p.index + 1 + 1 + i = p.index + 1 + (i + 1) by omega]

/-- The residues of `n` successive numbers are the numbers below `n`, each once. -/
theorem residues_perm (a n : Nat) :
    ((List.range n).map fun i => (a + i) % n).Perm (List.range n) := by
  have hnd : ((List.range n).map fun i => (a + i) % n).Nodup := by
    apply List.Nodup.map_on _ (List.nodup_range n)
    intro i hi j hj h
    rw [List.mem_range] at hi hj
    have h1 : i ≡ j [MOD n] := Nat.ModEq.add_left_cancel' a h
    have h2 : i % n = j % n := h1
    rwa [Nat.mod_eq_of_lt hi, Nat.mod_eq_of_lt hj] at h2
  apply (List.subperm_of_subset hnd _).perm_of_length_le (by simp)
  intro x hx
  rw [List.mem_map] at hx
  obtain ⟨i, hi, rfl⟩ := hx
  rw [List.mem_range] at hi ⊢
  exact Nat.mod_lt _ (by omega)

/-- As long as the index does not wrap around, `n` successive picks return every position
exactly once. -/
theorem RoundRobinLB.picks_perm {β : Type} (p : RoundRobinLB β) (hn : 0 < p.n)
    (hk : p.index + p.n < 2 ^ 32) :
    (RoundRobinLB.picks p.n p).Perm ((List.range p.n).map fun i : Nat => (i : Int)) := by
  rw [RoundRobinLB.picks_eq p.n p hn hk]
  have h := (residues_perm (p.index + 1) p.n).map fun i : Nat => (i : Int)
  rw [List.map_map] at h
  exact h

/-- C20, at the failing input: a `RoundRobinLB` built with the random start index
`2^32 - 2` and initialised with three endpoints. The three picks are 0, 0 and 1: the
`uint32` index wraps around between the first and the second pick, the position 2 is
not picked and the picks sum to 1, not 3. -/
theorem roundRobin_picks_at_wrap :
    ((RoundRobinLBBuilder.Build (2 ^ 32 - 2) : RoundRobinLB Unit).Initialize
      [some (endpointOf "github.com" ()), some (endpointOf "google.com" ()),
        some (endpointOf "golang.org" ())]).n = 3 ∧
    RoundRobinLB.picks 3
      ((RoundRobinLBBuilder.Build (2 ^ 32 - 2) : RoundRobinLB Unit).Initialize
        [some (endpointOf "github.com" ()), some (endpointOf "google.com" ()),
          some (endpointOf "golang.org" ())]) = [0, 0, 1] ∧
    (RoundRobinLB.picks 3
      ((RoundRobinLBBuilder.Build (2 ^ 32 - 2) : RoundRobinLB Unit).Initialize
        [some (endpointOf "github.com" ()), some (endpointOf "google.com" ()),
          some (endpointOf "golang.org" ())])).sum = 1 := by
  refine ⟨by decide, by decide, by decide⟩

end Garr

namespace Garr

/-- Reading a trace in two parts. -/
theorem followRun_append (n : Nat) (a b : List Event) :
    ∀ s, followRun n s (a ++ b) = (followRun n s a).bind fun s1 => followRun n s1 b := by
  induction a with
  | nil => intro s; rfl
  | cons e t ih =>
    intro s
    simp only [List.cons_append, followRun]
    cases followStep n s e with
    | none => rfl
    | some s1 => exact ih s1

namespace Client

variable {β ρ : Type}

theorem consult_trace (st : DoState β ρ) (k : Int) :
    (consult st k).client.trace = st.client.trace ++
      [.backoff k (st.client.backoff.NextDelayMillis k st.client.rand).1] := rfl

theorem waitAndReset_trace (st : DoState β ρ) (d : Int) :
    (waitAndReset st d).client.trace = st.client.trace ++ (if d > 0 then [.sleep d] else []) := by
  unfold waitAndReset
  split_ifs <;> simp [emit]

/-- The events of one attempt, read under the policy from a state that allows an attempt
at `ind`. -/
theorem instrument_follows (pathJoin : String → String → String) (cb : CircuitBreaker β)
    {st : DoState β ρ} {ind : Nat} {r : EndpointAction × DoState β ρ} (n : Nat)
    (h : instrument pathJoin cb st ind = some r) (s : Option Follow) (fresh : Bool)
    (hs : followStep n s (.attempt ind) = some (some { ind := ind, act := none, fresh := fresh })) :
    ∃ evs, r.2.client.trace = st.client.trace ++ evs ∧
      followRun n s evs = some (some { ind := ind, act := some r.1, fresh := fresh }) := by
  obtain ⟨-, e, e', -, -, -, -, h1 | h1⟩ := instrument_spec pathJoin cb h
  · obtain ⟨-, hr, htr, -⟩ := h1
    refine ⟨_, htr, ?_⟩
    rw [hr]
    simp only [followRun, hs]
    rfl
  · obtain ⟨-, htr, -⟩ := h1
    refine ⟨_, htr, ?_⟩
    simp only [followRun, hs]
    rfl

/-- The events of `judge` follow the policy. -/
theorem judgeLoop_follows (pathJoin : String → String → String) (cb : CircuitBreaker β)
    (picked : Nat) :
    ∀ (fuel : Nat) (need : EndpointAction) (v : JudgeVars) (st : DoState β ρ) (fresh : Bool),
      (fresh = true → v.retryCount = 0) → v.ind < st.endpoints.length →
      ∃ evs s1, (judgeLoop pathJoin cb picked fuel need v st).2.client.trace =
          st.client.trace ++ evs ∧
        followRun st.endpoints.length
          (some { ind := v.ind, act := some need, fresh := fresh }) evs = some s1 := by
  intro fuel
  induction fuel with
  | zero =>
    intro need v st fresh _ _
    exact ⟨[], some { ind := v.ind, act := some need, fresh := fresh }, by simp [judgeLoop], rfl⟩
  | succ fuel ih =>
    intro need v st fresh hfresh hlt
    simp only [judgeLoop]
    cases need with
    | None =>
      rw [judgeStep_none]
      exact ⟨[], some { ind := v.ind, act := some .None, fresh := fresh }, by simp, rfl⟩
    | Retrying =>
      have hk : followStep st.endpoints.length
          (some { ind := v.ind, act := some .Retrying, fresh := fresh })
          (.backoff (wrap64 (v.retryCount + 1))
            (st.client.backoff.NextDelayMillis (wrap64 (v.retryCount + 1)) st.client.rand).1) =
          some (some { ind := v.ind, act := some .Retrying, fresh := false }) := by
        simp only [followStep]
        rw [if_neg]
        rintro ⟨hf, hne⟩
        rw [hfresh hf] at hne
        exact hne (by decide)
      by_cases hd : 0 ≤ (st.client.backoff.NextDelayMillis (wrap64 (v.retryCount + 1))
          st.client.rand).1
      · have hsl : followRun st.endpoints.length
            (some { ind := v.ind, act := some .Retrying, fresh := false })
            (if (st.client.backoff.NextDelayMillis (wrap64 (v.retryCount + 1))
                st.client.rand).1 > 0 then
              [Event.sleep (st.client.backoff.NextDelayMillis (wrap64 (v.retryCount + 1))
                st.client.rand).1] else []) =
            some (some { ind := v.ind, act := some .Retrying, fresh := false }) := by
          split_ifs <;> rfl
        cases hi : instrument pathJoin cb
          (waitAndReset (consult st (wrap64 (v.retryCount + 1)))
            (st.client.backoff.NextDelayMillis (wrap64 (v.retryCount + 1)) st.client.rand).1)
          v.ind with
        | none =>
          rw [judgeStep_retry_panic pathJoin cb picked v st hd hi]
          refine ⟨_, some { ind := v.ind, act := some .Retrying, fresh := false },
            by rw [waitAndReset_trace, consult_trace, List.append_assoc], ?_⟩
          rw [followRun_append]
          simp only [followRun, hk, Option.bind]
          exact hsl
        | some r =>
          rw [judgeStep_retry_go pathJoin cb picked v st hd hi]
          obtain ⟨evs1, htr1, hrun1⟩ := instrument_follows pathJoin cb st.endpoints.length hi
            (some { ind := v.ind, act := some .Retrying, fresh := false }) false
            (by simp [followStep])
          have hkept := kept_trans (kept_consult st (wrap64 (v.retryCount + 1)))
            (kept_trans (kept_waitAndReset (consult st (wrap64 (v.retryCount + 1)))
              (st.client.backoff.NextDelayMillis (wrap64 (v.retryCount + 1))
                st.client.rand).1) (frame_kept (instrument_spec pathJoin cb hi).1))
          obtain ⟨evs2, s2, htr2, hrun2⟩ := ih r.1
            { v with retryCount := wrap64 (v.retryCount + 1) } r.2 false
            (fun h => by cases h) (by rw [hkept.length]; exact hlt)
          rw [hkept.length] at hrun2
          refine ⟨Event.backoff (wrap64 (v.retryCount + 1))
              (st.client.backoff.NextDelayMillis (wrap64 (v.retryCount + 1)) st.client.rand).1 ::
            ((if (st.client.backoff.NextDelayMillis (wrap64 (v.retryCount + 1))
                st.client.rand).1 > 0 then
              [Event.sleep (st.client.backoff.NextDelayMillis (wrap64 (v.retryCount + 1))
                st.client.rand).1] else []) ++ (evs1 ++ evs2)), s2, ?_, ?_⟩
          · rw [htr2, htr1, waitAndReset_trace, consult_trace]
            simp only [List.append_assoc, List.singleton_append, List.cons_append, List.nil_append]
          · simp only [followRun, hk]
            rw [followRun_append, hsl]
            simp only [Option.bind]
            rw [followRun_append, hrun1]
            exact hrun2
      · have hfin : ∃ o st', judgeStep pathJoin cb picked .Retrying v st = .inl (o, st') ∧
            st'.client.trace = (consult st (wrap64 (v.retryCount + 1))).client.trace := by
          simp only [judgeStep, ge_iff_le, hd, if_false]
          split_ifs
          · split
            · exact ⟨_, _, rfl, rfl⟩
            · exact ⟨_, _, rfl, rfl⟩
          · exact ⟨_, _, rfl, rfl⟩
        obtain ⟨o, st', hst, htr⟩ := hfin
        rw [hst]
        refine ⟨_, some { ind := v.ind, act := some .Retrying, fresh := false },
          by rw [htr, consult_trace], ?_⟩
        simp only [followRun, hk]
    | NextEndpoint =>
      by_cases hne : nextInd st.endpoints.length v.ind = picked
      · rw [judgeStep_next_stop pathJoin cb picked v st hne]
        exact ⟨[], some { ind := v.ind, act := some .NextEndpoint, fresh := fresh },
          by simp [failedState], rfl⟩
      · cases hi : instrument pathJoin cb (resetResp st) (nextInd st.endpoints.length v.ind) with
        | none =>
          rw [judgeStep_next_panic pathJoin cb picked v st hne hi]
          exact ⟨[], some { ind := v.ind, act := some .NextEndpoint, fresh := fresh },
            by simp [resetResp], rfl⟩
        | some r =>
          rw [judgeStep_next_go pathJoin cb picked v st hne hi]
          have hmod : nextInd st.endpoints.length v.ind = (v.ind + 1) % st.endpoints.length := by
            unfold nextInd
            split_ifs with h
            · rw [h, Nat.mod_self]
            · rw [Nat.mod_eq_of_lt (by omega)]
          obtain ⟨evs1, htr1, hrun1⟩ := instrument_follows pathJoin cb st.endpoints.length hi
            (some { ind := v.ind, act := some .NextEndpoint, fresh := fresh }) true
            (by simp [followStep, hmod])
          have hkept := frame_kept (instrument_spec pathJoin cb hi).1
          have hlt1 : nextInd st.endpoints.length v.ind < st.endpoints.length := by
            rw [hmod]
            exact Nat.mod_lt _ (by omega)
          obtain ⟨evs2, s2, htr2, hrun2⟩ := ih r.1
            { ind := nextInd st.endpoints.length v.ind,
              lastErr := recordErr v.lastErr st.resp.err, retryCount := 0 } r.2 true
            (fun _ => rfl) (by rw [hkept.length]; exact hlt1)
          rw [hkept.length] at hrun2
          refine ⟨evs1 ++ evs2, s2, ?_, ?_⟩
          · rw [htr2, htr1]
            simp [resetResp]
          · rw [followRun_append, hrun1]
            exact hrun2

/-- The events of `Do` follow the policy. -/
theorem do_follows (pathJoin : String → String → String) (cb : CircuitBreaker β) (fuel : Nat)
    (c : Client β ρ) (req : Request) :
    ∃ evs s1, (Do pathJoin cb fuel c req).2.client.trace = c.trace ++ evs ∧
      followRun ((c.lb.map fun l => l.Endpoints.length).getD 0) none evs = some s1 := by
  cases hlb : c.lb with
  | none => exact ⟨[], none, by simp [Do, hlb, noEndpoints], rfl⟩
  | some lb =>
    by_cases hne : lb.Endpoints.length = 0
    · exact ⟨[], none, by simp [Do, hlb, hne, noEndpoints], rfl⟩
    · by_cases hp : lb.Pick.1 < 0
      · exact ⟨[], none, by simp [Do, hlb, hne, hp, startState], rfl⟩
      · cases hi : instrument pathJoin cb (startState c lb req) lb.Pick.1.toNat with
        | none =>
          refine ⟨[], none, ?_, rfl⟩
          simp only [Do, hlb, hne, if_false, hp, hi]
          simp [startState]
        | some r =>
          rw [do_eq pathJoin cb fuel req hlb hne (by omega) hi]
          obtain ⟨evs1, htr1, hrun1⟩ := instrument_follows pathJoin cb lb.Endpoints.length hi
            none true rfl
          have hkept := frame_kept (instrument_spec pathJoin cb hi).1
          have hlen : r.2.endpoints.length = lb.Endpoints.length := hkept.length
          have hlt : lb.Pick.1.toNat < r.2.endpoints.length := by
            obtain ⟨-, e, e', -, he', -⟩ := instrument_spec pathJoin cb hi
            by_contra hge
            rw [List.getElem?_eq_none (by omega)] at he'
            cases he'
          simp only [Option.map_some', Option.getD_some]
          split_ifs
          · obtain ⟨evs2, s2, htr2, hrun2⟩ := judgeLoop_follows pathJoin cb lb.Pick.1.toNat fuel
              r.1 { ind := lb.Pick.1.toNat, lastErr := [], retryCount := 0 } r.2 true
              (fun _ => rfl) hlt
            rw [hlen] at hrun2
            refine ⟨evs1 ++ evs2, s2, ?_, ?_⟩
            · show (judgeLoop pathJoin cb lb.Pick.1.toNat fuel r.1
                { ind := lb.Pick.1.toNat, lastErr := [], retryCount := 0 } r.2).2.client.trace = _
              rw [htr2, htr1]
              simp [startState]
            · rw [followRun_append, hrun1]
              exact hrun2
          · exact ⟨evs1, _, by
              show r.2.client.trace = _
              rw [htr1]
              rfl, hrun1⟩

end Client

/-- C18: in every run of `Client.Do`, whatever the balancer, the breakers, the transport,
the hooks and the backoff do and however long the run lasts, the events added to the trace
follow the policy for the `n` endpoints of the balancer: an attempt that follows a
`Retrying` result targets the same position, an attempt that follows a `NextEndpoint`
result targets the position `(previous + 1) mod n`, and the first consultation of the
backoff after an endpoint was reached has attempt number 1. -/
theorem do_follows_policy {β ρ : Type} (pathJoin : String → String → String)
    (cb : CircuitBreaker β) (fuel : Nat) (c : Client β ρ) (req : Request) :
    ∃ evs, (Client.Do pathJoin cb fuel c req).2.client.trace = c.trace ++ evs ∧
      followsPolicy ((c.lb.map fun l => l.Endpoints.length).getD 0) evs = true := by
  obtain ⟨evs, s1, h1, h2⟩ := Client.do_follows pathJoin cb fuel c req
  exact ⟨evs, h1, by simp [followsPolicy, h2]⟩

/-- The policy rejects a retry on another position, a failover that skips a position, an
attempt after `None` and a first consultation of the backoff with another attempt
number than 1; it accepts the trace of two retries followed by a failover. -/
theorem followsPolicy_examples :
    followsPolicy 3 [.attempt 0, .action .Retrying, .backoff 1 50, .attempt 1] = false ∧
    followsPolicy 3 [.attempt 0, .action .NextEndpoint, .attempt 2] = false ∧
    followsPolicy 3 [.attempt 0, .action .None, .attempt 0] = false ∧
    followsPolicy 3 [.attempt 0, .action .Retrying, .backoff 2 50, .attempt 0] = false ∧
    followsPolicy 3 [.attempt 2, .action .Retrying, .backoff 1 50, .attempt 2,
      .action .Retrying, .backoff 2 50, .attempt 2, .action .NextEndpoint, .attempt 0,
      .action .Retrying, .backoff 2 50] = false ∧
    followsPolicy 3 [.attempt 2, .action .Retrying, .backoff 1 50, .sleep 50, .attempt 2,
      .action .Retrying, .backoff 2 50, .attempt 2, .action .NextEndpoint, .attempt 0,
      .action .Retrying, .backoff 1 50, .attempt 0, .action .None] = true := by
  refine ⟨by decide, by decide, by decide, by decide, by decide, by decide⟩

end Garr

namespace Garr

theorem attemptsOf_append (a b : List Event) :
    attemptsOf (a ++ b) = attemptsOf a ++ attemptsOf b := by
  induction a with
  | nil => rfl
  | cons e t ih => cases e <;> simp [attemptsOf, ih]

theorem transportsOf_append (a b : List Event) :
    transportsOf (a ++ b) = transportsOf a ++ transportsOf b := by
  induction a with
  | nil => rfl
  | cons e t ih => cases e <;> simp [transportsOf, ih]

/-- The injected request depends on the endpoint through its URL only. -/
theorem injectTarget_congr {β : Type} (pathJoin : String → String → String)
    {e e' : Endpoint β} (h : e'.URL = e.URL) (req : Request) :
    injectTarget pathJoin e' req = injectTarget pathJoin e req := by
  simp only [injectTarget, h]

namespace Client

variable {β ρ : Type}

/-- Under `AsksRetrying` the method `exec` returns `Retrying`; the response holds no
error after a response of the transport and the error of the cancelled or timed-out
request after an error. -/
theorem exec_asks (cb : CircuitBreaker β) (st : DoState β ρ) (ind : Nat) (ep : Endpoint β)
    (hask : AsksRetrying st.client.transport st.req) (herr : st.resp.err = none) :
    (exec cb st ind ep).1 = .Retrying ∧
    (exec cb st ind ep).2.resp.err =
      ctxErrorAt st.client.transport st.req.r.URL st.client.calls := by
  have h := hask st.client.calls st.req.r.URL
  unfold ctxErrorAt
  cases ht : st.client.transport st.client.calls st.req.r.URL with
  | response r =>
    rw [ht] at h
    obtain ⟨f, hf, hfr⟩ := h
    simp only [exec, ht, hf, hfr]
    simp [herr]
  | error e =>
    rw [ht] at h
    obtain ⟨hk, f, hf, hfr⟩ := h
    simp only [exec, ht, hk, if_true, hf, hfr]
    simp

/-- One attempt on an endpoint whose breaker allows it, under `AsksRetrying`. -/
theorem attempt_asks (pathJoin : String → String → String) (cb : CircuitBreaker β)
    {I : β → Prop} (hI : AlwaysAllows cb I) (st : DoState β ρ) {picked : Nat}
    {e : Endpoint β} (he : st.endpoints[picked]? = some (some e)) (hIe : I e.breaker)
    (hask : AsksRetrying st.client.transport st.req) (herr : st.resp.err = none) :
    ∃ st' e', instrument pathJoin cb st picked = some (.Retrying, st') ∧ Frame st st' ∧
      st'.endpoints[picked]? = some (some e') ∧ e'.URL = e.URL ∧ I e'.breaker ∧
      st'.client.trace = st.client.trace ++
        [.attempt picked, .transport (injectTarget pathJoin e st.req).2.r.URL,
          .action .Retrying] ∧
      st'.client.calls = st.client.calls + 1 ∧
      st'.resp.err = ctxErrorAt st.client.transport (injectTarget pathJoin e st.req).2.r.URL
        st.client.calls := by
  obtain ⟨hc, hI1, -, -⟩ := hI e.breaker hIe
  obtain ⟨r, hr⟩ := instrument_isSome pathJoin cb he
  have heq := instrument_allowed pathJoin cb he hc
  rw [hr] at heq
  have h2 := Option.some.inj heq
  have hask' : AsksRetrying (injected pathJoin cb st picked e).client.transport
      (injected pathJoin cb st picked e).req := hask
  obtain ⟨ha, hre⟩ := exec_asks cb (injected pathJoin cb st picked e) picked (e.canRequest cb).2
    hask' herr
  have hr1 : r.1 = .Retrying := (congrArg Prod.fst h2).trans ha
  have hr2 : r.2.resp.err = ctxErrorAt st.client.transport
      (injectTarget pathJoin e st.req).2.r.URL st.client.calls :=
    (congrArg (fun x => x.2.resp.err) h2).trans hre
  obtain ⟨hf, e0, e', he0, he', hurl, -, h1⟩ := instrument_spec pathJoin cb hr
  rw [he] at he0
  cases he0
  rcases h1 with h1 | h1
  · rw [hc] at h1
    exact absurd h1.1 (by simp)
  · obtain ⟨-, htr, hcalls, hbr⟩ := h1
    refine ⟨r.2, e', ?_, hf, he', hurl, ?_, ?_, hcalls, hr2⟩
    · rw [hr, ← hr1]
    · rcases hbr with h | h | h <;> rw [h]
      · exact hI1
      · exact (hI _ hI1).2.2.1
      · exact (hI _ hI1).2.2.2
    · rw [htr, hr1]

/-- The limited backoff refuses from the attempt number `L` on and grants the delay of
its delegate before. -/
theorem limited_delay (D : Backoff ρ) (L k : Int) (r : ρ) :
    (k ≥ L → ((AttemptLimitingBackoff.toBackoff { delegate := D, limit := L }).NextDelayMillis
      k r) = (-1, r)) ∧
    (k < L → ((AttemptLimitingBackoff.toBackoff { delegate := D, limit := L }).NextDelayMillis
      k r) = D.NextDelayMillis k r) := by
  constructor
  · intro h
    simp [AttemptLimitingBackoff.toBackoff, AttemptLimitingBackoff.NextDelayMillis, h]
  · intro h
    have h' : ¬ k ≥ L := by omega
    simp [AttemptLimitingBackoff.toBackoff, AttemptLimitingBackoff.NextDelayMillis, h']

/-- The retries of `judge` on the picked endpoint under `AsksRetrying`, with a backoff
limited to `L` attempts: `m` more attempts when `retryCount + 1 + m = L`, then the method
returns. -/
theorem judgeLoop_retrying (pathJoin : String → String → String) (cb : CircuitBreaker β)
    {I : β → Prop} (hI : AlwaysAllows cb I) (picked : Nat) (req : Request)
    (T : Nat → URL → TransportResult) (D : Backoff ρ) (L : Int) (e0 : Endpoint β)
    (hD : ∀ k r, 0 ≤ (D.NextDelayMillis k r).1) (hL : L < 2 ^ 63) (hask : AsksRetrying T req) :
    ∀ (m fuel : Nat) (v : JudgeVars) (st : DoState β ρ),
      m + 1 ≤ fuel → v.ind = picked → 0 ≤ v.retryCount → v.retryCount + 1 + m = L →
      st.req = req → st.client.transport = T →
      st.client.backoff = AttemptLimitingBackoff.toBackoff { delegate := D, limit := L } →
      (∃ e, st.endpoints[picked]? = some (some e) ∧ e.URL = e0.URL ∧ I e.breaker) →
      1 ≤ st.client.calls →
      st.resp.err = ctxErrorAt T (injectTarget pathJoin e0 req).2.r.URL (st.client.calls - 1) →
      ∃ st' evs, judgeLoop pathJoin cb picked fuel .Retrying v st = (.returned, st') ∧
        st'.client.trace = st.client.trace ++ evs ∧
        attemptsOf evs = List.replicate m picked ∧
        transportsOf evs = List.replicate m (injectTarget pathJoin e0 req).2.r.URL ∧
        st'.client.calls = st.client.calls + m ∧
        st'.resp.err = some
          ((ctxErrorAt T (injectTarget pathJoin e0 req).2.r.URL
              (st.client.calls + m - 1)).getD
          (.retried e0.URL.Host req.r.URL L)) := by
  intro m
  induction m with
  | zero =>
    intro fuel v st hfuel hind hrc hsum hreq hT hb hep hcalls herr
    obtain ⟨fuel, rfl⟩ : ∃ f, fuel = f + 1 := ⟨fuel - 1, by omega⟩
    obtain ⟨e, he, hurl, -⟩ := hep
    have hk : wrap64 (v.retryCount + 1) = L := by
      rw [wrap64_of_isInt64 ⟨by omega, by omega⟩]
      omega
    have hd : (st.client.backoff.NextDelayMillis (wrap64 (v.retryCount + 1))
        st.client.rand).1 < 0 := by
      rw [hb, hk, (limited_delay D L L st.client.rand).1 (le_refl L)]
      simp
    simp only [judgeLoop]
    cases herr' : st.resp.err with
    | none =>
      rw [judgeStep_retry_stop pathJoin cb picked v st hd herr' (by rw [hind]; exact he)]
      refine ⟨_, [.backoff (wrap64 (v.retryCount + 1))
        (st.client.backoff.NextDelayMillis (wrap64 (v.retryCount + 1)) st.client.rand).1],
        rfl, rfl, rfl, rfl, rfl, ?_⟩
      rw [herr'] at herr
      simp only [Nat.add_zero]
      rw [← herr]
      simp only [retriedState, hk, hurl, hreq, Option.getD_none]
    | some err =>
      rw [judgeStep_retry_keep pathJoin cb picked v st hd herr']
      refine ⟨_, [.backoff (wrap64 (v.retryCount + 1))
        (st.client.backoff.NextDelayMillis (wrap64 (v.retryCount + 1)) st.client.rand).1],
        rfl, rfl, rfl, rfl, rfl, ?_⟩
      rw [herr'] at herr
      simp only [Nat.add_zero]
      rw [← herr, Option.getD_some]
      exact herr'
  | succ m ih =>
    intro fuel v st hfuel hind hrc hsum hreq hT hb hep hcalls herr
    obtain ⟨fuel, rfl⟩ : ∃ f, fuel = f + 1 := ⟨fuel - 1, by omega⟩
    obtain ⟨e, he, hurl, hIe⟩ := hep
    have hk : wrap64 (v.retryCount + 1) = v.retryCount + 1 :=
      wrap64_of_isInt64 ⟨by omega, by push_cast at hsum; omega⟩
    have hlt : v.retryCount + 1 < L := by push_cast at hsum; omega
    have hdel : (st.client.backoff.NextDelayMillis (wrap64 (v.retryCount + 1))
        st.client.rand) = D.NextDelayMillis (v.retryCount + 1) st.client.rand := by
      rw [hb, hk, (limited_delay D L _ st.client.rand).2 hlt]
    have hd : 0 ≤ (st.client.backoff.NextDelayMillis (wrap64 (v.retryCount + 1))
        st.client.rand).1 := by
      rw [hdel]
      exact hD _ _
    have hk2 := kept_trans (kept_consult st (wrap64 (v.retryCount + 1)))
      (kept_waitAndReset (consult st (wrap64 (v.retryCount + 1)))
        (st.client.backoff.NextDelayMillis (wrap64 (v.retryCount + 1)) st.client.rand).1)
    have hend : (waitAndReset (consult st (wrap64 (v.retryCount + 1)))
        (st.client.backoff.NextDelayMillis (wrap64 (v.retryCount + 1))
          st.client.rand).1).endpoints = st.endpoints := by
      unfold waitAndReset
      split_ifs <;> rfl
    have hcl : (waitAndReset (consult st (wrap64 (v.retryCount + 1)))
        (st.client.backoff.NextDelayMillis (wrap64 (v.retryCount + 1))
          st.client.rand).1).client.calls = st.client.calls := by
      unfold waitAndReset
      split_ifs <;> rfl
    obtain ⟨st1, e1, hi, hf, he1, hurl1, hIe1, htr1, hcalls1, herr1⟩ :=
      attempt_asks pathJoin cb hI
        (waitAndReset (consult st (wrap64 (v.retryCount + 1)))
          (st.client.backoff.NextDelayMillis (wrap64 (v.retryCount + 1)) st.client.rand).1)
        (by rw [hend]; exact he) hIe
        (by rw [hk2.transport, hk2.req, hT, hreq]; exact hask) rfl
    rw [hk2.req, hreq, hk2.transport, hT, hcl, injectTarget_congr pathJoin hurl req] at herr1
    rw [hk2.req, hreq, injectTarget_congr pathJoin hurl req, waitAndReset_trace,
      consult_trace] at htr1
    rw [hcl] at hcalls1
    simp only [judgeLoop]
    rw [← hind] at hi
    rw [judgeStep_retry_go pathJoin cb picked v st hd hi]
    obtain ⟨st', evs, hrun, htr, hatt, htrs, hcalls', herr'⟩ := ih fuel
      { v with retryCount := wrap64 (v.retryCount + 1) } st1 (by omega) hind
      (by show 0 ≤ wrap64 (v.retryCount + 1); rw [hk]; omega)
      (by show wrap64 (v.retryCount + 1) + 1 + (m : Int) = L; rw [hk]; push_cast at hsum; omega)
      (hf.req.trans (hk2.req.trans hreq)) (hf.transport.trans (hk2.transport.trans hT))
      (hf.backoff.trans (hk2.backoff.trans hb)) ⟨e1, he1, hurl1.trans hurl, hIe1⟩
      (by omega) (by rw [herr1, hcalls1]; rfl)
    refine ⟨st', [Event.backoff (wrap64 (v.retryCount + 1))
        (st.client.backoff.NextDelayMillis (wrap64 (v.retryCount + 1)) st.client.rand).1] ++
      ((if (st.client.backoff.NextDelayMillis (wrap64 (v.retryCount + 1)) st.client.rand).1 > 0
        then [Event.sleep (st.client.backoff.NextDelayMillis (wrap64 (v.retryCount + 1))
          st.client.rand).1] else []) ++
      ([Event.attempt picked, Event.transport (injectTarget pathJoin e0 req).2.r.URL,
        Event.action EndpointAction.Retrying] ++ evs)), hrun,
      by rw [htr, htr1]; simp only [List.append_assoc], ?_, ?_,
      by rw [hcalls', hcalls1]; omega, ?_⟩
    · simp only [attemptsOf_append, hatt, List.replicate_succ]
      split_ifs <;> simp [attemptsOf]
    · simp only [transportsOf_append, htrs, List.replicate_succ]
      split_ifs <;> simp [transportsOf]
    · rw [herr', hcalls1]
      have : st.client.calls + 1 + m - 1 = st.client.calls + (m + 1) - 1 := by omega
      rw [this]

end Client

end Garr

namespace Garr

/-- The run of `Do` under `AsksRetrying` with a backoff limited to `L` attempts, over at
least two endpoints. -/
theorem Client.do_retrying {β ρ : Type} (pathJoin : String → String → String)
    (cb : CircuitBreaker β) (I : β → Prop) (c : Client β ρ) (req : Request) (lb : LB β)
    (e : Endpoint β) (D : Backoff ρ) (L : Int) (fuel : Nat)
    (hlb : c.lb = some lb) (hn : 2 ≤ lb.Endpoints.length) (hp : 0 ≤ lb.Pick.1)
    (he : lb.Endpoints[lb.Pick.1.toNat]? = some (some e))
    (hb : c.backoff = AttemptLimitingBackoff.toBackoff { delegate := D, limit := L })
    (hD : ∀ k r, 0 ≤ (D.NextDelayMillis k r).1) (hL1 : 1 ≤ L) (hL : L < 2 ^ 63)
    (hI : AlwaysAllows cb I) (hIe : I e.breaker) (hask : AsksRetrying c.transport req)
    (hfuel : L.toNat ≤ fuel) :
    ∃ st' evs, Client.Do pathJoin cb fuel c req = (.returned, st') ∧
      st'.client.trace = c.trace ++ evs ∧
      attemptsOf evs = List.replicate L.toNat lb.Pick.1.toNat ∧
      transportsOf evs = List.replicate L.toNat (injectTarget pathJoin e req).2.r.URL ∧
      st'.client.calls = c.calls + L.toNat ∧
      st'.resp.err = some
        ((ctxErrorAt c.transport (injectTarget pathJoin e req).2.r.URL
            (c.calls + L.toNat - 1)).getD
          (.retried e.URL.Host req.r.URL L)) := by
  obtain ⟨st1, e1, hi, hf, he1, hurl1, hIe1, htr1, hcalls1, herr1⟩ :=
    Client.attempt_asks pathJoin cb hI (Client.startState c lb req) he hIe hask rfl
  have hne : lb.Endpoints.length ≠ 0 := by omega
  rw [Client.do_eq pathJoin cb fuel req hlb hne hp hi]
  have hcond : (EndpointAction.Retrying ≠ EndpointAction.None ∧ lb.Endpoints.length > 1) :=
    ⟨by decide, by omega⟩
  rw [if_pos hcond]
  obtain ⟨m, hm⟩ : ∃ m : Nat, L.toNat = m + 1 := ⟨L.toNat - 1, by omega⟩
  have hmL : ((m : Int) + 1) = L := by
    have := Int.toNat_of_nonneg (by omega : 0 ≤ L)
    omega
  obtain ⟨st', evs, hrun, htr, hatt, htrs, hcalls', herr'⟩ :=
    Client.judgeLoop_retrying pathJoin cb hI lb.Pick.1.toNat req c.transport D L e hD hL hask
      m fuel { ind := lb.Pick.1.toNat, lastErr := [], retryCount := 0 } st1 (by omega) rfl
      (le_refl 0) (by show (0 : Int) + 1 + m = L; omega) hf.req hf.transport
      (hf.backoff.trans hb) ⟨e1, he1, hurl1, hIe1⟩ (by rw [hcalls1]; exact Nat.le_add_left 1 _)
      (by rw [herr1, hcalls1]; rfl)
  refine ⟨Client.writeBack st', [Event.attempt lb.Pick.1.toNat,
      Event.transport (injectTarget pathJoin e req).2.r.URL, Event.action .Retrying] ++ evs,
    ?_, ?_, ?_, ?_, ?_, ?_⟩
  · show ((Client.judgeLoop pathJoin cb lb.Pick.1.toNat fuel .Retrying
      { ind := lb.Pick.1.toNat, lastErr := [], retryCount := 0 } st1).1,
      Client.writeBack (Client.judgeLoop pathJoin cb lb.Pick.1.toNat fuel .Retrying
      { ind := lb.Pick.1.toNat, lastErr := [], retryCount := 0 } st1).2) = _
    rw [hrun]
  · show st'.client.trace = _
    rw [htr, htr1]
    simp [Client.startState]
  · rw [attemptsOf_append, hatt, hm]
    simp [attemptsOf, List.replicate_succ]
  · rw [transportsOf_append, htrs, hm]
    simp [transportsOf, List.replicate_succ]
  · show st'.client.calls = _
    rw [hcalls', hcalls1, hm]
    show c.calls + 1 + m = c.calls + (m + 1)
    omega
  · show st'.resp.err = _
    rw [herr', hcalls1, hm]
    have h1 : (Client.startState c lb req).client.calls + 1 + m - 1 = c.calls + (m + 1) - 1 := by
      show c.calls + 1 + m - 1 = c.calls + (m + 1) - 1
      omega
    rw [h1]

/-- C16 (amended): over at least two endpoints, with an `AttemptLimitingBackoff` of limit
`L` (`1 ≤ L`) over a delegate that returns non-negative delays, a request whose every
attempt asks for `Retrying` (the breaker of the picked endpoint allows every attempt and
the hooks answer `Retrying` whatever the transport returns) is executed exactly `L` times,
each time on the picked endpoint, and `Do` returns; the response then holds the error of
the exhausted retry when the last attempt left no error (the response-header hook asked
for the retry), and the error that the last attempt left otherwise (a cancelled or
timed-out request). -/
theorem do_retries_limit {β ρ : Type} (pathJoin : String → String → String)
    (cb : CircuitBreaker β) (I : β → Prop) (c : Client β ρ) (req : Request) (lb : LB β)
    (e : Endpoint β) (D : Backoff ρ) (L : Int) (fuel : Nat)
    (hlb : c.lb = some lb) (hn : 2 ≤ lb.Endpoints.length) (hp : 0 ≤ lb.Pick.1)
    (he : lb.Endpoints[lb.Pick.1.toNat]? = some (some e))
    (hb : c.backoff = AttemptLimitingBackoff.toBackoff { delegate := D, limit := L })
    (hD : ∀ k r, 0 ≤ (D.NextDelayMillis k r).1) (hL1 : 1 ≤ L) (hL : L < 2 ^ 63)
    (hI : AlwaysAllows cb I) (hIe : I e.breaker) (hask : AsksRetrying c.transport req)
    (hfuel : L.toNat ≤ fuel) :
    ∃ st' evs, Client.Do pathJoin cb fuel c req = (.returned, st') ∧
      st'.client.trace = c.trace ++ evs ∧
      attemptsOf evs = List.replicate L.toNat lb.Pick.1.toNat ∧
      transportsOf evs = List.replicate L.toNat (injectTarget pathJoin e req).2.r.URL ∧
      st'.client.calls = c.calls + L.toNat ∧
      st'.resp.err = some
        ((ctxErrorAt c.transport (injectTarget pathJoin e req).2.r.URL
            (c.calls + L.toNat - 1)).getD
          (.retried e.URL.Host req.r.URL L)) :=
  Client.do_retrying pathJoin cb I c req lb e D L fuel hlb hn hp he hb hD hL1 hL hI hIe hask
    hfuel

/-- The hooks of `retryingRequest` answer `Retrying` to a transport that always answers
502. -/
theorem asksRetrying_badGateway : AsksRetrying badGatewayTransport retryingRequest :=
  fun _ _ => ⟨OnStatus5xx, rfl, by decide⟩

/-- The hooks of `retryingRequest` answer `Retrying` to a transport whose calls all run
into the deadline. -/
theorem asksRetrying_deadline : AsksRetrying deadlineTransport retryingRequest :=
  fun _ _ => ⟨Or.inl rfl, fun _ => .Retrying, rfl, rfl⟩

/-- A counting breaker that is not open allows every request and stays so. -/
theorem alwaysAllows_counting : AlwaysAllows countingBreaker fun b => b.1 = false := by
  intro b hb
  refine ⟨?_, hb, hb, hb⟩
  show (!b.1) = true
  rw [hb]
  rfl

/-- Witness of C16 (amended): two endpoints with closed breakers, the first one picked, a
transport that always answers 502, the hook `OnStatus5xx` and the backoff of limit 3 over
a delegate that waits 50 milliseconds. -/
theorem do_retries_limit_witness :
    2 ≤ twoEndpoints.length ∧ AsksRetrying badGatewayTransport retryingRequest ∧
    (AlwaysAllows countingBreaker fun b => b.1 = false) ∧
    ∃ st' evs,
      Client.Do concatPath countingBreaker 3 (clientOf twoEndpoints 0 badGatewayTransport)
        retryingRequest = (.returned, st') ∧
      st'.client.trace = [] ++ evs ∧ attemptsOf evs = List.replicate 3 0 ∧
      transportsOf evs = List.replicate 3 (urlOf "https" "a.example" "/json") ∧
      st'.client.calls = 3 ∧
      st'.resp.err = some (.retried "a.example" (urlOf "" "" "/json") 3) :=
  ⟨by decide, asksRetrying_badGateway, alwaysAllows_counting,
    do_retries_limit concatPath countingBreaker (fun b => b.1 = false)
      (clientOf twoEndpoints 0 badGatewayTransport) retryingRequest (.other twoEndpoints 0)
      (endpointOf "a.example" (false, 0, 0)) { NextDelayMillis := fun _ r => (50, r) } 3 3
      rfl (by decide) (by decide) rfl rfl (fun _ _ => (by decide : (0 : Int) ≤ 50)) (by decide)
      (by norm_num)
      alwaysAllows_counting rfl asksRetrying_badGateway (by decide)⟩

/-- Counterexample to C16 as stated: two endpoints with closed breakers, the first one
picked, the backoff of limit 3 over a delegate that waits 50 milliseconds, and a transport
whose calls all run into the deadline of the request, which the hook of the request
answers with `Retrying`. Every attempt asks for `Retrying` and the request is executed 3
times on the picked endpoint, but the response then holds the error of the timed-out
request and not the error of the exhausted retry. -/
theorem do_retries_keeps_last_error :
    AsksRetrying deadlineTransport retryingRequest ∧
    (Client.Do concatPath countingBreaker 3 (clientOf twoEndpoints 0 deadlineTransport)
      retryingRequest).1 = .returned ∧
    attemptsOf (Client.Do concatPath countingBreaker 3
      (clientOf twoEndpoints 0 deadlineTransport) retryingRequest).2.client.trace = [0, 0, 0] ∧
    (Client.Do concatPath countingBreaker 3 (clientOf twoEndpoints 0 deadlineTransport)
      retryingRequest).2.resp.err =
      some (.errorWrap .errRequestCtxCanceledOrTimeout "a.example"
        "context deadline exceeded") ∧
    ∀ host url attempts,
      (Client.Do concatPath countingBreaker 3 (clientOf twoEndpoints 0 deadlineTransport)
        retryingRequest).2.resp.err ≠ some (.retried host url attempts) := by
  have h : (Client.Do concatPath countingBreaker 3 (clientOf twoEndpoints 0 deadlineTransport)
      retryingRequest).2.resp.err =
      some (.errorWrap .errRequestCtxCanceledOrTimeout "a.example"
        "context deadline exceeded") := rfl
  refine ⟨asksRetrying_deadline, rfl, rfl, h, fun host url attempts hc => ?_⟩
  rw [h] at hc
  cases hc

end Garr

namespace Garr

/-- C15, at the failing input: a client with one endpoint whose `NonBlockingCircuitBreaker`
is Open and refuses the request. `Do` returns without a transport call, and the response
holds no error at all: `Error()` is nil, not `ErrEndpointsUnavailable`. With two such
endpoints `judge` runs and the response holds `ErrEndpointsUnavailable`. -/
theorem do_single_endpoint_refused :
    ((nonBlockingBreaker 10).CanRequest openBreaker).1 = false ∧
    (Client.Do concatPath (nonBlockingBreaker 10) 10
      (clientOf [some (endpointOf "a.example" openBreaker)] 0 badGatewayTransport)
      plainRequest).1 = .returned ∧
    transportsOf (Client.Do concatPath (nonBlockingBreaker 10) 10
      (clientOf [some (endpointOf "a.example" openBreaker)] 0 badGatewayTransport)
      plainRequest).2.client.trace = [] ∧
    attemptsOf (Client.Do concatPath (nonBlockingBreaker 10) 10
      (clientOf [some (endpointOf "a.example" openBreaker)] 0 badGatewayTransport)
      plainRequest).2.client.trace = [0] ∧
    (Client.Do concatPath (nonBlockingBreaker 10) 10
      (clientOf [some (endpointOf "a.example" openBreaker)] 0 badGatewayTransport)
      plainRequest).2.resp.Error.isNone = true ∧
    (Client.Do concatPath (nonBlockingBreaker 10) 10
      (clientOf [some (endpointOf "a.example" openBreaker),
        some (endpointOf "b.example" openBreaker)] 0 badGatewayTransport)
      plainRequest).2.resp.Error = some .ErrEndpointsUnavailable ∧
    transportsOf (Client.Do concatPath (nonBlockingBreaker 10) 10
      (clientOf [some (endpointOf "a.example" openBreaker),
        some (endpointOf "b.example" openBreaker)] 0 badGatewayTransport)
      plainRequest).2.client.trace = [] :=
  ⟨rfl, rfl, rfl, rfl, rfl, rfl, rfl⟩

/-- C17, at the failing input: two endpoints with closed breakers, the first one picked,
and a transport whose calls all fail to connect. Both endpoints are tried, each attempt
fails with a connection error asking for `NextEndpoint`, and a failure is reported to both
breakers; the final error reports the connection error of the first endpoint only: the
error observed on the last endpoint tried is not in it. -/
theorem do_drops_last_error :
    (Client.Do concatPath countingBreaker 10 (clientOf twoEndpoints 0 refusingTransport)
      plainRequest).1 = .returned ∧
    attemptsOf (Client.Do concatPath countingBreaker 10
      (clientOf twoEndpoints 0 refusingTransport) plainRequest).2.client.trace = [0, 1] ∧
    (transportsOf (Client.Do concatPath countingBreaker 10
      (clientOf twoEndpoints 0 refusingTransport) plainRequest).2.client.trace).map
        (fun u => u.Host) = ["a.example", "b.example"] ∧
    (Client.Do concatPath countingBreaker 10 (clientOf twoEndpoints 0 refusingTransport)
      plainRequest).2.endpoints.map (fun e => e.map fun x => x.breaker) =
      [some (false, 0, 1), some (false, 0, 1)] ∧
    (Client.Do concatPath countingBreaker 10 (clientOf twoEndpoints 0 refusingTransport)
      plainRequest).2.resp.Error =
      some (.retryingOnAll
        [.errorWrap .errConnection "a.example" "connection refused by a.example"]) :=
  ⟨rfl, rfl, rfl, rfl, rfl⟩

end Garr

namespace Garr

/-- The method `Endpoint.equalUser` decides the equality of the two `User` fields. -/
theorem equalUser_iff {β : Type} (e o : Endpoint β) :
    e.equalUser o = true ↔ e.URL.User = o.URL.User := by
  unfold Endpoint.equalUser
  cases hu : e.URL.User with
  | none =>
    cases ho : o.URL.User with
    | none => simp
    | some v => simp
  | some u =>
    cases ho : o.URL.User with
    | none => simp
    | some v =>
      obtain ⟨un, pw, ps⟩ := u
      obtain ⟨un', pw', ps'⟩ := v
      by_cases h : un = un' <;> simp [h]
      constructor
      · rintro ⟨h1, h2⟩
        exact ⟨h2, h1⟩
      · rintro ⟨h1, h2⟩
        exact ⟨h2, h1⟩

/-- On two non-nil endpoints `Endpoint.Equal` returns, and it returns true exactly when
scheme, opaque, user info, host and metadata agree: the path is not read. -/
theorem endpoint_equal_iff {β : Type} (e o : Endpoint β) :
    ∃ b, Endpoint.Equal (some e) (some o) = some b ∧ (b = true ↔ e.sameCompared o) := by
  refine ⟨_, rfl, ?_⟩
  simp only [Bool.and_eq_true, beq_iff_eq, equalUser_iff, EndpointMetadata.Equal,
    Endpoint.sameCompared]
  constructor
  · rintro ⟨⟨⟨⟨h1, h2⟩, h3⟩, h4⟩, h5⟩
    refine ⟨h2, h3, h4, h1, ?_⟩
    cases hm : e.Metadata
    cases hm' : o.Metadata
    rw [hm, hm'] at h5
    simpa using h5
  · rintro ⟨h2, h3, h4, h1, h5⟩
    exact ⟨⟨⟨⟨h1, h2⟩, h3⟩, h4⟩, by rw [h5]⟩

/-- On two slices of non-nil endpoints `Endpoints.Equal` returns, and it returns true
exactly when the lengths agree and, position by position, scheme, opaque, user info, host
and metadata agree. -/
theorem endpoints_equal_iff {β : Type} (es os : List (Endpoint β)) :
    ∃ b, Endpoints.Equal (es.map some) (os.map some) = some b ∧
      (b = true ↔ List.Forall₂ Endpoint.sameCompared es os) := by
  unfold Endpoints.Equal
  simp only [List.length_map]
  by_cases hlen : es.length = os.length
  · rw [if_pos hlen]
    induction es generalizing os with
    | nil =>
      cases os with
      | nil => exact ⟨true, rfl, by simp⟩
      | cons o os => simp at hlen
    | cons e es ih =>
      cases os with
      | nil => simp at hlen
      | cons o os =>
        obtain ⟨b, hb, hiff⟩ := endpoint_equal_iff e o
        obtain ⟨b', hb', hiff'⟩ := ih os (by simpa using hlen)
        simp only [List.map_cons, Endpoints.equalLoop, hb]
        cases b with
        | false =>
          refine ⟨false, rfl, ?_⟩
          simp only [List.forall₂_cons, Bool.false_eq_true, false_iff, not_and]
          intro h
          exact absurd (hiff.2 h) (by simp)
        | true =>
          refine ⟨b', hb', ?_⟩
          rw [List.forall₂_cons, hiff']
          exact ⟨fun h => ⟨hiff.1 rfl, h⟩, fun h => h.2⟩
  · rw [if_neg hlen]
    refine ⟨false, rfl, ?_⟩
    simp only [Bool.false_eq_true, false_iff]
    intro h
    exact hlen h.length_eq

/-- The method `Endpoints.Clone` returns a slice with the same elements. -/
theorem endpoints_clone_eq {β : Type} (e : Endpoints β) : Endpoints.Clone e = e := by
  simp [Endpoints.Clone, copySlice]

/-- A clone of a slice of non-nil endpoints is `Equal` to the original. -/
theorem endpoints_equal_clone {β : Type} (es : List (Endpoint β)) :
    Endpoints.Equal (es.map some) (Endpoints.Clone (es.map some)) = some true := by
  rw [endpoints_clone_eq]
  have hall : List.Forall₂ Endpoint.sameCompared es es := by
    induction es with
    | nil => exact List.Forall₂.nil
    | cons e es ih => exact List.Forall₂.cons ⟨rfl, rfl, rfl, rfl, rfl⟩ ih
  obtain ⟨b, hb, hiff⟩ := endpoints_equal_iff es es
  rw [hb, hiff.2 hall]

/-- C21, at the failing input: two slices whose single endpoints are
`https://github.com:443/v1` and `https://github.com:443/v2`. The paths differ, so the
endpoints do not have an equal URL, and `Endpoints.Equal` returns true, in both
directions: `Endpoint.Equal` never reads `URL.Path`. -/
theorem endpoints_equal_ignores_path :
    (endpointAt "github.com:443" "/v1").URL.Path ≠ (endpointAt "github.com:443" "/v2").URL.Path ∧
    ¬ (endpointAt "github.com:443" "/v1").sameTarget (endpointAt "github.com:443" "/v2") ∧
    Endpoints.Equal [some (endpointAt "github.com:443" "/v1")]
      [some (endpointAt "github.com:443" "/v2")] = some true ∧
    Endpoints.Equal [some (endpointAt "github.com:443" "/v2")]
      [some (endpointAt "github.com:443" "/v1")] = some true := by
  refine ⟨by decide, ?_, by decide, by decide⟩
  intro h
  exact absurd h.2.2.2.2.1 (by decide)

end Garr

namespace Garr

/-- The position of the first separator after a text that holds none. -/
theorem stringsIndex_append (sep : Char) (k v : List Char) (hk : sep ∉ k) :
    stringsIndex sep (k ++ sep :: v) = k.length := by
  induction k with
  | nil => simp [stringsIndex]
  | cons c cs ih =>
    have hc : c ≠ sep := fun h => hk (by simp [h])
    have hcs : sep ∉ cs := fun h => hk (by simp [h])
    have ih' := ih hcs
    have hlen : ¬ ((cs.length : Int) < 0) := by omega
    show stringsIndex sep (c :: (cs ++ sep :: v)) = _
    simp only [stringsIndex, hc, if_false, ih', if_neg hlen, List.length_cons]
    push_cast
    rfl

/-- Without a separator `strings.Index` returns -1. -/
theorem stringsIndex_absent (sep : Char) (k : List Char) (hk : sep ∉ k) :
    stringsIndex sep k = -1 := by
  induction k with
  | nil => rfl
  | cons c cs ih =>
    have hc : c ≠ sep := fun h => hk (by simp [h])
    have hcs : sep ∉ cs := fun h => hk (by simp [h])
    simp [stringsIndex, hc, ih hcs]

/-- A text without separator is its own single field. -/
theorem stringsSplit_single (sep : Char) (a : List Char) (ha : sep ∉ a) :
    stringsSplit sep a = [a] := by
  induction a with
  | nil => rfl
  | cons c cs ih =>
    have hc : c ≠ sep := fun h => ha (by simp [h])
    have hcs : sep ∉ cs := fun h => ha (by simp [h])
    simp [stringsSplit, hc, ih hcs]

/-- The first field of a text ends at its first separator. -/
theorem stringsSplit_append (sep : Char) (a rest : List Char) (ha : sep ∉ a) :
    stringsSplit sep (a ++ sep :: rest) = a :: stringsSplit sep rest := by
  induction a with
  | nil => simp [stringsSplit]
  | cons c cs ih =>
    have hc : c ≠ sep := fun h => ha (by simp [h])
    have hcs : sep ∉ cs := fun h => ha (by simp [h])
    simp [stringsSplit, hc, ih hcs]

/-- The number of fields is the number of separators plus one. -/
theorem stringsSplit_length (sep : Char) (l : List Char) :
    (stringsSplit sep l).length = l.count sep + 1 := by
  induction l with
  | nil => rfl
  | cons c cs ih =>
    by_cases hc : c = sep
    · subst hc
      simp [stringsSplit, ih]
    · have hne : (c == sep) = false := by simpa using hc
      cases hs : stringsSplit sep cs with
      | nil => rw [hs] at ih; simp at ih
      | cons f fs =>
        rw [hs] at ih
        simp only [stringsSplit, hc, if_false, hs, List.length_cons, List.count_cons, hne]
        simpa using ih

/-- The key and the values of a specification `key=values`: `parseFromSpec` hands the
values to the parser that the key names. -/
theorem parseFromSpec_key (sc : Strconv) (key values : String) (hk : '=' ∉ key.data) :
    parseFromSpec sc (key ++ "=" ++ values) =
      if key = "exponential" then parseExponentialBackoff sc values
      else if key = "fixed" then parseFixedBackoff sc values
      else if key = "random" then parseRandomBackoff sc values
      else (none, some .ErrInvalidSpecFormat) := by
  have hdata : (key ++ "=" ++ values).data = key.data ++ '=' :: values.data := by
    simp [String.data_append]
  unfold parseFromSpec
  rw [hdata, stringsIndex_append '=' _ _ hk]
  have hneg : ¬ ((key.data.length : Int) < 0) := by omega
  rw [if_neg hneg]
  have h1 : List.take ((key.data.length : Int)).toNat (key.data ++ '=' :: values.data) =
      key.data := by simp
  have h2 : List.drop ((key.data.length : Int).toNat + 1) (key.data ++ '=' :: values.data) =
      values.data := by
    rw [Int.toNat_ofNat, ← List.drop_drop]
    simp
  simp only [h1, h2]

/-- The three fields of the values of an exponential specification. -/
theorem parseExponentialBackoff_fields (sc : Strconv) (i m u : String)
    (hi : ':' ∉ i.data) (hm : ':' ∉ m.data) (hu : ':' ∉ u.data)
    (iv mv : Int) (uv : F64)
    (hiv : (parseField sc.ParseInt i DefaultInitialDelayMillis).1 = some iv)
    (hmv : (parseField sc.ParseInt m DefaultMaxDelayMillis).1 = some mv)
    (huv : (parseField sc.ParseFloat u DefaultMultiplier).1 = some uv) :
    parseExponentialBackoff sc (i ++ ":" ++ m ++ ":" ++ u) =
      ((NewExponentialBackoff iv mv uv).1.map .exponential,
        (NewExponentialBackoff iv mv uv).2.map .exponential) := by
  have hdata : (i ++ ":" ++ m ++ ":" ++ u).data =
      i.data ++ ':' :: (m.data ++ ':' :: u.data) := by
    simp [String.data_append]
  unfold parseExponentialBackoff
  rw [hdata, stringsSplit_append _ _ _ hi, stringsSplit_append _ _ _ hm,
    stringsSplit_single _ _ hu]
  simp only [List.map_cons, List.map_nil]
  cases h1 : parseField sc.ParseInt i DefaultInitialDelayMillis with
  | mk a1 e1 =>
    rw [h1] at hiv
    simp only at hiv
    subst hiv
    cases h2 : parseField sc.ParseInt m DefaultMaxDelayMillis with
    | mk a2 e2 =>
      rw [h2] at hmv
      simp only at hmv
      subst hmv
      cases h3 : parseField sc.ParseFloat u DefaultMultiplier with
      | mk a3 e3 =>
        rw [h3] at huv
        simp only at huv
        subst huv
        rfl

/-- Values that do not have exactly three fields are no exponential specification. -/
theorem parseExponentialBackoff_invalid (sc : Strconv) (values : String)
    (h : values.data.count ':' ≠ 2) :
    parseExponentialBackoff sc values = (none, some .ErrInvalidSpecFormat) := by
  have hlen := stringsSplit_length ':' values.data
  unfold parseExponentialBackoff
  match hs : stringsSplit ':' values.data with
  | [] => rfl
  | [_] => rfl
  | [_, _] => rfl
  | [_, _, _] => rw [hs] at hlen; simp at hlen; omega
  | _ :: _ :: _ :: _ :: _ => rfl

/-- The value that a field contributes: the default when it is blank, else what the
`strconv` function reads. -/
theorem parseField_fst {α : Type} (parse : String → Option α) (text : String) (dflt : α) :
    (parseField parse text dflt).1 = if text = "" then some dflt else parse text := by
  unfold parseField
  by_cases h : text = ""
  · simp [h]
  · simp only [ne_eq, h, not_false_eq_true, if_true, if_false]
    cases parse text <;> rfl

/-- C28: `parseFromSpec` on `exponential=i:m:u`, for every behaviour `sc` of the `strconv`
functions. When each field is blank or is read by its `strconv` function, the values
being `iv`, `mv` and `uv` (200, 10000 and 2.0 for a blank field) and these values pass the
checks of `NewExponentialBackoff`, the result is the `ExponentialBackoff` with these three
values; `exponential=::3` gives 200, 10000 and the multiplier read from `3`. Values
that do not have exactly three fields (two separators), a specification without `=`, and
a key that is none of the three known keys give `ErrInvalidSpecFormat`. -/
theorem parseFromSpec_exponential (sc : Strconv) :
    (∀ (i m u : String) (iv mv : Int) (uv : F64),
      ':' ∉ i.data → ':' ∉ m.data → ':' ∉ u.data →
      (if i = "" then some 200 else sc.ParseInt i) = some iv →
      (if m = "" then some 10000 else sc.ParseInt m) = some mv →
      (if u = "" then some (F64.fin 2 0) else sc.ParseFloat u) = some uv →
      F64.le uv (.fin 1 0) = false → 0 ≤ iv → iv ≤ mv →
      parseFromSpec sc ("exponential=" ++ i ++ ":" ++ m ++ ":" ++ u) =
        (some (.exponential
          { initialDelayMillis := iv, maxDelayMillis := mv, multiplier := uv }), none)) ∧
    (∀ three : F64, sc.ParseFloat "3" = some three → F64.le three (.fin 1 0) = false →
      parseFromSpec sc "exponential=::3" =
        (some (.exponential
          { initialDelayMillis := 200, maxDelayMillis := 10000, multiplier := three }),
          none)) ∧
    (∀ values : String, values.data.count ':' ≠ 2 →
      parseFromSpec sc ("exponential=" ++ values) = (none, some .ErrInvalidSpecFormat)) ∧
    (∀ spec : String, '=' ∉ spec.data →
      parseFromSpec sc spec = (none, some .ErrInvalidSpecFormat)) ∧
    (∀ key values : String, '=' ∉ key.data →
      key ≠ "exponential" → key ≠ "fixed" → key ≠ "random" →
      parseFromSpec sc (key ++ "=" ++ values) = (none, some .ErrInvalidSpecFormat)) := by
  have hkey : '=' ∉ ("exponential" : String).data := by decide
  have main : ∀ (i m u : String) (iv mv : Int) (uv : F64),
      ':' ∉ i.data → ':' ∉ m.data → ':' ∉ u.data →
      (if i = "" then some 200 else sc.ParseInt i) = some iv →
      (if m = "" then some 10000 else sc.ParseInt m) = some mv →
      (if u = "" then some (F64.fin 2 0) else sc.ParseFloat u) = some uv →
      F64.le uv (.fin 1 0) = false → 0 ≤ iv → iv ≤ mv →
      parseFromSpec sc ("exponential" ++ "=" ++ (i ++ ":" ++ m ++ ":" ++ u)) =
        (some (.exponential
          { initialDelayMillis := iv, maxDelayMillis := mv, multiplier := uv }), none) := by
    intro i m u iv mv uv hi hm hu hiv hmv huv hle h0 hmax
    rw [parseFromSpec_key sc _ _ hkey, if_pos rfl,
      parseExponentialBackoff_fields sc i m u hi hm hu iv mv uv
        (by rw [parseField_fst]; exact hiv) (by rw [parseField_fst]; exact hmv)
        (by rw [parseField_fst]; exact huv)]
    unfold NewExponentialBackoff
    rw [if_neg (by rw [hle]; exact Bool.false_ne_true), if_neg (by omega), if_neg (by omega)]
    rfl
  refine ⟨?_, ?_, ?_, ?_, ?_⟩
  · intro i m u iv mv uv hi hm hu hiv hmv huv hle h0 hmax
    have := main i m u iv mv uv hi hm hu hiv hmv huv hle h0 hmax
    have heq : "exponential=" ++ i ++ ":" ++ m ++ ":" ++ u =
        "exponential" ++ "=" ++ (i ++ ":" ++ m ++ ":" ++ u) := by
      have h0 : ("exponential=" : String) = "exponential" ++ "=" := by decide
      rw [h0]
      simp only [String.append_assoc]
    rw [heq]
    exact this
  · intro three h3 hle
    have := main "" "" "3" 200 10000 three (by decide) (by decide) (by decide) rfl rfl
      (by rw [if_neg (by decide)]; exact h3) hle (by norm_num) (by norm_num)
    have heq : ("exponential=::3" : String) = "exponential" ++ "=" ++ ("" ++ ":" ++ "" ++ ":" ++ "3") := by
      decide
    rw [heq]
    exact this
  · intro values h
    have heq : "exponential=" ++ values = "exponential" ++ "=" ++ values := by
      have h0 : ("exponential=" : String) = "exponential" ++ "=" := by decide
      rw [h0]
    rw [heq, parseFromSpec_key sc _ _ hkey, if_pos rfl, parseExponentialBackoff_invalid sc _ h]
  · intro spec h
    unfold parseFromSpec
    rw [stringsIndex_absent _ _ h, if_pos (by norm_num)]
  · intro key values hk h1 h2 h3
    rw [parseFromSpec_key sc _ _ hk, if_neg h1, if_neg h2, if_neg h3]

/-- The specifications of `TestParseSpec` and `TestParseInvalidSpec`, read with
`digitsStrconv`. -/
theorem parseFromSpec_examples :
    parseFromSpec digitsStrconv "exponential=1:2:3" =
      (some (.exponential
        { initialDelayMillis := 1, maxDelayMillis := 2, multiplier := F64.ofInt64 3 }), none) ∧
    parseFromSpec digitsStrconv "exponential=::3" =
      (some (.exponential
        { initialDelayMillis := 200, maxDelayMillis := 10000, multiplier := F64.ofInt64 3 }),
        none) ∧
    parseFromSpec digitsStrconv "exponential=::" =
      (some (.exponential
        { initialDelayMillis := 200, maxDelayMillis := 10000, multiplier := .fin 2 0 }),
        none) ∧
    parseFromSpec digitsStrconv "exponential=" = (none, some .ErrInvalidSpecFormat) ∧
    parseFromSpec digitsStrconv "exponential=1:" = (none, some .ErrInvalidSpecFormat) ∧
    parseFromSpec digitsStrconv "exponential=1:2" = (none, some .ErrInvalidSpecFormat) ∧
    parseFromSpec digitsStrconv "exponential=a:2:3" = (none, some (.numError "a")) ∧
    parseFromSpec digitsStrconv "fixe=456" = (none, some .ErrInvalidSpecFormat) ∧
    parseFromSpec digitsStrconv "fixed=456" = (some (.fixed { delayMillis := 456 }), none) := by
  refine ⟨?_, ?_, ?_, ?_, ?_, ?_, ?_, ?_, ?_⟩ <;> rfl

/-- C29, at the failing inputs: with the maximum left blank, `parseFromSpec` builds a
`RandomBackoff` whose `maxDelayMillis` is `DefaultMaxDelayMillis`, which is 10000 and not
the 200 that the comment of `BaseBackoffSpec` announces; `random=:` gives 0 and 10000
whatever the `strconv` functions do, and `random=50:` gives 50 and 10000. -/
theorem parseFromSpec_random_blank_maximum (sc : Strconv) :
    parseFromSpec sc "random=:" =
      (some (.random { minDelayMillis := 0, maxDelayMillis := 10000, bound := 10000 }), none) ∧
    parseFromSpec digitsStrconv "random=50:" =
      (some (.random { minDelayMillis := 50, maxDelayMillis := 10000, bound := 9950 }), none) ∧
    DefaultMaxDelayMillis = 10000 ∧
    parseFromSpec sc "random=:" ≠
      (some (.random { minDelayMillis := 0, maxDelayMillis := 200, bound := 200 }), none) := by
  have h : parseFromSpec sc "random=:" =
      (some (.random { minDelayMillis := 0, maxDelayMillis := 10000, bound := 10000 }), none) :=
    rfl
  refine ⟨h, rfl, rfl, ?_⟩
  rw [h]
  decide

/-- C27: an `AttemptLimitingBackoff` built with a limit `L > 0` over the delegate `D`
answers -1 to every attempt number `a >= L` and what `D` answers to every `a < L`;
`NewAttemptLimitingBackoff` refuses a nil delegate, whatever the limit, and every limit
`L' <= 0`. -/
theorem attemptLimitingBackoff_spec {ρ : Type} (D : Backoff ρ) (L : Int) (hL : 0 < L) :
    (∃ f, NewAttemptLimitingBackoff (some D) L = (some f, none) ∧
      (∀ a r, L ≤ a → f.NextDelayMillis a r = (-1, r)) ∧
      (∀ a r, a < L → f.NextDelayMillis a r = D.NextDelayMillis a r)) ∧
    (∀ L', NewAttemptLimitingBackoff (none : Option (Backoff ρ)) L' =
      (none, some .delegateNil)) ∧
    (∀ L', L' ≤ 0 → NewAttemptLimitingBackoff (some D) L' = (none, some (.maxAttempts L'))) := by
  refine ⟨⟨{ delegate := D, limit := L }, ?_, ?_, ?_⟩, fun _ => rfl, ?_⟩
  · show (if L ≤ 0 then _ else _) = _
    rw [if_neg (by omega)]
  · intro a r h
    unfold AttemptLimitingBackoff.NextDelayMillis
    rw [if_pos h]
  · intro a r h
    unfold AttemptLimitingBackoff.NextDelayMillis
    rw [if_neg (by simpa using h)]
  · intro L' h
    show (if L' ≤ 0 then _ else _) = _
    rw [if_pos h]

/-- Witness of C27: the backoff of `TestBuilderFixedBackoffWithLimit`, a fixed delay of 123
milliseconds limited to 5 attempts. -/
theorem attemptLimitingBackoff_spec_witness :
    (0 : Int) < 5 ∧
    ((∃ f, NewAttemptLimitingBackoff
        (some ((FixedBackoff.mk 123).toBackoff : Backoff Unit)) 5 = (some f, none) ∧
      (∀ a r, 5 ≤ a → f.NextDelayMillis a r = (-1, r)) ∧
      (∀ a r, a < 5 → f.NextDelayMillis a r =
        ((FixedBackoff.mk 123).toBackoff : Backoff Unit).NextDelayMillis a r)) ∧
    (∀ L', NewAttemptLimitingBackoff (none : Option (Backoff Unit)) L' =
      (none, some .delegateNil)) ∧
    (∀ L', L' ≤ 0 → NewAttemptLimitingBackoff
      (some ((FixedBackoff.mk 123).toBackoff : Backoff Unit)) L' =
        (none, some (.maxAttempts L')))) :=
  ⟨by decide, attemptLimitingBackoff_spec _ 5 (by decide)⟩

end Garr

namespace Garr

/-- A positive number that has no bit in common with its predecessor is a power of two. -/
theorem pow_two_of_and_pred (b : Nat) (hb : 0 < b) (h : b &&& (b - 1) = 0) :
    ∃ k, b = 2 ^ k := by
  induction b using Nat.strong_induction_on with
  | _ b ih =>
    obtain ⟨q, hq | hq⟩ : ∃ q, b = 2 * q ∨ b = 2 * q + 1 := ⟨b / 2, by omega⟩
    · have hq0 : 0 < q := by omega
      have e1 : b = Nat.bit false q := by rw [Nat.bit_val]; simpa using hq
      have e2 : b - 1 = Nat.bit true (q - 1) := by rw [Nat.bit_val]; simp; omega
      rw [e2] at h
      rw [e1, Nat.land_bit, Nat.bit_val] at h
      have h' : q &&& (q - 1) = 0 := by simpa using h
      obtain ⟨k, hk⟩ := ih q (by omega) hq0 h'
      exact ⟨k + 1, by rw [hq, hk, pow_succ]; ring⟩
    · have e1 : b = Nat.bit true q := by rw [Nat.bit_val]; simpa using hq
      have e2 : b - 1 = Nat.bit false q := by rw [Nat.bit_val]; simp; omega
      rw [e2] at h
      rw [e1, Nat.land_bit, Nat.bit_val] at h
      have h' : q = 0 := by simpa using h
      exact ⟨0, by rw [hq, h']; rfl⟩

/-- The value of `randomInt64`: 31 bits of the first draw above the 32 bits of the
second. -/
theorem randomInt64_val (r : FastRand) :
    (randomInt64 r).1 =
      ((r.draws r.pos % 2 ^ 32 % 2 ^ 31 * 2 ^ 32 + r.draws (r.pos + 1) % 2 ^ 32 : Nat) : Int) := by
  unfold randomInt64 FastRand.Uint32 limit64
  simp only
  congr 1
  have h2 : r.draws (r.pos + 1) % 2 ^ 32 < 2 ^ 32 := Nat.mod_lt _ (by norm_num)
  rw [Nat.and_pow_two_sub_one_eq_mod, Nat.shiftLeft_eq,
    Nat.mod_mod_of_dvd _ (by norm_num : 2 ^ 63 ∣ 2 ^ 64)]
  have h3 : r.draws r.pos % 2 ^ 32 * 2 ^ 32 % 2 ^ 63 =
      2 ^ 32 * (r.draws r.pos % 2 ^ 32 % 2 ^ 31) := by
    have : (2 : Nat) ^ 63 = 2 ^ 32 * 2 ^ 31 := by norm_num
    rw [this, Nat.mul_comm _ (2 ^ 32), Nat.mul_mod_mul_left]
  rw [h3, ← Nat.mul_add_lt_is_or h2]
  ring

/-- The random source after `randomInt64`: two draws further. -/
theorem randomInt64_rand (r : FastRand) :
    (randomInt64 r).2 = { r with pos := r.pos + 1 + 1 } := rfl

/-- The function `randomInt64` returns a non-negative 63-bit value. -/
theorem randomInt64_range (r : FastRand) : 0 ≤ (randomInt64 r).1 ∧ (randomInt64 r).1 < 2 ^ 63 := by
  rw [randomInt64_val]
  have h1 : r.draws r.pos % 2 ^ 32 % 2 ^ 31 < 2 ^ 31 := Nat.mod_lt _ (by norm_num)
  have h2 : r.draws (r.pos + 1) % 2 ^ 32 < 2 ^ 32 := Nat.mod_lt _ (by norm_num)
  constructor
  · exact Int.natCast_nonneg _
  · have : r.draws r.pos % 2 ^ 32 % 2 ^ 31 * 2 ^ 32 + r.draws (r.pos + 1) % 2 ^ 32 < 2 ^ 63 := by
      omega
    exact_mod_cast this

/-- Every 63-bit value is the result of `randomInt64` for some draws. -/
theorem randomInt64_attains (v : Nat) (hv : v < 2 ^ 63) :
    (randomInt64 (fastRandOf [v / 2 ^ 32, v % 2 ^ 32])).1 = (v : Int) := by
  rw [randomInt64_val]
  congr 1
  show v / 2 ^ 32 % 2 ^ 32 % 2 ^ 31 * 2 ^ 32 + v % 2 ^ 32 % 2 ^ 32 = v
  have h1 : v / 2 ^ 32 < 2 ^ 31 := by
    rw [Nat.div_lt_iff_lt_mul (by norm_num)]
    norm_num
    omega
  rw [Nat.mod_eq_of_lt (by omega : v / 2 ^ 32 < 2 ^ 32), Nat.mod_eq_of_lt h1, Nat.mod_mod]
  have := Nat.div_add_mod v (2 ^ 32)
  omega

/-- The loop of `nextRandomInt64IncludingZero` returns at its first test: the condition
`u < result - mask` of another draw never holds. -/
theorem rejectionLoop_first (bound : Int) (fuel : Nat) (u : Int) (r : FastRand)
    (hb : 0 < bound) (hb' : bound < 2 ^ 63) (hu : 0 ≤ u) :
    rejectionLoop bound (wrap64 (bound - 1)) (fuel + 1) u r = some (u % bound, r) := by
  have hmask : wrap64 (bound - 1) = bound - 1 := wrap64_of_isInt64 ⟨by omega, by omega⟩
  have htmod : Int.tmod u bound = u % bound := Int.tmod_eq_emod hu (by omega)
  have h1 : 0 ≤ u % bound := Int.emod_nonneg _ (by omega)
  have h2 : u % bound < bound := Int.emod_lt_of_pos _ hb
  unfold rejectionLoop
  rw [hmask, htmod, wrap64_of_isInt64 ⟨by omega, by omega⟩, if_neg (by omega)]

/-- The two branches of `nextRandomInt64IncludingZero` for a positive bound, chosen by the
bound alone: a bound that has no bit in common with `bound - 1` is a power of two `2^k`,
and the result is the draw modulo `2^k`; otherwise the result is half the draw modulo the
bound. One value is drawn in both cases. -/
theorem includingZero_eq (fuel : Nat) (bound : Nat) (hb : 0 < bound) (hb' : bound < 2 ^ 63) :
    ((∃ k, bound = 2 ^ k) ∧ ∀ r,
      nextRandomInt64IncludingZero (fuel + 1) bound r =
        some ((((randomInt64 r).1.toNat % bound : Nat) : Int), (randomInt64 r).2)) ∨
    (∀ r, nextRandomInt64IncludingZero (fuel + 1) bound r =
      some ((((randomInt64 r).1.toNat / 2 % bound : Nat) : Int), (randomInt64 r).2)) := by
  have hmask : wrap64 ((bound : Int) - 1) = ((bound - 1 : Nat) : Int) := by
    rw [wrap64_of_isInt64 ⟨by omega, by omega⟩]
    omega
  by_cases hland : Int.land (bound : Int) ((bound - 1 : Nat) : Int) = 0
  · left
    have hl : bound &&& (bound - 1) = 0 := by
      have : ((bound &&& (bound - 1) : Nat) : Int) = 0 := hland
      exact_mod_cast this
    obtain ⟨k, hk⟩ := pow_two_of_and_pred bound hb hl
    refine ⟨⟨k, hk⟩, fun r => ?_⟩
    obtain ⟨R, hR⟩ : ∃ R : Nat, (randomInt64 r).1 = (R : Int) := ⟨_, randomInt64_val r⟩
    unfold nextRandomInt64IncludingZero
    rw [if_neg (by omega), hmask, hR, Int.toNat_ofNat, if_pos hland]
    have : Int.land (R : Int) ((bound - 1 : Nat) : Int) = ((R &&& (bound - 1) : Nat) : Int) := rfl
    rw [this, hk, Nat.and_pow_two_sub_one_eq_mod]
  · right
    intro r
    obtain ⟨R, hR⟩ : ∃ R : Nat, (randomInt64 r).1 = (R : Int) := ⟨_, randomInt64_val r⟩
    unfold nextRandomInt64IncludingZero
    rw [if_neg (by omega), hmask, hR, Int.toNat_ofNat, if_neg hland, ← hmask]
    have hu : (R : Int) >>> (1 : Nat) = ((R / 2 : Nat) : Int) := by
      rw [Int.shiftRight_eq_div_pow]
      norm_num
    rw [hu, rejectionLoop_first _ _ _ _ (by omega) (by omega) (by omega)]
    norm_cast

/-- For a positive bound `nextRandomInt64IncludingZero` draws one value and returns a
result `v` with `0 <= v < bound`, made of at most 62 bits. -/
theorem includingZero_range (fuel : Nat) (bound : Int) (r : FastRand) (hb : 0 < bound)
    (hb' : bound < 2 ^ 63) :
    ∃ v, nextRandomInt64IncludingZero (fuel + 1) bound r = some (v, (randomInt64 r).2) ∧
      0 ≤ v ∧ v < bound ∧ v < 2 ^ 62 := by
  obtain ⟨b, rfl⟩ : ∃ b : Nat, bound = b := ⟨bound.toNat, by omega⟩
  have hb0 : 0 < b := by omega
  have hb1 : b < 2 ^ 63 := by omega
  have hR := randomInt64_range r
  have hRn : (randomInt64 r).1.toNat < 2 ^ 63 := by omega
  rcases includingZero_eq fuel b hb0 hb1 with ⟨⟨k, hk⟩, h⟩ | h
  · refine ⟨_, h r, by omega, ?_, ?_⟩
    · exact_mod_cast Nat.mod_lt _ hb0
    · have hk62 : k ≤ 62 := by
        by_contra hc
        have : 2 ^ 63 ≤ 2 ^ k := Nat.pow_le_pow_right (by norm_num) (by omega)
        omega
      have h1 : (randomInt64 r).1.toNat % b < b := Nat.mod_lt _ hb0
      have h2 : b ≤ 2 ^ 62 := by rw [hk]; exact Nat.pow_le_pow_right (by norm_num) hk62
      have : (randomInt64 r).1.toNat % b < 2 ^ 62 := by omega
      exact_mod_cast this
  · refine ⟨_, h r, by omega, ?_, ?_⟩
    · exact_mod_cast Nat.mod_lt _ hb0
    · have h1 : (randomInt64 r).1.toNat / 2 % b ≤ (randomInt64 r).1.toNat / 2 := Nat.mod_le _ _
      have : (randomInt64 r).1.toNat / 2 % b < 2 ^ 62 := by omega
      exact_mod_cast this

/-- Every `v` with `0 <= v < bound` that is made of at most 62 bits is the result of
`nextRandomInt64IncludingZero` for some draws. -/
theorem includingZero_attains (fuel : Nat) (bound v : Int) (hb' : bound < 2 ^ 63)
    (h0 : 0 ≤ v) (hv : v < bound) (hv' : v < 2 ^ 62) :
    ∃ r r', nextRandomInt64IncludingZero (fuel + 1) bound r = some (v, r') := by
  obtain ⟨b, rfl⟩ : ∃ b : Nat, bound = b := ⟨bound.toNat, by omega⟩
  obtain ⟨w, rfl⟩ : ∃ w : Nat, v = w := ⟨v.toNat, by omega⟩
  have hb0 : 0 < b := by omega
  have hb1 : b < 2 ^ 63 := by omega
  have hw : w < b := by omega
  have hw' : w < 2 ^ 62 := by omega
  rcases includingZero_eq fuel b hb0 hb1 with ⟨-, h⟩ | h
  · refine ⟨fastRandOf [w / 2 ^ 32, w % 2 ^ 32],
      (randomInt64 (fastRandOf [w / 2 ^ 32, w % 2 ^ 32])).2, ?_⟩
    rw [h, randomInt64_attains w (by omega), Int.toNat_ofNat, Nat.mod_eq_of_lt hw]
  · refine ⟨fastRandOf [(2 * w) / 2 ^ 32, (2 * w) % 2 ^ 32],
      (randomInt64 (fastRandOf [(2 * w) / 2 ^ 32, (2 * w) % 2 ^ 32])).2, ?_⟩
    rw [h, randomInt64_attains (2 * w) (by omega), Int.toNat_ofNat,
      Nat.mul_div_cancel_left _ (by norm_num), Nat.mod_eq_of_lt hw]

/-- A bound that is not positive is returned without a draw. -/
theorem includingZero_nonpos (fuel : Nat) (bound : Int) (r : FastRand) (hb : bound ≤ 0) :
    nextRandomInt64IncludingZero fuel bound r = some (bound, r) := by
  unfold nextRandomInt64IncludingZero
  rw [if_pos hb]

end Garr

namespace Garr

/-- The function `nextRandomInt64` on a positive bound returns, after at most one draw, a
value `d` with `1 <= d <= bound`; from `bound = 2` on, `d < bound`. -/
theorem nextRandomInt64_range (fuel : Nat) (bound : Int) (r : FastRand) (hb : 0 < bound)
    (hb' : bound < 2 ^ 63) :
    ∃ d r', nextRandomInt64 (fuel + 1) bound r = some (d, r') ∧ 1 ≤ d ∧ d ≤ bound ∧
      (2 ≤ bound → d < bound) := by
  have hmask : wrap64 (bound - 1) = bound - 1 := wrap64_of_isInt64 ⟨by omega, by omega⟩
  unfold nextRandomInt64
  rw [if_neg (by omega), hmask]
  by_cases h1 : bound = 1
  · subst h1
    rw [includingZero_nonpos _ _ _ (by norm_num)]
    exact ⟨1, r, rfl, by norm_num, by norm_num, by norm_num⟩
  · obtain ⟨v, hv, hv0, hvb, -⟩ := includingZero_range fuel (bound - 1) r (by omega) (by omega)
    rw [hv]
    refine ⟨v + 1, (randomInt64 r).2, ?_, by omega, by omega, fun _ => by omega⟩
    show some (wrap64 (v + 1), _) = _
    rw [wrap64_of_isInt64 ⟨by omega, by omega⟩]

/-- Every `d` with `1 <= d < bound` and `d <= 2^62` is the result of `nextRandomInt64` for
some draws. -/
theorem nextRandomInt64_attains (fuel : Nat) (bound d : Int) (hb' : bound < 2 ^ 63)
    (h1 : 1 ≤ d) (hd : d < bound) (hd' : d ≤ 2 ^ 62) :
    ∃ r r', nextRandomInt64 (fuel + 1) bound r = some (d, r') := by
  have hmask : wrap64 (bound - 1) = bound - 1 := wrap64_of_isInt64 ⟨by omega, by omega⟩
  obtain ⟨r, r', h⟩ := includingZero_attains fuel (bound - 1) (d - 1) (by omega) (by omega)
    (by omega) (by omega)
  refine ⟨r, r', ?_⟩
  unfold nextRandomInt64
  rw [if_neg (by omega), hmask, h]
  show some (wrap64 (d - 1 + 1), _) = _
  rw [wrap64_of_isInt64 ⟨by omega, by omega⟩]
  congr 2
  omega

/-- C24 (amended): for `0 <= min <= max`, `NewRandomBackoff` builds a backoff whose
`NextDelayMillis` returns, for every outcome of the random source, a value `d` with
`min <= d <= max`. When `min < max` the value is `min + nextRandomInt64(max - min)`, which
is above `min`, so that `min` is never returned; and every `d` with `min < d < max` that
is at most `min + 2^62` is returned for some outcome. -/
theorem randomBackoff_values (min max : Int) (fuel : Nat) (n : Int) (h0 : 0 ≤ min)
    (hle : min ≤ max) (hmax : max < 2 ^ 63) :
    ∃ b, NewRandomBackoff min max = (some b, none) ∧
      (∀ r, ∃ d r', b.NextDelayMillis (fuel + 1) n r = some (d, r') ∧
        min ≤ d ∧ d ≤ max ∧ (min < max → min < d)) ∧
      (∀ d, min < d → d < max → d ≤ min + 2 ^ 62 →
        ∃ r r', b.NextDelayMillis (fuel + 1) n r = some (d, r')) := by
  have hbound : wrap64 (max - min) = max - min := wrap64_of_isInt64 ⟨by omega, by omega⟩
  refine ⟨{ minDelayMillis := min, maxDelayMillis := max, bound := max - min }, ?_, ?_, ?_⟩
  · unfold NewRandomBackoff
    rw [if_neg (by omega), if_neg (by omega), hbound]
  · intro r
    unfold RandomBackoff.NextDelayMillis
    by_cases heq : min = max
    · subst heq
      simp only [ne_eq, not_true_eq_false, if_false]
      exact ⟨min, r, rfl, le_refl _, le_refl _, fun h => absurd h (lt_irrefl _)⟩
    · simp only [ne_eq, heq, not_false_eq_true, if_true]
      obtain ⟨d, r', hd, hd1, hd2, -⟩ :=
        nextRandomInt64_range fuel (max - min) r (by omega) (by omega)
      rw [hd]
      refine ⟨d + min, r', ?_, by omega, by omega, fun _ => by omega⟩
      show some (wrap64 (d + min), _) = _
      rw [wrap64_of_isInt64 ⟨by omega, by omega⟩]
  · intro d hd1 hd2 hd3
    obtain ⟨r, r', h⟩ := nextRandomInt64_attains fuel (max - min) (d - min) (by omega)
      (by omega) (by omega) (by omega)
    refine ⟨r, r', ?_⟩
    unfold RandomBackoff.NextDelayMillis
    have hne : ¬ min = max := by omega
    simp only [ne_eq, hne, not_false_eq_true, if_true]
    rw [h]
    show some (wrap64 (d - min + min), _) = _
    rw [wrap64_of_isInt64 ⟨by omega, by omega⟩]
    congr 2
    omega

/-- Witness of C24 (amended): the backoff of `TestRandomBackoff`, between 1000 and 1200
milliseconds. -/
theorem randomBackoff_values_witness :
    (0 : Int) ≤ 1000 ∧ (1000 : Int) ≤ 1200 ∧ (1200 : Int) < 2 ^ 63 ∧
    ∃ b, NewRandomBackoff 1000 1200 = (some b, none) ∧
      (∀ r, ∃ d r', b.NextDelayMillis (0 + 1) 1 r = some (d, r') ∧
        1000 ≤ d ∧ d ≤ 1200 ∧ ((1000 : Int) < 1200 → 1000 < d)) ∧
      (∀ d, 1000 < d → d < 1200 → d ≤ 1000 + 2 ^ 62 →
        ∃ r r', b.NextDelayMillis (0 + 1) 1 r = some (d, r')) :=
  ⟨by norm_num, by norm_num, by norm_num,
    randomBackoff_values 1000 1200 0 1 (by norm_num) (by norm_num) (by norm_num)⟩

/-- Counterexample to C24: the backoff built by `NewRandomBackoff(0, 2)` returns 1 for
every outcome of the random source and every attempt number: the minimum 0 is not
attainable (nor is the maximum 2). -/
theorem randomBackoff_never_minimum :
    NewRandomBackoff 0 2 =
      (some { minDelayMillis := 0, maxDelayMillis := 2, bound := 2 }, none) ∧
    ∀ (n : Int) (r : FastRand),
      (RandomBackoff.NextDelayMillis 1 { minDelayMillis := 0, maxDelayMillis := 2, bound := 2 }
        n r).map Prod.fst = some 1 := by
  refine ⟨rfl, fun n r => ?_⟩
  obtain ⟨d, r', hd, hd1, -, hd3⟩ := nextRandomInt64_range 0 2 r (by norm_num) (by norm_num)
  have hd' : d = 1 := by have := hd3 (le_refl 2); omega
  subst hd'
  unfold RandomBackoff.NextDelayMillis
  have hne : ¬ (0 : Int) = 2 := by norm_num
  simp only [ne_eq, hne, not_false_eq_true, if_true]
  have h : nextRandomInt64 1 2 r = some (1, r') := hd
  rw [h]
  rfl

end Garr

namespace Garr

namespace F64

/-- With enough fuel `bitLenAux` counts the binary digits: `n < 2^len`, and
`2^(len - 1) <= n` for a positive `n`. -/
theorem bitLenAux_spec (f n : Nat) (h : n ≤ f) :
    n < 2 ^ bitLenAux f n ∧ (0 < n → 2 ^ (bitLenAux f n - 1) ≤ n) := by
  induction f generalizing n with
  | zero =>
    have : n = 0 := by omega
    subst this
    simp [bitLenAux]
  | succ f ih =>
    unfold bitLenAux
    by_cases hn : n = 0
    · subst hn
      simp
    · rw [if_neg hn]
      obtain ⟨h1, h2⟩ := ih (n / 2) (by omega)
      constructor
      · rw [pow_succ]
        omega
      · intro _
        simp only [Nat.add_sub_cancel]
        by_cases h0 : n / 2 = 0
        · rw [h0]
          have : bitLenAux f 0 = 0 := by cases f <;> simp [bitLenAux]
          rw [this]
          simp
          omega
        · have h3 := h2 (by omega)
          have hpos : 0 < bitLenAux f (n / 2) := by
            by_contra hc
            have : bitLenAux f (n / 2) = 0 := by omega
            rw [this] at h1
            simp at h1
            exact h0 h1
          have : 2 ^ bitLenAux f (n / 2) = 2 ^ (bitLenAux f (n / 2) - 1) * 2 := by
            rw [← pow_succ]
            congr 1
            omega
          omega

/-- The number of binary digits of a positive number. -/
theorem bitLen_spec (n : Nat) (hn : 0 < n) :
    2 ^ (bitLen n - 1) ≤ n ∧ n < 2 ^ bitLen n ∧ 0 < bitLen n := by
  obtain ⟨h1, h2⟩ := bitLenAux_spec n n (le_refl n)
  refine ⟨h2 hn, h1, ?_⟩
  by_contra hc
  have : bitLen n = 0 := by omega
  unfold bitLen at this
  rw [this] at h1
  simp at h1
  omega

/-- The test `geTwoPow a d k` decides `2^k <= a / d`. -/
theorem geTwoPow_iff (a d : Nat) (k : Int) (hd : 0 < d) :
    geTwoPow a d k = true ↔ (2 : ℚ) ^ k ≤ (a : ℚ) / d := by
  have hdq : (0 : ℚ) < d := by exact_mod_cast hd
  unfold geTwoPow
  by_cases hk : 0 ≤ k
  · rw [if_pos hk]
    obtain ⟨j, rfl⟩ : ∃ j : Nat, k = j := ⟨k.toNat, by omega⟩
    simp only [Int.toNat_ofNat, decide_eq_true_eq, zpow_natCast]
    rw [le_div_iff₀ hdq]
    constructor
    · intro h
      have : ((d * 2 ^ j : Nat) : ℚ) ≤ a := by exact_mod_cast h
      push_cast at this
      linarith
    · intro h
      have : ((d * 2 ^ j : Nat) : ℚ) ≤ a := by push_cast; linarith
      exact_mod_cast this
  · rw [if_neg hk]
    obtain ⟨j, rfl⟩ : ∃ j : Nat, k = -(j : Int) := ⟨(-k).toNat, by omega⟩
    simp only [neg_neg, Int.toNat_ofNat, decide_eq_true_eq, zpow_neg, zpow_natCast]
    have h2 : (0 : ℚ) < 2 ^ j := by positivity
    rw [le_div_iff₀ hdq, inv_mul_le_iff₀ h2]
    constructor
    · intro h
      have : ((d : Nat) : ℚ) ≤ ((a * 2 ^ j : Nat) : ℚ) := by exact_mod_cast h
      push_cast at this
      linarith
    · intro h
      have : ((d : Nat) : ℚ) ≤ ((a * 2 ^ j : Nat) : ℚ) := by push_cast; linarith
      exact_mod_cast this

/-- The exponent of the leading bit of `a / d`. -/
theorem ilog2_spec (a d : Nat) (ha : 0 < a) (hd : 0 < d) :
    (2 : ℚ) ^ ilog2 a d ≤ (a : ℚ) / d ∧ (a : ℚ) / d < (2 : ℚ) ^ (ilog2 a d + 1) := by
  have hdq : (0 : ℚ) < d := by exact_mod_cast hd
  obtain ⟨a1, a2, a3⟩ := bitLen_spec a ha
  obtain ⟨d1, d2, d3⟩ := bitLen_spec d hd
  have a1q : (2 : ℚ) ^ (((bitLen a : Int)) - 1) ≤ a := by
    have : ((2 ^ (bitLen a - 1) : Nat) : ℚ) ≤ a := by exact_mod_cast a1
    have e : ((bitLen a : Int)) - 1 = ((bitLen a - 1 : Nat) : Int) := by omega
    rw [e, zpow_natCast]
    exact_mod_cast this
  have a2q : (a : ℚ) < (2 : ℚ) ^ ((bitLen a : Int)) := by
    rw [zpow_natCast]
    exact_mod_cast a2
  have d1q : (2 : ℚ) ^ (((bitLen d : Int)) - 1) ≤ d := by
    have : ((2 ^ (bitLen d - 1) : Nat) : ℚ) ≤ d := by exact_mod_cast d1
    have e : ((bitLen d : Int)) - 1 = ((bitLen d - 1 : Nat) : Int) := by omega
    rw [e, zpow_natCast]
    exact_mod_cast this
  have d2q : (d : ℚ) < (2 : ℚ) ^ ((bitLen d : Int)) := by
    rw [zpow_natCast]
    exact_mod_cast d2
  have two : (0 : ℚ) < 2 := by norm_num
  have two' : (2 : ℚ) ≠ 0 := by norm_num
  -- a / d < 2^(k + 1) and 2^(k - 1) < a / d
  have up : (a : ℚ) / d < (2 : ℚ) ^ ((bitLen a : Int) - bitLen d + 1) := by
    rw [div_lt_iff₀ hdq]
    have e : ((bitLen a : Int) - bitLen d + 1) = (bitLen a : Int) - ((bitLen d : Int) - 1) := by
      ring
    rw [e, zpow_sub₀ two']
    have hp : (0 : ℚ) < 2 ^ ((bitLen d : Int) - 1) := zpow_pos two _
    have hp' : (0 : ℚ) < 2 ^ ((bitLen a : Int)) := zpow_pos two _
    calc (a : ℚ) < 2 ^ ((bitLen a : Int)) := a2q
      _ = 2 ^ ((bitLen a : Int)) / 2 ^ ((bitLen d : Int) - 1) * 2 ^ ((bitLen d : Int) - 1) := by
          field_simp
      _ ≤ 2 ^ ((bitLen a : Int)) / 2 ^ ((bitLen d : Int) - 1) * d := by
          apply mul_le_mul_of_nonneg_left d1q
          positivity
  have low : (2 : ℚ) ^ ((bitLen a : Int) - bitLen d - 1) ≤ (a : ℚ) / d := by
    rw [le_div_iff₀ hdq]
    have e : ((bitLen a : Int) - bitLen d - 1) = ((bitLen a : Int) - 1) - (bitLen d : Int) := by
      ring
    rw [e, zpow_sub₀ two']
    have hp : (0 : ℚ) < 2 ^ ((bitLen d : Int)) := zpow_pos two _
    calc 2 ^ ((bitLen a : Int) - 1) / 2 ^ ((bitLen d : Int)) * (d : ℚ)
        ≤ 2 ^ ((bitLen a : Int) - 1) / 2 ^ ((bitLen d : Int)) * 2 ^ ((bitLen d : Int)) := by
          apply mul_le_mul_of_nonneg_left d2q.le
          positivity
      _ = 2 ^ ((bitLen a : Int) - 1) := by field_simp
      _ ≤ a := a1q
  unfold ilog2
  simp only
  by_cases hg : geTwoPow a d ((bitLen a : Int) - bitLen d) = true
  · rw [if_pos hg]
    exact ⟨(geTwoPow_iff a d _ hd).1 hg, up⟩
  · rw [if_neg hg]
    refine ⟨low, ?_⟩
    rw [geTwoPow_iff a d _ hd, not_le] at hg
    have e : (bitLen a : Int) - bitLen d - 1 + 1 = (bitLen a : Int) - bitLen d := by ring
    rw [e]
    exact hg

/-- Rounding to nearest is exact on integers. -/
theorem rne_exact (n d : Nat) (hd : 0 < d) (h : d ∣ n) : rne n d = n / d := by
  unfold rne
  have hr : n % d = 0 := Nat.mod_eq_zero_of_dvd h
  rw [hr, if_neg]
  rintro (h1 | ⟨h1, -⟩) <;> omega

/-- Rounding to nearest, ties to even, is monotone in the fraction. -/
theorem rne_mono (n1 d1 n2 d2 : Nat) (h1 : 0 < d1) (h2 : 0 < d2) (h : n1 * d2 ≤ n2 * d1) :
    rne n1 d1 ≤ rne n2 d2 := by
  have e1 := Nat.div_add_mod n1 d1
  have e2 := Nat.div_add_mod n2 d2
  have r1 := Nat.mod_lt n1 h1
  have r2 := Nat.mod_lt n2 h2
  have hq : n1 / d1 ≤ n2 / d2 := by
    rw [Nat.le_div_iff_mul_le h2]
    have : n1 / d1 * d1 ≤ n1 := Nat.div_mul_le_self _ _
    have h3 : n1 / d1 * d2 * d1 ≤ n2 * d1 := by
      calc n1 / d1 * d2 * d1 = n1 / d1 * d1 * d2 := by ring
        _ ≤ n1 * d2 := Nat.mul_le_mul_right _ this
        _ ≤ n2 * d1 := h
    exact Nat.le_of_mul_le_mul_right h3 h1
  have up1 : rne n1 d1 ≤ n1 / d1 + 1 := by unfold rne; split_ifs <;> omega
  have lo2 : n2 / d2 ≤ rne n2 d2 := by unfold rne; split_ifs <;> omega
  rcases Nat.lt_or_ge (n1 / d1) (n2 / d2) with hlt | hge
  · omega
  · have heq : n1 / d1 = n2 / d2 := by omega
    -- the remainders are in the same order as the fractions
    have hr : n1 % d1 * d2 ≤ n2 % d2 * d1 := by
      have h1' : n1 * d2 = d1 * (n1 / d1) * d2 + n1 % d1 * d2 := by
        rw [← Nat.add_mul, e1]
      have h2' : n2 * d1 = d2 * (n2 / d2) * d1 + n2 % d2 * d1 := by
        rw [← Nat.add_mul, e2]
      have h3 : d1 * (n1 / d1) * d2 = d2 * (n2 / d2) * d1 := by rw [heq]; ring
      omega
    by_cases hup : d1 < 2 * (n1 % d1) ∨ (2 * (n1 % d1) = d1 ∧ n1 / d1 % 2 = 1)
    · have hup2 : d2 < 2 * (n2 % d2) ∨ (2 * (n2 % d2) = d2 ∧ n2 / d2 % 2 = 1) := by
        rcases hup with hgt | ⟨hhalf, hodd⟩
        · left
          by_contra hc
          have hc' : 2 * (n2 % d2) ≤ d2 := by omega
          have : 2 * (n2 % d2) * d1 ≤ d2 * d1 := Nat.mul_le_mul_right _ hc'
          have : d1 * d2 < 2 * (n1 % d1) * d2 := Nat.mul_lt_mul_of_pos_right hgt h2
          nlinarith
        · by_cases hc : d2 < 2 * (n2 % d2)
          · exact Or.inl hc
          · right
            refine ⟨?_, by rw [← heq]; exact hodd⟩
            have hc' : 2 * (n2 % d2) ≤ d2 := by omega
            have h5 : 2 * (n1 % d1) * d2 ≤ 2 * (n2 % d2) * d1 := by nlinarith
            rw [hhalf] at h5
            have h6 : d2 ≤ 2 * (n2 % d2) := by
              have : d1 * d2 ≤ d1 * (2 * (n2 % d2)) := by nlinarith
              exact Nat.le_of_mul_le_mul_left this h1
            omega
      have : rne n2 d2 = n2 / d2 + 1 := by unfold rne; rw [if_pos hup2]
      omega
    · have : rne n1 d1 = n1 / d1 := by unfold rne; rw [if_neg hup]
      omega

/-- A fraction below the integer `K` is rounded to at most `K`. -/
theorem rne_le (n d K : Nat) (hd : 0 < d) (h : n < K * d) : rne n d ≤ K := by
  have : n / d < K := (Nat.div_lt_iff_lt_mul hd).2 h
  unfold rne
  split_ifs <;> omega

/-- A fraction that is at least the integer `K` is rounded to at least `K`. -/
theorem le_rne (n d K : Nat) (hd : 0 < d) (h : K * d ≤ n) : K ≤ rne n d := by
  have : K ≤ n / d := (Nat.le_div_iff_mul_le hd).2 h
  unfold rne
  split_ifs <;> omega

/-- The rounding of a positive fraction, unfolded: the mantissa `mant` at the exponent
`ulpExp`, or the infinity from `2^1024` on. -/
theorem round_pos (num : Int) (den : Nat) (h : 0 < num) :
    round num den =
      if 971 < ulpExp num.natAbs den ∨
          (ulpExp num.natAbs den = 971 ∧ 2 ^ 53 ≤ mant num.natAbs den) then inf false
      else fin (mant num.natAbs den) (ulpExp num.natAbs den) := by
  unfold round mant ulpExp
  rw [if_neg (by omega)]
  have hneg : ¬ num < 0 := by omega
  simp only [hneg, decide_False, if_false]
  by_cases hu : 0 ≤ max (ilog2 num.natAbs den - 52) (-1074)
  · simp only [hu, if_true, rne]
  · simp only [hu, if_false, rne]

/-- The fraction that `mant` rounds: `a / den` divided by `2^ulpExp`. -/
theorem mant_eq (a den : Nat) (hden : 0 < den) :
    ∃ n d : Nat, 0 < d ∧ mant a den = rne n d ∧
      (n : ℚ) / d = (a : ℚ) / den / (2 : ℚ) ^ ulpExp a den := by
  have hdq : (den : ℚ) ≠ 0 := by exact_mod_cast hden.ne'
  unfold mant
  by_cases hu : 0 ≤ ulpExp a den
  · obtain ⟨j, hj⟩ : ∃ j : Nat, ulpExp a den = j := ⟨(ulpExp a den).toNat, by omega⟩
    rw [if_pos hu, hj]
    refine ⟨a, den * 2 ^ j, by positivity, rfl, ?_⟩
    push_cast
    rw [zpow_natCast, div_div]
  · obtain ⟨j, hj⟩ : ∃ j : Nat, ulpExp a den = -(j : Int) := ⟨(-ulpExp a den).toNat, by omega⟩
    rw [if_neg hu, hj]
    refine ⟨a * 2 ^ j, den, hden, by simp, ?_⟩
    push_cast
    rw [zpow_neg, zpow_natCast]
    field_simp

/-- The mantissa has at most 53 bits, `2^53` included. -/
theorem mant_le (a den : Nat) (ha : 0 < a) (hden : 0 < den) : mant a den ≤ 2 ^ 53 := by
  obtain ⟨n, d, hd, hm, hq⟩ := mant_eq a den hden
  obtain ⟨-, hup⟩ := ilog2_spec a den ha hden
  have hdq : (0 : ℚ) < d := by exact_mod_cast hd
  have two : (0 : ℚ) < 2 := by norm_num
  rw [hm]
  apply rne_le _ _ _ hd
  have hu : ilog2 a den - 52 ≤ ulpExp a den := le_max_left _ _
  have h1 : (n : ℚ) / d < 2 ^ 53 := by
    rw [hq, div_lt_iff₀ (zpow_pos two _)]
    calc (a : ℚ) / den < 2 ^ (ilog2 a den + 1) := hup
      _ ≤ 2 ^ ((53 : Int) + ulpExp a den) := zpow_le_zpow_right₀ (by norm_num) (by omega)
      _ = 2 ^ 53 * 2 ^ ulpExp a den := by
          rw [zpow_add₀ (by norm_num)]
          norm_num
  rw [div_lt_iff₀ hdq] at h1
  have : (n : ℚ) < ((2 ^ 53 * d : Nat) : ℚ) := by push_cast; linarith
  exact_mod_cast this

/-- Above the subnormal range the mantissa has 53 bits. -/
theorem le_mant (a den : Nat) (ha : 0 < a) (hden : 0 < den)
    (hu : -1074 ≤ ilog2 a den - 52) : 2 ^ 52 ≤ mant a den := by
  obtain ⟨n, d, hd, hm, hq⟩ := mant_eq a den hden
  obtain ⟨hlow, -⟩ := ilog2_spec a den ha hden
  have hdq : (0 : ℚ) < d := by exact_mod_cast hd
  have two : (0 : ℚ) < 2 := by norm_num
  rw [hm]
  apply le_rne _ _ _ hd
  have hue : ulpExp a den = ilog2 a den - 52 := max_eq_left hu
  have h1 : (2 : ℚ) ^ 52 ≤ (n : ℚ) / d := by
    rw [hq, le_div_iff₀ (zpow_pos two _), hue]
    calc (2 : ℚ) ^ 52 * 2 ^ (ilog2 a den - 52) = 2 ^ ((52 : Int) + (ilog2 a den - 52)) := by
          rw [zpow_add₀ (by norm_num)]
          norm_num
      _ = 2 ^ ilog2 a den := by congr 1; ring
      _ ≤ (a : ℚ) / den := hlow
  rw [le_div_iff₀ hdq] at h1
  have : ((2 ^ 52 * d : Nat) : ℚ) ≤ n := by push_cast; linarith
  exact_mod_cast this

/-- The exponent of the leading bit is monotone. -/
theorem ilog2_mono (a1 d1 a2 d2 : Nat) (ha1 : 0 < a1) (hd1 : 0 < d1) (ha2 : 0 < a2)
    (hd2 : 0 < d2) (h : (a1 : ℚ) / d1 ≤ (a2 : ℚ) / d2) : ilog2 a1 d1 ≤ ilog2 a2 d2 := by
  obtain ⟨l1, -⟩ := ilog2_spec a1 d1 ha1 hd1
  obtain ⟨-, u2⟩ := ilog2_spec a2 d2 ha2 hd2
  have : (2 : ℚ) ^ ilog2 a1 d1 < 2 ^ (ilog2 a2 d2 + 1) := lt_of_le_of_lt (le_trans l1 h) u2
  have := (zpow_lt_zpow_iff_right₀ (by norm_num : (1 : ℚ) < 2)).1 this
  omega

/-- Rounding is monotone on positive fractions. -/
theorem round_mono_pos (n1 n2 : Int) (d1 d2 : Nat) (h1 : 0 < n1) (h2 : 0 < n2)
    (hd1 : 0 < d1) (hd2 : 0 < d2) (h : (n1 : ℚ) / d1 ≤ (n2 : ℚ) / d2) :
    leVal (round n1 d1) (round n2 d2) := by
  obtain ⟨a1, rfl⟩ : ∃ a : Nat, n1 = a := ⟨n1.toNat, by omega⟩
  obtain ⟨a2, rfl⟩ : ∃ a : Nat, n2 = a := ⟨n2.toNat, by omega⟩
  have ha1 : 0 < a1 := by omega
  have ha2 : 0 < a2 := by omega
  have h' : (a1 : ℚ) / d1 ≤ (a2 : ℚ) / d2 := by
    simpa only [Int.cast_natCast] using h
  rw [round_pos _ _ h1, round_pos _ _ h2]
  simp only [Int.natAbs_ofNat]
  have two : (0 : ℚ) < 2 := by norm_num
  have hL := ilog2_mono a1 d1 a2 d2 ha1 hd1 ha2 hd2 h'
  have hu : ulpExp a1 d1 ≤ ulpExp a2 d2 := max_le_max (by omega) (le_refl _)
  have hu1 : -1074 ≤ ulpExp a1 d1 := le_max_right _ _
  have m1le := mant_le a1 d1 ha1 hd1
  rcases hu.lt_or_eq with hlt | heq
  · -- the second fraction is rounded at a higher exponent
    have hu2 : -1074 ≤ ilog2 a2 d2 - 52 := by
      by_contra hc
      have : ulpExp a2 d2 = -1074 := max_eq_right (by omega)
      omega
    have m2ge := le_mant a2 d2 ha2 hd2 hu2
    by_cases ov2 : 971 < ulpExp a2 d2 ∨ (ulpExp a2 d2 = 971 ∧ 2 ^ 53 ≤ mant a2 d2)
    · rw [if_pos ov2]
      split_ifs <;> exact trivial
    · rw [if_neg ov2, if_neg (by omega)]
      show ((mant a1 d1 : Int) : ℚ) * 2 ^ ulpExp a1 d1 ≤ ((mant a2 d2 : Int) : ℚ) * 2 ^ ulpExp a2 d2
      have e1 : ((mant a1 d1 : Int) : ℚ) ≤ 2 ^ 53 := by exact_mod_cast m1le
      have e2 : (2 : ℚ) ^ 52 ≤ ((mant a2 d2 : Int) : ℚ) := by exact_mod_cast m2ge
      have p1 : (0 : ℚ) < 2 ^ ulpExp a1 d1 := zpow_pos two _
      have p2 : (0 : ℚ) < 2 ^ ulpExp a2 d2 := zpow_pos two _
      have e3 : (2 : ℚ) ^ (ulpExp a1 d1 + 1) ≤ 2 ^ ulpExp a2 d2 :=
        zpow_le_zpow_right₀ (by norm_num) (by omega)
      calc ((mant a1 d1 : Int) : ℚ) * 2 ^ ulpExp a1 d1 ≤ 2 ^ 53 * 2 ^ ulpExp a1 d1 :=
            mul_le_mul_of_nonneg_right e1 p1.le
        _ = 2 ^ 52 * 2 ^ (ulpExp a1 d1 + 1) := by
            rw [zpow_add₀ (by norm_num)]
            norm_num
            ring
        _ ≤ 2 ^ 52 * 2 ^ ulpExp a2 d2 := mul_le_mul_of_nonneg_left e3 (by positivity)
        _ ≤ ((mant a2 d2 : Int) : ℚ) * 2 ^ ulpExp a2 d2 :=
            mul_le_mul_of_nonneg_right e2 p2.le
  · -- both fractions are rounded at the same exponent
    obtain ⟨n1, e1, he1, hm1, hq1⟩ := mant_eq a1 d1 hd1
    obtain ⟨n2, e2, he2, hm2, hq2⟩ := mant_eq a2 d2 hd2
    have hm : mant a1 d1 ≤ mant a2 d2 := by
      rw [hm1, hm2]
      apply rne_mono _ _ _ _ he1 he2
      have hle : (n1 : ℚ) / e1 ≤ (n2 : ℚ) / e2 := by
        rw [hq1, hq2, heq]
        exact div_le_div_of_nonneg_right h' (zpow_pos two _).le
      have he1q : (0 : ℚ) < e1 := by exact_mod_cast he1
      have he2q : (0 : ℚ) < e2 := by exact_mod_cast he2
      rw [div_le_div_iff₀ he1q he2q] at hle
      exact_mod_cast hle
    by_cases ov2 : 971 < ulpExp a2 d2 ∨ (ulpExp a2 d2 = 971 ∧ 2 ^ 53 ≤ mant a2 d2)
    · rw [if_pos ov2]
      split_ifs <;> exact trivial
    · rw [if_neg ov2, if_neg (by rw [heq]; omega)]
      show ((mant a1 d1 : Int) : ℚ) * 2 ^ ulpExp a1 d1 ≤ ((mant a2 d2 : Int) : ℚ) * 2 ^ ulpExp a2 d2
      rw [heq]
      have : ((mant a1 d1 : Int) : ℚ) ≤ ((mant a2 d2 : Int) : ℚ) := by exact_mod_cast hm
      exact mul_le_mul_of_nonneg_right this (zpow_pos two _).le

/-- A positive fraction is rounded to a non-negative value or to the infinity. -/
theorem round_pos_nonneg (n : Int) (d : Nat) (h : 0 < n) : leVal (fin 0 0) (round n d) := by
  rw [round_pos _ _ h]
  split_ifs
  · exact trivial
  · show ((0 : Int) : ℚ) * 2 ^ (0 : Int) ≤ ((mant n.natAbs d : Int) : ℚ) * 2 ^ ulpExp n.natAbs d
    have : (0 : ℚ) ≤ ((mant n.natAbs d : Int) : ℚ) := by exact_mod_cast Nat.zero_le _
    have two : (0 : ℚ) < 2 := by norm_num
    simp only [Int.cast_zero, zero_mul]
    exact mul_nonneg this (zpow_pos two _).le

/-- Rounding is monotone on non-negative fractions. -/
theorem round_mono (n1 n2 : Int) (d1 d2 : Nat) (h1 : 0 ≤ n1) (hd1 : 0 < d1) (hd2 : 0 < d2)
    (h : (n1 : ℚ) / d1 ≤ (n2 : ℚ) / d2) : leVal (round n1 d1) (round n2 d2) := by
  have hd1q : (0 : ℚ) < d1 := by exact_mod_cast hd1
  have hd2q : (0 : ℚ) < d2 := by exact_mod_cast hd2
  have h2 : 0 ≤ n2 := by
    have : (0 : ℚ) ≤ (n1 : ℚ) / d1 := div_nonneg (by exact_mod_cast h1) hd1q.le
    have h3 : (0 : ℚ) ≤ (n2 : ℚ) / d2 := le_trans this h
    rw [le_div_iff₀ hd2q] at h3
    simp only [zero_mul] at h3
    exact_mod_cast h3
  rcases h1.lt_or_eq with p1 | z1
  · rcases h2.lt_or_eq with p2 | z2
    · exact round_mono_pos n1 n2 d1 d2 p1 p2 hd1 hd2 h
    · exfalso
      rw [← z2] at h
      simp only [Int.cast_zero, zero_div] at h
      have : (0 : ℚ) < (n1 : ℚ) / d1 := div_pos (by exact_mod_cast p1) hd1q
      linarith
  · rw [← z1]
    rcases h2.lt_or_eq with p2 | z2
    · have : round 0 d1 = fin 0 0 := by unfold round; simp
      rw [this]
      exact round_pos_nonneg n2 d2 p2
    · rw [← z2]
      have e1 : round 0 d1 = fin 0 0 := by unfold round; simp
      have e2 : round 0 d2 = fin 0 0 := by unfold round; simp
      rw [e1, e2]
      show ((0 : Int) : ℚ) * 2 ^ (0 : Int) ≤ ((0 : Int) : ℚ) * 2 ^ (0 : Int)
      exact le_refl _

/-- A positive fraction is rounded to a finite value or to the positive infinity. -/
theorem round_pos_cases (N : Int) (D : Nat) (hN : 0 < N) :
    round N D = inf false ∨ round N D = fin (mant N.natAbs D) (ulpExp N.natAbs D) := by
  rw [round_pos _ _ hN]
  split_ifs
  · exact Or.inl rfl
  · exact Or.inr rfl

/-- Rounding is exact on the values `k * 2^e` with `k <= 2^53` and `e >= -1074`: a finite
result has that value, and the infinity is returned only from `2^1024` on. -/
theorem round_exact (N : Int) (D k : Nat) (e : Int) (hN : 0 < N) (hD : 0 < D)
    (hk : k ≤ 2 ^ 53) (he : -1074 ≤ e) (hval : (N : ℚ) / D = (k : ℚ) * 2 ^ e) :
    (∀ m u, round N D = fin m u → (m : ℚ) * 2 ^ u = (k : ℚ) * 2 ^ e) ∧
      (round N D = inf false → (2 : ℚ) ^ (1024 : Int) ≤ (k : ℚ) * 2 ^ e) := by
  obtain ⟨a, rfl⟩ : ∃ a : Nat, N = a := ⟨N.toNat, by omega⟩
  have ha : 0 < a := by omega
  have two : (0 : ℚ) < 2 := by norm_num
  have two' : (2 : ℚ) ≠ 0 := by norm_num
  have hx : (a : ℚ) / D = (k : ℚ) * 2 ^ e := by simpa only [Int.cast_natCast] using hval
  obtain ⟨hlow, hup⟩ := ilog2_spec a D ha hD
  have hu0 : -1074 ≤ ulpExp a D := le_max_right _ _
  have hu1 : ilog2 a D - 52 ≤ ulpExp a D := le_max_left _ _
  have hkq : (k : ℚ) ≤ 2 ^ 53 := by exact_mod_cast hk
  have hL : ilog2 a D ≤ 53 + e := by
    by_contra hc
    have h1 : (2 : ℚ) ^ (54 + e) ≤ 2 ^ ilog2 a D := zpow_le_zpow_right₀ (by norm_num) (by omega)
    have h2 : (k : ℚ) * 2 ^ e ≤ 2 ^ 53 * 2 ^ e :=
      mul_le_mul_of_nonneg_right hkq (zpow_pos two _).le
    have h3 : (2 : ℚ) ^ (54 + e) = 2 * (2 ^ 53 * 2 ^ e) := by
      rw [zpow_add₀ two']
      norm_num
      ring
    have h4 : (0 : ℚ) < 2 ^ 53 * 2 ^ e := by positivity
    rw [hx] at hlow
    linarith
  -- the quotient by the last place is a natural number
  have hT : ∃ T : Nat, (a : ℚ) / D / 2 ^ ulpExp a D = T := by
    by_cases hc : ilog2 a D - 52 ≤ e
    · have hue : ulpExp a D ≤ e := max_le hc he
      obtain ⟨j, hj⟩ : ∃ j : Nat, e - ulpExp a D = j := ⟨(e - ulpExp a D).toNat, by omega⟩
      refine ⟨k * 2 ^ j, ?_⟩
      rw [hx, mul_div_assoc, ← zpow_sub₀ two', hj]
      push_cast
      rw [zpow_natCast]
    · have hLe : ilog2 a D = 53 + e := by omega
      have hu : ulpExp a D = e + 1 := by
        unfold ulpExp
        rw [hLe]
        exact max_eq_left (by omega) |>.trans (by ring)
      have hk' : (k : ℚ) = 2 ^ 53 := by
        apply le_antisymm hkq
        rw [hx, hLe, zpow_add₀ two'] at hlow
        have hp : (0 : ℚ) < 2 ^ e := zpow_pos two _
        have h53 : (2 : ℚ) ^ (53 : Int) = 2 ^ (53 : Nat) := by norm_num
        rw [h53] at hlow
        exact le_of_mul_le_mul_right hlow hp
      refine ⟨2 ^ 52, ?_⟩
      rw [hx, hu, hk', zpow_add₀ two']
      have hp : (2 : ℚ) ^ e ≠ 0 := (zpow_pos two _).ne'
      field_simp
      norm_num
      ring
  obtain ⟨T, hT⟩ := hT
  obtain ⟨n, d, hd, hm, hq⟩ := mant_eq a D hD
  have hdq : (d : ℚ) ≠ 0 := by exact_mod_cast hd.ne'
  have hnT : n = T * d := by
    rw [hT] at hq
    have : (n : ℚ) = T * d := by
      field_simp at hq
      linarith
    exact_mod_cast this
  have hmant : mant a D = T := by
    rw [hm, rne_exact n d hd ⟨T, by rw [hnT]; ring⟩, hnT, Nat.mul_div_cancel _ hd]
  have hTval : (T : ℚ) * 2 ^ ulpExp a D = (k : ℚ) * 2 ^ e := by
    rw [← hT, ← hx]
    have hp : (2 : ℚ) ^ ulpExp a D ≠ 0 := (zpow_pos two _).ne'
    rw [div_mul_cancel₀ _ hp]
  have hrp := round_pos (a : Int) D hN
  simp only [Int.natAbs_ofNat] at hrp
  constructor
  · intro m u hmu
    rw [hrp] at hmu
    split_ifs at hmu
    injection hmu with h1 h2
    rw [← h1, ← h2, hmant]
    exact_mod_cast hTval
  · intro hinf
    rw [hrp] at hinf
    split_ifs at hinf with hov
    rcases hov with hgt | ⟨h971, hm53⟩
    · have hue : ulpExp a D = ilog2 a D - 52 := by
        unfold ulpExp
        apply max_eq_left
        by_contra hc
        have : ulpExp a D = -1074 := max_eq_right (by omega)
        omega
      have : (2 : ℚ) ^ (1024 : Int) ≤ 2 ^ ilog2 a D :=
        zpow_le_zpow_right₀ (by norm_num) (by omega)
      rw [← hx]
      exact le_trans this hlow
    · rw [← hTval, h971]
      have : (2 : ℚ) ^ 53 ≤ T := by rw [hmant] at hm53; exact_mod_cast hm53
      calc (2 : ℚ) ^ (1024 : Int) = 2 ^ 53 * 2 ^ (971 : Int) := by
            rw [show (1024 : Int) = 53 + 971 by norm_num, zpow_add₀ two']
            norm_num
        _ ≤ T * 2 ^ (971 : Int) := mul_le_mul_of_nonneg_right this (zpow_pos two _).le

/-- The comparison `<` of two finite values. -/
theorem lt_fin_iff (m1 e1 m2 e2 : Int) :
    lt (fin m1 e1) (fin m2 e2) = true ↔ (m1 : ℚ) * 2 ^ e1 < (m2 : ℚ) * 2 ^ e2 := by
  have two : (0 : ℚ) < 2 := by norm_num
  have two' : (2 : ℚ) ≠ 0 := by norm_num
  unfold lt align
  simp only [decide_eq_true_eq]
  obtain ⟨j1, hj1⟩ : ∃ j : Nat, e1 - min e1 e2 = j := ⟨(e1 - min e1 e2).toNat, by omega⟩
  obtain ⟨j2, hj2⟩ : ∃ j : Nat, e2 - min e1 e2 = j := ⟨(e2 - min e1 e2).toNat, by omega⟩
  rw [hj1, hj2, Int.toNat_ofNat, Int.toNat_ofNat]
  have h1 : (m1 : ℚ) * 2 ^ e1 = ((m1 * 2 ^ j1 : Int) : ℚ) * 2 ^ min e1 e2 := by
    push_cast
    rw [mul_assoc, ← zpow_natCast, ← zpow_add₀ two', ← hj1]
    congr 2
    ring
  have h2 : (m2 : ℚ) * 2 ^ e2 = ((m2 * 2 ^ j2 : Int) : ℚ) * 2 ^ min e1 e2 := by
    push_cast
    rw [mul_assoc, ← zpow_natCast, ← zpow_add₀ two', ← hj2]
    congr 2
    ring
  rw [h1, h2, mul_lt_mul_right (zpow_pos two _)]
  exact Int.cast_lt.symm

/-- The comparison `<=` of two finite values. -/
theorem le_fin_iff (m1 e1 m2 e2 : Int) :
    le (fin m1 e1) (fin m2 e2) = true ↔ (m1 : ℚ) * 2 ^ e1 ≤ (m2 : ℚ) * 2 ^ e2 := by
  have two : (0 : ℚ) < 2 := by norm_num
  have two' : (2 : ℚ) ≠ 0 := by norm_num
  unfold le align
  simp only [decide_eq_true_eq]
  obtain ⟨j1, hj1⟩ : ∃ j : Nat, e1 - min e1 e2 = j := ⟨(e1 - min e1 e2).toNat, by omega⟩
  obtain ⟨j2, hj2⟩ : ∃ j : Nat, e2 - min e1 e2 = j := ⟨(e2 - min e1 e2).toNat, by omega⟩
  rw [hj1, hj2, Int.toNat_ofNat, Int.toNat_ofNat]
  have h1 : (m1 : ℚ) * 2 ^ e1 = ((m1 * 2 ^ j1 : Int) : ℚ) * 2 ^ min e1 e2 := by
    push_cast
    rw [mul_assoc, ← zpow_natCast, ← zpow_add₀ two', ← hj1]
    congr 2
    ring
  have h2 : (m2 : ℚ) * 2 ^ e2 = ((m2 * 2 ^ j2 : Int) : ℚ) * 2 ^ min e1 e2 := by
    push_cast
    rw [mul_assoc, ← zpow_natCast, ← zpow_add₀ two', ← hj2]
    congr 2
    ring
  rw [h1, h2, mul_le_mul_right (zpow_pos two _)]
  exact Int.cast_le.symm

/-- The integer part of a non-negative finite value is its floor. -/
theorem trunc_eq_floor (m e : Int) (hm : 0 ≤ m) : trunc m e = ⌊(m : ℚ) * 2 ^ e⌋ := by
  unfold trunc
  by_cases he : 0 ≤ e
  · obtain ⟨j, rfl⟩ : ∃ j : Nat, e = j := ⟨e.toNat, by omega⟩
    rw [if_pos he, Int.toNat_ofNat, zpow_natCast]
    have : (m : ℚ) * 2 ^ j = ((m * 2 ^ j : Int) : ℚ) := by push_cast; rfl
    rw [this, Int.floor_intCast]
  · obtain ⟨j, rfl⟩ : ∃ j : Nat, e = -(j : Int) := ⟨(-e).toNat, by omega⟩
    rw [if_neg he, neg_neg, Int.toNat_ofNat, zpow_neg, zpow_natCast]
    rw [Int.tdiv_eq_ediv hm (by positivity)]
    have : (m : ℚ) * ((2 : ℚ) ^ j)⁻¹ = (m : ℚ) / ((2 ^ j : Nat) : ℚ) := by
      push_cast
      rfl
    rw [this, Rat.floor_intCast_div_natCast]
    push_cast
    rfl

/-- The fraction that `scaled` rounds. -/
theorem scaled_eq (m e : Int) :
    ∃ (N : Int) (D : Nat), 0 < D ∧ scaled m e = round N D ∧ (N : ℚ) / D = (m : ℚ) * 2 ^ e ∧
      (0 ≤ m → 0 ≤ N) ∧ (0 < m → 0 < N) := by
  unfold scaled
  by_cases he : 0 ≤ e
  · obtain ⟨j, rfl⟩ : ∃ j : Nat, e = j := ⟨e.toNat, by omega⟩
    rw [if_pos he, Int.toNat_ofNat]
    refine ⟨m * 2 ^ j, 1, by norm_num, rfl, ?_, fun h => by positivity, fun h => by positivity⟩
    push_cast
    rw [zpow_natCast]
    simp
  · obtain ⟨j, rfl⟩ : ∃ j : Nat, e = -(j : Int) := ⟨(-e).toNat, by omega⟩
    rw [if_neg he, neg_neg, Int.toNat_ofNat]
    refine ⟨m, 2 ^ j, by positivity, rfl, ?_, fun h => h, fun h => h⟩
    push_cast
    rw [zpow_neg, zpow_natCast]
    rfl

/-- The function `scaled` is monotone on non-negative values. -/
theorem scaled_mono (m1 e1 m2 e2 : Int) (h1 : 0 ≤ m1)
    (h : (m1 : ℚ) * 2 ^ e1 ≤ (m2 : ℚ) * 2 ^ e2) : leVal (scaled m1 e1) (scaled m2 e2) := by
  obtain ⟨N1, D1, hD1, hs1, hv1, hn1, -⟩ := scaled_eq m1 e1
  obtain ⟨N2, D2, hD2, hs2, hv2, -, -⟩ := scaled_eq m2 e2
  rw [hs1, hs2]
  exact round_mono N1 N2 D1 D2 (hn1 h1) hD1 hD2 (by rw [hv1, hv2]; exact h)

end F64

end Garr

namespace Garr

namespace F64

/-- What is at most a finite value is finite. -/
theorem leVal_fin_right (x : F64) (m e : Int) (h : leVal x (fin m e)) :
    ∃ m' e', x = fin m' e' ∧ (m' : ℚ) * 2 ^ e' ≤ (m : ℚ) * 2 ^ e := by
  cases x with
  | nan => exact absurd h (by simp [leVal])
  | inf n => cases n <;> exact absurd h (by simp [leVal])
  | fin m' e' => exact ⟨m', e', rfl, h⟩

/-- What is at least a finite value is finite or the positive infinity. -/
theorem leVal_fin_left (y : F64) (m e : Int) (h : leVal (fin m e) y) :
    y = inf false ∨ ∃ m' e', y = fin m' e' ∧ (m : ℚ) * 2 ^ e ≤ (m' : ℚ) * 2 ^ e' := by
  cases y with
  | nan => exact absurd h (by simp [leVal])
  | inf n =>
    cases n
    · exact Or.inl rfl
    · exact absurd h (by simp [leVal])
  | fin m' e' => exact Or.inr ⟨m', e', rfl, h⟩

/-- The order `leVal` is transitive. -/
theorem leVal_trans (x y z : F64) (h1 : leVal x y) (h2 : leVal y z) : leVal x z := by
  cases x with
  | nan => exact absurd h1 (by cases y <;> simp [leVal])
  | inf n =>
    cases n
    · cases y with
      | nan => exact absurd h1 (by simp [leVal])
      | fin _ _ => exact absurd h1 (by simp [leVal])
      | inf n' =>
        cases n'
        · exact h2
        · exact absurd h1 (by simp [leVal])
    · exact absurd h1 (by cases y <;> simp [leVal])
  | fin m e =>
    cases y with
    | nan => exact absurd h1 (by simp [leVal])
    | inf n' =>
      cases n'
      · cases z with
        | nan => exact absurd h2 (by simp [leVal])
        | fin _ _ => exact absurd h2 (by simp [leVal])
        | inf n'' =>
          cases n''
          · exact trivial
          · exact absurd h2 (by simp [leVal])
      · exact absurd h1 (by simp [leVal])
    | fin m' e' =>
      cases z with
      | nan => exact absurd h2 (by simp [leVal])
      | inf n'' =>
        cases n''
        · exact trivial
        · exact absurd h2 (by simp [leVal])
      | fin m'' e'' => exact le_trans (α := ℚ) h1 h2

/-- The sign of a finite value is the sign of its mantissa. -/
theorem mantissa_nonneg (m e : Int) : 0 ≤ m ↔ (0 : ℚ) ≤ (m : ℚ) * 2 ^ e := by
  have hp : (0 : ℚ) < 2 ^ e := zpow_pos (by norm_num) _
  constructor
  · intro h
    exact mul_nonneg (by exact_mod_cast h) hp.le
  · intro h
    have := nonneg_of_mul_nonneg_left h hp
    exact_mod_cast this

end F64

/-- The conversion of a value in `[0, 2^63)` to `int64` is its floor. -/
theorem toInt64_fin (fr : FloatRuntime) (m e : Int)
    (h0 : (0 : ℚ) ≤ (m : ℚ) * 2 ^ e) (h1 : (m : ℚ) * 2 ^ e < 2 ^ 63) :
    fr.toInt64 (.fin m e) = ⌊(m : ℚ) * 2 ^ e⌋ := by
  have hm : 0 ≤ m := (F64.mantissa_nonneg m e).2 h0
  have hf := F64.trunc_eq_floor m e hm
  have hf0 : 0 ≤ ⌊(m : ℚ) * 2 ^ e⌋ := Int.floor_nonneg.2 h0
  have hf1 : ⌊(m : ℚ) * 2 ^ e⌋ < 2 ^ 63 := by
    rw [Int.floor_lt]
    exact_mod_cast h1
  show (if IsInt64 (F64.trunc m e) then F64.trunc m e else _) = _
  rw [if_pos (by rw [hf]; exact ⟨by omega, hf1⟩), hf]

namespace F64

/-- The value zero is rounded to zero. -/
theorem scaled_zero (e : Int) : scaled 0 e = fin 0 0 := by
  unfold scaled round
  split_ifs <;> simp_all

/-- The function `scaled` is exact on the values `k * 2^e` below `2^1024` with
`0 < k <= 2^53` and `e >= -1074`. -/
theorem scaled_exact (k : Nat) (e : Int) (hk0 : 0 < k) (hk : k ≤ 2 ^ 53) (he : -1074 ≤ e)
    (hlt : (k : ℚ) * 2 ^ e < 2 ^ (1024 : Int)) :
    ∃ m u, scaled (k : Int) e = fin m u ∧ (m : ℚ) * 2 ^ u = (k : ℚ) * 2 ^ e := by
  obtain ⟨N, D, hD, hs, hv, -, hpos⟩ := scaled_eq (k : Int) e
  have hN : 0 < N := hpos (by exact_mod_cast hk0)
  have hv' : (N : ℚ) / D = (k : ℚ) * 2 ^ e := by rw [hv]; norm_cast
  obtain ⟨hfin, hinf⟩ := round_exact N D k e hN hD hk he hv'
  rw [hs]
  rcases round_pos_cases N D hN with h | h
  · exact absurd (hinf h) (not_le.2 hlt)
  · exact ⟨_, _, h, hfin _ _ h⟩

/-- A non-negative value that is at most `k * 2^e` is rounded to a finite value between 0
and `k * 2^e`. -/
theorem scaled_bounded (m e : Int) (k : Nat) (e' : Int) (hm : 0 ≤ m) (hk0 : 0 < k)
    (hk : k ≤ 2 ^ 53) (he : -1074 ≤ e') (hlt : (k : ℚ) * 2 ^ e' < 2 ^ (1024 : Int))
    (hle : (m : ℚ) * 2 ^ e ≤ (k : ℚ) * 2 ^ e') :
    ∃ m' u, scaled m e = fin m' u ∧ 0 ≤ m' ∧ (m' : ℚ) * 2 ^ u ≤ (k : ℚ) * 2 ^ e' := by
  obtain ⟨mk, uk, hsk, hvk⟩ := scaled_exact k e' hk0 hk he hlt
  have h1 : leVal (scaled m e) (scaled (k : Int) e') :=
    scaled_mono m e k e' hm (by exact_mod_cast hle)
  rw [hsk] at h1
  obtain ⟨m', u, hx, hv⟩ := leVal_fin_right _ _ _ h1
  have h0 : leVal (scaled 0 0) (scaled m e) :=
    scaled_mono 0 0 m e (le_refl 0) (by
      simp only [Int.cast_zero, zero_mul]
      exact (mantissa_nonneg m e).1 hm)
  rw [scaled_zero, hx] at h0
  have h0' : (0 : ℚ) ≤ (m' : ℚ) * 2 ^ u := by
    have : ((0 : Int) : ℚ) * 2 ^ (0 : Int) ≤ (m' : ℚ) * 2 ^ u := h0
    simpa using this
  exact ⟨m', u, hx, (mantissa_nonneg m' u).2 h0', by rw [← hvk]; exact hv⟩

/-- The conversion of an integer between 0 and `2^62` is finite, between 0 and `2^62`,
and exact below `2^53`. -/
theorem ofInt64_bounded (x : Int) (k : Nat) (h0 : 0 ≤ x) (hk : (2 : Int) ^ k ≤ 2 ^ 62)
    (hx : x ≤ 2 ^ k) :
    ∃ m e, ofInt64 x = fin m e ∧ 0 ≤ m ∧ (m : ℚ) * 2 ^ e ≤ 2 ^ k ∧
      (x < 2 ^ 53 → (m : ℚ) * 2 ^ e = x) := by
  have hk' : k ≤ 62 := by
    by_contra hc
    have : (2 : Int) ^ 63 ≤ 2 ^ k := pow_le_pow_right₀ (by norm_num) (by omega)
    omega
  have hs : ofInt64 x = scaled x 0 := by
    unfold ofInt64 scaled
    simp
  have hlt : ((1 : Nat) : ℚ) * 2 ^ (k : Int) < 2 ^ (1024 : Int) := by
    rw [Nat.cast_one, one_mul]
    exact zpow_lt_zpow_right₀ (by norm_num) (by omega)
  obtain ⟨m, e, hme, hm0, hv⟩ := scaled_bounded x 0 1 k h0 (by norm_num) (by norm_num)
    (by omega) hlt (by
      rw [Nat.cast_one, one_mul, zpow_zero, mul_one, zpow_natCast]
      exact_mod_cast hx)
  refine ⟨m, e, by rw [hs, hme], hm0, ?_, ?_⟩
  · rw [Nat.cast_one, one_mul, zpow_natCast] at hv
    exact hv
  · intro h53
    rcases h0.lt_or_eq with hpos | hz
    · obtain ⟨j, rfl⟩ : ∃ j : Nat, x = j := ⟨x.toNat, by omega⟩
      have hlt' : ((j : Nat) : ℚ) * 2 ^ (0 : Int) < 2 ^ (1024 : Int) := by
        rw [zpow_zero, mul_one]
        have : (j : ℚ) < 2 ^ 53 := by exact_mod_cast h53
        have h2 : (2 : ℚ) ^ (53 : Nat) ≤ 2 ^ (1024 : Int) := by
          rw [← zpow_natCast]
          exact zpow_le_zpow_right₀ (by norm_num) (by norm_num)
        linarith
      obtain ⟨m', u', hs', hv'⟩ := scaled_exact j 0 (by omega) (by omega) (by norm_num) hlt'
      rw [hs'] at hme
      injection hme with e1 e2
      rw [← e1, ← e2, hv']
      simp
    · rw [← hz, scaled_zero] at hme
      injection hme with e1 e2
      rw [← e1, ← hz]
      simp

/-- The sum `1 + rate` for a finite rate: the rounding of the exact sum. -/
theorem add_one_eq (m e : Int) :
    ∃ M E, add (fin 1 0) (fin m e) = scaled M E ∧ (M : ℚ) * 2 ^ E = 1 + (m : ℚ) * 2 ^ e := by
  have two' : (2 : ℚ) ≠ 0 := by norm_num
  refine ⟨_, _, rfl, ?_⟩
  unfold align
  simp only
  obtain ⟨j1, hj1⟩ : ∃ j : Nat, 0 - min 0 e = j := ⟨(0 - min 0 e).toNat, by omega⟩
  obtain ⟨j2, hj2⟩ : ∃ j : Nat, e - min 0 e = j := ⟨(e - min 0 e).toNat, by omega⟩
  rw [hj1, hj2, Int.toNat_ofNat, Int.toNat_ofNat]
  push_cast
  rw [add_mul, one_mul, mul_assoc, ← zpow_natCast, ← zpow_natCast, ← zpow_add₀ two',
    ← zpow_add₀ two', ← hj1, ← hj2]
  congr 2
  · have : 0 - min 0 e + min 0 e = 0 := by ring
    rw [this, zpow_zero]
  · congr 1
    ring

end F64

end Garr

namespace Garr

/-- The two `float64` products of `JitterAddingBackoff.NextDelayMillis`, for a delay
`0 < base <= 2^k`, `k <= 61`, and two finite rates with `-1 <= r1 <= r2 <= 1`: both are
finite, and `0 <= p1 <= p2 <= 2^(k+1)`. -/
theorem jitterProduct_mono (base m1 e1 m2 e2 : Int) (k : Nat) (hk : k ≤ 61) (hb0 : 0 < base)
    (hb : base ≤ 2 ^ k)
    (h1 : (-1 : ℚ) ≤ (m1 : ℚ) * 2 ^ e1) (h12 : (m1 : ℚ) * 2 ^ e1 ≤ (m2 : ℚ) * 2 ^ e2)
    (h2 : (m2 : ℚ) * 2 ^ e2 ≤ 1) :
    ∃ p1 u1 p2 u2,
      F64.mul (F64.ofInt64 base) (F64.add (.fin 1 0) (.fin m1 e1)) = .fin p1 u1 ∧
      F64.mul (F64.ofInt64 base) (F64.add (.fin 1 0) (.fin m2 e2)) = .fin p2 u2 ∧
      (0 : ℚ) ≤ (p1 : ℚ) * 2 ^ u1 ∧ (p1 : ℚ) * 2 ^ u1 ≤ (p2 : ℚ) * 2 ^ u2 ∧
      (p2 : ℚ) * 2 ^ u2 ≤ 2 ^ (k + 1) ∧
      (base < 2 ^ 53 → (p2 : ℚ) * 2 ^ u2 ≤ 2 * base) := by
  have two : (0 : ℚ) < 2 := by norm_num
  have two' : (2 : ℚ) ≠ 0 := by norm_num
  have big : ((1 : Nat) : ℚ) * 2 ^ (1 : Int) < 2 ^ (1024 : Int) := by norm_num
  have bigk : ((1 : Nat) : ℚ) * 2 ^ ((k + 1 : Nat) : Int) < 2 ^ (1024 : Int) := by
    rw [Nat.cast_one, one_mul]
    exact zpow_lt_zpow_right₀ (by norm_num) (by omega)
  obtain ⟨mb, eb, hbf, hmb0, hvb, hexact⟩ :=
    F64.ofInt64_bounded base k hb0.le (pow_le_pow_right₀ (by norm_num) (by omega)) hb
  have hvb0 : (0 : ℚ) ≤ (mb : ℚ) * 2 ^ eb := (F64.mantissa_nonneg mb eb).1 hmb0
  obtain ⟨M1, E1, ha1, hv1⟩ := F64.add_one_eq m1 e1
  obtain ⟨M2, E2, ha2, hv2⟩ := F64.add_one_eq m2 e2
  have hM1 : 0 ≤ M1 := (F64.mantissa_nonneg M1 E1).2 (by rw [hv1]; linarith)
  have hM2 : 0 ≤ M2 := (F64.mantissa_nonneg M2 E2).2 (by rw [hv2]; linarith)
  obtain ⟨s1, t1, hs1, hs10, hs1le⟩ := F64.scaled_bounded M1 E1 1 1 hM1 (by norm_num)
    (by norm_num) (by norm_num) big (by rw [hv1]; norm_num; linarith)
  obtain ⟨s2, t2, hs2, hs20, hs2le⟩ := F64.scaled_bounded M2 E2 1 1 hM2 (by norm_num)
    (by norm_num) (by norm_num) big (by rw [hv2]; norm_num; linarith)
  have hs12 : (s1 : ℚ) * 2 ^ t1 ≤ (s2 : ℚ) * 2 ^ t2 := by
    have := F64.scaled_mono M1 E1 M2 E2 hM1 (by rw [hv1, hv2]; linarith)
    rw [hs1, hs2] at this
    exact this
  have hs1v : (0 : ℚ) ≤ (s1 : ℚ) * 2 ^ t1 := (F64.mantissa_nonneg s1 t1).1 hs10
  have hs2v : (0 : ℚ) ≤ (s2 : ℚ) * 2 ^ t2 := (F64.mantissa_nonneg s2 t2).1 hs20
  have hs2le' : (s2 : ℚ) * 2 ^ t2 ≤ 2 := by simpa using hs2le
  -- the products
  have hprod : ∀ s t : Int, ((mb * s : Int) : ℚ) * 2 ^ (eb + t) =
      ((mb : ℚ) * 2 ^ eb) * ((s : ℚ) * 2 ^ t) := by
    intro s t
    push_cast
    rw [zpow_add₀ two']
    ring
  have hp2le : ((mb * s2 : Int) : ℚ) * 2 ^ (eb + t2) ≤
      ((1 : Nat) : ℚ) * 2 ^ ((k + 1 : Nat) : Int) := by
    rw [hprod, Nat.cast_one, one_mul, zpow_natCast, pow_succ]
    exact mul_le_mul hvb hs2le' hs2v (by positivity)
  have hp12 : ((mb * s1 : Int) : ℚ) * 2 ^ (eb + t1) ≤ ((mb * s2 : Int) : ℚ) * 2 ^ (eb + t2) := by
    rw [hprod, hprod]
    exact mul_le_mul_of_nonneg_left hs12 hvb0
  obtain ⟨p2, u2, hp2, hp20, hp2v⟩ := F64.scaled_bounded (mb * s2) (eb + t2) 1 (k + 1 : Nat)
    (mul_nonneg hmb0 hs20) (by norm_num) (by norm_num) (by omega) bigk hp2le
  obtain ⟨p1, u1, hp1, hp10, hp1v⟩ := F64.scaled_bounded (mb * s1) (eb + t1) 1 (k + 1 : Nat)
    (mul_nonneg hmb0 hs10) (by norm_num) (by norm_num) (by omega) bigk
    (le_trans hp12 hp2le)
  have hord : (p1 : ℚ) * 2 ^ u1 ≤ (p2 : ℚ) * 2 ^ u2 := by
    have := F64.scaled_mono (mb * s1) (eb + t1) (mb * s2) (eb + t2) (mul_nonneg hmb0 hs10) hp12
    rw [hp1, hp2] at this
    exact this
  refine ⟨p1, u1, p2, u2, ?_, ?_, (F64.mantissa_nonneg p1 u1).1 hp10, hord, ?_, ?_⟩
  · rw [hbf, ha1, hs1]
    exact hp1
  · rw [hbf, ha2, hs2]
    exact hp2
  · have : (p2 : ℚ) * 2 ^ u2 ≤ ((1 : Nat) : ℚ) * 2 ^ ((k + 1 : Nat) : Int) := hp2v
    rw [Nat.cast_one, one_mul, zpow_natCast] at this
    exact this
  · intro h53
    -- below 2^53 the conversion of base is exact, and so is the doubling
    have hbv := hexact h53
    obtain ⟨j, rfl⟩ : ∃ j : Nat, base = j := ⟨base.toNat, by omega⟩
    have hj : (j : ℚ) < 2 ^ 53 := by exact_mod_cast h53
    have hlt : ((j : Nat) : ℚ) * 2 ^ (1 : Int) < 2 ^ (1024 : Int) := by
      have h2 : (2 : ℚ) ^ (54 : Nat) ≤ 2 ^ (1024 : Int) := by
        rw [← zpow_natCast]
        exact zpow_le_zpow_right₀ (by norm_num) (by norm_num)
      have : (j : ℚ) * 2 ^ (1 : Int) < 2 ^ (54 : Nat) := by
        rw [zpow_one]
        norm_num
        linarith
      linarith
    obtain ⟨q, w, hq, hq0, hqv⟩ := F64.scaled_bounded (mb * s2) (eb + t2) j 1
      (mul_nonneg hmb0 hs20) (by omega) (by omega) (by norm_num) hlt (by
        rw [hprod, hbv, zpow_one]
        push_cast
        exact mul_le_mul_of_nonneg_left hs2le' (by positivity))
    rw [hp2] at hq
    injection hq with e1' e2'
    rw [e1', e2']
    rw [zpow_one] at hqv
    push_cast
    linarith

/-- The bound `int64(float64(base) * (1 + rate))` is the floor of the `float64` product
when that product is in `[0, 2^63)`. -/
theorem jitterBound_eq (fr : FloatRuntime) (base : Int) (rate : F64) (p u : Int)
    (h : F64.mul (F64.ofInt64 base) (F64.add (.fin 1 0) rate) = .fin p u)
    (h0 : (0 : ℚ) ≤ (p : ℚ) * 2 ^ u) (h1 : (p : ℚ) * 2 ^ u < 2 ^ 63) :
    jitterBound fr base rate = ⌊(p : ℚ) * 2 ^ u⌋ := by
  unfold jitterBound
  rw [h, toInt64_fin fr p u h0 h1]

/-- The draw of `JitterAddingBackoff.NextDelayMillis` over a delegate that returns
`base > 0` without touching the random source, when the two bounds satisfy
`0 <= lo <= hi < 2^63 - 1`: the method returns after one draw a value `d` with
`lo <= d <= hi` and `d < lo + 2^62`, and every such value is returned for some outcome of
the random source. -/
theorem jitter_run (fr : FloatRuntime) (f : JitterAddingBackoff) (n base : Int)
    (hD : ∀ r, f.delegate.NextDelayMillis n r = (base, r)) (hb0 : 0 < base)
    (h0 : 0 ≤ jitterBound fr base f.minJitterRate)
    (hle : jitterBound fr base f.minJitterRate ≤ jitterBound fr base f.maxJitterRate)
    (hhi : jitterBound fr base f.maxJitterRate < 2 ^ 63 - 1) :
    (∀ fuel r, ∃ d r', f.NextDelayMillis fr (fuel + 1) n r = some (d, r') ∧
      jitterBound fr base f.minJitterRate ≤ d ∧ d ≤ jitterBound fr base f.maxJitterRate ∧
      d < jitterBound fr base f.minJitterRate + 2 ^ 62) ∧
    (∀ fuel d, jitterBound fr base f.minJitterRate ≤ d →
      d ≤ jitterBound fr base f.maxJitterRate →
      d < jitterBound fr base f.minJitterRate + 2 ^ 62 →
      ∃ r r', f.NextDelayMillis fr (fuel + 1) n r = some (d, r')) := by
  generalize hlo : jitterBound fr base f.minJitterRate = lo at *
  generalize hhi' : jitterBound fr base f.maxJitterRate = hi at *
  have hbound : wrap64 (wrap64 (hi - lo) + 1) = hi - lo + 1 := by
    have e1 : wrap64 (hi - lo) = hi - lo := wrap64_of_isInt64 ⟨by omega, by omega⟩
    rw [e1, wrap64_of_isInt64 ⟨by omega, by omega⟩]
  have hrun : ∀ fuel r, f.NextDelayMillis fr (fuel + 1) n r =
      (nextRandomInt64IncludingZero (fuel + 1) (hi - lo + 1) r).map fun p =>
        (if wrap64 (lo + p.1) < 0 then 0 else wrap64 (lo + p.1), p.2) := by
    intro fuel r
    unfold JitterAddingBackoff.NextDelayMillis
    simp only [hD r, hlo, hhi', hbound]
    rw [if_neg (by omega)]
  constructor
  · intro fuel r
    obtain ⟨v, hv, hv0, hvb, hv62⟩ :=
      includingZero_range fuel (hi - lo + 1) r (by omega) (by omega)
    rw [hrun, hv]
    refine ⟨lo + v, (randomInt64 r).2, ?_, by omega, by omega, by omega⟩
    show some ((if wrap64 (lo + v) < 0 then 0 else wrap64 (lo + v)), _) = _
    rw [wrap64_of_isInt64 ⟨by omega, by omega⟩, if_neg (by omega)]
  · intro fuel d hd1 hd2 hd3
    obtain ⟨r, r', h⟩ := includingZero_attains fuel (hi - lo + 1) (d - lo) (by omega)
      (by omega) (by omega) (by omega)
    refine ⟨r, r', ?_⟩
    rw [hrun, h]
    show some ((if wrap64 (lo + (d - lo)) < 0 then 0 else wrap64 (lo + (d - lo))), _) = _
    have e : lo + (d - lo) = d := by ring
    rw [e, wrap64_of_isInt64 ⟨by omega, by omega⟩, if_neg (by omega)]

/-- A delegate value that is not positive is returned unchanged. -/
theorem jitter_passes_nonpositive (fr : FloatRuntime) (fuel : Nat) (f : JitterAddingBackoff)
    (n : Int) (r : FastRand) (h : (f.delegate.NextDelayMillis n r).1 ≤ 0) :
    f.NextDelayMillis fr fuel n r = some (f.delegate.NextDelayMillis n r) := by
  unfold JitterAddingBackoff.NextDelayMillis
  rw [if_pos h]

/-- The rates that `NewJitterAddingBackoff` accepts are finite, with
`-1 <= minRate <= maxRate <= 1`. -/
theorem jitter_rates (minRate maxRate : F64) (h1 : F64.le (.fin (-1) 0) minRate = true)
    (h12 : F64.le minRate maxRate = true) (h2 : F64.le maxRate (.fin 1 0) = true) :
    ∃ m1 e1 m2 e2, minRate = .fin m1 e1 ∧ maxRate = .fin m2 e2 ∧
      (-1 : ℚ) ≤ (m1 : ℚ) * 2 ^ e1 ∧ (m1 : ℚ) * 2 ^ e1 ≤ (m2 : ℚ) * 2 ^ e2 ∧
      (m2 : ℚ) * 2 ^ e2 ≤ 1 := by
  cases minRate with
  | nan => simp [F64.le] at h1
  | inf a => cases a <;> cases maxRate <;> simp_all [F64.le]
  | fin m1 e1 =>
    cases maxRate with
    | nan => simp [F64.le] at h2
    | inf a => cases a <;> simp_all [F64.le]
    | fin m2 e2 =>
      refine ⟨m1, e1, m2, e2, rfl, rfl, ?_, (F64.le_fin_iff _ _ _ _).1 h12, ?_⟩
      · have := (F64.le_fin_iff _ _ _ _).1 h1
        simpa using this
      · have := (F64.le_fin_iff _ _ _ _).1 h2
        simpa using this

/-- The constructor accepts a delegate with rates `-1 <= minRate <= maxRate <= 1`. -/
theorem jitter_accepts (D : Backoff FastRand) (minRate maxRate : F64)
    (h1 : F64.le (.fin (-1) 0) minRate = true) (h12 : F64.le minRate maxRate = true)
    (h2 : F64.le maxRate (.fin 1 0) = true) :
    NewJitterAddingBackoff (some D) minRate maxRate =
      (some { minJitterRate := minRate, maxJitterRate := maxRate, delegate := D }, none) := by
  obtain ⟨m1, e1, m2, e2, rfl, rfl, hv1, hv12, hv2⟩ := jitter_rates minRate maxRate h1 h12 h2
  have a1 : F64.le (.fin m1 e1) (.fin 1 0) = true := by
    rw [F64.le_fin_iff]
    simp only [Int.cast_one, zpow_zero, mul_one]
    linarith
  have a2 : F64.le (.fin (-1) 0) (.fin m2 e2) = true := by
    rw [F64.le_fin_iff]
    simp only [Int.cast_neg, Int.cast_one, zpow_zero, mul_one]
    linarith
  have a3 : ¬ F64.lt (.fin m2 e2) (.fin m1 e1) = true := by
    rw [F64.lt_fin_iff]
    exact not_lt.2 hv12
  simp only [NewJitterAddingBackoff, h1, a1, a2, h2, a3, and_self, not_true_eq_false,
    if_false]
  rfl

end Garr

namespace Garr

/-- C25 (amended): a `JitterAddingBackoff` with rates `-1 <= minRate <= maxRate <= 1` over
a delegate that returns `base`, `0 < base <= 2^61`, is accepted by the constructor, and
every value `d` that `NextDelayMillis` returns lies between the two bounds that the method
computes, `int64(float64(base) * (1 + minRate))` and `int64(float64(base) * (1 + maxRate))`
(`float64` products, truncated toward zero), which satisfy `0 <= lo <= hi <= 2^62`; for
`base < 2^53` the value is at most `base` away from `base`. -/
theorem jitter_between_bounds (fr : FloatRuntime) (D : Backoff FastRand)
    (minRate maxRate : F64) (base n : Int) (fuel : Nat)
    (h1 : F64.le (.fin (-1) 0) minRate = true) (h12 : F64.le minRate maxRate = true)
    (h2 : F64.le maxRate (.fin 1 0) = true)
    (hD : ∀ r, D.NextDelayMillis n r = (base, r)) (hb0 : 0 < base) (hb : base ≤ 2 ^ 61) :
    ∃ f, NewJitterAddingBackoff (some D) minRate maxRate = (some f, none) ∧
      0 ≤ jitterBound fr base minRate ∧
      jitterBound fr base minRate ≤ jitterBound fr base maxRate ∧
      jitterBound fr base maxRate ≤ 2 ^ 62 ∧
      ∀ r, ∃ d r', f.NextDelayMillis fr (fuel + 1) n r = some (d, r') ∧
        jitterBound fr base minRate ≤ d ∧ d ≤ jitterBound fr base maxRate ∧
        (base < 2 ^ 53 → |d - base| ≤ base) := by
  obtain ⟨m1, e1, m2, e2, rfl, rfl, hv1, hv12, hv2⟩ := jitter_rates minRate maxRate h1 h12 h2
  obtain ⟨p1, u1, p2, u2, hp1, hp2, hp10, hp12, hp2le, hexact⟩ :=
    jitterProduct_mono base m1 e1 m2 e2 61 (le_refl _) hb0 hb hv1 hv12 hv2
  have hlt2 : (p2 : ℚ) * 2 ^ u2 < 2 ^ 63 := lt_of_le_of_lt hp2le (by norm_num)
  have hlo := jitterBound_eq fr base (.fin m1 e1) p1 u1 hp1 hp10 (lt_of_le_of_lt hp12 hlt2)
  have hhi := jitterBound_eq fr base (.fin m2 e2) p2 u2 hp2 (le_trans hp10 hp12) hlt2
  have a0 : 0 ≤ jitterBound fr base (.fin m1 e1) := by
    rw [hlo]
    exact Int.floor_nonneg.2 hp10
  have a1 : jitterBound fr base (.fin m1 e1) ≤ jitterBound fr base (.fin m2 e2) := by
    rw [hlo, hhi]
    exact Int.floor_mono hp12
  have a2 : jitterBound fr base (.fin m2 e2) ≤ 2 ^ 62 := by
    rw [hhi]
    have : ⌊(p2 : ℚ) * 2 ^ u2⌋ ≤ ⌊((2 ^ 62 : Int) : ℚ)⌋ := Int.floor_mono (by
      push_cast
      exact hp2le)
    rwa [Int.floor_intCast] at this
  have a3 : base < 2 ^ 53 → jitterBound fr base (.fin m2 e2) ≤ 2 * base := by
    intro h53
    rw [hhi]
    have : ⌊(p2 : ℚ) * 2 ^ u2⌋ ≤ ⌊((2 * base : Int) : ℚ)⌋ := Int.floor_mono (by
      push_cast
      exact hexact h53)
    rwa [Int.floor_intCast] at this
  refine ⟨{ minJitterRate := .fin m1 e1, maxJitterRate := .fin m2 e2, delegate := D },
    jitter_accepts D _ _ h1 h12 h2, a0, a1, a2, fun r => ?_⟩
  obtain ⟨hrun, -⟩ := jitter_run fr
    { minJitterRate := .fin m1 e1, maxJitterRate := .fin m2 e2, delegate := D } n base hD hb0
    a0 a1 (by
      show jitterBound fr base (.fin m2 e2) < 2 ^ 63 - 1
      omega)
  obtain ⟨d, r', hd, hd1, hd2, -⟩ := hrun fuel r
  refine ⟨d, r', hd, hd1, hd2, fun h53 => ?_⟩
  have := a3 h53
  have hd1' : jitterBound fr base (.fin m1 e1) ≤ d := hd1
  have hd2' : d ≤ jitterBound fr base (.fin m2 e2) := hd2
  rw [abs_le]
  constructor <;> omega

/-- Witness of C25 (amended): rates -0.5 and 0.5 over a fixed delay of 100 milliseconds. -/
theorem jitter_between_bounds_witness :
    F64.le (.fin (-1) 0) (.fin (-1) (-1)) = true ∧
    F64.le (.fin (-1) (-1)) (.fin 1 (-1)) = true ∧
    F64.le (.fin 1 (-1)) (.fin 1 0) = true ∧
    (∀ r, ((FixedBackoff.mk 100).toBackoff : Backoff FastRand).NextDelayMillis 1 r =
      (100, r)) ∧
    (0 : Int) < 100 ∧ (100 : Int) ≤ 2 ^ 61 ∧
    ∃ f, NewJitterAddingBackoff (some (FixedBackoff.mk 100).toBackoff) (.fin (-1) (-1))
        (.fin 1 (-1)) = (some f, none) ∧
      0 ≤ jitterBound exampleFloatRuntime 100 (.fin (-1) (-1)) ∧
      jitterBound exampleFloatRuntime 100 (.fin (-1) (-1)) ≤
        jitterBound exampleFloatRuntime 100 (.fin 1 (-1)) ∧
      jitterBound exampleFloatRuntime 100 (.fin 1 (-1)) ≤ 2 ^ 62 ∧
      ∀ r, ∃ d r', f.NextDelayMillis exampleFloatRuntime (0 + 1) 1 r = some (d, r') ∧
        jitterBound exampleFloatRuntime 100 (.fin (-1) (-1)) ≤ d ∧
        d ≤ jitterBound exampleFloatRuntime 100 (.fin 1 (-1)) ∧
        ((100 : Int) < 2 ^ 53 → |d - 100| ≤ 100) :=
  ⟨by decide, by decide, by decide, fun _ => rfl, by norm_num, by norm_num,
    jitter_between_bounds exampleFloatRuntime (FixedBackoff.mk 100).toBackoff _ _ 100 1 0
      (by decide) (by decide) (by decide) (fun _ => rfl) (by norm_num) (by norm_num)⟩

set_option maxRecDepth 100000 in
/-- The bounds of `halfJitter`: 0 and 1. -/
theorem halfJitter_bounds (fr : FloatRuntime) :
    jitterBound fr 1 (.fin (-1) (-1)) = 0 ∧ jitterBound fr 1 (.fin 0 0) = 1 :=
  ⟨rfl, rfl⟩

set_option maxRecDepth 100000 in
/-- The bounds of `wideJitter`: 0 and `2^63 - 2048`. -/
theorem wideJitter_bounds (fr : FloatRuntime) :
    jitterBound fr (2 ^ 62 - 1024) (.fin (-1) 0) = 0 ∧
      jitterBound fr (2 ^ 62 - 1024) (.fin 1 0) = 2 ^ 63 - 2048 := by
  have h : F64.mul (F64.ofInt64 (2 ^ 62 - 1024)) (F64.add (.fin 1 0) (.fin 1 0)) =
      .fin 9007199254740990 10 := by rfl
  refine ⟨rfl, ?_⟩
  unfold jitterBound
  rw [h]
  rfl

/-- Counterexample to C25: with rates -0.5 and 0 over a delay of 1 millisecond, which the
constructor accepts, `NextDelayMillis` returns 0 when both draws are 0; the distance 1
between 0 and the delay exceeds `max(|-0.5|, |0|) * 1`. -/
theorem jitter_exceeds_rate_bound :
    NewJitterAddingBackoff (some (FixedBackoff.mk 1).toBackoff) (.fin (-1) (-1)) (.fin 0 0) =
      (some halfJitter, none) ∧
    (halfJitter.NextDelayMillis exampleFloatRuntime 1 1 (fastRandOf [0, 0])).map Prod.fst =
      some 0 ∧
    max |F64.toRat (.fin (-1) (-1))| |F64.toRat (.fin 0 0)| * (1 : ℚ) < |((0 : Int) : ℚ) - 1| := by
  refine ⟨jitter_accepts _ _ _ (by decide) (by decide) (by decide), ?_, ?_⟩
  · obtain ⟨hlo, hhi⟩ := halfJitter_bounds exampleFloatRuntime
    unfold JitterAddingBackoff.NextDelayMillis
    have hD : ∀ r, halfJitter.delegate.NextDelayMillis 1 r = (1, r) := fun _ => rfl
    simp only [hD]
    have e1 : halfJitter.minJitterRate = .fin (-1) (-1) := rfl
    have e2 : halfJitter.maxJitterRate = .fin 0 0 := rfl
    rw [e1, e2, hlo, hhi]
    rfl
  · simp only [F64.toRat]
    norm_num [abs_lt]

/-- C26, at the failing input: `wideJitter`, a jitter between -100% and +100% over a fixed
delay `base = 2^62 - 1024`, for which `2 * base = 2^63 - 2048` is below the maximum of
`int64`. The constructor accepts it and the two bounds are 0 and `2^63 - 2048`, but
whatever the random source draws, the value returned is below `2^62`: no value from
`2^62` to `2^63 - 2048` is ever returned. -/
theorem jitter_never_above_62_bits (fr : FloatRuntime) (fuel : Nat) (n : Int) (r : FastRand) :
    NewJitterAddingBackoff (some (FixedBackoff.mk (2 ^ 62 - 1024)).toBackoff) (.fin (-1) 0)
      (.fin 1 0) = (some wideJitter, none) ∧
    (2 : Int) * (2 ^ 62 - 1024) < mathMaxInt64 ∧
    jitterBound fr (2 ^ 62 - 1024) (.fin (-1) 0) = 0 ∧
    jitterBound fr (2 ^ 62 - 1024) (.fin 1 0) = 2 ^ 63 - 2048 ∧
    ∃ d r', wideJitter.NextDelayMillis fr (fuel + 1) n r = some (d, r') ∧
      0 ≤ d ∧ d < 2 ^ 62 := by
  obtain ⟨hlo, hhi⟩ := wideJitter_bounds fr
  refine ⟨jitter_accepts _ _ _ (by decide) (by decide) (by decide), by decide, hlo, hhi, ?_⟩
  obtain ⟨hrun, -⟩ := jitter_run fr wideJitter n (2 ^ 62 - 1024) (fun _ => rfl) (by norm_num)
    (by
      show 0 ≤ jitterBound fr (2 ^ 62 - 1024) (.fin (-1) 0)
      rw [hlo])
    (by
      show jitterBound fr (2 ^ 62 - 1024) (.fin (-1) 0) ≤ jitterBound fr (2 ^ 62 - 1024) (.fin 1 0)
      rw [hlo, hhi]
      norm_num)
    (by
      show jitterBound fr (2 ^ 62 - 1024) (.fin 1 0) < 2 ^ 63 - 1
      rw [hhi]
      norm_num)
  obtain ⟨d, r', hd, hd1, -, hd3⟩ := hrun fuel r
  have hd1' : jitterBound fr (2 ^ 62 - 1024) (.fin (-1) 0) ≤ d := hd1
  have hd3' : d < jitterBound fr (2 ^ 62 - 1024) (.fin (-1) 0) + 2 ^ 62 := hd3
  rw [hlo] at hd1' hd3'
  exact ⟨d, r', hd, hd1', by omega⟩

/-- Over a delegate that returns `base` with `0 < base <= 2^60`, the values that
`NextDelayMillis` returns over all outcomes of the random source are exactly the integers
between the two bounds that the method computes. -/
theorem jitter_values (fr : FloatRuntime) (D : Backoff FastRand) (minRate maxRate : F64)
    (base n : Int) (fuel : Nat)
    (h1 : F64.le (.fin (-1) 0) minRate = true) (h12 : F64.le minRate maxRate = true)
    (h2 : F64.le maxRate (.fin 1 0) = true)
    (hD : ∀ r, D.NextDelayMillis n r = (base, r)) (hb0 : 0 < base) (hb : base ≤ 2 ^ 60)
    (d : Int) :
    (∃ r r', JitterAddingBackoff.NextDelayMillis fr (fuel + 1)
        { minJitterRate := minRate, maxJitterRate := maxRate, delegate := D } n r =
          some (d, r')) ↔
      jitterBound fr base minRate ≤ d ∧ d ≤ jitterBound fr base maxRate := by
  obtain ⟨m1, e1, m2, e2, rfl, rfl, hv1, hv12, hv2⟩ := jitter_rates minRate maxRate h1 h12 h2
  obtain ⟨p1, u1, p2, u2, hp1, hp2, hp10, hp12, hp2le, -⟩ :=
    jitterProduct_mono base m1 e1 m2 e2 60 (by norm_num) hb0 hb hv1 hv12 hv2
  have hlt2 : (p2 : ℚ) * 2 ^ u2 < 2 ^ 63 := lt_of_le_of_lt hp2le (by norm_num)
  have hlo := jitterBound_eq fr base (.fin m1 e1) p1 u1 hp1 hp10 (lt_of_le_of_lt hp12 hlt2)
  have hhi := jitterBound_eq fr base (.fin m2 e2) p2 u2 hp2 (le_trans hp10 hp12) hlt2
  have a0 : 0 ≤ jitterBound fr base (.fin m1 e1) := by
    rw [hlo]
    exact Int.floor_nonneg.2 hp10
  have a1 : jitterBound fr base (.fin m1 e1) ≤ jitterBound fr base (.fin m2 e2) := by
    rw [hlo, hhi]
    exact Int.floor_mono hp12
  have a2 : jitterBound fr base (.fin m2 e2) ≤ 2 ^ 61 := by
    rw [hhi]
    have : ⌊(p2 : ℚ) * 2 ^ u2⌋ ≤ ⌊((2 ^ 61 : Int) : ℚ)⌋ := Int.floor_mono (by
      push_cast
      exact hp2le)
    rwa [Int.floor_intCast] at this
  obtain ⟨hrun, hatt⟩ := jitter_run fr
    { minJitterRate := .fin m1 e1, maxJitterRate := .fin m2 e2, delegate := D } n base hD hb0
    a0 a1 (by
      show jitterBound fr base (.fin m2 e2) < 2 ^ 63 - 1
      omega)
  constructor
  · rintro ⟨r, r', h⟩
    obtain ⟨d', r'', hd, hd1, hd2, -⟩ := hrun fuel r
    rw [h] at hd
    injection hd with hd
    injection hd with hd _
    subst hd
    exact ⟨hd1, hd2⟩
  · rintro ⟨hd1, hd2⟩
    exact hatt fuel d hd1 hd2 (by
      show d < jitterBound fr base (.fin m1 e1) + 2 ^ 62
      omega)

end Garr

namespace Garr

/-- A value strictly above another one is not at most it. -/
theorem le_false_of_lt (a b : F64) (h : F64.lt a b = true) : F64.le b a = false := by
  cases a with
  | nan => simp [F64.lt] at h
  | inf n1 =>
    cases b with
    | nan => simp [F64.lt] at h
    | inf n2 => cases n1 <;> cases n2 <;> simp_all [F64.lt, F64.le]
    | fin m e => cases n1 <;> simp_all [F64.lt, F64.le]
  | fin m1 e1 =>
    cases b with
    | nan => simp [F64.lt] at h
    | inf n2 => cases n2 <;> simp_all [F64.lt, F64.le]
    | fin m2 e2 =>
      rw [F64.lt_fin_iff] at h
      have : ¬ F64.le (.fin m2 e2) (.fin m1 e1) = true := by
        rw [F64.le_fin_iff]
        exact not_le.2 h
      simpa using this

/-- The conversion to `int64` returns an `int64`. -/
theorem toInt64_isInt64 (fr : FloatRuntime) (x : F64) : IsInt64 (fr.toInt64 x) := by
  cases x with
  | nan => exact wrap64_isInt64 _
  | inf n => exact wrap64_isInt64 _
  | fin m e =>
    show IsInt64 (if IsInt64 (F64.trunc m e) then F64.trunc m e else _)
    split_ifs with h
    · exact h
    · exact wrap64_isInt64 _

/-- The function `saturatedMultiply` returns at most `math.MaxInt64`. -/
theorem saturatedMultiply_le (fr : FloatRuntime) (left : Int) (right : F64) :
    saturatedMultiply fr left right ≤ mathMaxInt64 := by
  unfold saturatedMultiply
  split_ifs
  · have := (toInt64_isInt64 fr (F64.mul (F64.ofInt64 left) right)).2
    unfold mathMaxInt64
    omega
  · exact le_refl _

/-- The method `NextDelayMillis` of an `ExponentialBackoff` with `initial <= max` never
returns more than `maxDelayMillis`. -/
theorem exponential_le_max (fr : FloatRuntime) (b : ExponentialBackoff) (attempt : Int)
    (h : b.initialDelayMillis ≤ b.maxDelayMillis) :
    b.NextDelayMillis fr attempt ≤ b.maxDelayMillis := by
  unfold ExponentialBackoff.NextDelayMillis
  split_ifs with h1 h2
  · exact h
  · exact le_refl _
  · exact not_lt.1 h2

/-- An attempt other than the first one: the saturated product, capped at
`maxDelayMillis`. -/
theorem exponential_next (fr : FloatRuntime) (b : ExponentialBackoff) (attempt : Int)
    (h1 : attempt ≠ 1) (h : IsInt64 (attempt - 1)) :
    b.NextDelayMillis fr attempt =
      min b.maxDelayMillis (saturatedMultiply fr b.initialDelayMillis
        (fr.Pow b.multiplier (F64.ofInt64 (attempt - 1)))) := by
  unfold ExponentialBackoff.NextDelayMillis
  rw [if_neg h1, wrap64_of_isInt64 h]
  split_ifs with h2
  · exact (min_eq_left h2.le).symm
  · exact (min_eq_right (not_lt.1 h2)).symm

/-- The comparison of a finite value with the constant `math.MaxInt64`. -/
theorem lt_maxInt64_iff (m e : Int) :
    F64.lt (.fin m e) F64.maxInt64 = true ↔ (m : ℚ) * 2 ^ e < 2 ^ 63 := by
  unfold F64.maxInt64
  rw [F64.lt_fin_iff]
  norm_num

/-- The function `saturatedMultiply` on a finite product `v` in the range of its
arguments: the floor of `v` below `2^63`, and `math.MaxInt64` from `2^63` on. -/
theorem saturatedMultiply_fin (fr : FloatRuntime) (left : Int) (right : F64) (m e : Int)
    (h : F64.mul (F64.ofInt64 left) right = .fin m e) (h0 : (0 : ℚ) ≤ (m : ℚ) * 2 ^ e) :
    saturatedMultiply fr left right = min mathMaxInt64 ⌊(m : ℚ) * 2 ^ e⌋ := by
  unfold saturatedMultiply
  rw [h]
  by_cases hlt : (m : ℚ) * 2 ^ e < 2 ^ 63
  · rw [if_pos ((lt_maxInt64_iff m e).2 hlt), toInt64_fin fr m e h0 hlt]
    have : ⌊(m : ℚ) * 2 ^ e⌋ < 2 ^ 63 := by
      rw [Int.floor_lt]
      exact_mod_cast hlt
    rw [min_eq_right]
    unfold mathMaxInt64
    omega
  · rw [if_neg (fun hc => hlt ((lt_maxInt64_iff m e).1 hc))]
    have : (2 : Int) ^ 63 ≤ ⌊(m : ℚ) * 2 ^ e⌋ := by
      rw [Int.le_floor]
      push_cast
      exact not_lt.1 hlt
    rw [min_eq_left]
    unfold mathMaxInt64
    omega

/-- The function `saturatedMultiply` when the product of the converted `left` and the
finite factor is exact: it is `k * 2^e` with `k <= 2^53` and `e >= -1074`. The result is
the product truncated and saturated at `math.MaxInt64`. -/
theorem saturatedMultiply_exact_of (fr : FloatRuntime) (left mi ei mp ep : Int) (k : Nat)
    (e : Int) (hof : F64.ofInt64 left = .fin mi ei)
    (hrep : ((mi : ℚ) * 2 ^ ei) * ((mp : ℚ) * 2 ^ ep) = (k : ℚ) * 2 ^ e) (hk : k ≤ 2 ^ 53)
    (he : -1074 ≤ e) :
    saturatedMultiply fr left (.fin mp ep) =
      min mathMaxInt64 ⌊((mi : ℚ) * 2 ^ ei) * ((mp : ℚ) * 2 ^ ep)⌋ := by
  have two : (0 : ℚ) < 2 := by norm_num
  have two' : (2 : ℚ) ≠ 0 := by norm_num
  have hmul : F64.mul (F64.ofInt64 left) (.fin mp ep) = F64.scaled (mi * mp) (ei + ep) := by
    rw [hof]
    rfl
  have hval : ((mi * mp : Int) : ℚ) * 2 ^ (ei + ep) = (k : ℚ) * 2 ^ e := by
    rw [← hrep]
    push_cast
    rw [zpow_add₀ two']
    ring
  have hk0 : (0 : ℚ) ≤ (k : ℚ) * 2 ^ e := by positivity
  rcases Nat.eq_zero_or_pos k with hz | hpos
  · -- the product is zero
    have hzero : mi * mp = 0 := by
      rw [hz] at hval
      simp only [Nat.cast_zero, zero_mul, mul_eq_zero] at hval
      rcases hval with h | h
      · exact_mod_cast h
      · exact absurd h (zpow_pos two _).ne'
    have hfin : F64.mul (F64.ofInt64 left) (.fin mp ep) = .fin 0 0 := by
      rw [hmul, hzero, F64.scaled_zero]
    rw [saturatedMultiply_fin fr left _ 0 0 hfin (by simp), hrep, hz]
    simp
  · obtain ⟨N, D, hD, hs, hv, -, hNpos⟩ := F64.scaled_eq (mi * mp) (ei + ep)
    have hprodpos : 0 < mi * mp := by
      have : (0 : ℚ) < ((mi * mp : Int) : ℚ) * 2 ^ (ei + ep) := by
        rw [hval]
        have : (0 : ℚ) < k := by exact_mod_cast hpos
        positivity
      have := pos_of_mul_pos_left this (zpow_pos two _).le
      exact_mod_cast this
    have hN := hNpos hprodpos
    obtain ⟨hfin, hinf⟩ := F64.round_exact N D k e hN hD hk he (by rw [hv, hval])
    rcases F64.round_pos_cases N D hN with hcase | hcase
    · -- overflow to the infinity
      have hbig := hinf hcase
      unfold saturatedMultiply
      rw [hmul, hs, hcase]
      have hnot : ¬ F64.lt (.inf false) F64.maxInt64 = true := by simp [F64.lt, F64.maxInt64]
      rw [if_neg hnot, hrep]
      have : (2 : Int) ^ 63 ≤ ⌊(k : ℚ) * 2 ^ e⌋ := by
        rw [Int.le_floor]
        push_cast
        have h63 : (2 : ℚ) ^ (63 : Nat) ≤ 2 ^ (1024 : Int) := by
          rw [← zpow_natCast]
          exact zpow_le_zpow_right₀ (by norm_num) (by norm_num)
        linarith
      rw [min_eq_left]
      unfold mathMaxInt64
      omega
    · have hv' := hfin _ _ hcase
      rw [saturatedMultiply_fin fr left _ _ _ (by rw [hmul, hs, hcase]) (by rw [hv']; exact hk0),
        hv', hrep]

/-- The function `saturatedMultiply` when the conversion of `left` and the product are
exact: `left < 2^53`, and `left * P = k * 2^e` with `k <= 2^53` and `e >= -1074` for the
finite factor `P`. The result is the product truncated and saturated at
`math.MaxInt64`. -/
theorem saturatedMultiply_exact (fr : FloatRuntime) (left mp ep : Int) (k : Nat) (e : Int)
    (h0 : 0 ≤ left) (hl : left < 2 ^ 53)
    (hrep : (left : ℚ) * ((mp : ℚ) * 2 ^ ep) = (k : ℚ) * 2 ^ e) (hk : k ≤ 2 ^ 53)
    (he : -1074 ≤ e) :
    saturatedMultiply fr left (.fin mp ep) =
      min mathMaxInt64 ⌊(left : ℚ) * ((mp : ℚ) * 2 ^ ep)⌋ := by
  obtain ⟨mi, ei, hof, -, -, hexact⟩ :=
    F64.ofInt64_bounded left 53 h0 (by norm_num) hl.le
  have hvi := hexact hl
  rw [← hvi] at hrep ⊢
  exact saturatedMultiply_exact_of fr left mi ei mp ep k e hof hrep hk he

/-- The delay of an attempt after the first one when the product is exact. -/
theorem exponential_exact (fr : FloatRuntime) (b : ExponentialBackoff) (attempt mp ep : Int)
    (k : Nat) (e : Int) (h0 : 0 ≤ b.initialDelayMillis) (hi : b.initialDelayMillis < 2 ^ 53)
    (h2 : 2 ≤ attempt) (h63 : attempt < 2 ^ 63)
    (hpow : fr.Pow b.multiplier (F64.ofInt64 (attempt - 1)) = .fin mp ep)
    (hrep : (b.initialDelayMillis : ℚ) * ((mp : ℚ) * 2 ^ ep) = (k : ℚ) * 2 ^ e)
    (hk : k ≤ 2 ^ 53) (he : -1074 ≤ e) :
    b.NextDelayMillis fr attempt =
      min b.maxDelayMillis
        (min mathMaxInt64 ⌊(b.initialDelayMillis : ℚ) * ((mp : ℚ) * 2 ^ ep)⌋) := by
  rw [exponential_next fr b attempt (by omega) (by unfold IsInt64; omega), hpow,
    saturatedMultiply_exact fr _ mp ep k e h0 hi hrep hk he]

/-- The delays of the specification's example, for a `math.Pow` that returns the powers
3, 9, 27 and 81 of 3. -/
theorem tripleBackoff_delays (fr : FloatRuntime)
    (hp : ∀ j : Nat, 1 ≤ j → j ≤ 4 → ∃ m u : Int,
      fr.Pow (.fin 3 0) (F64.ofInt64 (j : Int)) = .fin m u ∧ (m : ℚ) * 2 ^ u = 3 ^ j) :
    tripleBackoff.NextDelayMillis fr 1 = 200 ∧ tripleBackoff.NextDelayMillis fr 2 = 600 ∧
      tripleBackoff.NextDelayMillis fr 3 = 1800 ∧ tripleBackoff.NextDelayMillis fr 4 = 5400 ∧
      tripleBackoff.NextDelayMillis fr 5 = 10000 := by
  have key : ∀ j : Nat, 1 ≤ j → j ≤ 4 →
      tripleBackoff.NextDelayMillis fr ((j : Int) + 1) = min 10000 (200 * 3 ^ j) := by
    intro j h1 h4
    obtain ⟨m, u, hpow, hv⟩ := hp j h1 h4
    have hrep : ((200 : Int) : ℚ) * ((m : ℚ) * 2 ^ u) = ((200 * 3 ^ j : Nat) : ℚ) * 2 ^ (0 : Int) := by
      rw [hv]
      push_cast
      ring
    have hk : 200 * 3 ^ j ≤ 2 ^ 53 := by
      have : 3 ^ j ≤ 3 ^ 4 := Nat.pow_le_pow_right (by norm_num) h4
      norm_num at this ⊢
      omega
    have := exponential_exact fr tripleBackoff ((j : Int) + 1) m u (200 * 3 ^ j) 0
      (by norm_num [tripleBackoff]) (by norm_num [tripleBackoff]) (by omega) (by omega)
      (by rw [add_sub_cancel_right]; exact hpow) hrep hk (by norm_num)
    rw [this]
    show min (10000 : Int) (min mathMaxInt64 ⌊((200 : Int) : ℚ) * ((m : ℚ) * 2 ^ u)⌋) = _
    rw [hv]
    have hfl : ⌊((200 : Int) : ℚ) * 3 ^ j⌋ = 200 * 3 ^ j := by
      have : ((200 : Int) : ℚ) * 3 ^ j = ((200 * 3 ^ j : Int) : ℚ) := by push_cast; ring
      rw [this, Int.floor_intCast]
    rw [hfl]
    have : (200 : Int) * 3 ^ j ≤ mathMaxInt64 := by
      have : (3 : Int) ^ j ≤ 3 ^ 4 := pow_le_pow_right₀ (by norm_num) h4
      unfold mathMaxInt64
      norm_num at this ⊢
      omega
    rw [min_eq_right this]
  refine ⟨rfl, ?_, ?_, ?_, ?_⟩
  · have := key 1 (by norm_num) (by norm_num)
    simpa using this
  · have := key 2 (by norm_num) (by norm_num)
    simpa using this
  · have := key 3 (by norm_num) (by norm_num)
    simpa using this
  · have := key 4 (by norm_num) (by norm_num)
    simpa using this

set_option maxRecDepth 100000 in
/-- The example `math.Pow` returns the powers 3, 9, 27 and 81 of 3. -/
theorem examplePow_three :
    ∀ j : Nat, 1 ≤ j → j ≤ 4 → ∃ m u : Int,
      exampleFloatRuntime.Pow (.fin 3 0) (F64.ofInt64 (j : Int)) = .fin m u ∧
        (m : ℚ) * 2 ^ u = 3 ^ j := by
  intro j h1 h4
  have : j = 1 ∨ j = 2 ∨ j = 3 ∨ j = 4 := by omega
  rcases this with h | h | h | h <;> subst h
  · exact ⟨6755399441055744, -51, (by simp only [Nat.cast_ofNat, Nat.cast_one]; rfl), by norm_num⟩
  · exact ⟨5066549580791808, -49, (by simp only [Nat.cast_ofNat, Nat.cast_one]; rfl), by norm_num⟩
  · exact ⟨7599824371187712, -48, (by simp only [Nat.cast_ofNat, Nat.cast_one]; rfl), by norm_num⟩
  · exact ⟨5699868278390784, -46, (by simp only [Nat.cast_ofNat, Nat.cast_one]; rfl), by norm_num⟩

set_option maxRecDepth 100000 in
/-- The example `math.Pow` squares 3 to 9, and doubles the number 2 at the exponent 1. -/
theorem examplePow_values :
    exampleFloatRuntime.Pow (.fin 3 0) (F64.ofInt64 (3 - 1)) = .fin 5066549580791808 (-49) ∧
      exampleFloatRuntime.Pow (.fin 2 0) (F64.ofInt64 1) = .fin 4503599627370496 (-51) ∧
      F64.ofInt64 (2 ^ 53 + 1) = .fin 4503599627370496 1 :=
  ⟨rfl, rfl, rfl⟩

/-- The backoff `oddBackoff` at the second attempt, for a `math.Pow` with
`Pow(2, 1) = 2`: the delay is `2^54`, the double of the `float64` nearest to the initial
delay `2^53 + 1`. -/
theorem oddBackoff_second (fr : FloatRuntime) (m u : Int)
    (hpow : fr.Pow (.fin 2 0) (F64.ofInt64 1) = .fin m u) (hv : (m : ℚ) * 2 ^ u = 2) :
    oddBackoff.NextDelayMillis fr 2 = 2 ^ 54 := by
  rw [exponential_next fr oddBackoff 2 (by norm_num) (by unfold IsInt64; norm_num)]
  show min ((2 : Int) ^ 62) (saturatedMultiply fr (2 ^ 53 + 1) (fr.Pow (.fin 2 0) (F64.ofInt64 (2 - 1)))) = _
  have h21 : (2 : Int) - 1 = 1 := by norm_num
  rw [h21, hpow, saturatedMultiply_exact_of fr (2 ^ 53 + 1) 4503599627370496 1 m u 1 54
    examplePow_values.2.2 (by rw [hv]; norm_num) (by norm_num) (by norm_num), hv]
  have : ⌊(((4503599627370496 : Int) : ℚ) * 2 ^ (1 : Int)) * 2⌋ = 2 ^ 54 := by
    have : (((4503599627370496 : Int) : ℚ) * 2 ^ (1 : Int)) * 2 = (((2 : Int) ^ 54 : Int) : ℚ) := by
      norm_num
    rw [this, Int.floor_intCast]
  rw [this]
  unfold mathMaxInt64
  norm_num

end Garr

namespace Garr

/-- The constructor `NewExponentialBackoff` accepts a multiplier above 1 with
`0 <= initial <= max`. -/
theorem exponential_accepts (initial max : Int) (multiplier : F64)
    (hmul : F64.lt (.fin 1 0) multiplier = true) (h0 : 0 ≤ initial) (hle : initial ≤ max) :
    NewExponentialBackoff initial max multiplier =
      (some { initialDelayMillis := initial, maxDelayMillis := max, multiplier := multiplier },
        none) := by
  have h1 : ¬ F64.le multiplier (.fin 1 0) = true := by
    rw [le_false_of_lt _ _ hmul]
    simp
  unfold NewExponentialBackoff
  rw [if_neg h1, if_neg (by omega), if_neg (by omega)]

/-- C22 (amended): for an `ExponentialBackoff` built with `0 <= initial <= max` and a
multiplier above 1, `NextDelayMillis(1) = initial`; and for an attempt from 2 on, when
`initial < 2^53` and the product of `initial` and the finite value `P` that `math.Pow`
returns for `multiplier^(attempt-1)` is itself a `float64` (`k * 2^e` with `k <= 2^53` and
`e >= -1074`), `NextDelayMillis(attempt)` is `min(max, initial * P truncated to an integer
and saturated at MaxInt64)`. For initial 200, max 10000 and multiplier 3, with a `math.Pow`
that returns the powers 3, 9, 27 and 81, the delays of the attempts 1 to 5 are 200, 600,
1800, 5400 and 10000. -/
theorem exponential_delay_exact (fr : FloatRuntime) (initial max attempt mp ep : Int)
    (multiplier : F64) (k : Nat) (e : Int)
    (hmul : F64.lt (.fin 1 0) multiplier = true) (h0 : 0 ≤ initial) (hle : initial ≤ max)
    (hi : initial < 2 ^ 53) (h2 : 2 ≤ attempt) (h63 : attempt < 2 ^ 63)
    (hpow : fr.Pow multiplier (F64.ofInt64 (attempt - 1)) = .fin mp ep)
    (hrep : (initial : ℚ) * ((mp : ℚ) * 2 ^ ep) = (k : ℚ) * 2 ^ e) (hk : k ≤ 2 ^ 53)
    (he : -1074 ≤ e) :
    ∃ b, NewExponentialBackoff initial max multiplier = (some b, none) ∧
      b.NextDelayMillis fr 1 = initial ∧
      b.NextDelayMillis fr attempt =
        min max (min mathMaxInt64 ⌊(initial : ℚ) * ((mp : ℚ) * 2 ^ ep)⌋) ∧
      NewExponentialBackoff 200 10000 (.fin 3 0) = (some tripleBackoff, none) ∧
      ((∀ j : Nat, 1 ≤ j → j ≤ 4 → ∃ m u : Int,
          fr.Pow (.fin 3 0) (F64.ofInt64 (j : Int)) = .fin m u ∧ (m : ℚ) * 2 ^ u = 3 ^ j) →
        tripleBackoff.NextDelayMillis fr 1 = 200 ∧ tripleBackoff.NextDelayMillis fr 2 = 600 ∧
          tripleBackoff.NextDelayMillis fr 3 = 1800 ∧
          tripleBackoff.NextDelayMillis fr 4 = 5400 ∧
          tripleBackoff.NextDelayMillis fr 5 = 10000) :=
  ⟨_, exponential_accepts initial max multiplier hmul h0 hle, rfl,
    exponential_exact fr _ attempt mp ep k e h0 hi h2 h63 hpow hrep hk he,
    exponential_accepts 200 10000 (.fin 3 0) (by decide) (by norm_num) (by norm_num),
    tripleBackoff_delays fr⟩

/-- Witness of C22 (amended): initial 200, max 10000, multiplier 3 at the third attempt,
where the example `math.Pow` returns 9 and the delay is 1800. -/
theorem exponential_delay_exact_witness :
    F64.lt (.fin 1 0) (.fin 3 0) = true ∧ (0 : Int) ≤ 200 ∧ (200 : Int) ≤ 10000 ∧
    (200 : Int) < 2 ^ 53 ∧ (2 : Int) ≤ 3 ∧ (3 : Int) < 2 ^ 63 ∧
    exampleFloatRuntime.Pow (.fin 3 0) (F64.ofInt64 (3 - 1)) = .fin 5066549580791808 (-49) ∧
    ((200 : Int) : ℚ) * (((5066549580791808 : Int) : ℚ) * 2 ^ (-49 : Int)) =
      ((1800 : Nat) : ℚ) * 2 ^ (0 : Int) ∧
    ∃ b, NewExponentialBackoff 200 10000 (.fin 3 0) = (some b, none) ∧
      b.NextDelayMillis exampleFloatRuntime 1 = 200 ∧
      b.NextDelayMillis exampleFloatRuntime 3 =
        min 10000 (min mathMaxInt64
          ⌊((200 : Int) : ℚ) * (((5066549580791808 : Int) : ℚ) * 2 ^ (-49 : Int))⌋) ∧
      NewExponentialBackoff 200 10000 (.fin 3 0) = (some tripleBackoff, none) ∧
      ((∀ j : Nat, 1 ≤ j → j ≤ 4 → ∃ m u : Int,
          exampleFloatRuntime.Pow (.fin 3 0) (F64.ofInt64 (j : Int)) = .fin m u ∧
            (m : ℚ) * 2 ^ u = 3 ^ j) →
        tripleBackoff.NextDelayMillis exampleFloatRuntime 1 = 200 ∧
          tripleBackoff.NextDelayMillis exampleFloatRuntime 2 = 600 ∧
          tripleBackoff.NextDelayMillis exampleFloatRuntime 3 = 1800 ∧
          tripleBackoff.NextDelayMillis exampleFloatRuntime 4 = 5400 ∧
          tripleBackoff.NextDelayMillis exampleFloatRuntime 5 = 10000) :=
  ⟨by decide, by norm_num, by norm_num, by norm_num, by norm_num, by norm_num,
    examplePow_values.1, by norm_num,
    exponential_delay_exact exampleFloatRuntime 200 10000 3 5066549580791808 (-49) (.fin 3 0)
      1800 0 (by decide) (by norm_num) (by norm_num) (by norm_num) (by norm_num) (by norm_num)
      examplePow_values.1 (by norm_num) (by norm_num) (by norm_num)⟩

/-- Counterexample to C22: initial `2^53 + 1`, max `2^62` and multiplier 2 satisfy
`0 <= initial <= max` and `multiplier > 1`, and the constructor accepts them. At the second
attempt `initial * multiplier^1 = 2^54 + 2` is an integer below `max` and `MaxInt64`, so the
formula gives `2^54 + 2`; the code returns `2^54` for every `math.Pow` with `Pow(2, 1) = 2`
(the example one is such), because the conversion of `initial` to `float64` rounds it to
`2^53`. -/
theorem exponential_delay_rounds :
    F64.lt (.fin 1 0) (.fin 2 0) = true ∧ (0 : Int) ≤ 2 ^ 53 + 1 ∧ (2 : Int) ^ 53 + 1 ≤ 2 ^ 62 ∧
    NewExponentialBackoff (2 ^ 53 + 1) (2 ^ 62) (.fin 2 0) = (some oddBackoff, none) ∧
    (∀ (fr : FloatRuntime) (m u : Int), fr.Pow (.fin 2 0) (F64.ofInt64 1) = .fin m u →
      (m : ℚ) * 2 ^ u = 2 → oddBackoff.NextDelayMillis fr 2 = 2 ^ 54) ∧
    oddBackoff.NextDelayMillis exampleFloatRuntime 2 = 2 ^ 54 ∧
    min ((2 : Int) ^ 62) (min mathMaxInt64 ⌊(((2 : Int) ^ 53 + 1 : Int) : ℚ) * 2 ^ (2 - 1)⌋) =
      2 ^ 54 + 2 ∧
    oddBackoff.NextDelayMillis exampleFloatRuntime 2 ≠
      min ((2 : Int) ^ 62) (min mathMaxInt64 ⌊(((2 : Int) ^ 53 + 1 : Int) : ℚ) * 2 ^ (2 - 1)⌋) := by
  have hform : min ((2 : Int) ^ 62)
      (min mathMaxInt64 ⌊(((2 : Int) ^ 53 + 1 : Int) : ℚ) * 2 ^ (2 - 1)⌋) = 2 ^ 54 + 2 := by
    have : (((2 : Int) ^ 53 + 1 : Int) : ℚ) * 2 ^ (2 - 1) = (((2 : Int) ^ 54 + 2 : Int) : ℚ) := by
      norm_num
    rw [this, Int.floor_intCast]
    unfold mathMaxInt64
    norm_num
  have hcode : oddBackoff.NextDelayMillis exampleFloatRuntime 2 = 2 ^ 54 :=
    oddBackoff_second exampleFloatRuntime _ _ examplePow_values.2.1 (by norm_num)
  refine ⟨by decide, by norm_num, by norm_num,
    exponential_accepts _ _ _ (by decide) (by norm_num) (by norm_num),
    fun fr m u hp hv => oddBackoff_second fr m u hp hv, hcode, hform, ?_⟩
  rw [hcode, hform]
  norm_num

end Garr

namespace Garr

namespace F64

/-- The rounded quotient is within one of the quotient from above. -/
theorem lt_rne_succ (n d : Nat) (hd : 0 < d) : n < (rne n d + 1) * d := by
  have h := Nat.lt_mul_div_succ n hd
  unfold rne
  split_ifs
  · nlinarith
  · linarith [Nat.mul_comm d (n / d + 1)]

/-- A bound from below passes to a larger value. -/
theorem atLeast_of_le (c : ℚ) (x y : F64) (hx : atLeast c x) (h : F64.le x y = true) :
    atLeast c y := by
  cases x with
  | nan => exact absurd hx (by simp [atLeast])
  | inf n1 =>
    cases n1 with
    | true => exact absurd hx (by simp [atLeast])
    | false =>
      cases y with
      | nan => simp [F64.le] at h
      | inf n2 => cases n2 <;> simp_all [F64.le, atLeast]
      | fin m e => simp [F64.le] at h
  | fin m1 e1 =>
    cases y with
    | nan => simp [F64.le] at h
    | inf n2 => cases n2 <;> simp_all [F64.le, atLeast]
    | fin m2 e2 =>
      rw [le_fin_iff] at h
      exact le_trans hx h

/-- A bound from below may be lowered. -/
theorem atLeast_weaken (c c' : ℚ) (x : F64) (hx : atLeast c x) (h : c' ≤ c) : atLeast c' x := by
  cases x with
  | nan => exact hx
  | inf n => cases n <;> exact hx
  | fin m e => exact le_trans h hx

/-- A `float64` that is not NaN and not at most 1 is at least `1 + 2^-52`, the successor
of 1 among the `float64`s. -/
theorem atLeast_of_not_le_one (x : F64) (hrep : Representable x) (hnan : x ≠ .nan)
    (h : ¬ F64.le x (.fin 1 0) = true) : atLeast (1 + 2 ^ (-52 : Int)) x := by
  have two : (0 : ℚ) < 2 := by norm_num
  cases x with
  | nan => exact absurd rfl hnan
  | inf n => cases n <;> simp_all [F64.le, atLeast]
  | fin m e =>
    rw [le_fin_iff] at h
    have h1 : (1 : ℚ) < (m : ℚ) * 2 ^ e := by
      have := not_le.1 h
      simpa using this
    obtain ⟨k, e', hk, he', hv, -⟩ := hrep
    show (1 : ℚ) + 2 ^ (-52 : Int) ≤ (m : ℚ) * 2 ^ e
    rw [hv] at h1 ⊢
    have hkpos : 0 < k := by
      by_contra hc
      have hk0 : (k : ℚ) ≤ 0 := by exact_mod_cast not_lt.1 hc
      have : (k : ℚ) * 2 ^ e' ≤ 0 := mul_nonpos_of_nonpos_of_nonneg hk0 (zpow_pos two _).le
      linarith
    have hk53 : k < 2 ^ 53 := lt_of_le_of_lt (le_abs_self k) hk
    by_cases hcase : e' ≤ -53
    · exfalso
      have hz : (2 : ℚ) ^ e' ≤ 2 ^ (-53 : Int) := zpow_le_zpow_right₀ (by norm_num) hcase
      have hkq : (k : ℚ) < 2 ^ 53 := by exact_mod_cast hk53
      have hk0 : (0 : ℚ) < k := by exact_mod_cast hkpos
      have : (k : ℚ) * 2 ^ e' < 2 ^ 53 * 2 ^ (-53 : Int) := by
        calc (k : ℚ) * 2 ^ e' ≤ (k : ℚ) * 2 ^ (-53 : Int) := by
              exact mul_le_mul_of_nonneg_left hz hk0.le
          _ < 2 ^ 53 * 2 ^ (-53 : Int) := by
              exact mul_lt_mul_of_pos_right hkq (zpow_pos two _)
      norm_num at this
      linarith
    · have he52 : -52 ≤ e' := by omega
      obtain ⟨j, hj⟩ : ∃ j : Nat, e' = (j : Int) - 52 := ⟨(e' + 52).toNat, by omega⟩
      have hpow : (2 : ℚ) ^ e' = 2 ^ j * 2 ^ (-52 : Int) := by
        rw [hj, sub_eq_add_neg, zpow_add₀ (by norm_num : (2 : ℚ) ≠ 0), zpow_natCast]
      rw [hpow] at h1 ⊢
      have h52 : (2 : ℚ) ^ (-52 : Int) = 1 / 2 ^ 52 := by norm_num
      rw [h52] at h1 ⊢
      have hint : (2 : Int) ^ 52 < k * 2 ^ j := by
        have : ((2 : Int) ^ 52 : ℚ) < ((k * 2 ^ j : Int) : ℚ) := by
          push_cast
          have h3 : (k : ℚ) * (2 ^ j * (1 / 2 ^ 52)) = (k * 2 ^ j) / 2 ^ 52 := by ring
          rw [h3, lt_div_iff₀ (by positivity)] at h1
          linarith
        exact_mod_cast this
      have hint' : (2 : Int) ^ 52 + 1 ≤ k * 2 ^ j := by omega
      have hq : ((2 : ℚ) ^ 52 + 1) ≤ (k : ℚ) * 2 ^ j := by exact_mod_cast hint'
      have h3 : (k : ℚ) * (2 ^ j * (1 / 2 ^ 52)) = (k * 2 ^ j) / 2 ^ 52 := by ring
      rw [h3, le_div_iff₀ (by positivity)]
      have : ((1 : ℚ) + 1 / 2 ^ 52) * 2 ^ 52 = 2 ^ 52 + 1 := by norm_num
      linarith

/-- The conversion of a positive `int64` to `float64`: a mantissa `M` between `2^52` and
`2^53` at an exponent `u`, with `x < (M + 1) * 2^u`, and `M < 2^53` when the conversion
rounds down. -/
theorem ofInt64_pos (x : Int) (h0 : 0 < x) (h : x < 2 ^ 63) :
    ∃ (M : Nat) (u : Int), ofInt64 x = fin (M : Int) u ∧ 2 ^ 52 ≤ M ∧ M ≤ 2 ^ 53 ∧ -52 ≤ u ∧
      u ≤ 10 ∧ (x : ℚ) < ((M : ℚ) + 1) * 2 ^ u ∧ ((M : ℚ) * 2 ^ u < x → M < 2 ^ 53) := by
  have two : (0 : ℚ) < 2 := by norm_num
  have two' : (2 : ℚ) ≠ 0 := by norm_num
  obtain ⟨a, ha⟩ : ∃ a : Nat, x = (a : Int) := ⟨x.toNat, by omega⟩
  have hapos : 0 < a := by omega
  have hna : x.natAbs = a := by omega
  obtain ⟨hlo, hhi⟩ := ilog2_spec a 1 hapos (by norm_num)
  simp only [Nat.cast_one, div_one] at hlo hhi
  have haq : (1 : ℚ) ≤ a := by exact_mod_cast hapos
  have ha63 : (a : ℚ) < 2 ^ (63 : Int) := by
    have h' : (a : ℚ) < (2 : ℚ) ^ (63 : Nat) := by
      exact_mod_cast (show a < 2 ^ 63 by omega)
    rw [show (63 : Int) = ((63 : Nat) : Int) from rfl, zpow_natCast]
    exact h'
  have hil0 : 0 ≤ ilog2 a 1 := by
    by_contra hc
    have : ilog2 a 1 + 1 ≤ 0 := by omega
    have h1 : (2 : ℚ) ^ (ilog2 a 1 + 1) ≤ 2 ^ (0 : Int) := zpow_le_zpow_right₀ (by norm_num) this
    norm_num at h1
    linarith
  have hil62 : ilog2 a 1 ≤ 62 := by
    by_contra hc
    have : 63 ≤ ilog2 a 1 := by omega
    have h1 : (2 : ℚ) ^ (63 : Int) ≤ 2 ^ ilog2 a 1 := zpow_le_zpow_right₀ (by norm_num) this
    linarith
  have hu : ulpExp a 1 = ilog2 a 1 - 52 := by
    unfold ulpExp
    exact max_eq_left (by omega)
  have hM1 := le_mant a 1 hapos (by norm_num) (by omega)
  have hM2 := mant_le a 1 hapos (by norm_num)
  have hround : ofInt64 x = fin ((mant a 1 : Nat) : Int) (ulpExp a 1) := by
    unfold ofInt64
    rw [round_pos x 1 h0, hna, if_neg]
    rw [hu]
    omega
  obtain ⟨n, d, hd, hme, hnd⟩ := mant_eq a 1 (by norm_num)
  simp only [Nat.cast_one, div_one] at hnd
  have hlt := lt_rne_succ n d hd
  rw [← hme] at hlt
  have hdq : (0 : ℚ) < d := by exact_mod_cast hd
  have hupper : (a : ℚ) < ((mant a 1 : ℚ) + 1) * 2 ^ ulpExp a 1 := by
    have h1 : (n : ℚ) < ((mant a 1 : ℚ) + 1) * d := by exact_mod_cast hlt
    have h2 : (n : ℚ) / d < (mant a 1 : ℚ) + 1 := by
      rw [div_lt_iff₀ hdq]
      exact h1
    rw [hnd, div_lt_iff₀ (zpow_pos two _)] at h2
    exact h2
  refine ⟨mant a 1, ulpExp a 1, hround, hM1, hM2, by omega, by omega, ?_, ?_⟩
  · rw [ha]
    simpa using hupper
  · intro hdown
    rw [ha] at hdown
    by_contra hc
    have hM : mant a 1 = 2 ^ 53 := by omega
    have : (2 : ℚ) ^ (ilog2 a 1 + 1) = (mant a 1 : ℚ) * 2 ^ ulpExp a 1 := by
      have hMq : ((mant a 1 : Nat) : ℚ) = 2 ^ (53 : Int) := by
        rw [hM, show (53 : Int) = ((53 : Nat) : Int) from rfl, zpow_natCast]
        push_cast
        rfl
      rw [hMq, hu, ← zpow_add₀ two']
      congr 1
      omega
    have h3 : ((a : Int) : ℚ) = (a : ℚ) := by simp
    rw [h3] at hdown
    linarith

/-- The conversion of zero. -/
theorem ofInt64_zero : ofInt64 0 = fin 0 0 := rfl

/-- The conversion of a non-negative `int64` is finite with a non-negative mantissa. -/
theorem ofInt64_nonneg (x : Int) (h0 : 0 ≤ x) (h : x < 2 ^ 63) :
    ∃ M u : Int, ofInt64 x = fin M u ∧ 0 ≤ M ∧ (0 < x → 0 < M) := by
  rcases h0.lt_or_eq with hpos | hz
  · obtain ⟨M, u, hof, hM, -⟩ := ofInt64_pos x hpos h
    have : 0 < M := lt_of_lt_of_le (by norm_num) hM
    exact ⟨M, u, hof, by omega, fun _ => by omega⟩
  · subst hz
    exact ⟨0, 0, rfl, le_refl _, fun h => absurd h (lt_irrefl _)⟩

end F64

/-- The function `saturatedMultiply` returns `math.MaxInt64` when the product is NaN. -/
theorem saturatedMultiply_nan (fr : FloatRuntime) (left : Int) (right : F64)
    (h : F64.mul (F64.ofInt64 left) right = .nan) :
    saturatedMultiply fr left right = mathMaxInt64 := by
  unfold saturatedMultiply
  rw [h]
  rfl

/-- The function `saturatedMultiply` returns `math.MaxInt64` when the product is `+Inf`. -/
theorem saturatedMultiply_inf (fr : FloatRuntime) (left : Int) (right : F64)
    (h : F64.mul (F64.ofInt64 left) right = .inf false) :
    saturatedMultiply fr left right = mathMaxInt64 := by
  unfold saturatedMultiply
  rw [h]
  rfl

/-- The function `saturatedMultiply` with the factor `+Inf` or NaN returns
`math.MaxInt64`, for a non-negative `left`. -/
theorem saturatedMultiply_top (fr : FloatRuntime) (left : Int) (right : F64)
    (h0 : 0 ≤ left) (h63 : left < 2 ^ 63) (h : right = .nan ∨ right = .inf false) :
    saturatedMultiply fr left right = mathMaxInt64 := by
  obtain ⟨M, u, hof, hM, -⟩ := F64.ofInt64_nonneg left h0 h63
  rcases h with h | h
  · exact saturatedMultiply_nan fr left right (by rw [hof, h]; rfl)
  · by_cases hz : M = 0
    · exact saturatedMultiply_nan fr left right (by rw [hof, h]; simp [F64.mul, hz])
    · refine saturatedMultiply_inf fr left right ?_
      rw [hof, h]
      have : ¬ M < 0 := by omega
      simp [F64.mul, hz, this]

/-- The function `saturatedMultiply` is monotone in a factor that is not negative. -/
theorem saturatedMultiply_mono (fr : FloatRuntime) (left : Int) (r1 r2 : F64)
    (h0 : 0 ≤ left) (h63 : left < 2 ^ 63) (h1 : F64.atLeast 0 r1)
    (hle : F64.le r1 r2 = true) :
    saturatedMultiply fr left r1 ≤ saturatedMultiply fr left r2 := by
  have two : (0 : ℚ) < 2 := by norm_num
  have two' : (2 : ℚ) ≠ 0 := by norm_num
  have h2 := F64.atLeast_of_le 0 r1 r2 h1 hle
  cases r2 with
  | nan => exact absurd h2 (by simp [F64.atLeast])
  | inf n2 =>
    cases n2 with
    | true => exact absurd h2 (by simp [F64.atLeast])
    | false =>
      rw [saturatedMultiply_top fr left _ h0 h63 (Or.inr rfl)]
      exact saturatedMultiply_le fr left r1
  | fin m2 e2 =>
    cases r1 with
    | nan => exact absurd h1 (by simp [F64.atLeast])
    | inf n1 =>
      cases n1
      · simp [F64.le] at hle
      · exact absurd h1 (by simp [F64.atLeast])
    | fin m1 e1 =>
      obtain ⟨M, u, hof, hM, -⟩ := F64.ofInt64_nonneg left h0 h63
      rw [F64.le_fin_iff] at hle
      have hv1 : (0 : ℚ) ≤ (m1 : ℚ) * 2 ^ e1 := h1
      have hm1 : 0 ≤ m1 := (F64.mantissa_nonneg m1 e1).2 hv1
      have hMq : (0 : ℚ) ≤ (M : ℚ) * 2 ^ u := (F64.mantissa_nonneg M u).1 hM
      have hp1 : F64.mul (F64.ofInt64 left) (.fin m1 e1) = F64.scaled (M * m1) (u + e1) := by
        rw [hof]; rfl
      have hp2 : F64.mul (F64.ofInt64 left) (.fin m2 e2) = F64.scaled (M * m2) (u + e2) := by
        rw [hof]; rfl
      have hval : ∀ m e : Int, ((M * m : Int) : ℚ) * 2 ^ (u + e) =
          ((M : ℚ) * 2 ^ u) * ((m : ℚ) * 2 ^ e) := by
        intro m e
        push_cast
        rw [zpow_add₀ two']
        ring
      have hmono := F64.scaled_mono (M * m1) (u + e1) (M * m2) (u + e2) (mul_nonneg hM hm1)
        (by rw [hval, hval]; exact mul_le_mul_of_nonneg_left hle hMq)
      have hzero := F64.scaled_mono 0 0 (M * m1) (u + e1) (le_refl _)
        (by rw [hval]; simpa using mul_nonneg hMq hv1)
      rw [F64.scaled_zero] at hzero
      rcases F64.leVal_fin_left _ 0 0 hzero with hinf | ⟨a1, b1, hs1, hs1v⟩
      · -- the first product is already infinite
        rw [hinf] at hmono
        have hs2 : F64.scaled (M * m2) (u + e2) = .inf false := by
          cases hc : F64.scaled (M * m2) (u + e2) with
          | nan => rw [hc] at hmono; exact absurd hmono (by simp [F64.leVal])
          | inf n => cases n <;> rw [hc] at hmono <;> simp [F64.leVal] at hmono ⊢
          | fin a b => rw [hc] at hmono; exact absurd hmono (by simp [F64.leVal])
        rw [saturatedMultiply_inf fr left (.fin m2 e2) (by rw [hp2, hs2])]
        exact saturatedMultiply_le fr left _
      · rw [hs1] at hmono
        have hs1v' : (0 : ℚ) ≤ (a1 : ℚ) * 2 ^ b1 := by simpa using hs1v
        rw [saturatedMultiply_fin fr left (.fin m1 e1) a1 b1 (by rw [hp1, hs1]) hs1v']
        rcases F64.leVal_fin_left _ a1 b1 hmono with hinf | ⟨a2, b2, hs2, hs2v⟩
        · rw [saturatedMultiply_inf fr left (.fin m2 e2) (by rw [hp2, hinf])]
          exact min_le_left _ _
        · rw [saturatedMultiply_fin fr left (.fin m2 e2) a2 b2 (by rw [hp2, hs2])
            (le_trans hs1v' hs2v)]
          exact min_le_min_left _ (Int.floor_mono hs2v)

/-- The function `saturatedMultiply` does not go below `left` for a factor from
`1 + 2^-52` on. -/
theorem le_saturatedMultiply (fr : FloatRuntime) (left : Int) (r : F64)
    (h0 : 0 ≤ left) (h63 : left < 2 ^ 63) (hr : F64.atLeast (1 + 2 ^ (-52 : Int)) r) :
    left ≤ saturatedMultiply fr left r := by
  have two : (0 : ℚ) < 2 := by norm_num
  have two' : (2 : ℚ) ≠ 0 := by norm_num
  have hmaxI : left ≤ mathMaxInt64 := by unfold mathMaxInt64; omega
  cases r with
  | nan => exact absurd hr (by simp [F64.atLeast])
  | inf n =>
    cases n with
    | true => exact absurd hr (by simp [F64.atLeast])
    | false =>
      rw [saturatedMultiply_top fr left _ h0 h63 (Or.inr rfl)]
      exact hmaxI
  | fin m e =>
    have hμ : (1 : ℚ) + 2 ^ (-52 : Int) ≤ (m : ℚ) * 2 ^ e := hr
    have h52 : (2 : ℚ) ^ (-52 : Int) = 1 / 2 ^ 52 := by norm_num
    have hμ1 : (1 : ℚ) ≤ (m : ℚ) * 2 ^ e := by
      have : (0 : ℚ) < 2 ^ (-52 : Int) := zpow_pos two _
      linarith
    have hmpos : 0 ≤ m := (F64.mantissa_nonneg m e).2 (by linarith)
    rcases h0.lt_or_eq with hpos | hz
    · obtain ⟨M, u, hof, hM1, hM2, hu1, hu2, hup, hdown⟩ := F64.ofInt64_pos left hpos h63
      have hMq1 : (2 : ℚ) ^ 52 ≤ (M : ℚ) := by exact_mod_cast hM1
      have hMq2 : (M : ℚ) ≤ 2 ^ 53 := by exact_mod_cast hM2
      have hpu : (0 : ℚ) < 2 ^ u := zpow_pos two _
      have hp : F64.mul (F64.ofInt64 left) (.fin m e) = F64.scaled ((M : Int) * m) (u + e) := by
        rw [hof]; rfl
      have hval : (((M : Int) * m : Int) : ℚ) * 2 ^ (u + e) =
          ((M : ℚ) * 2 ^ u) * ((m : ℚ) * 2 ^ e) := by
        push_cast
        rw [zpow_add₀ two']
        ring
      -- a float64 between `left` and the product
      obtain ⟨kT, hkT0, hkT, hleft, hprod⟩ : ∃ kT : Nat, 0 < kT ∧ kT ≤ 2 ^ 53 ∧
          (left : ℚ) ≤ (kT : ℚ) * 2 ^ u ∧
          (kT : ℚ) * 2 ^ u ≤ ((M : ℚ) * 2 ^ u) * ((m : ℚ) * 2 ^ e) := by
        by_cases hcase : (left : ℚ) ≤ (M : ℚ) * 2 ^ u
        · refine ⟨M, lt_of_lt_of_le (by norm_num) hM1, hM2, hcase, ?_⟩
          have : (0 : ℚ) ≤ (M : ℚ) * 2 ^ u := by positivity
          nlinarith
        · have hlt := hdown (not_le.1 hcase)
          refine ⟨M + 1, Nat.succ_pos _, by omega, ?_, ?_⟩
          · push_cast
            exact hup.le
          · push_cast
            have h1 : (M : ℚ) + 1 ≤ (M : ℚ) * ((m : ℚ) * 2 ^ e) := by
              have : (M : ℚ) * (1 + 2 ^ (-52 : Int)) ≤ (M : ℚ) * ((m : ℚ) * 2 ^ e) :=
                mul_le_mul_of_nonneg_left hμ (by positivity)
              have h2 : (1 : ℚ) ≤ (M : ℚ) * 2 ^ (-52 : Int) := by
                rw [h52]
                rw [mul_one_div, le_div_iff₀ (by positivity)]
                linarith
              linarith
            calc ((M : ℚ) + 1) * 2 ^ u ≤ ((M : ℚ) * ((m : ℚ) * 2 ^ e)) * 2 ^ u :=
                  mul_le_mul_of_nonneg_right h1 hpu.le
              _ = ((M : ℚ) * 2 ^ u) * ((m : ℚ) * 2 ^ e) := by ring
      have hT1024 : (kT : ℚ) * 2 ^ u < 2 ^ (1024 : Int) := by
        have h1 : (kT : ℚ) ≤ 2 ^ (53 : Int) := by
          have h' : (kT : ℚ) ≤ (2 : ℚ) ^ (53 : Nat) := by exact_mod_cast hkT
          rw [show (53 : Int) = ((53 : Nat) : Int) from rfl, zpow_natCast]
          exact h'
        have h2 : (2 : ℚ) ^ u ≤ 2 ^ (10 : Int) := zpow_le_zpow_right₀ (by norm_num) hu2
        have h3 : (kT : ℚ) * 2 ^ u ≤ 2 ^ (53 : Int) * 2 ^ (10 : Int) :=
          mul_le_mul h1 h2 hpu.le (by positivity)
        have h4 : (2 : ℚ) ^ (53 : Int) * 2 ^ (10 : Int) < 2 ^ (1024 : Int) := by
          rw [← zpow_add₀ two']
          exact zpow_lt_zpow_right₀ (by norm_num) (by norm_num)
        linarith
      obtain ⟨a, b, hsT, hsTv⟩ := F64.scaled_exact kT u hkT0 hkT (by omega) hT1024
      have hmono := F64.scaled_mono (kT : Int) u ((M : Int) * m) (u + e) (by omega)
        (by rw [hval]; simpa using hprod)
      rw [hsT] at hmono
      rcases F64.leVal_fin_left _ a b hmono with hinf | ⟨a2, b2, hs2, hs2v⟩
      · rw [saturatedMultiply_inf fr left (.fin m e) (by rw [hp, hinf])]
        exact hmaxI
      · have hge : (left : ℚ) ≤ (a2 : ℚ) * 2 ^ b2 := by
          rw [hsTv] at hs2v
          linarith
        have hleft0 : (0 : ℚ) ≤ (left : ℚ) := by exact_mod_cast h0
        rw [saturatedMultiply_fin fr left (.fin m e) a2 b2 (by rw [hp, hs2])
          (le_trans hleft0 hge)]
        exact le_min hmaxI (Int.le_floor.2 hge)
    · subst hz
      have hp : F64.mul (F64.ofInt64 0) (.fin m e) = .fin 0 0 := by
        show F64.scaled (0 * m) (0 + e) = _
        rw [zero_mul, F64.scaled_zero]
      rw [saturatedMultiply_fin fr 0 (.fin m e) 0 0 hp (by simp)]
      simp [mathMaxInt64]

end Garr

namespace Garr

/-- What the constructor `NewExponentialBackoff` has checked when it returns a backoff. -/
theorem exponential_accepted (initial max : Int) (multiplier : F64) (b : ExponentialBackoff)
    (h : NewExponentialBackoff initial max multiplier = (some b, none)) :
    ¬ F64.le multiplier (.fin 1 0) = true ∧ 0 ≤ initial ∧ initial ≤ max ∧
      b = { initialDelayMillis := initial, maxDelayMillis := max, multiplier := multiplier } := by
  unfold NewExponentialBackoff at h
  split_ifs at h with h1 h2 h3
  · simp at h
  · simp at h
  · simp at h
  · simp only [Prod.mk.injEq, Option.some.injEq, and_true] at h
    exact ⟨h1, by omega, by omega, h.symm⟩

/-- The value of `math.Pow(multiplier, 1)` for an accepted multiplier, under `powOne`: NaN,
`+Inf`, or finite from `1 + 2^-52` on. -/
theorem pow_one_cases (fr : FloatRuntime) (multiplier : F64)
    (hgt : ¬ F64.le multiplier (.fin 1 0) = true) (hrep : F64.Representable multiplier)
    (hp1 : powOne fr multiplier) :
    fr.Pow multiplier (F64.ofInt64 1) = .nan ∨
      F64.atLeast (1 + 2 ^ (-52 : Int)) (fr.Pow multiplier (F64.ofInt64 1)) := by
  rcases hp1 with h | h
  · right
    have hnan : multiplier ≠ .nan := by
      intro hc
      rw [hc] at h
      simp [F64.le] at h
    exact F64.atLeast_of_le _ _ _ (F64.atLeast_of_not_le_one multiplier hrep hnan hgt) h
  · exact Or.inl h

/-- One step of a chain of `powStep`s: a value that is NaN or bounded from below is
followed by such a value. -/
theorem powStep_cases (fr : FloatRuntime) (x : F64) (y1 y2 : Int) (c : ℚ)
    (h1 : fr.Pow x (F64.ofInt64 y1) = .nan ∨ F64.atLeast c (fr.Pow x (F64.ofInt64 y1)))
    (hs : powStep fr x y1 y2) :
    fr.Pow x (F64.ofInt64 y2) = .nan ∨ F64.atLeast c (fr.Pow x (F64.ofInt64 y2)) := by
  rcases hs with h | h
  · rcases h1 with hn | ha
    · rw [hn] at h
      simp [F64.le] at h
    · exact Or.inr (F64.atLeast_of_le _ _ _ ha h)
  · exact Or.inl h

/-- C23: for every `ExponentialBackoff` accepted by `NewExponentialBackoff` and every
`k >= 1`, `NextDelayMillis(k+1) >= NextDelayMillis(k)` and `NextDelayMillis(k)` is at most
`maxDelayMillis`. The delays are `int64` (`max < 2^63`), the attempt numbers are Go `int`s
(`k + 1 < 2^63`), the multiplier is a `float64`, and `math.Pow`, which is not code of the
repository, is taken with its documented `Pow(x, 1) = x` (in the form `powOne`) and as
non-decreasing in the exponent from 1 to `k` (`powStep`). -/
theorem exponential_monotone (fr : FloatRuntime) (initial max : Int) (multiplier : F64)
    (b : ExponentialBackoff) (k : Int)
    (hacc : NewExponentialBackoff initial max multiplier = (some b, none))
    (hmax : max < 2 ^ 63) (hrep : F64.Representable multiplier)
    (hpow1 : powOne fr multiplier)
    (hmono : ∀ y1 y2 : Int, 1 ≤ y1 → y1 ≤ y2 → y2 ≤ k → powStep fr multiplier y1 y2)
    (hk1 : 1 ≤ k) (hk : k + 1 < 2 ^ 63) :
    b.NextDelayMillis fr k ≤ b.NextDelayMillis fr (k + 1) ∧
      b.NextDelayMillis fr k ≤ b.maxDelayMillis := by
  obtain ⟨hgt, h0, hle, hb⟩ := exponential_accepted initial max multiplier b hacc
  subst hb
  refine ⟨?_, exponential_le_max fr _ k hle⟩
  have h63 : initial < 2 ^ 63 := by omega
  have hone := pow_one_cases fr multiplier hgt hrep hpow1
  have hnext := exponential_next fr
    { initialDelayMillis := initial, maxDelayMillis := max, multiplier := multiplier } (k + 1)
    (by omega) (by unfold IsInt64; omega)
  rw [add_sub_cancel_right] at hnext
  rw [hnext]
  rcases hk1.lt_or_eq with hk2 | hk1'
  · -- from the second attempt on: two saturated products
    rw [exponential_next fr _ k (by omega) (by unfold IsInt64; omega)]
    refine min_le_min_left _ ?_
    show saturatedMultiply fr initial (fr.Pow multiplier (F64.ofInt64 (k - 1))) ≤
      saturatedMultiply fr initial (fr.Pow multiplier (F64.ofInt64 k))
    have hprev := powStep_cases fr multiplier 1 (k - 1) _ hone
      (hmono 1 (k - 1) (le_refl _) (by omega) (by omega))
    rcases hmono (k - 1) k (by omega) (by omega) (le_refl _) with hstep | hnan
    · rcases hprev with hn | ha
      · rw [hn] at hstep
        simp [F64.le] at hstep
      · exact saturatedMultiply_mono fr initial _ _ h0 h63
          (F64.atLeast_weaken _ 0 _ ha (by positivity)) hstep
    · rw [saturatedMultiply_top fr initial _ h0 h63 (Or.inl hnan)]
      exact saturatedMultiply_le fr initial _
  · -- the first attempt returns the initial delay
    subst hk1'
    show initial ≤ _
    refine le_min hle ?_
    show initial ≤ saturatedMultiply fr initial (fr.Pow multiplier (F64.ofInt64 1))
    rcases hone with hn | ha
    · rw [saturatedMultiply_top fr initial _ h0 h63 (Or.inl hn)]
      unfold mathMaxInt64
      omega
    · exact le_saturatedMultiply fr initial _ h0 h63 ha

set_option maxRecDepth 100000 in
/-- The example `math.Pow` at the base 3: `Pow(3, 1)` is 3 and the values at the exponents
1 and 2 do not decrease. -/
theorem examplePow_steps :
    powOne exampleFloatRuntime (.fin 3 0) ∧
      ∀ y1 y2 : Int, 1 ≤ y1 → y1 ≤ y2 → y2 ≤ 2 → powStep exampleFloatRuntime (.fin 3 0) y1 y2 := by
  refine ⟨Or.inl rfl, ?_⟩
  intro y1 y2 h1 h12 h2
  have hy1 : y1 = 1 ∨ y1 = 2 := by omega
  have hy2 : y2 = 1 ∨ y2 = 2 := by omega
  rcases hy1 with h | h <;> rcases hy2 with h' | h' <;> subst h <;> subst h'
  · exact Or.inl rfl
  · exact Or.inl rfl
  · omega
  · exact Or.inl rfl

/-- The multiplier 3 is a `float64`. -/
theorem representable_three : F64.Representable (.fin 3 0) :=
  ⟨3, 0, by norm_num [abs_lt], by norm_num, by norm_num, by norm_num [abs_lt]⟩

/-- Witness of C23: initial 200, max 10000, multiplier 3 and `k = 2` with the example
`math.Pow`. -/
theorem exponential_monotone_witness :
    NewExponentialBackoff 200 10000 (.fin 3 0) = (some tripleBackoff, none) ∧
    (10000 : Int) < 2 ^ 63 ∧ F64.Representable (.fin 3 0) ∧
    powOne exampleFloatRuntime (.fin 3 0) ∧
    (∀ y1 y2 : Int, 1 ≤ y1 → y1 ≤ y2 → y2 ≤ 2 →
      powStep exampleFloatRuntime (.fin 3 0) y1 y2) ∧
    (1 : Int) ≤ 2 ∧ (2 : Int) + 1 < 2 ^ 63 ∧
    tripleBackoff.NextDelayMillis exampleFloatRuntime 2 ≤
      tripleBackoff.NextDelayMillis exampleFloatRuntime (2 + 1) ∧
    tripleBackoff.NextDelayMillis exampleFloatRuntime 2 ≤ tripleBackoff.maxDelayMillis :=
  ⟨exponential_accepts 200 10000 (.fin 3 0) (by decide) (by norm_num) (by norm_num),
    by norm_num, representable_three, examplePow_steps.1, examplePow_steps.2, by norm_num,
    by norm_num,
    exponential_monotone exampleFloatRuntime 200 10000 (.fin 3 0) tripleBackoff 2
      (exponential_accepts 200 10000 (.fin 3 0) (by decide) (by norm_num) (by norm_num))
      (by norm_num) representable_three examplePow_steps.1 examplePow_steps.2 (by norm_num)
      (by norm_num)⟩

end Garr

namespace Garr

/-- The wrap-around keeps the value modulo `2^64`. -/
theorem wrap64_modEq (x : Int) : wrap64 x ≡ x [ZMOD 2 ^ 64] := by
  unfold wrap64 Int.ModEq
  omega

/-- Two integers equal modulo `2^64` wrap to the same `int64`. -/
theorem wrap64_eq_of_modEq {a b : Int} (h : a ≡ b [ZMOD 2 ^ 64]) : wrap64 a = wrap64 b := by
  unfold Int.ModEq at h
  unfold wrap64
  omega

/-- The sum of a list of integers read through `f` after one element is replaced. -/
theorem sum_map_set {α : Type} (f : α → Int) (l : List α) (i : Nat) (a b : α)
    (h : l[i]? = some a) : ((l.set i b).map f).sum = (l.map f).sum + (f b - f a) := by
  induction l generalizing i with
  | nil => simp at h
  | cons x xs ih =>
    cases i with
    | zero =>
      simp only [List.getElem?_cons_zero, Option.some.injEq] at h
      subst h
      simp only [List.set_cons_zero, List.map_cons, List.sum_cons]
      ring
    | succ i =>
      simp only [List.getElem?_cons_succ] at h
      simp only [List.set_cons_succ, List.map_cons, List.sum_cons, ih i h]
      ring

/-- An element of a list of non-negative integers is at most the sum. -/
theorem le_sum_of_getElem? {α : Type} (f : α → Int) (hf : ∀ a, 0 ≤ f a) (l : List α) (i : Nat)
    (a : α) (h : l[i]? = some a) : f a ≤ (l.map f).sum := by
  induction l generalizing i with
  | nil => simp at h
  | cons x xs ih =>
    have hs : 0 ≤ (xs.map f).sum := List.sum_nonneg (by simpa using fun a _ => hf a)
    cases i with
    | zero =>
      simp only [List.getElem?_cons_zero, Option.some.injEq] at h
      subst h
      simp only [List.map_cons, List.sum_cons]
      linarith
    | succ i =>
      simp only [List.getElem?_cons_succ] at h
      simp only [List.map_cons, List.sum_cons]
      linarith [ih i h, hf x]

/-- Two elements at different places of a list of non-negative integers add up to at most
the sum. -/
theorem add_le_sum_of_getElem? {α : Type} (f : α → Int) (hf : ∀ a, 0 ≤ f a) (l : List α)
    (i j : Nat) (a b : α) (hi : l[i]? = some a) (hj : l[j]? = some b) (hij : i ≠ j) :
    f a + f b ≤ (l.map f).sum := by
  induction l generalizing i j with
  | nil => simp at hi
  | cons x xs ih =>
    cases i with
    | zero =>
      cases j with
      | zero => exact absurd rfl hij
      | succ j =>
        simp only [List.getElem?_cons_zero, Option.some.injEq] at hi
        simp only [List.getElem?_cons_succ] at hj
        subst hi
        simp only [List.map_cons, List.sum_cons]
        linarith [le_sum_of_getElem? f hf xs j b hj]
    | succ i =>
      cases j with
      | zero =>
        simp only [List.getElem?_cons_zero, Option.some.injEq] at hj
        simp only [List.getElem?_cons_succ] at hi
        subst hj
        simp only [List.map_cons, List.sum_cons]
        linarith [le_sum_of_getElem? f hf xs i a hi]
      | succ j =>
        simp only [List.getElem?_cons_succ] at hi hj
        simp only [List.map_cons, List.sum_cons]
        linarith [ih i j hi hj (fun h => hij (by rw [h])), hf x]

/-- A cell is among the cells of a backing array when a slot holds it. -/
theorem mem_reduceOption_iff (row : List (Option Nat)) (c : Nat) :
    c ∈ row.reduceOption ↔ ∃ j, row.getD j none = some c := by
  rw [List.reduceOption_mem_iff, List.mem_iff_getElem?]
  constructor
  · rintro ⟨j, hj⟩
    exact ⟨j, by rw [List.getD_eq_getElem?_getD, hj]; rfl⟩
  · rintro ⟨j, hj⟩
    refine ⟨j, ?_⟩
    rw [List.getD_eq_getElem?_getD] at hj
    cases h : row[j]? with
    | none => rw [h] at hj; simp at hj
    | some o => rw [h] at hj; simp at hj; rw [hj]

/-- A backing array of empty slots has no cell. -/
theorem reduceOption_of_none (row : List (Option Nat)) (h : ∀ j, row.getD j none = none) :
    row.reduceOption = [] := by
  induction row with
  | nil => rfl
  | cons x xs ih =>
    have h0 := h 0
    simp only [List.getD_cons_zero] at h0
    subst h0
    rw [List.reduceOption_cons_of_none]
    exact ih fun j => by simpa using h (j + 1)

/-- The cells of the first `n` slots are all the cells when the other slots are empty. -/
theorem reduceOption_take (row : List (Option Nat)) (n : Nat)
    (h : ∀ j, n ≤ j → row.getD j none = none) : (row.take n).reduceOption = row.reduceOption := by
  induction row generalizing n with
  | nil => simp
  | cons x xs ih =>
    cases n with
    | zero =>
      rw [List.take_zero, reduceOption_of_none (x :: xs) fun j => h j (Nat.zero_le _)]
      rfl
    | succ n =>
      have ih' := ih n fun j hj => by simpa using h (j + 1) (by omega)
      cases x with
      | none => simp only [List.take_succ_cons, List.reduceOption_cons_of_none, ih']
      | some y => simp only [List.take_succ_cons, List.reduceOption_cons_of_some, ih']

/-- Empty slots appended to a backing array add no cell. -/
theorem reduceOption_append_none (l : List (Option Nat)) (k : Nat) :
    (l ++ List.replicate k none).reduceOption = l.reduceOption := by
  rw [List.reduceOption_append, reduceOption_of_none (List.replicate k none), List.append_nil]
  intro j
  rw [List.getD_eq_getElem?_getD]
  cases h : (List.replicate k (none : Option Nat))[j]? with
  | none => rfl
  | some o =>
    have := List.mem_iff_getElem?.2 ⟨j, h⟩
    rw [List.mem_replicate] at this
    rw [this.2]
    rfl

/-- The cells of a backing array after a cell is stored in an empty slot. -/
theorem reduceOption_set_perm (row : List (Option Nat)) (j r : Nat) (h : row[j]? = some none) :
    (row.set j (some r)).reduceOption.Perm (r :: row.reduceOption) := by
  induction row generalizing j with
  | nil => simp at h
  | cons x xs ih =>
    cases j with
    | zero =>
      simp only [List.getElem?_cons_zero, Option.some.injEq] at h
      subst h
      simp only [List.set_cons_zero, List.reduceOption_cons_of_some,
        List.reduceOption_cons_of_none]
      exact List.Perm.refl _
    | succ j =>
      simp only [List.getElem?_cons_succ] at h
      cases x with
      | none =>
        simp only [List.set_cons_succ, List.reduceOption_cons_of_none]
        exact ih j h
      | some y =>
        simp only [List.set_cons_succ, List.reduceOption_cons_of_some]
        exact ((ih j h).cons y).trans (List.Perm.swap r y _)

/-- The first table: one cell. -/
theorem reduceOption_first (k c : Nat) (hk : k ≤ 1) :
    ((List.replicate 4 (none : Option Nat)).set k (some c)).reduceOption = [c] := by
  have : k = 0 ∨ k = 1 := by omega
  rcases this with h | h <;> subst h <;> rfl

/-- The value of an old cell after a cell is created. -/
theorem getD_append_one (vals : List Int) (x : Int) (c : Nat) (h : c < vals.length) :
    (vals ++ [x]).getD c 0 = vals.getD c 0 := by
  rw [List.getD_eq_getElem?_getD, List.getD_eq_getElem?_getD, List.getElem?_append_left h]

/-- The values of old cells after a cell is created. -/
theorem sum_vals_append (l : List Nat) (vals : List Int) (x : Int)
    (h : ∀ c ∈ l, c < vals.length) :
    (l.map fun c => (vals ++ [x]).getD c 0).sum = (l.map fun c => vals.getD c 0).sum := by
  congr 1
  exact List.map_congr_left fun c hc => getD_append_one vals x c (h c hc)

/-- The value of a cell after the cell `a` is written. -/
theorem getD_set_vals (vals : List Int) (a c : Nat) (v : Int) :
    (vals.set a v).getD c 0 = if c = a ∧ a < vals.length then v else vals.getD c 0 := by
  rw [List.getD_eq_getElem?_getD, List.getD_eq_getElem?_getD, List.getElem?_set]
  by_cases hca : a = c
  · subst hca
    by_cases hlt : a < vals.length
    · simp [hlt]
    · simp [hlt, List.getElem?_eq_none (not_lt.1 hlt)]
  · have : ¬ c = a := fun h => hca h.symm
    simp [hca, this]

/-- The values of cells other than the one written. -/
theorem sum_vals_set_of_not_mem (l : List Nat) (vals : List Int) (a : Nat) (v : Int)
    (ha : a ∉ l) :
    (l.map fun c => (vals.set a v).getD c 0).sum = (l.map fun c => vals.getD c 0).sum := by
  congr 1
  refine List.map_congr_left fun c hc => ?_
  rw [getD_set_vals, if_neg]
  rintro ⟨h, -⟩
  exact ha (h ▸ hc)

/-- The values of distinct cells after one of them is written. -/
theorem sum_vals_set (l : List Nat) (vals : List Int) (a : Nat) (v : Int) (hn : l.Nodup)
    (ha : a ∈ l) (hlt : a < vals.length) :
    (l.map fun c => (vals.set a v).getD c 0).sum =
      (l.map fun c => vals.getD c 0).sum + (v - vals.getD a 0) := by
  induction l with
  | nil => simp at ha
  | cons y ys ih =>
    rw [List.nodup_cons] at hn
    simp only [List.map_cons, List.sum_cons]
    rcases List.mem_cons.1 ha with h | h
    · subst h
      rw [sum_vals_set_of_not_mem ys vals a v hn.1, getD_set_vals, if_pos ⟨rfl, hlt⟩]
      ring
    · have hne : ¬ y = a := fun hc => hn.1 (hc ▸ h)
      rw [ih hn.2 h, getD_set_vals, if_neg (fun hc => hne hc.1)]
      ring

end Garr

namespace Garr

/-- A memory comes after itself. -/
theorem Mem.grows_refl (m : Mem) : m.Grows m :=
  ⟨fun _ _ _ h => h, le_refl _, fun _ _ => rfl, le_refl _, fun _ _ _ => rfl⟩

/-- A slot that holds a cell is a slot of a backing array in memory. -/
theorem Mem.slotAt_lt {m : Mem} {A j c : Nat} (h : m.slotAt A j = some c) :
    A < m.arrays.length ∧ j < (m.row A).length := by
  unfold Mem.slotAt at h
  have hj : j < (m.row A).length := by
    by_contra hc
    rw [List.getD_eq_getElem?_getD, List.getElem?_eq_none (not_lt.1 hc)] at h
    simp at h
  refine ⟨?_, hj⟩
  by_contra hc
  unfold Mem.row at hj
  rw [List.getD_eq_getElem?_getD, List.getElem?_eq_none (not_lt.1 hc)] at hj
  simp at hj

/-- The slot read by a load in range. -/
theorem Mem.loadSlot_eq {m : Mem} {as : Slice} {j : Nat} (h1 : j < as.len)
    (h2 : as.len ≤ (m.row as.arr).length) :
    m.loadSlot as j = some (m.slotAt as.arr j) := by
  unfold Mem.loadSlot Mem.slotAt
  rw [if_pos h1, List.getD_eq_getElem?_getD, List.getElem?_eq_getElem (by omega)]
  rfl

/-- In a consistent memory with a backing array there is a table. -/
theorem Mem.OK.cells_of_lt {m : Mem} (hm : m.OK) {A : Nat} (h : A < m.arrays.length) :
    ∃ as, m.cells = some as := by
  cases hc : m.cells with
  | none =>
    rw [hm.empty hc] at h
    simp at h
  | some as => exact ⟨as, rfl⟩

/-- In a consistent memory a cell held by a slot is a cell of the table. -/
theorem Mem.OK.mem_table {m : Mem} (hm : m.OK) {c : Nat} (h : m.installed c) :
    c ∈ m.table := by
  obtain ⟨A, j, hs⟩ := h
  obtain ⟨as, has⟩ := hm.cells_of_lt (Mem.slotAt_lt hs).1
  unfold Mem.table
  rw [has]
  exact (mem_reduceOption_iff _ _).2 ⟨j, (hm.kept as has A j c hs).1⟩

/-- A cell of the table is held by a slot. -/
theorem Mem.installed_of_mem_table {m : Mem} {c : Nat} (h : c ∈ m.table) : m.installed c := by
  unfold Mem.table at h
  cases hc : m.cells with
  | none => rw [hc] at h; simp at h
  | some as =>
    rw [hc] at h
    obtain ⟨j, hj⟩ := (mem_reduceOption_iff _ _).1 h
    exact ⟨as.arr, j, hj⟩

/-- In a consistent memory the cells of the table exist. -/
theorem Mem.OK.table_lt {m : Mem} (hm : m.OK) {c : Nat} (h : c ∈ m.table) :
    c < m.vals.length := by
  obtain ⟨A, j, hs⟩ := Mem.installed_of_mem_table h
  exact hm.valid A j c hs

/-- The slots of the table from its length on are empty. -/
theorem Mem.OK.beyond {m : Mem} (hm : m.OK) {as : Slice} (has : m.cells = some as) (j : Nat)
    (hj : as.len ≤ j) : (m.row as.arr).getD j none = none := by
  cases h : (m.row as.arr).getD j none with
  | none => rfl
  | some c =>
    have := (hm.kept as has as.arr j c h).2
    omega

/-- The method `Sum` of a consistent memory is the exact sum, wrapped. -/
theorem Mem.OK.sum_eq {m : Mem} (hm : m.OK) : m.Sum = wrap64 m.total := by
  unfold Mem.Sum Mem.total Mem.table
  cases hc : m.cells with
  | none => simp [wrap64_of_isInt64 hm.base]
  | some as =>
    simp only
    rw [reduceOption_take _ _ (hm.beyond hc), sumWrap_eq hm.base]

/-- A step that leaves the memory alone. -/
theorem Goroutine.stepOK_keep {m : Mem} {g g' : Goroutine} (hm : m.OK) (hg : g'.OK m)
    (hlock : g'.holds = g.holds) (howes : g'.owes = g.owes)
    (hr : g'.pc.hasR = true → g.pc.hasR = true ∧ g'.loc.r = g.loc.r) :
    Goroutine.StepOK m g m g' :=
  { mem := hm
    ok := hg
    lock := by rw [hlock]
    sum := by rw [howes]
    grows := Mem.grows_refl m
    same := fun _ => ⟨rfl, rfl⟩
    inst := fun _ h => Or.inl h
    owned := fun h => Or.inr (hr h) }

/-- A step that writes `cellsBusy`. -/
theorem Goroutine.stepOK_busy {m : Mem} {g g' : Goroutine} (v : Int) (hm : m.OK)
    (hg : g'.OK m) (hlock : v - g'.holds = m.cellsBusy - g.holds) (howes : g'.owes = g.owes)
    (hr : g'.pc.hasR = true → g.pc.hasR = true ∧ g'.loc.r = g.loc.r) :
    Goroutine.StepOK m g { m with cellsBusy := v } g' :=
  { mem := ⟨hm.base, hm.valid, hm.empty, hm.arr, hm.len, hm.nodup, hm.kept⟩
    ok := hg
    lock := hlock
    sum := by
      rw [howes]
      exact Int.ModEq.refl _
    grows := ⟨fun _ _ _ h => h, le_refl _, fun _ _ => rfl, le_refl _, fun _ _ _ => rfl⟩
    same := fun _ => ⟨rfl, rfl⟩
    inst := fun _ h => Or.inl h
    owned := fun h => Or.inr (hr h) }

/-- A step whose `casBase` succeeds. -/
theorem Goroutine.stepOK_base {m : Mem} {g g' : Goroutine} (x : Int) (hm : m.OK)
    (hg : g'.OK m) (hlock : g'.holds = g.holds) (howes : g'.owes + x = g.owes)
    (hr : g'.pc.hasR = true → g.pc.hasR = true ∧ g'.loc.r = g.loc.r) :
    Goroutine.StepOK m g { m with base := wrap64 (m.base + x) } g' :=
  { mem := ⟨wrap64_isInt64 _, hm.valid, hm.empty, hm.arr, hm.len, hm.nodup, hm.kept⟩
    ok := hg
    lock := by rw [hlock]
    sum := by
      have h1 := wrap64_modEq (m.base + x)
      rw [← howes]
      show wrap64 (m.base + x) + (m.table.map fun c => m.vals.getD c 0).sum + g'.owes ≡
        m.base + (m.table.map fun c => m.vals.getD c 0).sum + (g'.owes + x) [ZMOD 2 ^ 64]
      have := (h1.add_right ((m.table.map fun c => m.vals.getD c 0).sum)).add_right g'.owes
      refine this.trans ?_
      rw [show m.base + x + (m.table.map fun c => m.vals.getD c 0).sum + g'.owes =
        m.base + (m.table.map fun c => m.vals.getD c 0).sum + (g'.owes + x) by ring]
    grows := ⟨fun _ _ _ h => h, le_refl _, fun _ _ => rfl, le_refl _, fun _ _ _ => rfl⟩
    same := fun _ => ⟨rfl, rfl⟩
    inst := fun _ h => Or.inl h
    owned := fun h => Or.inr (hr h) }

/-- A step whose `cas` on a cell of the table succeeds. -/
theorem Goroutine.stepOK_val {m : Mem} {g g' : Goroutine} (a : Nat) (old x : Int)
    (hm : m.OK) (ha : m.installed a) (hold : m.vals[a]? = some old)
    (hg : g'.OK m → g'.OK { m with vals := m.vals.set a (wrap64 (old + x)) })
    (hg' : g'.OK m) (hlock : g'.holds = g.holds) (howes : g'.owes + x = g.owes)
    (hr : g'.pc.hasR = true → g.pc.hasR = true ∧ g'.loc.r = g.loc.r) :
    Goroutine.StepOK m g { m with vals := m.vals.set a (wrap64 (old + x)) } g' := by
  have hlt : a < m.vals.length := by
    obtain ⟨A, j, hs⟩ := ha
    exact hm.valid A j a hs
  have hlen : (m.vals.set a (wrap64 (old + x))).length = m.vals.length := List.length_set _ _ _
  refine
    { mem := ⟨hm.base, fun A j c h => by rw [hlen]; exact hm.valid A j c h, hm.empty, hm.arr,
        hm.len, hm.nodup, hm.kept⟩
      ok := hg hg'
      lock := by rw [hlock]
      sum := ?_
      grows := ⟨fun _ _ _ h => h, le_refl _, fun _ _ => rfl, by rw [hlen], ?_⟩
      same := fun _ => ⟨rfl, rfl⟩
      inst := fun _ h => Or.inl h
      owned := fun h => Or.inr (hr h) }
  · have hsum := sum_vals_set m.table m.vals a (wrap64 (old + x)) hm.nodup (hm.mem_table ha) hlt
    have hgetD : m.vals.getD a 0 = old := by
      rw [List.getD_eq_getElem?_getD, hold]
      rfl
    rw [hgetD] at hsum
    show m.base + (m.table.map fun c => (m.vals.set a (wrap64 (old + x))).getD c 0).sum +
      g'.owes ≡ m.base + (m.table.map fun c => m.vals.getD c 0).sum + g.owes [ZMOD 2 ^ 64]
    rw [hsum, ← howes]
    have h1 := wrap64_modEq (old + x)
    have h2 := ((h1.sub_right old).add_left
      (m.base + (m.table.map fun c => m.vals.getD c 0).sum)).add_right g'.owes
    rw [show m.base + (m.table.map fun c => m.vals.getD c 0).sum +
        (wrap64 (old + x) - old) + g'.owes =
      m.base + ((m.table.map fun c => m.vals.getD c 0).sum + (wrap64 (old + x) - old)) +
        g'.owes by ring] at h2
    refine h2.trans ?_
    rw [show m.base + (m.table.map fun c => m.vals.getD c 0).sum + (old + x - old) + g'.owes =
      m.base + (m.table.map fun c => m.vals.getD c 0).sum + (g'.owes + x) by ring]
  · intro c _ hc
    show (m.vals.set a (wrap64 (old + x)))[c]? = m.vals[c]?
    rw [List.getElem?_set]
    have : ¬ a = c := fun h => hc (h ▸ ha)
    rw [if_neg this]

end Garr

namespace Garr

/-- The entry of `accumulate` leads to the head of the loop, with the same `x` and `r`. -/
theorem Goroutine.accumulate_facts (g : Goroutine) (index : Nat) (wu : Bool) (rnd : Nat) :
    (g.accumulate index wu rnd).pc = .loopLoadCells ∧
      (g.accumulate index wu rnd).loc.x = g.loc.x ∧
      (g.accumulate index wu rnd).arg = g.arg ∧ (g.accumulate index wu rnd).calls = g.calls := by
  unfold Goroutine.accumulate
  split_ifs <;> exact ⟨rfl, rfl, rfl, rfl⟩

/-- A goroutine at the head of the loop is consistent with every memory. -/
theorem Goroutine.ok_of_loop {m : Mem} {g : Goroutine} (h : g.pc = .loopLoadCells) :
    g.OK m := by
  unfold Goroutine.OK
  rw [h]
  trivial

/-- A step that leaves the memory alone and goes to the head of the loop from a point
inside a call, without the lock. -/
theorem Goroutine.stepOK_loop {m : Mem} {g g' : Goroutine} (hm : m.OK)
    (hpc : g'.pc = .loopLoadCells) (hx : g'.loc.x = g.loc.x) (harg : g'.arg = g.arg)
    (hcalls : g'.calls = g.calls) (hp : g.pc.pending = true) (hl : g.pc.locked = false) :
    Goroutine.StepOK m g m g' := by
  refine Goroutine.stepOK_keep hm (Goroutine.ok_of_loop hpc) ?_ ?_ ?_
  · unfold Goroutine.holds
    rw [hpc, hl]
    rfl
  · unfold Goroutine.owes
    rw [hpc, hp, hx, harg, hcalls]
    rfl
  · intro h
    rw [hpc] at h
    exact absurd h (by decide)

/-- The step at `idle`. -/
theorem Goroutine.step_idle (mx : Int) (m : Mem) (g : Goroutine) (r1 r2 : Nat) (hm : m.OK)
    (hpc : g.pc = .idle) :
    Goroutine.StepOK m g (g.step mx m r1 r2).1 (g.step mx m r1 r2).2 := by
  obtain ⟨arg, calls, pc, loc⟩ := g
  simp only at hpc
  subst hpc
  cases calls with
  | zero =>
    exact Goroutine.stepOK_keep hm (by simp [Goroutine.OK, Goroutine.step]) rfl rfl
      (fun h => absurd h (by simp [Goroutine.step, Pc.hasR]))
  | succ k =>
    cases hc : m.cells with
    | none =>
      simp only [Goroutine.step, hc]
      refine Goroutine.stepOK_keep hm (by simp [Goroutine.OK]) rfl ?_
        (fun h => absurd h (by simp [Pc.hasR]))
      simp only [Goroutine.owes, Pc.pending]
      push_cast
      simp
      ring
    | some as =>
      have hlen := hm.len as hc
      have harr := hm.arr as hc
      simp only [Goroutine.step, hc]
      rw [if_neg (by omega)]
      refine Goroutine.stepOK_keep hm ?_ rfl ?_ (fun h => absurd h (by simp [Pc.hasR]))
      · simp only [Goroutine.OK, Goroutine.asOK]
        refine ⟨⟨harr, by omega, hlen.2⟩, ?_⟩
        have := @Nat.and_le_right (r1 % 2 ^ 64) (as.len - 1)
        omega
      · simp only [Goroutine.owes, Pc.pending]
        push_cast
        simp
        ring

/-- The step at `addLoadBase`. -/
theorem Goroutine.step_addLoadBase (mx : Int) (m : Mem) (g : Goroutine) (r1 r2 : Nat)
    (hm : m.OK) (hpc : g.pc = .addLoadBase) :
    Goroutine.StepOK m g (g.step mx m r1 r2).1 (g.step mx m r1 r2).2 := by
  obtain ⟨arg, calls, pc, loc⟩ := g
  simp only at hpc
  subst hpc
  simp only [Goroutine.step]
  exact Goroutine.stepOK_keep hm (by simp [Goroutine.OK, Goroutine.assign]) rfl rfl
    (fun h => absurd h (by simp [Goroutine.assign, Pc.hasR]))

/-- The step at `addCasBase`. -/
theorem Goroutine.step_addCasBase (mx : Int) (m : Mem) (g : Goroutine) (r1 r2 : Nat)
    (hm : m.OK) (hpc : g.pc = .addCasBase) :
    Goroutine.StepOK m g (g.step mx m r1 r2).1 (g.step mx m r1 r2).2 := by
  obtain ⟨arg, calls, pc, loc⟩ := g
  simp only at hpc
  subst hpc
  simp only [Goroutine.step]
  split_ifs with h
  · rw [← h]
    exact Goroutine.stepOK_base loc.x hm (by simp [Goroutine.OK, Goroutine.goto]) rfl
      (by simp [Goroutine.owes, Goroutine.goto, Pc.pending])
      (fun h => absurd h (by simp [Goroutine.goto, Pc.hasR]))
  · obtain ⟨h1, h2, h3, h4⟩ := Goroutine.accumulate_facts
      ⟨arg, calls, .addCasBase, loc⟩ (r1 % 2 ^ 64) true r2
    exact Goroutine.stepOK_loop hm h1 h2 h3 h4 rfl rfl

/-- The step at `addLoadSlot`. -/
theorem Goroutine.step_addLoadSlot (mx : Int) (m : Mem) (g : Goroutine) (r1 r2 : Nat)
    (hm : m.OK) (hg : g.OK m) (hpc : g.pc = .addLoadSlot) :
    Goroutine.StepOK m g (g.step mx m r1 r2).1 (g.step mx m r1 r2).2 := by
  obtain ⟨arg, calls, pc, loc⟩ := g
  simp only at hpc
  subst hpc
  simp only [Goroutine.OK, Goroutine.asOK] at hg
  obtain ⟨⟨h1, h2, h3⟩, h4⟩ := hg
  simp only [Goroutine.step, Mem.loadSlot_eq h4 h3]
  cases hs : m.slotAt loc.as.arr loc.probe with
  | none =>
    simp only
    obtain ⟨h1, h2, h3, h4⟩ := Goroutine.accumulate_facts
      ⟨arg, calls, .addLoadSlot, loc⟩ loc.probe true r1
    exact Goroutine.stepOK_loop hm h1 h2 h3 h4 rfl rfl
  | some a =>
    simp only
    exact Goroutine.stepOK_keep hm
      (by simp only [Goroutine.OK, Goroutine.assign]; exact ⟨_, _, hs⟩) rfl rfl
      (fun h => absurd h (by simp [Goroutine.assign, Pc.hasR]))

/-- A cell held by a slot has a value. -/
theorem Mem.OK.vals_of_installed {m : Mem} (hm : m.OK) {a : Nat} (h : m.installed a) :
    ∃ v, m.vals[a]? = some v := by
  obtain ⟨A, j, hs⟩ := h
  have hlt : a < m.vals.length := hm.valid A j a hs
  exact ⟨m.vals[a], List.getElem?_eq_getElem hlt⟩

/-- The step at `addLoadVal`. -/
theorem Goroutine.step_addLoadVal (mx : Int) (m : Mem) (g : Goroutine) (r1 r2 : Nat)
    (hm : m.OK) (hg : g.OK m) (hpc : g.pc = .addLoadVal) :
    Goroutine.StepOK m g (g.step mx m r1 r2).1 (g.step mx m r1 r2).2 := by
  obtain ⟨arg, calls, pc, loc⟩ := g
  simp only at hpc
  subst hpc
  simp only [Goroutine.OK] at hg
  obtain ⟨v, hv⟩ := hm.vals_of_installed hg
  simp only [Goroutine.step, hv]
  exact Goroutine.stepOK_keep hm (by simp only [Goroutine.OK, Goroutine.assign]; exact hg) rfl rfl
    (fun h => absurd h (by simp [Goroutine.assign, Pc.hasR]))

/-- The step at `addCasCell`. -/
theorem Goroutine.step_addCasCell (mx : Int) (m : Mem) (g : Goroutine) (r1 r2 : Nat)
    (hm : m.OK) (hg : g.OK m) (hpc : g.pc = .addCasCell) :
    Goroutine.StepOK m g (g.step mx m r1 r2).1 (g.step mx m r1 r2).2 := by
  obtain ⟨arg, calls, pc, loc⟩ := g
  simp only at hpc
  subst hpc
  simp only [Goroutine.OK] at hg
  obtain ⟨v, hv⟩ := hm.vals_of_installed hg
  simp only [Goroutine.step, hv]
  split_ifs with h
  · subst h
    exact Goroutine.stepOK_val loc.a loc.v loc.x hm hg hv
      (by simp [Goroutine.OK, Goroutine.goto]) (by simp [Goroutine.OK, Goroutine.goto]) rfl
      (by simp [Goroutine.owes, Goroutine.goto, Pc.pending])
      (fun h => absurd h (by simp [Goroutine.goto, Pc.hasR]))
  · obtain ⟨h1, h2, h3, h4⟩ := Goroutine.accumulate_facts
      ⟨arg, calls, .addCasCell, loc⟩ loc.probe false r1
    exact Goroutine.stepOK_loop hm h1 h2 h3 h4 rfl rfl

end Garr

namespace Garr

/-- The statement `collide = false` and the rehash lead to the head of the loop. -/
theorem Goroutine.uncollide_facts (g : Goroutine) :
    g.uncollide.pc = .loopLoadCells ∧ g.uncollide.loc.x = g.loc.x ∧ g.uncollide.arg = g.arg ∧
      g.uncollide.calls = g.calls :=
  ⟨rfl, rfl, rfl, rfl⟩

/-- The rehash leads to the head of the loop. -/
theorem Goroutine.rehash_facts (g : Goroutine) :
    g.rehash.pc = .loopLoadCells ∧ g.rehash.loc.x = g.loc.x ∧ g.rehash.arg = g.arg ∧
      g.rehash.calls = g.calls :=
  ⟨rfl, rfl, rfl, rfl⟩

/-- The step at `loopLoadCells`. -/
theorem Goroutine.step_loopLoadCells (mx : Int) (m : Mem) (g : Goroutine) (r1 r2 : Nat)
    (hm : m.OK) (hpc : g.pc = .loopLoadCells) :
    Goroutine.StepOK m g (g.step mx m r1 r2).1 (g.step mx m r1 r2).2 := by
  obtain ⟨arg, calls, pc, loc⟩ := g
  simp only at hpc
  subst hpc
  cases hc : m.cells with
  | none =>
    simp only [Goroutine.step, hc]
    exact Goroutine.stepOK_keep hm (by simp [Goroutine.OK, Goroutine.goto]) rfl rfl
      (fun h => absurd h (by simp [Goroutine.goto, Pc.hasR]))
  | some as =>
    have hlen := hm.len as hc
    have harr := hm.arr as hc
    simp only [Goroutine.step, hc]
    rw [if_neg (by omega)]
    refine Goroutine.stepOK_keep hm ?_ rfl rfl
      (fun h => absurd h (by simp [Goroutine.assign, Pc.hasR]))
    simp only [Goroutine.OK, Goroutine.assign, Goroutine.asOK]
    exact ⟨harr, by omega, hlen.2⟩

/-- The step at `loopLoadSlot`. -/
theorem Goroutine.step_loopLoadSlot (mx : Int) (m : Mem) (g : Goroutine) (r1 r2 : Nat)
    (hm : m.OK) (hg : g.OK m) (hpc : g.pc = .loopLoadSlot) :
    Goroutine.StepOK m g (g.step mx m r1 r2).1 (g.step mx m r1 r2).2 := by
  obtain ⟨arg, calls, pc, loc⟩ := g
  simp only at hpc
  subst hpc
  simp only [Goroutine.OK, Goroutine.asOK] at hg
  obtain ⟨h1, h2, h3⟩ := hg
  have hj : loc.index &&& (loc.as.len - 1) < loc.as.len := by
    have := @Nat.and_le_right loc.index (loc.as.len - 1)
    omega
  simp only [Goroutine.step, Mem.loadSlot_eq hj h3]
  cases hs : m.slotAt loc.as.arr (loc.index &&& (loc.as.len - 1)) with
  | none =>
    simp only
    exact Goroutine.stepOK_keep hm
      (by simp only [Goroutine.OK, Goroutine.goto, Goroutine.asOK]; exact ⟨h1, h2, h3⟩) rfl rfl
      (fun h => absurd h (by simp [Goroutine.goto, Pc.hasR]))
  | some a =>
    simp only
    split_ifs with hw
    · exact Goroutine.stepOK_loop hm rfl rfl rfl rfl rfl rfl
    · refine Goroutine.stepOK_keep hm ?_ rfl rfl
        (fun h => absurd h (by simp [Goroutine.assign, Pc.hasR]))
      simp only [Goroutine.OK, Goroutine.assign, Goroutine.asOK]
      exact ⟨⟨h1, h2, h3⟩, _, _, hs⟩

/-- The slot of a memory after a cell is created. -/
theorem Mem.slotAt_newCell (m : Mem) (x : Int) (A j : Nat) :
    (m.newCell x).1.slotAt A j = m.slotAt A j := rfl

/-- A memory stays consistent when a cell is created. -/
theorem Mem.OK.newCell {m : Mem} (hm : m.OK) (x : Int) : (m.newCell x).1.OK :=
  { base := hm.base
    valid := fun A j c h => by
      have := hm.valid A j c h
      show c < (m.vals ++ [x]).length
      rw [List.length_append]
      exact Nat.lt_add_right _ this
    empty := hm.empty
    arr := hm.arr
    len := hm.len
    nodup := hm.nodup
    kept := hm.kept }

/-- The exact sum does not change when a cell is created. -/
theorem Mem.OK.total_newCell {m : Mem} (hm : m.OK) (x : Int) : (m.newCell x).1.total = m.total := by
  show m.base + (m.table.map fun c => (m.vals ++ [x]).getD c 0).sum = _
  rw [sum_vals_append _ _ _ fun c hc => hm.table_lt hc]
  rfl

/-- The memory after a cell is created comes after the memory before. -/
theorem Mem.grows_newCell (m : Mem) (x : Int) : m.Grows (m.newCell x).1 :=
  { slots := fun _ _ _ h => h
    arrays := le_refl _
    rows := fun _ _ => rfl
    vals := by
      show m.vals.length ≤ (m.vals ++ [x]).length
      rw [List.length_append]
      exact Nat.le_add_right _ _
    free := fun c hc _ => by
      show (m.vals ++ [x])[c]? = m.vals[c]?
      exact List.getElem?_append_left hc }

/-- The step at `attachBusy1`. -/
theorem Goroutine.step_attachBusy1 (mx : Int) (m : Mem) (g : Goroutine) (r1 r2 : Nat)
    (hm : m.OK) (hg : g.OK m) (hpc : g.pc = .attachBusy1) :
    Goroutine.StepOK m g (g.step mx m r1 r2).1 (g.step mx m r1 r2).2 := by
  obtain ⟨arg, calls, pc, loc⟩ := g
  simp only at hpc
  subst hpc
  simp only [Goroutine.OK] at hg
  simp only [Goroutine.step]
  split_ifs with hb
  · refine
      { mem := hm.newCell loc.x
        ok := ?_
        lock := rfl
        sum := by rw [hm.total_newCell]; exact Int.ModEq.refl _
        grows := Mem.grows_newCell m loc.x
        same := fun _ => ⟨rfl, rfl⟩
        inst := fun _ h => Or.inl h
        owned := fun _ => Or.inl rfl }
    simp only [Goroutine.OK, Goroutine.assign]
    refine ⟨hg, ?_, ?_, ?_⟩
    · show m.vals.length < (m.vals ++ [loc.x]).length
      rw [List.length_append]
      exact Nat.lt_succ_self _
    · show (m.vals ++ [loc.x])[m.vals.length]? = some loc.x
      rw [List.getElem?_append_right (le_refl _)]
      simp
    · rintro ⟨A, j, hs⟩
      have := hm.valid A j _ hs
      exact absurd this (lt_irrefl _)
  · obtain ⟨h1, h2, h3, h4⟩ := Goroutine.uncollide_facts ⟨arg, calls, .attachBusy1, loc⟩
    exact Goroutine.stepOK_loop hm h1 h2 h3 h4 rfl rfl

/-- The step at `attachBusy2`. -/
theorem Goroutine.step_attachBusy2 (mx : Int) (m : Mem) (g : Goroutine) (r1 r2 : Nat)
    (hm : m.OK) (hg : g.OK m) (hpc : g.pc = .attachBusy2) :
    Goroutine.StepOK m g (g.step mx m r1 r2).1 (g.step mx m r1 r2).2 := by
  obtain ⟨arg, calls, pc, loc⟩ := g
  simp only at hpc
  subst hpc
  simp only [Goroutine.OK] at hg
  simp only [Goroutine.step]
  split_ifs with hb
  · exact Goroutine.stepOK_keep hm (by simp only [Goroutine.OK, Goroutine.goto]; exact hg) rfl rfl
      (fun _ => ⟨rfl, rfl⟩)
  · obtain ⟨h1, h2, h3, h4⟩ := Goroutine.uncollide_facts ⟨arg, calls, .attachBusy2, loc⟩
    exact Goroutine.stepOK_loop hm h1 h2 h3 h4 rfl rfl

/-- The step at `attachLock`. -/
theorem Goroutine.step_attachLock (mx : Int) (m : Mem) (g : Goroutine) (r1 r2 : Nat)
    (hm : m.OK) (hg : g.OK m) (hpc : g.pc = .attachLock) :
    Goroutine.StepOK m g (g.step mx m r1 r2).1 (g.step mx m r1 r2).2 := by
  obtain ⟨arg, calls, pc, loc⟩ := g
  simp only at hpc
  subst hpc
  simp only [Goroutine.OK] at hg
  simp only [Goroutine.step]
  split_ifs with hb
  · exact Goroutine.stepOK_busy 1 hm (by simp only [Goroutine.OK, Goroutine.goto]; exact hg)
      (by rw [hb]; rfl) rfl (fun _ => ⟨rfl, rfl⟩)
  · obtain ⟨h1, h2, h3, h4⟩ := Goroutine.uncollide_facts ⟨arg, calls, .attachLock, loc⟩
    exact Goroutine.stepOK_loop hm h1 h2 h3 h4 rfl rfl

/-- The step at `attachCells`. -/
theorem Goroutine.step_attachCells (mx : Int) (m : Mem) (g : Goroutine) (r1 r2 : Nat)
    (hm : m.OK) (hg : g.OK m) (hpc : g.pc = .attachCells) :
    Goroutine.StepOK m g (g.step mx m r1 r2).1 (g.step mx m r1 r2).2 := by
  obtain ⟨arg, calls, pc, loc⟩ := g
  simp only at hpc
  subst hpc
  simp only [Goroutine.OK] at hg
  obtain ⟨hAs, hr⟩ := hg
  obtain ⟨rs, hc⟩ := hm.cells_of_lt hAs.1
  have hlen := hm.len rs hc
  simp only [Goroutine.step, hc]
  rw [if_pos (by omega)]
  refine Goroutine.stepOK_keep hm ?_ rfl rfl (fun _ => ⟨rfl, rfl⟩)
  simp only [Goroutine.OK, Goroutine.assign]
  refine ⟨hr, hc, ?_⟩
  have := @Nat.and_le_right loc.index (rs.len - 1)
  omega

/-- The step at `attachSlot`. -/
theorem Goroutine.step_attachSlot (mx : Int) (m : Mem) (g : Goroutine) (r1 r2 : Nat)
    (hm : m.OK) (hg : g.OK m) (hpc : g.pc = .attachSlot) :
    Goroutine.StepOK m g (g.step mx m r1 r2).1 (g.step mx m r1 r2).2 := by
  obtain ⟨arg, calls, pc, loc⟩ := g
  simp only at hpc
  subst hpc
  simp only [Goroutine.OK] at hg
  obtain ⟨hr, hc, hj⟩ := hg
  have hlen := hm.len loc.rs hc
  simp only [Goroutine.step, Mem.loadSlot_eq hj hlen.2]
  cases hs : m.slotAt loc.rs.arr loc.j with
  | none =>
    simp only
    exact Goroutine.stepOK_keep hm
      (by simp only [Goroutine.OK, Goroutine.goto]; exact ⟨hr, hc, hj, hs⟩) rfl rfl
      (fun _ => ⟨rfl, rfl⟩)
  | some a =>
    simp only
    exact Goroutine.stepOK_keep hm (by simp [Goroutine.OK, Goroutine.goto]) rfl rfl
      (fun h => absurd h (by simp [Goroutine.goto, Pc.hasR]))

/-- A step that releases the lock. -/
theorem Goroutine.stepOK_unlock {m : Mem} {g g' : Goroutine} (hm : m.OK) (hg : g'.OK m)
    (hl : g.pc.locked = true) (hl' : g'.pc.locked = false) (hb : m.cellsBusy = 1)
    (howes : g'.owes = g.owes) (hr : g'.pc.hasR = false) :
    Goroutine.StepOK m g { m with cellsBusy := 0 } g' := by
  refine Goroutine.stepOK_busy 0 hm hg ?_ howes (fun h => absurd h (by rw [hr]; decide))
  unfold Goroutine.holds
  rw [hl, hl', hb]
  rfl

/-- The step at `attachUnlockBreak`. -/
theorem Goroutine.step_attachUnlockBreak (mx : Int) (m : Mem) (g : Goroutine) (r1 r2 : Nat)
    (hm : m.OK) (hb : m.cellsBusy = 1) (hpc : g.pc = .attachUnlockBreak) :
    Goroutine.StepOK m g (g.step mx m r1 r2).1 (g.step mx m r1 r2).2 := by
  obtain ⟨arg, calls, pc, loc⟩ := g
  simp only at hpc
  subst hpc
  simp only [Goroutine.step]
  exact Goroutine.stepOK_unlock hm (by simp [Goroutine.OK, Goroutine.goto]) rfl rfl hb rfl rfl

/-- The step at `attachUnlock`. -/
theorem Goroutine.step_attachUnlock (mx : Int) (m : Mem) (g : Goroutine) (r1 r2 : Nat)
    (hm : m.OK) (hb : m.cellsBusy = 1) (hpc : g.pc = .attachUnlock) :
    Goroutine.StepOK m g (g.step mx m r1 r2).1 (g.step mx m r1 r2).2 := by
  obtain ⟨arg, calls, pc, loc⟩ := g
  simp only at hpc
  subst hpc
  simp only [Goroutine.step]
  exact Goroutine.stepOK_unlock hm (by simp [Goroutine.OK, Goroutine.goto]) rfl rfl hb rfl rfl

end Garr

namespace Garr

/-- The backing arrays after `rs[j].Store(c)`. -/
theorem Mem.row_storeSlot (m : Mem) (rs : Slice) (j c A : Nat) (h : rs.arr < m.arrays.length) :
    (m.storeSlot rs j c).row A =
      if A = rs.arr then (m.row rs.arr).set j (some c) else m.row A := by
  unfold Mem.row Mem.storeSlot
  simp only [List.getD_eq_getElem?_getD, List.getElem?_set]
  by_cases hA : rs.arr = A
  · subst hA
    simp [h, Mem.row, List.getD_eq_getElem?_getD]
  · have : ¬ A = rs.arr := fun hc => hA hc.symm
    simp [hA, this]

/-- The slots after `rs[j].Store(c)`. -/
theorem Mem.slotAt_storeSlot (m : Mem) (rs : Slice) (j c A k : Nat)
    (h : rs.arr < m.arrays.length) (hj : j < (m.row rs.arr).length) :
    (m.storeSlot rs j c).slotAt A k =
      if A = rs.arr ∧ k = j then some c else m.slotAt A k := by
  unfold Mem.slotAt
  rw [Mem.row_storeSlot m rs j c A h]
  by_cases hA : A = rs.arr
  · subst hA
    simp only [if_true, true_and, List.getD_eq_getElem?_getD, List.getElem?_set]
    by_cases hk : j = k
    · subst hk
      simp [hj]
    · have : ¬ k = j := fun hc => hk hc.symm
      simp [hk, this]
  · simp [hA]

/-- The step at `attachStore`: the cell `r` enters the table. -/
theorem Goroutine.step_attachStore (mx : Int) (m : Mem) (g : Goroutine) (r1 r2 : Nat)
    (hm : m.OK) (hg : g.OK m) (hpc : g.pc = .attachStore) :
    Goroutine.StepOK m g (g.step mx m r1 r2).1 (g.step mx m r1 r2).2 := by
  obtain ⟨arg, calls, pc, loc⟩ := g
  simp only at hpc
  subst hpc
  simp only [Goroutine.OK] at hg
  obtain ⟨⟨hr1, hr2, hr3⟩, hc, hj, hs⟩ := hg
  have hlen := hm.len loc.rs hc
  have harr := hm.arr loc.rs hc
  have hjrow : loc.j < (m.row loc.rs.arr).length := by omega
  simp only [Goroutine.step]
  have hslot := fun A k => Mem.slotAt_storeSlot m loc.rs loc.j loc.r A k harr hjrow
  have hrow : ∀ A, ((m.storeSlot loc.rs loc.j loc.r).row A).length = (m.row A).length := by
    intro A
    rw [Mem.row_storeSlot m loc.rs loc.j loc.r A harr]
    split_ifs with hA
    · rw [List.length_set, hA]
    · rfl
  have hcells : (m.storeSlot loc.rs loc.j loc.r).cells = some loc.rs := hc
  have hnone : (m.row loc.rs.arr)[loc.j]? = some none := by
    unfold Mem.slotAt at hs
    rw [List.getElem?_eq_getElem hjrow]
    rw [List.getD_eq_getElem?_getD, List.getElem?_eq_getElem hjrow] at hs
    simpa using hs
  have htable : (m.storeSlot loc.rs loc.j loc.r).table.Perm (loc.r :: m.table) := by
    unfold Mem.table
    rw [hcells, hc]
    simp only
    rw [Mem.row_storeSlot m loc.rs loc.j loc.r _ harr, if_pos rfl]
    exact reduceOption_set_perm _ _ _ hnone
  have hnot : loc.r ∉ m.table := fun h => hr3 (Mem.installed_of_mem_table h)
  have hkeep : ∀ A k c, m.slotAt A k = some c →
      (m.storeSlot loc.rs loc.j loc.r).slotAt A k = some c := by
    intro A k c h
    rw [hslot]
    split_ifs with hAk
    · rw [hAk.1, hAk.2, hs] at h
      exact absurd h (by simp)
    · exact h
  refine
    { mem :=
        { base := hm.base
          valid := ?_
          empty := fun h => by rw [hcells] at h; exact absurd h (by simp)
          arr := fun as h => by
            have := hm.arr as h
            show as.arr < (m.arrays.set _ _).length
            rw [List.length_set]
            exact this
          len := fun as h => by
            rw [hrow]
            exact hm.len as h
          nodup := htable.nodup_iff.2 (List.nodup_cons.2 ⟨hnot, hm.nodup⟩)
          kept := ?_ }
      ok := by simp [Goroutine.OK, Goroutine.goto]
      lock := rfl
      sum := ?_
      grows :=
        { slots := hkeep
          arrays := by
            show m.arrays.length ≤ (m.arrays.set _ _).length
            rw [List.length_set]
          rows := fun A _ => hrow A
          vals := le_refl _
          free := fun _ _ _ => rfl }
      same := fun h => absurd h (by simp [Pc.locked])
      inst := ?_
      owned := fun h => absurd h (by simp [Goroutine.goto, Pc.hasR]) }
  · intro A k c h
    rw [hslot] at h
    split_ifs at h with hAk
    · simp only [Option.some.injEq] at h
      rw [← h]
      exact hr1
    · exact hm.valid A k c h
  · intro as has A k c h
    rw [hcells] at has
    simp only [Option.some.injEq] at has
    subst has
    rw [hslot] at h
    split_ifs at h with hAk
    · simp only [Option.some.injEq] at h
      rw [hAk.2, hslot, if_pos ⟨rfl, rfl⟩, h]
      exact ⟨rfl, hj⟩
    · have := hm.kept loc.rs hc A k c h
      exact ⟨hkeep _ _ _ this.1, this.2⟩
  · have h1 : ((m.storeSlot loc.rs loc.j loc.r).table.map fun c => m.vals.getD c 0).sum =
        ((loc.r :: m.table).map fun c => m.vals.getD c 0).sum :=
      (htable.map _).sum_eq
    have h2 : m.vals.getD loc.r 0 = loc.x := by
      rw [List.getD_eq_getElem?_getD, hr2]
      rfl
    show m.base + ((m.storeSlot loc.rs loc.j loc.r).table.map fun c => m.vals.getD c 0).sum +
        (arg * calls + 0) ≡
      m.base + (m.table.map fun c => m.vals.getD c 0).sum + (arg * calls + loc.x) [ZMOD 2 ^ 64]
    rw [h1, List.map_cons, List.sum_cons, h2]
    rw [show m.base + (loc.x + (m.table.map fun c => m.vals.getD c 0).sum) + (arg * calls + 0) =
      m.base + (m.table.map fun c => m.vals.getD c 0).sum + (arg * calls + loc.x) by ring]
  · rintro c ⟨A, k, h⟩
    rw [hslot] at h
    split_ifs at h with hAk
    · simp only [Option.some.injEq] at h
      exact Or.inr (Or.inr ⟨rfl, h.symm⟩)
    · exact Or.inl ⟨A, k, h⟩

end Garr

namespace Garr

/-- The step at `cellLoadVal`. -/
theorem Goroutine.step_cellLoadVal (mx : Int) (m : Mem) (g : Goroutine) (r1 r2 : Nat)
    (hm : m.OK) (hg : g.OK m) (hpc : g.pc = .cellLoadVal) :
    Goroutine.StepOK m g (g.step mx m r1 r2).1 (g.step mx m r1 r2).2 := by
  obtain ⟨arg, calls, pc, loc⟩ := g
  simp only at hpc
  subst hpc
  simp only [Goroutine.OK] at hg
  obtain ⟨v, hv⟩ := hm.vals_of_installed hg.2
  simp only [Goroutine.step, hv]
  exact Goroutine.stepOK_keep hm (by simp only [Goroutine.OK, Goroutine.assign]; exact hg) rfl rfl
    (fun h => absurd h (by simp [Goroutine.assign, Pc.hasR]))

/-- The step at `cellCas`. -/
theorem Goroutine.step_cellCas (mx : Int) (m : Mem) (g : Goroutine) (r1 r2 : Nat)
    (hm : m.OK) (hg : g.OK m) (hpc : g.pc = .cellCas) :
    Goroutine.StepOK m g (g.step mx m r1 r2).1 (g.step mx m r1 r2).2 := by
  obtain ⟨arg, calls, pc, loc⟩ := g
  simp only at hpc
  subst hpc
  simp only [Goroutine.OK] at hg
  obtain ⟨v, hv⟩ := hm.vals_of_installed hg.2
  simp only [Goroutine.step, hv]
  split_ifs with h h'
  · subst h
    exact Goroutine.stepOK_val loc.a loc.v loc.x hm hg.2 hv
      (by simp [Goroutine.OK, Goroutine.goto]) (by simp [Goroutine.OK, Goroutine.goto]) rfl
      (by simp [Goroutine.owes, Goroutine.goto, Pc.pending])
      (fun h => absurd h (by simp [Goroutine.goto, Pc.hasR]))
  · obtain ⟨h1, h2, h3, h4⟩ := Goroutine.uncollide_facts ⟨arg, calls, .cellCas, loc⟩
    exact Goroutine.stepOK_loop hm h1 h2 h3 h4 rfl rfl
  · exact Goroutine.stepOK_keep hm
      (by simp only [Goroutine.OK, Goroutine.goto]; exact hg.1) rfl rfl
      (fun h => absurd h (by simp [Goroutine.goto, Pc.hasR]))

/-- The step at `staleCells`. -/
theorem Goroutine.step_staleCells (mx : Int) (m : Mem) (g : Goroutine) (r1 r2 : Nat)
    (hm : m.OK) (hg : g.OK m) (hpc : g.pc = .staleCells) :
    Goroutine.StepOK m g (g.step mx m r1 r2).1 (g.step mx m r1 r2).2 := by
  obtain ⟨arg, calls, pc, loc⟩ := g
  simp only at hpc
  subst hpc
  simp only [Goroutine.OK] at hg
  obtain ⟨cur, hc⟩ := hm.cells_of_lt hg.1
  have hlen := hm.len cur hc
  simp only [Goroutine.step, hc]
  rw [if_neg (by omega)]
  split_ifs with h h'
  · obtain ⟨h1, h2, h3, h4⟩ := Goroutine.uncollide_facts ⟨arg, calls, .staleCells, loc⟩
    exact Goroutine.stepOK_loop hm h1 h2 h3 h4 rfl rfl
  · exact Goroutine.stepOK_loop hm rfl rfl rfl rfl rfl rfl
  · exact Goroutine.stepOK_keep hm
      (by simp only [Goroutine.OK, Goroutine.goto]; exact hg) rfl rfl
      (fun h => absurd h (by simp [Goroutine.goto, Pc.hasR]))

/-- The step at `growBusy`. -/
theorem Goroutine.step_growBusy (mx : Int) (m : Mem) (g : Goroutine) (r1 r2 : Nat)
    (hm : m.OK) (hg : g.OK m) (hpc : g.pc = .growBusy) :
    Goroutine.StepOK m g (g.step mx m r1 r2).1 (g.step mx m r1 r2).2 := by
  obtain ⟨arg, calls, pc, loc⟩ := g
  simp only at hpc
  subst hpc
  simp only [Goroutine.OK] at hg
  simp only [Goroutine.step]
  split_ifs with hb
  · exact Goroutine.stepOK_keep hm (by simp only [Goroutine.OK, Goroutine.goto]; exact hg) rfl rfl
      (fun h => absurd h (by simp [Goroutine.goto, Pc.hasR]))
  · obtain ⟨h1, h2, h3, h4⟩ := Goroutine.rehash_facts ⟨arg, calls, .growBusy, loc⟩
    exact Goroutine.stepOK_loop hm h1 h2 h3 h4 rfl rfl

/-- The step at `growLock`. -/
theorem Goroutine.step_growLock (mx : Int) (m : Mem) (g : Goroutine) (r1 r2 : Nat)
    (hm : m.OK) (hg : g.OK m) (hpc : g.pc = .growLock) :
    Goroutine.StepOK m g (g.step mx m r1 r2).1 (g.step mx m r1 r2).2 := by
  obtain ⟨arg, calls, pc, loc⟩ := g
  simp only at hpc
  subst hpc
  simp only [Goroutine.OK] at hg
  simp only [Goroutine.step]
  split_ifs with hb
  · exact Goroutine.stepOK_busy 1 hm (by simp only [Goroutine.OK, Goroutine.goto]; exact hg)
      (by rw [hb]; rfl) rfl (fun h => absurd h (by simp [Goroutine.goto, Pc.hasR]))
  · obtain ⟨h1, h2, h3, h4⟩ := Goroutine.rehash_facts ⟨arg, calls, .growLock, loc⟩
    exact Goroutine.stepOK_loop hm h1 h2 h3 h4 rfl rfl

/-- The step at `growCells`. -/
theorem Goroutine.step_growCells (mx : Int) (m : Mem) (g : Goroutine) (r1 r2 : Nat)
    (hm : m.OK) (hg : g.OK m) (hpc : g.pc = .growCells) :
    Goroutine.StepOK m g (g.step mx m r1 r2).1 (g.step mx m r1 r2).2 := by
  obtain ⟨arg, calls, pc, loc⟩ := g
  simp only at hpc
  subst hpc
  simp only [Goroutine.OK, Goroutine.asOK] at hg
  obtain ⟨rs, hc⟩ := hm.cells_of_lt hg.1
  have hlen := hm.len rs hc
  simp only [Goroutine.step, hc]
  rw [if_neg (by omega)]
  split_ifs with h h'
  · refine Goroutine.stepOK_keep hm ?_ rfl rfl
      (fun h => absurd h (by simp [Goroutine.assign, Pc.hasR]))
    exact (show Goroutine.asOK m _ ∧ Goroutine.growOK m _ from ⟨hg, hc, h, rfl⟩)
  · refine Goroutine.stepOK_keep hm ?_ rfl rfl
      (fun h => absurd h (by simp [Goroutine.assign, Pc.hasR]))
    have hcap : loc.as.len = (m.row loc.as.arr).length := by
      have := hg.2.2
      omega
    exact (show Goroutine.asOK m _ ∧ Goroutine.growOK m _ ∧ Goroutine.copyOK m _ ∧ _ from
      ⟨hg, ⟨hc, h, rfl⟩, ⟨hcap, by simp [Goroutine.assign, Locals.startCopy]⟩, hg.2.1⟩)
  · exact Goroutine.stepOK_keep hm (by simp [Goroutine.OK, Goroutine.assign]) rfl rfl
      (fun h => absurd h (by simp [Goroutine.assign, Pc.hasR]))

/-- The step at `growExtend`: the table is extended to the capacity of its array. -/
theorem Goroutine.step_growExtend (mx : Int) (m : Mem) (g : Goroutine) (r1 r2 : Nat)
    (hm : m.OK) (hg : g.OK m) (hpc : g.pc = .growExtend) :
    Goroutine.StepOK m g (g.step mx m r1 r2).1 (g.step mx m r1 r2).2 := by
  obtain ⟨arg, calls, pc, loc⟩ := g
  simp only at hpc
  subst hpc
  simp only [Goroutine.OK, Goroutine.growOK, Goroutine.asOK] at hg
  obtain ⟨hAs, hc, harr, hn⟩ := hg
  have hlen := hm.len loc.rs hc
  rw [harr] at hn
  simp only [Goroutine.step]
  have htable : (Mem.table { m with cells := some { arr := loc.rs.arr, len := loc.n } }) =
      m.table := by
    unfold Mem.table
    rw [hc]
    rfl
  refine
    { mem :=
        { base := hm.base
          valid := hm.valid
          empty := fun h => absurd h (by simp)
          arr := fun as h => by
            simp only [Option.some.injEq] at h
            subst h
            exact hm.arr loc.rs hc
          len := fun as h => by
            simp only [Option.some.injEq] at h
            subst h
            show 2 ≤ loc.n ∧ loc.n ≤ (m.row loc.rs.arr).length
            omega
          nodup := by rw [htable]; exact hm.nodup
          kept := fun as h A j c hs => by
            simp only [Option.some.injEq] at h
            subst h
            have := hm.kept loc.rs hc A j c hs
            refine ⟨this.1, ?_⟩
            show j < loc.n
            omega }
      ok := by simp [Goroutine.OK, Goroutine.goto]
      lock := rfl
      sum := by
        show m.base + ((Mem.table { m with cells := some { arr := loc.rs.arr, len := loc.n } }).map
          fun c => m.vals.getD c 0).sum + _ ≡ _ [ZMOD 2 ^ 64]
        rw [htable]
        exact Int.ModEq.refl _
      grows := ⟨fun _ _ _ h => h, le_refl _, fun _ _ => rfl, le_refl _, fun _ _ _ => rfl⟩
      same := fun h => absurd h (by simp [Pc.locked])
      inst := fun _ h => Or.inl h
      owned := fun h => absurd h (by simp [Goroutine.goto, Pc.hasR]) }

/-- One more slot copied to the new backing array. -/
theorem take_append_set (row : List (Option Nat)) (i N : Nat) (hi : i < row.length)
    (hN : i < N) :
    (row.take i ++ List.replicate (N - i) none).set i (row.getD i none) =
      row.take (i + 1) ++ List.replicate (N - (i + 1)) none := by
  induction row generalizing i N with
  | nil => simp at hi
  | cons x xs ih =>
    cases i with
    | zero =>
      obtain ⟨k, rfl⟩ : ∃ k, N = k + 1 := ⟨N - 1, by omega⟩
      simp [List.replicate_succ]
    | succ i =>
      obtain ⟨k, rfl⟩ : ∃ k, N = k + 1 := ⟨N - 1, by omega⟩
      simp only [List.length_cons, Nat.add_lt_add_iff_right] at hi
      have := ih i k hi (by omega)
      simp only [List.take_succ_cons, List.cons_append, List.set_cons_succ, List.getD_cons_succ,
        Nat.add_sub_add_right, this]

/-- The step at `growCopy`. -/
theorem Goroutine.step_growCopy (mx : Int) (m : Mem) (g : Goroutine) (r1 r2 : Nat)
    (hm : m.OK) (hg : g.OK m) (hpc : g.pc = .growCopy) :
    Goroutine.StepOK m g (g.step mx m r1 r2).1 (g.step mx m r1 r2).2 := by
  obtain ⟨arg, calls, pc, loc⟩ := g
  simp only at hpc
  subst hpc
  simp only [Goroutine.OK, Goroutine.copyOK, Goroutine.asOK] at hg
  obtain ⟨hAs, hG, ⟨hn, hf⟩, hi⟩ := hg
  simp only [Goroutine.step, Mem.loadSlot_eq hi hAs.2.2]
  have hfresh : loc.fresh.set loc.i (m.slotAt loc.as.arr loc.i) =
      (m.row loc.as.arr).take (loc.i + 1) ++ List.replicate (loc.n * 4 - (loc.i + 1)) none := by
    rw [hf]
    exact take_append_set _ _ _ (by have := hAs.2.2; omega) (by omega)
  have hok : ∀ pc : Pc, pc.locked = true → pc.pending = true → pc.hasR = false →
      Goroutine.OK m (Goroutine.assign ⟨arg, calls, .growCopy, loc⟩
        (fun l => { l with fresh := l.fresh.set l.i (m.slotAt loc.as.arr loc.i), i := l.i + 1 })
        pc) →
      Goroutine.StepOK m ⟨arg, calls, .growCopy, loc⟩ m
        (Goroutine.assign ⟨arg, calls, .growCopy, loc⟩
          (fun l => { l with fresh := l.fresh.set l.i (m.slotAt loc.as.arr loc.i), i := l.i + 1 })
          pc) := by
    intro pc h1 h2 h3 hok
    refine Goroutine.stepOK_keep hm hok ?_ ?_ ?_
    · simp only [Goroutine.holds, Goroutine.assign, h1]
      rfl
    · simp only [Goroutine.owes, Goroutine.assign, h2]
      rfl
    · intro h
      simp only [Goroutine.assign] at h
      rw [h3] at h
      exact absurd h (by decide)
  split_ifs with hlt
  · refine hok .growCopy rfl rfl rfl ?_
    exact (show Goroutine.asOK m _ ∧ Goroutine.growOK m _ ∧ Goroutine.copyOK m _ ∧ _ from
      ⟨hAs, hG, ⟨hn, hfresh⟩, hlt⟩)
  · refine hok .growStore rfl rfl rfl ?_
    exact (show Goroutine.asOK m _ ∧ Goroutine.growOK m _ ∧ Goroutine.copyOK m _ ∧ _ from
      ⟨hAs, hG, ⟨hn, hfresh⟩, by show loc.i + 1 = loc.as.len; omega⟩)

/-- The step at `growUnlock`. -/
theorem Goroutine.step_growUnlock (mx : Int) (m : Mem) (g : Goroutine) (r1 r2 : Nat)
    (hm : m.OK) (hb : m.cellsBusy = 1) (hpc : g.pc = .growUnlock) :
    Goroutine.StepOK m g (g.step mx m r1 r2).1 (g.step mx m r1 r2).2 := by
  obtain ⟨arg, calls, pc, loc⟩ := g
  simp only at hpc
  subst hpc
  simp only [Goroutine.step]
  exact Goroutine.stepOK_unlock hm (by simp [Goroutine.OK, Goroutine.assign]) rfl rfl hb rfl rfl

end Garr

namespace Garr

/-- Empty slots appended to a backing array read as empty slots. -/
theorem getD_append_replicate_none (row : List (Option Nat)) (N k : Nat) :
    (row ++ List.replicate N none).getD k none = row.getD k none := by
  rw [List.getD_eq_getElem?_getD, List.getD_eq_getElem?_getD]
  by_cases hk : k < row.length
  · rw [List.getElem?_append_left hk]
  · rw [List.getElem?_append_right (not_lt.1 hk), List.getElem?_eq_none (not_lt.1 hk)]
    cases h : (List.replicate N (none : Option Nat))[k - row.length]? with
    | none => rfl
    | some o =>
      have := List.mem_iff_getElem?.2 ⟨_, h⟩
      rw [List.mem_replicate] at this
      rw [this.2]
      rfl

/-- A step that stores a copy of the table, on a new backing array, as the table. -/
theorem Goroutine.stepOK_publish {m m' : Mem} {g g' : Goroutine} (fresh : List (Option Nat))
    (as rs : Slice) (n k : Nat) (hm : m.OK) (hc : m.cells = some rs) (harr : as.arr = rs.arr)
    (hn : n = (m.row as.arr).length) (hn0 : 0 < n)
    (hfresh : fresh = m.row as.arr ++ List.replicate k none) (hk : n ≤ k)
    (hbase : m'.base = m.base) (hbusy : m'.cellsBusy = m.cellsBusy)
    (hcells : m'.cells = some ⟨m.arrays.length, n * 2⟩)
    (harrays : m'.arrays = m.arrays ++ [fresh]) (hvals : m'.vals = m.vals)
    (hg : g'.OK m') (hlock : g'.holds = g.holds) (howes : g'.owes = g.owes)
    (hl : g.pc.locked = true) (hr : g'.pc.hasR = false) :
    Goroutine.StepOK m g m' g' := by
  have hrs := hm.len rs hc
  have hrowOld : ∀ A, A < m.arrays.length → m'.row A = m.row A := by
    intro A hA
    unfold Mem.row
    rw [harrays, List.getD_eq_getElem?_getD, List.getD_eq_getElem?_getD,
      List.getElem?_append_left hA]
  have hrowNew : m'.row m.arrays.length = fresh := by
    unfold Mem.row
    rw [harrays, List.getD_eq_getElem?_getD, List.getElem?_append_right (le_refl _)]
    simp
  have hrowOut : ∀ A, m.arrays.length < A → m'.row A = [] := by
    intro A hA
    unfold Mem.row
    rw [harrays, List.getD_eq_getElem?_getD, List.getElem?_eq_none]
    · rfl
    · rw [List.length_append]
      simp only [List.length_singleton]
      omega
  have hfreshD : ∀ j, fresh.getD j none = m.slotAt as.arr j := by
    intro j
    rw [hfresh, getD_append_replicate_none]
    rfl
  have hslotOld : ∀ A j, A < m.arrays.length → m'.slotAt A j = m.slotAt A j := by
    intro A j hA
    unfold Mem.slotAt
    rw [hrowOld A hA]
  have hslotNew : ∀ j, m'.slotAt m.arrays.length j = m.slotAt as.arr j := by
    intro j
    unfold Mem.slotAt
    rw [hrowNew, hfreshD]
    rfl
  have hslot : ∀ A j c, m'.slotAt A j = some c →
      (A < m.arrays.length ∧ m.slotAt A j = some c) ∨
        (A = m.arrays.length ∧ m.slotAt as.arr j = some c) := by
    intro A j c h
    rcases Nat.lt_trichotomy A m.arrays.length with hA | hA | hA
    · rw [hslotOld A j hA] at h
      exact Or.inl ⟨hA, h⟩
    · subst hA
      rw [hslotNew] at h
      exact Or.inr ⟨rfl, h⟩
    · exfalso
      unfold Mem.slotAt at h
      rw [hrowOut A hA] at h
      simp at h
  have hkeep : ∀ A j c, m.slotAt A j = some c → m'.slotAt A j = some c := by
    intro A j c h
    rw [hslotOld A j (Mem.slotAt_lt h).1]
    exact h
  have htable : m'.table = m.table := by
    unfold Mem.table
    rw [hc, hcells]
    simp only
    rw [hrowNew, hfresh, reduceOption_append_none, harr]
  refine
    { mem :=
        { base := by rw [hbase]; exact hm.base
          valid := ?_
          empty := fun h => by rw [hcells] at h; exact absurd h (by simp)
          arr := fun as' h => by
            rw [hcells] at h
            simp only [Option.some.injEq] at h
            subst h
            rw [harrays, List.length_append]
            exact Nat.lt_succ_self _
          len := fun as' h => by
            rw [hcells] at h
            simp only [Option.some.injEq] at h
            subst h
            simp only
            rw [hrowNew, hfresh, List.length_append, List.length_replicate]
            omega
          nodup := by rw [htable]; exact hm.nodup
          kept := ?_ }
      ok := hg
      lock := by rw [hbusy, hlock]
      sum := by
        unfold Mem.total
        rw [htable, hbase, hvals, howes]
      grows :=
        { slots := hkeep
          arrays := by
            rw [harrays, List.length_append]
            exact Nat.le_add_right _ _
          rows := fun A hA => by rw [hrowOld A hA]
          vals := by rw [hvals]
          free := fun _ _ _ => by rw [hvals] }
      same := fun h => absurd h (by rw [hl]; decide)
      inst := ?_
      owned := fun h => absurd h (by rw [hr]; decide) }
  · intro A j c h
    rw [hvals]
    rcases hslot A j c h with ⟨-, h'⟩ | ⟨-, h'⟩
    · exact hm.valid A j c h'
    · exact hm.valid _ j c h'
  · intro as' has A j c h
    rw [hcells] at has
    simp only [Option.some.injEq] at has
    subst has
    simp only
    rw [hslotNew]
    rcases hslot A j c h with ⟨-, h'⟩ | ⟨-, h'⟩
    · have := hm.kept rs hc A j c h'
      rw [← harr] at this hrs
      exact ⟨this.1, by omega⟩
    · have := (Mem.slotAt_lt h').2
      exact ⟨h', by omega⟩
  · rintro c ⟨A, j, h⟩
    rcases hslot A j c h with ⟨-, h'⟩ | ⟨-, h'⟩
    · exact Or.inl ⟨A, j, h'⟩
    · exact Or.inl ⟨_, j, h'⟩

/-- The step at `growStore`: the copy of the table becomes the table. -/
theorem Goroutine.step_growStore (mx : Int) (m : Mem) (g : Goroutine) (r1 r2 : Nat)
    (hm : m.OK) (hg : g.OK m) (hpc : g.pc = .growStore) :
    Goroutine.StepOK m g (g.step mx m r1 r2).1 (g.step mx m r1 r2).2 := by
  obtain ⟨arg, calls, pc, loc⟩ := g
  simp only at hpc
  subst hpc
  simp only [Goroutine.OK, Goroutine.copyOK, Goroutine.asOK, Goroutine.growOK] at hg
  obtain ⟨hAs, ⟨hc, harr, hn⟩, ⟨hlen, hf⟩, hi⟩ := hg
  have hfresh : loc.fresh = m.row loc.as.arr ++ List.replicate (loc.n * 4 - loc.i) none := by
    rw [hf, List.take_of_length_le (by omega)]
  simp only [Goroutine.step, Mem.newArray]
  exact Goroutine.stepOK_publish loc.fresh loc.as loc.rs loc.n (loc.n * 4 - loc.i) hm hc harr hn
    (by omega) hfresh (by omega) rfl rfl rfl rfl rfl (by simp [Goroutine.OK, Goroutine.goto])
    rfl rfl rfl rfl

/-- The step at `initBusy`. -/
theorem Goroutine.step_initBusy (mx : Int) (m : Mem) (g : Goroutine) (r1 r2 : Nat)
    (hm : m.OK) (hpc : g.pc = .initBusy) :
    Goroutine.StepOK m g (g.step mx m r1 r2).1 (g.step mx m r1 r2).2 := by
  obtain ⟨arg, calls, pc, loc⟩ := g
  simp only at hpc
  subst hpc
  simp only [Goroutine.step]
  split_ifs with hb
  · exact Goroutine.stepOK_keep hm (by simp [Goroutine.OK, Goroutine.goto]) rfl rfl
      (fun h => absurd h (by simp [Goroutine.goto, Pc.hasR]))
  · exact Goroutine.stepOK_keep hm (by simp [Goroutine.OK, Goroutine.goto]) rfl rfl
      (fun h => absurd h (by simp [Goroutine.goto, Pc.hasR]))

/-- The step at `initCells`. -/
theorem Goroutine.step_initCells (mx : Int) (m : Mem) (g : Goroutine) (r1 r2 : Nat)
    (hm : m.OK) (hpc : g.pc = .initCells) :
    Goroutine.StepOK m g (g.step mx m r1 r2).1 (g.step mx m r1 r2).2 := by
  obtain ⟨arg, calls, pc, loc⟩ := g
  simp only at hpc
  subst hpc
  simp only [Goroutine.step]
  split_ifs with hb
  · exact Goroutine.stepOK_keep hm (by simp [Goroutine.OK, Goroutine.goto]) rfl rfl
      (fun h => absurd h (by simp [Goroutine.goto, Pc.hasR]))
  · exact Goroutine.stepOK_keep hm (by simp [Goroutine.OK, Goroutine.goto]) rfl rfl
      (fun h => absurd h (by simp [Goroutine.goto, Pc.hasR]))

/-- The step at `initLock`. -/
theorem Goroutine.step_initLock (mx : Int) (m : Mem) (g : Goroutine) (r1 r2 : Nat)
    (hm : m.OK) (hpc : g.pc = .initLock) :
    Goroutine.StepOK m g (g.step mx m r1 r2).1 (g.step mx m r1 r2).2 := by
  obtain ⟨arg, calls, pc, loc⟩ := g
  simp only at hpc
  subst hpc
  simp only [Goroutine.step]
  split_ifs with hb
  · exact Goroutine.stepOK_busy 1 hm (by simp [Goroutine.OK, Goroutine.goto])
      (by rw [hb]; rfl) rfl (fun h => absurd h (by simp [Goroutine.goto, Pc.hasR]))
  · exact Goroutine.stepOK_keep hm (by simp [Goroutine.OK, Goroutine.goto]) rfl rfl
      (fun h => absurd h (by simp [Goroutine.goto, Pc.hasR]))

/-- The step at `initRecheck`. -/
theorem Goroutine.step_initRecheck (mx : Int) (m : Mem) (g : Goroutine) (r1 r2 : Nat)
    (hm : m.OK) (hpc : g.pc = .initRecheck) :
    Goroutine.StepOK m g (g.step mx m r1 r2).1 (g.step mx m r1 r2).2 := by
  obtain ⟨arg, calls, pc, loc⟩ := g
  simp only at hpc
  subst hpc
  simp only [Goroutine.step]
  split_ifs with hb
  · exact Goroutine.stepOK_keep hm (by simp only [Goroutine.OK, Goroutine.goto]; exact hb) rfl
      rfl (fun h => absurd h (by simp [Goroutine.goto, Pc.hasR]))
  · exact Goroutine.stepOK_keep hm (by simp [Goroutine.OK, Goroutine.goto]) rfl rfl
      (fun h => absurd h (by simp [Goroutine.goto, Pc.hasR]))

/-- A step that stores the first table, with one new cell holding `x`. -/
theorem Goroutine.stepOK_init {m m' : Mem} {g g' : Goroutine} (idx : Nat) (x : Int)
    (hidx : idx ≤ 1) (hm : m.OK) (hnone : m.cells = none)
    (hbase : m'.base = m.base) (hbusy : m'.cellsBusy = m.cellsBusy)
    (hcells : m'.cells = some ⟨0, 2⟩)
    (harrays : m'.arrays = [(List.replicate 4 none).set idx (some m.vals.length)])
    (hvals : m'.vals = m.vals ++ [x])
    (hg : g'.OK m') (hlock : g'.holds = g.holds) (howes : g'.owes + x = g.owes)
    (hl : g.pc.locked = true) (hr : g'.pc.hasR = false) :
    Goroutine.StepOK m g m' g' := by
  have harrays0 := hm.empty hnone
  have hrow0 : ∀ j c,
      ((List.replicate 4 (none : Option Nat)).set idx (some m.vals.length)).getD j none =
        some c → j = idx ∧ c = m.vals.length := by
    intro j c h
    rw [List.getD_eq_getElem?_getD, List.getElem?_set] at h
    split_ifs at h with h1 h2
    · simp only [Option.getD_some, Option.some.injEq] at h
      exact ⟨h1.symm, h.symm⟩
    · simp at h
    · cases h3 : (List.replicate 4 (none : Option Nat))[j]? with
      | none => rw [h3] at h; simp at h
      | some o =>
        have := List.mem_iff_getElem?.2 ⟨_, h3⟩
        rw [List.mem_replicate] at this
        rw [h3, this.2] at h
        simp at h
  have hrowNew : m'.row 0 = (List.replicate 4 none).set idx (some m.vals.length) := by
    unfold Mem.row
    rw [harrays]
    rfl
  have hslot : ∀ A j c, m'.slotAt A j = some c → A = 0 ∧ j = idx ∧ c = m.vals.length := by
    intro A j c h
    have hA := (Mem.slotAt_lt h).1
    rw [harrays] at hA
    simp only [List.length_singleton, Nat.lt_one_iff] at hA
    subst hA
    unfold Mem.slotAt at h
    rw [hrowNew] at h
    exact ⟨rfl, hrow0 j c h⟩
  have hnew : m'.slotAt 0 idx = some m.vals.length := by
    unfold Mem.slotAt
    rw [hrowNew, List.getD_eq_getElem?_getD, List.getElem?_set]
    have : idx < 4 := by omega
    simp [this]
  have htable : m'.table = [m.vals.length] := by
    unfold Mem.table
    rw [hcells]
    simp only
    rw [hrowNew]
    exact reduceOption_first _ _ hidx
  have htable0 : m.table = [] := by
    unfold Mem.table
    rw [hnone]
  have hnoslot : ∀ A j c, m.slotAt A j = some c → False := by
    intro A j c h
    have := (Mem.slotAt_lt h).1
    rw [harrays0] at this
    simp at this
  refine
    { mem :=
        { base := by rw [hbase]; exact hm.base
          valid := fun A j c h => by
            rw [(hslot A j c h).2.2, hvals, List.length_append]
            exact Nat.lt_succ_self _
          empty := fun h => by rw [hcells] at h; exact absurd h (by simp)
          arr := fun as h => by
            rw [hcells] at h
            simp only [Option.some.injEq] at h
            subst h
            rw [harrays]
            simp
          len := fun as h => by
            rw [hcells] at h
            simp only [Option.some.injEq] at h
            subst h
            refine ⟨le_refl _, ?_⟩
            simp only
            rw [hrowNew, List.length_set, List.length_replicate]
            norm_num
          nodup := by rw [htable]; exact List.nodup_singleton _
          kept := fun as h A j c hs => by
            rw [hcells] at h
            simp only [Option.some.injEq] at h
            subst h
            obtain ⟨-, hj, hc'⟩ := hslot A j c hs
            rw [hj, hc']
            exact ⟨hnew, by show idx < 2; omega⟩ }
      ok := hg
      lock := by rw [hbusy, hlock]
      sum := ?_
      grows :=
        { slots := fun A j c h => (hnoslot A j c h).elim
          arrays := by rw [harrays0]; simp
          rows := fun A hA => by rw [harrays0] at hA; simp at hA
          vals := by
            rw [hvals, List.length_append]
            exact Nat.le_add_right _ _
          free := fun c hc _ => by
            rw [hvals]
            exact List.getElem?_append_left hc }
      same := fun h => absurd h (by rw [hl]; decide)
      inst := fun c ⟨A, j, h⟩ => Or.inr (Or.inl (hslot A j c h).2.2)
      owned := fun h => absurd h (by rw [hr]; decide) }
  unfold Mem.total
  rw [htable, htable0, hbase, hvals, ← howes]
  have : (m.vals ++ [x]).getD m.vals.length 0 = x := by
    rw [List.getD_eq_getElem?_getD, List.getElem?_append_right (le_refl _)]
    simp
  simp only [List.map_cons, List.map_nil, List.sum_cons, List.sum_nil, this]
  rw [show m.base + (x + 0) + g'.owes = m.base + 0 + (g'.owes + x) by ring]

/-- The step at `initStore`: the first table, with one cell. -/
theorem Goroutine.step_initStore (mx : Int) (m : Mem) (g : Goroutine) (r1 r2 : Nat)
    (hm : m.OK) (hg : g.OK m) (hpc : g.pc = .initStore) :
    Goroutine.StepOK m g (g.step mx m r1 r2).1 (g.step mx m r1 r2).2 := by
  obtain ⟨arg, calls, pc, loc⟩ := g
  simp only at hpc
  subst hpc
  simp only [Goroutine.OK] at hg
  have harrays := hm.empty hg
  simp only [Goroutine.step, Mem.newArray, Mem.newCell, harrays, List.nil_append,
    List.length_nil]
  exact Goroutine.stepOK_init (loc.index &&& 1) loc.x Nat.and_le_right hm hg rfl rfl rfl rfl rfl
    (by simp [Goroutine.OK, Goroutine.goto]) rfl
    (by simp [Goroutine.owes, Goroutine.goto, Pc.pending]) rfl rfl

/-- The step at `initUnlockBreak`. -/
theorem Goroutine.step_initUnlockBreak (mx : Int) (m : Mem) (g : Goroutine) (r1 r2 : Nat)
    (hm : m.OK) (hb : m.cellsBusy = 1) (hpc : g.pc = .initUnlockBreak) :
    Goroutine.StepOK m g (g.step mx m r1 r2).1 (g.step mx m r1 r2).2 := by
  obtain ⟨arg, calls, pc, loc⟩ := g
  simp only at hpc
  subst hpc
  simp only [Goroutine.step]
  exact Goroutine.stepOK_unlock hm (by simp [Goroutine.OK, Goroutine.goto]) rfl rfl hb rfl rfl

/-- The step at `initUnlock`. -/
theorem Goroutine.step_initUnlock (mx : Int) (m : Mem) (g : Goroutine) (r1 r2 : Nat)
    (hm : m.OK) (hb : m.cellsBusy = 1) (hpc : g.pc = .initUnlock) :
    Goroutine.StepOK m g (g.step mx m r1 r2).1 (g.step mx m r1 r2).2 := by
  obtain ⟨arg, calls, pc, loc⟩ := g
  simp only at hpc
  subst hpc
  simp only [Goroutine.step]
  exact Goroutine.stepOK_unlock hm (by simp [Goroutine.OK, Goroutine.goto]) rfl rfl hb rfl rfl

/-- The step at `baseLoad`. -/
theorem Goroutine.step_baseLoad (mx : Int) (m : Mem) (g : Goroutine) (r1 r2 : Nat)
    (hm : m.OK) (hpc : g.pc = .baseLoad) :
    Goroutine.StepOK m g (g.step mx m r1 r2).1 (g.step mx m r1 r2).2 := by
  obtain ⟨arg, calls, pc, loc⟩ := g
  simp only at hpc
  subst hpc
  simp only [Goroutine.step]
  exact Goroutine.stepOK_keep hm (by simp [Goroutine.OK, Goroutine.assign]) rfl rfl
    (fun h => absurd h (by simp [Goroutine.assign, Pc.hasR]))

/-- The step at `baseCas`. -/
theorem Goroutine.step_baseCas (mx : Int) (m : Mem) (g : Goroutine) (r1 r2 : Nat)
    (hm : m.OK) (hpc : g.pc = .baseCas) :
    Goroutine.StepOK m g (g.step mx m r1 r2).1 (g.step mx m r1 r2).2 := by
  obtain ⟨arg, calls, pc, loc⟩ := g
  simp only at hpc
  subst hpc
  simp only [Goroutine.step]
  split_ifs with h
  · rw [← h]
    exact Goroutine.stepOK_base loc.x hm (by simp [Goroutine.OK, Goroutine.goto]) rfl
      (by simp [Goroutine.owes, Goroutine.goto, Pc.pending])
      (fun h => absurd h (by simp [Goroutine.goto, Pc.hasR]))
  · exact Goroutine.stepOK_loop hm rfl rfl rfl rfl rfl rfl

/-- Every step of a consistent goroutine on a consistent memory keeps what `StepOK`
lists; a goroutine that holds the lock runs with `cellsBusy = 1`. -/
theorem Goroutine.step_ok (mx : Int) (m : Mem) (g : Goroutine) (r1 r2 : Nat) (hm : m.OK)
    (hg : g.OK m) (hl : g.pc.locked = true → m.cellsBusy = 1) :
    Goroutine.StepOK m g (g.step mx m r1 r2).1 (g.step mx m r1 r2).2 := by
  cases hpc : g.pc with
  | idle => exact Goroutine.step_idle mx m g r1 r2 hm hpc
  | addLoadBase => exact Goroutine.step_addLoadBase mx m g r1 r2 hm hpc
  | addCasBase => exact Goroutine.step_addCasBase mx m g r1 r2 hm hpc
  | addLoadSlot => exact Goroutine.step_addLoadSlot mx m g r1 r2 hm hg hpc
  | addLoadVal => exact Goroutine.step_addLoadVal mx m g r1 r2 hm hg hpc
  | addCasCell => exact Goroutine.step_addCasCell mx m g r1 r2 hm hg hpc
  | loopLoadCells => exact Goroutine.step_loopLoadCells mx m g r1 r2 hm hpc
  | loopLoadSlot => exact Goroutine.step_loopLoadSlot mx m g r1 r2 hm hg hpc
  | attachBusy1 => exact Goroutine.step_attachBusy1 mx m g r1 r2 hm hg hpc
  | attachBusy2 => exact Goroutine.step_attachBusy2 mx m g r1 r2 hm hg hpc
  | attachLock => exact Goroutine.step_attachLock mx m g r1 r2 hm hg hpc
  | attachCells => exact Goroutine.step_attachCells mx m g r1 r2 hm hg hpc
  | attachSlot => exact Goroutine.step_attachSlot mx m g r1 r2 hm hg hpc
  | attachStore => exact Goroutine.step_attachStore mx m g r1 r2 hm hg hpc
  | attachUnlockBreak =>
    exact Goroutine.step_attachUnlockBreak mx m g r1 r2 hm (hl (by rw [hpc]; rfl)) hpc
  | attachUnlock =>
    exact Goroutine.step_attachUnlock mx m g r1 r2 hm (hl (by rw [hpc]; rfl)) hpc
  | cellLoadVal => exact Goroutine.step_cellLoadVal mx m g r1 r2 hm hg hpc
  | cellCas => exact Goroutine.step_cellCas mx m g r1 r2 hm hg hpc
  | staleCells => exact Goroutine.step_staleCells mx m g r1 r2 hm hg hpc
  | growBusy => exact Goroutine.step_growBusy mx m g r1 r2 hm hg hpc
  | growLock => exact Goroutine.step_growLock mx m g r1 r2 hm hg hpc
  | growCells => exact Goroutine.step_growCells mx m g r1 r2 hm hg hpc
  | growExtend => exact Goroutine.step_growExtend mx m g r1 r2 hm hg hpc
  | growCopy => exact Goroutine.step_growCopy mx m g r1 r2 hm hg hpc
  | growStore => exact Goroutine.step_growStore mx m g r1 r2 hm hg hpc
  | growUnlock => exact Goroutine.step_growUnlock mx m g r1 r2 hm (hl (by rw [hpc]; rfl)) hpc
  | initBusy => exact Goroutine.step_initBusy mx m g r1 r2 hm hpc
  | initCells => exact Goroutine.step_initCells mx m g r1 r2 hm hpc
  | initLock => exact Goroutine.step_initLock mx m g r1 r2 hm hpc
  | initRecheck => exact Goroutine.step_initRecheck mx m g r1 r2 hm hpc
  | initStore => exact Goroutine.step_initStore mx m g r1 r2 hm hg hpc
  | initUnlockBreak =>
    exact Goroutine.step_initUnlockBreak mx m g r1 r2 hm (hl (by rw [hpc]; rfl)) hpc
  | initUnlock => exact Goroutine.step_initUnlock mx m g r1 r2 hm (hl (by rw [hpc]; rfl)) hpc
  | baseLoad => exact Goroutine.step_baseLoad mx m g r1 r2 hm hpc
  | baseCas => exact Goroutine.step_baseCas mx m g r1 r2 hm hpc
  | panicked =>
    unfold Goroutine.OK at hg
    rw [hpc] at hg
    exact hg.elim

end Garr

namespace Garr

/-- A step writes 0 or 1 to `cellsBusy`, or leaves it alone. -/
theorem Goroutine.step_cellsBusy (mx : Int) (m : Mem) (g : Goroutine) (r1 r2 : Nat) :
    (g.step mx m r1 r2).1.cellsBusy = m.cellsBusy ∨ (g.step mx m r1 r2).1.cellsBusy = 0 ∨
      (g.step mx m r1 r2).1.cellsBusy = 1 := by
  obtain ⟨arg, calls, pc, loc⟩ := g
  cases pc <;> simp only [Goroutine.step] <;> (repeat' split) <;>
    simp [Mem.storeSlot, Mem.newCell, Mem.newArray]

/-- With the same backing arrays the slots are the same. -/
theorem Mem.slotAt_congr {m m' : Mem} (h : m'.arrays = m.arrays) (A j : Nat) :
    m'.slotAt A j = m.slotAt A j := by
  unfold Mem.slotAt Mem.row
  rw [h]

/-- With the same backing arrays the rows are the same. -/
theorem Mem.row_congr {m m' : Mem} (h : m'.arrays = m.arrays) (A : Nat) : m'.row A = m.row A := by
  unfold Mem.row
  rw [h]

/-- The variable `as` stays a slice of a backing array. -/
theorem Goroutine.asOK_grows {m m' : Mem} {u : Goroutine} (hgr : m.Grows m') (h : u.asOK m) :
    u.asOK m' := by
  obtain ⟨h1, h2, h3⟩ := h
  exact ⟨lt_of_lt_of_le h1 hgr.arrays, h2, by rw [hgr.rows _ h1]; exact h3⟩

/-- A cell held by a slot stays held. -/
theorem Mem.installed_grows {m m' : Mem} (hgr : m.Grows m') {c : Nat} (h : m.installed c) :
    m'.installed c := by
  obtain ⟨A, j, hs⟩ := h
  exact ⟨A, j, hgr.slots A j c hs⟩

/-- The cell `r` of a goroutine stays its own while no slot takes it. -/
theorem Goroutine.rOK_grows {m m' : Mem} {u : Goroutine} (hgr : m.Grows m') (h : u.rOK m)
    (hfree : ¬ m'.installed u.loc.r) : u.rOK m' := by
  obtain ⟨h1, h2, h3⟩ := h
  exact ⟨lt_of_lt_of_le h1 hgr.vals, by rw [hgr.free _ h1 h3]; exact h2, hfree⟩

/-- A goroutine that owns a cell `r` satisfies `rOK`. -/
theorem Goroutine.rOK_of_hasR {m : Mem} {u : Goroutine} (h : u.OK m) (hr : u.pc.hasR = true) :
    u.rOK m := by
  obtain ⟨arg, calls, pc, loc⟩ := u
  cases pc <;> simp only [Pc.hasR] at hr <;> first
    | exact absurd hr (by decide)
    | exact (show _ ∧ Goroutine.rOK m _ from h).2
    | exact (show Goroutine.rOK m _ ∧ _ from h).1

/-- The steps of the other goroutines keep a goroutine consistent: the memory only
grows, the table and the backing arrays are left alone while the goroutine holds the
lock, and no slot takes its cell `r`. -/
theorem Goroutine.ok_of_grows {m m' : Mem} {u : Goroutine} (hgr : m.Grows m')
    (hsame : u.pc.locked = true → m'.arrays = m.arrays ∧ m'.cells = m.cells)
    (hfree : u.pc.hasR = true → ¬ m'.installed u.loc.r) (h : u.OK m) : u.OK m' := by
  obtain ⟨arg, calls, pc, loc⟩ := u
  cases pc
  case addLoadSlot => exact ⟨Goroutine.asOK_grows hgr h.1, h.2⟩
  case addLoadVal => exact Mem.installed_grows hgr h
  case addCasCell => exact Mem.installed_grows hgr h
  case loopLoadSlot => exact Goroutine.asOK_grows hgr h
  case attachBusy1 => exact Goroutine.asOK_grows hgr h
  case staleCells => exact Goroutine.asOK_grows hgr h
  case growBusy => exact Goroutine.asOK_grows hgr h
  case growLock => exact Goroutine.asOK_grows hgr h
  case growCells => exact Goroutine.asOK_grows hgr h
  case attachBusy2 =>
    exact ⟨Goroutine.asOK_grows hgr h.1, Goroutine.rOK_grows hgr h.2 (hfree rfl)⟩
  case attachLock =>
    exact ⟨Goroutine.asOK_grows hgr h.1, Goroutine.rOK_grows hgr h.2 (hfree rfl)⟩
  case attachCells =>
    exact ⟨Goroutine.asOK_grows hgr h.1, Goroutine.rOK_grows hgr h.2 (hfree rfl)⟩
  case attachSlot =>
    obtain ⟨h1, h2, h3⟩ := h
    exact ⟨Goroutine.rOK_grows hgr h1 (hfree rfl), by rw [(hsame rfl).2]; exact h2, h3⟩
  case attachStore =>
    obtain ⟨h1, h2, h3, h4⟩ := h
    exact ⟨Goroutine.rOK_grows hgr h1 (hfree rfl), by rw [(hsame rfl).2]; exact h2, h3,
      by rw [Mem.slotAt_congr (hsame rfl).1]; exact h4⟩
  case cellLoadVal => exact ⟨Goroutine.asOK_grows hgr h.1, Mem.installed_grows hgr h.2⟩
  case cellCas => exact ⟨Goroutine.asOK_grows hgr h.1, Mem.installed_grows hgr h.2⟩
  case growExtend =>
    obtain ⟨h1, h2, h3, h4⟩ := h
    exact ⟨Goroutine.asOK_grows hgr h1, by rw [(hsame rfl).2]; exact h2, h3,
      by rw [Mem.row_congr (hsame rfl).1]; exact h4⟩
  case growCopy =>
    obtain ⟨h1, ⟨h2, h3, h4⟩, ⟨h5, h6⟩, h7⟩ := h
    exact ⟨Goroutine.asOK_grows hgr h1,
      ⟨by rw [(hsame rfl).2]; exact h2, h3, by rw [Mem.row_congr (hsame rfl).1]; exact h4⟩,
      ⟨h5, by rw [Mem.row_congr (hsame rfl).1]; exact h6⟩, h7⟩
  case growStore =>
    obtain ⟨h1, ⟨h2, h3, h4⟩, ⟨h5, h6⟩, h7⟩ := h
    exact ⟨Goroutine.asOK_grows hgr h1,
      ⟨by rw [(hsame rfl).2]; exact h2, h3, by rw [Mem.row_congr (hsame rfl).1]; exact h4⟩,
      ⟨h5, by rw [Mem.row_congr (hsame rfl).1]; exact h6⟩, h7⟩
  case initStore =>
    show m'.cells = none
    rw [(hsame rfl).2]
    exact h
  case panicked => exact h
  all_goals trivial

/-- The number of locks held by a goroutine is 0 or 1. -/
theorem Goroutine.holds_nonneg (g : Goroutine) : 0 ≤ g.holds := by
  unfold Goroutine.holds
  split_ifs <;> norm_num

/-- A goroutine holds the lock when its number of locks is 1. -/
theorem Goroutine.holds_eq_one {g : Goroutine} (h : g.pc.locked = true) : g.holds = 1 := by
  unfold Goroutine.holds
  rw [if_pos h]

/-- A goroutine without the lock holds 0 locks. -/
theorem Goroutine.holds_eq_zero {g : Goroutine} (h : g.pc.locked = false) : g.holds = 0 := by
  unfold Goroutine.holds
  rw [h]
  rfl

/-- The invariant of the runs is kept by every step. -/
theorem World.inv_step (mx : Int) (total : Int) (w : World) (t r1 r2 : Nat)
    (h : w.Inv total) : (w.step mx t r1 r2).Inv total := by
  unfold World.step
  cases hgt : w.gs[t]? with
  | none => exact h
  | some g =>
    simp only
    have hg := h.gs t g hgt
    have hholds : g.holds ≤ w.mem.cellsBusy := by
      rw [h.lock]
      exact le_sum_of_getElem? Goroutine.holds Goroutine.holds_nonneg w.gs t g hgt
    have hl : g.pc.locked = true → w.mem.cellsBusy = 1 := by
      intro hlk
      have := Goroutine.holds_eq_one hlk
      have := h.busy
      omega
    have S := Goroutine.step_ok mx w.mem g r1 r2 h.mem hg hl
    have hget : ∀ u h', (w.gs.set t (g.step mx w.mem r1 r2).2)[u]? = some h' →
        (u = t ∧ h' = (g.step mx w.mem r1 r2).2) ∨ (u ≠ t ∧ w.gs[u]? = some h') := by
      intro u h' hu
      by_cases h1 : t = u
      · subst h1
        have hlt : t < w.gs.length := by
          by_contra hc
          rw [List.getElem?_eq_none (not_lt.1 hc)] at hgt
          exact absurd hgt (by simp)
        rw [List.getElem?_set_eq hlt] at hu
        simp only [Option.some.injEq] at hu
        exact Or.inl ⟨rfl, hu.symm⟩
      · rw [List.getElem?_set_ne h1] at hu
        exact Or.inr ⟨fun hc => h1 hc.symm, hu⟩
    -- a goroutine other than `t` keeps its cell `r` out of the slots
    have hother : ∀ u h', u ≠ t → w.gs[u]? = some h' → h'.pc.hasR = true →
        ¬ (g.step mx w.mem r1 r2).1.installed h'.loc.r := by
      intro u h' hut hu hr hinst
      have hrOK := Goroutine.rOK_of_hasR (h.gs u h' hu) hr
      rcases S.inst _ hinst with h1 | h1 | ⟨h1, h2⟩
      · exact hrOK.2.2 h1
      · have := hrOK.1
        omega
      · exact h.owned u t h' g hu hgt hut hr h1 h2
    refine
      { mem := S.mem
        gs := ?_
        lock := ?_
        busy := ?_
        owned := ?_
        sum := ?_ }
    · intro u h' hu
      rcases hget u h' hu with ⟨-, rfl⟩ | ⟨hut, hu'⟩
      · exact S.ok
      · refine Goroutine.ok_of_grows S.grows ?_ (hother u h' hut hu') (h.gs u h' hu')
        intro hlk
        refine S.same ?_
        have h2 := add_le_sum_of_getElem? Goroutine.holds Goroutine.holds_nonneg w.gs u t h' g
          hu' hgt hut
        rw [← h.lock, Goroutine.holds_eq_one hlk] at h2
        have h3 := h.busy
        cases hb : g.pc.locked with
        | false => rfl
        | true =>
          have := Goroutine.holds_eq_one hb
          omega
    · show (g.step mx w.mem r1 r2).1.cellsBusy = _
      rw [sum_map_set Goroutine.holds w.gs t g _ hgt, ← h.lock]
      have := S.lock
      omega
    · have := Goroutine.step_cellsBusy mx w.mem g r1 r2
      have := h.busy
      show (g.step mx w.mem r1 r2).1.cellsBusy ≤ 1
      omega
    · intro a b ga gb ha hb hab hra hrb
      rcases hget a ga ha with ⟨rfl, rfl⟩ | ⟨hat, ha'⟩
      · rcases hget b gb hb with ⟨rfl, -⟩ | ⟨hbt, hb'⟩
        · exact absurd rfl hab
        · have hrOK := Goroutine.rOK_of_hasR (h.gs b gb hb') hrb
          rcases S.owned hra with h1 | ⟨h1, h2⟩
          · rw [h1]
            have := hrOK.1
            omega
          · rw [h2]
            exact h.owned a b g gb hgt hb' hab h1 hrb
      · rcases hget b gb hb with ⟨rfl, rfl⟩ | ⟨hbt, hb'⟩
        · have hrOK := Goroutine.rOK_of_hasR (h.gs a ga ha') hra
          rcases S.owned hrb with h1 | ⟨h1, h2⟩
          · rw [h1]
            have := hrOK.1
            omega
          · rw [h2]
            exact h.owned a b ga g ha' hgt hab hra h1
        · exact h.owned a b ga gb ha' hb' hab hra hrb
    · show (g.step mx w.mem r1 r2).1.total + _ ≡ total [ZMOD 2 ^ 64]
      rw [sum_map_set Goroutine.owes w.gs t g _ hgt]
      have h1 := S.sum.add_right ((w.gs.map Goroutine.owes).sum - g.owes)
      rw [show (g.step mx w.mem r1 r2).1.total + (g.step mx w.mem r1 r2).2.owes +
          ((w.gs.map Goroutine.owes).sum - g.owes) =
        (g.step mx w.mem r1 r2).1.total +
          ((w.gs.map Goroutine.owes).sum + ((g.step mx w.mem r1 r2).2.owes - g.owes)) by ring,
        show w.mem.total + g.owes + ((w.gs.map Goroutine.owes).sum - g.owes) =
          w.mem.total + (w.gs.map Goroutine.owes).sum by ring] at h1
      exact h1.trans h.sum

/-- The invariant of the runs is kept by every run. -/
theorem World.inv_run (mx : Int) (total : Int) (sched : List (Nat × Nat × Nat)) (w : World)
    (h : w.Inv total) : (w.run mx sched).Inv total := by
  induction sched generalizing w with
  | nil => exact h
  | cons c cs ih => exact ih _ (World.inv_step mx total w c.1 c.2.1 c.2.2 h)

/-- The new memory is consistent. -/
theorem Mem.new_ok : Mem.new.OK :=
  { base := by unfold IsInt64; norm_num [Mem.new]
    valid := fun A j c h => by
      have := (Mem.slotAt_lt h).1
      simp [Mem.new] at this
    empty := fun _ => rfl
    arr := fun as h => by simp [Mem.new] at h
    len := fun as h => by simp [Mem.new] at h
    nodup := List.nodup_nil
    kept := fun as h => by simp [Mem.new] at h }

/-- No goroutine holds the lock at the start. -/
theorem holds_init (counts : List Nat) :
    ((counts.map (Goroutine.new 1)).map Goroutine.holds).sum = 0 := by
  induction counts with
  | nil => rfl
  | cons k ks ih =>
    simp only [List.map_cons, List.sum_cons, ih]
    rfl

/-- At the start the goroutines have all their calls of `Inc` to add. -/
theorem owes_init (counts : List Nat) :
    ((counts.map (Goroutine.new 1)).map Goroutine.owes).sum = ((counts.sum : Nat) : Int) := by
  induction counts with
  | nil => rfl
  | cons k ks ih =>
    simp only [List.map_cons, List.sum_cons, ih]
    push_cast
    simp [Goroutine.owes, Goroutine.new, Pc.pending]

/-- The invariant holds at the start, with the number of calls of `Inc` as total. -/
theorem World.inv_init (counts : List Nat) : (World.init counts).Inv (counts.sum : Nat) := by
  have hget : ∀ (t : Nat) (g : Goroutine), (World.init counts).gs[t]? = some g →
      ∃ k, g = Goroutine.new 1 k := by
    intro t g h
    unfold World.init at h
    simp only [List.getElem?_map, Option.map_eq_some'] at h
    obtain ⟨k, -, hk⟩ := h
    exact ⟨k, hk.symm⟩
  refine
    { mem := Mem.new_ok
      gs := fun t g h => by
        obtain ⟨k, rfl⟩ := hget t g h
        trivial
      lock := ?_
      busy := by norm_num [World.init, Mem.new]
      owned := fun t u g h hg hh _ hr _ => by
        obtain ⟨k, rfl⟩ := hget t g hg
        exact absurd hr (by simp [Goroutine.new, Pc.hasR])
      sum := ?_ }
  · show (0 : Int) = ((counts.map (Goroutine.new 1)).map Goroutine.holds).sum
    rw [holds_init]
  · show (0 : Int) + 0 + ((counts.map (Goroutine.new 1)).map Goroutine.owes).sum ≡ _ [ZMOD 2 ^ 64]
    rw [owes_init]
    simp only [zero_add]
    exact Int.ModEq.refl _

/-- When every goroutine has returned from its last call, nothing is left to add. -/
theorem World.owes_of_finished (w : World) (h : w.finished = true) :
    (w.gs.map Goroutine.owes).sum = 0 := by
  unfold World.finished at h
  rw [List.all_eq_true] at h
  have : ∀ g ∈ w.gs, g.owes = 0 := by
    intro g hg
    have := h g hg
    simp only [Bool.and_eq_true, decide_eq_true_eq] at this
    unfold Goroutine.owes
    rw [this.1, this.2]
    simp [Pc.pending]
  generalize w.gs = l at this
  induction l with
  | nil => rfl
  | cons x xs ih =>
    simp only [List.map_cons, List.sum_cons]
    rw [this x (List.mem_cons_self _ _), ih fun g hg => this g (List.mem_cons_of_mem _ hg)]
    rfl

/-- In a world that satisfies the invariant and has finished, `Sum` returns the total,
wrapped; no goroutine has panicked. -/
theorem World.sum_of_inv (total : Int) (w : World) (h : w.Inv total) (hf : w.finished = true) :
    w.mem.Sum = wrap64 total := by
  rw [h.mem.sum_eq]
  have := h.sum
  rw [World.owes_of_finished w hf, add_zero] at this
  exact wrap64_eq_of_modEq this

end Garr

namespace Garr

/-- A run in two parts. -/
theorem World.run_append (mx : Int) (w : World) (s1 s2 : List (Nat × Nat × Nat)) :
    w.run mx (s1 ++ s2) = (w.run mx s1).run mx s2 := by
  unfold World.run
  rw [List.foldl_append]

/-- One step of the goroutine that stands after `pre`. -/
theorem World.step_at (mx : Int) (m : Mem) (pre post : List Goroutine) (g : Goroutine)
    (r1 r2 : Nat) :
    (World.step mx ⟨m, pre ++ g :: post⟩ pre.length r1 r2) =
      ⟨(g.step mx m r1 r2).1, pre ++ (g.step mx m r1 r2).2 :: post⟩ := by
  unfold World.step
  have h2 : ∀ (g' : Goroutine), (pre ++ g :: post).set pre.length g' = pre ++ g' :: post := by
    intro g'
    induction pre with
    | nil => rfl
    | cons x xs ih => simp only [List.cons_append, List.length_cons, List.set_cons_succ, ih]
  have h1 : (pre ++ g :: post)[pre.length]? = some g := by
    rw [List.getElem?_append_right (le_refl _)]
    simp
  simp only [h1, h2]

/-- One call of `Inc` by a goroutine that runs alone while there is no table: three
steps, and `base` is one more. -/
theorem World.solo_call (mx : Int) (m : Mem) (pre post : List Goroutine) (arg : Int) (k : Nat)
    (loc : Locals) (hm : m.cells = none) :
    ∃ m' loc', (World.run mx ⟨m, pre ++ ⟨arg, k + 1, .idle, loc⟩ :: post⟩
        (List.replicate 3 (pre.length, 0, 0))) = ⟨m', pre ++ ⟨arg, k, .idle, loc'⟩ :: post⟩ ∧
      m'.cells = none := by
  refine ⟨{ m with base := wrap64 (m.base + arg) },
    { loc with x := arg, b := m.base }, ?_, hm⟩
  show World.run mx _ [(pre.length, 0, 0), (pre.length, 0, 0), (pre.length, 0, 0)] = _
  simp only [World.run, List.foldl_cons, List.foldl_nil, World.step_at]
  simp [Goroutine.step, hm, Goroutine.assign, Goroutine.goto]

/-- All the calls of a goroutine that runs alone while there is no table. -/
theorem World.solo_calls (mx : Int) (pre post : List Goroutine) (arg : Int) (k : Nat) :
    ∀ (m : Mem) (loc : Locals), m.cells = none →
      ∃ m' loc', (World.run mx ⟨m, pre ++ ⟨arg, k, .idle, loc⟩ :: post⟩
          (List.replicate (3 * k) (pre.length, 0, 0))) = ⟨m', pre ++ ⟨arg, 0, .idle, loc'⟩ :: post⟩ ∧
        m'.cells = none := by
  induction k with
  | zero =>
    intro m loc hm
    exact ⟨m, loc, rfl, hm⟩
  | succ k ih =>
    intro m loc hm
    obtain ⟨m1, loc1, h1, hm1⟩ := World.solo_call mx m pre post arg k loc hm
    obtain ⟨m2, loc2, h2, hm2⟩ := ih m1 loc1 hm1
    refine ⟨m2, loc2, ?_, hm2⟩
    rw [show 3 * (k + 1) = 3 + 3 * k by ring, List.replicate_add, World.run_append, h1, h2]

/-- The goroutines that run one after the other all finish. -/
theorem World.solo_run (mx : Int) (counts : List Nat) :
    ∀ (i : Nat) (m : Mem) (pre : List Goroutine), m.cells = none → pre.length = i →
      (∀ g ∈ pre, g.pc = .idle ∧ g.calls = 0) →
      (World.run mx ⟨m, pre ++ counts.map (Goroutine.new 1)⟩
        ((counts.enumFrom i).map fun p => List.replicate (3 * p.2) (p.1, 0, 0)).flatten).finished =
          true := by
  induction counts with
  | nil =>
    intro i m pre _ _ hpre
    simp only [List.map_nil, List.append_nil, List.enumFrom_nil, List.flatten_nil, World.run,
      List.foldl_nil, World.finished, List.all_eq_true]
    intro g hg
    simp [hpre g hg]
  | cons k ks ih =>
    intro i m pre hm hi hpre
    simp only [List.map_cons, List.enumFrom_cons, List.flatten_cons, World.run_append]
    obtain ⟨m', loc', h1, hm'⟩ := World.solo_calls mx pre (ks.map (Goroutine.new 1)) 1 k m
      Locals.zero hm
    rw [← hi]
    have hnew : Goroutine.new 1 k = ⟨1, k, .idle, Locals.zero⟩ := rfl
    rw [hnew, h1]
    have := ih (pre.length + 1) m' (pre ++ [⟨1, 0, .idle, loc'⟩]) hm' (by simp) (by
      intro g hg
      rcases List.mem_append.1 hg with h | h
      · exact hpre g h
      · simp only [List.mem_singleton] at h
        rw [h]
        exact ⟨rfl, rfl⟩)
    rw [List.append_assoc] at this
    exact this

/-- The schedule `soloSchedule` ends with every goroutine finished. -/
theorem World.solo_finished (mx : Int) (counts : List Nat) :
    ((World.init counts).run mx (soloSchedule counts)).finished = true := by
  have := World.solo_run mx counts 0 Mem.new [] rfl rfl (fun g hg => absurd hg (by simp))
  exact this

/-- No goroutine panics in a run from the start. -/
theorem World.no_panic (mx : Int) (counts : List Nat) (sched : List (Nat × Nat × Nat))
    (g : Goroutine) (hg : g ∈ ((World.init counts).run mx sched).gs) : g.pc ≠ .panicked := by
  have hinv := World.inv_run mx _ sched _ (World.inv_init counts)
  obtain ⟨t, ht⟩ := List.mem_iff_getElem?.1 hg
  have hok := hinv.gs t g ht
  intro hc
  unfold Goroutine.OK at hok
  rw [hc] at hok
  exact hok

/-- After a finished run from the start, `Sum` returns the number of calls of `Inc`,
wrapped to an `int64`. -/
theorem World.sum_of_run (mx : Int) (counts : List Nat) (sched : List (Nat × Nat × Nat))
    (hfin : ((World.init counts).run mx sched).finished = true) :
    ((World.init counts).run mx sched).mem.Sum = wrap64 ((counts.sum : Nat) : Int) :=
  World.sum_of_inv _ _ (World.inv_run mx _ sched _ (World.inv_init counts)) hfin

/-- C30 (amended): for every `N` and every `K`, after `K` goroutines have together
performed `N` calls of `Inc` on one `JDKAdder` (`counts` gives the number of calls of each
goroutine) and all of them have finished, under any interleaving of the atomic operations
(`sched`, also the values drawn by `getRandomInt`) and any `maxCells`, `Sum()` returns `N`
in 64-bit wrap-around arithmetic, which is `N` itself for `N < 2^63`: no increment is
lost. No goroutine panics in any run, and a run in which all goroutines finish exists. -/
theorem jdkAdder_concurrent_sum (mx : Int) (counts : List Nat)
    (sched : List (Nat × Nat × Nat))
    (hfin : ((World.init counts).run mx sched).finished = true) :
    ((World.init counts).run mx sched).mem.Sum = wrap64 ((counts.sum : Nat) : Int) ∧
      (counts.sum < 2 ^ 63 →
        ((World.init counts).run mx sched).mem.Sum = ((counts.sum : Nat) : Int)) ∧
      (∀ sched' : List (Nat × Nat × Nat), ∀ g ∈ ((World.init counts).run mx sched').gs,
        g.pc ≠ .panicked) ∧
      ((World.init counts).run mx (soloSchedule counts)).finished = true := by
  refine ⟨World.sum_of_run mx counts sched hfin, ?_, fun sched' g hg =>
    World.no_panic mx counts sched' g hg, World.solo_finished mx counts⟩
  intro hN
  rw [World.sum_of_run mx counts sched hfin]
  apply wrap64_of_isInt64
  unfold IsInt64
  have : ((counts.sum : Nat) : Int) < 2 ^ 63 := by exact_mod_cast hN
  constructor
  · have : (0 : Int) ≤ ((counts.sum : Nat) : Int) := Int.natCast_nonneg _
    omega
  · exact this

end Garr

namespace Garr

set_option maxRecDepth 100000 in
/-- The run `contendedSchedule` of three goroutines with two calls of `Inc` each: all
finish, with `base = 3` and a table of two cells that hold 1 and 2. -/
theorem contended_run :
    ((World.init [2, 2, 2]).run 64 contendedSchedule).finished = true ∧
      ((World.init [2, 2, 2]).run 64 contendedSchedule).mem =
        { base := 3, cellsBusy := 0, cells := some ⟨0, 2⟩,
          arrays := [[some 1, some 0, none, none]], vals := [2, 1] } :=
  ⟨rfl, rfl⟩

/-- Witness of C30 (amended): three goroutines, two calls of `Inc` each, in the contended
run `contendedSchedule`. -/
theorem jdkAdder_concurrent_sum_witness :
    ((World.init [2, 2, 2]).run 64 contendedSchedule).finished = true ∧
    ((World.init [2, 2, 2]).run 64 contendedSchedule).mem.Sum =
      wrap64 (([2, 2, 2].sum : Nat) : Int) ∧
    ([2, 2, 2].sum < 2 ^ 63 →
      ((World.init [2, 2, 2]).run 64 contendedSchedule).mem.Sum = (([2, 2, 2].sum : Nat) : Int)) ∧
    (∀ sched' : List (Nat × Nat × Nat), ∀ g ∈ ((World.init [2, 2, 2]).run 64 sched').gs,
      g.pc ≠ .panicked) ∧
    ((World.init [2, 2, 2]).run 64 (soloSchedule [2, 2, 2])).finished = true :=
  ⟨contended_run.1, jdkAdder_concurrent_sum 64 [2, 2, 2] contendedSchedule contended_run.1⟩

/-- Counterexample to C30: one goroutine that performs `N = 2^63` calls of `Inc`. A run
in which it finishes exists, and after every such run `Sum()` returns `-2^63`, not `N`. -/
theorem jdkAdder_sum_wraps :
    [2 ^ 63].sum = 2 ^ 63 ∧
    (∃ sched : List (Nat × Nat × Nat), ((World.init [2 ^ 63]).run 64 sched).finished = true) ∧
    (∀ sched : List (Nat × Nat × Nat), ((World.init [2 ^ 63]).run 64 sched).finished = true →
      ((World.init [2 ^ 63]).run 64 sched).mem.Sum = -(2 ^ 63) ∧
        ((World.init [2 ^ 63]).run 64 sched).mem.Sum ≠ (([2 ^ 63].sum : Nat) : Int)) := by
  have hw : wrap64 (([2 ^ 63].sum : Nat) : Int) = -(2 ^ 63) := by
    norm_num [wrap64]
  refine ⟨by norm_num, ⟨soloSchedule [2 ^ 63], World.solo_finished 64 [2 ^ 63]⟩, ?_⟩
  intro sched hfin
  rw [World.sum_of_run 64 [2 ^ 63] sched hfin, hw]
  refine ⟨rfl, ?_⟩
  norm_num

end Garr

namespace Garr

/-- Claim C39: for every `int64` bound greater than 0 and every sequence of values of the
random source, `nextRandomInt64IncludingZero(bound)` returns after a single call of
`randomInt64`, with a single test of its loop (the branch that draws again is never taken:
one unit of fuel is enough), and its result `v` satisfies `0 <= v < bound`; for a bound
that is not positive it returns the bound and the random source is untouched. -/
theorem nextRandomInt64IncludingZero_single_draw (bound : Int) (r : FastRand)
    (hb : IsInt64 bound) :
    (0 < bound → ∀ fuel, ∃ v,
      nextRandomInt64IncludingZero (fuel + 1) bound r = some (v, (randomInt64 r).2) ∧
        (randomInt64 r).2.pos = r.pos + 2 ∧ 0 ≤ v ∧ v < bound) ∧
    (bound ≤ 0 → ∀ fuel, nextRandomInt64IncludingZero fuel bound r = some (bound, r)) := by
  refine ⟨fun h0 fuel => ?_, fun h0 fuel => includingZero_nonpos fuel bound r h0⟩
  obtain ⟨v, hv, h1, h2, -⟩ := includingZero_range fuel bound r h0 hb.2
  exact ⟨v, hv, rfl, h1, h2⟩

/-- The claim C39 at the bounds 10 and 0, with the draws 7 and 5. -/
theorem nextRandomInt64IncludingZero_single_draw_witness :
    IsInt64 10 ∧
    ((0 < (10 : Int) → ∀ fuel, ∃ v,
      nextRandomInt64IncludingZero (fuel + 1) 10 (fastRandOf [7, 5]) =
          some (v, (randomInt64 (fastRandOf [7, 5])).2) ∧
        (randomInt64 (fastRandOf [7, 5])).2.pos = (fastRandOf [7, 5]).pos + 2 ∧
        0 ≤ v ∧ v < 10) ∧
    ((10 : Int) ≤ 0 → ∀ fuel,
      nextRandomInt64IncludingZero fuel 10 (fastRandOf [7, 5]) = some (10, fastRandOf [7, 5]))) :=
  ⟨by decide, nextRandomInt64IncludingZero_single_draw 10 (fastRandOf [7, 5]) (by decide)⟩

end Garr

namespace Garr

/-- Claim C35: an `OnFailure` event reported to a Closed breaker by one goroutine returns,
and the breaker is Open after it exactly when the event publishes a sliding-window
snapshot `c` (the counter returns it and `Count()` is `c` afterwards) with `0 < total`,
`total >= minimumRequestThreshold` and `failureRate > failureRateThreshold`; after every
other `OnFailure` event in Closed state the breaker is Closed. -/
theorem closed_onFailure_open_iff (nb : NonBlockingCircuitBreaker) (sw : SlidingWindowCounter)
    (rt : Runtime) (tk : Ticker) (fuel : Nat) (hcs : nb.s.cs = .Closed)
    (hctr : nb.s.counter = .sliding sw) (hinv : sw.Inv)
    (hf : 2 * sw.reservoir.nodes.length + 4 ≤ fuel) :
    ∃ r sw' rt' nb' tk', sw.OnFailure fuel rt tk = some (r, sw', rt', tk.Tick.2) ∧
      nb.OnFailure fuel rt tk = some (nb', rt', tk') ∧
      (nb'.s.cs = .Open ↔ ∃ c, r = some c ∧ sw'.Count = c ∧ 0 < c.Total ∧
        nb.config.minimumRequestThreshold ≤ c.Total ∧
        F64.lt nb.config.failureRateThreshold c.FailureRate = true) ∧
      (nb'.s.cs ≠ .Open → nb'.s.cs = .Closed) := by
  obtain ⟨r, sw', rt', hev, -, -, -, -, -, -, hsome⟩ :=
    SlidingWindowCounter.onEvent_spec hinv rt tk false hf
  have hev' : sw.OnFailure fuel rt tk = some (r, sw', rt', tk.Tick.2) := hev
  cases r with
  | none =>
    refine ⟨none, sw', rt', _, _, hev', onFailure_closed_none hcs hctr hev', ?_, fun _ => hcs⟩
    constructor
    · intro h
      have h' : nb.s.cs = .Open := h
      rw [hcs] at h'
      cases h'
    · rintro ⟨c, hc, -⟩
      cases hc
  | some c =>
    cases hex : nb.checkIfExceedingFailureThreshold c with
    | true =>
      obtain ⟨nb', hnb, -, hopen⟩ := onFailure_closed_exceeding hcs hctr hev' hex
      refine ⟨some c, sw', rt', nb', _, hev', hnb, ?_, fun h => absurd hopen.1 h⟩
      simp only [NonBlockingCircuitBreaker.checkIfExceedingFailureThreshold, Bool.and_eq_true,
        decide_eq_true_eq] at hex
      exact ⟨fun _ => ⟨c, rfl, hsome c rfl, hex.1.1, hex.1.2, hex.2⟩, fun _ => hopen.1⟩
    | false =>
      obtain ⟨nb', hnb, -, hclosed⟩ := onFailure_closed_within hcs hctr hev' hex
      refine ⟨some c, sw', rt', nb', _, hev', hnb, ?_, fun _ => hclosed⟩
      constructor
      · intro h
        rw [hclosed] at h
        cases h
      · rintro ⟨c1, hc, -, h0, hmin, hrate⟩
        cases hc
        simp [NonBlockingCircuitBreaker.checkIfExceedingFailureThreshold, h0, hmin, hrate] at hex

/-- Witness of C35: the breaker of the circuit-trip scenario (threshold 0.3, at least 19
requests, 7 successes and 13 failures in the current bucket), on which a failure is
reported at tick 100. -/
theorem closed_onFailure_open_iff_witness :
    tripBreaker.s.cs = .Closed ∧ tripBreaker.s.counter = .sliding tripCounter ∧
    tripCounter.Inv ∧ 2 * tripCounter.reservoir.nodes.length + 4 ≤ 10 ∧
    ∃ r sw' rt' nb' tk',
      tripCounter.OnFailure 10 exampleRuntime { tripTicker with pos := 22 } =
        some (r, sw', rt', (Ticker.Tick { tripTicker with pos := 22 }).2) ∧
      tripBreaker.OnFailure 10 exampleRuntime { tripTicker with pos := 22 } =
        some (nb', rt', tk') ∧
      (nb'.s.cs = .Open ↔ ∃ c, r = some c ∧ sw'.Count = c ∧ 0 < c.Total ∧
        tripBreaker.config.minimumRequestThreshold ≤ c.Total ∧
        F64.lt tripBreaker.config.failureRateThreshold c.FailureRate = true) ∧
      (nb'.s.cs ≠ .Open → nb'.s.cs = .Closed) :=
  ⟨rfl, rfl, tripCounter_inv, by decide,
    closed_onFailure_open_iff tripBreaker tripCounter exampleRuntime
      { tripTicker with pos := 22 } 10 rfl rfl tripCounter_inv (by decide)⟩

end Garr

namespace Garr

open JDKLinkedQueue JdkLinkedQueueIter

/-- One event added to a bucket whose adders are those of one goroutine: the call returns
and the bucket afterwards is the bucket with one more event. -/
theorem bucket_add_added (fuel : Nat) {b : Bucket} (rt : Runtime) (succ : Bool)
    (hs : ∃ S, b.s.Tracks S) (hf : ∃ F, b.f.Tracks F) :
    ∃ b1 rt1, b.add fuel rt succ = some (b1, rt1) ∧ b.Added b1 succ ∧
      (∃ S, b1.s.Tracks S) ∧ (∃ F, b1.f.Tracks F) ∧ IsInt64 b.success ∧ IsInt64 b.failure := by
  obtain ⟨S, hS⟩ := hs
  obtain ⟨F, hF⟩ := hf
  have hi1 : IsInt64 b.success := by
    unfold Bucket.success
    rw [tracks_sum hS]
    exact wrap64_isInt64 _
  have hi2 : IsInt64 b.failure := by
    unfold Bucket.failure
    rw [tracks_sum hF]
    exact wrap64_isInt64 _
  cases succ with
  | true =>
    obtain ⟨a1, rt1, h1, h2⟩ := tracks_add fuel rt 1 hS
    refine ⟨{ b with s := a1 }, rt1, by simp [Bucket.add, h1], ⟨rfl, ?_⟩, ⟨_, h2⟩, ⟨_, hF⟩,
      hi1, hi2⟩
    simp only [if_true, Bucket.success, and_true]
    rw [tracks_sum h2, tracks_sum hS, wrap64_add_left]
  | false =>
    obtain ⟨a1, rt1, h1, h2⟩ := tracks_add fuel rt 1 hF
    refine ⟨{ b with f := a1 }, rt1, by simp [Bucket.add, h1], ⟨rfl, ?_⟩, ⟨_, hS⟩, ⟨_, h2⟩,
      hi1, hi2⟩
    simp only [Bool.false_eq_true, if_false, Bucket.failure, and_true]
    rw [tracks_sum h2, tracks_sum hF, wrap64_add_left]

namespace SlidingWindowCounter

/-- One event on a counter used by one goroutine, by cases on the tick: before the current
bucket, an instant bucket with the event is enqueued; within the update interval the
event is added to the current bucket; otherwise a new bucket with the event becomes the
current one, the replaced bucket is enqueued, the buckets older than `tick - window` are
removed from the reservoir and the counts of the others are published. -/
theorem onEvent_cases {s : SlidingWindowCounter} {l : List Bucket} (hinv : Inv s)
    (habs : Abs s.reservoir l) (rt : Runtime) (tk : Ticker) (succ : Bool) {fuel : Nat}
    (hf : 2 * s.reservoir.nodes.length + 4 ≤ fuel) :
    ∃ r s1 rt1 l1 b0 b, onEvent fuel s rt tk succ = some (r, s1, rt1, tk.Tick.2) ∧ Inv s1 ∧
      Abs s1.reservoir l1 ∧ b0.Added b succ ∧ IsInt64 b0.success ∧ IsInt64 b0.failure ∧
      s1.slidingWindowNanos = s.slidingWindowNanos ∧
      s1.updateIntervalNanos = s.updateIntervalNanos ∧
      ((tk.Tick.1 < s.cur.timestamp ∧ b0 = newBucket tk.Tick.1 ∧ r = none ∧ s1.cur = s.cur ∧
          l1 = l ++ [b] ∧ s1.snapshot = s.snapshot) ∨
        (¬ tk.Tick.1 < s.cur.timestamp ∧
          tk.Tick.1 < wrap64 (s.cur.timestamp + s.updateIntervalNanos) ∧ b0 = s.cur ∧
          r = none ∧ s1.cur = b ∧ l1 = l ∧ s1.snapshot = s.snapshot) ∨
        (¬ tk.Tick.1 < s.cur.timestamp ∧
          ¬ tk.Tick.1 < wrap64 (s.cur.timestamp + s.updateIntervalNanos) ∧
          b0 = newBucket tk.Tick.1 ∧ s1.cur = b ∧
          l1 = keptBuckets (wrap64 (tk.Tick.1 - s.slidingWindowNanos)) (l ++ [s.cur]) ∧
          r = some (countOf l1) ∧ s1.snapshot = countOf l1)) := by
  obtain ⟨-, hS, hF, hts⟩ := hinv
  by_cases h1 : tk.Tick.1 < s.cur.timestamp
  · obtain ⟨b, rt1, hadd, hadded, -, -, hi1, hi2⟩ :=
      bucket_add_added fuel rt succ (newBucket_tracks tk.Tick.1).1 (newBucket_tracks tk.Tick.1).2
    obtain ⟨q1, ho, ha, -⟩ := offer_abs habs b (by omega : 2 * s.reservoir.nodes.length ≤ fuel)
    refine ⟨none, { s with reservoir := q1 }, rt1, l ++ [b], newBucket tk.Tick.1, b, ?_,
      ⟨⟨_, ha⟩, hS, hF, hts⟩, ha, hadded, hi1, hi2, rfl, rfl, Or.inl ⟨h1, rfl, rfl, rfl, rfl, rfl⟩⟩
    simp [onEvent, h1, hadd, ho]
  · by_cases h2 : tk.Tick.1 < wrap64 (s.cur.timestamp + s.updateIntervalNanos)
    · obtain ⟨b, rt1, hadd, hadded, hbS, hbF, hi1, hi2⟩ := bucket_add_added fuel rt succ hS hF
      refine ⟨none, { s with cur := b }, rt1, l, s.cur, b, ?_,
        ⟨⟨_, habs⟩, hbS, hbF, by rw [hadded.1]; exact hts⟩, habs, hadded,
        hi1, hi2, rfl, rfl,
        Or.inr (Or.inl ⟨h1, h2, rfl, rfl, rfl, rfl, rfl⟩)⟩
      simp [onEvent, h1, h2, hadd]
    · obtain ⟨b, rt1, hadd, hadded, hbS, hbF, hi1, hi2⟩ :=
        bucket_add_added fuel rt succ (newBucket_tracks tk.Tick.1).1
          (newBucket_tracks tk.Tick.1).2
      have hbi : IsInt64 b.timestamp := by rw [hadded.1]; exact wrap64_isInt64 _
      obtain ⟨q1, ho, ha, hl⟩ := offer_abs habs s.cur
        (by omega : 2 * s.reservoir.nodes.length ≤ fuel)
      obtain ⟨q2, ht, ha2, -⟩ := trimAndSum_spec (s := { s with cur := b, reservoir := q1 })
        ha tk.Tick.1 (by show q1.nodes.length < fuel; omega)
      refine ⟨some (countOf (keptBuckets (wrap64 (tk.Tick.1 - s.slidingWindowNanos))
          (l ++ [s.cur]))),
        { s with cur := b, reservoir := q2,
                 snapshot := countOf (keptBuckets (wrap64 (tk.Tick.1 - s.slidingWindowNanos))
                   (l ++ [s.cur])) },
        rt1, _, newBucket tk.Tick.1, b, ?_, ⟨⟨_, ha2⟩, hbS, hbF, hbi⟩, ha2, hadded, hi1, hi2,
        rfl, rfl,
        Or.inr (Or.inr ⟨h1, h2, rfl, rfl, rfl, rfl, rfl⟩)⟩
      simp only [onEvent, h1, h2, if_false, hadd, cas, if_true, ho]
      rw [ht]
      rfl

/-- A sequence of events on a counter built by `NewSlidingWindowCounter` and used by one
goroutine runs to completion and leaves a counter that satisfies the invariant, with the
same window and update interval, whose reservoir has at most one node for each event. -/
theorem runEvents_new (tk : Ticker) (window ui : Int) (rt : Runtime) (evs : List Bool)
    (fuel : Nat) (hf : 2 * evs.length + 6 ≤ fuel) :
    ∃ rs s rt1 tk1 l,
      runEvents fuel (NewSlidingWindowCounter tk window ui).1 rt
        (NewSlidingWindowCounter tk window ui).2 evs = some (rs, s, rt1, tk1) ∧ Inv s ∧
      Abs s.reservoir l ∧ 2 * s.reservoir.nodes.length + 4 ≤ fuel ∧
      s.slidingWindowNanos = window ∧ s.updateIntervalNanos = ui := by
  obtain ⟨rs, s, rt1, tk1, h1, hinv, hl, hw, hu, -⟩ :=
    runEvents_spec fuel evs _ rt _ (new_inv tk window ui)
      (by simp [NewSlidingWindowCounter, JDKLinkedQueue.new]; omega)
  have hl1 : s.reservoir.nodes.length ≤ 1 + evs.length := by
    simpa [NewSlidingWindowCounter, JDKLinkedQueue.new] using hl
  obtain ⟨l, hl2⟩ := hinv.1
  exact ⟨rs, s, rt1, tk1, l, h1, hinv, hl2, by omega, by rw [hw]; rfl, by rw [hu]; rfl⟩

end SlidingWindowCounter

end Garr

namespace Garr

open JDKLinkedQueue JdkLinkedQueueIter

/-- Claim C38: on a `SlidingWindowCounter` built by `NewSlidingWindowCounter` and used by one
goroutine, for every sequence of ticks (monotonic or not) and after any events, an
`OnSuccess`/`OnFailure` event returns and adds 1 (in `int64`) to the matching adder of
exactly one bucket `b0`, whose other adder and timestamp are untouched: either `b0` is the
current bucket, which stays current while the reservoir is unchanged; or `b0` is a new
bucket which is enqueued in the reservoir behind the buckets already there, the current
bucket being unchanged; or `b0` is a new bucket which becomes the current one, while the
replaced current bucket is enqueued unchanged and the reservoir then keeps exactly its
buckets that are not older than `tick - window`. -/
theorem slidingWindowCounter_event_kept (tk : Ticker) (window ui : Int) (rt : Runtime)
    (evs : List Bool) (succ : Bool) (fuel : Nat) (hf : 2 * evs.length + 6 ≤ fuel) :
    ∃ rs s rt1 tk1 l,
      SlidingWindowCounter.runEvents fuel (NewSlidingWindowCounter tk window ui).1 rt
        (NewSlidingWindowCounter tk window ui).2 evs = some (rs, s, rt1, tk1) ∧
      Abs s.reservoir l ∧
      ∃ r s1 rt2 l1 b0 b,
        SlidingWindowCounter.onEvent fuel s rt1 tk1 succ = some (r, s1, rt2, tk1.Tick.2) ∧
        Abs s1.reservoir l1 ∧ b0.Added b succ ∧
        (b0.success < 2 ^ 63 - 1 → b0.failure < 2 ^ 63 - 1 →
          b.success = b0.success + (if succ = true then 1 else 0) ∧
          b.failure = b0.failure + (if succ = true then 0 else 1)) ∧
        ((b0 = s.cur ∧ s1.cur = b ∧ l1 = l) ∨
          (b0 = newBucket tk1.Tick.1 ∧ s1.cur = s.cur ∧ l1 = l ++ [b]) ∨
          (b0 = newBucket tk1.Tick.1 ∧ s1.cur = b ∧
            l1 = keptBuckets (wrap64 (tk1.Tick.1 - window)) (l ++ [s.cur]))) := by
  obtain ⟨rs, s, rt1, tk1, l, h1, hinv, habs, hfuel, hw, -⟩ :=
    SlidingWindowCounter.runEvents_new tk window ui rt evs fuel hf
  obtain ⟨r, s1, rt2, l1, b0, b, h2, -, habs1, hadd, hi1, hi2, -, -, hcases⟩ :=
    SlidingWindowCounter.onEvent_cases hinv habs rt1 tk1 succ hfuel
  refine ⟨rs, s, rt1, tk1, l, h1, habs, r, s1, rt2, l1, b0, b, h2, habs1, hadd, ?_, ?_⟩
  · intro hs hfl
    obtain ⟨-, hif⟩ := hadd
    cases succ with
    | true =>
      simp only [if_true] at hif ⊢
      refine ⟨?_, ?_⟩
      · rw [hif.1, wrap64_of_isInt64 ⟨by have := hi1.1; omega, by omega⟩]
      · unfold Bucket.failure
        rw [hif.2]
        simp
    | false =>
      simp only [Bool.false_eq_true, if_false] at hif ⊢
      refine ⟨?_, ?_⟩
      · unfold Bucket.success
        rw [hif.2]
        simp
      · rw [hif.1, wrap64_of_isInt64 ⟨by have := hi2.1; omega, by omega⟩]
  · rw [hw] at hcases
    rcases hcases with ⟨-, hb0, -, hc, hl, -⟩ | ⟨-, -, hb0, -, hc, hl, -⟩ | ⟨-, -, hb0, hc, hl, -⟩
    · exact Or.inr (Or.inl ⟨hb0, hc, hl⟩)
    · exact Or.inl ⟨hb0, hc, hl⟩
    · exact Or.inr (Or.inr ⟨hb0, hc, hl⟩)

/-- Witness of C38: a counter created at tick 10 with window 100 and update interval 5, two
events at ticks 11 and 12, then a failure observed at tick 15. -/
theorem slidingWindowCounter_event_kept_witness :
    2 * [true, false].length + 6 ≤ 10 ∧
    ∃ rs s rt1 tk1 l,
      SlidingWindowCounter.runEvents 10
        (NewSlidingWindowCounter (tickerOf [10, 11, 12, 15]) 100 5).1 exampleRuntime
        (NewSlidingWindowCounter (tickerOf [10, 11, 12, 15]) 100 5).2 [true, false] =
          some (rs, s, rt1, tk1) ∧
      Abs s.reservoir l ∧
      ∃ r s1 rt2 l1 b0 b,
        SlidingWindowCounter.onEvent 10 s rt1 tk1 false = some (r, s1, rt2, tk1.Tick.2) ∧
        Abs s1.reservoir l1 ∧ b0.Added b false ∧
        (b0.success < 2 ^ 63 - 1 → b0.failure < 2 ^ 63 - 1 →
          b.success = b0.success + (if false = true then 1 else 0) ∧
          b.failure = b0.failure + (if false = true then 0 else 1)) ∧
        ((b0 = s.cur ∧ s1.cur = b ∧ l1 = l) ∨
          (b0 = newBucket tk1.Tick.1 ∧ s1.cur = s.cur ∧ l1 = l ++ [b]) ∨
          (b0 = newBucket tk1.Tick.1 ∧ s1.cur = b ∧
            l1 = keptBuckets (wrap64 (tk1.Tick.1 - 100)) (l ++ [s.cur]))) :=
  ⟨by decide,
    slidingWindowCounter_event_kept (tickerOf [10, 11, 12, 15]) 100 5 exampleRuntime
      [true, false] false 10 (by decide)⟩

/-- Claim C34: on a `SlidingWindowCounter` built by `NewSlidingWindowCounter` and used by one
goroutine, an event observed at tick `t` that returns a count `c` (a rollover) leaves in the
reservoir exactly the buckets, among those it held and the replaced current bucket enqueued
behind them, whose timestamp is at least `t - window` (an `int64` difference; the integer
difference whenever that is an `int64`); every older bucket is gone from the reservoir; the
success and failure of `c` are the sums (in `int64`) of the success and failure counts of
the buckets kept, and `Count()` returns `c` afterwards. An event that returns nil removes
nothing from the reservoir. -/
theorem slidingWindowCounter_rollover_count (tk : Ticker) (window ui : Int) (rt : Runtime)
    (evs : List Bool) (succ : Bool) (fuel : Nat) (hf : 2 * evs.length + 6 ≤ fuel) :
    ∃ rs s rt1 tk1 l,
      SlidingWindowCounter.runEvents fuel (NewSlidingWindowCounter tk window ui).1 rt
        (NewSlidingWindowCounter tk window ui).2 evs = some (rs, s, rt1, tk1) ∧
      Abs s.reservoir l ∧
      ∃ r s1 rt2 l1,
        SlidingWindowCounter.onEvent fuel s rt1 tk1 succ = some (r, s1, rt2, tk1.Tick.2) ∧
        Abs s1.reservoir l1 ∧
        (r = none → l1 = l ∨ ∃ b, l1 = l ++ [b]) ∧
        ∀ c, r = some c →
          l1 = (l ++ [s.cur]).filter (fun b => decide (wrap64 (tk1.Tick.1 - window) ≤ b.timestamp)) ∧
          (IsInt64 (tk1.Tick.1 - window) →
            l1 = (l ++ [s.cur]).filter (fun b => decide (tk1.Tick.1 - window ≤ b.timestamp))) ∧
          (∀ b ∈ l1, ¬ b.timestamp < wrap64 (tk1.Tick.1 - window)) ∧
          c.success = sumWrap 0 (l1.map Bucket.success) ∧
          c.failure = sumWrap 0 (l1.map Bucket.failure) ∧ s1.Count = c := by
  obtain ⟨rs, s, rt1, tk1, l, h1, hinv, habs, hfuel, hw, -⟩ :=
    SlidingWindowCounter.runEvents_new tk window ui rt evs fuel hf
  obtain ⟨r, s1, rt2, l1, b0, b, h2, -, habs1, -, -, -, -, -, hcases⟩ :=
    SlidingWindowCounter.onEvent_cases hinv habs rt1 tk1 succ hfuel
  rw [hw] at hcases
  refine ⟨rs, s, rt1, tk1, l, h1, habs, r, s1, rt2, l1, h2, habs1, ?_, ?_⟩
  · intro hr
    rcases hcases with ⟨-, -, -, -, hl, -⟩ | ⟨-, -, -, -, -, hl, -⟩ | ⟨-, -, -, -, -, hc, -⟩
    · exact Or.inr ⟨b, hl⟩
    · exact Or.inl hl
    · rw [hr] at hc
      cases hc
  · intro c hc
    rcases hcases with ⟨-, -, hr, -⟩ | ⟨-, -, -, hr, -⟩ | ⟨-, -, -, -, hl, hr, hsnap⟩
    · rw [hr] at hc
      cases hc
    · rw [hr] at hc
      cases hc
    · rw [hr] at hc
      cases hc
      have hfilter : l1 = (l ++ [s.cur]).filter
          (fun b => decide (wrap64 (tk1.Tick.1 - window) ≤ b.timestamp)) := by
        rw [hl]
        unfold keptBuckets
        congr 1
        funext x
        by_cases hx : x.timestamp < wrap64 (tk1.Tick.1 - window)
        · simp [hx]
        · simp [hx, not_lt.1 hx]
      refine ⟨hfilter, fun hi => ?_, ?_, rfl, rfl, hsnap⟩
      · rw [hfilter, wrap64_of_isInt64 hi]
      · intro x hx
        rw [hfilter] at hx
        have := (List.mem_filter.1 hx).2
        simp only [decide_eq_true_eq] at this
        omega

/-- Witness of C34: a counter created at tick 10 with window 100 and update interval 5, two
events at ticks 11 and 12, then a failure observed at tick 15. -/
theorem slidingWindowCounter_rollover_count_witness :
    2 * [true, false].length + 6 ≤ 10 ∧
    ∃ rs s rt1 tk1 l,
      SlidingWindowCounter.runEvents 10
        (NewSlidingWindowCounter (tickerOf [10, 11, 12, 15]) 100 5).1 exampleRuntime
        (NewSlidingWindowCounter (tickerOf [10, 11, 12, 15]) 100 5).2 [true, false] =
          some (rs, s, rt1, tk1) ∧
      Abs s.reservoir l ∧
      ∃ r s1 rt2 l1,
        SlidingWindowCounter.onEvent 10 s rt1 tk1 false = some (r, s1, rt2, tk1.Tick.2) ∧
        Abs s1.reservoir l1 ∧
        (r = none → l1 = l ∨ ∃ b, l1 = l ++ [b]) ∧
        ∀ c, r = some c →
          l1 = (l ++ [s.cur]).filter (fun b => decide (wrap64 (tk1.Tick.1 - 100) ≤ b.timestamp)) ∧
          (IsInt64 (tk1.Tick.1 - 100) →
            l1 = (l ++ [s.cur]).filter (fun b => decide (tk1.Tick.1 - 100 ≤ b.timestamp))) ∧
          (∀ b ∈ l1, ¬ b.timestamp < wrap64 (tk1.Tick.1 - 100)) ∧
          c.success = sumWrap 0 (l1.map Bucket.success) ∧
          c.failure = sumWrap 0 (l1.map Bucket.failure) ∧ s1.Count = c :=
  ⟨by decide,
    slidingWindowCounter_rollover_count (tickerOf [10, 11, 12, 15]) 100 5 exampleRuntime
      [true, false] false 10 (by decide)⟩

end Garr

namespace Garr

namespace Client

variable {β ρ : Type}

/-- The method `exec` when the transport returns a response. -/
theorem exec_response (cb : CircuitBreaker β) (st : DoState β ρ) (ind : Nat)
    (endpoint : Endpoint β) (r : HttpResponse)
    (h : st.client.transport st.client.calls st.req.r.URL = .response r) :
    (exec cb st ind endpoint).2.endpoints =
        st.endpoints.set ind (some { endpoint with breaker := cb.OnSuccess endpoint.breaker }) ∧
      (exec cb st ind endpoint).1 =
        (st.req.onRespHeader.map fun f => f r.StatusCode r.Header).getD .None := by
  simp only [exec, h]
  cases hh : st.req.onRespHeader with
  | none =>
    simp only [Option.map_none', Option.getD_none, ne_eq, not_true_eq_false, if_false]
    repeat' split
    all_goals exact ⟨rfl, rfl⟩
  | some f =>
    simp only [Option.map_some', Option.getD_some]
    by_cases ha : f r.StatusCode r.Header = .None
    · simp only [ha, ne_eq, not_true_eq_false, if_false]
      repeat' split
      all_goals exact ⟨rfl, rfl⟩
    · simp only [ne_eq, ha, not_false_eq_true, if_true]
      exact ⟨rfl, trivial⟩

/-- The method `exec` when the transport fails with a cancelled context or an expired
deadline. -/
theorem exec_canceled (cb : CircuitBreaker β) (st : DoState β ρ) (ind : Nat)
    (endpoint : Endpoint β) (e : TransportError)
    (h : st.client.transport st.client.calls st.req.r.URL = .error e)
    (hk : e.kind = .deadlineExceeded ∨ e.kind = .canceled) :
    (exec cb st ind endpoint).2.endpoints = st.endpoints ∧
      (exec cb st ind endpoint).2.resp.err =
        some (requestCtxCanceledOrTimeout st.req.r.URL e) ∧
      (exec cb st ind endpoint).1 =
        (st.req.onRequestCtxCanceledOrTimeout.map fun f => f ()).getD .None := by
  simp only [exec, h, hk, if_true]
  refine ⟨rfl, trivial, ?_⟩
  cases st.req.onRequestCtxCanceledOrTimeout <;> rfl

/-- The method `exec` when the transport fails with any other error. -/
theorem exec_failed (cb : CircuitBreaker β) (st : DoState β ρ) (ind : Nat)
    (endpoint : Endpoint β) (e : TransportError)
    (h : st.client.transport st.client.calls st.req.r.URL = .error e)
    (hk : ¬ (e.kind = .deadlineExceeded ∨ e.kind = .canceled)) :
    (exec cb st ind endpoint).2.endpoints =
        st.endpoints.set ind (some { endpoint with breaker := cb.OnFailure endpoint.breaker }) ∧
      (exec cb st ind endpoint).2.resp.err = some (connectionError st.req.r.URL e) ∧
      (exec cb st ind endpoint).1 = .NextEndpoint := by
  simp only [exec, h, hk, if_false]
  exact ⟨rfl, trivial, trivial⟩

/-- A run of `Do` whose first attempt is allowed by the breaker of the picked endpoint and
ends with the action `None` returns after that one transport call. -/
theorem do_one_attempt (pathJoin : String → String → String) (cb : CircuitBreaker β)
    (fuel : Nat) (c : Client β ρ) (req : Request) (lb : LB β) (e : Endpoint β)
    (hlb : c.lb = some lb) (hp : 0 ≤ lb.Pick.1)
    (he : lb.Endpoints[lb.Pick.1.toNat]? = some (some e))
    (hc : (cb.CanRequest e.breaker).1 = true)
    (ha : (exec cb (injected pathJoin cb (startState c lb req) lb.Pick.1.toNat e)
      lb.Pick.1.toNat (e.canRequest cb).2).1 = .None) :
    (Do pathJoin cb fuel c req).1 = .returned ∧
      (Do pathJoin cb fuel c req).2.client.calls = c.calls + 1 ∧
      (Do pathJoin cb fuel c req).2.resp =
        (exec cb (injected pathJoin cb (startState c lb req) lb.Pick.1.toNat e)
          lb.Pick.1.toNat (e.canRequest cb).2).2.resp := by
  have hne : lb.Endpoints.length ≠ 0 := by
    intro h0
    rw [List.getElem?_eq_none (by omega)] at he
    cases he
  have he' : (startState c lb req).endpoints[lb.Pick.1.toNat]? = some (some e) := he
  rw [do_eq pathJoin cb fuel req hlb hne hp (instrument_allowed pathJoin cb he' hc)]
  simp only [ha, ne_eq, not_true_eq_false, false_and, if_false]
  refine ⟨trivial, ?_, rfl⟩
  show (exec cb (injected pathJoin cb (startState c lb req) lb.Pick.1.toNat e)
    lb.Pick.1.toNat (e.canRequest cb).2).2.client.calls = _
  rw [(exec_frame cb _ _ _).2.2]
  rfl

end Client

/-- Claim C36: one transport attempt in `Client.exec` on the endpoint at position `ind`
calls the transport once. If the transport returns a response, the breaker of that
endpoint receives one `OnSuccess` (the other endpoints are untouched) whatever the status
code, and the action is the result of the response-header predicate, or `None` without a
predicate. If it fails with a cancelled context or an expired deadline, no breaker is
touched, the error is tagged `RequestCtxCanceledOrTimeout` and the action is the result of
the cancellation predicate, or `None` without one; a run of `Do` whose first attempt ends so
without a predicate returns after that one transport call. On any other transport error
the breaker of the endpoint receives one `OnFailure`, the error is tagged `Connection` and
the action is `NextEndpoint`. -/
theorem exec_transport_outcomes {β ρ : Type} (cb : CircuitBreaker β) (st : DoState β ρ)
    (ind : Nat) (endpoint : Endpoint β) :
    (Client.exec cb st ind endpoint).2.client.calls = st.client.calls + 1 ∧
    (∀ r, st.client.transport st.client.calls st.req.r.URL = .response r →
      (Client.exec cb st ind endpoint).2.endpoints =
        st.endpoints.set ind (some { endpoint with breaker := cb.OnSuccess endpoint.breaker }) ∧
      (Client.exec cb st ind endpoint).1 =
        (st.req.onRespHeader.map fun f => f r.StatusCode r.Header).getD .None) ∧
    (∀ e, st.client.transport st.client.calls st.req.r.URL = .error e →
      (e.kind = .deadlineExceeded ∨ e.kind = .canceled) →
      (Client.exec cb st ind endpoint).2.endpoints = st.endpoints ∧
      (Client.exec cb st ind endpoint).2.resp.errorCategory = .errRequestCtxCanceledOrTimeout ∧
      (Client.exec cb st ind endpoint).1 =
        (st.req.onRequestCtxCanceledOrTimeout.map fun f => f ()).getD .None) ∧
    (∀ e, st.client.transport st.client.calls st.req.r.URL = .error e →
      ¬ (e.kind = .deadlineExceeded ∨ e.kind = .canceled) →
      (Client.exec cb st ind endpoint).2.endpoints =
        st.endpoints.set ind (some { endpoint with breaker := cb.OnFailure endpoint.breaker }) ∧
      (Client.exec cb st ind endpoint).2.resp.errorCategory = .errConnection ∧
      (Client.exec cb st ind endpoint).1 = .NextEndpoint) ∧
    (∀ (pathJoin : String → String → String) (fuel : Nat) (c : Client β ρ) (req : Request)
      (lb : LB β) (e : Endpoint β) (err : TransportError),
      c.lb = some lb → 0 ≤ lb.Pick.1 → lb.Endpoints[lb.Pick.1.toNat]? = some (some e) →
      (cb.CanRequest e.breaker).1 = true →
      c.transport c.calls (injectTarget pathJoin (e.canRequest cb).2 req).2.r.URL = .error err →
      (err.kind = .deadlineExceeded ∨ err.kind = .canceled) →
      req.onRequestCtxCanceledOrTimeout = none →
      (Client.Do pathJoin cb fuel c req).1 = .returned ∧
      (Client.Do pathJoin cb fuel c req).2.client.calls = c.calls + 1 ∧
      (Client.Do pathJoin cb fuel c req).2.resp.errorCategory =
        .errRequestCtxCanceledOrTimeout) := by
  refine ⟨(Client.exec_frame cb st ind endpoint).2.2,
    fun r h => Client.exec_response cb st ind endpoint r h, fun e h hk => ?_, fun e h hk => ?_,
    fun pathJoin fuel c req lb e err hlb hp he hc ht hk hno => ?_⟩
  · obtain ⟨h1, h2, h3⟩ := Client.exec_canceled cb st ind endpoint e h hk
    refine ⟨h1, ?_, h3⟩
    simp only [Response.errorCategory, h2, requestCtxCanceledOrTimeout]
  · obtain ⟨h1, h2, h3⟩ := Client.exec_failed cb st ind endpoint e h hk
    refine ⟨h1, ?_, h3⟩
    simp only [Response.errorCategory, h2, connectionError]
  · have ht' : (Client.injected pathJoin cb (Client.startState c lb req) lb.Pick.1.toNat
        e).client.transport (Client.injected pathJoin cb (Client.startState c lb req)
          lb.Pick.1.toNat e).client.calls (Client.injected pathJoin cb
            (Client.startState c lb req) lb.Pick.1.toNat e).req.r.URL = .error err := ht
    obtain ⟨-, h2, h3⟩ := Client.exec_canceled cb _ lb.Pick.1.toNat (e.canRequest cb).2 err ht' hk
    have hno' : (Client.injected pathJoin cb (Client.startState c lb req) lb.Pick.1.toNat
        e).req.onRequestCtxCanceledOrTimeout = none := hno
    rw [hno'] at h3
    obtain ⟨d1, d2, d3⟩ := Client.do_one_attempt pathJoin cb fuel c req lb e hlb hp he hc h3
    refine ⟨d1, d2, ?_⟩
    rw [d3]
    simp only [Response.errorCategory, h2, requestCtxCanceledOrTimeout]

/-- Witness of C36: the first attempt on one endpoint with a counting breaker (successes,
failures). A 502 response is counted as one success and the action is `None`; an expired
deadline is not counted and the action is `None`; a refused connection is counted as one
failure and the action is `NextEndpoint`. -/
theorem exec_transport_outcomes_witness :
    ((Client.exec countingBreaker (attemptState badGatewayTransport) 0
        (endpointOf "a" (false, 0, 0))).2.endpoints =
        (attemptState badGatewayTransport).endpoints.set 0
          (some (endpointOf "a" (false, 1, 0))) ∧
      (Client.exec countingBreaker (attemptState badGatewayTransport) 0
        (endpointOf "a" (false, 0, 0))).1 = .None) ∧
    ((Client.exec countingBreaker (attemptState deadlineTransport) 0
        (endpointOf "a" (false, 0, 0))).2.endpoints = (attemptState deadlineTransport).endpoints ∧
      (Client.exec countingBreaker (attemptState deadlineTransport) 0
        (endpointOf "a" (false, 0, 0))).2.resp.errorCategory = .errRequestCtxCanceledOrTimeout ∧
      (Client.exec countingBreaker (attemptState deadlineTransport) 0
        (endpointOf "a" (false, 0, 0))).1 = .None) ∧
    ((Client.exec countingBreaker (attemptState refusingTransport) 0
        (endpointOf "a" (false, 0, 0))).2.endpoints =
        (attemptState refusingTransport).endpoints.set 0
          (some (endpointOf "a" (false, 0, 1))) ∧
      (Client.exec countingBreaker (attemptState refusingTransport) 0
        (endpointOf "a" (false, 0, 0))).2.resp.errorCategory = .errConnection ∧
      (Client.exec countingBreaker (attemptState refusingTransport) 0
        (endpointOf "a" (false, 0, 0))).1 = .NextEndpoint) :=
  ⟨(exec_transport_outcomes countingBreaker (attemptState badGatewayTransport) 0
      (endpointOf "a" (false, 0, 0))).2.1 _ rfl,
    (exec_transport_outcomes countingBreaker (attemptState deadlineTransport) 0
      (endpointOf "a" (false, 0, 0))).2.2.1 _ rfl (Or.inl rfl),
    (exec_transport_outcomes countingBreaker (attemptState refusingTransport) 0
      (endpointOf "a" (false, 0, 0))).2.2.2.1 _ rfl (by decide)⟩

end Garr

namespace Garr

/-- The number of attempts of a traversal whose endpoints receive at most `L` attempts. -/
theorem blockAttempts_length (n picked L : Nat) :
    ∀ (blocks : List Nat) (j : Nat), (∀ a ∈ blocks, a ≤ L) →
      (blockAttempts n picked j blocks).length ≤ blocks.length * L := by
  intro blocks
  induction blocks with
  | nil => intro j _; simp [blockAttempts]
  | cons a as ih =>
    intro j h
    have h1 := ih (j + 1) (fun x hx => h x (List.mem_cons_of_mem _ hx))
    have h2 := h a (List.mem_cons_self _ _)
    simp only [blockAttempts, List.length_append, List.length_replicate, List.length_cons,
      Nat.add_mul, one_mul]
    omega

namespace Client

variable {β ρ : Type}

/-- One attempt adds its position to the attempts of the trace and makes at most one
transport call; it keeps the number of endpoints, the backoff, and leaves no nil pointer
where there was none. -/
theorem instrument_attempts (pathJoin : String → String → String) (cb : CircuitBreaker β)
    {st : DoState β ρ} {ind : Nat} {r : EndpointAction × DoState β ρ}
    (h : instrument pathJoin cb st ind = some r) :
    attemptsOf r.2.client.trace = attemptsOf st.client.trace ++ [ind] ∧
      r.2.client.calls ≤ st.client.calls + 1 ∧ r.2.endpoints.length = st.endpoints.length ∧
      r.2.client.backoff = st.client.backoff ∧ (NonNil st → NonNil r.2) := by
  obtain ⟨hf, e, e1, he, he1, -, hoth, hcase⟩ := instrument_spec pathJoin cb h
  refine ⟨?_, ?_, hf.length, hf.backoff, ?_⟩
  · rcases hcase with ⟨-, -, htr, -⟩ | ⟨-, htr, -⟩
    · rw [htr, attemptsOf_append]
      simp [attemptsOf]
    · rw [htr, attemptsOf_append]
      simp [attemptsOf]
  · rcases hcase with ⟨-, -, -, hc, -⟩ | ⟨-, -, hc, -⟩
    · omega
    · omega
  · intro hnn i hi
    by_cases hii : i = ind
    · subst hii
      exact ⟨e1, he1⟩
    · rw [hoth i hii]
      exact hnn i (by rw [← hf.length]; exact hi)

/-- The position after `ind` in a slice of length `n`, for `ind < n`. -/
theorem nextInd_eq (n ind : Nat) (h : ind < n) : nextInd n ind = (ind + 1) % n := by
  unfold nextInd
  split_ifs with h1
  · rw [h1, Nat.mod_self]
  · rw [Nat.mod_eq_of_lt (by omega)]

/-- The state in which a retry is attempted has the endpoints, the transport calls and the
attempts of the state before the backoff was consulted. -/
theorem waitAndReset_consult (st : DoState β ρ) (k d : Int) :
    (waitAndReset (consult st k) d).endpoints = st.endpoints ∧
      (waitAndReset (consult st k) d).client.calls = st.client.calls ∧
      (waitAndReset (consult st k) d).client.backoff = st.client.backoff ∧
      attemptsOf (waitAndReset (consult st k) d).client.trace = attemptsOf st.client.trace := by
  unfold waitAndReset
  split_ifs <;> simp [consult, emit, attemptsOf_append, attemptsOf]

/-- A pass of `judge` that returns or panics: no attempt and no transport call is made, and
the pass returns when no endpoint is nil and the current position is in range. -/
theorem judgeStep_inl (pathJoin : String → String → String) (cb : CircuitBreaker β)
    (picked : Nat) (need : EndpointAction) (v : JudgeVars) (st : DoState β ρ)
    (r : Outcome × DoState β ρ) (h : judgeStep pathJoin cb picked need v st = .inl r) :
    r.1 ≠ .outOfFuel ∧ attemptsOf r.2.client.trace = attemptsOf st.client.trace ∧
      r.2.client.calls = st.client.calls ∧
      (NonNil st → v.ind < st.endpoints.length →
        nextInd st.endpoints.length v.ind < st.endpoints.length → r.1 = .returned) := by
  cases need with
  | None =>
    rw [judgeStep_none] at h
    cases h
    exact ⟨by simp, rfl, rfl, fun _ _ _ => rfl⟩
  | Retrying =>
    obtain ⟨h1, h2, -, h4⟩ := waitAndReset_consult st (wrap64 (v.retryCount + 1))
      (st.client.backoff.NextDelayMillis (wrap64 (v.retryCount + 1)) st.client.rand).1
    by_cases hd : 0 ≤ (st.client.backoff.NextDelayMillis (wrap64 (v.retryCount + 1))
        st.client.rand).1
    · cases hi : instrument pathJoin cb
        (waitAndReset (consult st (wrap64 (v.retryCount + 1)))
          (st.client.backoff.NextDelayMillis (wrap64 (v.retryCount + 1)) st.client.rand).1)
        v.ind with
      | none =>
        rw [judgeStep_retry_panic pathJoin cb picked v st hd hi] at h
        cases h
        refine ⟨by simp, h4, h2, fun hnn hlt _ => ?_⟩
        exfalso
        apply instrument_none pathJoin cb hi
        rw [h1]
        exact hnn _ hlt
      | some r0 =>
        rw [judgeStep_retry_go pathJoin cb picked v st hd hi] at h
        cases h
    · cases herr : st.resp.err with
      | some e =>
        rw [judgeStep_retry_keep pathJoin cb picked v st (by omega) herr] at h
        cases h
        exact ⟨by simp, by simp [consult, emit, attemptsOf_append, attemptsOf], rfl,
          fun _ _ _ => rfl⟩
      | none =>
        cases he : st.endpoints[v.ind]? with
        | none =>
          simp only [judgeStep, ge_iff_le, hd, if_false, herr, Option.isNone_none, if_true,
            he] at h
          cases h
          refine ⟨by simp, by simp [consult, emit, attemptsOf_append, attemptsOf], rfl,
            fun hnn hlt _ => ?_⟩
          obtain ⟨e, he1⟩ := hnn _ hlt
          rw [he] at he1
          cases he1
        | some o =>
          cases o with
          | none =>
            simp only [judgeStep, ge_iff_le, hd, if_false, herr, Option.isNone_none, if_true,
              he] at h
            cases h
            refine ⟨by simp, by simp [consult, emit, attemptsOf_append, attemptsOf], rfl,
              fun hnn hlt _ => ?_⟩
            obtain ⟨e, he1⟩ := hnn _ hlt
            rw [he] at he1
            cases he1
          | some e =>
            rw [judgeStep_retry_stop pathJoin cb picked v st (by omega) herr he] at h
            cases h
            exact ⟨by simp, by simp [retriedState, consult, emit, attemptsOf_append, attemptsOf],
              rfl, fun _ _ _ => rfl⟩
  | NextEndpoint =>
    by_cases hne : nextInd st.endpoints.length v.ind = picked
    · rw [judgeStep_next_stop pathJoin cb picked v st hne] at h
      cases h
      exact ⟨by simp, rfl, rfl, fun _ _ _ => rfl⟩
    · cases hi : instrument pathJoin cb (resetResp st) (nextInd st.endpoints.length v.ind) with
      | none =>
        rw [judgeStep_next_panic pathJoin cb picked v st hne hi] at h
        cases h
        refine ⟨by simp, rfl, rfl, fun hnn _ hlt => ?_⟩
        exfalso
        apply instrument_none pathJoin cb hi
        exact hnn _ hlt
      | some r0 =>
        rw [judgeStep_next_go pathJoin cb picked v st hne hi] at h
        cases h

/-- A pass of `judge` that jumps back to the label: one attempt has been made, on the same
endpoint with one more retry granted by the backoff, or on the next endpoint, which is not
the picked one, with the retry count back at zero. -/
theorem judgeStep_inr (pathJoin : String → String → String) (cb : CircuitBreaker β)
    (picked : Nat) (need : EndpointAction) (v : JudgeVars) (st : DoState β ρ)
    (r : EndpointAction × JudgeVars × DoState β ρ)
    (h : judgeStep pathJoin cb picked need v st = .inr r) :
    attemptsOf r.2.2.client.trace = attemptsOf st.client.trace ++ [r.2.1.ind] ∧
      r.2.2.client.calls ≤ st.client.calls + 1 ∧
      r.2.2.endpoints.length = st.endpoints.length ∧
      r.2.2.client.backoff = st.client.backoff ∧ (NonNil st → NonNil r.2.2) ∧
      ((r.2.1.ind = v.ind ∧ r.2.1.retryCount = wrap64 (v.retryCount + 1) ∧
          0 ≤ (st.client.backoff.NextDelayMillis (wrap64 (v.retryCount + 1))
            st.client.rand).1) ∨
        (r.2.1.ind = nextInd st.endpoints.length v.ind ∧ r.2.1.ind ≠ picked ∧
          r.2.1.retryCount = 0)) := by
  cases need with
  | None =>
    rw [judgeStep_none] at h
    cases h
  | Retrying =>
    obtain ⟨h1, h2, h3, h4⟩ := waitAndReset_consult st (wrap64 (v.retryCount + 1))
      (st.client.backoff.NextDelayMillis (wrap64 (v.retryCount + 1)) st.client.rand).1
    by_cases hd : 0 ≤ (st.client.backoff.NextDelayMillis (wrap64 (v.retryCount + 1))
        st.client.rand).1
    · cases hi : instrument pathJoin cb
        (waitAndReset (consult st (wrap64 (v.retryCount + 1)))
          (st.client.backoff.NextDelayMillis (wrap64 (v.retryCount + 1)) st.client.rand).1)
        v.ind with
      | none =>
        rw [judgeStep_retry_panic pathJoin cb picked v st hd hi] at h
        cases h
      | some r0 =>
        rw [judgeStep_retry_go pathJoin cb picked v st hd hi] at h
        cases h
        obtain ⟨a1, a2, a3, a4, a5⟩ := instrument_attempts pathJoin cb hi
        refine ⟨by rw [a1, h4], by rw [h2] at a2; exact a2, by rw [a3, h1], by rw [a4, h3],
          fun hnn => a5 ?_, Or.inl ⟨rfl, rfl, hd⟩⟩
        intro i hi1
        rw [h1] at hi1 ⊢
        exact hnn i hi1
    · have hinl : ∃ q, judgeStep pathJoin cb picked .Retrying v st = .inl q := by
        simp only [judgeStep, ge_iff_le, hd, if_false]
        split_ifs
        · split <;> exact ⟨_, rfl⟩
        · exact ⟨_, rfl⟩
      obtain ⟨q, hq⟩ := hinl
      rw [hq] at h
      cases h
  | NextEndpoint =>
    by_cases hne : nextInd st.endpoints.length v.ind = picked
    · rw [judgeStep_next_stop pathJoin cb picked v st hne] at h
      cases h
    · cases hi : instrument pathJoin cb (resetResp st) (nextInd st.endpoints.length v.ind) with
      | none =>
        rw [judgeStep_next_panic pathJoin cb picked v st hne hi] at h
        cases h
      | some r0 =>
        rw [judgeStep_next_go pathJoin cb picked v st hne hi] at h
        cases h
        obtain ⟨a1, a2, a3, a4, a5⟩ := instrument_attempts pathJoin cb hi
        exact ⟨a1, a2, a3, a4, fun hnn => a5 hnn, Or.inr ⟨rfl, hne, rfl⟩⟩

end Client

end Garr

namespace Garr

namespace Client

variable {β ρ : Type}

/-- The loop of `judge` under a backoff that refuses every attempt number from `L` on: from
the `m`-th endpoint after the picked one, with `retryCount` retries made on it, the loop
ends within `(n - 1 - m) * L + (L - 1 - retryCount) + 1` passes; it makes at most
`L - 1 - retryCount` more attempts on that endpoint, then reaches each of the following
endpoints at most once and makes at most `L` attempts on each. -/
theorem judgeLoop_bounded (pathJoin : String → String → String) (cb : CircuitBreaker β)
    (picked n L : Nat) (bk : Backoff ρ) (hp : picked < n) (hL63 : (L : Int) < 2 ^ 63)
    (hneg : ∀ k : Int, (L : Int) ≤ k → k < 2 ^ 63 → ∀ r, (bk.NextDelayMillis k r).1 < 0) :
    ∀ (fuel : Nat) (need : EndpointAction) (v : JudgeVars) (st : DoState β ρ) (m : Nat),
      st.endpoints.length = n → st.client.backoff = bk → m < n → v.ind = (picked + m) % n →
      0 ≤ v.retryCount → v.retryCount + 1 ≤ L →
      (n - 1 - m) * L + (L - 1 - v.retryCount.toNat) + 1 ≤ fuel →
      (judgeLoop pathJoin cb picked fuel need v st).1 ≠ .outOfFuel ∧
      (NonNil st → (judgeLoop pathJoin cb picked fuel need v st).1 = .returned) ∧
      ∃ (blocks : List Nat) (k : Nat), blocks.length + m + 1 ≤ n ∧
        (∀ a ∈ blocks, 1 ≤ a ∧ a ≤ L) ∧ (k : Int) + v.retryCount + 1 ≤ L ∧
        attemptsOf (judgeLoop pathJoin cb picked fuel need v st).2.client.trace =
          attemptsOf st.client.trace ++
            (List.replicate k v.ind ++ blockAttempts n picked (m + 1) blocks) ∧
        (judgeLoop pathJoin cb picked fuel need v st).2.client.calls ≤
          st.client.calls + k + (blockAttempts n picked (m + 1) blocks).length := by
  intro fuel
  induction fuel with
  | zero =>
    intro need v st m _ _ _ _ _ _ hfuel
    omega
  | succ fuel ih =>
    intro need v st m hlen hbk hm hind h0 hrc hfuel
    have hindlt : v.ind < st.endpoints.length := by
      rw [hind, hlen]
      exact Nat.mod_lt _ (by omega)
    have hnextlt : nextInd st.endpoints.length v.ind < st.endpoints.length := by
      rw [nextInd_eq _ _ hindlt]
      exact Nat.mod_lt _ (by omega)
    simp only [judgeLoop]
    cases hs : judgeStep pathJoin cb picked need v st with
    | inl r =>
      dsimp only
      obtain ⟨h1, h2, h3, h4⟩ := judgeStep_inl pathJoin cb picked need v st r hs
      refine ⟨h1, fun hnn => h4 hnn hindlt hnextlt, [], 0, by simp; omega, by simp, by simpa using hrc,
        by simp [blockAttempts, h2], by simp [blockAttempts, h3]⟩
    | inr r =>
      dsimp only
      obtain ⟨a1, a2, a3, a4, a5, hcase⟩ := judgeStep_inr pathJoin cb picked need v st r hs
      rcases hcase with ⟨hi, hr, hd⟩ | ⟨hi, hne, hr⟩
      · -- a retry on the same endpoint
        have hw : wrap64 (v.retryCount + 1) = v.retryCount + 1 :=
          wrap64_of_isInt64 ⟨by omega, by omega⟩
        rw [hw] at hr hd
        have hlt : v.retryCount + 1 < L := by
          by_contra hge
          have := hneg (v.retryCount + 1) (by omega) (by omega) st.client.rand
          rw [hbk] at hd
          omega
        obtain ⟨b1, b2, blocks, k, c1, c2, c3, c4, c5⟩ := ih r.1 r.2.1 r.2.2 m
          (by rw [a3, hlen]) (by rw [a4, hbk]) hm (by rw [hi, hind]) (by rw [hr]; omega)
          (by rw [hr]; omega)
          (by
            rw [hr]
            have e1 : (v.retryCount + 1).toNat = v.retryCount.toNat + 1 := by omega
            have e2 : v.retryCount.toNat + 1 < L := by omega
            rw [e1]
            omega)
        refine ⟨b1, fun hnn => b2 (a5 hnn), blocks, k + 1, c1, c2, by rw [hr] at c3; push_cast; omega,
          ?_, ?_⟩
        · rw [c4, a1, hi, List.append_assoc]
          congr 1
        · omega
      · -- the next endpoint
        have hnext : r.2.1.ind = (picked + (m + 1)) % n := by
          rw [hi, nextInd_eq _ _ hindlt, hind, hlen, ← Nat.add_assoc, Nat.add_mod,
            Nat.mod_mod, ← Nat.add_mod]
        have hm1 : m + 1 < n := by
          by_contra hge
          have hmn : m + 1 = n := by omega
          apply hne
          rw [hnext, ← Nat.add_assoc, Nat.add_assoc, hmn, Nat.add_mod_right, Nat.mod_eq_of_lt hp]
        obtain ⟨b1, b2, blocks, k, c1, c2, c3, c4, c5⟩ := ih r.1 r.2.1 r.2.2 (m + 1)
          (by rw [a3, hlen]) (by rw [a4, hbk]) hm1 hnext (by rw [hr]) (by rw [hr]; omega)
          (by
            rw [hr]
            have e1 : n - 1 - m = (n - 1 - (m + 1)) + 1 := by omega
            rw [e1, Nat.add_mul, one_mul] at hfuel
            simp only [Int.toNat_zero]
            omega)
        rw [hr] at c3
        refine ⟨b1, fun hnn => b2 (a5 hnn), (k + 1) :: blocks, 0,
          by simp only [List.length_cons]; omega, ?_, by simpa using hrc, ?_, ?_⟩
        · intro a ha
          rcases List.mem_cons.1 ha with rfl | ha
          · exact ⟨by omega, by omega⟩
          · exact c2 a ha
        · rw [c4, a1, List.append_assoc]
          congr 1
          simp only [List.replicate_zero, List.nil_append, blockAttempts, ← hnext,
            List.replicate_succ, List.singleton_append, List.cons_append]
        · simp only [blockAttempts, List.length_append, List.length_replicate]
          omega

end Client

/-- Claim C40: for `n >= 1` endpoints and a backoff that returns a negative delay for every
attempt number from `L` on (`L >= 1`, an `int`), `Client.Do` ends for every behaviour of the
transport, of the breakers and of the request predicates, within `n * L` passes of the
loop of `judge`; it returns when the picked index is in range and no endpoint is nil, and
panics otherwise. The positions it attempts are those of a failover traversal from the
picked position: at most `n` endpoints, each reached once, each attempted at least once
and at most `L` times (at most `L - 1` retries), so at most `n * L` attempts and as many
transport calls. -/
theorem do_terminates {β ρ : Type} (pathJoin : String → String → String)
    (cb : CircuitBreaker β) (fuel : Nat) (c : Client β ρ) (req : Request) (lb : LB β) (L : Nat)
    (hlb : c.lb = some lb) (hn : 1 ≤ lb.Endpoints.length) (hL : 1 ≤ L)
    (hL63 : (L : Int) < 2 ^ 63)
    (hneg : ∀ k : Int, (L : Int) ≤ k → k < 2 ^ 63 → ∀ r, (c.backoff.NextDelayMillis k r).1 < 0)
    (hfuel : lb.Endpoints.length * L ≤ fuel) :
    (Client.Do pathJoin cb fuel c req).1 ≠ .outOfFuel ∧
    (0 ≤ lb.Pick.1 → lb.Pick.1 < lb.Endpoints.length →
      (∀ i, i < lb.Endpoints.length → ∃ e, lb.Endpoints[i]? = some (some e)) →
      (Client.Do pathJoin cb fuel c req).1 = .returned) ∧
    (∃ blocks : List Nat, blocks.length ≤ lb.Endpoints.length ∧
      (∀ a ∈ blocks, 1 ≤ a ∧ a ≤ L) ∧
      attemptsOf (Client.Do pathJoin cb fuel c req).2.client.trace =
        attemptsOf c.trace ++ blockAttempts lb.Endpoints.length lb.Pick.1.toNat 0 blocks ∧
      (Client.Do pathJoin cb fuel c req).2.client.calls ≤
        c.calls + (blockAttempts lb.Endpoints.length lb.Pick.1.toNat 0 blocks).length) ∧
    (attemptsOf (Client.Do pathJoin cb fuel c req).2.client.trace).length ≤
      (attemptsOf c.trace).length + lb.Endpoints.length * L ∧
    (Client.Do pathJoin cb fuel c req).2.client.calls ≤ c.calls + lb.Endpoints.length * L := by
  have hmain : (Client.Do pathJoin cb fuel c req).1 ≠ .outOfFuel ∧
      (0 ≤ lb.Pick.1 → lb.Pick.1 < lb.Endpoints.length →
        (∀ i, i < lb.Endpoints.length → ∃ e, lb.Endpoints[i]? = some (some e)) →
        (Client.Do pathJoin cb fuel c req).1 = .returned) ∧
      (∃ blocks : List Nat, blocks.length ≤ lb.Endpoints.length ∧
        (∀ a ∈ blocks, 1 ≤ a ∧ a ≤ L) ∧
        attemptsOf (Client.Do pathJoin cb fuel c req).2.client.trace =
          attemptsOf c.trace ++ blockAttempts lb.Endpoints.length lb.Pick.1.toNat 0 blocks ∧
        (Client.Do pathJoin cb fuel c req).2.client.calls ≤
          c.calls + (blockAttempts lb.Endpoints.length lb.Pick.1.toNat 0 blocks).length) := by
    have hne : lb.Endpoints.length ≠ 0 := by omega
    by_cases hp : lb.Pick.1 < 0
    · have hdo : Client.Do pathJoin cb fuel c req = (.panicked, Client.startState c lb req) := by
        simp only [Client.Do, hlb, hne, if_false, hp, if_true]
      rw [hdo]
      exact ⟨by simp, fun h0 _ _ => absurd h0 (by omega), [], by simp, by simp,
        by simp [blockAttempts, Client.startState], by simp [blockAttempts, Client.startState]⟩
    · cases hi : Client.instrument pathJoin cb (Client.startState c lb req) lb.Pick.1.toNat with
      | none =>
        have hdo : Client.Do pathJoin cb fuel c req =
            (.panicked, Client.startState c lb req) := by
          simp only [Client.Do, hlb, hne, if_false, hp, hi]
        rw [hdo]
        refine ⟨by simp, fun h0 h1 hnn => ?_, [], by simp, by simp,
          by simp [blockAttempts, Client.startState], by simp [blockAttempts, Client.startState]⟩
        exfalso
        apply Client.instrument_none pathJoin cb hi
        exact hnn _ (by omega)
      | some r =>
        rw [Client.do_eq pathJoin cb fuel req hlb hne (by omega) hi]
        obtain ⟨a1, a2, a3, a4, a5⟩ := Client.instrument_attempts pathJoin cb hi
        have hplt : lb.Pick.1.toNat < lb.Endpoints.length := by
          obtain ⟨-, e, -, he, -⟩ := Client.instrument_spec pathJoin cb hi
          by_contra hge
          have : (Client.startState c lb req).endpoints[lb.Pick.1.toNat]? = none :=
            List.getElem?_eq_none (by show lb.Endpoints.length ≤ _; omega)
          rw [this] at he
          cases he
        have hmod : (lb.Pick.1.toNat + 0) % lb.Endpoints.length = lb.Pick.1.toNat := by
          rw [Nat.add_zero, Nat.mod_eq_of_lt hplt]
        have hnn0 : (∀ i, i < lb.Endpoints.length → ∃ e, lb.Endpoints[i]? = some (some e)) →
            Client.NonNil r.2 := fun h => a5 h
        split_ifs with hcond
        · have hmeas : (lb.Endpoints.length - 1 - 0) * L + (L - 1 - (0 : Int).toNat) + 1 ≤
              fuel := by
            have e1 : lb.Endpoints.length = (lb.Endpoints.length - 1) + 1 := by omega
            rw [e1, Nat.add_mul, one_mul] at hfuel
            simp only [Int.toNat_zero, Nat.sub_zero]
            omega
          obtain ⟨b1, b2, blocks, k, c1, c2, c3, c4, c5⟩ :=
            Client.judgeLoop_bounded pathJoin cb lb.Pick.1.toNat lb.Endpoints.length L c.backoff
              hplt hL63 hneg fuel r.1 { ind := lb.Pick.1.toNat, lastErr := [], retryCount := 0 }
              r.2 0 a3 a4 (by omega) hmod.symm (le_refl _) (by simp only []; omega) hmeas
          refine ⟨b1, fun _ _ hnn => b2 (hnn0 hnn), (k + 1) :: blocks,
            by simp only [List.length_cons]; omega, ?_, ?_, ?_⟩
          · intro a ha
            rcases List.mem_cons.1 ha with rfl | ha
            · exact ⟨by omega, by simp only [] at c3; omega⟩
            · exact c2 a ha
          · show attemptsOf (Client.judge pathJoin cb fuel r.1 lb.Pick.1.toNat r.2).2.client.trace = _
            unfold Client.judge
            rw [c4, a1, List.append_assoc]
            congr 1
            simp only [blockAttempts, hmod, List.replicate_succ, List.singleton_append,
              List.cons_append]
            rfl
          · show (Client.judge pathJoin cb fuel r.1 lb.Pick.1.toNat r.2).2.client.calls ≤ _
            unfold Client.judge
            simp only [blockAttempts, List.length_append, List.length_replicate]
            have : (Client.startState c lb req).client.calls = c.calls := rfl
            omega
        · refine ⟨by simp, fun _ _ _ => rfl, [1], by simp; omega, ?_, ?_, ?_⟩
          · intro a ha
            simp only [List.mem_singleton] at ha
            subst ha
            exact ⟨le_refl _, hL⟩
          · show attemptsOf r.2.client.trace = _
            rw [a1]
            simp only [blockAttempts, hmod, List.replicate_one, List.append_nil]
            rfl
          · show r.2.client.calls ≤ _
            simp only [blockAttempts, List.length_append, List.length_replicate,
              List.length_nil]
            have : (Client.startState c lb req).client.calls = c.calls := rfl
            omega
  obtain ⟨h1, h2, blocks, h3, h4, h5, h6⟩ := hmain
  have hlenb := blockAttempts_length lb.Endpoints.length lb.Pick.1.toNat L blocks 0
    (fun a ha => (h4 a ha).2)
  have hmul : blocks.length * L ≤ lb.Endpoints.length * L := Nat.mul_le_mul_right L h3
  refine ⟨h1, h2, ⟨blocks, h3, h4, h5, h6⟩, ?_, ?_⟩
  · rw [h5, List.length_append]
    omega
  · omega

/-- Witness of C40: two endpoints with counting breakers, of which the balancer picks the
first, the backoff limited to 3 attempts, a transport that refuses every connection and 6
units of fuel. -/
theorem do_terminates_witness :
    (clientOf twoEndpoints 0
        refusingTransport).lb =
      some (.other twoEndpoints 0) ∧
    (Client.Do concatPath countingBreaker 6
      (clientOf twoEndpoints 0
        refusingTransport) plainRequest).1 ≠ .outOfFuel ∧
    (attemptsOf (Client.Do concatPath countingBreaker 6
      (clientOf twoEndpoints 0
        refusingTransport) plainRequest).2.client.trace).length ≤ 0 + 2 * 3 :=
  ⟨rfl,
    (do_terminates concatPath countingBreaker 6
      (clientOf twoEndpoints 0
        refusingTransport) plainRequest
      (.other twoEndpoints 0) 3 rfl
      (by decide) (by decide) (by decide)
      (fun k hk _ r => by
        simp only [clientOf, limitedBackoff, AttemptLimitingBackoff.toBackoff,
          AttemptLimitingBackoff.NextDelayMillis]
        rw [if_pos (by simpa using hk)]
        exact (by decide : (-1 : Int) < 0))
      (by decide)).1,
    (do_terminates concatPath countingBreaker 6
      (clientOf twoEndpoints 0
        refusingTransport) plainRequest
      (.other twoEndpoints 0) 3 rfl
      (by decide) (by decide) (by decide)
      (fun k hk _ r => by
        simp only [clientOf, limitedBackoff, AttemptLimitingBackoff.toBackoff,
          AttemptLimitingBackoff.NextDelayMillis]
        rw [if_pos (by simpa using hk)]
        exact (by decide : (-1 : Int) < 0))
      (by decide)).2.2.2.1⟩

end Garr

namespace Garr

namespace F64

/-- The quotient of two non-negative finite values, the divisor positive and at least the
dividend, is a finite value that is at most 1. -/
theorem div_at_most_one (m1 e1 m2 e2 : Int) (h1 : 0 ≤ m1) (h2 : 0 < m2)
    (h : (m1 : ℚ) * 2 ^ e1 ≤ (m2 : ℚ) * 2 ^ e2) :
    ∃ m e, div (fin m1 e1) (fin m2 e2) = fin m e ∧ (m : ℚ) * 2 ^ e ≤ 1 := by
  have two : (0 : ℚ) < 2 := by norm_num
  have two' : (2 : ℚ) ≠ 0 := by norm_num
  have hm2q : (0 : ℚ) < (m2 : ℚ) := by exact_mod_cast h2
  have hone : round 1 1 = fin (2 ^ 52) (-52) := by decide
  have hnat : ((m2.natAbs : Nat) : ℚ) = (m2 : ℚ) := by
    have : ((m2.natAbs : Nat) : Int) = m2 := Int.natAbs_of_nonneg h2.le
    rw [← Int.cast_natCast, this]
  have hkey : ∀ (num : Int) (den : Nat), 0 ≤ num → 0 < den → (num : ℚ) / den ≤ 1 →
      ∃ m e, round num den = fin m e ∧ (m : ℚ) * 2 ^ e ≤ 1 := by
    intro num den hnum hden hle
    have hmono := round_mono num 1 den 1 hnum hden (by norm_num)
      (by simpa using hle)
    rw [hone] at hmono
    obtain ⟨m, e, hme, hval⟩ := leVal_fin_right _ _ _ hmono
    refine ⟨m, e, hme, le_trans hval ?_⟩
    have : ((2 ^ 52 : Int) : ℚ) * 2 ^ (-52 : Int) = 1 := by
      rw [zpow_neg]
      norm_num
    rw [this]
  have hm2ne : m2 ≠ 0 := by omega
  have hneg : ¬ m2 < 0 := by omega
  unfold div
  simp only [hm2ne, if_false, hneg, one_mul]
  by_cases he : e2 ≤ e1
  · simp only [he, if_true]
    obtain ⟨j, hj⟩ : ∃ j : Nat, e1 - e2 = j := ⟨(e1 - e2).toNat, by omega⟩
    rw [hj, Int.toNat_ofNat]
    apply hkey _ _ (by positivity) (by omega)
    rw [hnat, div_le_one hm2q]
    push_cast
    have h3 : (m1 : ℚ) * 2 ^ e1 = (m1 : ℚ) * 2 ^ j * 2 ^ e2 := by
      rw [mul_assoc, ← zpow_natCast, ← zpow_add₀ two', ← hj]
      congr 2
      ring
    rw [h3] at h
    exact le_of_mul_le_mul_right h (zpow_pos two _)
  · simp only [he, if_false]
    obtain ⟨j, hj⟩ : ∃ j : Nat, e2 - e1 = j := ⟨(e2 - e1).toNat, by omega⟩
    rw [hj, Int.toNat_ofNat]
    have hpos : (0 : ℚ) < (m2 : ℚ) * 2 ^ j := by positivity
    apply hkey _ _ h1 (by positivity)
    push_cast
    rw [hnat, div_le_one hpos]
    have h3 : (m2 : ℚ) * 2 ^ e2 = (m2 : ℚ) * 2 ^ j * 2 ^ e1 := by
      rw [mul_assoc, ← zpow_natCast, ← zpow_add₀ two', ← hj]
      congr 2
      ring
    rw [h3] at h
    exact le_of_mul_le_mul_right h (zpow_pos two _)

end F64

/-- The failure rate of a count whose failures and total are those of at most `2^64`
events, with a positive total, does not exceed a threshold of at least 1. -/
theorem failureRate_not_above_one (c : EventCount) (A B : Nat) (hs : c.success = wrap64 A)
    (hf : c.failure = wrap64 B) (hAB : A + B ≤ 2 ^ 64) (h0 : 0 < c.Total) (thr : F64)
    (hthr : F64.le (.fin 1 0) thr = true) : F64.lt thr c.FailureRate = false := by
  have hT : c.Total = wrap64 ((A : Int) + B) := by
    unfold EventCount.Total
    rw [hs, hf, wrap64_add_left, wrap64_add_right]
  have hlt : (A : Int) + B < 2 ^ 63 := by
    rw [hT] at h0
    unfold wrap64 at h0
    omega
  have hT' : c.Total = (A : Int) + B := by
    rw [hT, wrap64_of_isInt64 ⟨by omega, hlt⟩]
  have hf' : c.failure = (B : Int) := by
    rw [hf, wrap64_of_isInt64 ⟨by omega, by omega⟩]
  have hrate : c.FailureRate = F64.div (F64.ofInt64 B) (F64.ofInt64 ((A : Int) + B)) := by
    unfold EventCount.FailureRate
    rw [if_neg (by omega), hf', hT']
  obtain ⟨M, u, hM, hM52, -⟩ := F64.ofInt64_pos ((A : Int) + B) (by omega) hlt
  obtain ⟨MB, uB, hMB, hMB0, -⟩ := F64.ofInt64_nonneg (B : Int) (by omega) (by omega)
  have hmono := F64.round_mono (B : Int) ((A : Int) + B) 1 1 (by omega) (by norm_num)
    (by norm_num) (by push_cast; simp)
  have hmono' : F64.leVal (F64.ofInt64 B) (F64.ofInt64 ((A : Int) + B)) := hmono
  rw [hM, hMB] at hmono'
  have hMpos : (0 : Int) < (M : Int) := by
    have : (0 : Nat) < M := lt_of_lt_of_le (by norm_num) hM52
    omega
  obtain ⟨m, e, hdiv, hval⟩ := F64.div_at_most_one MB uB M u hMB0 hMpos hmono'
  rw [hrate, hM, hMB, hdiv]
  cases thr with
  | nan => rfl
  | inf n =>
    cases n
    · rfl
    · simp [F64.le] at hthr
  | fin mt et =>
    have h1 := (F64.le_fin_iff 1 0 mt et).1 hthr
    simp only [Int.cast_one, zpow_zero, mul_one] at h1
    by_contra hc
    have hc' : F64.lt (.fin mt et) (.fin m e) = true := by simpa using hc
    have := (F64.lt_fin_iff mt et m e).1 hc'
    linarith

end Garr

namespace Garr

open JDKLinkedQueue JdkLinkedQueueIter

/-- One event added to a bucket whose adders have received `S` and `F` events. -/
theorem bucket_add_tracks (fuel : Nat) {b : Bucket} (rt : Runtime) (succ : Bool) {S F : Nat}
    (hS : b.s.Tracks S) (hF : b.f.Tracks F) :
    ∃ b1 rt1 S1 F1, b.add fuel rt succ = some (b1, rt1) ∧ b1.timestamp = b.timestamp ∧
      b1.s.Tracks ((S1 : Nat) : Int) ∧ b1.f.Tracks ((F1 : Nat) : Int) ∧ S1 + F1 = S + F + 1 := by
  cases succ with
  | true =>
    obtain ⟨a1, rt1, h1, h2⟩ := tracks_add fuel rt 1 hS
    exact ⟨{ b with s := a1 }, rt1, S + 1, F, by simp [Bucket.add, h1], rfl,
      by push_cast; exact h2, hF, by omega⟩
  | false =>
    obtain ⟨a1, rt1, h1, h2⟩ := tracks_add fuel rt 1 hF
    exact ⟨{ b with f := a1 }, rt1, S, F + 1, by simp [Bucket.add, h1], rfl, hS,
      by push_cast; exact h2, by omega⟩

/-- The `int64` sum of the success counts of buckets is the `int64` value of the exact
number of successes added to them; so for the failures. -/
theorem sumWrap_counts (g : List (Bucket × Nat × Nat))
    (h : ∀ x ∈ g, x.1.success = wrap64 x.2.1 ∧ x.1.failure = wrap64 x.2.2) :
    sumWrap 0 ((g.map Prod.fst).map Bucket.success) =
        wrap64 (((g.map fun x => x.2.1).sum : Nat) : Int) ∧
      sumWrap 0 ((g.map Prod.fst).map Bucket.failure) =
        wrap64 (((g.map fun x => x.2.2).sum : Nat) : Int) := by
  have h0 : IsInt64 0 := by decide
  rw [sumWrap_eq h0, sumWrap_eq h0, zero_add, zero_add]
  induction g with
  | nil => simp
  | cons x t ih =>
    obtain ⟨ih1, ih2⟩ := ih (fun y hy => h y (List.mem_cons_of_mem _ hy))
    obtain ⟨hx1, hx2⟩ := h x (List.mem_cons_self _ _)
    simp only [List.map_cons, List.sum_cons, Nat.cast_add]
    constructor
    · rw [hx1, wrap64_add_left, ← wrap64_add_right, ih1, wrap64_add_right]
    · rw [hx2, wrap64_add_left, ← wrap64_add_right, ih2, wrap64_add_right]

/-- The adders of a new bucket have received no event. -/
theorem newBucket_tracks_zero (t : Int) :
    (newBucket t).s.Tracks ((0 : Nat) : Int) ∧ (newBucket t).f.Tracks ((0 : Nat) : Int) :=
  ⟨tracks_new JDKAdderType, tracks_new JDKAdderType⟩

/-- The events counted in a part of the buckets are at most those counted in all. -/
theorem sum_filter_le (g : List (Bucket × Nat × Nat)) (p : Bucket × Nat × Nat → Bool) :
    ((g.filter p).map fun x => x.2.1 + x.2.2).sum ≤ (g.map fun x => x.2.1 + x.2.2).sum := by
  induction g with
  | nil => simp
  | cons x t ih =>
    by_cases hp : p x = true
    · simp only [List.filter_cons, hp, if_true, List.map_cons, List.sum_cons]
      omega
    · simp only [List.filter_cons, hp, Bool.false_eq_true, if_false, List.map_cons,
        List.sum_cons]
      omega

/-- The successes and the failures counted in buckets, added separately. -/
theorem sum_counts_split (g : List (Bucket × Nat × Nat)) :
    (g.map fun x => x.2.1).sum + (g.map fun x => x.2.2).sum =
      (g.map fun x => x.2.1 + x.2.2).sum := by
  induction g with
  | nil => simp
  | cons x t ih =>
    simp only [List.map_cons, List.sum_cons]
    omega

namespace SlidingWindowCounter

/-- The counter built by `NewSlidingWindowCounter` accounts for no event. -/
theorem counts_new (tk : Ticker) (window ui : Int) :
    (NewSlidingWindowCounter tk window ui).1.Counts 0 :=
  ⟨[], 0, 0, new_abs, by simp, tracks_new JDKAdderType, tracks_new JDKAdderType,
    wrap64_isInt64 _, by simp⟩

/-- One event on a counter that accounts for at most `N` events: the call returns, the
counter accounts for at most `N + 1` events afterwards, and a count that it publishes
shows the `int64` values of numbers of successes and failures that are together at most
`N`. -/
theorem counts_onEvent {s : SlidingWindowCounter} {N : Nat} (hc : s.Counts N) (rt : Runtime)
    (tk : Ticker) (succ : Bool) {fuel : Nat} (hf : 2 * s.reservoir.nodes.length + 4 ≤ fuel) :
    ∃ r s1 rt1, onEvent fuel s rt tk succ = some (r, s1, rt1, tk.Tick.2) ∧ s1.Counts (N + 1) ∧
      s1.reservoir.nodes.length ≤ s.reservoir.nodes.length + 1 ∧
      ∀ c, r = some c → ∃ A B : Nat, c.success = wrap64 A ∧ c.failure = wrap64 B ∧
        A + B ≤ N := by
  obtain ⟨g, S, F, habs, hg, hS, hF, hts, hsum⟩ := hc
  by_cases h1 : tk.Tick.1 < s.cur.timestamp
  · obtain ⟨b, rt1, S1, F1, hadd, hbt, hbS, hbF, hsf⟩ :=
      bucket_add_tracks fuel rt succ (newBucket_tracks_zero tk.Tick.1).1
        (newBucket_tracks_zero tk.Tick.1).2
    obtain ⟨q1, ho, ha, hl⟩ := offer_abs habs b (by omega : 2 * s.reservoir.nodes.length ≤ fuel)
    refine ⟨none, { s with reservoir := q1 }, rt1, ?_, ⟨g ++ [(b, S1, F1)], S, F, ?_, ?_, hS, hF,
      hts, ?_⟩, by simp [hl], fun c hc => by cases hc⟩
    · simp [onEvent, h1, hadd, ho]
    · simpa using ha
    · intro x hx
      rcases List.mem_append.1 hx with hx | hx
      · exact hg x hx
      · simp only [List.mem_singleton] at hx
        subst hx
        exact ⟨by unfold Bucket.success; exact tracks_sum hbS,
          by unfold Bucket.failure; exact tracks_sum hbF⟩
    · simp only [List.map_append, List.sum_append, List.map_cons, List.map_nil, List.sum_cons,
        List.sum_nil]
      omega
  · by_cases h2 : tk.Tick.1 < wrap64 (s.cur.timestamp + s.updateIntervalNanos)
    · obtain ⟨b, rt1, S1, F1, hadd, hbt, hbS, hbF, hsf⟩ := bucket_add_tracks fuel rt succ hS hF
      refine ⟨none, { s with cur := b }, rt1, ?_, ⟨g, S1, F1, habs, hg, hbS, hbF,
        by rw [hbt]; exact hts, by omega⟩, by simp, fun c hc => by cases hc⟩
      simp [onEvent, h1, h2, hadd]
    · obtain ⟨b, rt1, S1, F1, hadd, hbt, hbS, hbF, hsf⟩ :=
        bucket_add_tracks fuel rt succ (newBucket_tracks_zero tk.Tick.1).1
          (newBucket_tracks_zero tk.Tick.1).2
      have hbi : IsInt64 b.timestamp := by rw [hbt]; exact wrap64_isInt64 _
      obtain ⟨q1, ho, ha, hl⟩ := offer_abs habs s.cur
        (by omega : 2 * s.reservoir.nodes.length ≤ fuel)
      obtain ⟨q2, ht, ha2, hl2⟩ := trimAndSum_spec (s := { s with cur := b, reservoir := q1 })
        ha tk.Tick.1 (by show q1.nodes.length < fuel; omega)
      have hg1 : ∀ x ∈ g ++ [(s.cur, S, F)],
          x.1.success = wrap64 x.2.1 ∧ x.1.failure = wrap64 x.2.2 := by
        intro x hx
        rcases List.mem_append.1 hx with hx | hx
        · exact hg x hx
        · simp only [List.mem_singleton] at hx
          subst hx
          exact ⟨by unfold Bucket.success; exact tracks_sum hS,
            by unfold Bucket.failure; exact tracks_sum hF⟩
      have hmap : (g.map Prod.fst ++ [s.cur]).filter
          (fun b => !decide (b.timestamp < wrap64 (tk.Tick.1 - s.slidingWindowNanos))) =
          ((g ++ [(s.cur, S, F)]).filter
            (fun x => !decide (x.1.timestamp < wrap64 (tk.Tick.1 - s.slidingWindowNanos)))).map
            Prod.fst := by
        have e : g.map Prod.fst ++ [s.cur] = (g ++ [(s.cur, S, F)]).map Prod.fst := by simp
        rw [e, List.filter_map]
        rfl
      have hg2 : ∀ x ∈ (g ++ [(s.cur, S, F)]).filter
          (fun x => !decide (x.1.timestamp < wrap64 (tk.Tick.1 - s.slidingWindowNanos))),
          x.1.success = wrap64 x.2.1 ∧ x.1.failure = wrap64 x.2.2 :=
        fun x hx => hg1 x (List.mem_filter.1 hx).1
      have hle := sum_filter_le (g ++ [(s.cur, S, F)])
        (fun x => !decide (x.1.timestamp < wrap64 (tk.Tick.1 - s.slidingWindowNanos)))
      have hall : ((g ++ [(s.cur, S, F)]).map fun x => x.2.1 + x.2.2).sum =
          (g.map fun x => x.2.1 + x.2.2).sum + (S + F) := by
        simp
      obtain ⟨hc1, hc2⟩ := sumWrap_counts _ hg2
      have hsplit := sum_counts_split ((g ++ [(s.cur, S, F)]).filter
        (fun x => !decide (x.1.timestamp < wrap64 (tk.Tick.1 - s.slidingWindowNanos))))
      rw [hmap] at ht ha2
      generalize hG : (g ++ [(s.cur, S, F)]).filter
        (fun x => !decide (x.1.timestamp < wrap64 (tk.Tick.1 - s.slidingWindowNanos))) = G
        at ht ha2 hg2 hle hc1 hc2 hsplit
      refine ⟨some (NewEventCount (sumWrap 0 ((G.map Prod.fst).map Bucket.success))
          (sumWrap 0 ((G.map Prod.fst).map Bucket.failure))),
        { s with cur := b, reservoir := q2,
                 snapshot := NewEventCount (sumWrap 0 ((G.map Prod.fst).map Bucket.success))
                   (sumWrap 0 ((G.map Prod.fst).map Bucket.failure)) }, rt1, ?_,
        ⟨G, S1, F1, ha2, hg2, hbS, hbF, hbi, by omega⟩, ?_, ?_⟩
      · simp only [onEvent, h1, h2, if_false, hadd, cas, if_true, ho]
        rw [ht]
      · show q2.nodes.length ≤ _
        rw [hl2]
        show q1.nodes.length ≤ _
        omega
      · intro c hc
        cases hc
        exact ⟨_, _, hc1, hc2, by omega⟩

end SlidingWindowCounter

end Garr

namespace Garr

/-- `OnFailure` of a Closed breaker whose counter publishes nothing, or a count that is not
above the thresholds, keeps the state record up to its counter. -/
theorem onFailure_closed_stays {nb : NonBlockingCircuitBreaker} {sw sw1 : SlidingWindowCounter}
    {rt rt1 : Runtime} {tk tk1 : Ticker} {fuel : Nat} {r : Option EventCount}
    (hcs : nb.s.cs = .Closed) (hctr : nb.s.counter = .sliding sw)
    (hev : sw.OnFailure fuel rt tk = some (r, sw1, rt1, tk1))
    (hno : ∀ c, r = some c → nb.checkIfExceedingFailureThreshold c = false) :
    ∃ nb1, nb.OnFailure fuel rt tk = some (nb1, rt1, tk1) ∧
      nb1.s = { nb.s with counter := .sliding sw1 } ∧ nb1.config = nb.config := by
  have h1 : nb.s.isClosed = true := by simp [NonBlockingCircuitBreakerState.isClosed, hcs]
  cases r with
  | none =>
    exact ⟨{ nb with s := { nb.s with counter := .sliding sw1 } },
      onFailure_closed_none hcs hctr hev, rfl, rfl⟩
  | some c =>
    have hex : NonBlockingCircuitBreaker.checkIfExceedingFailureThreshold
        { nb with s := { nb.s with counter := .sliding sw1 } } c = false := hno c rfl
    refine ⟨NonBlockingCircuitBreaker.notifyCountUpdated
      { nb with s := { nb.s with counter := .sliding sw1 } } c, ?_, rfl, rfl⟩
    simp only [NonBlockingCircuitBreaker.OnFailure, h1, hctr, EventCounter.OnFailure, hev,
      Option.map_some', if_true, hex, Bool.false_eq_true, if_false]

/-- A count of at most `2^64` events is not above the thresholds of a breaker whose failure
rate threshold is at least 1. -/
theorem check_threshold_one (nb : NonBlockingCircuitBreaker) (c : EventCount) (A B : Nat)
    (hs : c.success = wrap64 A) (hf : c.failure = wrap64 B) (hAB : A + B ≤ 2 ^ 64)
    (hthr : F64.le (.fin 1 0) nb.config.failureRateThreshold = true) :
    nb.checkIfExceedingFailureThreshold c = false := by
  unfold NonBlockingCircuitBreaker.checkIfExceedingFailureThreshold
  by_cases h0 : 0 < c.Total
  · rw [failureRate_not_above_one c A B hs hf hAB h0 _ hthr]
    simp
  · simp [h0]

/-- The breaker built by `NewNonBlockingCircuitBreaker` from a valid configuration is
Closed with the counter built by `NewSlidingWindowCounter`. -/
theorem newBreaker_closed (tk : Ticker) (cfg : CircuitBreakerConfig)
    (hval : cfg.Validate = none) :
    ∃ nb0 tk0, (NewNonBlockingCircuitBreaker (some tk) (some cfg)).1 = some (nb0, tk0) ∧
      nb0.s.cs = .Closed ∧ nb0.config = cfg ∧
      nb0.s.counter = .sliding (NewSlidingWindowCounter tk cfg.counterSlidingWindow
        cfg.counterUpdateInterval).1 := by
  simp only [NewNonBlockingCircuitBreaker, hval]
  exact ⟨_, _, rfl, rfl, rfl, rfl⟩

/-- A Closed breaker whose failure rate threshold is at least 1 and whose counter accounts
for at most `N` events stays Closed under events as long as at most `2^64` events are
accounted for. -/
theorem runEvents_closed (fuel : Nat) (evs : List Bool) :
    ∀ (nb : NonBlockingCircuitBreaker) (sw : SlidingWindowCounter) (rt : Runtime) (tk : Ticker)
      (N : Nat), nb.s.cs = .Closed → nb.s.counter = .sliding sw → sw.Counts N →
      F64.le (.fin 1 0) nb.config.failureRateThreshold = true →
      N + evs.length ≤ 2 ^ 64 → 2 * (sw.reservoir.nodes.length + evs.length) + 4 ≤ fuel →
      ∃ nb1 rt1 tk1, nb.runEvents fuel rt tk evs = some (nb1, rt1, tk1) ∧
        nb1.s.cs = .Closed ∧ nb1.config = nb.config := by
  induction evs with
  | nil =>
    intro nb sw rt tk N hcs _ _ _ _ _
    exact ⟨nb, rt, tk, rfl, hcs, rfl⟩
  | cons ev evs ih =>
    intro nb sw rt tk N hcs hctr hcount hthr hN hf
    simp only [List.length_cons] at hN hf
    obtain ⟨r, sw1, rt1, hev, hcount1, hl1, hpub⟩ :=
      SlidingWindowCounter.counts_onEvent hcount rt tk ev
        (by omega : 2 * sw.reservoir.nodes.length + 4 ≤ fuel)
    have hstep : ∃ nb1, (if ev = true then nb.OnSuccess fuel rt tk
        else nb.OnFailure fuel rt tk) = some (nb1, rt1, tk.Tick.2) ∧
        nb1.s = { nb.s with counter := .sliding sw1 } ∧ nb1.config = nb.config := by
      cases ev with
      | true =>
        obtain ⟨nb1, h1, h2, h3, -⟩ := onSuccess_closed_spec hcs hctr hev
        exact ⟨nb1, by simpa using h1, h2, h3⟩
      | false =>
        obtain ⟨nb1, h1, h2, h3⟩ := onFailure_closed_stays hcs hctr hev (fun c hc => by
          obtain ⟨A, B, hA, hB, hAB⟩ := hpub c hc
          exact check_threshold_one nb c A B hA hB (by omega) hthr)
        exact ⟨nb1, by simpa using h1, h2, h3⟩
    obtain ⟨nb1, hs1, hs2, hs3⟩ := hstep
    obtain ⟨nb2, rt2, tk2, hrun, hcs2, hcfg2⟩ := ih nb1 sw1 rt1 tk.Tick.2 (N + 1)
      (by rw [hs2]; exact hcs) (by rw [hs2]) hcount1 (by rw [hs3]; exact hthr) (by omega)
      (by omega)
    refine ⟨nb2, rt2, tk2, ?_, hcs2, hcfg2.trans hs3⟩
    simp only [NonBlockingCircuitBreaker.runEvents, hs1]
    exact hrun

end Garr

namespace Garr

/-- The breaker built with `thresholdOneConfig` on `longTicker`. -/
theorem sameBucketBreaker_new :
    thresholdOneConfig.Validate = none ∧
    (NewNonBlockingCircuitBreaker (some longTicker) (some thresholdOneConfig)).1 =
      some (sameBucketBreaker 0 0, { longTicker with pos := 2 }) :=
  ⟨by decide, rfl⟩

/-- A success reported at tick 0 to the breaker `sameBucketBreaker S F`. -/
theorem sameBucketBreaker_onSuccess (fuel : Nat) (rt : Runtime) (S F : Int) (pos : Nat)
    (hpos : pos < 2 ^ 64 + 3) :
    (sameBucketBreaker S F).OnSuccess fuel rt { longTicker with pos := pos } =
      some (sameBucketBreaker (wrap64 (S + 1)) F, rt, { longTicker with pos := pos + 1 }) := by
  have htick : wrap64 (longTicker.ticks pos) = 0 := by
    show wrap64 (if pos < 2 ^ 64 + 3 then 0 else 5) = 0
    rw [if_pos hpos]
    rfl
  have h5 : wrap64 5 = 5 := by decide
  simp [NonBlockingCircuitBreaker.OnSuccess, sameBucketBreaker,
    NonBlockingCircuitBreakerState.isClosed, EventCounter.OnSuccess,
    SlidingWindowCounter.OnSuccess, SlidingWindowCounter.onEvent, htick, Bucket.ofCounts, h5,
    Bucket.add, LongAdder.Add, JDKAdder.Add, NewJDKAdder, Striped64.casBase, cas, Ticker.Tick]

/-- A failure reported at tick 0 to the breaker `sameBucketBreaker S F`. -/
theorem sameBucketBreaker_onFailure (fuel : Nat) (rt : Runtime) (S F : Int) (pos : Nat)
    (hpos : pos < 2 ^ 64 + 3) :
    (sameBucketBreaker S F).OnFailure fuel rt { longTicker with pos := pos } =
      some (sameBucketBreaker S (wrap64 (F + 1)), rt, { longTicker with pos := pos + 1 }) := by
  have htick : wrap64 (longTicker.ticks pos) = 0 := by
    show wrap64 (if pos < 2 ^ 64 + 3 then 0 else 5) = 0
    rw [if_pos hpos]
    rfl
  have h5 : wrap64 5 = 5 := by decide
  simp [NonBlockingCircuitBreaker.OnFailure, sameBucketBreaker,
    NonBlockingCircuitBreakerState.isClosed, EventCounter.OnFailure,
    SlidingWindowCounter.OnFailure, SlidingWindowCounter.onEvent, htick, Bucket.ofCounts, h5,
    Bucket.add, LongAdder.Add, JDKAdder.Add, NewJDKAdder, Striped64.casBase, cas, Ticker.Tick]

/-- The events of two lists reported in order. -/
theorem breaker_runEvents_append (fuel : Nat) (evs1 evs2 : List Bool) :
    ∀ (nb : NonBlockingCircuitBreaker) (rt : Runtime) (tk : Ticker),
      nb.runEvents fuel rt tk (evs1 ++ evs2) =
        (nb.runEvents fuel rt tk evs1).bind fun r => r.1.runEvents fuel r.2.1 r.2.2 evs2 := by
  induction evs1 with
  | nil => intro nb rt tk; rfl
  | cons ev evs ih =>
    intro nb rt tk
    simp only [List.cons_append, NonBlockingCircuitBreaker.runEvents]
    cases h : (if ev = true then nb.OnSuccess fuel rt tk else nb.OnFailure fuel rt tk) with
    | none => rfl
    | some r => exact ih r.1 r.2.1 r.2.2

/-- The successes reported at tick 0 to the breaker `sameBucketBreaker S F` are all added
to the current bucket, in `int64`. -/
theorem sameBucketBreaker_successes (fuel : Nat) (rt : Runtime) (F : Int) (n : Nat) :
    ∀ (S : Int) (pos : Nat), IsInt64 S → pos + n ≤ 2 ^ 64 + 3 →
      (sameBucketBreaker S F).runEvents fuel rt { longTicker with pos := pos }
          (List.replicate n true) =
        some (sameBucketBreaker (wrap64 (S + n)) F, rt, { longTicker with pos := pos + n }) := by
  induction n with
  | zero =>
    intro S pos hS _
    simp [NonBlockingCircuitBreaker.runEvents, wrap64_of_isInt64 hS]
  | succ n ih =>
    intro S pos hS hpos
    simp only [List.replicate_succ, NonBlockingCircuitBreaker.runEvents, if_true]
    rw [sameBucketBreaker_onSuccess fuel rt S F pos (by omega)]
    simp only []
    rw [ih (wrap64 (S + 1)) (pos + 1) (wrap64_isInt64 _) (by omega), wrap64_add_left]
    have e1 : S + 1 + (n : Int) = S + ((n + 1 : Nat) : Int) := by push_cast; ring
    have e2 : pos + 1 + n = pos + (n + 1) := by omega
    rw [e1, e2]

end Garr

namespace Garr

/-- The failure reported at tick 5 to the breaker whose current bucket, created at tick 0,
holds the success count -1 and the failure count 2 publishes these counts, whose total is 1
and whose failure rate is 2, and opens the breaker. -/
theorem sameBucketBreaker_trips :
    ((sameBucketBreaker (-1) 2).OnFailure 10 exampleRuntime
      { longTicker with pos := 2 ^ 64 + 3 }).map (fun r => (r.1.s.cs, r.1.s.counter.Count)) =
      some (.Open, EventCountZero) ∧
    (NewEventCount (-1) 2).Total = 1 ∧
    (NewEventCount (-1) 2).FailureRate = F64.fin (2 ^ 52) (-51) :=
  ⟨rfl, rfl, rfl⟩

/-- Counterexample to C37 as stated: a breaker built with the failure rate threshold 1 (a
configuration that `Validate` accepts), to which `2^64 - 1` successes and 2 failures are
reported at tick 0 and a failure at tick 5, is Open after the last event: the success
adder of the first bucket has wrapped around to -1, so the published total is 1 for 2
failures. -/
theorem breaker_threshold_one_opens :
    thresholdOneConfig.Validate = none ∧
    thresholdOneConfig.failureRateThreshold = F64.fin 1 0 ∧
    (NewNonBlockingCircuitBreaker (some longTicker) (some thresholdOneConfig)).1 =
      some (sameBucketBreaker 0 0, { longTicker with pos := 2 }) ∧
    ((sameBucketBreaker 0 0).runEvents 10 exampleRuntime { longTicker with pos := 2 }
      (List.replicate (2 ^ 64 - 1) true ++ [false, false, false])).map (fun r => r.1.s.cs) =
      some .Open := by
  refine ⟨by decide, rfl, rfl, ?_⟩
  have h1 := sameBucketBreaker_successes 10 exampleRuntime 0 (2 ^ 64 - 1) 0 2 (by decide)
    (by decide)
  have h2 : wrap64 (0 + ((2 ^ 64 - 1 : Nat) : Int)) = -1 := by decide
  have h3 : 2 + (2 ^ 64 - 1) = 2 ^ 64 + 1 := by decide
  rw [h2, h3] at h1
  have h4 := sameBucketBreaker_onFailure 10 exampleRuntime (-1) 0 (2 ^ 64 + 1) (by decide)
  have h5 := sameBucketBreaker_onFailure 10 exampleRuntime (-1) (wrap64 (0 + 1))
    (2 ^ 64 + 1 + 1) (by decide)
  have h6 : wrap64 (wrap64 (0 + 1) + 1) = 2 := by decide
  have h7 : 2 ^ 64 + 1 + 1 + 1 = 2 ^ 64 + 3 := by decide
  rw [h6, h7] at h5
  rw [breaker_runEvents_append, h1]
  simp only [Option.some_bind, NonBlockingCircuitBreaker.runEvents, Bool.false_eq_true,
    if_false, h4, h5]
  rfl

/-- C37 (amended): a breaker built from a configuration that `Validate` accepts and whose
failure rate threshold is 1 (at least 1, and at most 1 since the configuration is valid)
is Closed, and it is Closed after every sequence of at most `2^64` `OnSuccess`/`OnFailure`
events reported by one goroutine, whatever the ticks; every event returns. -/
theorem breaker_threshold_one_closed (tk : Ticker) (cfg : CircuitBreakerConfig) (rt : Runtime)
    (evs : List Bool) (fuel : Nat) (hval : cfg.Validate = none)
    (hthr : F64.le (.fin 1 0) cfg.failureRateThreshold = true) (hlen : evs.length ≤ 2 ^ 64)
    (hf : 2 * evs.length + 6 ≤ fuel) :
    ∃ nb0 tk0, (NewNonBlockingCircuitBreaker (some tk) (some cfg)).1 = some (nb0, tk0) ∧
      nb0.s.cs = .Closed ∧
      ∃ nb rt1 tk1, nb0.runEvents fuel rt tk0 evs = some (nb, rt1, tk1) ∧ nb.s.cs = .Closed := by
  obtain ⟨nb0, tk0, hnew, hcs, hcfg, hctr⟩ := newBreaker_closed tk cfg hval
  obtain ⟨nb, rt1, tk1, hrun, hcs1, -⟩ := runEvents_closed fuel evs nb0 _ rt tk0 0 hcs hctr
    (SlidingWindowCounter.counts_new tk cfg.counterSlidingWindow cfg.counterUpdateInterval)
    (by rw [hcfg]; exact hthr) (by omega)
    (by simp [NewSlidingWindowCounter, JDKLinkedQueue.new]; omega)
  exact ⟨nb0, tk0, hnew, hcs, nb, rt1, tk1, hrun, hcs1⟩

/-- Witness of C37 (amended): the configuration `thresholdOneConfig`, a breaker built at
tick 0, and two failures, a success and a failure reported at the ticks 1, 6, 12 and 20. -/
theorem breaker_threshold_one_closed_witness :
    thresholdOneConfig.Validate = none ∧
    F64.le (.fin 1 0) thresholdOneConfig.failureRateThreshold = true ∧
    [false, false, true, false].length ≤ 2 ^ 64 ∧ 2 * [false, false, true, false].length + 6 ≤ 14 ∧
    ∃ nb0 tk0, (NewNonBlockingCircuitBreaker (some (tickerOf [0, 0, 1, 6, 12, 20]))
        (some thresholdOneConfig)).1 = some (nb0, tk0) ∧
      nb0.s.cs = .Closed ∧
      ∃ nb rt1 tk1, nb0.runEvents 14 exampleRuntime tk0 [false, false, true, false] =
        some (nb, rt1, tk1) ∧ nb.s.cs = .Closed :=
  ⟨by decide, by decide, by decide, by decide,
    breaker_threshold_one_closed (tickerOf [0, 0, 1, 6, 12, 20]) thresholdOneConfig
      exampleRuntime [false, false, true, false] 14 (by decide) (by decide) (by decide)
      (by decide)⟩

end Garr

namespace Garr

/-! ## striped64 under an adversarial oracle -/

/-- The sum of the cells among the first `n` slots, slot by slot. -/
theorem sum_take_filterMap (l : List (Option Int)) (n : Nat) :
    ((l.take n).filterMap id).sum = ((List.range n).map fun i => (l.getD i none).getD 0).sum := by
  induction n with
  | zero => simp
  | succ n ih =>
    rw [List.take_succ, List.filterMap_append, List.sum_append, ih, List.range_succ,
      List.map_append, List.sum_append]
    congr 1
    simp only [List.map_cons, List.map_nil, List.sum_cons, List.sum_nil, add_zero,
      List.getD_eq_getElem?_getD]
    cases h : l[n]? with
    | none => simp
    | some o => cases o <;> simp

/-- A sum over the first `n1` positions whose terms vanish from `n` on. -/
theorem sum_range_extend (g : Nat → Int) (n n1 : Nat) (h : n ≤ n1)
    (h0 : ∀ i, n ≤ i → g i = 0) :
    ((List.range n1).map g).sum = ((List.range n).map g).sum := by
  induction n1 with
  | zero =>
    have : n = 0 := by omega
    rw [this]
  | succ k ih =>
    by_cases hk : n ≤ k
    · rw [List.range_succ, List.map_append, List.sum_append, ih hk]
      simp [h0 k hk]
    · have : n = k + 1 := by omega
      rw [this]

/-- A sum over the first `n` positions of which one term is changed. -/
theorem sum_range_update (g g1 : Nat → Int) (n j : Nat) (hj : j < n)
    (h : ∀ i, i ≠ j → g1 i = g i) :
    ((List.range n).map g1).sum = ((List.range n).map g).sum + (g1 j - g j) := by
  induction n with
  | zero => omega
  | succ k ih =>
    rw [List.range_succ, List.map_append, List.sum_append, List.map_append, List.sum_append]
    simp only [List.map_cons, List.map_nil, List.sum_cons, List.sum_nil, add_zero]
    by_cases hk : j < k
    · rw [ih hk, h k (by omega)]
      ring
    · have hjk : j = k := by omega
      subst hjk
      have : ((List.range j).map g1) = (List.range j).map g := by
        apply List.map_congr_left
        intro i hi
        exact h i (by have := List.mem_range.1 hi; omega)
      rw [this]
      ring

/-- The exact sum of `base` and of the cells of the table. -/
theorem cells_vals_sum (c : Cells) :
    c.vals.sum = ((List.range c.len).map fun i => (c.slots.getD i none).getD 0).sum := by
  unfold Cells.vals
  exact sum_take_filterMap c.slots c.len

namespace Striped64

theorem grown_refl (s : Striped64) : s.Grown s :=
  ⟨rfl, rfl, fun h => h, fun as h => ⟨as, h, le_refl _, fun _ => rfl⟩⟩

theorem grown_trans {a b c : Striped64} (h1 : a.Grown b) (h2 : b.Grown c) : a.Grown c := by
  obtain ⟨b1, b2, b3, b4⟩ := h1
  obtain ⟨c1, c2, c3, c4⟩ := h2
  refine ⟨c1.trans b1, c2.trans b2, fun h => c3 (b3 h), fun as h => ?_⟩
  obtain ⟨as1, e1, l1, s1⟩ := b4 as h
  obtain ⟨as2, e2, l2, s2⟩ := c4 as1 e1
  exact ⟨as2, e2, le_trans l1 l2, fun j => (s2 j).trans (s1 j)⟩

/-- A state that differs only by its allocator is a state after no growth. -/
theorem grown_of_eq {s s1 : Striped64} (h1 : s1.base = s.base) (h2 : s1.cellsBusy = s.cellsBusy)
    (h3 : s1.cells = s.cells) : s.Grown s1 :=
  ⟨h1, h2, fun h => by rw [h3, h], fun as h => ⟨as, by rw [h3, h], le_refl _, fun _ => rfl⟩⟩

/-- Consistency depends on `base` and on the table only. -/
theorem ok_of_eq {s s1 : Striped64} (h : s.OK) (h1 : s1.base = s.base) (h3 : s1.cells = s.cells) :
    s1.OK := by
  obtain ⟨hb, hc⟩ := h
  exact ⟨by rw [h1]; exact hb, fun as has => hc as (by rw [← h3]; exact has)⟩

end Striped64

end Garr

namespace Garr

theorem getD_set_slots (l : List (Option Int)) (j i : Nat) (a : Option Int) (hj : j < l.length) :
    (l.set j a).getD i none = if i = j then a else l.getD i none := by
  simp only [List.getD_eq_getElem?_getD, List.getElem?_set]
  by_cases h : j = i
  · subst h
    simp [hj]
  · have h1 : ¬ i = j := fun e => h e.symm
    simp [h, h1]

namespace Striped64

/-- A cell stored in a slot of the table: the state is consistent and `x` has been added
once, when the slot was nil and the cell holds `x`, or held `v` and the cell holds
`v + x`. -/
theorem acted_setSlot {s s1 : Striped64} {as as1 : Cells} (x w : Int) (j : Nat)
    (hok : s.OK) (hc : s.cells = some as) (hj : j < as.len) (hw : IsInt64 w)
    (hcase : (as.slots.getD j none = none ∧ w = x) ∨
      ∃ v, as.slots.getD j none = some v ∧ w = wrap64 (v + x))
    (hbase : s1.base = s.base) (hc1 : s1.cells = some as1) (hlen1 : as1.len = as.len)
    (hslots : as1.slots = as.slots.set j (some w)) :
    s1.OK ∧ Acted x s s1 := by
  obtain ⟨hb, hcells⟩ := hok
  obtain ⟨h0, hlen, hbeyond, hint⟩ := hcells as hc
  have hjl : j < as.slots.length := by omega
  constructor
  · refine ⟨by rw [hbase]; exact hb, fun as2 h2 => ?_⟩
    have e : as2 = as1 := by
      rw [hc1] at h2
      exact (Option.some.inj h2).symm
    subst e
    refine ⟨by omega, by rw [hslots, hlen1, List.length_set]; exact hlen, fun i hi => ?_,
      fun i v hv => ?_⟩
    · rw [hslots, getD_set_slots _ _ _ _ hjl, if_neg (by omega)]
      exact hbeyond i (by omega)
    · rw [hslots, getD_set_slots _ _ _ _ hjl] at hv
      split_ifs at hv with hij
      · cases hv
        exact hw
      · exact hint i v hv
  · right
    right
    refine ⟨hbase, as, as1, j, hc, hc1, hlen1, hj, fun i hi => ?_, ?_⟩
    · rw [hslots, getD_set_slots _ _ _ _ hjl, if_neg hi]
    · have e : as1.slots.getD j none = some w := by
        rw [hslots, getD_set_slots _ _ _ _ hjl, if_pos rfl]
      rcases hcase with ⟨h1, h2⟩ | ⟨v, h1, h2⟩
      · exact Or.inl ⟨h1, by rw [e, h2]⟩
      · exact Or.inr ⟨v, h1, by rw [e, h2]⟩

/-- The table made longer within its backing array. -/
theorem grown_extend {s s1 : Striped64} {as as1 : Cells} (hok : s.OK) (hc : s.cells = some as)
    (hbase : s1.base = s.base) (hcb : s1.cellsBusy = s.cellsBusy) (hc1 : s1.cells = some as1)
    (hlen1 : as1.len = as.slots.length) (hslots : as1.slots = as.slots) :
    s1.OK ∧ s.Grown s1 := by
  obtain ⟨hb, hcells⟩ := hok
  obtain ⟨h0, hlen, hbeyond, hint⟩ := hcells as hc
  constructor
  · refine ⟨by rw [hbase]; exact hb, fun as2 h2 => ?_⟩
    have e : as2 = as1 := by
      rw [hc1] at h2
      exact (Option.some.inj h2).symm
    subst e
    refine ⟨by omega, by rw [hslots, hlen1], fun i hi => ?_, fun i v hv => ?_⟩
    · rw [hslots, List.getD_eq_getElem?_getD, List.getElem?_eq_none (by omega)]
      rfl
    · rw [hslots] at hv
      exact hint i v hv
  · refine ⟨hbase, hcb, fun h => (by rw [hc] at h; cases h), fun as0 h0' => ?_⟩
    rw [hc] at h0'
    cases h0'
    exact ⟨as1, hc1, by omega, fun j => by rw [hslots]⟩

/-- The table copied into a new backing array of twice the length. -/
theorem grown_copy {s s1 : Striped64} {as as1 : Cells} (hok : s.OK) (hc : s.cells = some as)
    (hfull : ¬ as.len < as.slots.length)
    (hbase : s1.base = s.base) (hcb : s1.cellsBusy = s.cellsBusy) (hc1 : s1.cells = some as1)
    (hlen1 : as1.len = as.slots.length * 2)
    (hslots : as1.slots = as.slots.take as.len ++
      List.replicate (as.slots.length * 4 - as.len) none) :
    s1.OK ∧ s.Grown s1 := by
  obtain ⟨hb, hcells⟩ := hok
  obtain ⟨h0, hlen, hbeyond, hint⟩ := hcells as hc
  have heq : as.len = as.slots.length := by omega
  have hget : ∀ j, as1.slots.getD j none = as.slots.getD j none := by
    intro j
    rw [hslots, heq, List.take_length]
    simp only [List.getD_eq_getElem?_getD]
    by_cases hj : j < as.slots.length
    · rw [List.getElem?_append_left hj]
    · rw [List.getElem?_append_right (by omega),
        List.getElem?_eq_none (by omega : as.slots.length ≤ j)]
      by_cases hj2 : j - as.slots.length < as.slots.length * 4 - as.slots.length
      · rw [List.getElem?_replicate_of_lt hj2]
        rfl
      · rw [List.getElem?_eq_none (by simp; omega)]
  constructor
  · refine ⟨by rw [hbase]; exact hb, fun as2 h2 => ?_⟩
    have e : as2 = as1 := by
      rw [hc1] at h2
      exact (Option.some.inj h2).symm
    subst e
    refine ⟨by omega, ?_, fun i hi => ?_, fun i v hv => ?_⟩
    · rw [hslots, hlen1, List.length_append, List.length_take, List.length_replicate]
      omega
    · rw [hget]
      exact hbeyond i (by omega)
    · rw [hget] at hv
      exact hint i v hv
  · refine ⟨hbase, hcb, fun h => (by rw [hc] at h; cases h), fun as0 h0' => ?_⟩
    rw [hc] at h0'
    cases h0'
    exact ⟨as1, hc1, by omega, hget⟩

end Striped64

end Garr

namespace Garr

/-- The table that `accumulate` makes first: two slots in a backing array of four, one
cell that holds `x`. -/
theorem Striped64.acted_init {s s1 : Striped64} {as1 : Cells} (x : Int) (j : Nat) (hx : IsInt64 x)
    (hok : s.OK) (hc : s.cells = none) (hj : j < 2) (hbase : s1.base = s.base)
    (hc1 : s1.cells = some as1) (hlen1 : as1.len = 2)
    (hslots : as1.slots = (List.replicate 4 none).set j (some x)) :
    s1.OK ∧ Striped64.Acted x s s1 := by
  constructor
  · refine ⟨by rw [hbase]; exact hok.1, fun as2 h2 => ?_⟩
    have e : as2 = as1 := by
      rw [hc1] at h2
      exact (Option.some.inj h2).symm
    subst e
    refine ⟨by omega, by rw [hslots, hlen1]; simp, fun i hi => ?_, fun i v hv => ?_⟩
    · rw [hslots, getD_set_slots _ _ _ _ (by simp; omega), if_neg (by omega)]
      simp only [List.getD_eq_getElem?_getD]
      by_cases h4 : i < 4
      · rw [List.getElem?_replicate_of_lt h4]
        rfl
      · rw [List.getElem?_eq_none (by simp; omega)]
        rfl
    · rw [hslots, getD_set_slots _ _ _ _ (by simp; omega)] at hv
      split_ifs at hv with hij
      · cases hv
        exact hx
      · simp only [List.getD_eq_getElem?_getD] at hv
        by_cases h4 : i < 4
        · rw [List.getElem?_replicate_of_lt h4] at hv
          cases hv
        · rw [List.getElem?_eq_none (by simp; omega)] at hv
          cases hv
  · exact Or.inr (Or.inl ⟨hbase, hc, as1, j, hc1, hlen1, hj, hslots⟩)

/-- Every run of the loop of `accumulate` that returns, whatever the oracle answers, has
made the table longer any number of times and then added `x` once; the lock is free when
it returns and the state is consistent. -/
theorem accumulateOracle_spec (mx x : Int) (hx : IsInt64 x) :
    ∀ (fuel : Nat) (s : Striped64) (o : Oracle) (index : Nat) (w c : Bool)
      (r : Striped64 × Oracle), s.OK → s.cellsBusy = 0 →
      accumulateOracle mx x fuel s o index w c = some r →
      r.1.OK ∧ r.1.cellsBusy = 0 ∧ ∃ s1, s.Grown s1 ∧ s1.OK ∧ Striped64.Acted x s1 r.1 := by
  intro fuel
  induction fuel with
  | zero =>
    intro s o index w c r _ _ h
    simp [accumulateOracle] at h
  | succ fuel ih =>
    intro s o index w c r hok hbusy h
    have hcont : ∀ (s' : Striped64) (o' : Oracle) (i' : Nat) (w' c' : Bool), s.Grown s' →
        s'.OK → s'.cellsBusy = 0 → accumulateOracle mx x fuel s' o' i' w' c' = some r →
        r.1.OK ∧ r.1.cellsBusy = 0 ∧ ∃ s1, s.Grown s1 ∧ s1.OK ∧ Striped64.Acted x s1 r.1 := by
      intro s' o' i' w' c' hg hok' hb' h'
      obtain ⟨a1, a2, s1, g1, ok1, act⟩ := ih s' o' i' w' c' r hok' hb' h'
      exact ⟨a1, a2, s1, Striped64.grown_trans hg g1, ok1, act⟩
    have hsame : ∀ (o' : Oracle) (i' : Nat) (w' c' : Bool),
        accumulateOracle mx x fuel s o' i' w' c' = some r →
        r.1.OK ∧ r.1.cellsBusy = 0 ∧ ∃ s1, s.Grown s1 ∧ s1.OK ∧ Striped64.Acted x s1 r.1 :=
      fun o' i' w' c' h' => hcont s o' i' w' c' (Striped64.grown_refl s) hok hbusy h'
    have hunlock : ∀ (o' : Oracle) (i' : Nat) (w' c' : Bool),
        accumulateOracle mx x fuel { s with cellsBusy := 0 } o' i' w' c' = some r →
        r.1.OK ∧ r.1.cellsBusy = 0 ∧ ∃ s1, s.Grown s1 ∧ s1.OK ∧ Striped64.Acted x s1 r.1 :=
      fun o' i' w' c' h' => hcont { s with cellsBusy := 0 } o' i' w' c'
        (@Striped64.grown_of_eq s { s with cellsBusy := 0 } rfl hbusy.symm rfl)
        (@Striped64.ok_of_eq s { s with cellsBusy := 0 } hok rfl rfl) rfl h'
    have hjlt : ∀ as : Cells, ¬ as.len = 0 → index &&& (as.len - 1) < as.len := by
      intro as h0
      have := Nat.and_le_right (n := index) (m := as.len - 1)
      omega
    rw [accumulateOracle] at h
    split at h
    · rename_i as hc
      by_cases hlen0 : as.len = 0
      · rw [if_pos hlen0] at h
        exact hsame _ _ _ _ h
      · rw [if_neg hlen0] at h
        have hj := hjlt as hlen0
        dsimp only at h
        split at h
        · cases h
        · rename_i hslot
          have hnil : as.slots.getD (index &&& (as.len - 1)) none = none := by
            rw [List.getD_eq_getElem?_getD, hslot]
            rfl
          have key := @Striped64.acted_setSlot s
            ⟨some (as.setSlot (index &&& (as.len - 1)) x), 0, s.base, s.nextArr⟩ as
            (as.setSlot (index &&& (as.len - 1)) x) x x (index &&& (as.len - 1)) hok hc hj hx
            (Or.inl ⟨hnil, rfl⟩) rfl rfl rfl rfl
          split_ifs at h
          all_goals first
            | exact hsame _ _ _ _ h
            | exact hunlock _ _ _ _ h
            | (dsimp only at h
               cases h
               exact ⟨key.1, rfl, s, Striped64.grown_refl s, hok, key.2⟩)
        · rename_i v hslot
          have hval : as.slots.getD (index &&& (as.len - 1)) none = some v := by
            rw [List.getD_eq_getElem?_getD, hslot]
            rfl
          have key := @Striped64.acted_setSlot s
            ⟨some (as.setSlot (index &&& (as.len - 1)) (wrap64 (v + x))), s.cellsBusy, s.base,
              s.nextArr⟩ as
            (as.setSlot (index &&& (as.len - 1)) (wrap64 (v + x))) x (wrap64 (v + x))
            (index &&& (as.len - 1)) hok hc hj (wrap64_isInt64 _) (Or.inr ⟨v, hval, rfl⟩)
            rfl rfl rfl rfl
          have kext := @Striped64.grown_extend s
            ⟨some ⟨as.arr, as.slots.length, as.slots⟩, 0, s.base, s.nextArr⟩ as
            ⟨as.arr, as.slots.length, as.slots⟩ hok hc rfl hbusy.symm rfl rfl rfl
          have kcopy := fun (hfull : ¬ as.len < as.slots.length) =>
            @Striped64.grown_copy s
              ⟨some ⟨s.nextArr, as.slots.length * 2, as.slots.take as.len ++
                List.replicate (as.slots.length * 4 - as.len) none⟩, 0, s.base, s.nextArr + 1⟩
              as ⟨s.nextArr, as.slots.length * 2, as.slots.take as.len ++
                List.replicate (as.slots.length * 4 - as.len) none⟩ hok hc hfull rfl
              hbusy.symm rfl rfl rfl
          split_ifs at h
          all_goals first
            | exact hsame _ _ _ _ h
            | exact hcont _ _ _ _ _ kext.2 kext.1 rfl h
            | exact hcont _ _ _ _ _ (kcopy (by assumption)).2 (kcopy (by assumption)).1 rfl h
            | (cases h
               exact ⟨key.1, hbusy, s, Striped64.grown_refl s, hok, key.2⟩)
    · rename_i hc
      dsimp only at h
      by_cases h1 : o.next.1 = true ∧ o.next.2.next.1 = true
      · rw [if_pos h1] at h
        cases h
        have hj : index &&& 1 < 2 := by
          have := Nat.and_le_right (n := index) (m := 1)
          omega
        have key := @Striped64.acted_init s
          ⟨some ⟨s.nextArr, 2, (List.replicate 4 none).set (index &&& 1) (some x)⟩, 0, s.base,
            s.nextArr + 1⟩ _ x (index &&& 1) hx hok hc hj rfl rfl rfl rfl
        exact ⟨key.1, rfl, s, Striped64.grown_refl s, hok, key.2⟩
      · rw [if_neg h1] at h
        split_ifs at h
        all_goals first
          | exact hsame _ _ _ _ h
          | (cases h
             exact ⟨⟨wrap64_isInt64 _, hok.2⟩, hbusy, s, Striped64.grown_refl s, hok,
               Or.inl ⟨rfl, rfl⟩⟩)

end Garr

namespace Garr

/-- Every run of `accumulate` that returns, whatever the oracle answers. -/
theorem accumulateOracle_method_spec (fuel : Nat) (s : Striped64) (rt : Runtime) (o : Oracle)
    (index : Nat) (x : Int) (w : Bool) (r : Striped64 × Runtime × Oracle) (hx : IsInt64 x)
    (hok : s.OK) (hbusy : s.cellsBusy = 0)
    (h : Striped64.accumulateOracle fuel s rt o index x w = some r) :
    r.1.OK ∧ r.1.cellsBusy = 0 ∧ ∃ s1, s.Grown s1 ∧ s1.OK ∧ Striped64.Acted x s1 r.1 := by
  unfold Striped64.accumulateOracle at h
  dsimp only at h
  rw [Option.map_eq_some'] at h
  obtain ⟨q, hq, e⟩ := h
  subst e
  exact accumulateOracle_spec _ x hx fuel s o _ _ false q hok hbusy hq

/-- Every run of `JDKAdder.Add` that returns, whatever the oracle answers, has made the
table longer any number of times and then added `x` once. -/
theorem addOracle_spec (fuel : Nat) (u : JDKAdder) (rt : Runtime) (o : Oracle) (x : Int)
    (r : JDKAdder × Runtime × Oracle) (hx : IsInt64 x) (hok : Striped64.OK u)
    (hbusy : u.cellsBusy = 0) (h : JDKAdder.AddOracle fuel u rt o x = some r) :
    Striped64.OK r.1 ∧ r.1.cellsBusy = 0 ∧
      ∃ s1, Striped64.Grown u s1 ∧ s1.OK ∧ Striped64.Acted x s1 r.1 := by
  unfold JDKAdder.AddOracle at h
  split at h
  · rename_i as hc
    by_cases hlen0 : as.len = 0
    · rw [if_pos hlen0] at h
      exact accumulateOracle_method_spec _ _ _ _ _ _ _ _ hx hok hbusy h
    · rw [if_neg hlen0] at h
      have hj : (getRandomInt rt).1 &&& (as.len - 1) < as.len := by
        have := Nat.and_le_right (n := (getRandomInt rt).1) (m := as.len - 1)
        omega
      dsimp only at h
      split at h
      · cases h
      · exact accumulateOracle_method_spec _ _ _ _ _ _ _ _ hx hok hbusy h
      · rename_i v hslot
        have hval : as.slots.getD ((getRandomInt rt).1 &&& (as.len - 1)) none = some v := by
          rw [List.getD_eq_getElem?_getD, hslot]
          rfl
        have key := @Striped64.acted_setSlot u
          ⟨some (as.setSlot ((getRandomInt rt).1 &&& (as.len - 1)) (wrap64 (v + x))),
            u.cellsBusy, u.base, u.nextArr⟩ as
          (as.setSlot ((getRandomInt rt).1 &&& (as.len - 1)) (wrap64 (v + x))) x
          (wrap64 (v + x)) ((getRandomInt rt).1 &&& (as.len - 1)) hok hc hj (wrap64_isInt64 _)
          (Or.inr ⟨v, hval, rfl⟩) rfl rfl rfl rfl
        split_ifs at h
        · cases h
          exact ⟨key.1, hbusy, u, Striped64.grown_refl u, hok, key.2⟩
        · exact accumulateOracle_method_spec _ _ _ _ _ _ _ _ hx hok hbusy h
  · split_ifs at h
    · cases h
      exact ⟨⟨wrap64_isInt64 _, hok.2⟩, hbusy, u, Striped64.grown_refl u, hok,
        Or.inl ⟨rfl, rfl⟩⟩
    · exact accumulateOracle_method_spec _ _ _ _ _ _ _ _ hx hok hbusy h

namespace Striped64

/-- The method `Sum` returns the exact total wrapped to `int64`. -/
theorem sum_eq_total {s : Striped64} (hok : s.OK) : JDKAdder.Sum s = wrap64 s.total := by
  unfold JDKAdder.Sum total
  cases hc : s.cells with
  | none =>
    simp only [Option.map_none', Option.getD_none, add_zero]
    exact (wrap64_of_isInt64 hok.1).symm
  | some as =>
    simp only [Option.map_some', Option.getD_some]
    exact sumWrap_eq hok.1 _

/-- Making the table longer does not change the exact total. -/
theorem total_grown {s s1 : Striped64} (hok : s.OK) (hg : s.Grown s1) : s1.total = s.total := by
  obtain ⟨hb, _, hnone, hsome⟩ := hg
  unfold total
  rw [hb]
  cases hc : s.cells with
  | none => rw [hnone hc]
  | some as =>
    obtain ⟨as1, hc1, hlen, hslots⟩ := hsome as hc
    obtain ⟨_, _, hbeyond, _⟩ := hok.2 as hc
    rw [hc1]
    simp only [Option.map_some', Option.getD_some]
    rw [cells_vals_sum, cells_vals_sum]
    have e : (fun i => (as1.slots.getD i none).getD 0) =
        fun i => (as.slots.getD i none).getD 0 := by
      funext i
      rw [hslots i]
    rw [e]
    congr 1
    exact sum_range_extend _ _ _ hlen (fun i hi => by rw [hbeyond i hi]; rfl)

/-- One addition of `x` changes the exact total by `x`, up to the wrap-around of the
variable that received it. -/
theorem total_acted {x : Int} {s s1 : Striped64} (hx : IsInt64 x) (hok : s.OK)
    (ha : Acted x s s1) : ∃ v, IsInt64 v ∧ s1.total = s.total + (wrap64 (v + x) - v) := by
  have hx0 : wrap64 (0 + x) - 0 = x := by
    rw [zero_add, wrap64_of_isInt64 hx, sub_zero]
  unfold total
  rcases ha with ⟨hb, hc⟩ | ⟨hb, hc, as1, j, hc1, hlen, hj, hslots⟩ |
    ⟨hb, as, as1, j, hc, hc1, hlen, hj, hother, hcase⟩
  · refine ⟨s.base, hok.1, ?_⟩
    rw [hb, hc]
    ring
  · refine ⟨0, by unfold IsInt64; omega, ?_⟩
    rw [hb, hc, hc1, hx0]
    simp only [Option.map_some', Option.getD_some, Option.map_none', Option.getD_none]
    have : as1.vals.sum = x := by
      unfold Cells.vals
      rw [hlen, hslots]
      have : j = 0 ∨ j = 1 := by omega
      rcases this with e | e <;> subst e <;> simp [List.replicate]
    rw [this]
    ring
  · obtain ⟨_, _, _, hint⟩ := hok.2 as hc
    have hsum := sum_range_update (fun i => (as.slots.getD i none).getD 0)
      (fun i => (as1.slots.getD i none).getD 0) as.len j hj
      (fun i hi => by dsimp only; rw [hother i hi])
    dsimp only at hsum
    rw [hb, hc, hc1]
    simp only [Option.map_some', Option.getD_some]
    rw [cells_vals_sum, cells_vals_sum, hlen, hsum]
    rcases hcase with ⟨h0, h1⟩ | ⟨v, h0, h1⟩
    · refine ⟨0, by unfold IsInt64; omega, ?_⟩
      rw [h0, h1, hx0]
      simp only [Option.getD_some, Option.getD_none]
      ring
    · refine ⟨v, hint j v h0, ?_⟩
      rw [h0, h1]
      simp only [Option.getD_some]
      ring

end Striped64

/-- Claim C31: with every compare-and-swap outcome and every observed value of
`cellsBusy` chosen by an oracle, every run of `JDKAdder.Add(x)` that returns from a
consistent state with `cellsBusy = 0` ends with `cellsBusy = 0` in a consistent state;
`base` plus the sum of the cells has changed by `x` in `int64` arithmetic: `Sum` returns
the former `Sum` plus `x` wrapped to 64 bits, and the exact total has changed by `x`
exactly unless the one variable that received `x` overflowed, in which case it has
changed by `x` and a multiple of `2^64`; the run made the table longer any number of
times, which leaves every slot as it was, and then changed `base` or exactly one slot. -/
theorem addOracle_adds_once (fuel : Nat) (u : JDKAdder) (rt : Runtime) (o : Oracle) (x : Int)
    (r : JDKAdder × Runtime × Oracle) (hx : IsInt64 x) (hok : Striped64.OK u)
    (hbusy : u.cellsBusy = 0) (h : JDKAdder.AddOracle fuel u rt o x = some r) :
    Striped64.OK r.1 ∧ r.1.cellsBusy = 0 ∧
      JDKAdder.Sum r.1 = wrap64 (JDKAdder.Sum u + x) ∧
      (∃ v, IsInt64 v ∧ Striped64.total r.1 = Striped64.total u + (wrap64 (v + x) - v) ∧
        (IsInt64 (v + x) → Striped64.total r.1 = Striped64.total u + x)) ∧
      ∃ s1, Striped64.Grown u s1 ∧ Striped64.Acted x s1 r.1 := by
  obtain ⟨hok1, hb1, s1, hg, hs1, hact⟩ := addOracle_spec fuel u rt o x r hx hok hbusy h
  obtain ⟨v, hv, htot⟩ := Striped64.total_acted hx hs1 hact
  rw [Striped64.total_grown hok hg] at htot
  refine ⟨hok1, hb1, ?_, ⟨v, hv, htot, fun hvx => ?_⟩, s1, hg, hact⟩
  · rw [Striped64.sum_eq_total hok1, Striped64.sum_eq_total hok, htot]
    apply wrap64_eq_of_modEq
    have h1 := wrap64_modEq (v + x)
    have h2 := wrap64_modEq (Striped64.total u)
    unfold Int.ModEq at *
    omega
  · rw [htot, wrap64_of_isInt64 hvx]
    ring

/-- A run of `Add(7)` on `contendedAdder` in which the oracle lets three compare-and-swaps
of the cell fail, then gives the lock: the table is made longer, from 2 to 4, and the
fourth compare-and-swap adds 7 to the cell that held 3. -/
theorem addOracle_adds_once_witness :
    JDKAdder.AddOracle 10 contendedAdder countingRuntime
        (oracleOf [false, false, false, true, true, true]) 7 =
      some (⟨some ⟨0, 4, [some 5, some 10, none, none]⟩, 0, 1, 1⟩,
        ⟨4, fun n => n + 1, 1⟩,
        ⟨(oracleOf [false, false, false, true, true, true]).answers, 6⟩) ∧
    JDKAdder.Sum contendedAdder = 9 ∧
    JDKAdder.Sum (⟨some ⟨0, 4, [some 5, some 10, none, none]⟩, 0, 1, 1⟩ : JDKAdder) =
      wrap64 (JDKAdder.Sum contendedAdder + 7) :=
  ⟨rfl, by decide,
    (addOracle_adds_once 10 contendedAdder countingRuntime
      (oracleOf [false, false, false, true, true, true]) 7
      (⟨some ⟨0, 4, [some 5, some 10, none, none]⟩, 0, 1, 1⟩,
        ⟨4, fun n => n + 1, 1⟩,
        ⟨(oracleOf [false, false, false, true, true, true]).answers, 6⟩)
      (by decide)
      ⟨by decide, fun as h => by
        cases h
        refine ⟨by decide, by decide, fun j hj => ?_, fun j v hv => ?_⟩
        · match j, hj with
          | j + 4, _ => rfl
          | 2, _ => rfl
          | 3, _ => rfl
        · match j, hv with
          | 0, hv => cases hv; decide
          | 1, hv => cases hv; decide
          | 2, hv => cases hv
          | 3, hv => cases hv
          | j + 4, hv => cases hv⟩
      rfl rfl).2.2.1⟩

end Garr

namespace Garr

/-- When every compare-and-swap succeeds and `cellsBusy` is always observed to be 0, the
loop of `accumulate` entered with `wasUncontended` set returns in its first iteration. -/
theorem accumulateOracle_returns (mx x : Int) (fuel : Nat) (s : Striped64) (o : Oracle)
    (index : Nat) (c : Bool) (hok : s.OK) (ho : ∀ n, o.answers n = true) :
    ∃ r, accumulateOracle mx x (fuel + 1) s o index true c = some r := by
  have h1 : o.next.1 = true := ho _
  have h2 : o.next.2.next.1 = true := ho _
  have h3 : o.next.2.next.2.next.1 = true := ho _
  rw [accumulateOracle]
  cases hc : s.cells with
  | none =>
    dsimp only
    rw [if_pos ⟨h1, h2⟩]
    exact ⟨_, rfl⟩
  | some as =>
    obtain ⟨h0, hlen, _, _⟩ := hok.2 as hc
    dsimp only
    rw [if_neg (by omega)]
    have hj : index &&& (as.len - 1) < as.slots.length := by
      have := Nat.and_le_right (n := index) (m := as.len - 1)
      omega
    rw [List.getElem?_eq_getElem hj]
    cases hs : as.slots[index &&& (as.len - 1)] with
    | none =>
      dsimp only
      rw [if_pos h1, if_pos h2, if_pos h3, if_pos h0]
      exact ⟨_, rfl⟩
    | some v =>
      dsimp only
      rw [if_neg (by simp), if_pos h1]
      exact ⟨_, rfl⟩

/-- When every compare-and-swap succeeds and `cellsBusy` is always observed to be 0,
`JDKAdder.Add` returns from every consistent state. -/
theorem addOracle_returns (fuel : Nat) (u : JDKAdder) (rt : Runtime) (o : Oracle) (x : Int)
    (hok : Striped64.OK u) (ho : ∀ n, o.answers n = true) :
    ∃ r, JDKAdder.AddOracle (fuel + 1) u rt o x = some r := by
  have h1 : o.next.1 = true := ho _
  have hacc : ∀ (rt1 : Runtime) (index : Nat),
      ∃ r, Striped64.accumulateOracle (fuel + 1) u rt1 o index x true = some r := by
    intro rt1 index
    unfold Striped64.accumulateOracle
    dsimp only
    by_cases hi : index = 0
    · rw [if_pos hi]
      obtain ⟨r, hr⟩ := accumulateOracle_returns (maxCells rt1) x fuel u o (getRandomInt rt1).1
        false hok ho
      exact ⟨_, by rw [hr]; rfl⟩
    · rw [if_neg hi]
      obtain ⟨r, hr⟩ := accumulateOracle_returns (maxCells rt1) x fuel u o index false hok ho
      exact ⟨_, by rw [hr]; rfl⟩
  unfold JDKAdder.AddOracle
  cases hc : u.cells with
  | none =>
    dsimp only
    rw [if_pos h1]
    exact ⟨_, rfl⟩
  | some as =>
    obtain ⟨h0, hlen, _, _⟩ := hok.2 as hc
    dsimp only
    rw [if_neg (by omega)]
    have hj : (getRandomInt rt).1 &&& (as.len - 1) < as.slots.length := by
      have := Nat.and_le_right (n := (getRandomInt rt).1) (m := as.len - 1)
      omega
    rw [List.getElem?_eq_getElem hj]
    cases hs : as.slots[(getRandomInt rt).1 &&& (as.len - 1)] with
    | none => exact hacc _ _
    | some v =>
      dsimp only
      rw [if_pos h1]
      exact ⟨_, rfl⟩

end Garr

namespace Garr

/-- The function `normalizeMaxCell` is 64 below 64, `2048` above 2048 and the identity in
between; `maxCells` is `4 * NumCPU` clamped in this way. -/
theorem normalizeMaxCell_spec (v : Int) :
    (v < 64 → normalizeMaxCell v = 64) ∧ (2048 < v → normalizeMaxCell v = 2048) ∧
      (64 ≤ v → v ≤ 2048 → normalizeMaxCell v = v) ∧
      64 ≤ normalizeMaxCell v ∧ normalizeMaxCell v ≤ 2048 := by
  have e : (2 : Int) ^ 11 = 2048 := by norm_num
  unfold normalizeMaxCell
  rw [e]
  refine ⟨fun h => ?_, fun h => ?_, fun h1 h2 => ?_, ?_, ?_⟩
  · rw [if_neg (by omega), if_pos h]
  · rw [if_pos (by omega)]
  · rw [if_neg (by omega), if_neg (by omega)]
  · split_ifs <;> omega
  · split_ifs <;> omega

/-- The test `n >= maxCells` of `accumulate` with a table whose length is `maxCells`: after
a failed compare-and-swap the goroutine goes on to the test for a stale table, on the way
to the growth, since `n` is the length minus one. -/
theorem Goroutine.cellCas_at_maxCells (mx : Int) (m : Mem) (g : Goroutine) (r1 r2 : Nat)
    (cur : Int) (hpc : g.pc = .cellCas) (hcur : m.vals[g.loc.a]? = some cur)
    (hne : cur ≠ g.loc.v) (hlen : (g.loc.as.len : Int) = mx) :
    g.step mx m r1 r2 = (m, g.goto .staleCells) := by
  unfold Goroutine.step
  rw [hpc]
  dsimp only
  rw [hcur]
  dsimp only
  rw [if_neg hne, if_neg (by omega)]

/-- The growth of `accumulate` from a table that fills its backing array: the table
published has twice the length. -/
theorem Goroutine.growStore_doubles (mx : Int) (m : Mem) (g : Goroutine) (r1 r2 : Nat)
    (hpc : g.pc = .growStore) :
    (g.step mx m r1 r2).1.cells = some ⟨m.arrays.length, g.loc.n * 2⟩ := by
  unfold Goroutine.step
  rw [hpc]
  rfl

set_option maxRecDepth 1000000 in
/-- The run `growthTo8` from a new `JDKAdder`. -/
theorem run_growthTo8 : (World.init [3, 15]).run 64 growthTo8 = worldAt8 := rfl

set_option maxRecDepth 1000000 in
/-- The run `growthFrom8`. -/
theorem run_growthFrom8 : worldAt8.run 64 growthFrom8 = worldAt64 := rfl

set_option maxRecDepth 1000000 in
/-- The run `growthTo128`. -/
theorem run_growthTo128 : worldAt64.run 64 growthTo128 = worldAt128 := rfl

/-- The run `growthTo64` from a new `JDKAdder`. -/
theorem run_growthTo64 : (World.init [3, 15]).run 64 growthTo64 = worldAt64 := by
  unfold growthTo64
  rw [World.run_append, run_growthTo8, run_growthFrom8]

/-- The whole run from a new `JDKAdder`. -/
theorem run_growth : (World.init [3, 15]).run 64 (growthTo64 ++ growthTo128) = worldAt128 := by
  rw [World.run_append, run_growthTo64, run_growthTo128]

/-- Claim C32, evaluated: on a machine with 8 CPUs `maxCells` is 64; in the run
`growthTo64 ++ growthTo128` of two goroutines that call `Inc`, the table has length 64 after
the first part, and the second part makes it longer: at the end no goroutine is inside
`Add`, `Sum` returns 17, the number of calls that have returned, and the table has
length 128. -/
theorem table_grows_beyond_maxCells :
    maxCells exampleRuntime = 64 ∧
    ((World.init [3, 15]).run (maxCells exampleRuntime) growthTo64).mem.cells =
      some ⟨2, 64⟩ ∧
    ((World.init [3, 15]).run (maxCells exampleRuntime) (growthTo64 ++ growthTo128)).mem.cells =
      some ⟨3, 128⟩ ∧
    ((World.init [3, 15]).run (maxCells exampleRuntime) (growthTo64 ++ growthTo128)).quiet =
      true ∧
    ((World.init [3, 15]).run (maxCells exampleRuntime) (growthTo64 ++ growthTo128)).mem.Sum =
      17 := by
  have e : maxCells exampleRuntime = 64 := rfl
  rw [e, run_growthTo64, run_growth]
  exact ⟨rfl, rfl, rfl, rfl, rfl⟩

end Garr

namespace Garr

/-- Only the three stores of `striped64.cells` change the table, and only two of them
bring a backing array. -/
theorem Goroutine.step_table (mx : Int) (m : Mem) (g : Goroutine) (r1 r2 : Nat)
    (h1 : g.pc ≠ .growExtend) (h2 : g.pc ≠ .growStore) (h3 : g.pc ≠ .initStore) :
    (g.step mx m r1 r2).1.cells = m.cells ∧
      (g.step mx m r1 r2).1.arrays.length = m.arrays.length := by
  obtain ⟨arg, calls, pc, loc⟩ := g
  cases pc
  case growExtend => exact absurd rfl h1
  case growStore => exact absurd rfl h2
  case initStore => exact absurd rfl h3
  all_goals
    simp only [Goroutine.step]
    repeat' split
    all_goals simp [Mem.newCell, Mem.storeSlot]

/-- Only the store of a cell in a slot and the two stores of a new table change the
backing arrays. -/
theorem Goroutine.step_arrays (mx : Int) (m : Mem) (g : Goroutine) (r1 r2 : Nat)
    (h1 : g.pc ≠ .attachStore) (h2 : g.pc ≠ .growStore) (h3 : g.pc ≠ .initStore) :
    (g.step mx m r1 r2).1.arrays = m.arrays := by
  obtain ⟨arg, calls, pc, loc⟩ := g
  cases pc
  case attachStore => exact absurd rfl h1
  case growStore => exact absurd rfl h2
  case initStore => exact absurd rfl h3
  all_goals
    simp only [Goroutine.step]
    repeat' split
    all_goals simp [Mem.newCell]

/-- A goroutine that does not hold the lock leaves the table and the backing arrays
alone. -/
theorem Goroutine.step_unlocked (mx : Int) (m : Mem) (g : Goroutine) (r1 r2 : Nat)
    (h : g.pc.locked = false) :
    (g.step mx m r1 r2).1.cells = m.cells ∧ (g.step mx m r1 r2).1.arrays = m.arrays := by
  have h1 : g.pc ≠ .growExtend := fun e => by rw [e] at h; cases h
  have h2 : g.pc ≠ .growStore := fun e => by rw [e] at h; cases h
  have h3 : g.pc ≠ .initStore := fun e => by rw [e] at h; cases h
  have h4 : g.pc ≠ .attachStore := fun e => by rw [e] at h; cases h
  exact ⟨(Goroutine.step_table mx m g r1 r2 h1 h2 h3).1, Goroutine.step_arrays mx m g r1 r2 h4 h2 h3⟩

/-- The length of the table when there is one. -/
theorem Mem.tableLen_some {m : Mem} {as : Slice} (h : m.cells = some as) :
    m.tableLen = as.len := by
  unfold Mem.tableLen
  rw [h]
  rfl

/-- A backing array that stays in place when another one enters the memory. -/
theorem Mem.row_append (arrays : List (List (Option Nat))) (fresh : List (Option Nat)) (A : Nat) :
    (arrays ++ [fresh]).getD A [] =
      if A < arrays.length then arrays.getD A [] else if A = arrays.length then fresh else [] := by
  simp only [List.getD_eq_getElem?_getD]
  by_cases h : A < arrays.length
  · rw [if_pos h, List.getElem?_append_left h]
  · rw [if_neg h, List.getElem?_append_right (by omega)]
    by_cases h2 : A = arrays.length
    · rw [if_pos h2, h2]
      simp
    · rw [if_neg h2, List.getElem?_eq_none (by simp; omega)]
      rfl

theorem Mem.rowsKept_refl (m : Mem) : m.RowsKept m := ⟨le_refl _, fun _ _ => rfl⟩

/-- The backing arrays stay when another one enters the memory. -/
theorem Mem.rowsKept_append (m m1 : Mem) (fresh : List (Option Nat))
    (h : m1.arrays = m.arrays ++ [fresh]) : m.RowsKept m1 := by
  refine ⟨by rw [h]; simp, fun A hA => ?_⟩
  unfold Mem.row
  rw [h, Mem.row_append, if_pos hA]

/-- Every step of a goroutine keeps the backing arrays and their capacities. -/
theorem Goroutine.step_rows (mx : Int) (m : Mem) (g : Goroutine) (r1 r2 : Nat) :
    m.RowsKept (g.step mx m r1 r2).1 := by
  by_cases h1 : g.pc = .attachStore
  · obtain ⟨arg, calls, pc, loc⟩ := g
    simp only at h1
    subst h1
    simp only [Goroutine.step, Mem.storeSlot]
    refine ⟨by simp, fun A hA => ?_⟩
    unfold Mem.row
    simp only [List.getD_eq_getElem?_getD, List.getElem?_set]
    by_cases hA2 : loc.rs.arr = A
    · subst hA2
      simp [hA]
    · simp [hA2]
  by_cases h2 : g.pc = .growStore
  · obtain ⟨arg, calls, pc, loc⟩ := g
    simp only at h2
    subst h2
    exact Mem.rowsKept_append _ _ loc.fresh rfl
  by_cases h3 : g.pc = .initStore
  · obtain ⟨arg, calls, pc, loc⟩ := g
    simp only at h3
    subst h3
    exact Mem.rowsKept_append _ _ _ rfl
  · have := Goroutine.step_arrays mx m g r1 r2 h1 h2 h3
    refine ⟨by rw [this], fun A _ => ?_⟩
    unfold Mem.row
    rw [this]

/-- The point of the code after the call of `accumulate`. -/
theorem Goroutine.accumulate_pc (g : Goroutine) (index : Nat) (wu : Bool) (rnd : Nat) :
    (g.accumulate index wu rnd).pc = .loopLoadCells :=
  (Goroutine.accumulate_facts g index wu rnd).1

/-- The points of the growth are entered from `growCells` and `growCopy` only. -/
theorem Goroutine.step_pc_grow (mx : Int) (m : Mem) (g : Goroutine) (r1 r2 : Nat)
    (h1 : g.pc ≠ .growCells) (h2 : g.pc ≠ .growCopy) :
    (g.step mx m r1 r2).2.pc ≠ .growExtend ∧ (g.step mx m r1 r2).2.pc ≠ .growCopy ∧
      (g.step mx m r1 r2).2.pc ≠ .growStore := by
  obtain ⟨arg, calls, pc, loc⟩ := g
  cases pc
  case growCells => exact absurd rfl h1
  case growCopy => exact absurd rfl h2
  all_goals
    simp only [Goroutine.step]
    repeat' split
    all_goals simp [Goroutine.accumulate_pc, Goroutine.goto, Goroutine.assign, Goroutine.rehash,
      Goroutine.uncollide]

/-- The point `initStore` is entered from `initRecheck` only. -/
theorem Goroutine.step_pc_init (mx : Int) (m : Mem) (g : Goroutine) (r1 r2 : Nat)
    (h3 : g.pc ≠ .initRecheck) : (g.step mx m r1 r2).2.pc ≠ .initStore := by
  obtain ⟨arg, calls, pc, loc⟩ := g
  cases pc
  case initRecheck => exact absurd rfl h3
  all_goals
    simp only [Goroutine.step]
    repeat' split
    all_goals simp [Goroutine.accumulate_pc, Goroutine.goto, Goroutine.assign, Goroutine.rehash,
      Goroutine.uncollide]

/-- Outside the growth nothing is asked of the local variables. -/
theorem Goroutine.sized_of_pc {m : Mem} {g : Goroutine} (h1 : g.pc ≠ .growExtend)
    (h2 : g.pc ≠ .growCopy) (h3 : g.pc ≠ .growStore) : g.Sized m := by
  unfold Goroutine.Sized
  split
  · exact absurd (by assumption) h1
  · exact absurd (by assumption) h2
  · exact absurd (by assumption) h3
  · trivial

/-- What is known of a growth under way stays true when the memory gets more backing
arrays. -/
theorem Goroutine.sized_mono {m m1 : Mem} {g : Goroutine} (hk : m.RowsKept m1) (h : g.Sized m) :
    g.Sized m1 := by
  unfold Goroutine.Sized at h ⊢
  split
  · rename_i hpc
    rw [hpc] at h
    simp only at h
    exact ⟨by have := hk.1; omega, by rw [hk.2 _ h.1]; exact h.2⟩
  · rename_i hpc
    rw [hpc] at h
    simp only at h
    exact ⟨by have := hk.1; omega, by rw [hk.2 _ h.1]; exact h.2.1, h.2.2⟩
  · rename_i hpc
    rw [hpc] at h
    simp only at h
    exact ⟨by have := hk.1; omega, by rw [hk.2 _ h.1]; exact h.2.1, h.2.2⟩
  · trivial

/-- Every step of a goroutine keeps what is known of its growth. -/
theorem Goroutine.step_sized (mx : Int) (m : Mem) (g : Goroutine) (r1 r2 : Nat)
    (hm : m.Shape) (hg : g.Sized m) : (g.step mx m r1 r2).2.Sized (g.step mx m r1 r2).1 := by
  by_cases h1 : g.pc = .growCells
  · obtain ⟨arg, calls, pc, loc⟩ := g
    simp only at h1
    subst h1
    simp only [Goroutine.step]
    split
    · exact Goroutine.sized_of_pc (by simp [Goroutine.goto]) (by simp [Goroutine.goto])
        (by simp [Goroutine.goto])
    · rename_i rs hc
      have hrs := (hm.2 rs hc).1
      split_ifs with h2 h3 h4
      · exact Goroutine.sized_of_pc (by simp [Goroutine.goto]) (by simp [Goroutine.goto])
          (by simp [Goroutine.goto])
      · show rs.arr < m.arrays.length ∧ (m.row loc.as.arr).length = (m.row rs.arr).length
        rw [h3]
        exact ⟨hrs, rfl⟩
      · show loc.as.arr < m.arrays.length ∧ (m.row loc.as.arr).length = (m.row loc.as.arr).length ∧
          (List.replicate ((m.row loc.as.arr).length * 4) (none : Option Nat)).length =
            (m.row loc.as.arr).length * 4
        rw [h3]
        exact ⟨hrs, rfl, List.length_replicate _ _⟩
      · exact Goroutine.sized_of_pc (by simp [Goroutine.assign]) (by simp [Goroutine.assign])
          (by simp [Goroutine.assign])
  by_cases h2 : g.pc = .growCopy
  · obtain ⟨arg, calls, pc, loc⟩ := g
    simp only at h2
    subst h2
    simp only [Goroutine.Sized] at hg
    simp only [Goroutine.step]
    split
    · exact Goroutine.sized_of_pc (by simp [Goroutine.goto]) (by simp [Goroutine.goto])
        (by simp [Goroutine.goto])
    · split_ifs
      · show loc.as.arr < m.arrays.length ∧ loc.n = (m.row loc.as.arr).length ∧
          (loc.fresh.set loc.i _).length = loc.n * 4
        rw [List.length_set]
        exact hg
      · show loc.as.arr < m.arrays.length ∧ loc.n = (m.row loc.as.arr).length ∧
          (loc.fresh.set loc.i _).length = loc.n * 4
        rw [List.length_set]
        exact hg
  · obtain ⟨a, b, c⟩ := Goroutine.step_pc_grow mx m g r1 r2 h1 h2
    exact Goroutine.sized_of_pc a b c

end Garr

namespace Garr

/-- Every step of a goroutine keeps the shape of the memory, in every run. -/
theorem Goroutine.step_shape (mx : Int) (m : Mem) (g : Goroutine) (r1 r2 : Nat)
    (hm : m.Shape) (hg : g.Sized m) : (g.step mx m r1 r2).1.Shape := by
  have hk := Goroutine.step_rows mx m g r1 r2
  by_cases h1 : g.pc = .growExtend
  · obtain ⟨arg, calls, pc, loc⟩ := g
    simp only at h1
    subst h1
    simp only [Goroutine.Sized] at hg
    simp only [Goroutine.step]
    refine ⟨hm.1, fun as h => ?_⟩
    simp only [Option.some.injEq] at h
    subst h
    obtain ⟨k, hk1, hk2⟩ := hm.1 loc.rs.arr hg.1
    exact ⟨hg.1, le_of_eq hg.2, k, hk1, by rw [← hk2]; exact hg.2⟩
  by_cases h2 : g.pc = .growStore
  · obtain ⟨arg, calls, pc, loc⟩ := g
    simp only at h2
    subst h2
    simp only [Goroutine.Sized] at hg
    obtain ⟨hA, hn, hf⟩ := hg
    obtain ⟨k, hk1, hk2⟩ := hm.1 loc.as.arr hA
    simp only [Goroutine.step, Mem.newArray]
    refine ⟨fun A hA2 => ?_, fun as h => ?_⟩
    · show ∃ k, 1 ≤ k ∧ ((m.arrays ++ [loc.fresh]).getD A []).length = 2 ^ k
      rw [Mem.row_append]
      by_cases hA1 : A < m.arrays.length
      · rw [if_pos hA1]
        exact hm.1 A hA1
      · have hA3 : A = m.arrays.length := by
          simp only [List.length_append, List.length_singleton] at hA2
          omega
        rw [if_neg hA1, if_pos hA3, hf]
        exact ⟨k + 2, by omega, by rw [hn, hk2]; ring⟩
    · simp only [Option.some.injEq] at h
      subst h
      refine ⟨by simp, ?_, k + 1, by omega, by show loc.n * 2 = 2 ^ (k + 1); rw [hn, hk2]; ring⟩
      show loc.n * 2 ≤ ((m.arrays ++ [loc.fresh]).getD m.arrays.length []).length
      rw [Mem.row_append, if_neg (lt_irrefl _), if_pos rfl, hf]
      omega
  by_cases h3 : g.pc = .initStore
  · obtain ⟨arg, calls, pc, loc⟩ := g
    simp only at h3
    subst h3
    simp only [Goroutine.step, Mem.newArray, Mem.newCell]
    refine ⟨fun A hA2 => ?_, fun as h => ?_⟩
    · simp only [Mem.row]
      rw [Mem.row_append]
      by_cases hA1 : A < m.arrays.length
      · rw [if_pos hA1]
        exact hm.1 A hA1
      · have hA3 : A = m.arrays.length := by
          simp only [List.length_append, List.length_singleton] at hA2
          omega
        rw [if_neg hA1, if_pos hA3]
        exact ⟨2, by omega, by simp⟩
    · simp only [Option.some.injEq] at h
      subst h
      refine ⟨by simp, ?_, 1, le_refl _, rfl⟩
      simp only [Mem.row]
      rw [Mem.row_append, if_neg (lt_irrefl _), if_pos rfl]
      simp
  · obtain ⟨hcells, harr⟩ := Goroutine.step_table mx m g r1 r2 h1 h2 h3
    refine ⟨fun A hA => ?_, fun as h => ?_⟩
    · rw [harr] at hA
      rw [hk.2 A hA]
      exact hm.1 A hA
    · rw [hcells] at h
      obtain ⟨a, b, c⟩ := hm.2 as h
      exact ⟨by rw [harr]; exact a, by rw [hk.2 _ a]; exact b, c⟩

/-- The memory keeps its backing arrays and gets one more when `Store` publishes its
table. -/
theorem Mem.publish_rows (m : Mem) (L : Nat) : m.RowsKept (m.publish L) :=
  Mem.rowsKept_append _ _ _ rfl

/-- The shape of the memory after `Store` has published a table whose length is a power
of two and at least 2. -/
theorem Mem.publish_shape {m : Mem} (hm : m.Shape) (L k : Nat) (hk : 1 ≤ k) (hL : L = 2 ^ k) :
    (m.publish L).Shape := by
  unfold Mem.publish
  refine ⟨fun A hA2 => ?_, fun as h => ?_⟩
  · simp only [Mem.row]
    rw [Mem.row_append]
    by_cases hA1 : A < m.arrays.length
    · rw [if_pos hA1]
      exact hm.1 A hA1
    · have hA3 : A = m.arrays.length := by
        simp only [List.length_append, List.length_singleton] at hA2
        omega
      rw [if_neg hA1, if_pos hA3]
      exact ⟨k, hk, by simp [hL]⟩
  · simp only [Option.some.injEq] at h
    subst h
    refine ⟨by simp, ?_, k, hk, hL⟩
    simp only [Mem.row]
    rw [Mem.row_append, if_neg (lt_irrefl _), if_pos rfl]
    simp

/-- Every step of a goroutine inside `Store` keeps the backing arrays, the shape of the
memory and what is known of the length it will publish. -/
theorem Storer.sized_step (m : Mem) (st : Storer) (v : Int) (hm : m.Shape) (hs : st.Sized) :
    m.RowsKept (st.step m v).1 ∧ (st.step m v).1.Shape ∧ (st.step m v).2.Sized := by
  unfold Storer.step
  cases hpc : st.pc with
  | idle =>
    exact ⟨Mem.rowsKept_refl m, hm, fun h => by cases h⟩
  | load =>
    dsimp only
    cases hc : m.cells with
    | none => exact ⟨Mem.rowsKept_refl m, hm, fun h => by cases h⟩
    | some as =>
      obtain ⟨_, _, k, hk1, hk2⟩ := hm.2 as hc
      exact ⟨Mem.rowsKept_refl m, hm, fun _ => ⟨k, hk1, hk2⟩⟩
  | publish =>
    obtain ⟨k, hk1, hk2⟩ := hs hpc
    exact ⟨Mem.publish_rows m st.len, Mem.publish_shape hm st.len k hk1 hk2, fun h => by cases h⟩

/-- An element of a list in which one position has been replaced. -/
theorem getElem?_set_cases {α : Type} (l : List α) (t u : Nat) (a b : α)
    (h : (l.set t a)[u]? = some b) : (u = t ∧ b = a) ∨ (u ≠ t ∧ l[u]? = some b) := by
  by_cases h1 : t = u
  · subst h1
    have hlt : t < l.length := by
      by_contra hc
      rw [List.getElem?_eq_none (by simp; omega)] at h
      cases h
    rw [List.getElem?_set_self hlt] at h
    simp only [Option.some.injEq] at h
    exact Or.inl ⟨rfl, h.symm⟩
  · rw [List.getElem?_set_ne h1] at h
    exact Or.inr ⟨fun hc => h1 hc.symm, h⟩

/-- The invariant of all runs holds at the start. -/
theorem Scene.sized_start (calls : List (Int × Nat)) (n : Nat) : (Scene.start calls n).Sized :=
  { mem := ⟨fun A hA => absurd hA (by simp [Scene.start, World.start, Mem.new]),
      fun as h => by simp [Scene.start, World.start, Mem.new] at h⟩
    gs := fun t g h => by
      simp only [Scene.start, World.start, List.getElem?_map, Option.map_eq_some'] at h
      obtain ⟨k, -, hk⟩ := h
      rw [← hk]
      exact Goroutine.sized_of_pc (by simp [Goroutine.new]) (by simp [Goroutine.new])
        (by simp [Goroutine.new])
    storers := fun s st h hp => by
      simp only [Scene.start] at h
      have := List.mem_iff_getElem?.2 ⟨s, h⟩
      rw [List.mem_replicate] at this
      rw [this.2] at hp
      cases hp }

/-- A step of a goroutine inside `Add` keeps the invariant of all runs. -/
theorem Scene.sized_add (mx : Int) (sc : Scene) (t r1 r2 : Nat) (h : sc.Sized) :
    Scene.Sized { sc with world := sc.world.step mx t r1 r2 } := by
  unfold World.step
  cases hgt : sc.world.gs[t]? with
  | none => exact h
  | some g =>
    have hg := h.gs t g hgt
    exact
      { mem := Goroutine.step_shape mx sc.world.mem g r1 r2 h.mem hg
        gs := fun u g1 hu => by
          rcases getElem?_set_cases _ _ _ _ _ hu with ⟨-, rfl⟩ | ⟨-, hu1⟩
          · exact Goroutine.step_sized mx sc.world.mem g r1 r2 h.mem hg
          · exact Goroutine.sized_mono (Goroutine.step_rows mx sc.world.mem g r1 r2) (h.gs u g1 hu1)
        storers := h.storers }

/-- A step of a goroutine inside `Store` keeps the invariant of all runs. -/
theorem Scene.sized_store (sc : Scene) (s : Nat) (v : Int) (h : sc.Sized) :
    (sc.storeStep s v).Sized := by
  unfold Scene.storeStep
  cases hst : sc.storers[s]? with
  | none => exact h
  | some st =>
    obtain ⟨a, b, c⟩ := Storer.sized_step sc.world.mem st v h.mem (h.storers s st hst)
    exact
      { mem := b
        gs := fun u g1 hu => Goroutine.sized_mono a (h.gs u g1 hu)
        storers := fun u st1 hu => by
          rcases getElem?_set_cases _ _ _ _ _ hu with ⟨-, rfl⟩ | ⟨-, hu1⟩
          · exact c
          · exact h.storers u st1 hu1 }

/-- Every operation keeps the invariant of all runs. -/
theorem Scene.sized_apply (mx : Int) (sc : Scene) (op : Op) (h : sc.Sized) :
    (sc.apply mx op).Sized := by
  cases op with
  | add t r1 r2 => exact Scene.sized_add mx sc t r1 r2 h
  | store s v => exact Scene.sized_store sc s v h
  | reset s => exact Scene.sized_store sc s 0 h

/-- The invariant of all runs holds after every run from a new `JDKAdder`. -/
theorem Scene.sized_runOps (mx : Int) (ops : List Op) :
    ∀ sc : Scene, sc.Sized → (sc.runOps mx ops).Sized := by
  induction ops with
  | nil => exact fun _ h => h
  | cons op ops ih => exact fun sc h => ih _ (Scene.sized_apply mx sc op h)

/-- No step of a goroutine inside `Add` removes the table. -/
theorem Goroutine.step_cells_some (mx : Int) (m : Mem) (g : Goroutine) (r1 r2 : Nat)
    (h : m.cells ≠ none) : (g.step mx m r1 r2).1.cells ≠ none := by
  by_cases h1 : g.pc = .growExtend
  · obtain ⟨arg, calls, pc, loc⟩ := g
    simp only at h1
    subst h1
    simp [Goroutine.step]
  by_cases h2 : g.pc = .growStore
  · obtain ⟨arg, calls, pc, loc⟩ := g
    simp only at h2
    subst h2
    simp [Goroutine.step]
  by_cases h3 : g.pc = .initStore
  · obtain ⟨arg, calls, pc, loc⟩ := g
    simp only at h3
    subst h3
    simp [Goroutine.step]
  · rw [(Goroutine.step_table mx m g r1 r2 h1 h2 h3).1]
    exact h

/-- No operation removes the table. -/
theorem Scene.apply_cells_some (mx : Int) (sc : Scene) (op : Op)
    (h : sc.world.mem.cells ≠ none) : (sc.apply mx op).world.mem.cells ≠ none := by
  have hstore : ∀ s v, (sc.storeStep s v).world.mem.cells ≠ none := by
    intro s v
    unfold Scene.storeStep
    cases hst : sc.storers[s]? with
    | none => exact h
    | some st =>
      show (st.step sc.world.mem v).1.cells ≠ none
      unfold Storer.step
      cases st.pc with
      | idle => exact h
      | load =>
        dsimp only
        cases hc : sc.world.mem.cells with
        | none => exact absurd hc h
        | some as => simp [hc]
      | publish => simp [Mem.publish]
  cases op with
  | add t r1 r2 =>
    show (sc.world.step mx t r1 r2).mem.cells ≠ none
    unfold World.step
    cases hgt : sc.world.gs[t]? with
    | none => exact h
    | some g => exact Goroutine.step_cells_some mx sc.world.mem g r1 r2 h
  | store s v => exact hstore s v
  | reset s => exact hstore s 0

end Garr

namespace Garr

/-- The lock and its holder after a step: a goroutine that takes the lock finds
`cellsBusy` at 0 and leaves it at 1, a goroutine that gives it back leaves it at 0, and no
other step writes `cellsBusy`. -/
theorem Goroutine.step_holds (mx : Int) (m : Mem) (g : Goroutine) (r1 r2 : Nat)
    (hl : g.pc.locked = true → m.cellsBusy = 1) :
    (g.step mx m r1 r2).2.holds + m.cellsBusy ≤ (g.step mx m r1 r2).1.cellsBusy + g.holds := by
  obtain ⟨arg, calls, pc, loc⟩ := g
  cases pc
  all_goals
    simp only [Pc.locked, forall_true_left, false_implies, reduceCtorEq] at hl
    simp only [Goroutine.step]
    repeat' split
    all_goals
      simp [Goroutine.holds, Pc.locked, Goroutine.accumulate_pc, Goroutine.goto,
        Goroutine.assign, Goroutine.rehash, Goroutine.uncollide, Mem.newCell, Mem.storeSlot,
        Mem.newArray]
    all_goals omega

/-- Outside the points at which the table is stored nothing is asked of the local
variables. -/
theorem Goroutine.held_of_pc {m : Mem} {g : Goroutine} (h1 : g.pc ≠ .growExtend)
    (h2 : g.pc ≠ .growCopy) (h3 : g.pc ≠ .growStore) (h4 : g.pc ≠ .initStore) : g.Held m := by
  unfold Goroutine.Held
  split
  · exact absurd (by assumption) h1
  · exact absurd (by assumption) h2
  · exact absurd (by assumption) h3
  · exact absurd (by assumption) h4
  · trivial

/-- Nothing is asked of a goroutine that does not hold the lock. -/
theorem Goroutine.held_of_unlocked {m : Mem} {g : Goroutine} (h : g.pc.locked = false) :
    g.Held m :=
  Goroutine.held_of_pc (fun e => by rw [e] at h; cases h) (fun e => by rw [e] at h; cases h)
    (fun e => by rw [e] at h; cases h) (fun e => by rw [e] at h; cases h)

/-- What the holder of the lock knows depends on the table and the backing arrays only. -/
theorem Goroutine.held_congr {m m1 : Mem} {g : Goroutine} (hc : m1.cells = m.cells)
    (ha : m1.arrays = m.arrays) (h : g.Held m) : g.Held m1 := by
  unfold Goroutine.Held Mem.row at *
  rw [hc, ha]
  exact h

/-- Every step of a goroutine keeps what it knows as the holder of the lock, when the
other goroutines leave the table alone. -/
theorem Goroutine.step_held (mx : Int) (m : Mem) (g : Goroutine) (r1 r2 : Nat)
    (hg : g.Held m) : (g.step mx m r1 r2).2.Held (g.step mx m r1 r2).1 := by
  by_cases h1 : g.pc = .growCells
  · obtain ⟨arg, calls, pc, loc⟩ := g
    simp only at h1
    subst h1
    simp only [Goroutine.step]
    split
    · exact Goroutine.held_of_pc (by simp [Goroutine.goto]) (by simp [Goroutine.goto])
        (by simp [Goroutine.goto]) (by simp [Goroutine.goto])
    · rename_i rs hc
      split_ifs with h2 h3 h4
      · exact Goroutine.held_of_pc (by simp [Goroutine.goto]) (by simp [Goroutine.goto])
          (by simp [Goroutine.goto]) (by simp [Goroutine.goto])
      · show m.cells = some rs ∧ (m.row loc.as.arr).length = (m.row rs.arr).length
        rw [h3]
        exact ⟨hc, rfl⟩
      · show m.cells = some rs ∧ (m.row loc.as.arr).length = (m.row rs.arr).length
        rw [h3]
        exact ⟨hc, rfl⟩
      · exact Goroutine.held_of_pc (by simp [Goroutine.assign]) (by simp [Goroutine.assign])
          (by simp [Goroutine.assign]) (by simp [Goroutine.assign])
  by_cases h2 : g.pc = .growCopy
  · obtain ⟨arg, calls, pc, loc⟩ := g
    simp only at h2
    subst h2
    simp only [Goroutine.Held] at hg
    simp only [Goroutine.step]
    split
    · exact Goroutine.held_of_pc (by simp [Goroutine.goto]) (by simp [Goroutine.goto])
        (by simp [Goroutine.goto]) (by simp [Goroutine.goto])
    · split_ifs
      · exact hg
      · exact hg
  by_cases h3 : g.pc = .initRecheck
  · obtain ⟨arg, calls, pc, loc⟩ := g
    simp only at h3
    subst h3
    simp only [Goroutine.step]
    split_ifs with hc
    · exact hc
    · exact Goroutine.held_of_pc (by simp [Goroutine.goto]) (by simp [Goroutine.goto])
        (by simp [Goroutine.goto]) (by simp [Goroutine.goto])
  · obtain ⟨a, b, c⟩ := Goroutine.step_pc_grow mx m g r1 r2 h1 h2
    exact Goroutine.held_of_pc a b c (Goroutine.step_pc_init mx m g r1 r2 h3)

/-- A step of the goroutine that holds the lock does not make the table shorter, while
no call of `Store` overlaps. -/
theorem Goroutine.step_tableLen (mx : Int) (m : Mem) (g : Goroutine) (r1 r2 : Nat)
    (hm : m.Shape) (hg : g.Held m) : m.tableLen ≤ (g.step mx m r1 r2).1.tableLen := by
  by_cases h1 : g.pc = .growExtend
  · obtain ⟨arg, calls, pc, loc⟩ := g
    simp only at h1
    subst h1
    simp only [Goroutine.Held] at hg
    have := (hm.2 loc.rs hg.1).2.1
    rw [Mem.tableLen_some hg.1]
    simp only [Goroutine.step]
    show loc.rs.len ≤ loc.n
    omega
  by_cases h2 : g.pc = .growStore
  · obtain ⟨arg, calls, pc, loc⟩ := g
    simp only at h2
    subst h2
    simp only [Goroutine.Held] at hg
    have := (hm.2 loc.rs hg.1).2.1
    rw [Mem.tableLen_some hg.1]
    simp only [Goroutine.step]
    show loc.rs.len ≤ loc.n * 2
    omega
  by_cases h3 : g.pc = .initStore
  · obtain ⟨arg, calls, pc, loc⟩ := g
    simp only at h3
    subst h3
    simp only [Goroutine.Held] at hg
    unfold Mem.tableLen
    rw [hg]
    exact Nat.zero_le _
  · unfold Mem.tableLen
    rw [(Goroutine.step_table mx m g r1 r2 h1 h2 h3).1]

end Garr

namespace Garr

/-- The goroutines of a quiet world stand between two calls. -/
theorem World.quiet_idle {w : World} (hq : w.quiet = true) (t : Nat) (g : Goroutine)
    (h : w.gs[t]? = some g) : g.pc = .idle := by
  unfold World.quiet at hq
  rw [List.all_eq_true] at hq
  have := hq g (List.mem_iff_getElem?.2 ⟨t, h⟩)
  simpa using this

/-- When no goroutine is inside `Store`, every goroutine that calls `Store` stands between
two calls. -/
theorem Scene.storeFree_idle {sc : Scene} (hf : sc.storeFree = true) (s : Nat) (st : Storer)
    (h : sc.storers[s]? = some st) : st.pc = .idle := by
  unfold Scene.storeFree at hf
  rw [List.all_eq_true] at hf
  have := hf st (List.mem_iff_getElem?.2 ⟨s, h⟩)
  simpa using this

/-- The invariant of the runs without overlap holds at the start. -/
theorem Scene.calm_start (calls : List (Int × Nat)) (n : Nat) : (Scene.start calls n).Calm := by
  have hidle : ∀ (s : Nat) (st : Storer), (Scene.start calls n).storers[s]? = some st →
      st.pc = .idle := by
    intro s st h
    simp only [Scene.start] at h
    have := List.mem_iff_getElem?.2 ⟨s, h⟩
    rw [List.mem_replicate] at this
    rw [this.2]
    rfl
  have hholds : ∀ l : List (Int × Nat),
      ((l.map fun p => Goroutine.new p.1 p.2).map Goroutine.holds).sum = 0 := by
    intro l
    induction l with
    | nil => rfl
    | cons k ks ih =>
      simp only [List.map_cons, List.sum_cons, ih]
      rfl
  exact
    { lock := by
        show ((calls.map fun p => Goroutine.new p.1 p.2).map Goroutine.holds).sum ≤ (0 : Int)
        rw [hholds]
      busy := by norm_num [Scene.start, World.start, Mem.new]
      gs := fun t g h => by
        simp only [Scene.start, World.start, List.getElem?_map, Option.map_eq_some'] at h
        obtain ⟨k, -, hk⟩ := h
        rw [← hk]
        exact Goroutine.held_of_unlocked rfl
      quiet := fun s st h hp => absurd (hidle s st h) hp
      len := fun s st h hp => by
        rw [hidle s st h] at hp
        cases hp }

/-- A step of a goroutine inside `Add`, taken while no goroutine is inside `Store`, keeps
the invariant of the runs without overlap and does not make the table shorter. -/
theorem Scene.calm_add (mx : Int) (sc : Scene) (t r1 r2 : Nat) (hs : sc.Sized) (hc : sc.Calm)
    (hf : sc.storeFree = true) :
    Scene.Calm { sc with world := sc.world.step mx t r1 r2 } ∧
      sc.world.mem.tableLen ≤ (sc.world.step mx t r1 r2).mem.tableLen := by
  unfold World.step
  cases hgt : sc.world.gs[t]? with
  | none => exact ⟨hc, le_refl _⟩
  | some g =>
    have hg := hc.gs t g hgt
    have hholds : g.holds ≤ sc.world.mem.cellsBusy :=
      le_trans (le_sum_of_getElem? Goroutine.holds Goroutine.holds_nonneg sc.world.gs t g hgt)
        hc.lock
    have hl : g.pc.locked = true → sc.world.mem.cellsBusy = 1 := by
      intro hlk
      have := Goroutine.holds_eq_one hlk
      have := hc.busy
      omega
    have hstep := Goroutine.step_holds mx sc.world.mem g r1 r2 hl
    refine ⟨?_, Goroutine.step_tableLen mx sc.world.mem g r1 r2 hs.mem hg⟩
    exact
      { lock := by
          show ((sc.world.gs.set t (g.step mx sc.world.mem r1 r2).2).map Goroutine.holds).sum ≤
            (g.step mx sc.world.mem r1 r2).1.cellsBusy
          rw [sum_map_set Goroutine.holds sc.world.gs t g _ hgt]
          have := hc.lock
          omega
        busy := by
          have := Goroutine.step_cellsBusy mx sc.world.mem g r1 r2
          have := hc.busy
          show (g.step mx sc.world.mem r1 r2).1.cellsBusy ≤ 1
          omega
        gs := fun u g1 hu => by
          rcases getElem?_set_cases _ _ _ _ _ hu with ⟨-, rfl⟩ | ⟨hut, hu1⟩
          · exact Goroutine.step_held mx sc.world.mem g r1 r2 hg
          · cases hb : g.pc.locked with
            | false =>
              obtain ⟨e1, e2⟩ := Goroutine.step_unlocked mx sc.world.mem g r1 r2 hb
              exact Goroutine.held_congr e1 e2 (hc.gs u g1 hu1)
            | true =>
              have h2 := add_le_sum_of_getElem? Goroutine.holds Goroutine.holds_nonneg
                sc.world.gs u t g1 g hu1 hgt hut
              have h3 := Goroutine.holds_eq_one hb
              have h4 := hc.lock
              have h5 := hc.busy
              have h6 := Goroutine.holds_nonneg g1
              cases hb1 : g1.pc.locked with
              | false => exact Goroutine.held_of_unlocked hb1
              | true =>
                have := Goroutine.holds_eq_one hb1
                omega
        quiet := fun s st h hp => absurd (Scene.storeFree_idle hf s st h) hp
        len := fun s st h hp => by
          rw [Scene.storeFree_idle hf s st h] at hp
          cases hp }

/-- A step of a goroutine inside `Store`, taken while no goroutine is inside `Add`, keeps
the invariant of the runs without overlap and the length of the table. -/
theorem Scene.calm_store (sc : Scene) (s : Nat) (v : Int) (hc : sc.Calm)
    (hq : sc.world.quiet = true) :
    (sc.storeStep s v).Calm ∧ sc.world.mem.tableLen ≤ (sc.storeStep s v).world.mem.tableLen := by
  unfold Scene.storeStep
  cases hst : sc.storers[s]? with
  | none => exact ⟨hc, le_refl _⟩
  | some st =>
    have hgs : ∀ (m1 : Mem) (t : Nat) (g : Goroutine), sc.world.gs[t]? = some g → g.Held m1 :=
      fun m1 t g h => Goroutine.held_of_unlocked (by rw [World.quiet_idle hq t g h]; rfl)
    have hbusy : (st.step sc.world.mem v).1.cellsBusy = sc.world.mem.cellsBusy := by
      unfold Storer.step
      cases st.pc with
      | idle => rfl
      | load =>
        dsimp only
        cases sc.world.mem.cells <;> rfl
      | publish => rfl
    -- the table after the step: the same, or one of the same length
    have hcells : ∀ as, sc.world.mem.cells = some as →
        ∃ as1, (st.step sc.world.mem v).1.cells = some as1 ∧ as1.len = as.len := by
      intro as has
      unfold Storer.step
      cases hpc : st.pc with
      | idle => exact ⟨as, has, rfl⟩
      | load =>
        dsimp only
        rw [has]
        exact ⟨as, has, rfl⟩
      | publish =>
        obtain ⟨as2, h2, h3⟩ := hc.len s st hst hpc
        rw [has] at h2
        cases h2
        exact ⟨_, rfl, h3.symm⟩
    refine ⟨?_, ?_⟩
    · exact
        { lock := by
            show (sc.world.gs.map Goroutine.holds).sum ≤ (st.step sc.world.mem v).1.cellsBusy
            rw [hbusy]
            exact hc.lock
          busy := by
            show (st.step sc.world.mem v).1.cellsBusy ≤ 1
            rw [hbusy]
            exact hc.busy
          gs := fun t g h => hgs _ t g h
          quiet := fun _ _ _ _ => hq
          len := fun u st1 hu hp => by
            rcases getElem?_set_cases _ _ _ _ _ hu with ⟨-, rfl⟩ | ⟨-, hu1⟩
            · show ∃ as, (st.step sc.world.mem v).1.cells = some as ∧
                as.len = (st.step sc.world.mem v).2.len
              unfold Storer.step at hp ⊢
              cases hpc : st.pc with
              | idle =>
                rw [hpc] at hp
                cases hp
              | load =>
                rw [hpc] at hp
                dsimp only at hp ⊢
                cases hcl : sc.world.mem.cells with
                | none =>
                  rw [hcl] at hp
                  cases hp
                | some as => exact ⟨as, hcl, rfl⟩
              | publish =>
                rw [hpc] at hp
                cases hp
            · obtain ⟨as, h2, h3⟩ := hc.len u st1 hu1 hp
              obtain ⟨as1, h4, h5⟩ := hcells as h2
              exact ⟨as1, h4, by rw [h5, h3]⟩ }
    · show sc.world.mem.tableLen ≤ (st.step sc.world.mem v).1.tableLen
      cases hcl : sc.world.mem.cells with
      | none =>
        unfold Mem.tableLen
        rw [hcl]
        exact Nat.zero_le _
      | some as =>
        obtain ⟨as1, h4, h5⟩ := hcells as hcl
        rw [Mem.tableLen_some hcl, Mem.tableLen_some h4, h5]

/-- An operation that keeps `Store` apart from the updates keeps the invariant of the runs
without overlap and does not make the table shorter. -/
theorem Scene.calm_apply (mx : Int) (sc : Scene) (op : Op) (hs : sc.Sized) (hc : sc.Calm)
    (h : sc.calm op = true) :
    (sc.apply mx op).Calm ∧ sc.world.mem.tableLen ≤ (sc.apply mx op).world.mem.tableLen := by
  cases op with
  | add t r1 r2 => exact Scene.calm_add mx sc t r1 r2 hs hc h
  | store s v => exact Scene.calm_store sc s v hc h
  | reset s => exact Scene.calm_store sc s 0 hc h

/-- The invariant of the runs without overlap holds after every such run, and its last
operation does not make the table shorter. -/
theorem Scene.calm_runOps (mx : Int) (ops : List Op) (op : Op) :
    ∀ sc : Scene, sc.Sized → sc.Calm → Scene.calmRun mx sc (ops ++ [op]) = true →
      (sc.runOps mx ops).world.mem.tableLen ≤
        ((sc.runOps mx ops).apply mx op).world.mem.tableLen := by
  induction ops with
  | nil =>
    intro sc hs hc h
    simp only [List.nil_append, Scene.calmRun, Bool.and_true] at h
    exact (Scene.calm_apply mx sc op hs hc h).2
  | cons o os ih =>
    intro sc hs hc h
    simp only [List.cons_append, Scene.calmRun, Bool.and_eq_true] at h
    exact ih _ (Scene.sized_apply mx sc o hs) (Scene.calm_apply mx sc o hs hc h.1).1 h.2

end Garr

namespace Garr

/-- A run of operations in two parts. -/
theorem Scene.runOps_append (mx : Int) (sc : Scene) (s1 s2 : List Op) :
    sc.runOps mx (s1 ++ s2) = (sc.runOps mx s1).runOps mx s2 := by
  unfold Scene.runOps
  rw [List.foldl_append]

/-- A run of operations that are all steps of goroutines inside `Add` is a run of the
scheduler. -/
theorem Scene.runOps_adds (mx : Int) (l : List (Nat × Nat × Nat)) :
    ∀ sc : Scene, sc.runOps mx (l.map fun c => Op.add c.1 c.2.1 c.2.2) =
      { sc with world := sc.world.run mx l } := by
  induction l with
  | nil => exact fun _ => rfl
  | cons c cs ih =>
    intro sc
    exact ih { sc with world := sc.world.step mx c.1 c.2.1 c.2.2 }

/-- A run in two parts keeps `Store` apart from the updates when both parts do. -/
theorem Scene.calmRun_append (mx : Int) (s1 s2 : List Op) :
    ∀ sc : Scene, Scene.calmRun mx sc (s1 ++ s2) =
      (Scene.calmRun mx sc s1 && Scene.calmRun mx (sc.runOps mx s1) s2) := by
  induction s1 with
  | nil =>
    intro sc
    simp [Scene.calmRun, Scene.runOps]
  | cons o os ih =>
    intro sc
    rw [List.cons_append]
    show (sc.calm o && Scene.calmRun mx (sc.apply mx o) (os ++ s2)) =
      ((sc.calm o && Scene.calmRun mx (sc.apply mx o) os) &&
        Scene.calmRun mx ((sc.apply mx o).runOps mx os) s2)
    rw [ih, Bool.and_assoc]

/-- Steps of goroutines inside `Add` overlap no call of `Store` when no goroutine is
inside `Store`. -/
theorem Scene.calmRun_adds (mx : Int) (l : List (Nat × Nat × Nat)) :
    ∀ sc : Scene, sc.storeFree = true →
      Scene.calmRun mx sc (l.map fun c => Op.add c.1 c.2.1 c.2.2) = true := by
  induction l with
  | nil => exact fun _ _ => rfl
  | cons c cs ih =>
    intro sc h
    simp only [List.map_cons, Scene.calmRun, Scene.calm, h, Bool.true_and]
    exact ih _ h

/-- Claim C33 (amended): in every state reached from a new `JDKAdder` by goroutines that
run calls of `Add`, `Store` and `Reset` in any interleaving of their atomic operations, the
table is absent or its length is a power of two and at least 2, and no operation removes
the table; and in the runs in which no call of `Store` or `Reset` overlaps a call of `Add`,
no operation makes the table shorter. -/
theorem table_length_power_of_two (mx : Int) (calls : List (Int × Nat)) (n : Nat)
    (ops : List Op) (op : Op) :
    (((Scene.start calls n).runOps mx ops).world.mem.cells = none ∨
      ∃ as k, ((Scene.start calls n).runOps mx ops).world.mem.cells = some as ∧ 1 ≤ k ∧
        as.len = 2 ^ k) ∧
    (((Scene.start calls n).runOps mx ops).world.mem.cells ≠ none →
      (((Scene.start calls n).runOps mx ops).apply mx op).world.mem.cells ≠ none) ∧
    (Scene.calmRun mx (Scene.start calls n) (ops ++ [op]) = true →
      ((Scene.start calls n).runOps mx ops).world.mem.tableLen ≤
        (((Scene.start calls n).runOps mx ops).apply mx op).world.mem.tableLen) := by
  have hs := Scene.sized_runOps mx ops (Scene.start calls n) (Scene.sized_start calls n)
  refine ⟨?_, Scene.apply_cells_some mx _ op, fun h =>
    Scene.calm_runOps mx ops op (Scene.start calls n) (Scene.sized_start calls n)
      (Scene.calm_start calls n) h⟩
  cases hc : ((Scene.start calls n).runOps mx ops).world.mem.cells with
  | none => exact Or.inl rfl
  | some as =>
    obtain ⟨_, _, k, hk1, hk2⟩ := hs.mem.2 as hc
    exact Or.inr ⟨as, k, rfl, hk1, hk2⟩

set_option maxRecDepth 1000000 in
/-- Counterexample to C33 as stated: in the run `shrinkRun` a call of `Store(5)` reads the
table of length 2 while the goroutine 0, inside `Add`, holds the lock and is about to make
the table longer; the goroutine 0 stores the table of length 4 and is still inside `Add`
when `Store` publishes its table of length 2, which replaces the table of length 4. -/
theorem store_shortens_table :
    shrinkRun.take 47 ++ [Op.store 0 5] = shrinkRun ∧
    ((Scene.start [(1, 3), (1, 15)] 1).runOps 64 (shrinkRun.take 47)).world.quiet = false ∧
    ((Scene.start [(1, 3), (1, 15)] 1).runOps 64 (shrinkRun.take 47)).world.mem.cells =
      some ⟨0, 4⟩ ∧
    (((Scene.start [(1, 3), (1, 15)] 1).runOps 64 (shrinkRun.take 47)).apply 64
      (Op.store 0 5)).world.mem.cells = some ⟨1, 2⟩ ∧
    ¬ ((Scene.start [(1, 3), (1, 15)] 1).runOps 64 (shrinkRun.take 47)).world.mem.tableLen ≤
      (((Scene.start [(1, 3), (1, 15)] 1).runOps 64 (shrinkRun.take 47)).apply 64
        (Op.store 0 5)).world.mem.tableLen :=
  ⟨rfl, rfl, rfl, rfl, by decide⟩

/-- The growth of the run `storeRun`, from a new `JDKAdder`. -/
theorem run_storeRun_adds :
    (Scene.start [(1, 3), (1, 15)] 1).runOps 64
        ((growthTo64 ++ growthTo128).map fun c => Op.add c.1 c.2.1 c.2.2) =
      ⟨worldAt128, [Storer.new]⟩ := by
  have e : Scene.start [(1, 3), (1, 15)] 1 = ⟨World.init [3, 15], [Storer.new]⟩ := rfl
  rw [Scene.runOps_adds, e]
  show (⟨(World.init [3, 15]).run 64 (growthTo64 ++ growthTo128), [Storer.new]⟩ : Scene) = _
  rw [run_growth]

/-- The run `storeRun` from a new `JDKAdder`, up to its last ten operations. -/
theorem run_storeRun :
    (Scene.start [(1, 3), (1, 15)] 1).runOps 64 storeRun =
      Scene.runOps 64 ⟨worldAt128, [Storer.new]⟩
        [Op.store 0 5, Op.store 0 5, Op.store 0 5, Op.add 0 3 3, Op.add 0 3 3, Op.add 0 3 3,
          Op.add 0 3 3, Op.reset 0, Op.reset 0, Op.reset 0] := by
  unfold storeRun
  rw [Scene.runOps_append, run_storeRun_adds]

set_option maxRecDepth 100000 in
/-- The end of the run `storeRun`: `Store(5)` on the table of length 128, a call of `Inc`
and `Reset()` leave a table of length 128 whose sum is 0, and no call overlaps another. -/
theorem run_storeRun_end :
    (Scene.runOps 64 ⟨worldAt128, [Storer.new]⟩
      [Op.store 0 5, Op.store 0 5, Op.store 0 5, Op.add 0 3 3, Op.add 0 3 3, Op.add 0 3 3,
        Op.add 0 3 3, Op.reset 0, Op.reset 0, Op.reset 0]).world.mem.cells = some ⟨5, 128⟩ ∧
    (Scene.runOps 64 ⟨worldAt128, [Storer.new]⟩
      [Op.store 0 5, Op.store 0 5, Op.store 0 5, Op.add 0 3 3, Op.add 0 3 3, Op.add 0 3 3,
        Op.add 0 3 3]).world.mem.Sum = 6 ∧
    (Scene.runOps 64 ⟨worldAt128, [Storer.new]⟩
      [Op.store 0 5, Op.store 0 5, Op.store 0 5, Op.add 0 3 3, Op.add 0 3 3, Op.add 0 3 3,
        Op.add 0 3 3, Op.reset 0, Op.reset 0, Op.reset 0]).world.mem.Sum = 0 ∧
    Scene.calmRun 64 ⟨worldAt128, [Storer.new]⟩
      ([Op.store 0 5, Op.store 0 5, Op.store 0 5, Op.add 0 3 3, Op.add 0 3 3, Op.add 0 3 3,
        Op.add 0 3 3, Op.reset 0, Op.reset 0, Op.reset 0] ++ [Op.store 0 9]) = true :=
  ⟨rfl, rfl, rfl, rfl⟩

/-- No call of `Store` or `Reset` overlaps a call of `Add` in the run `storeRun` followed
by the first step of a call of `Store(9)`. -/
theorem calm_storeRun :
    Scene.calmRun 64 (Scene.start [(1, 3), (1, 15)] 1) (storeRun ++ [Op.store 0 9]) = true := by
  unfold storeRun
  rw [List.append_assoc, Scene.calmRun_append,
    Scene.calmRun_adds 64 (growthTo64 ++ growthTo128) (Scene.start [(1, 3), (1, 15)] 1) rfl,
    run_storeRun_adds, Bool.true_and]
  exact run_storeRun_end.2.2.2

/-- The run `storeRun` of two goroutines that call `Inc` and one that calls `Store` and
`Reset`, none of whose calls overlaps another: the table grows to the length `128 = 2^7`,
and `Store`, `Inc` and `Reset` keep that length. -/
theorem table_length_power_of_two_witness :
    Scene.calmRun 64 (Scene.start [(1, 3), (1, 15)] 1) (storeRun ++ [Op.store 0 9]) = true ∧
    ((Scene.start [(1, 3), (1, 15)] 1).runOps 64 storeRun).world.mem.cells = some ⟨5, 128⟩ ∧
    (((Scene.start [(1, 3), (1, 15)] 1).runOps 64 storeRun).world.mem.cells = none ∨
      ∃ as k, ((Scene.start [(1, 3), (1, 15)] 1).runOps 64 storeRun).world.mem.cells = some as ∧
        1 ≤ k ∧ as.len = 2 ^ k) ∧
    (((Scene.start [(1, 3), (1, 15)] 1).runOps 64 storeRun).world.mem.cells ≠ none →
      (((Scene.start [(1, 3), (1, 15)] 1).runOps 64 storeRun).apply 64
        (Op.store 0 9)).world.mem.cells ≠ none) ∧
    ((Scene.start [(1, 3), (1, 15)] 1).runOps 64 storeRun).world.mem.tableLen ≤
      (((Scene.start [(1, 3), (1, 15)] 1).runOps 64 storeRun).apply 64
        (Op.store 0 9)).world.mem.tableLen :=
  ⟨calm_storeRun, by rw [run_storeRun]; exact run_storeRun_end.1,
    (table_length_power_of_two 64 [(1, 3), (1, 15)] 1 storeRun (Op.store 0 9)).1,
    (table_length_power_of_two 64 [(1, 3), (1, 15)] 1 storeRun (Op.store 0 9)).2.1,
    (table_length_power_of_two 64 [(1, 3), (1, 15)] 1 storeRun (Op.store 0 9)).2.2
      calm_storeRun⟩

end Garr

namespace Garr

/-- Claim C14 (amended): for every non-nil delegated function, `Execute` runs it once when
`CanRequest` allows and returns its result and its error, and returns `ErrFailFast`
without running it when `CanRequest` refuses. In both cases the breaker and the ticker
afterwards are those that `CanRequest` leaves: `Execute` calls neither `OnSuccess` nor
`OnFailure`, and a Closed breaker is exactly as before whatever the function returned. -/
theorem execute_gates {σ α : Type} (nb : NonBlockingCircuitBreaker) (tk : Ticker)
    (f : σ → (Option α × Option ExecError) × σ) (w : σ) :
    ((nb.CanRequest tk).1 = true →
      nb.Execute tk (some f) w = ((f w).1, (nb.CanRequest tk).2.1, (nb.CanRequest tk).2.2,
        (f w).2)) ∧
    ((nb.CanRequest tk).1 = false →
      nb.Execute tk (some f) w =
        ((none, some .ErrFailFast), (nb.CanRequest tk).2.1, (nb.CanRequest tk).2.2, w)) ∧
    (nb.s.cs = .Closed → nb.Execute tk (some f) w = ((f w).1, nb, tk, (f w).2)) :=
  ⟨(execute_spec nb tk f w).1, (execute_spec nb tk f w).2, execute_closed tk f w⟩

/-- A failing function handed to `Execute` on an Open breaker that refuses, which does not
run it, and on a Closed breaker, which runs it once and is exactly as before. -/
theorem execute_gates_witness :
    (openBreaker.1.CanRequest openBreaker.2.2).1 = false ∧
    openBreaker.1.Execute openBreaker.2.2 (some failingFn) 0 =
      ((none, some .ErrFailFast), (openBreaker.1.CanRequest openBreaker.2.2).2.1,
        (openBreaker.1.CanRequest openBreaker.2.2).2.2, 0) ∧
    tripBreaker.s.cs = .Closed ∧
    tripBreaker.Execute tripTicker (some failingFn) 0 =
      ((none, some (.other "remote failure")), tripBreaker, tripTicker, 1) :=
  ⟨rfl, (execute_gates openBreaker.1 openBreaker.2.2 failingFn 0).2.1 rfl, rfl,
    (execute_gates tripBreaker tripTicker failingFn 0).2.2 rfl⟩

end Garr
